import Mathlib

/-!
# SMT-RAT `SATModule`: Boolean abstraction of constraints, clause addition, unit propagation,
conflict analysis and search

A shallow embedding of parts of `src/modules/SATModule.cpp` (a MiniSat-derived CDCL engine with
a map between arithmetic constraints and Boolean literals), of `evaluate`,
`Constraint::isConsistent`, `Constraint::compare` and `Constraint::combineConstraints` from
`src/lib/Constraint.cpp`, of the search for the operator in `ConstraintPool::newConstraint`
(`src/ConstraintPool.cpp`), of the arithmetic of square root expressions
(`src/lib/modules/VSModule/SqrtEx.cpp`) and of
`PreprocessingModule::rewritePotentialInequalities`
(`src/lib/modules/PreprocessingModule/PreprocessingModule.cpp`).

Conventions of the embedding.

* MiniSat's `vec<T>` members that are indexed by a variable (`assigns`, `vardata`, `seen`,
  `polarity`, `decision`) are total maps from indices together with the common size `nVars`;
  `trail`, `trail_lim`, `clauses`, `learnts` are lists.  Reading such a vector outside its size is
  undefined in C++; statements that depend on such reads carry in-range hypotheses.
* `assert(...)` is a precondition of the C++ code: it is not executed by the embedding (as in a
  build with `NDEBUG`) and appears as a hypothesis where a statement relies on it.
* Loops whose number of iterations is not bounded by the size of a list take a fuel argument and
  return `none` only when the fuel is used up.
* Loops that the source leaves by dereferencing `CRef_Undef` or by running off the trail have no
  defined result there; the embedding returns `none` in these cases as well.
* Floating-point data (activities, `max_learnts`, the garbage fraction) is not part of the
  embedding.  Where the source branches on it the branch is a parameter of the embedded function,
  and the variable order heap is the list of its members whose minimum is chosen by a parameter.
* Values of type `int` are integers; where an operation can leave the range of 32 bits (in
  `luby`) its result is reduced to this range by `wrapInt`.  An `unsigned` index (in
  `popBacktrackPoint`) is a natural number taken modulo `2 ^ 32`, a `string::size_type` one
  taken modulo `2 ^ 64`.
-/

namespace smtrat

/-! ## Constraints -/

/-- Modelled from the spec: the enumeration `Constraint_Relation` is declared in the header
`Constraint.h`, which is not part of the sources at hand; its relation kinds are "drawn from
{EQ, NEQ, LESS, GREATER, LEQ, GEQ}". -/
inductive Constraint_Relation
  | CR_EQ
  | CR_NEQ
  | CR_LESS
  | CR_GREATER
  | CR_LEQ
  | CR_GEQ
  deriving DecidableEq, Repr

/-- The function `evaluate( const numeric& _value, Constraint_Relation _relation )` of
`Constraint.cpp`: does `_value  _relation  0` hold? -/
def evaluate (_value : ℚ) (_relation : Constraint_Relation) : Bool :=
  match _relation with
  | .CR_EQ => if _value = 0 then true else false
  | .CR_NEQ => if _value ≠ 0 then true else false
  | .CR_LESS => if _value < 0 then true else false
  | .CR_GREATER => if _value > 0 then true else false
  | .CR_LEQ => if _value ≤ 0 then true else false
  | .CR_GEQ => if _value ≥ 0 then true else false

/-- Modelled from the spec: the class declaration of `Constraint` (header `Constraint.h`) and the
expression type `GiNaC::ex` are not part of the sources at hand.  A constraint is "a normalized
relation between a polynomial expression and zero"; `E` is the type of expressions in normal form,
on which the constructor's `normalize` is the identity, with the negation `-e` for the products
`-1 * e` and `-e` of the source.  The identifier `mID` of every constraint built by `getLiteral`
is the constructor's default `0`, and `mVariables` is determined by `lhs`, so that
`Constraint::operator==` compares exactly the two fields below. -/
structure Constraint (E : Type) where
  lhs : E
  relation : Constraint_Relation
  deriving DecidableEq, Repr

/-- Modelled from the spec: the class `Formula` is not part of the sources at hand.  These are the
formulas `getLiteral` accepts, a Boolean symbol (`BOOL`, with its identifier) or a constraint
(`REALCONSTRAINT`); every other formula type runs into `assert( false )`. -/
inductive Formula (E : Type)
  | BOOL (identifier : String)
  | REALCONSTRAINT (constraint : Constraint E)
  deriving DecidableEq, Repr

/-! ## Literals, clauses, watchers -/

/-- Boolean variables are indices. -/
abbrev Var := Nat

/-- References into the clause allocator. -/
abbrev CRef := Nat

/-- Modelled from the spec: MiniSat's `Lit` (header `SolverTypes.h`) is not part of the sources at
hand; a literal is "a (variable, polarity) pair", built by `mkLit( var, sign )`. -/
structure Lit where
  var : Nat
  sign : Bool
  deriving DecidableEq, Repr

/-- Modelled from the spec: the call `mkLit( v, b )` of MiniSat, the literal of variable `v` with
sign `b`. -/
def mkLit (v : Nat) (b : Bool) : Lit := ⟨v, b⟩

/-- Modelled from the spec: the complement `~p` of MiniSat, same variable and other sign ("for
every variable there exist exactly two literals"). -/
def Lit.neg (p : Lit) : Lit := ⟨p.var, !p.sign⟩

/-- Modelled from the spec: the index `toInt( p ) = 2 * var + sign` of MiniSat ("hashing/ordering
must treat them as small integers"); it is the order `sort` uses on literals. -/
def Lit.toInt (p : Lit) : Nat := 2 * p.var + (if p.sign then 1 else 0)

/-- Modelled from the spec: MiniSat's lifted Booleans `l_True`, `l_False`, `l_Undef` ("value is
Undefined/True/False at any point"). -/
inductive lbool
  | l_True
  | l_False
  | l_Undef
  deriving DecidableEq, Repr

/-- Modelled from the spec: the conversion `lbool( b )` of MiniSat. -/
def lbool.ofBool (b : Bool) : lbool := if b then .l_True else .l_False

/-- Modelled from the spec: the operator `lbool ^ bool` of MiniSat, which flips a defined value
when the Boolean is set. -/
def lbool.xor (a : lbool) (b : Bool) : lbool :=
  match a with
  | .l_Undef => .l_Undef
  | .l_True => if b then .l_False else .l_True
  | .l_False => if b then .l_True else .l_False

/-- Modelled from the spec: MiniSat's `Clause` (header not at hand), an "ordered sequence of
Literals, tagged learnt or original", with the deletion mark. -/
structure Clause where
  lits : List Lit
  learnt : Bool
  mark : Nat
  deriving DecidableEq, Repr

/-- Modelled from the spec: the literal `c[i]` of a clause.  Reading past the size of a clause is
undefined in C++; the embedding then yields the literal of variable `0` with sign `false`. -/
def Clause.get (c : Clause) (i : Nat) : Lit := c.lits.getD i ⟨0, false⟩

/-- Modelled from the spec: the assignment `c[i] = l` to a literal of a clause. -/
def Clause.set (c : Clause) (i : Nat) (l : Lit) : Clause := { c with lits := c.lits.set i l }

/-- The step "make sure the false literal is data[1]" of `propagate`:
`if( c[0] == false_lit ) c[0] = c[1], c[1] = false_lit`. -/
def Clause.swapFalseLit (c : Clause) (false_lit : Lit) : Clause :=
  if c.get 0 = false_lit then (c.set 0 (c.get 1)).set 1 false_lit else c

/-- The step of `propagate` that makes `c[k]` the new watch: `c[1] = c[k]; c[k] = false_lit`. -/
def Clause.newWatch (c : Clause) (k : Nat) (false_lit : Lit) : Clause :=
  (c.set 1 (c.get k)).set k false_lit

/-- Modelled from the spec: the call `sort( ps )` (header `SATModule/Sort.h`, not at hand) on a
vector of literals, ascending in `toInt`. -/
def sort (ps : List Lit) : List Lit :=
  ps.insertionSort (fun a b => a.toInt ≤ b.toInt)

/-- Modelled from the spec: MiniSat's `Watcher` (header not at hand), the watched clause and a
blocker literal. -/
structure Watcher where
  cref : CRef
  blocker : Lit
  deriving DecidableEq, Repr

/-- Modelled from the spec: MiniSat's `VarData` (header not at hand), reason and decision level
of an assigned variable (`mkVarData( reason, level )`); the reason `CRef_Undef` is `none`. -/
structure VarData where
  reason : Option CRef
  level : Nat
  deriving DecidableEq, Repr

/-! ## Solver state -/

/-- Modelled from the spec: the class declaration (header `SATModule.h`) is not part of the
sources at hand.  These are the members of `SATModule` read or written by the embedded functions,
as the constructor in `SATModule.cpp` initialises them.  The two abstraction maps are keyed by
constraints compared with `Constraint::operator==` and by literals.  `mPassedFormula` is the
passed formula of the base class `Module`, the constraints handed to the backends, in the order of
their positions. -/
structure SATModule (E : Type) where
  ok : Bool
  ca : CRef → Clause
  caSize : Nat
  clauses : List CRef
  learnts : List CRef
  watches : Lit → List Watcher
  dirty : Lit → Bool
  dirties : List Lit
  nVars : Nat
  assigns : Var → lbool
  vardata : Var → VarData
  seen : Var → Bool
  polarity : Var → Bool
  decision : Var → Bool
  dec_vars : Nat
  trail : List Lit
  trail_lim : List Nat
  qhead : Nat
  clauses_literals : Nat
  learnts_literals : Nat
  propagations : Nat
  simpDB_props : Int
  mConstraintLiteralMap : Constraint E → Option Lit
  mLitConstraintMap : Lit → Option (Constraint E × Formula E)
  mBooleanVarMap : String → Option Var
  order_heap : List Var
  decisions : Nat
  conflicts : Nat
  phase_saving : Int
  ccmin_mode : Int
  analyze_toclear : List Lit
  mPassedFormula : List (Constraint E)
  assumptions : List Lit
  conflict : List Lit
  model : List lbool
  solves : Nat
  starts : Nat
  simpDB_assigns : Int
  remove_satisfied : Bool
  conflict_budget : Int
  propagation_budget : Int
  asynch_interrupt : Bool

namespace SATModule

variable {E : Type}

/-- The state right after construction: no variables, no clauses, empty maps, no budget, and the
options `phase-saving` and `ccmin-mode` at their defaults. -/
def init (E : Type) : SATModule E where
  ok := true
  ca := fun _ => ⟨[], false, 0⟩
  caSize := 0
  clauses := []
  learnts := []
  watches := fun _ => []
  dirty := fun _ => false
  dirties := []
  nVars := 0
  assigns := fun _ => .l_Undef
  vardata := fun _ => ⟨none, 0⟩
  seen := fun _ => false
  polarity := fun _ => false
  decision := fun _ => false
  dec_vars := 0
  trail := []
  trail_lim := []
  qhead := 0
  clauses_literals := 0
  learnts_literals := 0
  propagations := 0
  simpDB_props := 0
  mConstraintLiteralMap := fun _ => none
  mLitConstraintMap := fun _ => none
  mBooleanVarMap := fun _ => none
  order_heap := []
  decisions := 0
  conflicts := 0
  phase_saving := 2
  ccmin_mode := 2
  analyze_toclear := []
  mPassedFormula := []
  assumptions := []
  conflict := []
  model := []
  solves := 0
  starts := 0
  simpDB_assigns := -1
  remove_satisfied := true
  conflict_budget := -1
  propagation_budget := -1
  asynch_interrupt := false

/-- Modelled from the spec: the call `decisionLevel()` of MiniSat, the number of decisions on the
trail (`trail_lim.size()`). -/
def decisionLevel (s : SATModule E) : Nat := s.trail_lim.length

/-- Modelled from the spec: the value of a literal, `value( p ) = assigns[var( p )] ^ sign( p )`
in MiniSat; it agrees with `uncheckedEnqueue`, which makes the enqueued literal true. -/
def value (s : SATModule E) (p : Lit) : lbool := (s.assigns p.var).xor p.sign

/-- Modelled from the spec: the variable order heap (`Heap`, MiniSat header) is not part of the
sources at hand.  It is kept as the list of its members; `insertVarOrder( x )` inserts a decision
variable that is not in the heap. -/
def insertVarOrder (s : SATModule E) (x : Var) : SATModule E :=
  if x ∉ s.order_heap ∧ s.decision x = true then { s with order_heap := s.order_heap ++ [x] }
  else s

/-- The method `newVar( sign, dvar )` (`getLiteral` calls it with the defaults of the header,
`sign = true` and `dvar = true`): the new variable is `nVars()`; its two watch lists are
initialised, it is unassigned, has no reason, level `0`, and is made a decision variable when
`dvar` is set (`setDecisionVar`). -/
def newVar (s : SATModule E) (sign dvar : Bool) : Var × SATModule E :=
  let v := s.nVars
  (v, { s with
    watches := Function.update (Function.update s.watches (mkLit v false) []) (mkLit v true) []
    dirty := Function.update (Function.update s.dirty (mkLit v false) false) (mkLit v true) false
    nVars := v + 1
    assigns := Function.update s.assigns v .l_Undef
    vardata := Function.update s.vardata v ⟨none, 0⟩
    seen := Function.update s.seen v false
    polarity := Function.update s.polarity v sign
    decision := Function.update s.decision v dvar
    dec_vars := if dvar then s.dec_vars + 1 else s.dec_vars
    order_heap := if v ∉ s.order_heap ∧ dvar = true then s.order_heap ++ [v] else s.order_heap })

/-! ## The constraint abstraction map -/

/-- The first switch of `getLiteral`: `CR_GEQ` becomes `CR_LEQ` and `CR_GREATER` becomes `CR_LESS`,
both with `sign = -1`; the result is `Constraint( sign*constraint.lhs(), rel, ... )`. -/
def normalizedConstraint [Neg E] (constraint : Constraint E) : Constraint E :=
  match constraint.relation with
  | .CR_GEQ => ⟨-constraint.lhs, .CR_LEQ⟩
  | .CR_GREATER => ⟨-constraint.lhs, .CR_LESS⟩
  | rel => ⟨constraint.lhs, rel⟩

/-- The six-case switch of `getLiteral` that registers both literals of the new variable:
the pairs `(constraint of posLit, constraint of negLit)`. -/
def registeredPair [Neg E] (constraint : Constraint E) : Constraint E × Constraint E :=
  let normalized := normalizedConstraint constraint
  match constraint.relation with
  | .CR_EQ => (normalized, ⟨constraint.lhs, .CR_NEQ⟩)
  | .CR_NEQ => (⟨constraint.lhs, .CR_EQ⟩, normalized)
  | .CR_LEQ => (normalized, ⟨constraint.lhs, .CR_GREATER⟩)
  | .CR_GEQ => (normalized, ⟨-constraint.lhs, .CR_GREATER⟩)
  | .CR_LESS => (⟨-constraint.lhs, .CR_LEQ⟩, normalized)
  | .CR_GREATER => (⟨constraint.lhs, .CR_LEQ⟩, normalized)

/-- The method `getLiteral( const Formula* _formula )`.

For a Boolean symbol the literal `mkLit( var, true )` of its (possibly new) variable is returned.
For a constraint, the normalized constraint is looked up in `mConstraintLiteralMap`; when it is
absent a new variable is made and both its literals are registered in `mLitConstraintMap` and
`mConstraintLiteralMap` (in every one of the six cases the entries of `posLit` and `negLit` are
written for two different keys, those of `posLit` first), and
`mConstraintLiteralMap[normalizedConstraint]` is returned; this key is always present then, so the
default of `getD` below is never taken. -/
def getLiteral [DecidableEq E] [Neg E] (_formula : Formula E) (s : SATModule E) :
    Lit × SATModule E :=
  match _formula with
  | .BOOL identifier =>
    match s.mBooleanVarMap identifier with
    | some v => (mkLit v true, s)
    | none =>
      let (v, s1) := s.newVar true true
      (mkLit v true,
        { s1 with mBooleanVarMap := Function.update s1.mBooleanVarMap identifier (some v) })
  | .REALCONSTRAINT constraint =>
    let normalized := normalizedConstraint constraint
    match s.mConstraintLiteralMap normalized with
    | some l => (l, s)
    | none =>
      let (booleanVariable, s1) := s.newVar true true
      let posLit := mkLit booleanVariable true
      let negLit := mkLit booleanVariable false
      let (cPos, cNeg) := registeredPair constraint
      let lc := Function.update
        (Function.update s1.mLitConstraintMap posLit (some (cPos, _formula)))
        negLit (some (cNeg, _formula))
      let cl := Function.update (Function.update s1.mConstraintLiteralMap cPos (some posLit))
        cNeg (some negLit)
      ((cl normalized).getD posLit,
        { s1 with mLitConstraintMap := lc, mConstraintLiteralMap := cl })

/-! ## Clause store and unit propagation -/

/-- Modelled from the spec: the clause allocator (`ClauseAllocator`, MiniSat header) is not part of
the sources at hand.  `ca.alloc( ps, learnt )` stores a new clause with the given literals and
returns its reference; references are handed out consecutively, and the mark of a new clause is
`0`. -/
def alloc (s : SATModule E) (ps : List Lit) (learnt : Bool) : CRef × SATModule E :=
  (s.caSize, { s with ca := Function.update s.ca s.caSize ⟨ps, learnt, 0⟩, caSize := s.caSize + 1 })

/-- The method `attachClause( cr )`: watch the first two literals of the clause. -/
def attachClause (s : SATModule E) (cr : CRef) : SATModule E :=
  let c := s.ca cr
  let w0 := Function.update s.watches (c.get 0).neg (s.watches (c.get 0).neg ++ [⟨cr, c.get 1⟩])
  let w1 := Function.update w0 (c.get 1).neg (w0 (c.get 1).neg ++ [⟨cr, c.get 0⟩])
  { s with
    watches := w1
    learnts_literals := if c.learnt then s.learnts_literals + c.lits.length else s.learnts_literals
    clauses_literals := if c.learnt then s.clauses_literals else s.clauses_literals + c.lits.length }

/-- The method `uncheckedEnqueue( p, from )`: `assigns[var( p )] = lbool( !sign( p ) )`, the
reason and the current decision level are recorded, and `p` is pushed on the trail. -/
def uncheckedEnqueue (s : SATModule E) (p : Lit) (src : Option CRef) : SATModule E :=
  { s with
    assigns := Function.update s.assigns p.var (lbool.ofBool (!p.sign))
    vardata := Function.update s.vardata p.var ⟨src, s.decisionLevel⟩
    trail := s.trail ++ [p] }

/-- Modelled from the spec: the watch lists (`OccLists`, MiniSat header) are not part of the
sources at hand.  `watches.cleanAll()` is the "batched cleanup" of lazily detached clauses: every
list that was smudged and is still dirty loses the watchers of deleted clauses (mark `1`), its
dirty flag is reset, and the list of smudged literals is cleared. -/
def cleanAll (s : SATModule E) : SATModule E :=
  let s1 := s.dirties.foldl (fun (t : SATModule E) idx =>
    if t.dirty idx then
      { t with
        watches := Function.update t.watches idx
          ((t.watches idx).filter (fun w => (t.ca w.cref).mark ≠ 1))
        dirty := Function.update t.dirty idx false }
    else t) s
  { s1 with dirties := [] }

/-- The loop `for( int k = 2; k < c.size(); k++ ) if( value( c[k] ) != l_False )` of `propagate`:
the first index `k`, counted from the given start, whose literal is not false. -/
def findNewWatch (s : SATModule E) : List Lit → Nat → Option Nat
  | [], _ => none
  | l :: ls, k => if s.value l ≠ .l_False then some k else findNewWatch s ls (k + 1)

/-- The write of a clause through the reference `Clause& c = ca[cr]`. -/
def storeClause (s : SATModule E) (cr : CRef) (c : Clause) : SATModule E :=
  { s with ca := Function.update s.ca cr c }

/-- The call `watches[q].push( w )`. -/
def pushWatcher (s : SATModule E) (q : Lit) (w : Watcher) : SATModule E :=
  { s with watches := Function.update s.watches q (s.watches q ++ [w]) }

/-- The inner loop of `propagate` over the watch list `ws` of the enqueued fact `p`.

The first list holds the watchers from `i` to `end`, `kept` the watchers already written through
`j`.  The result is the content of `ws` after `ws.shrink( i - j )`, the conflict found (if any) and
the state.  Watchers pushed during the loop go to `watches[~c[1]]` for a literal `c[1]` that is not
false; this is another list than `ws` whenever `p` is true, as on the trail. -/
def propagateWatches (p : Lit) :
    List Watcher → List Watcher → Option CRef → SATModule E →
      List Watcher × Option CRef × SATModule E
  | [], kept, confl, s => (kept, confl, s)
  | w :: rest, kept, confl, s =>
    -- Try to avoid inspecting the clause:
    if s.value w.blocker = .l_True then
      propagateWatches p rest (kept ++ [w]) confl s
    else
      -- Make sure the false literal is data[1]:
      let c := (s.ca w.cref).swapFalseLit p.neg
      let s1 := s.storeClause w.cref c
      -- If 0th watch is true, then clause is already satisfied.
      let first := c.get 0
      let w1 : Watcher := ⟨w.cref, first⟩
      if first ≠ w.blocker ∧ s1.value first = .l_True then
        propagateWatches p rest (kept ++ [w1]) confl s1
      else
        -- Look for new watch:
        match findNewWatch s1 (c.lits.drop 2) 2 with
        | some k =>
          let c2 := c.newWatch k p.neg
          propagateWatches p rest kept confl
            ((s1.storeClause w.cref c2).pushWatcher (c2.get 1).neg w1)
        | none =>
          -- Did not find watch -- clause is unit under assignment:
          if s1.value first = .l_False then
            (kept ++ [w1] ++ rest, some w.cref, { s1 with qhead := s1.trail.length })
          else
            propagateWatches p rest (kept ++ [w1]) confl (s1.uncheckedEnqueue first (some w.cref))

/-- The outer loop `while( qhead < trail.size() )` of `propagate`, with the conflict found so far
and the counter `num_props`.  One unit of fuel is used per enqueued fact; `none` means that the
fuel was used up before the queue was empty. -/
def propagateLoop :
    Nat → Option CRef → Nat → SATModule E → Option (Option CRef × Nat × SATModule E)
  | 0, confl, num_props, s =>
    if s.qhead < s.trail.length then none else some (confl, num_props, s)
  | fuel + 1, confl, num_props, s =>
    if s.qhead < s.trail.length then
      let p := s.trail.getD s.qhead ⟨0, false⟩
      let s1 := { s with qhead := s.qhead + 1 }
      let r := propagateWatches p (s1.watches p) [] confl s1
      let s2 := { r.2.2 with watches := Function.update r.2.2.watches p r.1 }
      propagateLoop fuel r.2.1 (num_props + 1) s2
    else some (confl, num_props, s)

/-- The method `propagate()`: propagates all enqueued facts and returns the conflicting clause
(`none` inside the result for `CRef_Undef`) with the new state. -/
def propagate (fuel : Nat) (s : SATModule E) : Option (Option CRef × SATModule E) :=
  match propagateLoop fuel none 0 s.cleanAll with
  | none => none
  | some (confl, num_props, s1) =>
    some (confl, { s1 with
      propagations := s1.propagations + num_props
      simpDB_props := s1.simpDB_props - num_props })

/-- The loop of `addClause_` over the sorted literals, `p` being the literal kept last
(`lit_Undef`, here `none`, at the start): `none` when the loop leaves the method with `true`
(a literal is true, or it is the complement of the literal kept last), otherwise the literals
written to `ps[0..j)`. -/
def addClauseLoop (s : SATModule E) : Option Lit → List Lit → Option (List Lit)
  | _, [] => some []
  | p, q :: rest =>
    if s.value q = .l_True ∨ some q = p.map Lit.neg then none
    else if s.value q ≠ .l_False ∧ some q ≠ p then
      (addClauseLoop s (some q) rest).map (fun kept => q :: kept)
    else addClauseLoop s p rest

/-- The method `addClause_( vec<Lit>& ps )`, with the fuel for the call of `propagate`.
The result is the returned Boolean and the new state. -/
def addClause_ (fuel : Nat) (s : SATModule E) (ps : List Lit) : Option (Bool × SATModule E) :=
  if !s.ok then some (false, s)
  else
    -- Check if clause is satisfied and remove false/duplicate literals:
    match addClauseLoop s none (sort ps) with
    | none => some (true, s)
    | some [] => some (false, { s with ok := false })
    | some [l] =>
      match (s.uncheckedEnqueue l none).propagate fuel with
      | none => none
      | some (confl, s1) => some (confl == none, { s1 with ok := confl == none })
    | some qs =>
      let r := s.alloc qs false
      some (true, ({ r.2 with clauses := r.2.clauses ++ [r.1] }).attachClause r.1)

/-! ## Invariants and concrete data used in the statements -/

/-- The two abstraction maps agree: every key of `mConstraintLiteralMap` is mapped to a literal of
an existing variable, and `mLitConstraintMap` maps that literal back to the key.  This holds in the
initial state and is kept by `getLiteral`, the only method that writes the maps or makes
variables. -/
def MapsConsistent (s : SATModule E) : Prop :=
  ∀ k l, s.mConstraintLiteralMap k = some l →
    l.var < s.nVars ∧ ∃ f, s.mLitConstraintMap l = some (k, f)

/-- Linear expressions `a*x + b` in one variable `x`, as the pair `(a, b)`: a concrete type of
expressions on which the embedding can be evaluated. -/
abbrev LinExpr := ℤ × ℤ

/-- The constraint `x <= 0`. -/
def xLeq : Formula LinExpr := .REALCONSTRAINT ⟨(1, 0), .CR_LEQ⟩

/-- The constraint `x > 0`. -/
def xGreater : Formula LinExpr := .REALCONSTRAINT ⟨(1, 0), .CR_GREATER⟩

/-- The constraint `x >= 0`. -/
def xGeq : Formula LinExpr := .REALCONSTRAINT ⟨(1, 0), .CR_GEQ⟩

/-- The constraint `x < 0`. -/
def xLess : Formula LinExpr := .REALCONSTRAINT ⟨(1, 0), .CR_LESS⟩

/-! ## Well-formed states and the measure of `propagate` -/

/-- The number of unassigned variables among the first `n`. -/
def numUndef (assigns : Nat → lbool) : Nat → Nat
  | 0 => 0
  | n + 1 => numUndef assigns n + (if assigns n = .l_Undef then 1 else 0)

/-- Every literal on the trail and in a clause of the allocator is over an existing variable. -/
structure InRange (s : SATModule E) : Prop where
  trail_range : ∀ l ∈ s.trail, l.var < s.nVars
  clause_range : ∀ cr, ∀ l ∈ (s.ca cr).lits, l.var < s.nVars

/-- The well-formed states: `qhead` is an index into the trail, literals are over existing
variables, and every watched clause has at least two literals (the `assert( c.size() > 1 )` of
`attachClause`).  The initial state is well-formed and `newVar`, `getLiteral`, `uncheckedEnqueue`
of a literal in range, `propagate` and `addClause_` keep it. -/
structure WellFormed (s : SATModule E) : Prop where
  qhead_le : s.qhead ≤ s.trail.length
  inRange : InRange s
  watched_size : ∀ p, ∀ w ∈ s.watches p, 2 ≤ (s.ca w.cref).lits.length

/-- What the inner loop of `propagate` keeps between two states: the number of variables, the
size of every clause, and the sum of the number of unassigned variables and the length of the
trail (every enqueued literal assigns one unassigned variable); the trail only grows. -/
structure Progress (s s' : SATModule E) : Prop where
  nVars_eq : s'.nVars = s.nVars
  length_eq : ∀ cr, (s'.ca cr).lits.length = (s.ca cr).lits.length
  measure_eq : numUndef s'.assigns s'.nVars + s'.trail.length
    = numUndef s.assigns s.nVars + s.trail.length
  trail_le : s.trail.length ≤ s'.trail.length

/-- The state after the call `addClause_( ps )`, with fuel that suffices for its `propagate`. -/
def afterAddClause (s : SATModule E) (ps : List Lit) : SATModule E :=
  match addClause_ (s.nVars + s.trail.length + 1) s ps with
  | some r => r.2
  | none => s

/-- The solver with two Boolean variables `0` and `1` and no clause. -/
def twoVars : SATModule LinExpr := (((init LinExpr).newVar true true).2.newVar true true).2

/-- The solver with the variables `0`, `1` and the clauses `[~0, 1]` and `[~0, ~1]`
(the literal `mkLit v true` is the negation of variable `v`, see `uncheckedEnqueue`). -/
def twoBinaryClauses : SATModule LinExpr :=
  afterAddClause (afterAddClause twoVars [mkLit 0 true, mkLit 1 false])
    [mkLit 0 true, mkLit 1 true]

/-- The solver with the variables `0`, `1` after the empty clause was added (`addEmptyClause`). -/
def afterEmptyClause : SATModule LinExpr := afterAddClause twoVars []

/-! ## Backtracking -/

/-- The body of the loop of `cancelUntil` for the trail position `c` with literal `l`: the
variable is unassigned, its phase is saved under the condition of the source,
`( phase_saving > 1 || (phase_saving == 1) ) && c > trail_lim.last()`, and it is put back into
the order heap. -/
def cancelStep (s : SATModule E) (c : Nat) (l : Lit) : SATModule E :=
  let x := l.var
  let s1 := { s with
    assigns := Function.update s.assigns x .l_Undef
    polarity :=
      if (s.phase_saving > 1 ∨ s.phase_saving = 1) ∧ c > s.trail_lim.getLastD 0 then
        Function.update s.polarity x l.sign
      else s.polarity }
  s1.insertVarOrder x

/-- The loop `for( int c = trail.size() - 1; c >= lim; c-- )` of `cancelUntil` over the literals
of the trail from position `lim` on, given here with the position of the first one: the last
position is handled first. -/
def cancelLoop (s : SATModule E) : Nat → List Lit → SATModule E
  | _, [] => s
  | c, l :: ls => (cancelLoop s (c + 1) ls).cancelStep c l

/-- The method `cancelUntil( level )`: revert to the state at the given level, keeping all
assignments at `level` but not beyond. -/
def cancelUntil (s : SATModule E) (level : Nat) : SATModule E :=
  if s.decisionLevel > level then
    let lim := s.trail_lim.getD level 0
    let s1 := cancelLoop s lim (s.trail.drop lim)
    { s1 with
      qhead := lim
      trail := s.trail.take lim
      trail_lim := s.trail_lim.take level }
  else s

/-! ## Removal of clauses and reduction of the learnt clauses -/

/-- Modelled from the spec: the method `locked( c )` (MiniSat header) for the clause with
reference `cr`: the clause is "currently serving as a propagation reason", that is, its first
literal is true and the reason of the variable of this literal is the clause itself. -/
def locked (s : SATModule E) (cr : CRef) : Bool :=
  decide (s.value ((s.ca cr).get 0) = .l_True ∧
    (s.vardata ((s.ca cr).get 0).var).reason = some cr)

/-- Modelled from the spec: the call `watches.smudge( idx )` of the watch lists (MiniSat header),
the "smudge marking" of a list for the batched cleanup. -/
def smudge (s : SATModule E) (idx : Lit) : SATModule E :=
  if s.dirty idx = false then
    { s with dirty := Function.update s.dirty idx true, dirties := s.dirties ++ [idx] }
  else s

/-- The method `detachClause( cr, strict )` with `strict = false`, the default of the header that
`removeClause` uses: lazy detaching, both watcher lists of the clause are smudged. -/
def detachClause (s : SATModule E) (cr : CRef) : SATModule E :=
  let c := s.ca cr
  let s1 := (s.smudge (c.get 0).neg).smudge (c.get 1).neg
  { s1 with
    learnts_literals := if c.learnt then s1.learnts_literals - c.lits.length else s1.learnts_literals
    clauses_literals := if c.learnt then s1.clauses_literals else s1.clauses_literals - c.lits.length }

/-- The method `removeClause( cr )`: the clause is detached, the reason of its first variable is
reset when the clause is locked, and the clause is marked as deleted (`c.mark( 1 )`; the
accounting of `ca.free` is not part of the embedding). -/
def removeClause (s : SATModule E) (cr : CRef) : SATModule E :=
  let c := s.ca cr
  let s1 := s.detachClause cr
  let s2 := if s1.locked cr then
      { s1 with
        vardata := Function.update s1.vardata (c.get 0).var
          (VarData.mk none (s1.vardata (c.get 0).var).level) }
    else s1
  { s2 with ca := Function.update s2.ca cr { s2.ca cr with mark := 1 } }

/-- The method `garbageCollect()`.  Clause references are names in the embedding and not positions
in memory, so that moving the clauses to a new allocator (`relocAll`) leaves every reference as it
is; what remains of `relocAll` is its call of `watches.cleanAll()`. -/
def garbageCollect (s : SATModule E) : SATModule E := s.cleanAll

/-- Modelled from the spec: the method `checkGarbage()` (MiniSat header) collects garbage when
the wasted memory exceeds the fraction `garbage_frac`; whether it does is the parameter `gc`. -/
def checkGarbage (gc : Bool) (s : SATModule E) : SATModule E :=
  if gc then s.garbageCollect else s

/-- The loop of `reduceDB` over the sorted learnt clauses, from index `i` on: a clause is removed
when `c.size() > 2 && !locked( c ) && (i < learnts.size() / 2 || c.activity() < extra_lim)`,
with `half` for `learnts.size() / 2` and `low` for the comparison of the activity.  The result is
the list of the clauses that are kept and the state. -/
def reduceLoop (low : CRef → Bool) (half : Nat) :
    Nat → List CRef → SATModule E → List CRef × SATModule E
  | _, [], s => ([], s)
  | i, cr :: rest, s =>
    if (s.ca cr).lits.length > 2 ∧ s.locked cr = false ∧ (i < half ∨ low cr = true) then
      reduceLoop low half (i + 1) rest (s.removeClause cr)
    else
      ((reduceLoop low half (i + 1) rest s).1.cons cr, (reduceLoop low half (i + 1) rest s).2)

/-- The method `reduceDB()`.  The activities of the clauses are floating-point numbers: the
result of `sort( learnts, reduceDB_lt( ca ) )` is given by `order`, the test
`c.activity() < extra_lim` by `low`, and the decision of `checkGarbage` by `gc`. -/
def reduceDB (order : List CRef → List CRef) (low : CRef → Bool) (gc : Bool)
    (s : SATModule E) : SATModule E :=
  let sorted := order s.learnts
  let r := reduceLoop low (sorted.length / 2) 0 sorted { s with learnts := sorted }
  checkGarbage gc { r.2 with learnts := r.1 }

/-- The method `newDecisionLevel()` (MiniSat header): `trail_lim.push( trail.size() )`. -/
def newDecisionLevel (s : SATModule E) : SATModule E :=
  { s with trail_lim := s.trail_lim ++ [s.trail.length] }

/-- The solver with the variables `0`, `1` after the decision of the literal `0` at level 1. -/
def decidedOnce : SATModule LinExpr :=
  (twoVars.newDecisionLevel).uncheckedEnqueue (mkLit 0 false) none

/-- The method that stores a learnt clause as `search` does: `ca.alloc( learnt_clause, true )`,
`learnts.push( cr )`, `attachClause( cr )`. -/
def addLearnt (s : SATModule E) (ps : List Lit) : SATModule E :=
  let r := s.alloc ps true
  ({ r.2 with learnts := r.2.learnts ++ [r.1] } : SATModule E).attachClause r.1

/-- The solver with the variables `0`, `1`, `2` and the learnt clauses `[0, 1]` and
`[0, 1, 2]`. -/
def twoLearnts : SATModule LinExpr :=
  ((twoVars.newVar true true).2.addLearnt [mkLit 0 false, mkLit 1 false]).addLearnt
    [mkLit 0 false, mkLit 1 false, mkLit 2 false]

/-! ## Invariants of the trail, the watch lists and the reasons -/

/-- The trail and the assignment agree: every literal on the trail is true, every assigned
variable is on the trail, and no variable is on the trail twice. -/
structure TrailOK (s : SATModule E) : Prop where
  trail_true : ∀ l ∈ s.trail, s.value l = .l_True
  assigned : ∀ v : Nat, s.assigns v ≠ .l_Undef → v ∈ s.trail.map Lit.var
  nodup : (s.trail.map Lit.var).Nodup

/-- The watch lists and the clauses agree: no clause has a literal twice; a watcher in
`watches[q]` is for a clause with at least two literals, one of whose first two literals is `~q`,
and its blocker is a literal of the clause; no list has two watchers of one clause; every clause
in `clauses` or `learnts` has at least two literals and, unless it is marked as deleted, a watcher
in the lists of the complements of its first two literals (`attachClause`).  (`popBacktrackPoint`
calls `removeClause` for a clause and leaves it in `clauses`: such a clause is marked as deleted
and loses its watchers in the next cleanup of the lists.) -/
structure WatchOK (s : SATModule E) : Prop where
  lits_nodup : ∀ cr, (s.ca cr).lits.Nodup
  watch_lit : ∀ q, ∀ w ∈ s.watches q, 2 ≤ (s.ca w.cref).lits.length ∧
    ((s.ca w.cref).get 0 = q.neg ∨ (s.ca w.cref).get 1 = q.neg)
  blocker_mem : ∀ q, ∀ w ∈ s.watches q, w.blocker ∈ (s.ca w.cref).lits
  watch_nodup : ∀ q, ((s.watches q).map Watcher.cref).Nodup
  attached : ∀ cr, cr ∈ s.clauses ∨ cr ∈ s.learnts → 2 ≤ (s.ca cr).lits.length ∧
    ((s.ca cr).mark ≠ 1 →
      (∃ w ∈ s.watches ((s.ca cr).get 0).neg, w.cref = cr) ∧
      (∃ w ∈ s.watches ((s.ca cr).get 1).neg, w.cref = cr))

/-- The reasons agree with the trail: when the variable of the literal at position `i` of the
trail has the reason `cr`, this literal is the first literal of the clause `cr` and the variable
of every other literal of the clause is assigned by a literal of the trail before position `i`.
For a literal that `propagate` enqueued the other literals of the reason are false; `search` also
enqueues the first literal of a clause that `analyze` made with this clause as reason, and the
other literals of such a clause can be true (when the conflict was a clause built after the answer
`False` of the backends). -/
def ReasonOK (s : SATModule E) : Prop :=
  ∀ (i : Nat) (l : Lit) (cr : CRef), s.trail[i]? = some l →
    (s.vardata l.var).reason = some cr →
      1 ≤ (s.ca cr).lits.length ∧ (s.ca cr).get 0 = l ∧
        ∀ l' ∈ (s.ca cr).lits.tail, l'.var ∈ (s.trail.take i).map Lit.var

/-- The level of the literal at position `i` of the trail, as `trail_lim` gives it: the number of
decision levels that start at or before `i`. -/
def levelAt (trail_lim : List Nat) (i : Nat) : Nat := (trail_lim.filter (fun d => d ≤ i)).length

/-- The levels agree with the trail: `trail_lim` is ascending and within the trail, and the level
recorded for the variable of the literal at position `i` is the number of decision levels that
start at or before `i`. -/
structure LevelOK (s : SATModule E) : Prop where
  lim_sorted : s.trail_lim.Pairwise (fun a b => a ≤ b)
  lim_le : ∀ d ∈ s.trail_lim, d ≤ s.trail.length
  level_eq : ∀ (i : Nat) (l : Lit), s.trail[i]? = some l →
    (s.vardata l.var).level = levelAt s.trail_lim i

/-- The invariant of the two watched literals up to position `n` of the trail: a clause watched
in the list of a literal that is on the trail before position `n` has a true literal whose level
is not above the level of that literal. -/
def Propagated (s : SATModule E) (n : Nat) : Prop :=
  ∀ (i : Nat) (q : Lit), i < n → s.trail[i]? = some q → ∀ w ∈ s.watches q,
    ∃ l ∈ (s.ca w.cref).lits, s.value l = .l_True ∧
      (s.vardata l.var).level ≤ (s.vardata q.var).level

/-- The literals that are enqueued and not yet propagated are at the current decision level. -/
def QueueLevel (s : SATModule E) : Prop :=
  ∀ (i : Nat) (l : Lit), s.qhead ≤ i → s.trail[i]? = some l →
    (s.vardata l.var).level = s.decisionLevel

/-- The state with the watch list of `p` replaced, as at the end of the loop of `propagate` over
this list. -/
def setWatches (s : SATModule E) (p : Lit) (ws : List Watcher) : SATModule E :=
  { s with watches := Function.update s.watches p ws }

/-- The invariant of the loop of `propagate` over the watch list of the literal `p`, which is at
position `ip` of the trail; `rest` are the watchers still to be visited and `kept` those written
back, and `n0` is the size of the trail when `propagate` was called.  The invariants of the
state hold with `kept ++ rest` for the watch list of `p`; the literals from position `ip` on are at
the current decision level and those from position `n0` on have a reason whose other literals
are false; under the condition
`P`, the two watched literals are propagated up to `ip` and every clause of a watcher in `kept`
has a true literal. -/
structure LoopInv (P : Prop) (p : Lit) (ip n0 : Nat) (rest kept : List Watcher)
    (s : SATModule E) :
    Prop where
  trailOK : TrailOK s
  watchOK : WatchOK (s.setWatches p (kept ++ rest))
  reasonOK : ReasonOK s
  levelOK : LevelOK s
  p_at : s.trail[ip]? = some p
  queue_level : ∀ (i : Nat) (l : Lit), ip ≤ i → s.trail[i]? = some l →
    (s.vardata l.var).level = s.decisionLevel
  reasons_new : ∀ (i : Nat) (l : Lit), n0 ≤ i → s.trail[i]? = some l →
    ∃ cr, (s.vardata l.var).reason = some cr ∧
      ∀ l' ∈ (s.ca cr).lits.tail, s.value l' = .l_False
  pi_before : P → Propagated (s.setWatches p (kept ++ rest)) ip
  pi_kept : P → ∀ w ∈ kept, ∃ l ∈ (s.ca w.cref).lits, s.value l = .l_True ∧
    (s.vardata l.var).level ≤ (s.vardata p.var).level

/-- The invariants of the states of the solver: the trail, the watch lists, the reasons and the
levels agree, and the literals still to be propagated are at the current decision level. -/
structure Coherent (s : SATModule E) : Prop where
  trailOK : TrailOK s
  watchOK : WatchOK s
  reasonOK : ReasonOK s
  levelOK : LevelOK s
  queueLevel : QueueLevel s

/-- What `propagate` leaves as it is: every member but the clauses' order of literals, the watch
lists, the assignment with its reasons and levels, the trail, `qhead` and the two counters of
propagations.  The trail is extended, the clauses keep their sizes and the assigned variables
their values, reasons and levels. -/
structure PropagateFrame (s s' : SATModule E) : Prop where
  ok_eq : s'.ok = s.ok
  caSize_eq : s'.caSize = s.caSize
  clauses_eq : s'.clauses = s.clauses
  learnts_eq : s'.learnts = s.learnts
  nVars_eq : s'.nVars = s.nVars
  seen_eq : s'.seen = s.seen
  polarity_eq : s'.polarity = s.polarity
  decision_eq : s'.decision = s.decision
  dec_vars_eq : s'.dec_vars = s.dec_vars
  trail_lim_eq : s'.trail_lim = s.trail_lim
  mConstraintLiteralMap_eq : s'.mConstraintLiteralMap = s.mConstraintLiteralMap
  mLitConstraintMap_eq : s'.mLitConstraintMap = s.mLitConstraintMap
  mBooleanVarMap_eq : s'.mBooleanVarMap = s.mBooleanVarMap
  order_heap_eq : s'.order_heap = s.order_heap
  decisions_eq : s'.decisions = s.decisions
  conflicts_eq : s'.conflicts = s.conflicts
  phase_saving_eq : s'.phase_saving = s.phase_saving
  ccmin_mode_eq : s'.ccmin_mode = s.ccmin_mode
  analyze_toclear_eq : s'.analyze_toclear = s.analyze_toclear
  trail_ext : ∃ new, s'.trail = s.trail ++ new
  length_eq : ∀ cr, (s'.ca cr).lits.length = (s.ca cr).lits.length
  assigns_kept : ∀ v : Nat, s.assigns v ≠ .l_Undef → s'.assigns v = s.assigns v
  vardata_kept : ∀ v : Nat, s.assigns v ≠ .l_Undef → s'.vardata v = s.vardata v
  mPassedFormula_eq : s'.mPassedFormula = s.mPassedFormula
  assumptions_eq : s'.assumptions = s.assumptions
  conflict_eq : s'.conflict = s.conflict
  model_eq : s'.model = s.model
  solves_eq : s'.solves = s.solves
  starts_eq : s'.starts = s.starts
  simpDB_assigns_eq : s'.simpDB_assigns = s.simpDB_assigns
  remove_satisfied_eq : s'.remove_satisfied = s.remove_satisfied
  conflict_budget_eq : s'.conflict_budget = s.conflict_budget
  propagation_budget_eq : s'.propagation_budget = s.propagation_budget
  asynch_interrupt_eq : s'.asynch_interrupt = s.asynch_interrupt

/-- The clause allocator has no clause beyond `caSize`: the entries that were not allocated are
empty. -/
def AllocOK (s : SATModule E) : Prop := ∀ cr, s.caSize ≤ cr → (s.ca cr).lits = []

/-- The states in which clauses are added to a fresh solver: well-formed, with the invariants of
the trail, the watch lists, the reasons and the levels, no clause beyond `caSize`, as long as `ok`
is set with an empty queue and the two watched literals propagated for the whole trail, and with
no clause of `clauses` or `learnts` marked as deleted. -/
structure Ready (s : SATModule E) : Prop where
  wellFormed : WellFormed s
  coherent : Coherent s
  allocOK : AllocOK s
  propagated : s.ok = true → s.qhead = s.trail.length ∧ Propagated s s.trail.length
  unmarked : ∀ cr, cr ∈ s.clauses ∨ cr ∈ s.learnts → (s.ca cr).mark ≠ 1

/-- What the solver holds of a clause `C` that was added: a literal of `C` is true, or `C` has a
literal and its complement, or a clause of `clauses` has its literals among those of `C`. -/
def Tracked (s : SATModule E) (C : List Lit) : Prop :=
  (∃ l ∈ C, s.value l = .l_True) ∨ (∃ l ∈ C, l.neg ∈ C) ∨
    (∃ cr, cr ∈ s.clauses ∧ ∀ l ∈ (s.ca cr).lits, l ∈ C)

/-- What a call of `addClause_` leaves as it is or only extends: the decision levels, the counter
of decisions, the variables, the values of the assigned variables and the clauses in `clauses`
(up to the order of their literals); `ok` is not set again once it is cleared. -/
structure AddFrame (s s' : SATModule E) : Prop where
  trail_lim_eq : s'.trail_lim = s.trail_lim
  decisions_eq : s'.decisions = s.decisions
  nVars_eq : s'.nVars = s.nVars
  ok_mono : s'.ok = true → s.ok = true
  assigns_kept : ∀ v : Nat, s.assigns v ≠ .l_Undef → s'.assigns v = s.assigns v
  clauses_kept : ∀ cr ∈ s.clauses, cr ∈ s'.clauses ∧ (s'.ca cr).lits.Perm (s.ca cr).lits

/-- The solver right after construction with the Boolean variables `0, ..., n - 1`. -/
def freshSolver (E : Type) : Nat → SATModule E
  | 0 => init E
  | n + 1 => ((freshSolver E n).newVar true true).2

/-- The state after the calls `addClause_( ps )` for the clauses of a list, in their order. -/
def addClauses (s : SATModule E) : List (List Lit) → SATModule E
  | [] => s
  | ps :: rest => addClauses (afterAddClause s ps) rest

/-- The literals forced by unit propagation from the clauses `cls`: a literal of a clause all of
whose other literals have a forced complement. -/
inductive UnitForced (cls : List (List Lit)) : Lit → Prop
  | unit (C : List Lit) (l : Lit) : C ∈ cls → l ∈ C →
      (∀ l' ∈ C, l' ≠ l → UnitForced cls l'.neg) → UnitForced cls l

/-- Scenario A: the fresh solver with the variables `x = 0` and `y = 1` after the unit clause
`[x]` and then the clause `[~x, y]` were added. -/
def unitThenBinary : SATModule LinExpr :=
  addClauses twoVars [[mkLit 0 false], [mkLit 0 true, mkLit 1 false]]

/-- Scenario A in the other order: the clause `[~x, y]` is added before the unit clause `[x]`. -/
def binaryThenUnit : SATModule LinExpr :=
  addClauses twoVars [[mkLit 0 true, mkLit 1 false], [mkLit 0 false]]

/-! ## Conflict analysis -/

/-- Modelled from the spec: the method `abstractLevel( x )` (MiniSat header),
`1 << (level( x ) & 31)`, "an abstraction of levels". -/
def abstractLevel (s : SATModule E) (x : Var) : Nat := 2 ^ ((s.vardata x).level % 32)

/-- The loop of `analyze` over the literals `q` of the clause it looks at: an unseen variable of a
level above `0` is marked as seen; a literal of the current decision level is counted in `pathC`
and a literal of a lower level is pushed to `out_learnt`. -/
def analyzeClause (s : SATModule E) :
    List Lit → (Var → Bool) × Int × List Lit → (Var → Bool) × Int × List Lit
  | [], acc => acc
  | q :: qs, (seen, pathC, out_learnt) =>
    if seen q.var = false ∧ (s.vardata q.var).level > 0 then
      if (s.vardata q.var).level ≥ s.decisionLevel then
        analyzeClause s qs (Function.update seen q.var true, pathC + 1, out_learnt)
      else
        analyzeClause s qs (Function.update seen q.var true, pathC, out_learnt ++ [q])
    else analyzeClause s qs (seen, pathC, out_learnt)

/-- The loop `while( !seen[var( trail[index--] )] );` of `analyze`, with `n` for `index + 1`: the
position of the last seen variable among the first `n` literals of the trail.  The source runs off
the trail when there is none; this is `none`. -/
def findSeen (trail : List Lit) (seen : Var → Bool) : Nat → Option Nat
  | 0 => none
  | n + 1 => if seen (trail.getD n ⟨0, false⟩).var then some n else findSeen trail seen n

/-- The loop `do ... while( pathC > 0 )` of `analyze`: `confl` is the clause to look at, `first`
stands for `p == lit_Undef`, and `n` for `index + 1`.  The result is the literal `p`, the marks
and the literals pushed to `out_learnt`.  The loop leaves one position of the trail behind in
every round, so that the fuel `trail.size() + 1` of `analyze` is never used up; `none` is the
dereference of `CRef_Undef` (`assert( confl != CRef_Undef )`) or the run off the trail. -/
def analyzeLoop (s : SATModule E) :
    Nat → Option CRef → Bool → Nat → (Var → Bool) × Int × List Lit →
      Option (Lit × (Var → Bool) × List Lit)
  | 0, _, _, _, _ => none
  | fuel + 1, confl, first, n, acc =>
    match confl with
    | none => none
    | some cr =>
      let r := analyzeClause s (if first then (s.ca cr).lits else (s.ca cr).lits.drop 1) acc
      -- Select next clause to look at:
      match findSeen s.trail r.1 n with
      | none => none
      | some i =>
        let p := s.trail.getD i ⟨0, false⟩
        let seen := Function.update r.1 p.var false
        if r.2.1 - 1 > 0 then
          analyzeLoop s fuel (s.vardata p.var).reason false i (seen, r.2.1 - 1, r.2.2)
        else some (p, seen, r.2.2)

/-- The failure exit of `litRedundant`: the marks made since `top` are cleared and
`analyze_toclear` is shrunk to `top`. -/
def litRedundantUndo (top : Nat) (seen : Var → Bool) (analyze_toclear : List Lit) :
    (Var → Bool) × List Lit :=
  ((analyze_toclear.drop top).foldl (fun sn l => Function.update sn l.var false) seen,
    analyze_toclear.take top)

/-- The loop of `litRedundant` over the literals `c[1..]` of the reason taken from the stack.  The
Boolean is `false` when the method leaves the loop to return `false`; with it come the stack, the
marks and `analyze_toclear` at that point. -/
def litRedundantClause (s : SATModule E) (abstract_levels : Nat) :
    List Lit → List Lit × (Var → Bool) × List Lit → Bool × List Lit × (Var → Bool) × List Lit
  | [], acc => (true, acc)
  | p :: ps, (analyze_stack, seen, analyze_toclear) =>
    if seen p.var = false ∧ (s.vardata p.var).level > 0 then
      if (s.vardata p.var).reason ≠ none ∧ s.abstractLevel p.var &&& abstract_levels ≠ 0 then
        litRedundantClause s abstract_levels ps
          (analyze_stack ++ [p], Function.update seen p.var true, analyze_toclear ++ [p])
      else (false, analyze_stack, seen, analyze_toclear)
    else litRedundantClause s abstract_levels ps (analyze_stack, seen, analyze_toclear)

/-- The loop `while( analyze_stack.size() > 0 )` of `litRedundant`.  The result is the returned
Boolean with the marks and `analyze_toclear`; `none` is the dereference of `CRef_Undef`
(`assert( reason( var( analyze_stack.last() ) ) != CRef_Undef )`) or the end of the fuel. -/
def litRedundantLoop (s : SATModule E) (abstract_levels top : Nat) :
    Nat → List Lit → (Var → Bool) × List Lit → Option (Bool × (Var → Bool) × List Lit)
  | 0, _, _ => none
  | fuel + 1, analyze_stack, (seen, analyze_toclear) =>
    match analyze_stack.getLast? with
    | none => some (true, seen, analyze_toclear)
    | some last =>
      match (s.vardata last.var).reason with
      | none => none
      | some cr =>
        let r := litRedundantClause s abstract_levels ((s.ca cr).lits.drop 1)
          (analyze_stack.dropLast, seen, analyze_toclear)
        if r.1 then litRedundantLoop s abstract_levels top fuel r.2.1 r.2.2
        else some (false, litRedundantUndo top r.2.2.1 r.2.2.2)

/-- The method `litRedundant( p, abstract_levels )` on the marks and `analyze_toclear`.  Every
round of its loop takes a literal from the stack and marks the variable of every literal it
pushes, so that the fuel `2 * nVars() + 2` is never used up in a well-formed state. -/
def litRedundant (s : SATModule E) (p : Lit) (abstract_levels : Nat)
    (acc : (Var → Bool) × List Lit) : Option (Bool × (Var → Bool) × List Lit) :=
  litRedundantLoop s abstract_levels acc.2.length (2 * s.nVars + 2) [p] acc

/-- The loop of `analyze` for `ccmin_mode == 2` over `out_learnt[1..]`: a literal is kept when
`reason( var( out_learnt[i] ) ) == CRef_Undef || !litRedundant( out_learnt[i], abstract_level )`.
The result is the list of the literals kept with the marks and `analyze_toclear`. -/
def minimizeDeep (s : SATModule E) (abstract_level : Nat) :
    List Lit → (Var → Bool) × List Lit → Option (List Lit × (Var → Bool) × List Lit)
  | [], acc => some ([], acc)
  | q :: qs, acc =>
    match (s.vardata q.var).reason with
    | none => (minimizeDeep s abstract_level qs acc).map (fun r => (q :: r.1, r.2))
    | some _ =>
      match s.litRedundant q abstract_level acc with
      | none => none
      | some (true, acc1) => minimizeDeep s abstract_level qs acc1
      | some (false, acc1) =>
        (minimizeDeep s abstract_level qs acc1).map (fun r => (q :: r.1, r.2))

/-- The test of `analyze` for `ccmin_mode == 1`: the literal `out_learnt[i]` is kept when it has
no reason or when a literal `c[k]`, `k >= 1`, of its reason is not seen and of a level above
`0`. -/
def keptLocal (s : SATModule E) (seen : Var → Bool) (q : Lit) : Bool :=
  match (s.vardata q.var).reason with
  | none => true
  | some cr =>
    ((s.ca cr).lits.drop 1).any (fun ck => seen ck.var = false ∧ (s.vardata ck.var).level > 0)

/-- The loop of `analyze` that finds "the first literal assigned at the next-highest level":
`max_i` after the indices `i` of the list were visited. -/
def maxLevelIndex (s : SATModule E) (out_learnt : List Lit) : List Nat → Nat → Nat
  | [], max_i => max_i
  | i :: is, max_i =>
    if (s.vardata (out_learnt.getD i ⟨0, false⟩).var).level
        > (s.vardata (out_learnt.getD max_i ⟨0, false⟩).var).level then
      maxLevelIndex s out_learnt is i
    else maxLevelIndex s out_learnt is max_i

/-- The part "find correct backtrack level" of `analyze`: the clause with the literal of the
highest level swapped in at index `1`, and `out_btlevel`. -/
def backtrackLevel (s : SATModule E) (out_learnt : List Lit) : List Lit × Nat :=
  if out_learnt.length = 1 then (out_learnt, 0)
  else
    let max_i := maxLevelIndex s out_learnt (List.range' 2 (out_learnt.length - 2)) 1
    let p := out_learnt.getD max_i ⟨0, false⟩
    ((out_learnt.set max_i (out_learnt.getD 1 ⟨0, false⟩)).set 1 p, (s.vardata p.var).level)

/-- The part "simplify conflict clause" of `analyze` on `out_learnt[1..]`, by `ccmin_mode`: the
literals that are kept, with the marks and `analyze_toclear`. -/
def minimizeLearnt (s : SATModule E) (seen : Var → Bool) (rest analyze_toclear : List Lit) :
    Option (List Lit × (Var → Bool) × List Lit) :=
  if s.ccmin_mode = 2 then
    -- (maintain an abstraction of levels involved in conflict)
    let abstract_level := rest.foldl (fun a l => a ||| s.abstractLevel l.var) 0
    minimizeDeep s abstract_level rest (seen, analyze_toclear)
  else if s.ccmin_mode = 1 then
    some (rest.filter (keptLocal s seen), seen, analyze_toclear)
  else some (rest, seen, analyze_toclear)

/-- The end of `analyze`: the marks and `analyze_toclear` are written to the state after
`for( ... ) seen[var( analyze_toclear[j] )] = 0;` ("`seen[]` is now cleared"). -/
def clearSeen (s : SATModule E) (seen : Var → Bool) (analyze_toclear : List Lit) :
    SATModule E :=
  { s with
    seen := analyze_toclear.foldl (fun sn l => Function.update sn l.var false) seen
    analyze_toclear := analyze_toclear }

/-- The method `analyze( confl, out_learnt, out_btlevel )`, called with `out_learnt` cleared.  The
result is `out_learnt`, `out_btlevel` and the state, in which `seen` is cleared again for the
literals of `analyze_toclear`.  The activities that the method bumps and the statistics
`max_literals`, `tot_literals` are not part of the embedding. -/
def analyze (s : SATModule E) (confl : CRef) : Option (List Lit × Nat × SATModule E) :=
  -- Generate conflict clause:
  match analyzeLoop s (s.trail.length + 1) (some confl) true s.trail.length (s.seen, 0, []) with
  | none => none
  | some (p, seen, rest) =>
    -- Simplify conflict clause (`out_learnt.copyTo( analyze_toclear )`):
    match minimizeLearnt s seen rest (p.neg :: rest) with
    | none => none
    | some (kept, seen1, analyze_toclear1) =>
      -- Find correct backtrack level:
      let r := backtrackLevel s (p.neg :: kept)
      some (r.1, r.2, s.clearSeen seen1 analyze_toclear1)

/-- The state after `propagate`, with fuel that suffices in a well-formed state, and the
conflicting clause it returned. -/
def afterPropagate (s : SATModule E) : Option CRef × SATModule E :=
  match propagate (s.nVars + s.trail.length) s with
  | some r => r
  | none => (none, s)

/-- The solver with the variables `x = 0`, `a = 1`, `b = 2`, the clauses `[~x, ~a, b]` and
`[~x, ~a, ~b]` and then the unit clause `[x]`, which is not stored: `x` is true at level `0`. -/
def unitNotStored : SATModule LinExpr :=
  addClauses (freshSolver LinExpr 3)
    [[mkLit 0 true, mkLit 1 true, mkLit 2 false], [mkLit 0 true, mkLit 1 true, mkLit 2 true],
      [mkLit 0 false]]

/-- The state `unitNotStored` after the decision of `a` at level `1` and `propagate`, which
returns the clause `[~x, ~a, ~b]` (reference `1`) as conflict. -/
def conflictAtLevelOne : Option CRef × SATModule LinExpr :=
  afterPropagate ((unitNotStored.newDecisionLevel).uncheckedEnqueue (mkLit 1 false) none)

/-- A literal on the trail that has no reason and a level above `0` is a decision: its position
is in `trail_lim`. -/
def DecisionOK (s : SATModule E) : Prop :=
  ∀ i, i < s.trail.length → (s.vardata (s.trail.getD i ⟨0, false⟩).var).reason = none →
    0 < (s.vardata (s.trail.getD i ⟨0, false⟩).var).level → i ∈ s.trail_lim

/-- The number of positions below `n` of the trail whose variable is seen and of the current
decision level: the value of `pathC` in `analyze`. -/
def countSeen (s : SATModule E) (seen : Var → Bool) : Nat → Nat
  | 0 => 0
  | n + 1 => countSeen s seen n +
    (if seen (s.trail.getD n ⟨0, false⟩).var = true ∧
        (s.vardata (s.trail.getD n ⟨0, false⟩).var).level = s.decisionLevel then 1 else 0)

/-- The invariant of the loop of `analyze` with `n` for `index + 1`: a seen variable is the
variable of a literal of the trail and of a level above `0`, below position `n` when it is of the
current decision level and otherwise the variable of a literal of `out_learnt`; the literals of
`out_learnt` are literals of assigned variables, seen, of a level above `0` and below the current
one, and no two of them have the same variable; `pathC` counts the seen variables of the current
level. -/
structure AnalyzeInv (s : SATModule E) (n : Nat) (seen : Var → Bool) (pathC : Int)
    (out_learnt : List Lit) : Prop where
  seen_trail : ∀ v : Nat, seen v = true → 0 < (s.vardata v).level ∧
    ∃ i l, s.trail[i]? = some l ∧ l.var = v ∧
      ((s.vardata v).level = s.decisionLevel → i < n) ∧
      ((s.vardata v).level ≠ s.decisionLevel → ∃ q ∈ out_learnt, q.var = v)
  out_spec : ∀ q ∈ out_learnt, q.var ∈ s.trail.map Lit.var ∧ 0 < (s.vardata q.var).level ∧
    (s.vardata q.var).level < s.decisionLevel ∧ seen q.var = true
  out_nodup : (out_learnt.map Lit.var).Nodup
  count : pathC = (countSeen s seen n : Int)

/-- The number of variables among the first `n` that are not marked as seen. -/
def numUnseen (seen : Var → Bool) : Nat → Nat
  | 0 => 0
  | n + 1 => numUnseen seen n + (if seen n = false then 1 else 0)

/-- A variable is justified by the marks: it has a reason, and the variable of every literal
`c[k]`, `k >= 1`, of the reason is seen or of level `0`. -/
def Justified (s : SATModule E) (seen : Var → Bool) (v : Var) : Prop :=
  ∃ cr, (s.vardata v).reason = some cr ∧
    ∀ ck ∈ (s.ca cr).lits.drop 1, seen ck.var = true ∨ (s.vardata ck.var).level = 0

/-- A literal is true under a total assignment of the variables: the literal `mkLit v false` is
the variable `v` itself, `mkLit v true` its negation. -/
def litHolds (M : Var → Bool) (l : Lit) : Bool := M l.var != l.sign

/-- A total assignment satisfies a clause: one of its literals is true. -/
def satisfies (M : Var → Bool) (c : List Lit) : Bool := c.any (litHolds M)

/-- The total assignment in which exactly the variable `1` is true. -/
def onlyVarOne : Var → Bool := fun v => decide (v = 1)

/-! ## The search -/

/-- Modelled from the spec: the answers of a module (`Answer`, header not at hand), "Sat/Unsat/
Unknown" in the words of the specification. -/
inductive Answer
  | True
  | False
  | Unknown
  deriving DecidableEq, Repr

/-- Modelled from the spec: what a run of `search` reads and the embedded state does not determine.

* `runBackends`: the answer of the theory backends for the passed formula (`runBackends()` of the
  base class `Module`).
* `removeMin`: the variable that `order_heap.removeMin()` takes out of the heap, the member with
  the greatest activity; the activities are floating-point numbers.
* `reduce`: the test `learnts.size() - nAssigns() >= max_learnts` of `search`; `max_learnts`,
  `learntsize_adjust_confl` and `learntsize_adjust_cnt`, which only this test reads, are
  floating-point numbers or derived from them.
* `order`, `low`, `gcReduce`: the parameters of `reduceDB`.
* `gcSimplify`: the decision of `checkGarbage` in `simplify`.
* `nof_conflicts`: the bound `rest_base * restart_first` of `solve_`, converted to `int`, for the
  number `curr_restarts` of restarts. -/
structure Environment (E : Type) where
  runBackends : List (Constraint E) → Answer
  removeMin : SATModule E → Var
  reduce : SATModule E → Bool
  order : SATModule E → List CRef → List CRef
  low : SATModule E → CRef → Bool
  gcReduce : SATModule E → Bool
  gcSimplify : SATModule E → Bool
  nof_conflicts : Nat → Int

/-- Modelled from the spec: the method `withinBudget()` (MiniSat header):
`!asynch_interrupt && (conflict_budget < 0 || conflicts < conflict_budget) &&
(propagation_budget < 0 || propagations < propagation_budget)`. -/
def withinBudget (s : SATModule E) : Bool :=
  !s.asynch_interrupt &&
    (decide (s.conflict_budget < 0) || decide ((s.conflicts : Int) < s.conflict_budget)) &&
    (decide (s.propagation_budget < 0) || decide ((s.propagations : Int) < s.propagation_budget))

/-- The first loop of `adaptPassedFormula`, "collect the constraints to check": for every assigned
variable, in ascending order, the constraint that `mLitConstraintMap` has for the literal
`mkLit( posInAssigns, assignment == l_True )`; `constraintsToCheck` is a map, so that a constraint
is inserted once.  The source asserts that the entry exists; a literal without entry adds
nothing here.  The origins stored with the constraints are not part of the embedding. -/
def constraintsToCheck [DecidableEq E] (s : SATModule E) : List (Constraint E) :=
  (List.range s.nVars).foldl (fun m posInAssigns =>
    let assignment := s.assigns posInAssigns
    if assignment ≠ .l_Undef then
      match s.mLitConstraintMap (mkLit posInAssigns (decide (assignment = .l_True))) with
      | some entry => if entry.1 ∈ m then m else m ++ [entry.1]
      | none => m
    else m) []

/-- The second loop of `adaptPassedFormula`,
`for( pos = 0; pos < passedFormulaSize(); ++pos ) if( constraintsToCheck.erase( passedFormulaAt(
pos ) ) == 0 ) removeSubformulaFromPassedFormula( pos );`, on the passed formula and the
constraints to check; one unit of fuel is used per pass. -/
def retractLoop [DecidableEq E] :
    Nat → Nat → List (Constraint E) → List (Constraint E) →
      List (Constraint E) × List (Constraint E)
  | 0, _, passed, toCheck => (passed, toCheck)
  | fuel + 1, pos, passed, toCheck =>
    match passed[pos]? with
    | none => (passed, toCheck)
    | some c =>
      if c ∈ toCheck then retractLoop fuel (pos + 1) passed (toCheck.erase c)
      else retractLoop fuel (pos + 1) (passed.eraseIdx pos) toCheck

/-- The method `adaptPassedFormula()`: the constraints to check are collected, the second loop
runs over the passed formula, and the constraints that remain to check are added at the end of
the passed formula (`addSubformulaToPassedFormula`). -/
def adaptPassedFormula [DecidableEq E] (s : SATModule E) : SATModule E :=
  let r := retractLoop s.mPassedFormula.length 0 s.mPassedFormula s.constraintsToCheck
  { s with mPassedFormula := r.1 ++ r.2 }

/-- The clause that `search` builds after the answer `False` of the backends:
`for( pos = 0; pos < assigns.size(); ++pos ) if( assigns[pos] == l_True ) learnt_clause.push(
mkLit( pos, false ) ); else if( assigns[pos] == l_False ) learnt_clause.push( mkLit( pos, true ) )`. -/
def theoryLemma (s : SATModule E) : List Lit :=
  (List.range s.nVars).filterMap (fun pos =>
    if s.assigns pos = .l_True then some (mkLit pos false)
    else if s.assigns pos = .l_False then some (mkLit pos true)
    else none)

/-- The case `False` of the switch over `runBackends()` in `search`: a clause of one literal is
allocated only ("do not store theory lemma"), every other clause is allocated, pushed to `learnts`
and attached ("learn theory lemma").  The result is the new value of `confl` and the state. -/
def learnTheoryLemma (s : SATModule E) : CRef × SATModule E :=
  let learnt_clause := s.theoryLemma
  if learnt_clause.length = 1 then s.alloc learnt_clause true
  else (s.caSize, s.addLearnt learnt_clause)

/-- The method `satisfied( c )`: some literal of the clause is true. -/
def satisfied (s : SATModule E) (c : Clause) : Bool :=
  c.lits.any (fun l => decide (s.value l = .l_True))

/-- The method `removeSatisfied( cs )`: the clauses of `cs` that are satisfied are removed
(`removeClause`); the result is the list of the clauses that are kept and the state. -/
def removeSatisfied (s : SATModule E) : List CRef → List CRef × SATModule E
  | [] => ([], s)
  | cr :: rest =>
    if s.satisfied (s.ca cr) then removeSatisfied (s.removeClause cr) rest
    else ((removeSatisfied s rest).1.cons cr, (removeSatisfied s rest).2)

/-- The method `rebuildOrderHeap()`: the heap is built from the unassigned decision variables. -/
def rebuildOrderHeap (s : SATModule E) : SATModule E :=
  { s with
    order_heap := (List.range s.nVars).filter
      (fun v => s.decision v && decide (s.assigns v = .l_Undef)) }

/-- The method `simplify()`, called at decision level `0`, up to its call of `checkGarbage()`.
The left result is what the method returns before this call: `false` (and `ok` is cleared) when
the solver is not `ok` or `propagate` finds a conflict, `true` when nothing was assigned since the
last call or `simpDB_props > 0`.  The right result is the state after the satisfied clauses were
removed.  `none` means that the fuel of `propagate` was used up. -/
def simplifyRemove (s : SATModule E) : Option ((Bool × SATModule E) ⊕ SATModule E) :=
  if !s.ok then some (.inl (false, { s with ok := false }))
  else
    match s.propagate (s.nVars + s.trail.length) with
    | none => none
    | some (some _, s1) => some (.inl (false, { s1 with ok := false }))
    | some (none, s1) =>
      if (s1.trail.length : Int) = s1.simpDB_assigns ∨ s1.simpDB_props > 0 then
        some (.inl (true, s1))
      else
        -- Remove satisfied clauses:
        let r1 := s1.removeSatisfied s1.learnts
        let s2 : SATModule E := { r1.2 with learnts := r1.1 }
        let r2 := s2.removeSatisfied s2.clauses
        some (.inr (if s2.remove_satisfied then { r2.2 with clauses := r2.1 } else s2))

/-- The end of `simplify()` after `checkGarbage()`: the order heap is rebuilt, and
`simpDB_assigns` and `simpDB_props` are set. -/
def simplifyRebuild (s : SATModule E) : SATModule E :=
  let s1 := s.rebuildOrderHeap
  { s1 with
    simpDB_assigns := s1.trail.length
    simpDB_props := s1.clauses_literals + s1.learnts_literals }

/-- The method `simplify()`: "simplify the clause database according to the current top-level
assignment"; the result is the returned Boolean and the state. -/
def simplify (h : Environment E) (s : SATModule E) : Option (Bool × SATModule E) :=
  match simplifyRemove s with
  | none => none
  | some (.inl r) => some r
  | some (.inr s1) => some (true, simplifyRebuild (checkGarbage (h.gcSimplify s1) s1))

/-- The body of the loop of `analyzeFinal` for the trail literal `t`, on the marks `seen` and
`out_conflict`. -/
def analyzeFinalStep (s : SATModule E) (acc : (Var → Bool) × List Lit) (t : Lit) :
    (Var → Bool) × List Lit :=
  let x := t.var
  if acc.1 x then
    match (s.vardata x).reason with
    | none => (Function.update acc.1 x false, acc.2 ++ [t.neg])
    | some cr =>
      let seen1 := ((s.ca cr).lits.drop 1).foldl (fun sn q =>
        if (s.vardata q.var).level > 0 then Function.update sn q.var true else sn) acc.1
      (Function.update seen1 x false, acc.2)
  else acc

/-- The method `analyzeFinal( p, out_conflict )` with `out_conflict` the member `conflict`: the
"set of assumptions that led to the assignment of `p`"; the loop runs from the end of the trail
down to `trail_lim[0]`. -/
def analyzeFinal (s : SATModule E) (p : Lit) : SATModule E :=
  if s.decisionLevel = 0 then { s with conflict := [p] }
  else
    let r := ((s.trail.drop (s.trail_lim.getD 0 0)).reverse).foldl (analyzeFinalStep s)
      (Function.update s.seen p.var true, [p])
    { s with seen := Function.update r.1 p.var false, conflict := r.2 }

/-- The loop "activity based decision" of `pickBranchLit`,
`while( next == var_Undef || value( next ) != l_Undef || !decision[next] )`, which takes
variables out of the heap until one is an unassigned decision variable or the heap is empty.
One unit of fuel is used per pass; `none` means that the fuel was used up. -/
def pickBranchLoop (h : Environment E) :
    Nat → Option Var → SATModule E → Option (Option Var × SATModule E)
  | 0, _, _ => none
  | fuel + 1, next, s =>
    let again : Bool := match next with
      | none => true
      | some x => decide (s.assigns x ≠ .l_Undef) || !s.decision x
    if again then
      if s.order_heap = [] then some (none, s)
      else
        let x := h.removeMin s
        pickBranchLoop h fuel (some x) { s with order_heap := s.order_heap.erase x }
    else some (next, s)

/-- The method `pickBranchLit()`, with `lit_Undef` as `none`.  The option `rnd-freq` is at its
default `0`, so that no random decision is made (`drand( random_seed ) < random_var_freq` is
false), and `rnd_pol` is `false` as the constructor sets it: the literal is
`mkLit( next, polarity[next] )`.  The fuel suffices when `removeMin` yields members of the
heap. -/
def pickBranchLit (h : Environment E) (s : SATModule E) : Option (Option Lit × SATModule E) :=
  match pickBranchLoop h (s.order_heap.length + 1) none s with
  | none => none
  | some (none, s1) => some (none, s1)
  | some (some next, s1) => some (some (mkLit next (s1.polarity next)), s1)

/-- The loop `while( decisionLevel() < assumptions.size() )` of `search`, "perform user provided
assumption": the left result is the state with which `search` returns `l_False` (after
`analyzeFinal( ~p, conflict )`), the right result is `next` and the state.  The level grows with
every pass that goes on, so that the fuel `assumptions.size() - decisionLevel()` suffices. -/
def assumeLoop : Nat → SATModule E → SATModule E ⊕ (Option Lit × SATModule E)
  | 0, s => .inr (none, s)
  | fuel + 1, s =>
    if s.decisionLevel < s.assumptions.length then
      let p := s.assumptions.getD s.decisionLevel ⟨0, false⟩
      if s.value p = .l_True then
        -- Dummy decision level:
        assumeLoop fuel s.newDecisionLevel
      else if s.value p = .l_False then .inl (s.analyzeFinal p.neg)
      else .inr (some p, s)
    else .inr (none, s)

/-- What one pass through the loop `for( ; ; )` of `search` does: the method returns a status, or
the loop goes on with the counter `conflictC`. -/
inductive Pass (E : Type)
  | returns (status : lbool) (s : SATModule E)
  | goesOn (conflictC : Int) (s : SATModule E)

/-- The branch "CONFLICT" of `search` with the conflicting clause `confl`: the conflict is
counted; at decision level `0` the method returns `l_False`; otherwise the conflict is analyzed,
the solver backtracks, and the learnt clause is enqueued (one literal) or stored, attached and
its first literal enqueued with the clause as reason.  `none` stands for a run of `analyze` that
leaves the trail.  The activities and the adjustment of `max_learnts` are not part of the
embedding (see `Environment`). -/
def searchConflict (s : SATModule E) (conflictC : Int) (confl : CRef) : Option (Pass E) :=
  let s1 : SATModule E := { s with conflicts := s.conflicts + 1 }
  if s1.decisionLevel = 0 then some (.returns .l_False s1)
  else
    match s1.analyze confl with
    | none => none
    | some (learnt_clause, backtrack_level, s2) =>
      let s3 := s2.cancelUntil backtrack_level
      if learnt_clause.length = 1 then
        some (.goesOn (conflictC + 1) (s3.uncheckedEnqueue (learnt_clause.getD 0 ⟨0, false⟩) none))
      else
        some (.goesOn (conflictC + 1)
          ((s3.addLearnt learnt_clause).uncheckedEnqueue (learnt_clause.getD 0 ⟨0, false⟩)
            (some s3.caSize)))

/-- The branch "NO CONFLICT" of `search`: the bound on the number of conflicts, `simplify` at
decision level `0`, the reduction of the learnt clauses, the assumptions, and the new decision. -/
def searchNoConflict (h : Environment E) (nof_conflicts conflictC : Int) (s : SATModule E) :
    Option (Pass E) :=
  if nof_conflicts ≥ 0 ∧ (conflictC ≥ nof_conflicts ∨ s.withinBudget = false) then
    -- Reached bound on number of conflicts:
    some (.returns .l_Undef (s.cancelUntil 0))
  else
    -- Simplify the set of problem clauses:
    match (if s.decisionLevel = 0 then simplify h s else some (true, s)) with
    | none => none
    | some (false, s1) => some (.returns .l_False s1)
    | some (true, s1) =>
      -- Reduce the set of learnt clauses:
      let s2 := if h.reduce s1 then reduceDB (h.order s1) (h.low s1) (h.gcReduce s1) s1 else s1
      match assumeLoop (s2.assumptions.length - s2.decisionLevel) s2 with
      | .inl s3 => some (.returns .l_False s3)
      | .inr (some next, s3) =>
        -- Increase decision level and enqueue 'next'
        some (.goesOn conflictC (s3.newDecisionLevel.uncheckedEnqueue next none))
      | .inr (none, s3) =>
        -- New variable decision:
        match pickBranchLit h { s3 with decisions := s3.decisions + 1 } with
        | none => none
        | some (none, s4) => some (.returns .l_True s4)   -- Model found
        | some (some next, s4) =>
          some (.goesOn conflictC (s4.newDecisionLevel.uncheckedEnqueue next none))

/-- One pass through the loop `for( ; ; )` of `search`: `propagate`; without conflict the passed
formula is adapted and the backends are run, whose answer `False` makes a conflicting clause and
whose answer `Unknown` ends the search with `l_Undef`; then the branch for a conflict or the
branch for no conflict.  The fuel of `propagate` suffices in well-formed states. -/
def searchPass [DecidableEq E] (h : Environment E) (nof_conflicts conflictC : Int)
    (s : SATModule E) : Option (Pass E) :=
  match s.propagate (s.nVars + s.trail.length) with
  | none => none
  | some (some confl, s1) => searchConflict s1 conflictC confl
  | some (none, s1) =>
    -- Check constraints corresponding to the positively assigned Boolean variables for
    -- consistency.
    let s2 := s1.adaptPassedFormula
    match h.runBackends s2.mPassedFormula with
    | .True => searchNoConflict h nof_conflicts conflictC s2
    | .False => searchConflict s2.learnTheoryLemma.2 conflictC s2.learnTheoryLemma.1
    | .Unknown => some (.returns .l_Undef s2)

/-- The loop `for( ; ; )` of `search`; one unit of fuel is used per pass, and `none` means that
the fuel was used up (or that a pass has no result). -/
def searchLoop [DecidableEq E] (h : Environment E) (nof_conflicts : Int) :
    Nat → Int → SATModule E → Option (lbool × SATModule E)
  | 0, _, _ => none
  | fuel + 1, conflictC, s =>
    match searchPass h nof_conflicts conflictC s with
    | none => none
    | some (.returns status s1) => some (status, s1)
    | some (.goesOn conflictC1 s1) => searchLoop h nof_conflicts fuel conflictC1 s1

/-- The method `search( nof_conflicts )`: "search for a model the specified number of
conflicts"; the result is the status and the state. -/
def search [DecidableEq E] (h : Environment E) (fuel : Nat) (nof_conflicts : Int)
    (s : SATModule E) : Option (lbool × SATModule E) :=
  searchLoop h nof_conflicts fuel 0 { s with starts := s.starts + 1 }

/-- The loop `while( status == l_Undef )` of `solve_` over the restarts, with `fuel` passes for
every call of `search`; one unit of the first argument is used per restart. -/
def solveLoop [DecidableEq E] (h : Environment E) (fuel : Nat) :
    Nat → Nat → SATModule E → Option (lbool × SATModule E)
  | 0, _, _ => none
  | n + 1, curr_restarts, s =>
    match search h fuel (h.nof_conflicts curr_restarts) s with
    | none => none
    | some (status, s1) =>
      if s1.withinBudget = false then some (status, s1)
      else if status = .l_Undef then solveLoop h fuel n (curr_restarts + 1) s1
      else some (status, s1)

/-- The start of `solve_()` in a solver that is `ok`: `model` and `conflict` are cleared and the
call is counted in `solves`. -/
def solveEntry (s : SATModule E) : SATModule E :=
  let s0 : SATModule E := { s with model := [], conflict := [] }
  { s0 with solves := s0.solves + 1 }

/-- The end of `solve_()` with the status of the search: the model is copied for `l_True`, `ok`
is cleared for `l_False` without final conflict, and the solver goes back to decision level
`0`. -/
def solveExit (status : lbool) (s : SATModule E) : SATModule E :=
  let s1 : SATModule E :=
    if status = .l_True then
      -- Extend & copy model:
      { s with model := (List.range s.nVars).map s.assigns }
    else if status = .l_False ∧ s.conflict.length = 0 then { s with ok := false }
    else s
  s1.cancelUntil 0

/-- The method `solve_()`: `l_False` when the solver is not `ok`; otherwise the search with
restarts; the result is the status and the state. -/
def solve_ [DecidableEq E] (h : Environment E) (fuel : Nat) (s : SATModule E) :
    Option (lbool × SATModule E) :=
  if !s.ok then some (.l_False, { s with model := [], conflict := [] })
  else
    match solveLoop h fuel fuel 0 s.solveEntry with
    | none => none
    | some (status, s1) => some (status, solveExit status s1)

/-- The environment of the scenarios: the backends answer `True`, the heap yields its first
member, the learnt clauses are not reduced, no garbage is collected, and the bound on the
conflicts is `100` (`restart_first`). -/
def plainEnvironment : Environment LinExpr where
  runBackends := fun _ => .True
  removeMin := fun s => s.order_heap.headD 0
  reduce := fun _ => false
  order := fun _ cs => cs
  low := fun _ _ => false
  gcReduce := fun _ => false
  gcSimplify := fun _ => false
  nof_conflicts := fun _ => 100

/-- Scenario B: the fresh solver with the variables `x = 0` and `y = 1` and the four clauses
`[x, y]`, `[~x, y]`, `[x, ~y]`, `[~x, ~y]`. -/
def scenarioB : SATModule LinExpr :=
  addClauses (freshSolver LinExpr 2)
    [[mkLit 0 false, mkLit 1 false], [mkLit 0 true, mkLit 1 false],
      [mkLit 0 false, mkLit 1 true], [mkLit 0 true, mkLit 1 true]]

/-- Scenario B: the state in which `solve_` enters the loop of `search`. -/
def scenarioBSearch : SATModule LinExpr :=
  { scenarioB.solveEntry with starts := scenarioB.solveEntry.starts + 1 }

/-- Scenario B: the state at the call of `checkGarbage` in `simplify`, in the first pass of
`search`. -/
def scenarioBSimplify : SATModule LinExpr :=
  match simplifyRemove (afterPropagate scenarioBSearch).2.adaptPassedFormula with
  | some (.inr s) => s
  | _ => scenarioBSearch

/-- Scenario B: the state after `simplify` and the reduction of the learnt clauses in the first
pass of `search`, for the decision `g1` of `checkGarbage` in `simplify` and the decision `g2` of
`checkGarbage` in `reduceDB` (`none` when the learnt clauses are not reduced). -/
def scenarioBReduced (g1 : Bool) (g2 : Option Bool) : SATModule LinExpr :=
  let s1 := simplifyRebuild (checkGarbage g1 scenarioBSimplify)
  match g2 with
  | none => s1
  | some g => checkGarbage g { s1 with learnts := [] }

/-- Scenario B: the state after the first decision of `search`, in which the variable `x` is
taken out of the order heap. -/
def scenarioBDecision (g1 : Bool) (g2 : Option Bool) (x : Var) : SATModule LinExpr :=
  let s2 := scenarioBReduced g1 g2
  let s3 : SATModule LinExpr :=
    { s2 with decisions := s2.decisions + 1, order_heap := s2.order_heap.erase x }
  s3.newDecisionLevel.uncheckedEnqueue (mkLit x (s3.polarity x)) none

/-- Scenario C: the solver after the atoms `x <= 0` and then `x > 0` were asserted: each atom is
given to `getLiteral` and its literal is added as a unit clause (`addClauseToSatSolver`, case
`REALCONSTRAINT`). -/
def scenarioC : SATModule LinExpr :=
  let r0 := getLiteral xLeq (init LinExpr)
  let r1 := getLiteral xGreater (afterAddClause r0.2 [r0.1])
  afterAddClause r1.2 [r1.1]

/-- The environment of scenario C: the backends answer `False` for a passed formula that holds
both `x <= 0` and `x > 0`, and `True` otherwise. -/
def theoryEnvironment : Environment LinExpr :=
  { plainEnvironment with
    runBackends := fun F =>
      if (⟨(1, 0), .CR_LEQ⟩ : Constraint LinExpr) ∈ F ∧ ⟨(1, 0), .CR_GREATER⟩ ∈ F then .False
      else .True }

/-- Scenario C with a third atom: the solver after the atoms `x <= 0`, `x > 0` and `2*x + 1 <= 0`
were asserted, each by `getLiteral` and a unit clause.  The first two atoms are inconsistent with
each other; the third is not part of this inconsistency. -/
def scenarioCThird : SATModule LinExpr :=
  let r2 := getLiteral (.REALCONSTRAINT ⟨(2, 1), .CR_LEQ⟩) scenarioC
  afterAddClause r2.2 [r2.1]

/-- The solver after the atom `x <= 0` was asserted by `getLiteral` and a unit clause. -/
def assertedLeq : SATModule LinExpr :=
  let r0 := getLiteral xLeq (init LinExpr)
  afterAddClause r0.2 [r0.1]

/-- The solver with the literals of the atoms `x <= 0` and `2*x + 1 <= 0` after both were decided
(levels `1` and `2`) and the passed formula was adapted. -/
def twoAtomsPassed : SATModule LinExpr :=
  let r0 := getLiteral xLeq (init LinExpr)
  let r1 := getLiteral (.REALCONSTRAINT ⟨(2, 1), .CR_LEQ⟩) r0.2
  let s1 := r1.2.newDecisionLevel.uncheckedEnqueue r0.1 none
  let s2 := s1.newDecisionLevel.uncheckedEnqueue r1.1 none
  s2.adaptPassedFormula

/-- An environment whose backends answer `True` for the empty passed formula and `Unknown` for
every other one; the rest is as in `plainEnvironment`. -/
def unknownEnvironment : Environment LinExpr :=
  { plainEnvironment with runBackends := fun F => if F = [] then .True else .Unknown }

/-- The solver with the variable of the atom `x <= 0` (made by `getLiteral`) and no clause. -/
def oneAtom : SATModule LinExpr := (getLiteral xLeq (init LinExpr)).2

/-- What the maintenance of the clause database in `search` (`simplify` after its `propagate`,
`reduceDB`, the dummy decision levels of the assumptions, `pickBranchLit`) leaves as it is: the
assignment, the trail, the variables, the literals of every clause, and the members that
`solve_` and the assumptions use; a clause that is not marked as deleted afterwards was not
marked before. -/
structure Maintained (s s' : SATModule E) : Prop where
  assigns_eq : s'.assigns = s.assigns
  trail_eq : s'.trail = s.trail
  nVars_eq : s'.nVars = s.nVars
  decision_eq : s'.decision = s.decision
  lits_eq : ∀ cr, (s'.ca cr).lits = (s.ca cr).lits
  ok_eq : s'.ok = s.ok
  assumptions_eq : s'.assumptions = s.assumptions
  conflict_eq : s'.conflict = s.conflict
  mPassedFormula_eq : s'.mPassedFormula = s.mPassedFormula
  remove_satisfied_eq : s'.remove_satisfied = s.remove_satisfied
  mark_mono : ∀ cr, (s'.ca cr).mark ≠ 1 → (s.ca cr).mark ≠ 1

/-- The assumptions and the final conflict of two states are the same. -/
def SameConflict (s s' : SATModule E) : Prop :=
  s'.assumptions = s.assumptions ∧ s'.conflict = s.conflict

/-- The state with which a pass through the loop of `search` ends. -/
def Pass.state : Pass E → SATModule E
  | .returns _ s => s
  | .goesOn _ s => s

/-- Scenario B: the state in which `solve_` leaves the solver. -/
def scenarioBSolved : SATModule LinExpr :=
  match solve_ plainEnvironment 3 scenarioB with
  | some r => r.2
  | none => scenarioB

/-- Modelled from the spec: the method `solve()` is declared in the header `SATModule.h`, which is
not part of the sources at hand; as in MiniSat it is
`budgetOff(); assumptions.clear(); return solve_() == l_True;`, where `budgetOff()` sets
`conflict_budget` and `propagation_budget` to `-1`.  The result is the returned Boolean and the
state. -/
def solve [DecidableEq E] (h : Environment E) (fuel : Nat) (s : SATModule E) :
    Option (Bool × SATModule E) :=
  let s0 : SATModule E :=
    { s with conflict_budget := -1, propagation_budget := -1, assumptions := [] }
  match solve_ h fuel s0 with
  | none => none
  | some (status, s1) => some (decide (status = .l_True), s1)

/-- The method `isConsistent()`: `if( solve() ) return True; else return False;`. -/
def isConsistent [DecidableEq E] (h : Environment E) (fuel : Nat) (s : SATModule E) :
    Option (Answer × SATModule E) :=
  match solve h fuel s with
  | none => none
  | some (true, s1) => some (.True, s1)
  | some (false, s1) => some (.False, s1)

/-- An environment whose backends answer `Unknown` for every passed formula; the rest is as in
`plainEnvironment`. -/
def alwaysUnknown : Environment LinExpr :=
  { plainEnvironment with runBackends := fun _ => .Unknown }

/-- The solver right after construction, without variables and clauses, after an interrupt was
requested (`asynch_interrupt`). -/
def interrupted : SATModule LinExpr := { init LinExpr with asynch_interrupt := true }

/-- The order heap holds every unassigned decision variable (`insertVarOrder` puts a variable
back when `cancelUntil` unassigns it, and `rebuildOrderHeap` builds the heap from exactly these
variables). -/
def HeapOK (s : SATModule E) : Prop :=
  ∀ v : Nat, v < s.nVars → s.decision v = true → s.assigns v = .l_Undef → v ∈ s.order_heap

/-- The solver with two variables that are not decision variables (`newVar( true, false )`) and
the clause of their two positive literals. -/
def nonDecision : SATModule LinExpr :=
  afterAddClause (((init LinExpr).newVar true false).2.newVar true false).2
    [mkLit 0 false, mkLit 1 false]

/-! ## The restart sequence -/

/-- The value of an expression of type `int`: two's complement on 32 bits. -/
def wrapInt (n : Int) : Int := (n + 2147483648) % 4294967296 - 2147483648

/-- The first loop of `luby`,
`for( size = 1, seq = 0; size < x + 1; seq++, size = 2 * size + 1 );`: it finds the finite
subsequence that contains index `x` and the size of that subsequence.  The result `none` means
that the fuel was used up. -/
def lubyFind : Nat → Int → Int → Int → Option (Int × Int)
  | 0, _, _, _ => none
  | fuel + 1, size, seq, x =>
    if size < wrapInt (x + 1) then
      lubyFind fuel (wrapInt (2 * size + 1)) (wrapInt (seq + 1)) x
    else some (size, seq)

/-- The second loop of `luby`, `while( size - 1 != x )` with the body
`size = (size - 1) >> 1; seq--; x = x % size;`.  The result `none` means that the fuel was used
up, the result `some none` that the remainder of a division by `0` was taken, which has no
defined value. -/
def lubyDescend : Nat → Int → Int → Int → Option (Option Int)
  | 0, _, _, _ => none
  | fuel + 1, size, seq, x =>
    if wrapInt (size - 1) ≠ x then
      let size1 := wrapInt (size - 1) >>> (1 : Nat)
      if size1 = 0 then some none
      else lubyDescend fuel size1 (wrapInt (seq - 1)) (Int.tmod x size1)
    else some (some seq)

/-- The value of `seq` at the return of `luby( y, x )`. -/
def lubySeq (fuel : Nat) (x : Int) : Option (Option Int) :=
  match lubyFind fuel 1 0 x with
  | none => none
  | some (size, seq) => lubyDescend fuel size seq x

/-- The function `luby( y, x )`, which returns `pow( y, seq )`; the values of type `double` are
rational numbers here. -/
def luby (fuel : Nat) (y : ℚ) (x : Int) : Option (Option ℚ) :=
  (lubySeq fuel x).map (Option.map (fun seq => y ^ seq))

/-- The exponent that the second loop of `luby` reaches for index `x` when it starts in the
finite subsequence `j`, which has the size `2 ^ (j + 1) - 1`. -/
def lubyExponent : Nat → Int → Nat
  | 0, _ => 0
  | j + 1, x =>
    if (2 : Int) ^ (j + 2) - 2 = x then j + 1
    else lubyExponent j (Int.tmod x (2 ^ (j + 1) - 1))

/-! ## Phase saving, the assertion of `adaptPassedFormula`, backtrack points -/

/-- The solver with the variables `0`, `1`, `2` and the clause `[0, 1]` after the decision of the
literal `mkLit( 0, true )` at level `1`, `propagate`, which enqueues the literal
`mkLit( 1, false )`, and the decision of the literal `mkLit( 2, true )` at level `2`. -/
def twoLevels : SATModule LinExpr :=
  let s0 := afterAddClause (freshSolver LinExpr 3) [mkLit 0 false, mkLit 1 false]
  let s1 := (afterPropagate (s0.newDecisionLevel.uncheckedEnqueue (mkLit 0 true) none)).2
  s1.newDecisionLevel.uncheckedEnqueue (mkLit 2 true) none

/-- The assertion `assert( iter != mLitConstraintMap.end() )` of `adaptPassedFormula`, for all
positions of its first loop: every assigned variable has an entry of `mLitConstraintMap` for the
literal `mkLit( posInAssigns, assignment == l_True )`. -/
def adaptPassedFormulaAsserts (s : SATModule E) : Bool :=
  (List.range s.nVars).all (fun posInAssigns =>
    let assignment := s.assigns posInAssigns
    if assignment ≠ .l_Undef then
      (s.mLitConstraintMap (mkLit posInAssigns (decide (assignment = .l_True)))).isSome
    else true)

/-- The solver after the Boolean formula `b` was asserted: `addClauseToSatSolver`, case `BOOL`,
calls `addClause( getLiteral( _formula ) )`. -/
def assertedBool : SATModule LinExpr :=
  let r0 := getLiteral (.BOOL "b") (init LinExpr)
  afterAddClause r0.2 [r0.1]

/-- How the loop of `popBacktrackPoint` ends: by its condition, after a number of passes, with
the remaining vector `mBacktrackpointInSatSolver` and the state; or by the exception
`std::out_of_range` of `mBacktrackpointInSatSolver.at( level )`, after a number of passes and
with the value of `level`. -/
inductive PopResult (E : Type)
  | done (passes : Nat) (mBacktrackpointInSatSolver : List CRef) (s : SATModule E)
  | outOfRange (passes : Nat) (level : Nat)

/-- The loop `for( unsigned level = ...; level >= mBackTrackPoints.back(); --level )` of
`popBacktrackPoint` with the body `removeClause( mBacktrackpointInSatSolver.at( level ) );
mBacktrackpointInSatSolver.pop_back();`.  The index is an `unsigned` of 32 bits, so that
`--level` is taken modulo `2 ^ 32`.  One unit of fuel is used per test of the condition; `none`
means that the fuel was used up. -/
def popBacktrackLoop : Nat → Nat → Nat → Nat → List CRef → SATModule E → Option (PopResult E)
  | 0, _, _, _, _, _ => none
  | fuel + 1, level, back, passes, mBacktrackpointInSatSolver, s =>
    if level ≥ back then
      match mBacktrackpointInSatSolver[level]? with
      | none => some (.outOfRange passes level)
      | some cr =>
        popBacktrackLoop fuel ((level + 4294967296 - 1) % 4294967296) back (passes + 1)
          mBacktrackpointInSatSolver.dropLast (s.removeClause cr)
    else some (.done passes mBacktrackpointInSatSolver s)

/-- Modelled from the spec: the class `Module` is not part of the sources at hand;
`receivedFormulaSize()` is the number of the formulas received by `assertSubFormula`, and
`mBackTrackPoints.back()` is the position in the received formula that the last backtrack point
recorded.  The method `popBacktrackPoint()` of `SATModule` up to its call of
`Module::popBacktrackPoint()`; the index starts at `receivedFormulaSize() - 1`, taken modulo
`2 ^ 32`. -/
def popBacktrackPoint (fuel : Nat) (receivedFormulaSize back : Nat)
    (mBacktrackpointInSatSolver : List CRef) (s : SATModule E) : Option (PopResult E) :=
  popBacktrackLoop fuel ((receivedFormulaSize + 4294967296 - 1) % 4294967296) back 0
    mBacktrackpointInSatSolver s

/-- The solver with the option `ccmin-mode` set to `mode` (`0` none, `1` basic, `2` deep). -/
def withCcminMode (s : SATModule E) (mode : Nat) : SATModule E := { s with ccmin_mode := mode }

/-- Every marked variable is the variable of a literal of `analyze_toclear`. -/
def Covered (seen : Var → Bool) (analyze_toclear : List Lit) : Prop :=
  ∀ v : Nat, seen v = true → ∃ l ∈ analyze_toclear, l.var = v


/-! ## The states that the solver reaches -/

/-- The invariant of the states of the solver, with the two watched literals propagated up to
position `n` of the trail: the state is well-formed; the trail, the watch lists, the reasons and
the levels agree; no clause lies beyond `caSize`; no variable is marked as seen; a literal of a
level above `0` without reason is a decision; every decision level starts with a literal of its
own; the order heap holds every unassigned decision variable; only existing variables are
decision variables; no clause is stored twice; and there are no assumptions and no final
conflict (`solve` clears the assumptions, and only `analyzeFinal`, which needs one, writes
`conflict`). -/
structure StableTo (n : Nat) (s : SATModule E) : Prop where
  wellFormed : WellFormed s
  coherent : Coherent s
  allocOK : AllocOK s
  propagated : Propagated s n
  seen_clear : ∀ v : Nat, s.seen v = false
  decisionOK : DecisionOK s
  lim_strict : s.trail_lim.Pairwise (fun a b => a < b)
  level_start : ∀ d ∈ s.trail_lim, d < s.trail.length
  heapOK : HeapOK s
  decision_range : ∀ v : Nat, s.decision v = true → v < s.nVars
  stored_nodup : (s.clauses ++ s.learnts).Nodup
  no_assumptions : s.assumptions = []
  no_conflict : s.conflict = []

/-- The invariant of the states in which `propagate` is called: the two watched literals are
propagated up to `qhead`. -/
def Stable (s : SATModule E) : Prop := StableTo s.qhead s

/-- What the embedding assumes of the environment: `sort( learnts, reduceDB_lt( ca ) )` permutes
the learnt clauses. -/
def Environment.Sorts (h : Environment E) : Prop :=
  ∀ (s : SATModule E) (cs : List CRef), (h.order s cs).Perm cs

/-- The states of the solver between two calls of its interface.  The constructor leaves the
state `init` with the values of the options `ccmin-mode` and `phase-saving`; variables are made by
`newVar` and `getLiteral`; clauses over existing variables are added by `addClause_`
(`assertSubFormula`); `budgetOff` and `assumptions.clear()` are the first two statements of
`solve`, which then calls `solve_` (`isConsistent`); and `popBacktrackPoint` calls `removeClause`
in every pass of its loop, for the reference it recorded at an assertion, whichever clause this
reference names by then (the clause stays in the list `clauses`). -/
inductive AtRest [DecidableEq E] [Neg E] : SATModule E → Prop
  | init (ccmin_mode phase_saving : Int) :
      AtRest { init E with ccmin_mode := ccmin_mode, phase_saving := phase_saving }
  | newVar (s : SATModule E) (sign dvar : Bool) : AtRest s → AtRest (s.newVar sign dvar).2
  | getLiteral (s : SATModule E) (_formula : Formula E) :
      AtRest s → AtRest (getLiteral _formula s).2
  | addClause (s : SATModule E) (ps : List Lit) (fuel : Nat) (r : Bool × SATModule E) :
      AtRest s → (∀ l ∈ ps, l.var < s.nVars) → addClause_ fuel s ps = some r → AtRest r.2
  | budgetOff (s : SATModule E) :
      AtRest s →
        AtRest { s with conflict_budget := -1, propagation_budget := -1, assumptions := [] }
  | solve (s : SATModule E) (h : Environment E) (fuel : Nat) (r : lbool × SATModule E) :
      AtRest s → h.Sorts → solve_ h fuel s = some r → AtRest r.2
  | removeClause (s : SATModule E) (cr : CRef) : AtRest s → AtRest (s.removeClause cr)

/-- The states with which `solve_` calls `search`: the state at rest after the start of `solve_`
(the method returns at once in a solver that is not `ok`), and the state with which a call of
`search` returned `l_Undef` within the budget.  The environment is one that sorts (see
`Environment.Sorts`). -/
inductive SearchCall [DecidableEq E] [Neg E] (h : Environment E) : SATModule E → Prop
  | first (s : SATModule E) : AtRest s → s.ok = true → h.Sorts → SearchCall h s.solveEntry
  | restart (s : SATModule E) (fuel : Nat) (nof_conflicts : Int) (s' : SATModule E) :
      SearchCall h s → search h fuel nof_conflicts s = some (.l_Undef, s') →
        s'.withinBudget = true → SearchCall h s'

/-- The states at the top of the loop `for( ; ; )` of `search`, where `propagate` is called:
the state after `starts++`, and the state with which a pass through the loop goes on (after a
decision, or after a conflict was analyzed, the solver went back and the clause learnt from it
was attached, also when the conflict was the clause built after the answer `False` of the
backends). -/
inductive InSearch [DecidableEq E] [Neg E] (h : Environment E) : SATModule E → Prop
  | start (s : SATModule E) : SearchCall h s → InSearch h { s with starts := s.starts + 1 }
  | pass (s : SATModule E) (nof_conflicts conflictC conflictC1 : Int) (s' : SATModule E) :
      InSearch h s → searchPass h nof_conflicts conflictC s = some (.goesOn conflictC1 s') →
        InSearch h s'

/-- The states in which the solver calls `propagate`: in `addClause_` after the literal of a
unit clause was enqueued, at the top of the loop of `search`, and in `simplify`, which `search`
calls after `propagate` found no conflict and the passed formula was adapted.  (`addClause_`,
`simplify` and `solve_` return before the call in a solver that is not `ok`.) -/
inductive PropagateCall [DecidableEq E] [Neg E] : SATModule E → Prop
  | addClause (s : SATModule E) (ps : List Lit) (l : Lit) :
      AtRest s → s.ok = true → (∀ q ∈ ps, q.var < s.nVars) →
        addClauseLoop s none (sort ps) = some [l] → PropagateCall (s.uncheckedEnqueue l none)
  | search (h : Environment E) (s : SATModule E) : InSearch h s → PropagateCall s
  | simplify (h : Environment E) (s s1 : SATModule E) :
      InSearch h s → propagate (s.nVars + s.trail.length) s = some (none, s1) →
        PropagateCall s1.adaptPassedFormula

/-- The calls `analyze( confl, learnt_clause, backtrack_level )` of `search`, with the state and
the conflicting clause: the clause that `propagate` returned, or the clause built after the answer
`False` of the backends; in both cases after `conflicts++` and at a decision level above `0`. -/
inductive AnalyzeCall [DecidableEq E] [Neg E] : SATModule E → CRef → Prop
  | propagation (h : Environment E) (s s1 : SATModule E) (confl : CRef) :
      InSearch h s →
        propagate (s.nVars + s.trail.length) s = some (some confl, s1) →
          0 < s1.decisionLevel → AnalyzeCall { s1 with conflicts := s1.conflicts + 1 } confl
  | theory (h : Environment E) (s s1 : SATModule E) :
      InSearch h s →
        propagate (s.nVars + s.trail.length) s = some (none, s1) →
          h.runBackends s1.adaptPassedFormula.mPassedFormula = .False →
            0 < s1.decisionLevel →
              AnalyzeCall
                { s1.adaptPassedFormula.learnTheoryLemma.2 with
                  conflicts := s1.adaptPassedFormula.learnTheoryLemma.2.conflicts + 1 }
                s1.adaptPassedFormula.learnTheoryLemma.1

/-- What the removal of clauses (`removeClause` in `removeSatisfied` and `reduceDB`) leaves as it
is: the literals of every clause, the watch lists (the clauses are detached lazily), the
assignment with its levels, the trail, and the other members but the marks of the clauses, the
dirty flags and the counters of literals; a reason is kept or, at decision level `0`, reset. -/
structure Pruned (s s' : SATModule E) : Prop where
  lits_eq : ∀ cr, (s'.ca cr).lits = (s.ca cr).lits
  caSize_eq : s'.caSize = s.caSize
  watches_eq : s'.watches = s.watches
  nVars_eq : s'.nVars = s.nVars
  assigns_eq : s'.assigns = s.assigns
  level_eq : ∀ v, (s'.vardata v).level = (s.vardata v).level
  reason_eq : ∀ v, (s'.vardata v).reason = (s.vardata v).reason ∨
    ((s'.vardata v).reason = none ∧ s.decisionLevel = 0)
  seen_eq : s'.seen = s.seen
  decision_eq : s'.decision = s.decision
  trail_eq : s'.trail = s.trail
  trail_lim_eq : s'.trail_lim = s.trail_lim
  qhead_eq : s'.qhead = s.qhead
  order_heap_eq : s'.order_heap = s.order_heap
  assumptions_eq : s'.assumptions = s.assumptions
  conflict_eq : s'.conflict = s.conflict
  ok_eq : s'.ok = s.ok

/-- The counter of conflicts and the state after up to `n` passes through the loop of `search`:
the iteration goes on as long as the passes go on, and it stops in front of a pass with which
`search` returns. -/
def passes [DecidableEq E] (h : Environment E) (nof_conflicts : Int) :
    Nat → Int → SATModule E → Int × SATModule E
  | 0, conflictC, s => (conflictC, s)
  | n + 1, conflictC, s =>
    match searchPass h nof_conflicts conflictC s with
    | some (.goesOn conflictC1 s1) => passes h nof_conflicts n conflictC1 s1
    | _ => (conflictC, s)

/-- The solver with the atoms `x <= 0`, `-x + 1 <= 0`, `x - 2 <= 0` and `x - 3 <= 0`, whose
variables `0`, `1`, `2`, `3` are made by `getLiteral`, and the two clauses
`[mkLit 2 true, mkLit 3 false]` and `[mkLit 3 true, mkLit 1 false, mkLit 2 true]`. -/
def fourAtoms : SATModule LinExpr :=
  let r0 := getLiteral (.REALCONSTRAINT ⟨(1, 0), .CR_LEQ⟩) (init LinExpr)
  let r1 := getLiteral (.REALCONSTRAINT ⟨(-1, 1), .CR_LEQ⟩) r0.2
  let r2 := getLiteral (.REALCONSTRAINT ⟨(1, -2), .CR_LEQ⟩) r1.2
  let r3 := getLiteral (.REALCONSTRAINT ⟨(1, -3), .CR_LEQ⟩) r2.2
  addClauses r3.2 [[mkLit 2 true, mkLit 3 false], [mkLit 3 true, mkLit 1 false, mkLit 2 true]]

/-- The environment of the scenario with four atoms: the backends answer `False` for a passed
formula that holds both `-x + 1 > 0` and `x - 2 > 0`, which no `x` satisfies, and `True`
otherwise. -/
def intervalEnvironment : Environment LinExpr :=
  { plainEnvironment with
    runBackends := fun F =>
      if (⟨(-1, 1), .CR_GREATER⟩ : Constraint LinExpr) ∈ F ∧ ⟨(1, -2), .CR_GREATER⟩ ∈ F then .False
      else .True }

/-- The scenario with four atoms: the state at the top of the loop of `search` after four passes
of the first call of `search` in `solve_`.  The first three passes decide the variables `0`, `1`
and `2`; in the fourth pass the backends answer `False`, the clause of the assigned literals is
learnt and analyzed, and the solver backtracks to level `2` with a learnt clause. -/
def fourAtomsConflict : SATModule LinExpr :=
  (passes intervalEnvironment 100 4 0
    { fourAtoms.solveEntry with starts := fourAtoms.solveEntry.starts + 1 }).2

/-- The scenario with four atoms: the state in which `search` calls `analyze` in the fifth pass,
after `propagate` returned a conflicting clause and the conflict was counted. -/
def fourAtomsAnalyze : SATModule LinExpr :=
  { (afterPropagate fourAtomsConflict).2 with
    conflicts := (afterPropagate fourAtomsConflict).2.conflicts + 1 }

/-- The total assignment in which only the variable `0` is true. -/
def onlyVarZero : Var → Bool := fun v => decide (v = 0)

/-- The scenario with four atoms: the state `fourAtomsAnalyze` with the members that `analyze`
reads written out: the trail, the starts of the decision levels, the number of variables,
`ccmin_mode`, the cleared marks, the reasons and levels of the four variables and the four
clauses. -/
def fourAtomsTable : SATModule LinExpr :=
  { fourAtomsAnalyze with
    trail := [mkLit 0 true, mkLit 1 true, mkLit 2 false, mkLit 3 false]
    trail_lim := [0, 1]
    nVars := 4
    ccmin_mode := 2
    seen := fun _ => false
    vardata := fun v =>
      if v < 4 then
        ([⟨none, 1⟩, ⟨none, 2⟩, ⟨some 3, 2⟩, ⟨some 0, 2⟩] : List VarData).getD v ⟨none, 0⟩
      else fourAtomsAnalyze.vardata v
    ca := fun cr =>
      if cr < 4 then
        ([⟨[mkLit 3 false, mkLit 2 true], false, 0⟩,
          ⟨[mkLit 3 true, mkLit 2 true, mkLit 1 false], false, 0⟩,
          ⟨[mkLit 0 true, mkLit 1 true, mkLit 2 true], true, 0⟩,
          ⟨[mkLit 2 false, mkLit 1 true, mkLit 0 true], true, 0⟩] : List Clause).getD cr
            ⟨[], false, 0⟩
      else fourAtomsAnalyze.ca cr }

/-- The solver with the variables `0`, `1` and the clauses `[0, 1]` and `[0, ~1]`, as after two
assertions, each of which records the reference of the last clause of `clauses`. -/
def twoAssertions : SATModule LinExpr :=
  afterAddClause (afterAddClause twoVars [mkLit 0 false, mkLit 1 false])
    [mkLit 0 false, mkLit 1 true]

/-- The solver `twoAssertions` after `popBacktrackPoint` went back behind the second assertion:
`removeClause` was called for the clause `1`, which stays in the list `clauses`. -/
def secondRemoved : SATModule LinExpr := twoAssertions.removeClause 1
end SATModule

/-! ## Expressions and the functions of `Constraint.cpp` -/

/-- Modelled from the spec: the expression type `GiNaC::ex` and the function `normalize` of the
header `Constraint.h` are not part of the sources at hand.  These are the operations that
`Constraint::isConsistent`, `Constraint::compare` and `Constraint::combineConstraints` use on the
left-hand side of a constraint, "a polynomial/linear expression": the names `variableNames` of the variables of a
constraint in the order of its symbol table `variables()` (a constraint's variables are those of
its left-hand side), the conversion `ex_to<numeric>`, the test `e == 0`, the flags
`e.info( info_flags::rational )`, `positive`, `negative` and `nonnegative`, the leading
coefficient `e.lcoeff( x )`, the sum, the difference and the product, the expression of an
integer, and `normalize( e )`. -/
class Expression (E : Type) where
  variableNames : E → List String
  numeric : E → ℚ
  isZero : E → Bool
  rational : E → Bool
  positive : E → Bool
  negative : E → Bool
  nonnegative : E → Bool
  lcoeff : E → String → E
  add : E → E → E
  sub : E → E → E
  mul : E → E → E
  ofInt : Int → E
  normalize : E → E

/-- The method `Constraint::variables()`. -/
def Constraint.variables [Expression E] (c : Constraint E) : List String :=
  Expression.variableNames c.lhs

/-- The method `Constraint::isConsistent()`: `2` if the constraint still contains variables, and
otherwise `1` or `0` after `evaluate` on the numeric left-hand side. -/
def Constraint.isConsistent [Expression E] (c : Constraint E) : Nat :=
  if c.variables.length = 0 then
    if evaluate (Expression.numeric c.lhs) c.relation then 1 else 0
  else 2

/-- Polynomials in the one variable `x` with integer coefficients, as the list of the
coefficients from degree `0` upwards: a concrete type of expressions on which the functions of
`Constraint.cpp` can be evaluated. -/
abbrev Poly := List Int

/-- The polynomial without leading zero coefficients, the normal form. -/
def Poly.trim (p : Poly) : Poly := (p.reverse.dropWhile (fun a => a = 0)).reverse

/-- The sum of two lists of coefficients. -/
def Poly.plus : Poly → Poly → Poly
  | [], q => q
  | a :: p, [] => a :: p
  | a :: p, b :: q => (a + b) :: Poly.plus p q

/-- The product of a list of coefficients with an integer. -/
def Poly.scale (k : Int) (p : Poly) : Poly := p.map (fun a => k * a)

/-- The product of two lists of coefficients. -/
def Poly.times : Poly → Poly → Poly
  | [], _ => []
  | a :: p, q => Poly.plus (Poly.scale a q) (0 :: Poly.times p q)

/-- The value of a polynomial at `x`. -/
def Poly.eval (p : Poly) (x : Int) : Int := p.foldr (fun a r => a + x * r) 0

/-- The operations of expressions on polynomials in `x`: a polynomial is numeric (and then
rational) if it has no coefficient above degree `0`, the flags of a sign hold for the numeric
polynomials of this sign, and `normalize` leaves an expanded polynomial as it is. -/
instance : Expression Poly where
  variableNames p := if (Poly.trim p).length ≤ 1 then [] else ["x"]
  numeric p := ((Poly.trim p).headD 0 : Int)
  isZero p := decide (Poly.trim p = [])
  rational p := decide ((Poly.trim p).length ≤ 1)
  positive p := decide ((Poly.trim p).length ≤ 1 ∧ 0 < (Poly.trim p).headD 0)
  negative p := decide ((Poly.trim p).length ≤ 1 ∧ (Poly.trim p).headD 0 < 0)
  nonnegative p := decide ((Poly.trim p).length ≤ 1 ∧ 0 ≤ (Poly.trim p).headD 0)
  lcoeff p _ := Poly.trim [(Poly.trim p).getLastD 0]
  add p q := Poly.trim (Poly.plus p q)
  sub p q := Poly.trim (Poly.plus p (Poly.scale (-1) q))
  mul p q := Poly.trim (Poly.times p q)
  ofInt k := Poly.trim [k]
  normalize p := Poly.trim p

section

open Expression

/-- The `switch` of `Constraint::compare` over the relation of `_constraintB` and, inside, the
relation of `_constraintA`, with the scaled left-hand sides `lhsA` and `lhsB`: in every case
`result1` and `result2`, each a sum or a difference of `lhsA` and `lhsB` (multiplied by `-1` in
some cases), are normalized and tested in the order of the source. -/
def Constraint.compareRelations [Expression E] (_constraintA _constraintB : Constraint E)
    (lhsA lhsB : E) : Int :=
  match _constraintB.relation with
  | .CR_EQ =>
    match _constraintA.relation with
    | .CR_EQ =>
      let result1 := normalize (sub lhsA lhsB)
      if isZero result1 then 2
      else if rational result1 then -2
      else
        let result2 := normalize (add lhsA lhsB)
        if isZero result2 then 2
        else if rational result2 then -2
        else 0
    | .CR_NEQ =>
      let result1 := normalize (sub lhsA lhsB)
      if isZero result1 then -4
      else if rational result1 then -1
      else
        let result2 := normalize (add lhsA lhsB)
        if isZero result2 then -4
        else if rational result2 then -1
        else 0
    | .CR_LESS =>
      let result1 := normalize (sub lhsA lhsB)
      if negative result1 then -1
      else if nonnegative result1 then -2
      else
        let result2 := normalize (add lhsA lhsB)
        if negative result2 then -1
        else if nonnegative result2 then -2
        else 0
    | .CR_GREATER =>
      let result1 := normalize (mul (ofInt (-1)) (sub lhsA lhsB))
      if negative result1 then -1
      else if nonnegative result1 then -2
      else
        let result2 := normalize (add lhsA lhsB)
        if isZero result2 then -2
        else if negative result2 then -2
        else if positive result2 then -1
        else 0
    | .CR_LEQ =>
      let result1 := normalize (mul (ofInt (-1)) (sub lhsA lhsB))
      if nonnegative result1 then -1
      else if negative result1 then -2
      else
        let result2 := normalize (add lhsA lhsB)
        if isZero result2 then -1
        else if negative result2 then -1
        else if positive result2 then -2
        else 0
    | .CR_GEQ =>
      let result1 := normalize (sub lhsA lhsB)
      if nonnegative result1 then -1
      else if negative result1 then -2
      else
        let result2 := normalize (add lhsA lhsB)
        if negative result2 then -2
        else if nonnegative result2 then -1
        else 0
  | .CR_NEQ =>
    match _constraintA.relation with
    | .CR_EQ =>
      let result1 := normalize (sub lhsA lhsB)
      if isZero result1 then -4
      else if rational result1 then 1
      else
        let result2 := normalize (add lhsA lhsB)
        if isZero result2 then -4
        else if rational result2 then 1
        else 0
    | .CR_NEQ =>
      let result1 := normalize (sub lhsA lhsB)
      if isZero result1 then 2
      else
        let result2 := normalize (add lhsA lhsB)
        if isZero result2 then 2
        else 0
    | .CR_LESS =>
      let result1 := normalize (sub lhsA lhsB)
      if nonnegative result1 then 1
      else
        let result2 := normalize (mul (ofInt (-1)) (add lhsA lhsB))
        if nonnegative result2 then 1
        else 0
    | .CR_GREATER =>
      let result1 := normalize (mul (ofInt (-1)) (sub lhsA lhsB))
      if nonnegative result1 then 1
      else
        let result2 := normalize (add lhsA lhsB)
        if nonnegative result2 then 1
        else 0
    | .CR_LEQ =>
      let result1 := normalize (sub lhsA lhsB)
      if isZero result1 then -3
      else if positive result1 then 1
      else
        let result2 := normalize (mul (ofInt (-1)) (add lhsA lhsB))
        if isZero result2 then -3
        else if positive result2 then 1
        else 0
    | .CR_GEQ =>
      let result1 := normalize (mul (ofInt (-1)) (sub lhsA lhsB))
      if isZero result1 then -3
      else if positive result1 then 1
      else
        let result2 := normalize (add lhsA lhsB)
        if isZero result2 then -3
        else if positive result2 then 1
        else 0
  | .CR_LESS =>
    match _constraintA.relation with
    | .CR_EQ =>
      let result1 := normalize (mul (ofInt (-1)) (sub lhsA lhsB))
      if negative result1 then 1
      else if nonnegative result1 then -2
      else
        let result2 := normalize (add lhsA lhsB)
        if negative result2 then 1
        else if nonnegative result2 then -2
        else 0
    | .CR_NEQ =>
      let result1 := normalize (mul (ofInt (-1)) (sub lhsA lhsB))
      if nonnegative result1 then -1
      else
        let result2 := normalize (add lhsA lhsB)
        if nonnegative result2 then -1
        else 0
    | .CR_LESS =>
      let result1 := normalize (sub lhsA lhsB)
      if isZero result1 then 2
      else if negative result1 then -1
      else if positive result1 then 1
      else
        let result2 := normalize (add lhsA lhsB)
        if nonnegative result2 then -2
        else 0
    | .CR_GREATER =>
      let result1 := normalize (mul (ofInt (-1)) (sub lhsA lhsB))
      if nonnegative result1 then -2
      else
        let result2 := normalize (add lhsA lhsB)
        if isZero result2 then 2
        else if positive result2 then -1
        else if negative result2 then 1
        else 0
    | .CR_LEQ =>
      let result1 := normalize (sub lhsA lhsB)
      if positive result1 then 1
      else if rational result1 then -1
      else
        let result2 := normalize (add lhsA lhsB)
        if positive result2 then -2
        else if isZero result2 then -4
        else 0
    | .CR_GEQ =>
      let result1 := normalize (mul (ofInt (-1)) (sub lhsA lhsB))
      if positive result1 then -2
      else if isZero result1 then -4
      else
        let result2 := normalize (add lhsA lhsB)
        if nonnegative result2 then -1
        else if negative result2 then 1
        else 0
  | .CR_GREATER =>
    match _constraintA.relation with
    | .CR_EQ =>
      let result1 := normalize (sub lhsA lhsB)
      if negative result1 then 1
      else if nonnegative result1 then -2
      else
        let result2 := normalize (add lhsA lhsB)
        if isZero result2 then -2
        else if negative result2 then -2
        else if positive result2 then 1
        else 0
    | .CR_NEQ =>
      let result1 := normalize (sub lhsA lhsB)
      if nonnegative result1 then -1
      else
        let result2 := normalize (mul (ofInt (-1)) (add lhsA lhsB))
        if nonnegative result2 then -1
        else 0
    | .CR_LESS =>
      let result1 := normalize (sub lhsA lhsB)
      if nonnegative result1 then -2
      else
        let result2 := normalize (add lhsA lhsB)
        if isZero result2 then 2
        else if positive result2 then 1
        else if negative result2 then -1
        else 0
    | .CR_GREATER =>
      let result1 := normalize (sub lhsA lhsB)
      if isZero result1 then 2
      else if negative result1 then 1
      else if positive result1 then -1
      else
        let result2 := normalize (mul (ofInt (-1)) (add lhsA lhsB))
        if nonnegative result2 then -2
        else 0
    | .CR_LEQ =>
      let result1 := normalize (sub lhsA lhsB)
      if positive result1 then -2
      else if isZero result1 then -4
      else
        let result2 := normalize (mul (ofInt (-1)) (add lhsA lhsB))
        if nonnegative result2 then -1
        else if negative result2 then 1
        else 0
    | .CR_GEQ =>
      let result1 := normalize (sub lhsA lhsB)
      if negative result1 then 1
      else if rational result1 then -1
      else
        let result2 := normalize (mul (ofInt (-1)) (add lhsA lhsB))
        if positive result2 then -2
        else if isZero result2 then -4
        else 0
  | .CR_LEQ =>
    match _constraintA.relation with
    | .CR_EQ =>
      let result1 := normalize (sub lhsA lhsB)
      if nonnegative result1 then 1
      else if negative result1 then -2
      else
        let result2 := normalize (add lhsA lhsB)
        if isZero result2 then 1
        else if negative result2 then 1
        else if positive result2 then -2
        else 0
    | .CR_NEQ =>
      let result1 := normalize (mul (ofInt (-1)) (sub lhsA lhsB))
      if isZero result1 then -3
      else if positive result1 then -1
      else
        let result2 := normalize (add lhsA lhsB)
        if isZero result2 then -3
        else if positive result2 then -1
        else 0
    | .CR_LESS =>
      let result1 := normalize (sub lhsA lhsB)
      if negative result1 then -1
      else if rational result1 then 1
      else
        let result2 := normalize (add lhsA lhsB)
        if positive result2 then -2
        else if isZero result2 then -4
        else 0
    | .CR_GREATER =>
      let result1 := normalize (mul (ofInt (-1)) (sub lhsA lhsB))
      if positive result1 then -2
      else if isZero result1 then -4
      else
        let result2 := normalize (mul (ofInt (-1)) (add lhsA lhsB))
        if nonnegative result2 then 1
        else if negative result2 then -1
        else 0
    | .CR_LEQ =>
      let result1 := normalize (sub lhsA lhsB)
      if isZero result1 then 2
      else if negative result1 then -1
      else if positive result1 then 1
      else
        let result2 := normalize (add lhsA lhsB)
        if isZero result2 then -3
        else if positive result2 then -2
        else 0
    | .CR_GEQ =>
      let result1 := normalize (sub lhsA lhsB)
      if isZero result1 then -3
      else if negative result1 then -2
      else
        let result2 := normalize (add lhsA lhsB)
        if isZero result2 then 2
        else if positive result2 then -1
        else if negative result2 then 1
        else 0
  | .CR_GEQ =>
    match _constraintA.relation with
    | .CR_EQ =>
      let result1 := normalize (mul (ofInt (-1)) (sub lhsA lhsB))
      if nonnegative result1 then 1
      else if negative result1 then -2
      else
        let result2 := normalize (add lhsA lhsB)
        if negative result2 then -2
        else if nonnegative result2 then 1
        else 0
    | .CR_NEQ =>
      let result1 := normalize (sub lhsA lhsB)
      if isZero result1 then -3
      else if positive result1 then -1
      else
        let result2 := normalize (mul (ofInt (-1)) (add lhsA lhsB))
        if isZero result2 then -3
        else if positive result2 then -1
        else 0
    | .CR_LESS =>
      let result1 := normalize (sub lhsA lhsB)
      if positive result1 then -2
      else if isZero result1 then -4
      else
        let result2 := normalize (add lhsA lhsB)
        if nonnegative result2 then 1
        else if negative result2 then -1
        else 0
    | .CR_GREATER =>
      let result1 := normalize (sub lhsA lhsB)
      if positive result1 then -1
      else if rational result1 then 1
      else
        let result2 := normalize (mul (ofInt (-1)) (add lhsA lhsB))
        if positive result2 then -2
        else if isZero result2 then -4
        else 0
    | .CR_LEQ =>
      let result1 := normalize (sub lhsA lhsB)
      if isZero result1 then -3
      else if positive result1 then -2
      else
        let result2 := normalize (add lhsA lhsB)
        if isZero result2 then 2
        else if positive result2 then 1
        else if negative result2 then -1
        else 0
    | .CR_GEQ =>
      let result1 := normalize (sub lhsA lhsB)
      if isZero result1 then 2
      else if negative result1 then 1
      else if positive result1 then -1
      else
        let result2 := normalize (add lhsA lhsB)
        if isZero result2 then -3
        else if negative result2 then -2
        else 0

/-- The function `Constraint::compare( _constraintA, _constraintB )`.  The loop over the two
symbol tables ends with both iterators at the end exactly if the two lists of names are equal.
If both leading coefficients (in the first variable) are rational, `lhsA` is multiplied by
`lcoeffB` and `lhsB` by `lcoeffA`, each with a factor `-1` if the coefficient is not positive; if
only one of them is rational the result is `0`. -/
def Constraint.compare [Expression E] (_constraintA _constraintB : Constraint E) : Int :=
  if _constraintA.variables.isEmpty || _constraintB.variables.isEmpty then 0
  else if _constraintA.variables = _constraintB.variables then
    let lcoeffA := lcoeff _constraintA.lhs (_constraintA.variables.headD "")
    let lcoeffB := lcoeff _constraintB.lhs (_constraintB.variables.headD "")
    let lhsA := _constraintA.lhs
    let lhsB := _constraintB.lhs
    if rational lcoeffA && rational lcoeffB then
      let lhsA := if positive lcoeffB then mul lhsA lcoeffB else mul (mul lhsA (ofInt (-1))) lcoeffB
      let lhsB := if positive lcoeffA then mul lhsB lcoeffA else mul (mul lhsB (ofInt (-1))) lcoeffA
      Constraint.compareRelations _constraintA _constraintB lhsA lhsB
    else if rational lcoeffA || rational lcoeffB then 0
    else Constraint.compareRelations _constraintA _constraintB lhsA lhsB
  else 0

/-- The three loops at the start of `Constraint::combineConstraints` over the symbol tables of two
constraints: they go on as long as both lists have a next name, and a pair of different names
ends the function with `false`. -/
def namesAgree (xs ys : List String) : Bool := (xs.zip ys).all (fun p => p.1 = p.2)

/-- The `switch` of `Constraint::combineConstraints` over the three relations: in every case
sums and differences of the three left-hand sides are normalized and compared with `0`. -/
def Constraint.combineRelations [Expression E]
    (_constraintA _constraintB _conditionconstraint : Constraint E) : Bool :=
  match _constraintA.relation with
  | .CR_EQ =>
    if _constraintB.relation = .CR_NEQ then
      if _conditionconstraint.relation = .CR_EQ then
        let result := normalize (add (sub _constraintA.lhs _constraintB.lhs) _conditionconstraint.lhs)
        if isZero result then true
        else
          let result := normalize (sub (sub _constraintA.lhs _constraintB.lhs) _conditionconstraint.lhs)
          if isZero result then true
          else
            let result := normalize (add (add _constraintA.lhs _constraintB.lhs) _conditionconstraint.lhs)
            if isZero result then true
            else
              let result := normalize (sub (add _constraintA.lhs _constraintB.lhs) _conditionconstraint.lhs)
              if isZero result then true
              else false
      else
        false
    else
      false
  | .CR_NEQ =>
    match _constraintB.relation with
    | .CR_EQ =>
      if _conditionconstraint.relation = .CR_EQ then
        let result := normalize (add (sub _constraintA.lhs _constraintB.lhs) _conditionconstraint.lhs)
        if isZero result then true
        else
          let result := normalize (sub (sub _constraintA.lhs _constraintB.lhs) _conditionconstraint.lhs)
          if isZero result then true
          else
            let result := normalize (add (add _constraintA.lhs _constraintB.lhs) _conditionconstraint.lhs)
            if isZero result then true
            else
              let result := normalize (sub (add _constraintA.lhs _constraintB.lhs) _conditionconstraint.lhs)
              if isZero result then true
              else false
      else
        false
    | .CR_NEQ =>
      false
    | .CR_LESS =>
      match _conditionconstraint.relation with
      | .CR_EQ =>
        false
      | .CR_NEQ =>
        false
      | .CR_LESS =>
        let result := normalize (add (sub _constraintA.lhs _constraintB.lhs) _conditionconstraint.lhs)
        if isZero result then true
        else
          let result := normalize (sub (add _constraintA.lhs _constraintB.lhs) _conditionconstraint.lhs)
          if isZero result then true
          else false
      | .CR_GREATER =>
        let result := normalize (add (add _constraintA.lhs _constraintB.lhs) _conditionconstraint.lhs)
        if isZero result then true
        else
          let result := normalize (sub (sub _constraintA.lhs _constraintB.lhs) _conditionconstraint.lhs)
          if isZero result then true
          else false
      | .CR_LEQ =>
        false
      | .CR_GEQ =>
        false
    | .CR_GREATER =>
      match _conditionconstraint.relation with
      | .CR_EQ =>
        false
      | .CR_NEQ =>
        false
      | .CR_LESS =>
        let result := normalize (sub (sub _constraintA.lhs _constraintB.lhs) _conditionconstraint.lhs)
        if isZero result then true
        else
          let result := normalize (add (add _constraintA.lhs _constraintB.lhs) _conditionconstraint.lhs)
          if isZero result then true
          else false
      | .CR_GREATER =>
        let result := normalize (sub (add _constraintA.lhs _constraintB.lhs) _conditionconstraint.lhs)
        if isZero result then true
        else
          let result := normalize (add (sub _constraintA.lhs _constraintB.lhs) _conditionconstraint.lhs)
          if isZero result then true
          else false
      | .CR_LEQ =>
        false
      | .CR_GEQ =>
        false
    | .CR_LEQ =>
      match _conditionconstraint.relation with
      | .CR_EQ =>
        false
      | .CR_NEQ =>
        false
      | .CR_LESS =>
        false
      | .CR_GREATER =>
        false
      | .CR_LEQ =>
        let result := normalize (add (sub _constraintA.lhs _constraintB.lhs) _conditionconstraint.lhs)
        if isZero result then true
        else
          let result := normalize (sub (add _constraintA.lhs _constraintB.lhs) _conditionconstraint.lhs)
          if isZero result then true
          else false
      | .CR_GEQ =>
        let result := normalize (add (add _constraintA.lhs _constraintB.lhs) _conditionconstraint.lhs)
        if isZero result then true
        else
          let result := normalize (sub (sub _constraintA.lhs _constraintB.lhs) _conditionconstraint.lhs)
          if isZero result then true
          else false
    | .CR_GEQ =>
      match _conditionconstraint.relation with
      | .CR_EQ =>
        false
      | .CR_NEQ =>
        false
      | .CR_LESS =>
        false
      | .CR_GREATER =>
        false
      | .CR_LEQ =>
        let result := normalize (add (add _constraintA.lhs _constraintB.lhs) _conditionconstraint.lhs)
        if isZero result then true
        else
          let result := normalize (sub (sub _constraintA.lhs _constraintB.lhs) _conditionconstraint.lhs)
          if isZero result then true
          else false
      | .CR_GEQ =>
        let result := normalize (add (sub _constraintA.lhs _constraintB.lhs) _conditionconstraint.lhs)
        if isZero result then true
        else
          let result := normalize (sub (add _constraintA.lhs _constraintB.lhs) _conditionconstraint.lhs)
          if isZero result then true
          else false
  | .CR_LESS =>
    match _constraintB.relation with
    | .CR_EQ =>
      false
    | .CR_NEQ =>
      match _conditionconstraint.relation with
      | .CR_EQ =>
        false
      | .CR_NEQ =>
        false
      | .CR_LESS =>
        let result := normalize (sub (sub _constraintA.lhs _constraintB.lhs) _conditionconstraint.lhs)
        if isZero result then true
        else
          let result := normalize (sub (add _constraintA.lhs _constraintB.lhs) _conditionconstraint.lhs)
          if isZero result then true
          else false
      | .CR_GREATER =>
        let result := normalize (add (add _constraintA.lhs _constraintB.lhs) _conditionconstraint.lhs)
        if isZero result then true
        else
          let result := normalize (add (sub _constraintA.lhs _constraintB.lhs) _conditionconstraint.lhs)
          if isZero result then true
          else false
      | .CR_LEQ =>
        false
      | .CR_GEQ =>
        false
    | .CR_LESS =>
      match _conditionconstraint.relation with
      | .CR_EQ =>
        false
      | .CR_NEQ =>
        false
      | .CR_LESS =>
        let result := normalize (sub (add _constraintA.lhs _constraintB.lhs) _conditionconstraint.lhs)
        if isZero result then true
        else false
      | .CR_GREATER =>
        let result := normalize (add (add _constraintA.lhs _constraintB.lhs) _conditionconstraint.lhs)
        if isZero result then true
        else false
      | .CR_LEQ =>
        false
      | .CR_GEQ =>
        false
    | .CR_GREATER =>
      match _conditionconstraint.relation with
      | .CR_EQ =>
        false
      | .CR_NEQ =>
        false
      | .CR_LESS =>
        let result := normalize (sub (sub _constraintA.lhs _constraintB.lhs) _conditionconstraint.lhs)
        if isZero result then true
        else false
      | .CR_GREATER =>
        let result := normalize (add (sub _constraintA.lhs _constraintB.lhs) _conditionconstraint.lhs)
        if isZero result then true
        else false
      | .CR_LEQ =>
        false
      | .CR_GEQ =>
        false
    | .CR_LEQ =>
      match _conditionconstraint.relation with
      | .CR_EQ =>
        false
      | .CR_NEQ =>
        false
      | .CR_LESS =>
        false
      | .CR_GREATER =>
        false
      | .CR_LEQ =>
        let result := normalize (sub (add _constraintA.lhs _constraintB.lhs) _conditionconstraint.lhs)
        if isZero result then true
        else false
      | .CR_GEQ =>
        let result := normalize (add (add _constraintA.lhs _constraintB.lhs) _conditionconstraint.lhs)
        if isZero result then true
        else false
    | .CR_GEQ =>
      match _conditionconstraint.relation with
      | .CR_EQ =>
        false
      | .CR_NEQ =>
        false
      | .CR_LESS =>
        false
      | .CR_GREATER =>
        false
      | .CR_LEQ =>
        let result := normalize (sub (sub _constraintA.lhs _constraintB.lhs) _conditionconstraint.lhs)
        if isZero result then true
        else false
      | .CR_GEQ =>
        let result := normalize (add (sub _constraintA.lhs _constraintB.lhs) _conditionconstraint.lhs)
        if isZero result then true
        else false
  | .CR_GREATER =>
    match _constraintB.relation with
    | .CR_EQ =>
      false
    | .CR_NEQ =>
      match _conditionconstraint.relation with
      | .CR_EQ =>
        false
      | .CR_NEQ =>
        false
      | .CR_LESS =>
        let result := normalize (add (sub _constraintA.lhs _constraintB.lhs) _conditionconstraint.lhs)
        if isZero result then true
        else
          let result := normalize (add (add _constraintA.lhs _constraintB.lhs) _conditionconstraint.lhs)
          if isZero result then true
          else false
      | .CR_GREATER =>
        let result := normalize (sub (add _constraintA.lhs _constraintB.lhs) _conditionconstraint.lhs)
        if isZero result then true
        else
          let result := normalize (sub (sub _constraintA.lhs _constraintB.lhs) _conditionconstraint.lhs)
          if isZero result then true
          else false
      | .CR_LEQ =>
        false
      | .CR_GEQ =>
        false
    | .CR_LESS =>
      match _conditionconstraint.relation with
      | .CR_EQ =>
        false
      | .CR_NEQ =>
        false
      | .CR_LESS =>
        let result := normalize (add (sub _constraintA.lhs _constraintB.lhs) _conditionconstraint.lhs)
        if isZero result then true
        else false
      | .CR_GREATER =>
        let result := normalize (sub (sub _constraintA.lhs _constraintB.lhs) _conditionconstraint.lhs)
        if isZero result then true
        else false
      | .CR_LEQ =>
        false
      | .CR_GEQ =>
        false
    | .CR_GREATER =>
      match _conditionconstraint.relation with
      | .CR_EQ =>
        false
      | .CR_NEQ =>
        false
      | .CR_LESS =>
        let result := normalize (add (add _constraintA.lhs _constraintB.lhs) _conditionconstraint.lhs)
        if isZero result then true
        else false
      | .CR_GREATER =>
        let result := normalize (sub (add _constraintA.lhs _constraintB.lhs) _conditionconstraint.lhs)
        if isZero result then true
        else false
      | .CR_LEQ =>
        false
      | .CR_GEQ =>
        false
    | .CR_LEQ =>
      match _conditionconstraint.relation with
      | .CR_EQ =>
        false
      | .CR_NEQ =>
        false
      | .CR_LESS =>
        false
      | .CR_GREATER =>
        false
      | .CR_LEQ =>
        let result := normalize (add (sub _constraintA.lhs _constraintB.lhs) _conditionconstraint.lhs)
        if isZero result then true
        else false
      | .CR_GEQ =>
        let result := normalize (add (sub _constraintA.lhs _constraintB.lhs) _conditionconstraint.lhs)
        if isZero result then true
        else false
    | .CR_GEQ =>
      match _conditionconstraint.relation with
      | .CR_EQ =>
        false
      | .CR_NEQ =>
        false
      | .CR_LESS =>
        false
      | .CR_GREATER =>
        false
      | .CR_LEQ =>
        let result := normalize (add (add _constraintA.lhs _constraintB.lhs) _conditionconstraint.lhs)
        if isZero result then true
        else false
      | .CR_GEQ =>
        let result := normalize (sub (add _constraintA.lhs _constraintB.lhs) _conditionconstraint.lhs)
        if isZero result then true
        else false
  | .CR_LEQ =>
    match _constraintB.relation with
    | .CR_EQ =>
      false
    | .CR_NEQ =>
      match _conditionconstraint.relation with
      | .CR_EQ =>
        false
      | .CR_NEQ =>
        false
      | .CR_LESS =>
        false
      | .CR_GREATER =>
        false
      | .CR_LEQ =>
        let result := normalize (sub (sub _constraintA.lhs _constraintB.lhs) _conditionconstraint.lhs)
        if isZero result then true
        else
          let result := normalize (sub (add _constraintA.lhs _constraintB.lhs) _conditionconstraint.lhs)
          if isZero result then true
          else false
      | .CR_GEQ =>
        let result := normalize (add (add _constraintA.lhs _constraintB.lhs) _conditionconstraint.lhs)
        if isZero result then true
        else
          let result := normalize (add (sub _constraintA.lhs _constraintB.lhs) _conditionconstraint.lhs)
          if isZero result then true
          else false
    | .CR_LESS =>
      match _conditionconstraint.relation with
      | .CR_EQ =>
        false
      | .CR_NEQ =>
        false
      | .CR_LESS =>
        false
      | .CR_GREATER =>
        false
      | .CR_LEQ =>
        let result := normalize (sub (add _constraintA.lhs _constraintB.lhs) _conditionconstraint.lhs)
        if isZero result then true
        else false
      | .CR_GEQ =>
        let result := normalize (add (add _constraintA.lhs _constraintB.lhs) _conditionconstraint.lhs)
        if isZero result then true
        else false
    | .CR_GREATER =>
      match _conditionconstraint.relation with
      | .CR_EQ =>
        false
      | .CR_NEQ =>
        false
      | .CR_LESS =>
        false
      | .CR_GREATER =>
        false
      | .CR_LEQ =>
        let result := normalize (sub (sub _constraintA.lhs _constraintB.lhs) _conditionconstraint.lhs)
        if isZero result then true
        else false
      | .CR_GEQ =>
        let result := normalize (add (sub _constraintA.lhs _constraintB.lhs) _conditionconstraint.lhs)
        if isZero result then true
        else false
    | .CR_LEQ =>
      match _conditionconstraint.relation with
      | .CR_EQ =>
        false
      | .CR_NEQ =>
        false
      | .CR_LESS =>
        false
      | .CR_GREATER =>
        false
      | .CR_LEQ =>
        let result := normalize (sub (add _constraintA.lhs _constraintB.lhs) _conditionconstraint.lhs)
        if isZero result then true
        else false
      | .CR_GEQ =>
        let result := normalize (add (add _constraintA.lhs _constraintB.lhs) _conditionconstraint.lhs)
        if isZero result then true
        else false
    | .CR_GEQ =>
      match _conditionconstraint.relation with
      | .CR_EQ =>
        false
      | .CR_NEQ =>
        false
      | .CR_LESS =>
        false
      | .CR_GREATER =>
        false
      | .CR_LEQ =>
        let result := normalize (sub (sub _constraintA.lhs _constraintB.lhs) _conditionconstraint.lhs)
        if isZero result then true
        else false
      | .CR_GEQ =>
        let result := normalize (add (sub _constraintA.lhs _constraintB.lhs) _conditionconstraint.lhs)
        if isZero result then true
        else false
  | .CR_GEQ =>
    match _constraintB.relation with
    | .CR_EQ =>
      false
    | .CR_NEQ =>
      match _conditionconstraint.relation with
      | .CR_EQ =>
        false
      | .CR_NEQ =>
        false
      | .CR_LESS =>
        false
      | .CR_GREATER =>
        false
      | .CR_LEQ =>
        let result := normalize (add (add _constraintA.lhs _constraintB.lhs) _conditionconstraint.lhs)
        if isZero result then true
        else
          let result := normalize (add (sub _constraintA.lhs _constraintB.lhs) _conditionconstraint.lhs)
          if isZero result then true
          else false
      | .CR_GEQ =>
        let result := normalize (sub (sub _constraintA.lhs _constraintB.lhs) _conditionconstraint.lhs)
        if isZero result then true
        else
          let result := normalize (sub (add _constraintA.lhs _constraintB.lhs) _conditionconstraint.lhs)
          if isZero result then true
          else false
    | .CR_LESS =>
      match _conditionconstraint.relation with
      | .CR_EQ =>
        false
      | .CR_NEQ =>
        false
      | .CR_LESS =>
        false
      | .CR_GREATER =>
        false
      | .CR_LEQ =>
        let result := normalize (add (sub _constraintA.lhs _constraintB.lhs) _conditionconstraint.lhs)
        if isZero result then true
        else false
      | .CR_GEQ =>
        let result := normalize (sub (sub _constraintA.lhs _constraintB.lhs) _conditionconstraint.lhs)
        if isZero result then true
        else false
    | .CR_GREATER =>
      match _conditionconstraint.relation with
      | .CR_EQ =>
        false
      | .CR_NEQ =>
        false
      | .CR_LESS =>
        false
      | .CR_GREATER =>
        false
      | .CR_LEQ =>
        let result := normalize (add (add _constraintA.lhs _constraintB.lhs) _conditionconstraint.lhs)
        if isZero result then true
        else false
      | .CR_GEQ =>
        let result := normalize (sub (add _constraintA.lhs _constraintB.lhs) _conditionconstraint.lhs)
        if isZero result then true
        else false
    | .CR_LEQ =>
      match _conditionconstraint.relation with
      | .CR_EQ =>
        false
      | .CR_NEQ =>
        false
      | .CR_LESS =>
        false
      | .CR_GREATER =>
        false
      | .CR_LEQ =>
        let result := normalize (add (sub _constraintA.lhs _constraintB.lhs) _conditionconstraint.lhs)
        if isZero result then true
        else false
      | .CR_GEQ =>
        let result := normalize (sub (sub _constraintA.lhs _constraintB.lhs) _conditionconstraint.lhs)
        if isZero result then true
        else false
    | .CR_GEQ =>
      match _conditionconstraint.relation with
      | .CR_EQ =>
        false
      | .CR_NEQ =>
        false
      | .CR_LESS =>
        false
      | .CR_GREATER =>
        false
      | .CR_LEQ =>
        let result := normalize (add (add _constraintA.lhs _constraintB.lhs) _conditionconstraint.lhs)
        if isZero result then true
        else false
      | .CR_GEQ =>
        let result := normalize (sub (add _constraintA.lhs _constraintB.lhs) _conditionconstraint.lhs)
        if isZero result then true
        else false

/-- The function
`Constraint::combineConstraints( _constraintA, _constraintB, _conditionconstraint )`. -/
def Constraint.combineConstraints [Expression E]
    (_constraintA _constraintB _conditionconstraint : Constraint E) : Bool :=
  if !namesAgree _constraintA.variables _constraintB.variables then false
  else if !namesAgree _constraintA.variables _conditionconstraint.variables then false
  else if !namesAgree _constraintB.variables _conditionconstraint.variables then false
  else Constraint.combineRelations _constraintA _constraintB _conditionconstraint

end

/-- The constraint `x < 0`. -/
def xNegative : Constraint Poly := ⟨[0, 1], .CR_LESS⟩

/-- The constraint `x > 0`. -/
def xPositive : Constraint Poly := ⟨[0, 1], .CR_GREATER⟩

/-- The constraint `x <= 0`. -/
def xNonpositive : Constraint Poly := ⟨[0, 1], .CR_LEQ⟩

/-- The constraint `x >= 0`. -/
def xNonnegative : Constraint Poly := ⟨[0, 1], .CR_GEQ⟩

/-- The constraint `-x - 1 != 0`. -/
def xNotMinusOne : Constraint Poly := ⟨[-1, -1], .CR_NEQ⟩

/-- The constraint `-x + 1 != 0`. -/
def xNotOne : Constraint Poly := ⟨[1, -1], .CR_NEQ⟩

/-- The constraint `2*x + 1 <= 0`. -/
def twoXPlusOneNonpositive : Constraint Poly := ⟨[1, 2], .CR_LEQ⟩

/-- The constraint `x + 1 >= 0`. -/
def xPlusOneNonnegative : Constraint Poly := ⟨[1, 1], .CR_GEQ⟩

/-- Does the constraint hold at the point `x`?  The left-hand side is evaluated at `x` and
compared with `0` by `evaluate`. -/
def Constraint.holdsAt (c : Constraint Poly) (x : Int) : Bool :=
  evaluate (Poly.eval c.lhs x : Int) c.relation

/-! ## `ConstraintPool::newConstraint` -/

namespace ConstraintPool

/-- The call `expression.find( c, 0 )` of the standard library for a string `c` of one character:
the position of the first occurrence of the character, `none` for `string::npos`.  Strings are
lists of characters. -/
def find : List Char → Char → Option Nat
  | [], _ => none
  | a :: as, c => if a = c then some 0 else (find as c).map (fun i => i + 1)

/-- The call `expression.substr( pos, len )` of the standard library. -/
def substr (expression : List Char) (pos len : Nat) : List Char := (expression.drop pos).take len

/-- What `ConstraintPool::newConstraint` hands to the parser and to the constructor of the
constraint: the strings of the two sides and the relation. -/
structure Parsed where
  lhsString : List Char
  relation : Constraint_Relation
  rhsString : List Char
  deriving DecidableEq, Repr

/-- The value `string::npos`, `2 ^ 64 - 1`: the position of an operator that was not found. -/
def npos : Nat := 18446744073709551615

/-- The search for the operator in `ConstraintPool::newConstraint`: the operator is searched by
the characters `=`, `<`, `>` and `!`, and the relation is chosen by `_polarity`.  The result is
`opPos`, `relation` and `opSize` (`assert( opPos != string::npos )` is not executed). -/
def findOperator (expression : List Char) (_polarity : Bool) :
    Option Nat × Constraint_Relation × Nat :=
  let opPos := find expression '='
  if opPos = none then
    let opPos := find expression '<'
    if opPos = none then
      let opPos := find expression '>'
      (opPos, if _polarity then .CR_GREATER else .CR_LEQ, 1)
    else (opPos, if _polarity then .CR_LESS else .CR_GEQ, 1)
  else
    let tempOpPos := opPos
    let opPos := find expression '<'
    if opPos = none then
      let opPos := find expression '>'
      if opPos = none then
        let opPos := find expression '!'
        if opPos = none then (tempOpPos, if _polarity then .CR_EQ else .CR_NEQ, 1)
        else (opPos, if _polarity then .CR_NEQ else .CR_EQ, 2)
      else (opPos, if _polarity then .CR_GEQ else .CR_LESS, 2)
    else (opPos, if _polarity then .CR_LEQ else .CR_GREATER, 2)

/-- The method `ConstraintPool::newConstraint( _stringrep, _infix, _polarity )` for a string in
infix notation (`_infix = true`, `expression = _stringrep`), up to the calls of the parser: after
the search for the operator the strings of the two sides are `expression.substr( 0, opPos )` and
`expression.substr( opPos + opSize )`, with the sum taken modulo `2 ^ 64`. -/
def newConstraint (expression : List Char) (_polarity : Bool) : Parsed :=
  let r := findOperator expression _polarity
  let opPos := r.1.getD npos
  let opSize := r.2.2
  { lhsString := substr expression 0 opPos
    relation := r.2.1
    rhsString := substr expression ((opPos + opSize) % (npos + 1)) npos }

/-- The operator of a relation as it is written in a constraint string: `=`, `!=`, `<`, `>`,
`<=`, `>=`. -/
def operatorOf : Constraint_Relation → List Char
  | .CR_EQ => ['=']
  | .CR_NEQ => ['!', '=']
  | .CR_LESS => ['<']
  | .CR_GREATER => ['>']
  | .CR_LEQ => ['<', '=']
  | .CR_GEQ => ['>', '=']

/-- A string of one side of a constraint: it holds none of the characters of the operators. -/
def OperatorFree (l : List Char) : Prop :=
  ∀ c ∈ l, c ≠ '=' ∧ c ≠ '<' ∧ c ≠ '>' ∧ c ≠ '!'

end ConstraintPool

/-! ## Square root expressions (`SqrtEx.cpp`) -/

namespace vs

/-- Modelled from the spec: the class declaration of `SqrtEx` (header `SqrtEx.h`) and the type
`smtrat::Polynomial` are not part of the sources at hand.  A square root expression has the
members `mConstantPart`, `mFactor`, `mDenominator` and `mRadicand` and stands for
`(constantPart + factor * sqrt(radicand)) / denominator`; `P` is the type of polynomials, a
commutative ring with decidable equality. -/
structure SqrtEx (P : Type) where
  mConstantPart : P
  mFactor : P
  mDenominator : P
  mRadicand : P
  deriving DecidableEq, Repr

variable {P : Type}

/-- The constructor `SqrtEx( const smtrat::Polynomial& _ex )`; `normalize()` has an empty body. -/
def SqrtEx.ofPolynomial [CommRing P] (_ex : P) : SqrtEx P := ⟨_ex, 0, 1, 0⟩

/-- The constructor `SqrtEx( _constantPart, _factor, _denominator, _radicand )` with its member
initializers, in the order in which they are written: `mFactor( _radicand == 0 ? 0 : _factor )`,
`mDenominator( (mFactor == 0 && _constantPart == 0) ? 1 : _denominator )`,
`mRadicand( _factor == 0 ? 0 : _radicand )`.  The assertions `_denominator != 0` and
`!_radicand.isConstant() || _radicand >= 0` are not executed, and `normalize()` has an empty
body. -/
def SqrtEx.new [CommRing P] [DecidableEq P] (_constantPart _factor _denominator _radicand : P) :
    SqrtEx P :=
  let mFactor := if _radicand = 0 then 0 else _factor
  { mConstantPart := _constantPart
    mFactor := mFactor
    mDenominator := if mFactor = 0 ∧ _constantPart = 0 then 1 else _denominator
    mRadicand := if _factor = 0 then 0 else _radicand }

/-- Modelled from the spec: the method `hasSqrt()` of the header, "has a square root": the factor
of the square root is not zero. -/
def SqrtEx.hasSqrt [CommRing P] [DecidableEq P] (e : SqrtEx P) : Bool := decide (e.mFactor ≠ 0)

/-- The precondition that `operator+`, `operator-` and `operator*` assert:
`!_sqrtEx1.hasSqrt() || !_sqrtEx2.hasSqrt() || _sqrtEx1.radicand() == _sqrtEx2.radicand()`. -/
def SqrtEx.compatible [CommRing P] [DecidableEq P] (_sqrtEx1 _sqrtEx2 : SqrtEx P) : Bool :=
  !_sqrtEx1.hasSqrt || !_sqrtEx2.hasSqrt || decide (_sqrtEx1.mRadicand = _sqrtEx2.mRadicand)

/-- The function `operator+( _sqrtEx1, _sqrtEx2 )`. -/
def SqrtEx.add [CommRing P] [DecidableEq P] (_sqrtEx1 _sqrtEx2 : SqrtEx P) : SqrtEx P :=
  SqrtEx.new
    (_sqrtEx2.mDenominator * _sqrtEx1.mConstantPart
      + _sqrtEx2.mConstantPart * _sqrtEx1.mDenominator)
    (_sqrtEx2.mDenominator * _sqrtEx1.mFactor + _sqrtEx2.mFactor * _sqrtEx1.mDenominator)
    (_sqrtEx1.mDenominator * _sqrtEx2.mDenominator) _sqrtEx1.mRadicand

/-- The function `operator-( _sqrtEx1, _sqrtEx2 )`. -/
def SqrtEx.sub [CommRing P] [DecidableEq P] (_sqrtEx1 _sqrtEx2 : SqrtEx P) : SqrtEx P :=
  SqrtEx.new
    (_sqrtEx2.mDenominator * _sqrtEx1.mConstantPart
      - _sqrtEx2.mConstantPart * _sqrtEx1.mDenominator)
    (_sqrtEx2.mDenominator * _sqrtEx1.mFactor - _sqrtEx2.mFactor * _sqrtEx1.mDenominator)
    (_sqrtEx1.mDenominator * _sqrtEx2.mDenominator) _sqrtEx1.mRadicand

/-- The function `operator*( _sqrtEx1, _sqrtEx2 )`.  The source passes a fifth argument `vars` to
the constructor, which the constructor of four polynomials does not take; it is left out. -/
def SqrtEx.mul [CommRing P] [DecidableEq P] (_sqrtEx1 _sqrtEx2 : SqrtEx P) : SqrtEx P :=
  SqrtEx.new
    (_sqrtEx2.mConstantPart * _sqrtEx1.mConstantPart
      + _sqrtEx2.mFactor * _sqrtEx1.mFactor * _sqrtEx1.mRadicand)
    (_sqrtEx2.mConstantPart * _sqrtEx1.mFactor + _sqrtEx2.mFactor * _sqrtEx1.mConstantPart)
    (_sqrtEx1.mDenominator * _sqrtEx2.mDenominator) _sqrtEx1.mRadicand

/-- The denominator that `operator/( _sqrtEx1, _sqrtEx2 )` hands to the constructor:
`_sqrtEx1.denominator() * _sqrtEx2.factor()`. -/
def SqrtEx.divDenominator [CommRing P] (_sqrtEx1 _sqrtEx2 : SqrtEx P) : P :=
  _sqrtEx1.mDenominator * _sqrtEx2.mFactor

/-- The function `operator/( _sqrtEx1, _sqrtEx2 )`, which asserts `!_sqrtEx2.hasSqrt()`. -/
def SqrtEx.div [CommRing P] [DecidableEq P] (_sqrtEx1 _sqrtEx2 : SqrtEx P) : SqrtEx P :=
  SqrtEx.new (_sqrtEx1.mConstantPart * _sqrtEx2.mDenominator)
    (_sqrtEx1.mFactor * _sqrtEx2.mDenominator) (SqrtEx.divDenominator _sqrtEx1 _sqrtEx2)
    _sqrtEx1.mRadicand

/-- The value of a square root expression, `(constantPart + factor * sqrt(radicand)) /
denominator`, in a field `K`, for a valuation `ev` of the polynomials and a function `sqrt` that
gives the square roots. -/
def SqrtEx.value {K : Type} [Field K] (ev : P → K) (sqrt : K → K) (e : SqrtEx P) : K :=
  (ev e.mConstantPart + ev e.mFactor * sqrt (ev e.mRadicand)) / ev e.mDenominator

/-- Modelled from the spec: the type `carl::VariableInformation` is not part of the sources at
hand; `_poly.getVarInfo( _var )` gives the degree `maxDegree()` of the polynomial in the variable
and its coefficients `coeffs( i )`, polynomials in the other variables. -/
structure VariableInformation (P : Type) where
  maxDegree : Nat
  coeffs : Nat → P

/-- The vector `sk` of `subBySqrtEx`: `sk[0] = 1`, `sk[i] = sk[i - 1] * _subTerm.denominator()`. -/
def sk [CommRing P] (_subTerm : SqrtEx P) : Nat → P
  | 0 => 1
  | i + 1 => sk _subTerm i * _subTerm.mDenominator

/-- The vectors `qk` and `rk` of `subBySqrtEx`, as pairs: `qk[0]` and `rk[0]` are the constant part
and the factor of `_subTerm`, and
`qk[i] = constantPart * qk[i - 1] + factor * rk[i - 1] * radicand`,
`rk[i] = constantPart * rk[i - 1] + factor * qk[i - 1]`. -/
def qrk [CommRing P] (_subTerm : SqrtEx P) : Nat → P × P
  | 0 => (_subTerm.mConstantPart, _subTerm.mFactor)
  | i + 1 =>
    (_subTerm.mConstantPart * (qrk _subTerm i).1
        + _subTerm.mFactor * (qrk _subTerm i).2 * _subTerm.mRadicand,
      _subTerm.mConstantPart * (qrk _subTerm i).2 + _subTerm.mFactor * (qrk _subTerm i).1)

/-- The loop "calculate the result" of `subBySqrtEx`: `resConstantPart` and `resFactor` after the
passes for `i = 1, ..., m`, starting from `sk[n] * coeffs( 0 )` and `0`. -/
def resLoop [CommRing P] (varInfo : VariableInformation P) (_subTerm : SqrtEx P) (n : Nat) :
    Nat → P × P
  | 0 => (sk _subTerm n * varInfo.coeffs 0, 0)
  | m + 1 =>
    ((resLoop varInfo _subTerm n m).1
        + varInfo.coeffs (m + 1) * (qrk _subTerm m).1 * sk _subTerm (n - (m + 1)),
      (resLoop varInfo _subTerm n m).2
        + varInfo.coeffs (m + 1) * (qrk _subTerm m).2 * sk _subTerm (n - (m + 1)))

/-- The method `SqrtEx::subBySqrtEx( _poly, _var, _subTerm )`, with the information `varInfo` of
the polynomial for the variable. -/
def SqrtEx.subBySqrtEx [CommRing P] [DecidableEq P] (_poly : P)
    (varInfo : VariableInformation P) (_subTerm : SqrtEx P) : SqrtEx P :=
  let n := varInfo.maxDegree
  if n = 0 then SqrtEx.ofPolynomial _poly
  else
    let res := resLoop varInfo _subTerm n n
    SqrtEx.new res.1 res.2 (sk _subTerm n) _subTerm.mRadicand

/-- The function `sqrt` on the rational numbers `0` and `4`, with the value `0` elsewhere. -/
def sqrtOfFour (v : ℚ) : ℚ := if v = 4 then 2 else 0

/-- The square root expression `1` (the polynomial `1`, no square root). -/
def sqrtExOne : SqrtEx Int := SqrtEx.ofPolynomial 1

/-- The square root expression `2` (the polynomial `2`, no square root). -/
def sqrtExTwo : SqrtEx Int := SqrtEx.ofPolynomial 2

/-- The square root expression `(0 + 1 * sqrt(4)) / 1`. -/
def sqrtExRootFour : SqrtEx Int := SqrtEx.new 0 1 1 4

/-- The coefficients of the polynomial `x^2 + 1` in `x`. -/
def xSquarePlusOne : VariableInformation Int := ⟨2, fun i => if i = 1 then 0 else 1⟩

/-- The square root expression `(1 + 1 * sqrt(4)) / 2`. -/
def onePlusRootFourHalf : SqrtEx Int := SqrtEx.new 1 1 2 4

end vs

/-! ## `PreprocessingModule::rewritePotentialInequalities` -/

namespace PreprocessingModule

/-- Modelled from the spec: the class `Formula` is not part of the sources at hand.  These are the
formulas with a Boolean structure that the preprocessing works on: by `getType()` a Boolean
symbol, a constraint, `TTRUE`, `FFALSE`, or one of the Boolean combinations `NOT`, `AND`, `OR`,
`IFF`, `XOR`, `IMPLIES` with the list `subformulas()`. -/
inductive Formula (E : Type) where
  | BOOL (identifier : String)
  | REALCONSTRAINT (constraint : Constraint E)
  | TTRUE
  | FFALSE
  | NOT (subformulas : List (Formula E))
  | AND (subformulas : List (Formula E))
  | OR (subformulas : List (Formula E))
  | IFF (subformulas : List (Formula E))
  | XOR (subformulas : List (Formula E))
  | IMPLIES (subformulas : List (Formula E))

/-- Modelled from the spec: the method `isBooleanCombination()` of `Formula`. -/
def Formula.isBooleanCombination {E : Type} : Formula E → Bool
  | .NOT _ => true
  | .AND _ => true
  | .OR _ => true
  | .IFF _ => true
  | .XOR _ => true
  | .IMPLIES _ => true
  | _ => false

/-- Modelled from the spec: `Formula::newConstraint( lhs, relation, variables )` gives the
constraint with this left-hand side and relation. -/
def newConstraint {E : Type} (lhs : E) (relation : Constraint_Relation) : Constraint E :=
  ⟨lhs, relation⟩

/-- The `switch` of `rewritePotentialInequalities` for the constraint under a `NOT` with
`invert = false`: the formula that replaces the `NOT`; `none` is the case `default`, which ends
the program by `exit( SMTRAT_EXIT_GENERALERROR )`.  The macro
`REMOVE_LESS_EQUAL_IN_CNF_TRANSFORMATION` is not defined. -/
def rewriteNegatedConstraint {E : Type} [Neg E] (constraint : Constraint E) :
    Option (Formula E) :=
  match constraint.relation with
  | .CR_EQ =>
    some (.OR [.REALCONSTRAINT (newConstraint constraint.lhs .CR_LESS),
      .REALCONSTRAINT (newConstraint (-constraint.lhs) .CR_LESS)])
  | .CR_LEQ => some (.REALCONSTRAINT (newConstraint (-constraint.lhs) .CR_LESS))
  | .CR_LESS => some (.REALCONSTRAINT (newConstraint (-constraint.lhs) .CR_LEQ))
  | .CR_NEQ => some (.REALCONSTRAINT (newConstraint constraint.lhs .CR_EQ))
  | _ => none

mutual

/-- The method `PreprocessingModule::rewritePotentialInequalities( formula, invert )`, with the
formula it leaves as result: under a `NOT` a Boolean combination is rewritten with `!invert`, a
constraint is replaced when `invert` is `false`; the subformulas of `OR`, `AND`, `XOR` and `IFF`
are rewritten with `invert`; every other formula stays as it is. -/
def rewritePotentialInequalities {E : Type} [Neg E] :
    Formula E → Bool → Option (Formula E)
  | .NOT (.REALCONSTRAINT constraint :: _), invert =>
    if !invert then rewriteNegatedConstraint constraint
    else some (.NOT [.REALCONSTRAINT constraint])
  | .NOT (.NOT l :: rest), invert =>
    (rewritePotentialInequalities (.NOT l) (!invert)).map (fun f => .NOT (f :: rest))
  | .NOT (.AND l :: rest), invert =>
    (rewritePotentialInequalities (.AND l) (!invert)).map (fun f => .NOT (f :: rest))
  | .NOT (.OR l :: rest), invert =>
    (rewritePotentialInequalities (.OR l) (!invert)).map (fun f => .NOT (f :: rest))
  | .NOT (.IFF l :: rest), invert =>
    (rewritePotentialInequalities (.IFF l) (!invert)).map (fun f => .NOT (f :: rest))
  | .NOT (.XOR l :: rest), invert =>
    (rewritePotentialInequalities (.XOR l) (!invert)).map (fun f => .NOT (f :: rest))
  | .NOT (.IMPLIES l :: rest), invert =>
    (rewritePotentialInequalities (.IMPLIES l) (!invert)).map (fun f => .NOT (f :: rest))
  | .OR l, invert => (rewriteSubformulas l invert).map .OR
  | .AND l, invert => (rewriteSubformulas l invert).map .AND
  | .XOR l, invert => (rewriteSubformulas l invert).map .XOR
  | .IFF l, invert => (rewriteSubformulas l invert).map .IFF
  | formula, _ => some formula

/-- The loop of `rewritePotentialInequalities` over the subformulas. -/
def rewriteSubformulas {E : Type} [Neg E] :
    List (Formula E) → Bool → Option (List (Formula E))
  | [], _ => some []
  | f :: fs, invert =>
    match rewritePotentialInequalities f invert with
    | none => none
    | some f1 => (rewriteSubformulas fs invert).map (fun fs1 => f1 :: fs1)

end

mutual

/-- The truth value of a formula for a valuation `ev` of the left-hand sides and a valuation `b`
of the Boolean symbols. -/
def Formula.holds {E : Type} (ev : E → ℚ) (b : String → Bool) : Formula E → Bool
  | .BOOL identifier => b identifier
  | .REALCONSTRAINT constraint => evaluate (ev constraint.lhs) constraint.relation
  | .TTRUE => true
  | .FFALSE => false
  | .NOT l => !(Formula.holdsAll ev b l)
  | .AND l => Formula.holdsAll ev b l
  | .OR l => Formula.holdsSome ev b l
  | .IFF l => Formula.holdsAll ev b l || !(Formula.holdsSome ev b l)
  | .XOR l => Formula.holdsOdd ev b l
  | .IMPLIES l => Formula.holdsImplication ev b l

/-- All formulas of the list hold. -/
def Formula.holdsAll {E : Type} (ev : E → ℚ) (b : String → Bool) : List (Formula E) → Bool
  | [] => true
  | f :: fs => Formula.holds ev b f && Formula.holdsAll ev b fs

/-- One of the formulas of the list holds. -/
def Formula.holdsSome {E : Type} (ev : E → ℚ) (b : String → Bool) : List (Formula E) → Bool
  | [] => false
  | f :: fs => Formula.holds ev b f || Formula.holdsSome ev b fs

/-- An odd number of the formulas of the list holds. -/
def Formula.holdsOdd {E : Type} (ev : E → ℚ) (b : String → Bool) : List (Formula E) → Bool
  | [] => false
  | f :: fs => xor (Formula.holds ev b f) (Formula.holdsOdd ev b fs)

/-- The last formula of the list holds if all formulas before it hold. -/
def Formula.holdsImplication {E : Type} (ev : E → ℚ) (b : String → Bool) :
    List (Formula E) → Bool
  | [] => true
  | [f] => Formula.holds ev b f
  | f :: g :: fs => !(Formula.holds ev b f) || Formula.holdsImplication ev b (g :: fs)

end

/-- The value of an integer as a rational number. -/
def intValue (z : Int) : ℚ := z

/-- The constraint `5 = 0`, with integers as left-hand sides. -/
def fiveEqualsZero : Constraint Int := ⟨5, .CR_EQ⟩

end PreprocessingModule

/-! # Theorems -/

/-! ## Literals and clauses -/

theorem Lit.toInt_injective {a b : Lit} (h : a.toInt = b.toInt) : a = b := by
  obtain ⟨va, sa⟩ := a
  obtain ⟨vb, sb⟩ := b
  cases sa <;> cases sb <;> simp only [Lit.toInt, Bool.false_eq_true, ↓reduceIte] at h
  · have hv : va = vb := by omega
    rw [hv]
  · omega
  · omega
  · have hv : va = vb := by omega
    rw [hv]

theorem Lit.neg_neg (a : Lit) : a.neg.neg = a := by
  obtain ⟨va, sa⟩ := a
  simp [Lit.neg]

theorem Lit.neg_ne (a : Lit) : a.neg ≠ a := by
  obtain ⟨va, sa⟩ := a
  simp [Lit.neg]

theorem sort_sorted (ps : List Lit) : (sort ps).Sorted (fun a b => a.toInt ≤ b.toInt) := by
  haveI : IsTotal Lit (fun a b => a.toInt ≤ b.toInt) := ⟨fun a b => Nat.le_total _ _⟩
  haveI : IsTrans Lit (fun a b => a.toInt ≤ b.toInt) := ⟨fun a b c => Nat.le_trans⟩
  exact List.sorted_insertionSort _ ps

theorem mem_sort (ps : List Lit) (l : Lit) : l ∈ sort ps ↔ l ∈ ps :=
  (List.perm_insertionSort _ ps).mem_iff

theorem Clause.get_mem (c : Clause) (i : Nat) (h : i < c.lits.length) : c.get i ∈ c.lits := by
  unfold Clause.get
  rw [List.getD_eq_getElem _ _ h]
  exact List.getElem_mem _

theorem Clause.swapFalseLit_length (c : Clause) (l : Lit) :
    (c.swapFalseLit l).lits.length = c.lits.length := by
  unfold Clause.swapFalseLit
  split <;> simp [Clause.set]

theorem Clause.swapFalseLit_mem (c : Clause) (l x : Lit) (h : 2 ≤ c.lits.length)
    (hx : x ∈ (c.swapFalseLit l).lits) : x ∈ c.lits := by
  unfold Clause.swapFalseLit at hx
  split at hx
  · rename_i h0
    simp only [Clause.set] at hx
    rcases List.mem_or_eq_of_mem_set hx with hx | rfl
    · rcases List.mem_or_eq_of_mem_set hx with hx | rfl
      · exact hx
      · exact c.get_mem 1 (by omega)
    · rw [← h0]; exact c.get_mem 0 (by omega)
  · exact hx

theorem Clause.newWatch_length (c : Clause) (k : Nat) (l : Lit) :
    (c.newWatch k l).lits.length = c.lits.length := by
  simp [Clause.newWatch, Clause.set]

theorem Clause.newWatch_mem (c : Clause) (k : Nat) (l x : Lit) (h : k < c.lits.length)
    (hx : x ∈ (c.newWatch k l).lits) : x ∈ c.lits ∨ x = l := by
  simp only [Clause.newWatch, Clause.set] at hx
  rcases List.mem_or_eq_of_mem_set hx with hx | rfl
  · rcases List.mem_or_eq_of_mem_set hx with hx | rfl
    · exact Or.inl hx
    · exact Or.inl (c.get_mem k h)
  · exact Or.inr rfl

namespace SATModule

variable {E : Type}

/-! ## The constraint abstraction map -/

theorem getLiteral_found [DecidableEq E] [Neg E] (s : SATModule E) (c : Constraint E) (l : Lit)
    (h : s.mConstraintLiteralMap (normalizedConstraint c) = some l) :
    getLiteral (.REALCONSTRAINT c) s = (l, s) := by
  simp [getLiteral, h]

theorem registeredPair_cases [Neg E] (c : Constraint E) :
    ((registeredPair c).1 = normalizedConstraint c ∧ (registeredPair c).2 ≠ normalizedConstraint c) ∨
    ((registeredPair c).2 = normalizedConstraint c ∧ (registeredPair c).1 ≠ normalizedConstraint c) := by
  obtain ⟨lhs, rel⟩ := c
  cases rel <;> simp [registeredPair, normalizedConstraint]

theorem getLiteral_fresh [DecidableEq E] [Neg E] (s : SATModule E) (c : Constraint E)
    (h : s.mConstraintLiteralMap (normalizedConstraint c) = none) :
    getLiteral (.REALCONSTRAINT c) s =
      ((if (registeredPair c).2 = normalizedConstraint c then mkLit s.nVars false else mkLit s.nVars true),
        { (s.newVar true true).2 with
          mLitConstraintMap :=
            Function.update (Function.update s.mLitConstraintMap (mkLit s.nVars true)
              (some ((registeredPair c).1, .REALCONSTRAINT c)))
              (mkLit s.nVars false) (some ((registeredPair c).2, .REALCONSTRAINT c))
          mConstraintLiteralMap :=
            Function.update (Function.update s.mConstraintLiteralMap (registeredPair c).1
              (some (mkLit s.nVars true))) (registeredPair c).2 (some (mkLit s.nVars false)) }) := by
  rcases registeredPair_cases c with ⟨h1, h2⟩ | ⟨h1, h2⟩
  · simp [getLiteral, h, newVar, h1, h2, Function.update, Ne.symm h2]
  · simp [getLiteral, h, newVar, h1, h2, Function.update]

theorem decide_le_eq_not_decide_lt (a b : ℚ) : decide (a ≤ b) = !decide (b < a) := by
  by_cases h : b < a
  · simp [h, not_le.mpr h]
  · simp [h, le_of_not_lt h]

theorem registeredPair_semantic_negation [Neg E] (c : Constraint E) (ev : E → ℚ)
    (hev : ∀ e, ev (-e) = -ev e) :
    evaluate (ev (registeredPair c).1.lhs) (registeredPair c).1.relation
      = !evaluate (ev (registeredPair c).2.lhs) (registeredPair c).2.relation := by
  obtain ⟨lhs, rel⟩ := c
  cases rel <;>
    simp [registeredPair, normalizedConstraint, evaluate, hev, decide_le_eq_not_decide_lt]

/-- Claim C8: when `getLiteral` makes a new variable for a constraint (any of the six relations),
the constraints it registers in `mLitConstraintMap` for the positive and the negative literal of
that variable are semantic negations of each other: under every valuation `ev` of expressions that
respects negation, hence for every rational value of the original left-hand side, exactly one of
the two evaluates to true. -/
theorem getLiteral_registers_semantic_negations [DecidableEq E] [Neg E] (s : SATModule E)
    (c : Constraint E) (h : s.mConstraintLiteralMap (normalizedConstraint c) = none) :
    ∃ cPos cNeg : Constraint E,
      (getLiteral (.REALCONSTRAINT c) s).2.nVars = s.nVars + 1 ∧
      (getLiteral (.REALCONSTRAINT c) s).2.mLitConstraintMap (mkLit s.nVars true)
        = some (cPos, .REALCONSTRAINT c) ∧
      (getLiteral (.REALCONSTRAINT c) s).2.mLitConstraintMap (mkLit s.nVars false)
        = some (cNeg, .REALCONSTRAINT c) ∧
      ∀ ev : E → ℚ, (∀ e, ev (-e) = -ev e) →
        evaluate (ev cPos.lhs) cPos.relation = !evaluate (ev cNeg.lhs) cNeg.relation := by
  refine ⟨(registeredPair c).1, (registeredPair c).2, ?_, ?_, ?_, ?_⟩
  · rw [getLiteral_fresh s c h]; simp [newVar]
  · rw [getLiteral_fresh s c h]; simp [Function.update, mkLit]
  · rw [getLiteral_fresh s c h]; simp [Function.update, mkLit]
  · intro ev hev
    exact registeredPair_semantic_negation c ev hev


theorem getLiteral_lookup [DecidableEq E] [Neg E] (s : SATModule E) (c : Constraint E) :
    (getLiteral (.REALCONSTRAINT c) s).2.mConstraintLiteralMap (normalizedConstraint c)
      = some (getLiteral (.REALCONSTRAINT c) s).1 := by
  cases h : s.mConstraintLiteralMap (normalizedConstraint c) with
  | some l => rw [getLiteral_found s c l h]; exact h
  | none =>
    rw [getLiteral_fresh s c h]
    rcases registeredPair_cases c with ⟨h1, h2⟩ | ⟨h1, h2⟩
    · simp [Function.update, h1, h2, Ne.symm h2]
    · simp [Function.update, h1, h2]

theorem MapsConsistent_init (E : Type) : MapsConsistent (init E) := by
  intro k l h
  simp [init] at h

theorem MapsConsistent_getLiteral [DecidableEq E] [Neg E] (s : SATModule E) (f : Formula E)
    (h : MapsConsistent s) : MapsConsistent (getLiteral f s).2 := by
  cases f with
  | BOOL identifier =>
    cases hb : s.mBooleanVarMap identifier with
    | some v => simpa [getLiteral, hb] using h
    | none =>
      intro k l hkl
      simp only [getLiteral, hb, newVar] at hkl ⊢
      obtain ⟨h1, g, h2⟩ := h k l hkl
      exact ⟨Nat.lt_succ_of_lt h1, g, h2⟩
  | REALCONSTRAINT c =>
    cases hc : s.mConstraintLiteralMap (normalizedConstraint c) with
    | some l => rw [getLiteral_found s c l hc]; exact h
    | none =>
      rw [getLiteral_fresh s c hc]
      intro k l hkl
      simp only [newVar] at hkl ⊢
      by_cases hk2 : k = (registeredPair c).2
      · subst hk2
        simp only [Function.update_same, Option.some.injEq] at hkl
        subst hkl
        exact ⟨by simp [mkLit], .REALCONSTRAINT c, by simp⟩
      · rw [Function.update_noteq hk2] at hkl
        by_cases hk1 : k = (registeredPair c).1
        · subst hk1
          simp only [Function.update_same, Option.some.injEq] at hkl
          subst hkl
          exact ⟨by simp [mkLit], .REALCONSTRAINT c, by simp [Function.update, mkLit]⟩
        · rw [Function.update_noteq hk1] at hkl
          obtain ⟨h1, g, h2⟩ := h k l hkl
          refine ⟨Nat.lt_succ_of_lt h1, g, ?_⟩
          have hne1 : l ≠ mkLit s.nVars true := by
            intro he; rw [he] at h1; simp [mkLit] at h1
          have hne2 : l ≠ mkLit s.nVars false := by
            intro he; rw [he] at h1; simp [mkLit] at h1
          rw [Function.update_noteq hne2, Function.update_noteq hne1]
          exact h2

/-- Claim C6, amended: in a state with consistent abstraction maps, the constraint stored in
`mLitConstraintMap` for the literal returned by `getLiteral( c )` is the normalized form of `c`.
This is `c` itself when its relation is EQ, NEQ, LESS or LEQ; for GEQ and GREATER it is the
constraint with the negated left-hand side and the relation LEQ, respectively LESS. -/
theorem getLiteral_stores_normalized_constraint [DecidableEq E] [Neg E] (s : SATModule E)
    (c : Constraint E) (h : MapsConsistent s) :
    (∃ f, (getLiteral (.REALCONSTRAINT c) s).2.mLitConstraintMap
        (getLiteral (.REALCONSTRAINT c) s).1 = some (normalizedConstraint c, f)) ∧
    (c.relation ≠ .CR_GEQ → c.relation ≠ .CR_GREATER → normalizedConstraint c = c) := by
  constructor
  · exact ((MapsConsistent_getLiteral s (.REALCONSTRAINT c) h) _ _ (getLiteral_lookup s c)).2
  · obtain ⟨lhs, rel⟩ := c
    cases rel <;> simp [normalizedConstraint]

/-! ## Clause addition -/

theorem addClauseLoop_true (s : SATModule E) (L : List Lit) :
    ∀ p, (∃ l ∈ L, s.value l = .l_True) → addClauseLoop s p L = none := by
  induction L with
  | nil => intro p h; simp at h
  | cons q rest ih =>
    intro p h
    unfold addClauseLoop
    by_cases hq : s.value q = .l_True ∨ some q = p.map Lit.neg
    · rw [if_pos hq]
    · rw [if_neg hq]
      have hrest : ∃ l ∈ rest, s.value l = .l_True := by
        obtain ⟨l, hl, hv⟩ := h
        rcases List.mem_cons.mp hl with rfl | hl
        · exact absurd (Or.inl hv) hq
        · exact ⟨l, hl, hv⟩
      split
      · rw [ih _ hrest]; rfl
      · exact ih _ hrest

theorem addClauseLoop_after_positive (s : SATModule E) (v : Nat)
    (hv : s.assigns v = .l_Undef) (L : List Lit) :
    L.Sorted (fun a b => a.toInt ≤ b.toInt) → (⟨v, true⟩ : Lit) ∈ L →
    (∀ l ∈ L, 2 * v ≤ l.toInt) → addClauseLoop s (some ⟨v, false⟩) L = none := by
  induction L with
  | nil => intro _ h; simp at h
  | cons q rest ih =>
    intro hs hb hlow
    have hs' := List.sorted_cons.mp hs
    have hq1 : 2 * v ≤ q.toInt := hlow q (List.mem_cons_self _ _)
    have hq2 : q.toInt ≤ 2 * v + 1 := by
      rcases List.mem_cons.mp hb with h | h
      · rw [← h]; simp [Lit.toInt]
      · have := hs'.1 _ h
        simpa [Lit.toInt] using this
    have hq : q = ⟨v, false⟩ ∨ q = ⟨v, true⟩ := by
      obtain ⟨qv, qs⟩ := q
      cases qs <;> simp only [Lit.toInt, Bool.false_eq_true, ↓reduceIte] at hq1 hq2
      · left
        have hqv : qv = v := by omega
        rw [hqv]
      · right
        have hqv : qv = v := by omega
        rw [hqv]
    unfold addClauseLoop
    rcases hq with rfl | rfl
    · have hb' : (⟨v, true⟩ : Lit) ∈ rest := by
        rcases List.mem_cons.mp hb with h | h
        · simp at h
        · exact h
      simp [value, hv, lbool.xor, Lit.neg]
      exact ih hs'.2 hb' (fun l hl => hlow l (List.mem_cons_of_mem _ hl))
    · simp [Lit.neg]

theorem addClauseLoop_complementary (s : SATModule E) (v : Nat)
    (hv : s.assigns v = .l_Undef) (L : List Lit) :
    ∀ p, L.Sorted (fun a b => a.toInt ≤ b.toInt) → (⟨v, false⟩ : Lit) ∈ L →
      (⟨v, true⟩ : Lit) ∈ L → addClauseLoop s p L = none := by
  induction L with
  | nil => intro _ _ h; simp at h
  | cons q rest ih =>
    intro p hs ha hb
    have hs' := List.sorted_cons.mp hs
    unfold addClauseLoop
    by_cases hq : s.value q = .l_True ∨ some q = p.map Lit.neg
    · rw [if_pos hq]
    · rw [if_neg hq]
      by_cases hqa : q = ⟨v, false⟩
      · subst hqa
        have hb' : (⟨v, true⟩ : Lit) ∈ rest := by
          rcases List.mem_cons.mp hb with h | h
          · simp at h
          · exact h
        have hnext : addClauseLoop s (some ⟨v, false⟩) rest = none :=
          addClauseLoop_after_positive s v hv rest hs'.2 hb'
            (fun l hl => by simpa [Lit.toInt] using hs'.1 l hl)
        split
        · rw [hnext]; rfl
        · rename_i hkeep
          have hp : p = some ⟨v, false⟩ := by
            by_contra hne
            apply hkeep
            refine ⟨by simp [value, hv, lbool.xor], fun h => hne h.symm⟩
          rw [hp]; exact hnext
      · have ha' : (⟨v, false⟩ : Lit) ∈ rest := by
          rcases List.mem_cons.mp ha with h | h
          · exact absurd h.symm hqa
          · exact h
        have hb' : (⟨v, true⟩ : Lit) ∈ rest := by
          rcases List.mem_cons.mp hb with h | h
          · have := hs'.1 _ ha'
            rw [← h] at this
            simp [Lit.toInt] at this
          · exact h
        split
        · rw [ih _ hs'.2 ha' hb']; rfl
        · exact ih _ hs'.2 ha' hb'

/-- Claim C2: in a state with `ok = true` at decision level 0, for a literal vector that contains
a literal that is true, or both `p` and `~p` for an unassigned `p`, `addClause_` returns `true` and
leaves the whole state unchanged, in particular the clause list, the watch lists, the trail and the
assignment. -/
theorem addClause_satisfied_or_tautology (fuel : Nat) (s : SATModule E) (ps : List Lit)
    (hok : s.ok = true) (_hlevel : s.decisionLevel = 0)
    (h : (∃ l ∈ ps, s.value l = .l_True) ∨
      (∃ p, p ∈ ps ∧ p.neg ∈ ps ∧ s.value p = .l_Undef)) :
    addClause_ fuel s ps = some (true, s) := by
  have hloop : addClauseLoop s none (sort ps) = none := by
    rcases h with ⟨l, hl, hv⟩ | ⟨p, hp, hn, hv⟩
    · exact addClauseLoop_true s _ _ ⟨l, (mem_sort ps l).mpr hl, hv⟩
    · obtain ⟨v, sg⟩ := p
      have hu : s.assigns v = .l_Undef := by
        cases ha : s.assigns v <;> cases sg <;> simp [value, ha, lbool.xor] at hv ⊢
      cases sg
      · exact addClauseLoop_complementary s v hu _ _ (sort_sorted ps)
          ((mem_sort ps _).mpr hp) ((mem_sort ps _).mpr (by simpa [Lit.neg] using hn))
      · exact addClauseLoop_complementary s v hu _ _ (sort_sorted ps)
          ((mem_sort ps _).mpr (by simpa [Lit.neg] using hn)) ((mem_sort ps _).mpr hp)
  simp [addClause_, hok, hloop]

theorem addClauseLoop_kept (s : SATModule E) (L : List Lit) :
    ∀ p : Option Lit, L.Sorted (fun a b => a.toInt ≤ b.toInt) →
      (∀ l ∈ L, s.value l ≠ .l_True) → (∀ l ∈ L, l.neg ∉ L) →
      (∀ q, p = some q → q.neg ∉ L ∧ ∀ l ∈ L, q.toInt ≤ l.toInt) →
      ∃ K, addClauseLoop s p L = some K ∧
        (∀ l, l ∈ K ↔ (l ∈ L ∧ s.value l ≠ .l_False ∧ some l ≠ p)) ∧
        K.Pairwise (fun a b => a.toInt < b.toInt) ∧
        (∀ q, p = some q → ∀ l ∈ K, q.toInt < l.toInt) := by
  induction L with
  | nil =>
    intro p _ _ _ _
    exact ⟨[], by simp [addClauseLoop], by simp, List.Pairwise.nil, by simp⟩
  | cons q rest ih =>
    intro p hs hT hC hp
    have hs' := List.sorted_cons.mp hs
    have hTr : ∀ l ∈ rest, s.value l ≠ .l_True := fun l hl => hT l (List.mem_cons_of_mem _ hl)
    have hCr : ∀ l ∈ rest, l.neg ∉ rest :=
      fun l hl hn => hC l (List.mem_cons_of_mem _ hl) (List.mem_cons_of_mem _ hn)
    have hearly : ¬(s.value q = .l_True ∨ some q = p.map Lit.neg) := by
      rintro (h | h)
      · exact hT q (List.mem_cons_self _ _) h
      · cases p with
        | none => simp at h
        | some p' =>
          simp only [Option.map_some', Option.some.injEq] at h
          exact (hp p' rfl).1 (h ▸ List.mem_cons_self _ _)
    unfold addClauseLoop
    rw [if_neg hearly]
    by_cases hkeep : s.value q ≠ .l_False ∧ some q ≠ p
    · rw [if_pos hkeep]
      have hpq : ∀ q', some q = some q' → q'.neg ∉ rest ∧ ∀ l ∈ rest, q'.toInt ≤ l.toInt := by
        intro q' hq'
        cases hq'
        exact ⟨fun hn => hC q (List.mem_cons_self _ _) (List.mem_cons_of_mem _ hn), hs'.1⟩
      obtain ⟨K, hK, hmem, hpw, hlt⟩ := ih (some q) hs'.2 hTr hCr hpq
      refine ⟨q :: K, by rw [hK]; rfl, ?_, ?_, ?_⟩
      · intro l
        rw [List.mem_cons, hmem l, List.mem_cons]
        constructor
        · rintro (rfl | ⟨hl, hv, hne⟩)
          · exact ⟨Or.inl rfl, hkeep.1, hkeep.2⟩
          · refine ⟨Or.inr hl, hv, ?_⟩
            intro hlp
            have h1 := (hp l hlp.symm).2 q (List.mem_cons_self _ _)
            have h2 := hs'.1 l hl
            exact hne (congrArg some (Lit.toInt_injective (Nat.le_antisymm h1 h2)))
        · rintro ⟨hl | hl, hv, hne⟩
          · exact Or.inl hl
          · by_cases hlq : l = q
            · exact Or.inl hlq
            · exact Or.inr ⟨hl, hv, fun h => hlq (Option.some.inj h)⟩
      · exact List.pairwise_cons.mpr ⟨hlt q rfl, hpw⟩
      · intro p' hp' l hl
        have h1 : p'.toInt ≤ q.toInt := (hp p' hp').2 q (List.mem_cons_self _ _)
        rcases List.mem_cons.mp hl with rfl | hl
        · rcases Nat.lt_or_ge p'.toInt l.toInt with h | h
          · exact h
          · exact absurd (congrArg some (Lit.toInt_injective (Nat.le_antisymm h h1)))
              (hp' ▸ hkeep.2)
        · exact Nat.lt_of_le_of_lt h1 (hlt q rfl l hl)
    · rw [if_neg hkeep]
      have hpr : ∀ q', p = some q' → q'.neg ∉ rest ∧ ∀ l ∈ rest, q'.toInt ≤ l.toInt := by
        intro q' hq'
        exact ⟨fun hn => (hp q' hq').1 (List.mem_cons_of_mem _ hn),
          fun l hl => (hp q' hq').2 l (List.mem_cons_of_mem _ hl)⟩
      obtain ⟨K, hK, hmem, hpw, hlt⟩ := ih p hs'.2 hTr hCr hpr
      refine ⟨K, hK, ?_, hpw, hlt⟩
      intro l
      rw [hmem l, List.mem_cons]
      constructor
      · rintro ⟨hl, hv, hne⟩
        exact ⟨Or.inr hl, hv, hne⟩
      · rintro ⟨hl | hl, hv, hne⟩
        · exact absurd ⟨hl ▸ hv, hl ▸ hne⟩ hkeep
        · exact ⟨hl, hv, hne⟩

/-- Claim C3: in a state with `ok = true` at decision level 0, for an input without a true
literal and without a complementary pair that has at least two different literals that are not
false, `addClause_` returns `true`, pushes one new clause on the clause list and attaches it by its
first two literals.  The stored clause has no duplicates and its literals are exactly the input
literals that are not false. -/
theorem addClause_stores_nonfalse_literals (fuel : Nat) (s : SATModule E) (ps : List Lit)
    (hok : s.ok = true) (_hlevel : s.decisionLevel = 0)
    (hsat : ∀ l ∈ ps, s.value l ≠ .l_True)
    (htaut : ∀ l ∈ ps, l.neg ∉ ps)
    (htwo : ∃ a b, a ∈ ps ∧ b ∈ ps ∧ a ≠ b ∧ s.value a ≠ .l_False ∧ s.value b ≠ .l_False) :
    ∃ (s' : SATModule E) (c0 c1 : Lit) (cs : List Lit),
      addClause_ fuel s ps = some (true, s') ∧
      s'.clauses = s.clauses ++ [s.caSize] ∧
      s'.ca s.caSize = ⟨c0 :: c1 :: cs, false, 0⟩ ∧
      (c0 :: c1 :: cs).Nodup ∧
      (∀ l, l ∈ c0 :: c1 :: cs ↔ (l ∈ ps ∧ s.value l ≠ .l_False)) ∧
      (⟨s.caSize, c1⟩ : Watcher) ∈ s'.watches c0.neg ∧
      (⟨s.caSize, c0⟩ : Watcher) ∈ s'.watches c1.neg := by
  obtain ⟨K, hK, hmem, hpw, -⟩ := addClauseLoop_kept s (sort ps) none (sort_sorted ps)
    (fun l hl => hsat l ((mem_sort ps l).mp hl))
    (fun l hl hn => htaut l ((mem_sort ps l).mp hl) ((mem_sort ps _).mp hn))
    (by simp)
  have hmem' : ∀ l, l ∈ K ↔ (l ∈ ps ∧ s.value l ≠ .l_False) := by
    intro l; rw [hmem l, mem_sort]; simp
  have hnd : K.Nodup := hpw.imp (fun h => fun he => by rw [he] at h; exact Nat.lt_irrefl _ h)
  obtain ⟨a, b, ha, hb, hab, hva, hvb⟩ := htwo
  have haK : a ∈ K := (hmem' a).mpr ⟨ha, hva⟩
  have hbK : b ∈ K := (hmem' b).mpr ⟨hb, hvb⟩
  match K, hK, hmem', hnd, haK, hbK with
  | [], _, _, _, haK, _ => simp at haK
  | [l], _, _, _, haK, hbK =>
    simp only [List.mem_singleton] at haK hbK
    exact absurd (haK.trans hbK.symm) hab
  | c0 :: c1 :: cs, hK, hmem', hnd, _, _ =>
    have hne : c0.neg ≠ c1.neg := by
      intro h
      have h01 : c0 = c1 := by rw [← Lit.neg_neg c0, h, Lit.neg_neg]
      simp [h01] at hnd
    refine ⟨({ (s.alloc (c0 :: c1 :: cs) false).2 with
        clauses := (s.alloc (c0 :: c1 :: cs) false).2.clauses ++
          [(s.alloc (c0 :: c1 :: cs) false).1] }).attachClause (s.alloc (c0 :: c1 :: cs) false).1,
      c0, c1, cs, ?_, ?_, ?_, hnd, hmem', ?_, ?_⟩
    · simp only [addClause_, hok, hK]
      rfl
    · simp [attachClause, alloc]
    · simp [attachClause, alloc]
    · simp [attachClause, alloc, Clause.get, Function.update, hne, Ne.symm hne]
    · simp [attachClause, alloc, Clause.get, Function.update]

/-- Claim C1, amended: `addClause_` returns `false` only if `ok` was `false` on entry, or the
clause is empty after removing false and duplicate literals, or that clause is a single literal
and the propagation of this literal ends in a conflict. -/
theorem addClause_false_only_if (fuel : Nat) (s s' : SATModule E) (ps : List Lit)
    (h : addClause_ fuel s ps = some (false, s')) :
    s.ok = false ∨ addClauseLoop s none (sort ps) = some [] ∨
      ∃ l cr s1, addClauseLoop s none (sort ps) = some [l] ∧
        (s.uncheckedEnqueue l none).propagate fuel = some (some cr, s1) := by
  cases hok : s.ok with
  | false => exact Or.inl rfl
  | true =>
    right
    simp only [addClause_, hok] at h
    cases hK : addClauseLoop s none (sort ps) with
    | none => simp [hK] at h
    | some K =>
      match K, hK with
      | [], _ => exact Or.inl rfl
      | [l], hK =>
        right
        rw [hK] at h
        simp only [Bool.not_true, Bool.false_eq_true, ↓reduceIte] at h
        cases hp : (s.uncheckedEnqueue l none).propagate fuel with
        | none => simp [hp] at h
        | some r =>
          obtain ⟨confl, s1⟩ := r
          cases confl with
          | none => simp [hp] at h
          | some cr => exact ⟨l, cr, s1, rfl, hp⟩
      | c0 :: c1 :: cs, hK =>
        rw [hK] at h
        simp at h

/-! ## Unit propagation -/

theorem findNewWatch_lt (s : SATModule E) (L : List Lit) :
    ∀ n k, findNewWatch s L n = some k → k < n + L.length := by
  induction L with
  | nil => intro n k h; simp [findNewWatch] at h
  | cons l ls ih =>
    intro n k h
    unfold findNewWatch at h
    split at h
    · cases h; simp
    · have := ih _ _ h
      simp only [List.length_cons]; omega

theorem numUndef_update_ge (a : Nat → lbool) (v : Nat) (x : lbool) :
    ∀ n, n ≤ v → numUndef (Function.update a v x) n = numUndef a n := by
  intro n
  induction n with
  | zero => intro _; rfl
  | succ n ih =>
    intro h
    have hne : n ≠ v := by omega
    simp only [numUndef, Function.update_noteq hne]
    rw [ih (by omega)]

theorem numUndef_update_lt (a : Nat → lbool) (v : Nat) (x : lbool) (hv : a v = .l_Undef)
    (hx : x ≠ .l_Undef) :
    ∀ n, v < n → numUndef (Function.update a v x) n + 1 = numUndef a n := by
  intro n
  induction n with
  | zero => intro h; omega
  | succ n ih =>
    intro h
    by_cases hn : n = v
    · subst hn
      simp only [numUndef, Function.update_same, hv, if_neg hx, if_true]
      rw [numUndef_update_ge a n x n (Nat.le_refl _)]
    · have hlt : v < n := by omega
      simp only [numUndef, Function.update_noteq hn]
      have := ih hlt
      omega

theorem numUndef_le (a : Nat → lbool) : ∀ n, numUndef a n ≤ n := by
  intro n
  induction n with
  | zero => exact Nat.le_refl _
  | succ n ih =>
    simp only [numUndef]
    split <;> omega

theorem Progress.refl (s : SATModule E) : Progress s s :=
  ⟨rfl, fun _ => rfl, rfl, Nat.le_refl _⟩

theorem Progress.trans {s t u : SATModule E} (h1 : Progress s t) (h2 : Progress t u) :
    Progress s u :=
  ⟨h2.nVars_eq.trans h1.nVars_eq, fun cr => (h2.length_eq cr).trans (h1.length_eq cr),
    h2.measure_eq.trans h1.measure_eq, Nat.le_trans h1.trail_le h2.trail_le⟩

theorem storeClause_progress (s : SATModule E) (cr : CRef) (c : Clause)
    (hlen : c.lits.length = (s.ca cr).lits.length) : Progress s (s.storeClause cr c) := by
  refine ⟨rfl, ?_, rfl, Nat.le_refl _⟩
  intro cr'
  by_cases h : cr' = cr
  · subst h; simp [storeClause, hlen]
  · simp [storeClause, Function.update_noteq h]

theorem storeClause_inRange (s : SATModule E) (cr : CRef) (c : Clause) (h : InRange s)
    (hc : ∀ l ∈ c.lits, l.var < s.nVars) : InRange (s.storeClause cr c) := by
  refine ⟨h.trail_range, ?_⟩
  intro cr' l hl
  by_cases hcr : cr' = cr
  · subst hcr
    simp only [storeClause, Function.update_same] at hl
    exact hc l hl
  · simp only [storeClause, Function.update_noteq hcr] at hl
    exact h.clause_range cr' l hl

theorem pushWatcher_progress (s : SATModule E) (q : Lit) (w : Watcher) :
    Progress s (s.pushWatcher q w) :=
  ⟨rfl, fun _ => rfl, rfl, Nat.le_refl _⟩

theorem pushWatcher_inRange (s : SATModule E) (q : Lit) (w : Watcher) (h : InRange s) :
    InRange (s.pushWatcher q w) :=
  ⟨h.trail_range, h.clause_range⟩

theorem uncheckedEnqueue_progress (s : SATModule E) (l : Lit) (src : Option CRef)
    (hl : l.var < s.nVars) (hv : s.value l = .l_Undef) :
    Progress s (s.uncheckedEnqueue l src) := by
  have hu : s.assigns l.var = .l_Undef := by
    cases ha : s.assigns l.var <;> cases hs : l.sign <;> simp [value, ha, hs, lbool.xor] at hv ⊢
  refine ⟨rfl, fun _ => rfl, ?_, ?_⟩
  · have := numUndef_update_lt s.assigns l.var (lbool.ofBool (!l.sign)) hu
      (by cases l.sign <;> simp [lbool.ofBool]) s.nVars hl
    simp only [uncheckedEnqueue, List.length_append, List.length_singleton]
    omega
  · simp [uncheckedEnqueue]

theorem uncheckedEnqueue_inRange (s : SATModule E) (l : Lit) (src : Option CRef)
    (hl : l.var < s.nVars) (h : InRange s) : InRange (s.uncheckedEnqueue l src) := by
  refine ⟨?_, h.clause_range⟩
  intro x hx
  simp only [uncheckedEnqueue, List.mem_append, List.mem_singleton] at hx
  rcases hx with hx | rfl
  · exact h.trail_range x hx
  · exact hl

theorem propagateWatches_cons (p : Lit) (w : Watcher) (rest kept : List Watcher)
    (confl : Option CRef) (s : SATModule E) :
    (s.value w.blocker = .l_True ∧
      propagateWatches p (w :: rest) kept confl s = propagateWatches p rest (kept ++ [w]) confl s) ∨
    (s.value w.blocker ≠ .l_True ∧
      propagateWatches p (w :: rest) kept confl s
        = propagateWatches p rest (kept ++ [⟨w.cref, ((s.ca w.cref).swapFalseLit p.neg).get 0⟩])
            confl (s.storeClause w.cref ((s.ca w.cref).swapFalseLit p.neg))) ∨
    (∃ k, findNewWatch (s.storeClause w.cref ((s.ca w.cref).swapFalseLit p.neg))
        (((s.ca w.cref).swapFalseLit p.neg).lits.drop 2) 2 = some k ∧
      propagateWatches p (w :: rest) kept confl s
        = propagateWatches p rest kept confl
            (((s.storeClause w.cref ((s.ca w.cref).swapFalseLit p.neg)).storeClause w.cref
              (((s.ca w.cref).swapFalseLit p.neg).newWatch k p.neg)).pushWatcher
                ((((s.ca w.cref).swapFalseLit p.neg).newWatch k p.neg).get 1).neg
                ⟨w.cref, ((s.ca w.cref).swapFalseLit p.neg).get 0⟩)) ∨
    (propagateWatches p (w :: rest) kept confl s
        = (kept ++ [⟨w.cref, ((s.ca w.cref).swapFalseLit p.neg).get 0⟩] ++ rest, some w.cref,
            { s.storeClause w.cref ((s.ca w.cref).swapFalseLit p.neg) with
              qhead := s.trail.length })) ∨
    (s.value (((s.ca w.cref).swapFalseLit p.neg).get 0) = .l_Undef ∧
      propagateWatches p (w :: rest) kept confl s
        = propagateWatches p rest (kept ++ [⟨w.cref, ((s.ca w.cref).swapFalseLit p.neg).get 0⟩])
            confl ((s.storeClause w.cref ((s.ca w.cref).swapFalseLit p.neg)).uncheckedEnqueue
              (((s.ca w.cref).swapFalseLit p.neg).get 0) (some w.cref))) := by
  have hval : ∀ (c : Clause) (l : Lit), (s.storeClause w.cref c).value l = s.value l :=
    fun _ _ => rfl
  rw [propagateWatches]
  by_cases h1 : s.value w.blocker = .l_True
  · left
    exact ⟨h1, by rw [if_pos h1]⟩
  · right
    rw [if_neg h1]
    simp only []
    by_cases h2 : ((s.ca w.cref).swapFalseLit p.neg).get 0 ≠ w.blocker ∧
        (s.storeClause w.cref ((s.ca w.cref).swapFalseLit p.neg)).value
          (((s.ca w.cref).swapFalseLit p.neg).get 0) = .l_True
    · left
      exact ⟨h1, by rw [if_pos h2]⟩
    · right
      rw [if_neg h2]
      cases h3 : findNewWatch (s.storeClause w.cref ((s.ca w.cref).swapFalseLit p.neg))
          (((s.ca w.cref).swapFalseLit p.neg).lits.drop 2) 2 with
      | some k =>
        left
        exact ⟨k, rfl, rfl⟩
      | none =>
        right
        simp only []
        by_cases h4 : (s.storeClause w.cref ((s.ca w.cref).swapFalseLit p.neg)).value
            (((s.ca w.cref).swapFalseLit p.neg).get 0) = .l_False
        · left
          rw [if_pos h4]
          rfl
        · right
          rw [if_neg h4]
          refine ⟨?_, rfl⟩
          rw [hval] at h2 h4
          cases hv : s.value (((s.ca w.cref).swapFalseLit p.neg).get 0) with
          | l_Undef => rfl
          | l_False => exact absurd hv h4
          | l_True =>
            exfalso
            apply h2
            refine ⟨fun hb => h1 (hb ▸ hv), hv⟩

theorem propagateWatches_queue (p : Lit) (rest : List Watcher) :
    ∀ (kept : List Watcher) (confl : Option CRef) (s : SATModule E),
      ((propagateWatches p rest kept confl s).2.2.qhead = s.qhead ∨
        (propagateWatches p rest kept confl s).2.2.qhead
          = (propagateWatches p rest kept confl s).2.2.trail.length) ∧
      s.trail.length ≤ (propagateWatches p rest kept confl s).2.2.trail.length := by
  induction rest with
  | nil => intro kept confl s; simp [propagateWatches]
  | cons w rest ih =>
    intro kept confl s
    rcases propagateWatches_cons p w rest kept confl s with
      ⟨-, h⟩ | ⟨-, h⟩ | ⟨k, -, h⟩ | h | ⟨-, h⟩
    · rw [h]; exact ih _ _ _
    · rw [h]; exact ih _ _ _
    · rw [h]; exact ih _ _ _
    · rw [h]; exact ⟨Or.inr rfl, Nat.le_refl _⟩
    · rw [h]
      have := ih (kept ++ [⟨w.cref, ((s.ca w.cref).swapFalseLit p.neg).get 0⟩]) confl
        ((s.storeClause w.cref ((s.ca w.cref).swapFalseLit p.neg)).uncheckedEnqueue
          (((s.ca w.cref).swapFalseLit p.neg).get 0) (some w.cref))
      have hlen : ((s.storeClause w.cref ((s.ca w.cref).swapFalseLit p.neg)).uncheckedEnqueue
          (((s.ca w.cref).swapFalseLit p.neg).get 0) (some w.cref)).trail.length
            = s.trail.length + 1 := by
        simp [uncheckedEnqueue, storeClause]
      refine ⟨this.1, by omega⟩

theorem propagateWatches_progress (p : Lit) (rest : List Watcher) :
    ∀ (kept : List Watcher) (confl : Option CRef) (s : SATModule E),
      InRange s → p.var < s.nVars → (∀ w ∈ rest, 2 ≤ (s.ca w.cref).lits.length) →
      InRange (propagateWatches p rest kept confl s).2.2 ∧
        Progress s (propagateWatches p rest kept confl s).2.2 := by
  induction rest with
  | nil => intro kept confl s hR _ _; exact ⟨hR, Progress.refl s⟩
  | cons w rest ih =>
    intro kept confl s hR hp hrest
    have hw : 2 ≤ (s.ca w.cref).lits.length := hrest w (List.mem_cons_self _ _)
    have hrest' : ∀ w' ∈ rest, 2 ≤ (s.ca w'.cref).lits.length :=
      fun w' hw' => hrest w' (List.mem_cons_of_mem _ hw')
    have hclen : ((s.ca w.cref).swapFalseLit p.neg).lits.length = (s.ca w.cref).lits.length :=
      Clause.swapFalseLit_length _ _
    have hcr : ∀ l ∈ ((s.ca w.cref).swapFalseLit p.neg).lits, l.var < s.nVars :=
      fun l hl => hR.clause_range w.cref l (Clause.swapFalseLit_mem _ _ _ hw hl)
    have P1 : Progress s (s.storeClause w.cref ((s.ca w.cref).swapFalseLit p.neg)) :=
      storeClause_progress s _ _ hclen
    have R1 : InRange (s.storeClause w.cref ((s.ca w.cref).swapFalseLit p.neg)) :=
      storeClause_inRange s _ _ hR hcr
    have hrest1 : ∀ w' ∈ rest,
        2 ≤ ((s.storeClause w.cref ((s.ca w.cref).swapFalseLit p.neg)).ca w'.cref).lits.length :=
      fun w' hw' => by rw [P1.length_eq]; exact hrest' w' hw'
    rcases propagateWatches_cons p w rest kept confl s with
      ⟨-, h⟩ | ⟨-, h⟩ | ⟨k, hk, h⟩ | h | ⟨hv, h⟩
    · rw [h]; exact ih _ _ _ hR hp hrest'
    · rw [h]
      obtain ⟨r1, r2⟩ := ih (kept ++ [⟨w.cref, ((s.ca w.cref).swapFalseLit p.neg).get 0⟩]) confl _
        R1 hp hrest1
      exact ⟨r1, P1.trans r2⟩
    · rw [h]
      have hk' : k < ((s.ca w.cref).swapFalseLit p.neg).lits.length := by
        have := findNewWatch_lt _ _ _ _ hk
        rw [List.length_drop] at this
        omega
      have hsame : ((s.storeClause w.cref ((s.ca w.cref).swapFalseLit p.neg)).ca w.cref)
          = (s.ca w.cref).swapFalseLit p.neg := by
        simp [storeClause]
      have P2 : Progress (s.storeClause w.cref ((s.ca w.cref).swapFalseLit p.neg))
          ((s.storeClause w.cref ((s.ca w.cref).swapFalseLit p.neg)).storeClause w.cref
            (((s.ca w.cref).swapFalseLit p.neg).newWatch k p.neg)) :=
        storeClause_progress _ _ _ (by rw [hsame, Clause.newWatch_length])
      have R2 : InRange ((s.storeClause w.cref ((s.ca w.cref).swapFalseLit p.neg)).storeClause
          w.cref (((s.ca w.cref).swapFalseLit p.neg).newWatch k p.neg)) := by
        apply storeClause_inRange _ _ _ R1
        intro l hl
        rcases Clause.newWatch_mem _ _ _ _ hk' hl with hl | rfl
        · exact hcr l hl
        · exact hp
      have P3 := pushWatcher_progress
        ((s.storeClause w.cref ((s.ca w.cref).swapFalseLit p.neg)).storeClause
            w.cref (((s.ca w.cref).swapFalseLit p.neg).newWatch k p.neg))
        ((((s.ca w.cref).swapFalseLit p.neg).newWatch k p.neg).get 1).neg
        ⟨w.cref, ((s.ca w.cref).swapFalseLit p.neg).get 0⟩
      have R3 := pushWatcher_inRange _
        ((((s.ca w.cref).swapFalseLit p.neg).newWatch k p.neg).get 1).neg
        ⟨w.cref, ((s.ca w.cref).swapFalseLit p.neg).get 0⟩ R2
      have P13 := P1.trans (P2.trans P3)
      obtain ⟨r1, r2⟩ := ih kept confl _ R3 hp
        (fun w' hw' => by rw [P13.length_eq]; exact hrest' w' hw')
      exact ⟨r1, P13.trans r2⟩
    · rw [h]
      exact ⟨⟨R1.trail_range, R1.clause_range⟩,
        ⟨P1.nVars_eq, P1.length_eq, P1.measure_eq, P1.trail_le⟩⟩
    · rw [h]
      have hfirst : (((s.ca w.cref).swapFalseLit p.neg).get 0).var < s.nVars :=
        hcr _ (Clause.get_mem _ 0 (by omega))
      have P2 := uncheckedEnqueue_progress
        (s.storeClause w.cref ((s.ca w.cref).swapFalseLit p.neg))
        (((s.ca w.cref).swapFalseLit p.neg).get 0) (some w.cref) hfirst hv
      have R2 := uncheckedEnqueue_inRange
        (s.storeClause w.cref ((s.ca w.cref).swapFalseLit p.neg))
        (((s.ca w.cref).swapFalseLit p.neg).get 0) (some w.cref) hfirst R1
      have P12 := P1.trans P2
      obtain ⟨r1, r2⟩ := ih (kept ++ [⟨w.cref, ((s.ca w.cref).swapFalseLit p.neg).get 0⟩]) confl _
        R2 hp (fun w' hw' => by rw [P12.length_eq]; exact hrest' w' hw')
      exact ⟨r1, P12.trans r2⟩

theorem propagateWatches_watchers (p : Lit) (Q : CRef → Prop) (rest : List Watcher) :
    ∀ (kept : List Watcher) (confl : Option CRef) (s : SATModule E),
      (∀ w ∈ rest, Q w.cref) → (∀ w ∈ kept, Q w.cref) →
      (∀ q, ∀ w ∈ s.watches q, Q w.cref) →
      (∀ w ∈ (propagateWatches p rest kept confl s).1, Q w.cref) ∧
        (∀ q, ∀ w ∈ (propagateWatches p rest kept confl s).2.2.watches q, Q w.cref) := by
  induction rest with
  | nil => intro kept confl s _ hk hs; exact ⟨hk, hs⟩
  | cons w rest ih =>
    intro kept confl s hrest hkept hs
    have hw : Q w.cref := hrest w (List.mem_cons_self _ _)
    have hrest' : ∀ w' ∈ rest, Q w'.cref :=
      fun w' hw' => hrest w' (List.mem_cons_of_mem _ hw')
    have hkept1 : ∀ (l : Lit), ∀ w' ∈ kept ++ [(⟨w.cref, l⟩ : Watcher)], Q w'.cref := by
      intro l w' hw'
      rcases List.mem_append.mp hw' with h | h
      · exact hkept w' h
      · rw [List.mem_singleton.mp h]; exact hw
    rcases propagateWatches_cons p w rest kept confl s with
      ⟨-, h⟩ | ⟨-, h⟩ | ⟨k, -, h⟩ | h | ⟨-, h⟩
    · rw [h]; exact ih _ _ _ hrest' (hkept1 w.blocker) hs
    · rw [h]; exact ih _ _ _ hrest' (hkept1 _) hs
    · rw [h]
      apply ih _ _ _ hrest' hkept
      intro q w' hw'
      simp only [pushWatcher, storeClause] at hw'
      by_cases hq : q = ((((s.ca w.cref).swapFalseLit p.neg).newWatch k p.neg).get 1).neg
      · subst hq
        rw [Function.update_same] at hw'
        rcases List.mem_append.mp hw' with h' | h'
        · exact hs _ w' h'
        · rw [List.mem_singleton.mp h']; exact hw
      · rw [Function.update_noteq hq] at hw'
        exact hs q w' hw'
    · rw [h]
      refine ⟨?_, hs⟩
      intro w' hw'
      rcases List.mem_append.mp hw' with h' | h'
      · exact hkept1 _ w' h'
      · exact hrest' w' h'
    · rw [h]; exact ih _ _ _ hrest' (hkept1 _) hs

theorem propagateLoop_queue (fuel : Nat) :
    ∀ (confl : Option CRef) (n : Nat) (s : SATModule E) (r : Option CRef × Nat × SATModule E),
      s.qhead ≤ s.trail.length → propagateLoop fuel confl n s = some r →
      r.2.2.qhead = r.2.2.trail.length := by
  induction fuel with
  | zero =>
    intro confl n s r hq h
    unfold propagateLoop at h
    split at h
    · cases h
    · cases h; simp only; omega
  | succ fuel ih =>
    intro confl n s r hq h
    unfold propagateLoop at h
    split at h
    · rename_i hlt
      refine ih _ _ _ r ?_ h
      have := propagateWatches_queue (s.trail.getD s.qhead ⟨0, false⟩)
        (s.watches (s.trail.getD s.qhead ⟨0, false⟩)) [] confl { s with qhead := s.qhead + 1 }
      simp only at this ⊢
      omega
    · cases h; simp only; omega

theorem propagateLoop_terminates (fuel : Nat) :
    ∀ (confl : Option CRef) (n : Nat) (s : SATModule E),
      WellFormed s → numUndef s.assigns s.nVars + s.trail.length ≤ fuel + s.qhead →
      ∃ r, propagateLoop fuel confl n s = some r := by
  induction fuel with
  | zero =>
    intro confl n s hwf hm
    unfold propagateLoop
    rw [if_neg (by omega)]
    exact ⟨_, rfl⟩
  | succ fuel ih =>
    intro confl n s hwf hm
    unfold propagateLoop
    split
    · rename_i hlt
      have hpmem : s.trail.getD s.qhead ⟨0, false⟩ ∈ s.trail := by
        rw [List.getD_eq_getElem _ _ hlt]; exact List.getElem_mem _
      have hp : (s.trail.getD s.qhead ⟨0, false⟩).var < s.nVars :=
        hwf.inRange.trail_range _ hpmem
      have hR1 : InRange ({ s with qhead := s.qhead + 1 } : SATModule E) :=
        ⟨hwf.inRange.trail_range, hwf.inRange.clause_range⟩
      have hq := propagateWatches_queue (s.trail.getD s.qhead ⟨0, false⟩)
        (s.watches (s.trail.getD s.qhead ⟨0, false⟩)) [] confl { s with qhead := s.qhead + 1 }
      have hpr := propagateWatches_progress (s.trail.getD s.qhead ⟨0, false⟩)
        (s.watches (s.trail.getD s.qhead ⟨0, false⟩)) [] confl { s with qhead := s.qhead + 1 }
        hR1 hp (hwf.watched_size _)
      have hws := propagateWatches_watchers (s.trail.getD s.qhead ⟨0, false⟩)
        (fun cr => 2 ≤ (s.ca cr).lits.length)
        (s.watches (s.trail.getD s.qhead ⟨0, false⟩)) [] confl { s with qhead := s.qhead + 1 }
        (hwf.watched_size _) (by simp) hwf.watched_size
      apply ih
      · refine ⟨?_, ⟨hpr.1.trail_range, hpr.1.clause_range⟩, ?_⟩
        · simp only at hq ⊢
          omega
        · intro q w hw
          simp only at hw ⊢
          rw [hpr.2.length_eq]
          by_cases hqp : q = s.trail.getD s.qhead ⟨0, false⟩
          · subst hqp
            rw [Function.update_same] at hw
            exact hws.1 w hw
          · rw [Function.update_noteq hqp] at hw
            exact hws.2 q w hw
      · have hm' := hpr.2.measure_eq
        simp only at hq hm' ⊢
        omega
    · exact ⟨_, rfl⟩

theorem propagateLoop_more_fuel (fuel : Nat) :
    ∀ (confl : Option CRef) (n : Nat) (s : SATModule E) (r : Option CRef × Nat × SATModule E),
      propagateLoop fuel confl n s = some r →
      ∀ more, propagateLoop (fuel + more) confl n s = some r := by
  induction fuel with
  | zero =>
    intro confl n s r h more
    unfold propagateLoop at h
    split at h
    · cases h
    · rename_i hq
      cases more with
      | zero => unfold propagateLoop; rw [if_neg hq]; exact h
      | succ m => rw [Nat.zero_add]; unfold propagateLoop; rw [if_neg hq]; exact h
  | succ fuel ih =>
    intro confl n s r h more
    rw [Nat.add_right_comm]
    unfold propagateLoop at h ⊢
    split at h
    · rename_i hq
      rw [if_pos hq]
      exact ih _ _ _ r h more
    · rename_i hq
      rw [if_neg hq]
      exact h

theorem propagate_more_fuel (fuel more : Nat) (s : SATModule E)
    (r : Option CRef × SATModule E) (h : propagate fuel s = some r) :
    propagate (fuel + more) s = some r := by
  unfold propagate at h ⊢
  cases hl : propagateLoop fuel none 0 s.cleanAll with
  | none => simp [hl] at h
  | some t =>
    rw [propagateLoop_more_fuel fuel none 0 s.cleanAll t hl more]
    rw [hl] at h
    exact h

theorem cleanAll_fold (f : SATModule E → Lit → SATModule E)
    (P : SATModule E → Prop) (hP : ∀ t idx, P t → P (f t idx)) :
    ∀ (L : List Lit) (t : SATModule E), P t → P (L.foldl f t) := by
  intro L
  induction L with
  | nil => intro t ht; exact ht
  | cons a L ih => intro t ht; exact ih _ (hP t a ht)

theorem cleanAll_frame (s : SATModule E) :
    s.cleanAll.qhead = s.qhead ∧ s.cleanAll.trail = s.trail ∧ s.cleanAll.assigns = s.assigns ∧
    s.cleanAll.nVars = s.nVars ∧ s.cleanAll.ca = s.ca ∧
    ∀ q, ∀ w ∈ s.cleanAll.watches q, w ∈ s.watches q := by
  unfold cleanAll
  simp only
  apply cleanAll_fold _ (fun t => t.qhead = s.qhead ∧ t.trail = s.trail ∧
    t.assigns = s.assigns ∧ t.nVars = s.nVars ∧ t.ca = s.ca ∧
    ∀ q, ∀ w ∈ t.watches q, w ∈ s.watches q)
  · intro t idx ht
    obtain ⟨h1, h2, h3, h4, h5, h6⟩ := ht
    split
    · refine ⟨h1, h2, h3, h4, h5, ?_⟩
      intro q w hw
      simp only at hw
      by_cases hq : q = idx
      · subst hq
        rw [Function.update_same] at hw
        exact h6 _ w (List.mem_of_mem_filter hw)
      · rw [Function.update_noteq hq] at hw
        exact h6 q w hw
    · exact ⟨h1, h2, h3, h4, h5, h6⟩
  · exact ⟨rfl, rfl, rfl, rfl, rfl, fun _ _ h => h⟩

theorem cleanAll_wellFormed (s : SATModule E) (h : WellFormed s) : WellFormed s.cleanAll := by
  obtain ⟨h1, h2, h3, h4, h5, h6⟩ := cleanAll_frame s
  refine ⟨by rw [h1, h2]; exact h.qhead_le, ⟨?_, ?_⟩, ?_⟩
  · rw [h2, h4]; exact h.inRange.trail_range
  · rw [h5, h4]; exact h.inRange.clause_range
  · intro q w hw
    rw [h5]
    exact h.watched_size q w (h6 q w hw)

/-- Claim C10: whenever `propagate` returns, with or without a conflict, `qhead` equals
`trail.size()`, for every state in which `qhead` is an index into the trail.  In a well-formed
state `propagate` does return: every amount of fuel from `nVars + trail.size() - qhead` on gives
one and the same result, and the queue is empty in it. -/
theorem propagate_drains_queue (s : SATModule E) :
    (s.qhead ≤ s.trail.length →
      ∀ fuel confl s', propagate fuel s = some (confl, s') → s'.qhead = s'.trail.length) ∧
    (WellFormed s → ∀ fuel, s.nVars + s.trail.length ≤ fuel + s.qhead →
      ∃ confl s', (∀ more, propagate (fuel + more) s = some (confl, s')) ∧
        s'.qhead = s'.trail.length) := by
  obtain ⟨h1, h2, h3, h4, h5, h6⟩ := cleanAll_frame s
  have part1 : s.qhead ≤ s.trail.length →
      ∀ fuel confl s', propagate fuel s = some (confl, s') → s'.qhead = s'.trail.length := by
    intro hq fuel confl s' h
    unfold propagate at h
    cases hl : propagateLoop fuel none 0 s.cleanAll with
    | none => simp [hl] at h
    | some r =>
      obtain ⟨c, n, t⟩ := r
      have := propagateLoop_queue fuel none 0 s.cleanAll _ (by rw [h1, h2]; exact hq) hl
      simp only [hl, Option.some.injEq, Prod.mk.injEq] at h
      obtain ⟨-, rfl⟩ := h
      exact this
  refine ⟨part1, ?_⟩
  intro hwf fuel hfuel
  have hm : numUndef s.cleanAll.assigns s.cleanAll.nVars + s.cleanAll.trail.length
      ≤ fuel + s.cleanAll.qhead := by
    rw [h1, h2, h3, h4]
    have := numUndef_le s.assigns s.nVars
    omega
  obtain ⟨r, hr⟩ := propagateLoop_terminates fuel none 0 s.cleanAll (cleanAll_wellFormed s hwf) hm
  obtain ⟨c, n, t⟩ := r
  have hres : propagate fuel s = some (c, { t with
      propagations := t.propagations + n
      simpDB_props := t.simpDB_props - n }) := by
    unfold propagate
    rw [hr]
  exact ⟨_, _, fun more => propagate_more_fuel fuel more s _ hres,
    part1 hwf.qhead_le fuel _ _ hres⟩

/-! ## Well-formedness is kept by the solver interface -/

theorem propagateStep_wellFormed (s : SATModule E) (confl : Option CRef)
    (hwf : WellFormed s) (hlt : s.qhead < s.trail.length) :
    WellFormed ({ (propagateWatches (s.trail.getD s.qhead ⟨0, false⟩)
        (s.watches (s.trail.getD s.qhead ⟨0, false⟩)) [] confl
          { s with qhead := s.qhead + 1 }).2.2 with
      watches := Function.update (propagateWatches (s.trail.getD s.qhead ⟨0, false⟩)
        (s.watches (s.trail.getD s.qhead ⟨0, false⟩)) [] confl
          { s with qhead := s.qhead + 1 }).2.2.watches (s.trail.getD s.qhead ⟨0, false⟩)
        (propagateWatches (s.trail.getD s.qhead ⟨0, false⟩)
          (s.watches (s.trail.getD s.qhead ⟨0, false⟩)) [] confl
            { s with qhead := s.qhead + 1 }).1 } : SATModule E) := by
  have hpmem : s.trail.getD s.qhead ⟨0, false⟩ ∈ s.trail := by
    rw [List.getD_eq_getElem _ _ hlt]; exact List.getElem_mem _
  have hp : (s.trail.getD s.qhead ⟨0, false⟩).var < s.nVars :=
    hwf.inRange.trail_range _ hpmem
  have hR1 : InRange ({ s with qhead := s.qhead + 1 } : SATModule E) :=
    ⟨hwf.inRange.trail_range, hwf.inRange.clause_range⟩
  have hq := propagateWatches_queue (s.trail.getD s.qhead ⟨0, false⟩)
    (s.watches (s.trail.getD s.qhead ⟨0, false⟩)) [] confl { s with qhead := s.qhead + 1 }
  have hpr := propagateWatches_progress (s.trail.getD s.qhead ⟨0, false⟩)
    (s.watches (s.trail.getD s.qhead ⟨0, false⟩)) [] confl { s with qhead := s.qhead + 1 }
    hR1 hp (hwf.watched_size _)
  have hws := propagateWatches_watchers (s.trail.getD s.qhead ⟨0, false⟩)
    (fun cr => 2 ≤ (s.ca cr).lits.length)
    (s.watches (s.trail.getD s.qhead ⟨0, false⟩)) [] confl { s with qhead := s.qhead + 1 }
    (hwf.watched_size _) (by simp) hwf.watched_size
  refine ⟨?_, ⟨hpr.1.trail_range, hpr.1.clause_range⟩, ?_⟩
  · simp only at hq ⊢
    omega
  · intro q w hw
    simp only at hw ⊢
    rw [hpr.2.length_eq]
    by_cases hqp : q = s.trail.getD s.qhead ⟨0, false⟩
    · subst hqp
      rw [Function.update_same] at hw
      exact hws.1 w hw
    · rw [Function.update_noteq hqp] at hw
      exact hws.2 q w hw

theorem propagateLoop_wellFormed (fuel : Nat) :
    ∀ (confl : Option CRef) (n : Nat) (s : SATModule E) (r : Option CRef × Nat × SATModule E),
      WellFormed s → propagateLoop fuel confl n s = some r → WellFormed r.2.2 := by
  induction fuel with
  | zero =>
    intro confl n s r hwf h
    unfold propagateLoop at h
    split at h
    · cases h
    · cases h; exact hwf
  | succ fuel ih =>
    intro confl n s r hwf h
    unfold propagateLoop at h
    split at h
    · rename_i hlt
      exact ih _ _ _ r (propagateStep_wellFormed s confl hwf hlt) h
    · cases h; exact hwf

theorem propagate_wellFormed (fuel : Nat) (s s' : SATModule E) (confl : Option CRef)
    (hwf : WellFormed s) (h : propagate fuel s = some (confl, s')) : WellFormed s' := by
  unfold propagate at h
  cases hl : propagateLoop fuel none 0 s.cleanAll with
  | none => simp [hl] at h
  | some r =>
    obtain ⟨c, n, t⟩ := r
    have hwt := propagateLoop_wellFormed fuel none 0 s.cleanAll _ (cleanAll_wellFormed s hwf) hl
    simp only [hl, Option.some.injEq, Prod.mk.injEq] at h
    obtain ⟨-, rfl⟩ := h
    exact ⟨hwt.qhead_le, ⟨hwt.inRange.trail_range, hwt.inRange.clause_range⟩, hwt.watched_size⟩

theorem WellFormed_init (E : Type) : WellFormed (init E) := by
  refine ⟨Nat.le_refl _, ⟨?_, ?_⟩, ?_⟩ <;> simp [init]

theorem WellFormed_newVar (s : SATModule E) (sign dvar : Bool) (h : WellFormed s) :
    WellFormed (s.newVar sign dvar).2 := by
  refine ⟨h.qhead_le, ⟨?_, ?_⟩, ?_⟩
  · intro l hl
    exact Nat.lt_succ_of_lt (h.inRange.trail_range l hl)
  · intro cr l hl
    exact Nat.lt_succ_of_lt (h.inRange.clause_range cr l hl)
  · intro q w hw
    simp only [newVar] at hw ⊢
    by_cases h1 : q = mkLit s.nVars true
    · subst h1; simp at hw
    · rw [Function.update_noteq h1] at hw
      by_cases h2 : q = mkLit s.nVars false
      · subst h2; simp at hw
      · rw [Function.update_noteq h2] at hw
        exact h.watched_size q w hw

theorem WellFormed_getLiteral [DecidableEq E] [Neg E] (s : SATModule E) (f : Formula E)
    (h : WellFormed s) : WellFormed (getLiteral f s).2 := by
  have hn := WellFormed_newVar s true true h
  cases f with
  | BOOL identifier =>
    cases hb : s.mBooleanVarMap identifier with
    | some v => simpa [getLiteral, hb] using h
    | none =>
      simp only [getLiteral, hb]
      exact ⟨hn.qhead_le, ⟨hn.inRange.trail_range, hn.inRange.clause_range⟩, hn.watched_size⟩
  | REALCONSTRAINT c =>
    cases hc : s.mConstraintLiteralMap (normalizedConstraint c) with
    | some l => rw [getLiteral_found s c l hc]; exact h
    | none =>
      rw [getLiteral_fresh s c hc]
      exact ⟨hn.qhead_le, ⟨hn.inRange.trail_range, hn.inRange.clause_range⟩, hn.watched_size⟩

theorem WellFormed_uncheckedEnqueue (s : SATModule E) (l : Lit) (src : Option CRef)
    (hl : l.var < s.nVars) (h : WellFormed s) : WellFormed (s.uncheckedEnqueue l src) := by
  have hR := uncheckedEnqueue_inRange s l src hl h.inRange
  refine ⟨?_, hR, h.watched_size⟩
  have := h.qhead_le
  simp only [uncheckedEnqueue, List.length_append, List.length_singleton]
  omega

theorem addClauseLoop_subset (s : SATModule E) (L : List Lit) :
    ∀ (p : Option Lit) (K : List Lit), addClauseLoop s p L = some K → ∀ l ∈ K, l ∈ L := by
  induction L with
  | nil =>
    intro p K h l hl
    simp only [addClauseLoop, Option.some.injEq] at h
    subst h
    exact hl
  | cons q rest ih =>
    intro p K h l hl
    unfold addClauseLoop at h
    split at h
    · cases h
    · split at h
      · cases hr : addClauseLoop s (some q) rest with
        | none => simp [hr] at h
        | some K' =>
          simp only [hr, Option.map_some', Option.some.injEq] at h
          subst h
          rcases List.mem_cons.mp hl with rfl | hl
          · exact List.mem_cons_self _ _
          · exact List.mem_cons_of_mem _ (ih _ _ hr l hl)
      · exact List.mem_cons_of_mem _ (ih _ _ h l hl)

theorem mem_update_append {watches : Lit → List Watcher} {q q' : Lit} {w w' : Watcher}
    (h : w ∈ Function.update watches q (watches q ++ [w']) q') : w ∈ watches q' ∨ w = w' := by
  by_cases hq : q' = q
  · subst hq
    rw [Function.update_same] at h
    rcases List.mem_append.mp h with h | h
    · exact Or.inl h
    · exact Or.inr (List.mem_singleton.mp h)
  · rw [Function.update_noteq hq] at h
    exact Or.inl h

theorem attachClause_watch_mem (s : SATModule E) (cr : CRef) (q : Lit) (w : Watcher)
    (h : w ∈ (s.attachClause cr).watches q) : w ∈ s.watches q ∨ w.cref = cr := by
  unfold attachClause at h
  rcases mem_update_append h with h | h
  · rcases mem_update_append h with h | h
    · exact Or.inl h
    · exact Or.inr (by rw [h])
  · exact Or.inr (by rw [h])

theorem WellFormed_attach (s : SATModule E) (qs : List Lit) (h : WellFormed s)
    (hsize : 2 ≤ qs.length) (hr : ∀ l ∈ qs, l.var < s.nVars) :
    WellFormed (({ (s.alloc qs false).2 with
      clauses := (s.alloc qs false).2.clauses ++ [(s.alloc qs false).1] }).attachClause
        (s.alloc qs false).1) := by
  have hca : ∀ cr, 2 ≤ (s.ca cr).lits.length →
      2 ≤ ((Function.update s.ca s.caSize ⟨qs, false, 0⟩) cr).lits.length := by
    intro cr hcr
    by_cases hc : cr = s.caSize
    · subst hc; simpa using hsize
    · rw [Function.update_noteq hc]; exact hcr
  refine ⟨h.qhead_le, ⟨h.inRange.trail_range, ?_⟩, ?_⟩
  · intro cr l hl
    simp only [attachClause, alloc] at hl ⊢
    by_cases hc : cr = s.caSize
    · subst hc
      rw [Function.update_same] at hl
      exact hr l hl
    · rw [Function.update_noteq hc] at hl
      exact h.inRange.clause_range cr l hl
  · intro q w hw
    have hnew : 2 ≤ ((Function.update s.ca s.caSize ⟨qs, false, 0⟩) s.caSize).lits.length := by
      simpa using hsize
    rcases attachClause_watch_mem _ _ q w hw with hw | hw
    · exact hca _ (h.watched_size q w hw)
    · rw [hw]; exact hnew

theorem addClause_wellFormed (fuel : Nat) (s s' : SATModule E) (ps : List Lit) (b : Bool)
    (hwf : WellFormed s) (hps : ∀ l ∈ ps, l.var < s.nVars)
    (h : addClause_ fuel s ps = some (b, s')) : WellFormed s' := by
  unfold addClause_ at h
  split at h
  · cases h; exact hwf
  · cases hK : addClauseLoop s none (sort ps) with
    | none =>
      simp only [hK, Option.some.injEq, Prod.mk.injEq] at h
      obtain ⟨-, rfl⟩ := h
      exact hwf
    | some K =>
      have hsub : ∀ l ∈ K, l.var < s.nVars :=
        fun l hl => hps l ((mem_sort ps l).mp (addClauseLoop_subset s _ _ _ hK l hl))
      match K, hK, hsub with
      | [], hK, _ =>
        simp only [hK, Option.some.injEq, Prod.mk.injEq] at h
        obtain ⟨-, rfl⟩ := h
        exact ⟨hwf.qhead_le, ⟨hwf.inRange.trail_range, hwf.inRange.clause_range⟩,
          hwf.watched_size⟩
      | [l], hK, hsub =>
        simp only [hK] at h
        cases hp : (s.uncheckedEnqueue l none).propagate fuel with
        | none => simp [hp] at h
        | some r =>
          obtain ⟨confl, s1⟩ := r
          have hw1 := propagate_wellFormed fuel _ s1 confl
            (WellFormed_uncheckedEnqueue s l none (hsub l (List.mem_singleton.mpr rfl)) hwf) hp
          simp only [hp, Option.some.injEq, Prod.mk.injEq] at h
          obtain ⟨-, rfl⟩ := h
          exact ⟨hw1.qhead_le, ⟨hw1.inRange.trail_range, hw1.inRange.clause_range⟩,
            hw1.watched_size⟩
      | c0 :: c1 :: cs, hK, hsub =>
        simp only [hK, Option.some.injEq, Prod.mk.injEq] at h
        obtain ⟨-, rfl⟩ := h
        exact WellFormed_attach s (c0 :: c1 :: cs) hwf (by simp) hsub

theorem afterAddClause_wellFormed (s : SATModule E) (ps : List Lit)
    (hwf : WellFormed s) (hps : ∀ l ∈ ps, l.var < s.nVars) :
    WellFormed (afterAddClause s ps) := by
  unfold afterAddClause
  split
  · rename_i r hr
    exact addClause_wellFormed _ s r.2 ps r.1 hwf hps hr
  · exact hwf

/-! ## Evaluation on concrete states -/

theorem WellFormed_twoVars : WellFormed twoVars :=
  WellFormed_newVar _ true true (WellFormed_newVar _ true true (WellFormed_init LinExpr))

theorem WellFormed_twoBinaryClauses : WellFormed twoBinaryClauses :=
  afterAddClause_wellFormed _ _
    (afterAddClause_wellFormed _ _ WellFormed_twoVars (by decide)) (by decide)

/-- Claim C1, counterexample: with the clauses `[~0, 1]` and `[~0, ~1]` in a consistent solver at
level 0, adding the unit clause `[0]` returns `false` although the simplified clause has one
literal (the propagation of `0` runs into a conflict); and once the empty clause was added,
adding `[0, 1]` returns `false` although the simplified clause has two literals. -/
theorem addClause_false_with_nonempty_clause :
    (twoBinaryClauses.ok = true ∧ twoBinaryClauses.decisionLevel = 0 ∧
      (addClause_ 3 twoBinaryClauses [mkLit 0 false]).map Prod.fst = some false ∧
      addClauseLoop twoBinaryClauses none (sort [mkLit 0 false]) = some [mkLit 0 false]) ∧
    (afterEmptyClause.decisionLevel = 0 ∧
      (addClause_ 0 afterEmptyClause [mkLit 0 false, mkLit 1 false]).map Prod.fst = some false ∧
      addClauseLoop afterEmptyClause none (sort [mkLit 0 false, mkLit 1 false])
        = some [mkLit 0 false, mkLit 1 false]) := by
  decide

/-- Claim C1, witness: adding the empty clause to the solver with two variables returns `false`,
and the simplified clause is empty. -/
theorem addClause_false_only_if_witness :
    twoVars.ok = false ∨ addClauseLoop twoVars none (sort []) = some [] ∨
      ∃ l cr s1, addClauseLoop twoVars none (sort []) = some [l] ∧
        (twoVars.uncheckedEnqueue l none).propagate 0 = some (some cr, s1) :=
  addClause_false_only_if 0 twoVars { twoVars with ok := false } [] rfl

/-- Claim C2, witness: the tautology `[0, 1, ~0]` over two unassigned variables is accepted and
changes nothing. -/
theorem addClause_satisfied_or_tautology_witness :
    addClause_ 0 twoVars [mkLit 0 false, mkLit 1 false, mkLit 0 true] = some (true, twoVars) :=
  addClause_satisfied_or_tautology 0 twoVars _ rfl rfl
    (Or.inr ⟨mkLit 0 false, by decide, by decide, by decide⟩)

/-- Claim C3, witness: the clause `[1, ~0, 1]` over two unassigned variables. -/
theorem addClause_stores_nonfalse_literals_witness :
    ∃ (s' : SATModule LinExpr) (c0 c1 : Lit) (cs : List Lit),
      addClause_ 0 twoVars [mkLit 1 false, mkLit 0 true, mkLit 1 false] = some (true, s') ∧
      s'.clauses = twoVars.clauses ++ [twoVars.caSize] ∧
      s'.ca twoVars.caSize = ⟨c0 :: c1 :: cs, false, 0⟩ ∧
      (c0 :: c1 :: cs).Nodup ∧
      (∀ l, l ∈ c0 :: c1 :: cs ↔
        (l ∈ [mkLit 1 false, mkLit 0 true, mkLit 1 false] ∧ twoVars.value l ≠ .l_False)) ∧
      (⟨twoVars.caSize, c1⟩ : Watcher) ∈ s'.watches c0.neg ∧
      (⟨twoVars.caSize, c0⟩ : Watcher) ∈ s'.watches c1.neg :=
  addClause_stores_nonfalse_literals 0 twoVars _ rfl rfl (by decide) (by decide)
    ⟨mkLit 1 false, mkLit 0 true, by decide, by decide, by decide, by decide, by decide⟩

/-- Claim C4, evaluation: after `getLiteral( x <= 0 )` on the initial state the key `x > 0`, of
relation GREATER, is in `mConstraintLiteralMap` (mapped to the negative literal of variable 0). -/
theorem getLiteral_leq_registers_greater_key :
    (getLiteral xLeq (init LinExpr)).2.mConstraintLiteralMap ⟨(1, 0), .CR_GREATER⟩
      = some (mkLit 0 false) := by
  decide

/-- Claim C5, evaluation: `getLiteral( x <= 0 )` on the initial state returns the positive literal
of variable 0; `getLiteral( x > 0 )` then makes a second variable and returns its negative literal,
which is not the complement of the first literal.  In the other order, and for `x < 0` followed by
`x >= 0`, the second call returns the complement and there is one variable. -/
theorem getLiteral_negation_gets_second_variable :
    (getLiteral xLeq (init LinExpr)).1 = mkLit 0 true ∧
    (getLiteral xGreater (getLiteral xLeq (init LinExpr)).2).1 = mkLit 1 false ∧
    (getLiteral xGreater (getLiteral xLeq (init LinExpr)).2).1
      ≠ (getLiteral xLeq (init LinExpr)).1.neg ∧
    (getLiteral xGreater (getLiteral xLeq (init LinExpr)).2).2.nVars = 2 ∧
    (getLiteral xLeq (getLiteral xGreater (init LinExpr)).2).1
      = (getLiteral xGreater (init LinExpr)).1.neg ∧
    (getLiteral xLeq (getLiteral xGreater (init LinExpr)).2).2.nVars = 1 ∧
    (getLiteral xGeq (getLiteral xLess (init LinExpr)).2).1
      = (getLiteral xLess (init LinExpr)).1.neg ∧
    (getLiteral xGeq (getLiteral xLess (init LinExpr)).2).2.nVars = 1 := by
  decide

/-- Claim C6, counterexample: on the initial state the constraint stored for the literal returned
by `getLiteral( x >= 0 )` is `-x <= 0`, which differs from `x >= 0` in the left-hand side and in
the relation. -/
theorem getLiteral_geq_stores_other_constraint :
    ((getLiteral xGeq (init LinExpr)).2.mLitConstraintMap (getLiteral xGeq (init LinExpr)).1).map
        Prod.fst = some ⟨(-1, 0), .CR_LEQ⟩ ∧
    ((getLiteral xGeq (init LinExpr)).2.mLitConstraintMap (getLiteral xGeq (init LinExpr)).1).map
        Prod.fst ≠ some ⟨(1, 0), .CR_GEQ⟩ := by
  decide

/-- Claim C6, witness: the constraint `x >= 0` on the initial state. -/
theorem getLiteral_stores_normalized_constraint_witness :
    (∃ f, (getLiteral xGeq (init LinExpr)).2.mLitConstraintMap
        (getLiteral xGeq (init LinExpr)).1 = some (⟨(-1, 0), .CR_LEQ⟩, f)) ∧
    ((⟨(1, 0), .CR_GEQ⟩ : Constraint LinExpr).relation ≠ .CR_GEQ →
      (⟨(1, 0), .CR_GEQ⟩ : Constraint LinExpr).relation ≠ .CR_GREATER →
      normalizedConstraint (⟨(1, 0), .CR_GEQ⟩ : Constraint LinExpr) = ⟨(1, 0), .CR_GEQ⟩) :=
  getLiteral_stores_normalized_constraint (init LinExpr) ⟨(1, 0), .CR_GEQ⟩
    (MapsConsistent_init LinExpr)

/-- Claim C7, evaluation: after `getLiteral( x <= 0 )` on the initial state the negative literal
of variable 0 has the entry `x > 0` in `mLitConstraintMap`, and there is one variable;
`getLiteral( x > 0 )` then returns the negative literal of a new variable 1. -/
theorem getLiteral_of_stored_constraint_makes_variable :
    ((getLiteral xLeq (init LinExpr)).2.mLitConstraintMap (mkLit 0 false)).map Prod.fst
      = some ⟨(1, 0), .CR_GREATER⟩ ∧
    (getLiteral xLeq (init LinExpr)).2.nVars = 1 ∧
    (getLiteral xGreater (getLiteral xLeq (init LinExpr)).2).1 = mkLit 1 false ∧
    (getLiteral xGreater (getLiteral xLeq (init LinExpr)).2).2.nVars = 2 := by
  decide

/-- Claim C8, witness: the constraint `x <= 0` on the initial state. -/
theorem getLiteral_registers_semantic_negations_witness :
    ∃ cPos cNeg : Constraint LinExpr,
      (getLiteral xLeq (init LinExpr)).2.nVars = 0 + 1 ∧
      (getLiteral xLeq (init LinExpr)).2.mLitConstraintMap (mkLit 0 true) = some (cPos, xLeq) ∧
      (getLiteral xLeq (init LinExpr)).2.mLitConstraintMap (mkLit 0 false) = some (cNeg, xLeq) ∧
      ∀ ev : LinExpr → ℚ, (∀ e, ev (-e) = -ev e) →
        evaluate (ev cPos.lhs) cPos.relation = !evaluate (ev cNeg.lhs) cNeg.relation :=
  getLiteral_registers_semantic_negations (init LinExpr) ⟨(1, 0), .CR_LEQ⟩ rfl

/-- Claim C10, witness: with the clauses `[~0, 1]` and `[~0, ~1]` and the literal `0` enqueued,
`propagate` returns with an empty queue. -/
theorem propagate_drains_queue_witness :
    ∃ confl s', (∀ more, propagate (3 + more)
        (twoBinaryClauses.uncheckedEnqueue (mkLit 0 false) none) = some (confl, s')) ∧
      s'.qhead = s'.trail.length :=
  (propagate_drains_queue (twoBinaryClauses.uncheckedEnqueue (mkLit 0 false) none)).2
    (WellFormed_uncheckedEnqueue _ _ _ (by decide) WellFormed_twoBinaryClauses) 3 (by decide)

theorem propagate_conflict_example :
    (propagate 3 (twoBinaryClauses.uncheckedEnqueue (mkLit 0 false) none)).map
      (fun r => (r.1, r.2.qhead, r.2.trail)) = some (some 1, 2, [mkLit 0 false, mkLit 1 false]) := by
  decide

/-! ## Backtracking -/

theorem insertVarOrder_assigns (s : SATModule E) (x : Var) :
    (s.insertVarOrder x).assigns = s.assigns := by
  unfold insertVarOrder
  split <;> rfl

theorem cancelLoop_assigns (s : SATModule E) (ls : List Lit) :
    ∀ (c : Nat) (v : Nat), (cancelLoop s c ls).assigns v
      = if v ∈ ls.map Lit.var then .l_Undef else s.assigns v := by
  induction ls with
  | nil => intro c v; simp [cancelLoop]
  | cons l ls ih =>
    intro c v
    simp only [cancelLoop, cancelStep, insertVarOrder_assigns, List.map_cons, List.mem_cons]
    by_cases hv : v = l.var
    · subst hv; simp
    · rw [Function.update_noteq hv, ih]
      simp [hv]

/-- Claim C19: for a level `L` below `decisionLevel()`, in a state whose trail has no variable
twice and whose `trail_lim[L]` is a position of the trail, `cancelUntil( L )` makes
`decisionLevel() = L`, keeps exactly the prefix of the trail of length `trail_lim[L]` and the
values of its variables (of every variable not on the removed part), sets the variable of every
removed literal to `l_Undef` and sets `qhead` to the new size of the trail; for a level
`L >= decisionLevel()` it changes nothing. -/
theorem cancelUntil_frame (s : SATModule E) (L : Nat) :
    (L < s.decisionLevel → (s.trail.map Lit.var).Nodup →
      s.trail_lim.getD L 0 ≤ s.trail.length →
        (s.cancelUntil L).decisionLevel = L ∧
        (s.cancelUntil L).trail = s.trail.take (s.trail_lim.getD L 0) ∧
        (s.cancelUntil L).trail.length = s.trail_lim.getD L 0 ∧
        (∀ l ∈ (s.cancelUntil L).trail, (s.cancelUntil L).assigns l.var = s.assigns l.var) ∧
        (∀ v, v ∉ (s.trail.drop (s.trail_lim.getD L 0)).map Lit.var →
          (s.cancelUntil L).assigns v = s.assigns v) ∧
        (∀ l ∈ s.trail.drop (s.trail_lim.getD L 0),
          (s.cancelUntil L).assigns l.var = .l_Undef) ∧
        (s.cancelUntil L).qhead = (s.cancelUntil L).trail.length) ∧
    (s.decisionLevel ≤ L → s.cancelUntil L = s) := by
  constructor
  · intro hL hnd hlim
    have hdl : s.decisionLevel > L := hL
    have hassign : ∀ v, (s.cancelUntil L).assigns v
        = if v ∈ (s.trail.drop (s.trail_lim.getD L 0)).map Lit.var then .l_Undef
          else s.assigns v := by
      intro v
      simp only [cancelUntil, if_pos hdl]
      exact cancelLoop_assigns s _ _ v
    have htrail : (s.cancelUntil L).trail = s.trail.take (s.trail_lim.getD L 0) := by
      simp only [cancelUntil, if_pos hdl]
    have hlen : (s.cancelUntil L).trail.length = s.trail_lim.getD L 0 := by
      rw [htrail, List.length_take]; omega
    refine ⟨?_, htrail, hlen, ?_, ?_, ?_, ?_⟩
    · simp only [cancelUntil, if_pos hdl]
      simp only [decisionLevel, List.length_take] at hL ⊢
      omega
    · intro l hl
      rw [hassign, if_neg]
      rw [htrail] at hl
      intro hmem
      have hsplit : s.trail.map Lit.var
          = (s.trail.take (s.trail_lim.getD L 0)).map Lit.var
            ++ (s.trail.drop (s.trail_lim.getD L 0)).map Lit.var := by
        rw [← List.map_append, List.take_append_drop]
      rw [hsplit] at hnd
      exact (List.nodup_append.mp hnd).2.2 (List.mem_map_of_mem _ hl) hmem
    · intro v hv
      rw [hassign, if_neg hv]
    · intro l hl
      rw [hassign, if_pos (List.mem_map_of_mem _ hl)]
    · rw [hlen]
      simp only [cancelUntil, if_pos hdl]
  · intro hL
    simp only [cancelUntil]
    rw [if_neg (by omega)]

/-! ## Reduction of the learnt clauses -/

theorem smudge_frame (s : SATModule E) (idx : Lit) :
    (s.smudge idx).assigns = s.assigns ∧ (s.smudge idx).vardata = s.vardata ∧
    (s.smudge idx).ca = s.ca ∧ (s.smudge idx).watches = s.watches := by
  unfold smudge
  split <;> exact ⟨rfl, rfl, rfl, rfl⟩

theorem detachClause_frame (s : SATModule E) (cr : CRef) :
    (s.detachClause cr).assigns = s.assigns ∧ (s.detachClause cr).vardata = s.vardata ∧
    (s.detachClause cr).ca = s.ca ∧ (s.detachClause cr).watches = s.watches := by
  obtain ⟨a1, a2, a3, a4⟩ := smudge_frame s ((s.ca cr).get 0).neg
  obtain ⟨b1, b2, b3, b4⟩ := smudge_frame (s.smudge ((s.ca cr).get 0).neg) ((s.ca cr).get 1).neg
  exact ⟨b1.trans a1, b2.trans a2, b3.trans a3, b4.trans a4⟩

theorem locked_congr (s t : SATModule E) (cr : CRef) (ha : t.assigns = s.assigns)
    (hv : t.vardata = s.vardata) (hc : (t.ca cr).lits = (s.ca cr).lits) :
    t.locked cr = s.locked cr := by
  simp only [locked, value, Clause.get, ha, hv, hc]

/-- What `removeClause` of a clause that is not locked leaves as it is. -/
theorem removeClause_frame (s : SATModule E) (cr : CRef) (h : s.locked cr = false) :
    (s.removeClause cr).assigns = s.assigns ∧ (s.removeClause cr).vardata = s.vardata ∧
    (s.removeClause cr).watches = s.watches ∧
    (∀ cr', (s.removeClause cr).ca cr' = if cr' = cr then { s.ca cr with mark := 1 } else s.ca cr') := by
  obtain ⟨a1, a2, a3, a4⟩ := detachClause_frame s cr
  have hl : (s.detachClause cr).locked cr = false := by
    rw [locked_congr s (s.detachClause cr) cr a1 a2 (by rw [a3])]; exact h
  simp only [removeClause, hl, Bool.false_eq_true, if_false]
  refine ⟨a1, a2, a4, ?_⟩
  intro cr'
  by_cases hc : cr' = cr
  · subst hc; simp [a3]
  · simp [Function.update_noteq hc, hc, a3]

theorem reduceLoop_spec (low : CRef → Bool) (half : Nat) (ls : List CRef) :
    ∀ (i : Nat) (s : SATModule E),
      (reduceLoop low half i ls s).2.assigns = s.assigns ∧
      (reduceLoop low half i ls s).2.vardata = s.vardata ∧
      (reduceLoop low half i ls s).2.watches = s.watches ∧
      (∀ cr, ((reduceLoop low half i ls s).2.ca cr).lits = (s.ca cr).lits) ∧
      (∀ cr, (reduceLoop low half i ls s).2.ca cr ≠ s.ca cr →
        cr ∈ ls ∧ (s.ca cr).lits.length > 2 ∧ s.locked cr = false) ∧
      (∀ cr ∈ ls, cr ∉ (reduceLoop low half i ls s).1 →
        (s.ca cr).lits.length > 2 ∧ s.locked cr = false) ∧
      (∀ cr ∈ (reduceLoop low half i ls s).1, cr ∈ ls) := by
  induction ls with
  | nil =>
    intro i s
    simp [reduceLoop]
  | cons c rest ih =>
    intro i s
    unfold reduceLoop
    by_cases hrem : (s.ca c).lits.length > 2 ∧ s.locked c = false ∧ (i < half ∨ low c = true)
    · rw [if_pos hrem]
      obtain ⟨f1, f2, f3, f4⟩ := removeClause_frame s c hrem.2.1
      have flits : ∀ cr, ((s.removeClause c).ca cr).lits = (s.ca cr).lits := by
        intro cr; rw [f4]; split
        · rename_i h; rw [h]
        · rfl
      have flock : ∀ cr, (s.removeClause c).locked cr = s.locked cr :=
        fun cr => locked_congr s _ cr f1 f2 (flits cr)
      obtain ⟨h1, h2, h3, h4, h5, h6, h7⟩ := ih (i + 1) (s.removeClause c)
      refine ⟨h1.trans f1, h2.trans f2, h3.trans f3, fun cr => (h4 cr).trans (flits cr), ?_, ?_, ?_⟩
      · intro cr hne
        by_cases hcr : cr = c
        · subst hcr
          exact ⟨List.mem_cons_self _ _, hrem.1, hrem.2.1⟩
        · have hsame : (s.removeClause c).ca cr = s.ca cr := by rw [f4, if_neg hcr]
          obtain ⟨m, l, k⟩ := h5 cr (by rw [hsame]; exact hne)
          exact ⟨List.mem_cons_of_mem _ m, by rw [← flits cr]; exact l, by rw [← flock cr]; exact k⟩
      · intro cr hmem hnot
        rcases List.mem_cons.mp hmem with rfl | hmem
        · exact ⟨hrem.1, hrem.2.1⟩
        · obtain ⟨l, k⟩ := h6 cr hmem hnot
          exact ⟨by rw [← flits cr]; exact l, by rw [← flock cr]; exact k⟩
      · intro cr hmem
        exact List.mem_cons_of_mem _ (h7 cr hmem)
    · rw [if_neg hrem]
      obtain ⟨h1, h2, h3, h4, h5, h6, h7⟩ := ih (i + 1) s
      refine ⟨h1, h2, h3, h4, ?_, ?_, ?_⟩
      · intro cr hne
        obtain ⟨m, l, k⟩ := h5 cr hne
        exact ⟨List.mem_cons_of_mem _ m, l, k⟩
      · intro cr hmem hnot
        simp only [List.mem_cons, not_or] at hnot
        rcases List.mem_cons.mp hmem with rfl | hmem
        · exact absurd rfl hnot.1
        · exact h6 cr hmem hnot.2
      · intro cr hmem
        rcases List.mem_cons.mp hmem with rfl | hmem
        · exact List.mem_cons_self _ _
        · exact List.mem_cons_of_mem _ (h7 cr hmem)

theorem cleanAll_keeps (s : SATModule E) :
    s.cleanAll.learnts = s.learnts ∧ s.cleanAll.clauses = s.clauses ∧
    s.cleanAll.vardata = s.vardata ∧
    ∀ q, ∀ w ∈ s.watches q, (s.ca w.cref).mark ≠ 1 → w ∈ s.cleanAll.watches q := by
  have key : ∀ (L : List Lit) (t : SATModule E),
      (t.learnts = s.learnts ∧ t.clauses = s.clauses ∧ t.vardata = s.vardata ∧ t.ca = s.ca ∧
        ∀ q, ∀ w ∈ s.watches q, (s.ca w.cref).mark ≠ 1 → w ∈ t.watches q) →
      ((L.foldl (fun (t : SATModule E) idx =>
        if t.dirty idx then
          { t with
            watches := Function.update t.watches idx
              ((t.watches idx).filter (fun w => (t.ca w.cref).mark ≠ 1))
            dirty := Function.update t.dirty idx false }
        else t) t).learnts = s.learnts ∧
       (L.foldl (fun (t : SATModule E) idx =>
        if t.dirty idx then
          { t with
            watches := Function.update t.watches idx
              ((t.watches idx).filter (fun w => (t.ca w.cref).mark ≠ 1))
            dirty := Function.update t.dirty idx false }
        else t) t).clauses = s.clauses ∧
       (L.foldl (fun (t : SATModule E) idx =>
        if t.dirty idx then
          { t with
            watches := Function.update t.watches idx
              ((t.watches idx).filter (fun w => (t.ca w.cref).mark ≠ 1))
            dirty := Function.update t.dirty idx false }
        else t) t).vardata = s.vardata ∧
       ∀ q, ∀ w ∈ s.watches q, (s.ca w.cref).mark ≠ 1 →
        w ∈ (L.foldl (fun (t : SATModule E) idx =>
        if t.dirty idx then
          { t with
            watches := Function.update t.watches idx
              ((t.watches idx).filter (fun w => (t.ca w.cref).mark ≠ 1))
            dirty := Function.update t.dirty idx false }
        else t) t).watches q) := by
    intro L
    induction L with
    | nil => intro t ht; exact ⟨ht.1, ht.2.1, ht.2.2.1, ht.2.2.2.2⟩
    | cons a L ih =>
      intro t ht
      obtain ⟨h1, h2, h3, h4, h5⟩ := ht
      simp only [List.foldl_cons]
      apply ih
      split
      · refine ⟨h1, h2, h3, h4, ?_⟩
        intro q w hw hm
        simp only
        by_cases hq : q = a
        · subst hq
          rw [Function.update_same]
          apply List.mem_filter.mpr
          refine ⟨h5 _ w hw hm, ?_⟩
          rw [h4]
          simpa using hm
        · rw [Function.update_noteq hq]
          exact h5 q w hw hm
      · exact ⟨h1, h2, h3, h4, h5⟩
  exact key s.dirties s ⟨rfl, rfl, rfl, rfl, fun _ _ h _ => h⟩

/-- Claim C20: `reduceDB`, for every result of the sort of the learnt clauses, every outcome of
the comparisons of activities and whether or not garbage is collected, keeps every learnt clause
that has exactly two literals and every learnt clause that is locked: it is still in `learnts`,
its entry in the clause allocator is unchanged (in particular not marked as deleted), and its
watchers are still in the watch lists.  Every learnt clause that is no longer in `learnts`, and
every clause whose entry was changed, had more than two literals and was not locked. -/
theorem reduceDB_keeps_binary_and_locked (order : List CRef → List CRef) (low : CRef → Bool)
    (gc : Bool) (s : SATModule E) (hperm : (order s.learnts).Perm s.learnts)
    (_hne : s.learnts ≠ []) :
    (∀ cr ∈ s.learnts, ((s.ca cr).lits.length = 2 ∨ s.locked cr = true) →
      cr ∈ (reduceDB order low gc s).learnts ∧
      (reduceDB order low gc s).ca cr = s.ca cr ∧
      ∀ q, ∀ w ∈ s.watches q, w.cref = cr → (s.ca cr).mark ≠ 1 →
        w ∈ (reduceDB order low gc s).watches q) ∧
    (∀ cr ∈ s.learnts, cr ∉ (reduceDB order low gc s).learnts →
      (s.ca cr).lits.length > 2 ∧ s.locked cr = false) ∧
    (∀ cr, (reduceDB order low gc s).ca cr ≠ s.ca cr →
      cr ∈ s.learnts ∧ (s.ca cr).lits.length > 2 ∧ s.locked cr = false) := by
  obtain ⟨h1, h2, h3, h4, h5, h6, h7⟩ := reduceLoop_spec low ((order s.learnts).length / 2)
    (order s.learnts) 0 ({ s with learnts := order s.learnts } : SATModule E)
  have hlocked : ∀ cr, ({ s with learnts := order s.learnts } : SATModule E).locked cr
      = s.locked cr := fun cr => rfl
  -- the state before `checkGarbage`
  have hfinal : ∀ (t : SATModule E), (checkGarbage gc t).learnts = t.learnts ∧
      (checkGarbage gc t).ca = t.ca ∧
      ∀ q, ∀ w ∈ t.watches q, (t.ca w.cref).mark ≠ 1 → w ∈ (checkGarbage gc t).watches q := by
    intro t
    unfold checkGarbage garbageCollect
    cases gc with
    | false => exact ⟨rfl, rfl, fun _ _ h _ => h⟩
    | true =>
      obtain ⟨c1, -, -, c4⟩ := cleanAll_keeps t
      obtain ⟨-, -, -, -, c5, -⟩ := cleanAll_frame t
      exact ⟨c1, c5, c4⟩
  obtain ⟨g1, g2, g3⟩ := hfinal
    ({ (reduceLoop low ((order s.learnts).length / 2) 0 (order s.learnts)
        ({ s with learnts := order s.learnts } : SATModule E)).2 with
      learnts := (reduceLoop low ((order s.learnts).length / 2) 0 (order s.learnts)
        ({ s with learnts := order s.learnts } : SATModule E)).1 } : SATModule E)
  have hca : ∀ cr, (reduceDB order low gc s).ca cr
      = (reduceLoop low ((order s.learnts).length / 2) 0 (order s.learnts)
        ({ s with learnts := order s.learnts } : SATModule E)).2.ca cr := by
    intro cr
    unfold reduceDB
    simp only
    rw [g2]
  have hlearnts : (reduceDB order low gc s).learnts
      = (reduceLoop low ((order s.learnts).length / 2) 0 (order s.learnts)
        ({ s with learnts := order s.learnts } : SATModule E)).1 := by
    unfold reduceDB
    simp only
    rw [g1]
  have hkeep : ∀ cr, ((s.ca cr).lits.length = 2 ∨ s.locked cr = true) →
      (reduceDB order low gc s).ca cr = s.ca cr := by
    intro cr hcr
    by_contra hne
    rw [hca] at hne
    obtain ⟨-, hl, hk⟩ := h5 cr hne
    simp only at hl hk
    rw [hlocked] at hk
    rcases hcr with hcr | hcr
    · omega
    · rw [hcr] at hk; exact Bool.noConfusion hk
  refine ⟨?_, ?_, ?_⟩
  · intro cr hmem hcr
    refine ⟨?_, hkeep cr hcr, ?_⟩
    · rw [hlearnts]
      by_contra hnot
      obtain ⟨hl, hk⟩ := h6 cr (hperm.mem_iff.mpr hmem) hnot
      simp only at hl hk
      rw [hlocked] at hk
      rcases hcr with hcr | hcr
      · omega
      · rw [hcr] at hk; exact Bool.noConfusion hk
    · intro q w hw hwc hmark
      unfold reduceDB
      simp only
      apply g3
      · simp only
        rw [h3]
        exact hw
      · simp only
        rw [hwc, ← hca, hkeep cr hcr]
        exact hmark
  · intro cr hmem hnot
    rw [hlearnts] at hnot
    obtain ⟨hl, hk⟩ := h6 cr (hperm.mem_iff.mpr hmem) hnot
    simp only at hl hk
    rw [hlocked] at hk
    exact ⟨hl, hk⟩
  · intro cr hne
    rw [hca] at hne
    obtain ⟨hm, hl, hk⟩ := h5 cr hne
    simp only at hl hk
    rw [hlocked] at hk
    exact ⟨hperm.mem_iff.mp hm, hl, hk⟩

/-- Claim C19, witness: after the decision of the literal `0` at level 1, `cancelUntil( 0 )`
empties the trail and unassigns the variable `0`. -/
theorem cancelUntil_frame_witness :
    (decidedOnce.cancelUntil 0).decisionLevel = 0 ∧
    (decidedOnce.cancelUntil 0).trail = decidedOnce.trail.take (decidedOnce.trail_lim.getD 0 0) ∧
    (decidedOnce.cancelUntil 0).trail.length = decidedOnce.trail_lim.getD 0 0 ∧
    (∀ l ∈ (decidedOnce.cancelUntil 0).trail,
      (decidedOnce.cancelUntil 0).assigns l.var = decidedOnce.assigns l.var) ∧
    (∀ v, v ∉ (decidedOnce.trail.drop (decidedOnce.trail_lim.getD 0 0)).map Lit.var →
      (decidedOnce.cancelUntil 0).assigns v = decidedOnce.assigns v) ∧
    (∀ l ∈ decidedOnce.trail.drop (decidedOnce.trail_lim.getD 0 0),
      (decidedOnce.cancelUntil 0).assigns l.var = .l_Undef) ∧
    (decidedOnce.cancelUntil 0).qhead = (decidedOnce.cancelUntil 0).trail.length :=
  (cancelUntil_frame decidedOnce 0).1 (by decide) (by decide) (by decide)

/-- Claim C20, witness: with the learnt clauses `[0, 1]` and `[0, 1, 2]`, sorted as they are,
every activity below the limit and garbage collected. -/
theorem reduceDB_keeps_binary_and_locked_witness :
    (∀ cr ∈ twoLearnts.learnts,
      ((twoLearnts.ca cr).lits.length = 2 ∨ twoLearnts.locked cr = true) →
      cr ∈ (reduceDB id (fun _ => true) true twoLearnts).learnts ∧
      (reduceDB id (fun _ => true) true twoLearnts).ca cr = twoLearnts.ca cr ∧
      ∀ q, ∀ w ∈ twoLearnts.watches q, w.cref = cr → (twoLearnts.ca cr).mark ≠ 1 →
        w ∈ (reduceDB id (fun _ => true) true twoLearnts).watches q) ∧
    (∀ cr ∈ twoLearnts.learnts, cr ∉ (reduceDB id (fun _ => true) true twoLearnts).learnts →
      (twoLearnts.ca cr).lits.length > 2 ∧ twoLearnts.locked cr = false) ∧
    (∀ cr, (reduceDB id (fun _ => true) true twoLearnts).ca cr ≠ twoLearnts.ca cr →
      cr ∈ twoLearnts.learnts ∧ (twoLearnts.ca cr).lits.length > 2 ∧
        twoLearnts.locked cr = false) :=
  reduceDB_keeps_binary_and_locked id (fun _ => true) true twoLearnts (List.Perm.refl _)
    (by decide)

theorem reduceDB_example :
    (reduceDB id (fun _ => true) true twoLearnts).learnts = [0] ∧
    ((reduceDB id (fun _ => true) true twoLearnts).ca 1).mark = 1 ∧
    (reduceDB id (fun _ => true) true twoLearnts).watches (mkLit 0 true)
      = [⟨0, mkLit 1 false⟩] := by
  decide

/-! ## Invariants of the trail, the watch lists and the reasons -/

theorem value_neg_true (s : SATModule E) (l : Lit) :
    s.value l.neg = .l_True ↔ s.value l = .l_False := by
  unfold value Lit.neg
  cases s.assigns l.var <;> cases l.sign <;> simp [lbool.xor]

theorem value_neg_false (s : SATModule E) (l : Lit) :
    s.value l.neg = .l_False ↔ s.value l = .l_True := by
  unfold value Lit.neg
  cases s.assigns l.var <;> cases l.sign <;> simp [lbool.xor]

theorem value_undef (s : SATModule E) (l : Lit) :
    s.value l = .l_Undef ↔ s.assigns l.var = .l_Undef := by
  unfold value
  cases s.assigns l.var <;> cases l.sign <;> simp [lbool.xor]

theorem value_true_unique (s : SATModule E) (l l' : Lit) (hv : l.var = l'.var)
    (h : s.value l = .l_True) (h' : s.value l' = .l_True) : l = l' := by
  obtain ⟨v, b⟩ := l
  obtain ⟨v', b'⟩ := l'
  simp only at hv
  subst hv
  unfold value at h h'
  simp only at h h'
  cases hs : s.assigns v <;> rw [hs] at h h' <;> cases b <;> cases b' <;>
    simp [lbool.xor] at h h' ⊢

theorem value_false_neg_of_true (s : SATModule E) (l l' : Lit) (hv : l.var = l'.var)
    (h : s.value l = .l_False) (h' : s.value l' = .l_True) : l' = l.neg :=
  (value_true_unique s l.neg l' hv ((value_neg_true s l).mpr h) h').symm

theorem Lit.neg_var (l : Lit) : l.neg.var = l.var := rfl

theorem Lit.neg_injective {a b : Lit} (h : a.neg = b.neg) : a = b := by
  rw [← Lit.neg_neg a, h, Lit.neg_neg]

theorem Clause.get_cons_cons (a b : Lit) (r : List Lit) (lr : Bool) (m : Nat) :
    (Clause.mk (a :: b :: r) lr m).get 0 = a ∧ (Clause.mk (a :: b :: r) lr m).get 1 = b :=
  ⟨rfl, rfl⟩

theorem Clause.swapFalseLit_facts (c : Clause) (fl : Lit) (h : 2 ≤ c.lits.length) :
    (c.swapFalseLit fl).lits.Perm c.lits ∧ (c.swapFalseLit fl).mark = c.mark ∧
    (c.swapFalseLit fl).learnt = c.learnt ∧
    (c.swapFalseLit fl).lits.drop 2 = c.lits.drop 2 ∧
    (((c.swapFalseLit fl).get 0 = c.get 0 ∧ (c.swapFalseLit fl).get 1 = c.get 1) ∨
      ((c.swapFalseLit fl).get 0 = c.get 1 ∧ (c.swapFalseLit fl).get 1 = c.get 0)) ∧
    ((c.get 0 = fl ∨ c.get 1 = fl) → (c.swapFalseLit fl).get 1 = fl) ∧
    (c.get 0 ≠ fl → c.swapFalseLit fl = c) := by
  obtain ⟨lits, lr, m⟩ := c
  match lits, h with
  | a :: b :: r, _ =>
    unfold Clause.swapFalseLit
    by_cases h0 : (Clause.mk (a :: b :: r) lr m).get 0 = fl
    · rw [if_pos h0]
      have ha : a = fl := h0
      subst ha
      refine ⟨?_, rfl, rfl, rfl, Or.inr ⟨rfl, rfl⟩, fun _ => rfl, fun hne => absurd rfl hne⟩
      exact List.Perm.swap _ _ _
    · rw [if_neg h0]
      refine ⟨List.Perm.refl _, rfl, rfl, rfl, Or.inl ⟨rfl, rfl⟩, ?_, fun _ => rfl⟩
      intro hor
      rcases hor with hor | hor
      · exact absurd hor h0
      · exact hor

theorem List.set_perm_of_getD (r : List Lit) (i : Nat) (hi : i < r.length) (b d : Lit) :
    (r.getD i d :: r.set i b).Perm (b :: r) := by
  induction r generalizing i with
  | nil => simp at hi
  | cons x r ih =>
    cases i with
    | zero => simp only [List.getD_cons_zero, List.set_cons_zero]; exact List.Perm.swap _ _ _
    | succ i =>
      simp only [List.getD_cons_succ, List.set_cons_succ]
      have := ih i (by simpa using hi)
      exact (List.Perm.swap _ _ _).trans ((this.cons x).trans (List.Perm.swap _ _ _))

theorem Clause.newWatch_facts (c : Clause) (k : Nat) (fl : Lit) (h2 : 2 ≤ k)
    (hk : k < c.lits.length) (h1 : c.get 1 = fl) :
    (c.newWatch k fl).lits.Perm c.lits ∧ (c.newWatch k fl).mark = c.mark ∧
    (c.newWatch k fl).learnt = c.learnt ∧
    (c.newWatch k fl).get 0 = c.get 0 ∧ (c.newWatch k fl).get 1 = c.get k := by
  obtain ⟨lits, lr, m⟩ := c
  match lits, hk with
  | [], hk => exact absurd hk (by simp)
  | [_], hk => exact absurd hk (by simp only [List.length_singleton]; omega)
  | a :: b :: r, hk =>
    obtain ⟨j, rfl⟩ : ∃ j, k = j + 2 := ⟨k - 2, by omega⟩
    have hb : b = fl := h1
    subst hb
    have hj : j < r.length := by simpa using hk
    refine ⟨?_, rfl, rfl, rfl, rfl⟩
    show (((a :: b :: r).set 1 ((a :: b :: r).getD (j + 2) ⟨0, false⟩)).set (j + 2) b).Perm
      (a :: b :: r)
    simp only [List.set_cons_succ, List.set_cons_zero, List.getD_cons_succ]
    exact (List.set_perm_of_getD r j hj b _).cons a

theorem findNewWatch_some (s : SATModule E) (L : List Lit) :
    ∀ (n k : Nat), findNewWatch s L n = some k →
      n ≤ k ∧ k < n + L.length ∧ s.value (L.getD (k - n) ⟨0, false⟩) ≠ .l_False := by
  induction L with
  | nil => intro n k h; simp [findNewWatch] at h
  | cons x L ih =>
    intro n k h
    unfold findNewWatch at h
    split at h
    · rename_i hx
      have hk : n = k := by simpa using h
      subst hk
      simpa using hx
    · obtain ⟨h1, h2, h3⟩ := ih (n + 1) k h
      refine ⟨by omega, by simp only [List.length_cons]; omega, ?_⟩
      have : k - n = (k - (n + 1)) + 1 := by omega
      rw [this, List.getD_cons_succ]
      exact h3

theorem findNewWatch_none (s : SATModule E) (L : List Lit) :
    ∀ (n : Nat), findNewWatch s L n = none → ∀ l ∈ L, s.value l = .l_False := by
  induction L with
  | nil => intro n _ l hl; simp at hl
  | cons x L ih =>
    intro n h l hl
    unfold findNewWatch at h
    split at h
    · simp at h
    · rename_i hx
      rcases List.mem_cons.mp hl with rfl | hl
      · simpa using hx
      · exact ih (n + 1) h l hl

theorem Clause.getD_drop_two (c : Clause) (k : Nat) (h2 : 2 ≤ k) :
    (c.lits.drop 2).getD (k - 2) ⟨0, false⟩ = c.get k := by
  unfold Clause.get
  obtain ⟨j, rfl⟩ : ∃ j, k = j + 2 := ⟨k - 2, by omega⟩
  match c.lits with
  | [] => simp
  | [a] => simp
  | a :: b :: r => simp

theorem Clause.lits_eq (c : Clause) (h : 2 ≤ c.lits.length) :
    c.lits = c.get 0 :: c.get 1 :: c.lits.drop 2 := by
  obtain ⟨lits, lr, m⟩ := c
  match lits, h with
  | a :: b :: r, _ => rfl

theorem levelAt_le (lim : List Nat) (i : Nat) : levelAt lim i ≤ lim.length :=
  List.length_filter_le _ _

theorem levelAt_of_le (lim : List Nat) (i : Nat) (h : ∀ d ∈ lim, d ≤ i) :
    levelAt lim i = lim.length := by
  unfold levelAt
  rw [List.filter_eq_self.mpr]
  intro d hd
  simpa using h d hd

theorem mem_trail_of_true (s : SATModule E) (h : TrailOK s) (l : Lit)
    (hl : s.value l = .l_True) : l ∈ s.trail := by
  have ha : s.assigns l.var ≠ .l_Undef := by
    intro hu
    rw [(value_undef s l).mpr hu] at hl
    exact lbool.noConfusion hl
  obtain ⟨l', hl', hv⟩ := List.mem_map.mp (h.assigned l.var ha)
  have := value_true_unique s l' l hv (h.trail_true l' hl') hl
  rw [← this]
  exact hl'

theorem neg_mem_trail_of_false (s : SATModule E) (h : TrailOK s) (l : Lit)
    (hl : s.value l = .l_False) : l.neg ∈ s.trail :=
  mem_trail_of_true s h l.neg ((value_neg_true s l).mpr hl)

theorem level_le_decisionLevel (s : SATModule E) (h : TrailOK s) (hL : LevelOK s) (l : Lit)
    (hl : s.value l = .l_True) : (s.vardata l.var).level ≤ s.decisionLevel := by
  obtain ⟨i, hi⟩ := List.getElem?_of_mem (mem_trail_of_true s h l hl)
  rw [hL.level_eq i l hi]
  exact levelAt_le _ _

theorem TrailOK_uncheckedEnqueue (s : SATModule E) (l : Lit) (src : Option CRef)
    (h : TrailOK s) (hl : s.value l = .l_Undef) : TrailOK (s.uncheckedEnqueue l src) := by
  have hu : s.assigns l.var = .l_Undef := (value_undef s l).mp hl
  have hnot : l.var ∉ s.trail.map Lit.var := by
    intro hm
    obtain ⟨l', hl', hv⟩ := List.mem_map.mp hm
    have := h.trail_true l' hl'
    rw [value, hv, hu] at this
    simp [lbool.xor] at this
  refine ⟨?_, ?_, ?_⟩
  · intro l' hl'
    simp only [uncheckedEnqueue, List.mem_append, List.mem_singleton] at hl'
    rcases hl' with hl' | rfl
    · have hne : l'.var ≠ l.var := fun he => hnot (he ▸ List.mem_map_of_mem _ hl')
      simp only [uncheckedEnqueue, value, Function.update_noteq hne]
      exact h.trail_true l' hl'
    · simp only [uncheckedEnqueue, value, Function.update_same]
      cases l'.sign <;> simp [lbool.ofBool, lbool.xor]
  · intro v hv
    simp only [uncheckedEnqueue, List.map_append, List.map_cons, List.map_nil, List.mem_append,
      List.mem_singleton] at hv ⊢
    by_cases he : v = l.var
    · exact Or.inr he
    · rw [Function.update_noteq he] at hv
      exact Or.inl (h.assigned v hv)
  · simp only [uncheckedEnqueue, List.map_append, List.map_cons, List.map_nil]
    refine List.nodup_append.mpr ⟨h.nodup, by simp, ?_⟩
    intro a ha hb
    simp only [List.mem_singleton] at hb
    subst hb
    exact hnot ha

theorem value_uncheckedEnqueue (s : SATModule E) (l : Lit) (src : Option CRef) (l' : Lit)
    (hl : s.value l = .l_Undef) (h : s.value l' ≠ .l_Undef) :
    (s.uncheckedEnqueue l src).value l' = s.value l' ∧
      (s.uncheckedEnqueue l src).vardata l'.var = s.vardata l'.var := by
  have hne : l'.var ≠ l.var := by
    intro he
    apply h
    rw [value_undef, he]
    exact (value_undef s l).mp hl
  simp only [uncheckedEnqueue, value, Function.update_noteq hne]
  exact ⟨trivial, trivial⟩

theorem LevelOK_uncheckedEnqueue (s : SATModule E) (l : Lit) (src : Option CRef)
    (hT : TrailOK s) (h : LevelOK s) (hl : s.value l = .l_Undef) :
    LevelOK (s.uncheckedEnqueue l src) := by
  refine ⟨h.lim_sorted, ?_, ?_⟩
  · intro d hd
    have := h.lim_le d hd
    simp only [uncheckedEnqueue, List.length_append, List.length_singleton]
    omega
  · intro i l' hi
    simp only [uncheckedEnqueue] at hi ⊢
    by_cases hlt : i < s.trail.length
    · rw [List.getElem?_append_left hlt] at hi
      have hmem : l' ∈ s.trail := List.getElem?_mem hi
      have hne : l'.var ≠ l.var := by
        intro he
        have := hT.trail_true l' hmem
        rw [value, he, (value_undef s l).mp hl] at this
        simp [lbool.xor] at this
      rw [Function.update_noteq hne]
      exact h.level_eq i l' hi
    · have hi2 : i = s.trail.length := by
        by_contra hne
        rw [List.getElem?_eq_none (by simp only [List.length_append, List.length_singleton]; omega)]
          at hi
        exact Option.noConfusion hi
      subst hi2
      simp only [List.getElem?_concat_length, Option.some.injEq] at hi
      subst hi
      rw [Function.update_same]
      simp only [decisionLevel]
      exact (levelAt_of_le _ _ h.lim_le).symm

theorem ReasonOK_uncheckedEnqueue (s : SATModule E) (l : Lit) (src : Option CRef)
    (hT : TrailOK s) (h : ReasonOK s) (hl : s.value l = .l_Undef)
    (hsrc : ∀ cr, src = some cr → 1 ≤ (s.ca cr).lits.length ∧ (s.ca cr).get 0 = l ∧
      ∀ l' ∈ (s.ca cr).lits.tail, l'.var ∈ s.trail.map Lit.var) :
    ReasonOK (s.uncheckedEnqueue l src) := by
  intro i l' cr hi hr
  simp only [uncheckedEnqueue] at hi hr ⊢
  by_cases hlt : i < s.trail.length
  · rw [List.getElem?_append_left hlt] at hi
    have hmem : l' ∈ s.trail := List.getElem?_mem hi
    have hne : l'.var ≠ l.var := by
      intro he
      have := hT.trail_true l' hmem
      rw [value, he, (value_undef s l).mp hl] at this
      simp [lbool.xor] at this
    rw [Function.update_noteq hne] at hr
    obtain ⟨h1, h2, h3⟩ := h i l' cr hi hr
    refine ⟨h1, h2, ?_⟩
    intro l'' hl''
    rw [List.take_append_of_le_length (by omega)]
    exact h3 l'' hl''
  · have hi2 : i = s.trail.length := by
      by_contra hne
      rw [List.getElem?_eq_none (by simp only [List.length_append, List.length_singleton]; omega)]
        at hi
      exact Option.noConfusion hi
    subst hi2
    simp only [List.getElem?_concat_length, Option.some.injEq] at hi
    subst hi
    rw [Function.update_same] at hr
    simp only at hr
    obtain ⟨h1, h2, h3⟩ := hsrc cr hr
    refine ⟨h1, h2, ?_⟩
    intro l'' hl''
    rw [List.take_left]
    exact h3 l'' hl''

theorem ReasonOK_storeClause (s : SATModule E) (cr : CRef) (c' : Clause) (h : ReasonOK s)
    (hsafe : ∀ (i : Nat) (l : Lit), s.trail[i]? = some l →
      (s.vardata l.var).reason = some cr → c' = s.ca cr) :
    ReasonOK (s.storeClause cr c') := by
  intro i l cr' hi hr
  have := h i l cr' hi hr
  simp only [storeClause] at hi hr ⊢
  by_cases hc : cr' = cr
  · subst hc
    rw [Function.update_same, hsafe i l hi hr]
    exact this
  · rw [Function.update_noteq hc]
    exact this

theorem mem_map_cref {L : List Watcher} {cr : CRef} (h : cr ∈ L.map Watcher.cref) :
    ∃ w ∈ L, w.cref = cr := by
  obtain ⟨w, hw, rfl⟩ := List.mem_map.mp h
  exact ⟨w, hw, rfl⟩

/-- A clause is replaced by a clause with the same literals and the same first two literals (in
either order), and watchers keep their clauses: the watch invariant is kept. -/
theorem WatchOK_store (t t' : SATModule E) (cr : CRef) (c' : Clause) (h : WatchOK t)
    (hca : t'.ca = Function.update t.ca cr c')
    (hclauses : t'.clauses = t.clauses) (hlearnts : t'.learnts = t.learnts)
    (hperm : c'.lits.Perm (t.ca cr).lits) (hmark : c'.mark = (t.ca cr).mark)
    (hset : (c'.get 0 = (t.ca cr).get 0 ∧ c'.get 1 = (t.ca cr).get 1) ∨
      (c'.get 0 = (t.ca cr).get 1 ∧ c'.get 1 = (t.ca cr).get 0))
    (hW : ∀ q, (t'.watches q).map Watcher.cref = (t.watches q).map Watcher.cref)
    (hB : ∀ q, ∀ w ∈ t'.watches q, w ∈ t.watches q ∨ (w.cref = cr ∧ w.blocker ∈ c'.lits)) :
    WatchOK t' := by
  have hget : ∀ cr', cr' ≠ cr → t'.ca cr' = t.ca cr' := by
    intro cr' hne; rw [hca, Function.update_noteq hne]
  have hself : t'.ca cr = c' := by rw [hca, Function.update_same]
  have hold : ∀ q, ∀ w ∈ t'.watches q, ∃ w0 ∈ t.watches q, w0.cref = w.cref := by
    intro q w hw
    apply mem_map_cref
    rw [← hW]
    exact List.mem_map_of_mem _ hw
  have hnew : ∀ q, ∀ w ∈ t.watches q, ∃ w0 ∈ t'.watches q, w0.cref = w.cref := by
    intro q w hw
    apply mem_map_cref
    rw [hW]
    exact List.mem_map_of_mem _ hw
  refine ⟨?_, ?_, ?_, ?_, ?_⟩
  · intro cr'
    by_cases hc : cr' = cr
    · subst hc; rw [hself]; exact hperm.nodup_iff.mpr (h.lits_nodup _)
    · rw [hget _ hc]; exact h.lits_nodup _
  · intro q w hw
    obtain ⟨w0, hw0, hcr⟩ := hold q w hw
    have := h.watch_lit q w0 hw0
    rw [hcr] at this
    by_cases hc : w.cref = cr
    · rw [hc, hself]
      rw [hc] at this
      refine ⟨by rw [hperm.length_eq]; exact this.1, ?_⟩
      rcases hset with ⟨e0, e1⟩ | ⟨e0, e1⟩
      · rw [e0, e1]; exact this.2
      · rw [e0, e1]; exact this.2.symm
    · rw [hget _ hc]; exact this
  · intro q w hw
    rcases hB q w hw with hw0 | ⟨hc, hb⟩
    · have := h.blocker_mem q w hw0
      by_cases hc : w.cref = cr
      · rw [hc, hself]; rw [hc] at this; exact hperm.mem_iff.mpr this
      · rw [hget _ hc]; exact this
    · rw [hc, hself]; exact hb
  · intro q
    rw [hW]
    exact h.watch_nodup q
  · intro cr' hcr'
    rw [hclauses, hlearnts] at hcr'
    obtain ⟨hsz, hatt⟩ := h.attached cr' hcr'
    refine ⟨?_, ?_⟩
    · by_cases hc : cr' = cr
      · subst hc
        rw [hself, hperm.length_eq]
        exact hsz
      · rw [hget _ hc]
        exact hsz
    intro hm'
    have hm : (t.ca cr').mark ≠ 1 := by
      by_cases hc : cr' = cr
      · subst hc
        rw [hself, hmark] at hm'
        exact hm'
      · rw [hget _ hc] at hm'
        exact hm'
    obtain ⟨⟨w0, hw0, hc0⟩, ⟨w1, hw1, hc1⟩⟩ := hatt hm
    by_cases hc : cr' = cr
    · subst hc
      rw [hself]
      refine ⟨?_, ?_⟩
      · rcases hset with ⟨e0, _⟩ | ⟨e0, _⟩
        · rw [e0]
          obtain ⟨w, hw, hwc⟩ := hnew _ w0 hw0
          exact ⟨w, hw, hwc.trans hc0⟩
        · rw [e0]
          obtain ⟨w, hw, hwc⟩ := hnew _ w1 hw1
          exact ⟨w, hw, hwc.trans hc1⟩
      · rcases hset with ⟨_, e1⟩ | ⟨_, e1⟩
        · rw [e1]
          obtain ⟨w, hw, hwc⟩ := hnew _ w1 hw1
          exact ⟨w, hw, hwc.trans hc1⟩
        · rw [e1]
          obtain ⟨w, hw, hwc⟩ := hnew _ w0 hw0
          exact ⟨w, hw, hwc.trans hc0⟩
    · rw [hget _ hc]
      refine ⟨?_, ?_⟩
      · obtain ⟨w, hw, hwc⟩ := hnew _ w0 hw0
        exact ⟨w, hw, hwc.trans hc0⟩
      · obtain ⟨w, hw, hwc⟩ := hnew _ w1 hw1
        exact ⟨w, hw, hwc.trans hc1⟩

/-- The watcher `w` of the list of `p` moves to the list of the complement of the new second
literal `c[k]` of its clause: the watch invariant is kept. -/
theorem WatchOK_move (t t' : SATModule E) (p : Lit) (w : Watcher) (kept rest : List Watcher)
    (k : Nat) (b : Lit) (h : WatchOK t)
    (hp : t.watches p = kept ++ w :: rest)
    (h1 : (t.ca w.cref).get 1 = p.neg) (h2 : 2 ≤ k) (hk : k < (t.ca w.cref).lits.length)
    (hb : b ∈ (t.ca w.cref).lits)
    (hca : t'.ca = Function.update t.ca w.cref ((t.ca w.cref).newWatch k p.neg))
    (hclauses : t'.clauses = t.clauses) (hlearnts : t'.learnts = t.learnts)
    (hW : t'.watches = Function.update (Function.update t.watches ((t.ca w.cref).get k).neg
      (t.watches ((t.ca w.cref).get k).neg ++ [⟨w.cref, b⟩])) p (kept ++ rest)) :
    WatchOK t' := by
  obtain ⟨nperm, nmark, -, n0, n1⟩ := Clause.newWatch_facts (t.ca w.cref) k p.neg h2 hk h1
  have hnd := h.lits_nodup w.cref
  have hlen2 : 2 ≤ (t.ca w.cref).lits.length := by omega
  -- the literals at the positions 0, 1 and k differ
  have hget : ∀ i j, i < (t.ca w.cref).lits.length → j < (t.ca w.cref).lits.length →
      (t.ca w.cref).get i = (t.ca w.cref).get j → i = j := by
    intro i j hi hj he
    unfold Clause.get at he
    rw [List.getD_eq_getElem _ _ hi, List.getD_eq_getElem _ _ hj] at he
    exact (List.Nodup.getElem_inj_iff hnd).mp he
  have hk0 : (t.ca w.cref).get 0 ≠ (t.ca w.cref).get k := fun he => by
    have := hget 0 k (by omega) hk he; omega
  have hk1 : (t.ca w.cref).get 1 ≠ (t.ca w.cref).get k := fun he => by
    have := hget 1 k (by omega) hk he; omega
  have h01 : (t.ca w.cref).get 0 ≠ (t.ca w.cref).get 1 := fun he => by
    have := hget 0 1 (by omega) (by omega) he; omega
  have hqp : ((t.ca w.cref).get k).neg ≠ p := by
    intro he
    apply hk1
    rw [h1, ← he, Lit.neg_neg]
  have hca' : ∀ cr', cr' ≠ w.cref → t'.ca cr' = t.ca cr' := by
    intro cr' hne; rw [hca, Function.update_noteq hne]
  have hself : t'.ca w.cref = (t.ca w.cref).newWatch k p.neg := by
    rw [hca, Function.update_same]
  have hWp : t'.watches p = kept ++ rest := by rw [hW, Function.update_same]
  have hWq : t'.watches ((t.ca w.cref).get k).neg
      = t.watches ((t.ca w.cref).get k).neg ++ [⟨w.cref, b⟩] := by
    rw [hW, Function.update_noteq hqp, Function.update_same]
  have hWo : ∀ q, q ≠ p → q ≠ ((t.ca w.cref).get k).neg → t'.watches q = t.watches q := by
    intro q hq1 hq2
    rw [hW, Function.update_noteq hq1, Function.update_noteq hq2]
  -- the watcher `w` is the only one of its clause in the list of `p`
  have hpnd := h.watch_nodup p
  rw [hp, List.map_append, List.map_cons] at hpnd
  have huniq : ∀ w0, w0 ∈ kept ++ rest → w0.cref ≠ w.cref := by
    intro w0 hw0 he
    rcases List.mem_append.mp hw0 with hk' | hr
    · have hd := (List.nodup_append.mp hpnd).2.2
      exact hd (List.mem_map_of_mem _ hk') (by rw [he]; exact List.mem_cons_self _ _)
    · have hd := (List.nodup_cons.mp (List.nodup_append.mp hpnd).2.1).1
      apply hd
      rw [← he]
      exact List.mem_map_of_mem _ hr
  have hsub : ∀ w0, w0 ∈ kept ++ rest → w0 ∈ t.watches p := by
    intro w0 hw0
    rw [hp]
    rcases List.mem_append.mp hw0 with hk' | hr
    · exact List.mem_append_left _ hk'
    · exact List.mem_append_right _ (List.mem_cons_of_mem _ hr)
  -- no watcher of the clause is in the list of the complement of `c[k]`
  have hnotq : ∀ w0 ∈ t.watches ((t.ca w.cref).get k).neg, w0.cref ≠ w.cref := by
    intro w0 hw0 he
    have := (h.watch_lit _ w0 hw0).2
    rw [he, Lit.neg_neg] at this
    rcases this with e | e
    · exact hk0 e
    · exact hk1 e
  -- membership in the new lists
  have hmem : ∀ q, ∀ w0 ∈ t'.watches q,
      (w0 ∈ t.watches q ∧ w0.cref ≠ w.cref) ∨
      (w0 ∈ t.watches q ∧ q ≠ p ∧ q ≠ ((t.ca w.cref).get k).neg) ∨
      (q = ((t.ca w.cref).get k).neg ∧ w0 = ⟨w.cref, b⟩) := by
    intro q w0 hw0
    by_cases hq1 : q = p
    · subst hq1
      rw [hWp] at hw0
      exact Or.inl ⟨hsub w0 hw0, huniq w0 hw0⟩
    · by_cases hq2 : q = ((t.ca w.cref).get k).neg
      · subst hq2
        rw [hWq] at hw0
        rcases List.mem_append.mp hw0 with hw0 | hw0
        · exact Or.inl ⟨hw0, hnotq w0 hw0⟩
        · exact Or.inr (Or.inr ⟨rfl, by simpa using hw0⟩)
      · rw [hWo q hq1 hq2] at hw0
        exact Or.inr (Or.inl ⟨hw0, hq1, hq2⟩)
  have hkeep : ∀ q, ∀ w0 ∈ t.watches q, w0.cref ≠ w.cref → w0 ∈ t'.watches q := by
    intro q w0 hw0 hne
    by_cases hq1 : q = p
    · subst hq1
      rw [hWp]
      rw [hp] at hw0
      rcases List.mem_append.mp hw0 with hk' | hr
      · exact List.mem_append_left _ hk'
      · rcases List.mem_cons.mp hr with rfl | hr
        · exact absurd rfl hne
        · exact List.mem_append_right _ hr
    · by_cases hq2 : q = ((t.ca w.cref).get k).neg
      · subst hq2
        rw [hWq]
        exact List.mem_append_left _ hw0
      · rw [hWo q hq1 hq2]; exact hw0
  refine ⟨?_, ?_, ?_, ?_, ?_⟩
  · intro cr'
    by_cases hc : cr' = w.cref
    · rw [hc, hself]; exact nperm.nodup_iff.mpr hnd
    · rw [hca' _ hc]; exact h.lits_nodup _
  · intro q w0 hw0
    rcases hmem q w0 hw0 with ⟨hin, hne⟩ | ⟨hin, hq1, hq2⟩ | ⟨hq, hw0e⟩
    · rw [hca' _ hne]; exact h.watch_lit q w0 hin
    · by_cases hc : w0.cref = w.cref
      · have := h.watch_lit q w0 hin
        rw [hc] at this ⊢
        rw [hself, n0, n1]
        refine ⟨by rw [nperm.length_eq]; exact this.1, Or.inl ?_⟩
        rcases this.2 with e | e
        · exact e
        · exfalso
          apply hq1
          apply Lit.neg_injective
          rw [← e, h1]
      · rw [hca' _ hc]; exact h.watch_lit q w0 hin
    · subst hw0e
      subst hq
      simp only
      rw [hself, n1, Lit.neg_neg]
      exact ⟨by rw [nperm.length_eq]; exact hlen2, Or.inr rfl⟩
  · intro q w0 hw0
    rcases hmem q w0 hw0 with ⟨hin, hne⟩ | ⟨hin, -, -⟩ | ⟨-, hw0e⟩
    · rw [hca' _ hne]; exact h.blocker_mem q w0 hin
    · by_cases hc : w0.cref = w.cref
      · have := h.blocker_mem q w0 hin
        rw [hc] at this ⊢
        rw [hself]
        exact nperm.mem_iff.mpr this
      · rw [hca' _ hc]; exact h.blocker_mem q w0 hin
    · subst hw0e
      simp only
      rw [hself]
      exact nperm.mem_iff.mpr hb
  · intro q
    by_cases hq1 : q = p
    · subst hq1
      rw [hWp, List.map_append]
      have := List.nodup_append.mp hpnd
      refine List.nodup_append.mpr ⟨this.1, (List.nodup_cons.mp this.2.1).2, ?_⟩
      intro a ha hb'
      exact this.2.2 ha (List.mem_cons_of_mem _ hb')
    · by_cases hq2 : q = ((t.ca w.cref).get k).neg
      · subst hq2
        rw [hWq, List.map_append]
        refine List.nodup_append.mpr ⟨h.watch_nodup _, by simp, ?_⟩
        intro a ha hb'
        simp only [List.map_cons, List.map_nil, List.mem_singleton] at hb'
        subst hb'
        obtain ⟨w0, hw0, hc⟩ := mem_map_cref ha
        exact hnotq w0 hw0 hc
      · rw [hWo q hq1 hq2]; exact h.watch_nodup q
  · intro cr' hcr'
    rw [hclauses, hlearnts] at hcr'
    obtain ⟨hsz, hatt⟩ := h.attached cr' hcr'
    refine ⟨?_, ?_⟩
    · by_cases hc : cr' = w.cref
      · subst hc
        rw [hself, nperm.length_eq]
        exact hsz
      · rw [hca' _ hc]
        exact hsz
    intro hm'
    have hm : (t.ca cr').mark ≠ 1 := by
      by_cases hc : cr' = w.cref
      · subst hc
        rw [hself, nmark] at hm'
        exact hm'
      · rw [hca' _ hc] at hm'
        exact hm'
    obtain ⟨⟨w0, hw0, hc0⟩, ⟨w1, hw1, hc1⟩⟩ := hatt hm
    by_cases hc : cr' = w.cref
    · subst hc
      rw [hself, n0, n1]
      refine ⟨?_, ?_⟩
      · refine ⟨w0, ?_, hc0⟩
        have hq1 : ((t.ca w.cref).get 0).neg ≠ p := by
          intro he
          apply h01
          rw [h1, ← he, Lit.neg_neg]
        have hq2 : ((t.ca w.cref).get 0).neg ≠ ((t.ca w.cref).get k).neg :=
          fun he => hk0 (Lit.neg_injective he)
        rw [hWo _ hq1 hq2]
        exact hw0
      · refine ⟨⟨w.cref, b⟩, ?_, rfl⟩
        rw [hWq]
        exact List.mem_append_right _ (List.mem_singleton_self _)
    · rw [hca' _ hc]
      exact ⟨⟨w0, hkeep _ w0 hw0 (by rw [hc0]; exact hc), hc0⟩,
        ⟨w1, hkeep _ w1 hw1 (by rw [hc1]; exact hc), hc1⟩⟩

theorem propagateWatches_cases (p : Lit) (w : Watcher) (rest kept : List Watcher)
    (confl : Option CRef) (s : SATModule E) :
    (s.value w.blocker = .l_True ∧
      propagateWatches p (w :: rest) kept confl s = propagateWatches p rest (kept ++ [w]) confl s) ∨
    (s.value (((s.ca w.cref).swapFalseLit p.neg).get 0) = .l_True ∧
      propagateWatches p (w :: rest) kept confl s
        = propagateWatches p rest (kept ++ [⟨w.cref, ((s.ca w.cref).swapFalseLit p.neg).get 0⟩])
            confl (s.storeClause w.cref ((s.ca w.cref).swapFalseLit p.neg))) ∨
    (∃ k, s.value (((s.ca w.cref).swapFalseLit p.neg).get 0) ≠ .l_True ∧
      findNewWatch s (((s.ca w.cref).swapFalseLit p.neg).lits.drop 2) 2 = some k ∧
      propagateWatches p (w :: rest) kept confl s
        = propagateWatches p rest kept confl
            (((s.storeClause w.cref ((s.ca w.cref).swapFalseLit p.neg)).storeClause w.cref
              (((s.ca w.cref).swapFalseLit p.neg).newWatch k p.neg)).pushWatcher
                ((((s.ca w.cref).swapFalseLit p.neg).newWatch k p.neg).get 1).neg
                ⟨w.cref, ((s.ca w.cref).swapFalseLit p.neg).get 0⟩)) ∨
    (s.value (((s.ca w.cref).swapFalseLit p.neg).get 0) = .l_False ∧
      findNewWatch s (((s.ca w.cref).swapFalseLit p.neg).lits.drop 2) 2 = none ∧
      propagateWatches p (w :: rest) kept confl s
        = (kept ++ [⟨w.cref, ((s.ca w.cref).swapFalseLit p.neg).get 0⟩] ++ rest, some w.cref,
            { s.storeClause w.cref ((s.ca w.cref).swapFalseLit p.neg) with
              qhead := s.trail.length })) ∨
    (s.value (((s.ca w.cref).swapFalseLit p.neg).get 0) = .l_Undef ∧
      findNewWatch s (((s.ca w.cref).swapFalseLit p.neg).lits.drop 2) 2 = none ∧
      propagateWatches p (w :: rest) kept confl s
        = propagateWatches p rest (kept ++ [⟨w.cref, ((s.ca w.cref).swapFalseLit p.neg).get 0⟩])
            confl ((s.storeClause w.cref ((s.ca w.cref).swapFalseLit p.neg)).uncheckedEnqueue
              (((s.ca w.cref).swapFalseLit p.neg).get 0) (some w.cref))) := by
  have hval : ∀ (c : Clause) (l : Lit), (s.storeClause w.cref c).value l = s.value l :=
    fun _ _ => rfl
  have hfind : ∀ (c : Clause) (L : List Lit) (n : Nat),
      findNewWatch (s.storeClause w.cref c) L n = findNewWatch s L n := by
    intro c L
    induction L with
    | nil => intro n; rfl
    | cons x L ih => intro n; simp only [findNewWatch, hval, ih]
  rw [propagateWatches]
  by_cases h1 : s.value w.blocker = .l_True
  · left
    exact ⟨h1, by rw [if_pos h1]⟩
  · right
    rw [if_neg h1]
    simp only []
    by_cases h2 : ((s.ca w.cref).swapFalseLit p.neg).get 0 ≠ w.blocker ∧
        (s.storeClause w.cref ((s.ca w.cref).swapFalseLit p.neg)).value
          (((s.ca w.cref).swapFalseLit p.neg).get 0) = .l_True
    · left
      exact ⟨h2.2, by rw [if_pos h2]⟩
    · right
      rw [if_neg h2]
      have hnt : s.value (((s.ca w.cref).swapFalseLit p.neg).get 0) ≠ .l_True := by
        intro hv
        apply h2
        exact ⟨fun hb => h1 (hb ▸ hv), hv⟩
      rw [hfind]
      cases h3 : findNewWatch s (((s.ca w.cref).swapFalseLit p.neg).lits.drop 2) 2 with
      | some k =>
        left
        exact ⟨k, hnt, rfl, rfl⟩
      | none =>
        right
        simp only []
        by_cases h4 : (s.storeClause w.cref ((s.ca w.cref).swapFalseLit p.neg)).value
            (((s.ca w.cref).swapFalseLit p.neg).get 0) = .l_False
        · left
          rw [if_pos h4]
          exact ⟨h4, trivial, rfl⟩
        · right
          rw [if_neg h4]
          refine ⟨?_, trivial, rfl⟩
          rw [hval] at h4
          cases hv : s.value (((s.ca w.cref).swapFalseLit p.neg).get 0) with
          | l_Undef => rfl
          | l_False => exact absurd hv h4
          | l_True => exact absurd hv hnt

/-- The facts the loop of `propagate` has about the watcher it visits. -/
theorem LoopInv.current {P : Prop} {p : Lit} {ip n0 : Nat} {w : Watcher} {rest kept : List Watcher}
    {s : SATModule E} (h : LoopInv P p ip n0 (w :: rest) kept s) :
    s.value p = .l_True ∧ s.value p.neg = .l_False ∧ 2 ≤ (s.ca w.cref).lits.length ∧
    ((s.ca w.cref).get 0 = p.neg ∨ (s.ca w.cref).get 1 = p.neg) ∧
    w.blocker ∈ (s.ca w.cref).lits ∧
    (s.vardata p.var).level = s.decisionLevel ∧
    (∀ (i : Nat) (l : Lit), s.trail[i]? = some l →
      (s.vardata l.var).reason = some w.cref → s.value ((s.ca w.cref).get 0) = .l_True) := by
  have hp : s.value p = .l_True := h.trailOK.trail_true p (List.getElem?_mem h.p_at)
  have hw : w ∈ (s.setWatches p (kept ++ w :: rest)).watches p := by
    simp [setWatches]
  obtain ⟨hsz, hlit⟩ := h.watchOK.watch_lit p w hw
  have hb := h.watchOK.blocker_mem p w hw
  refine ⟨hp, (value_neg_false s p).mpr hp, hsz, hlit, hb, h.queue_level ip p (Nat.le_refl _) h.p_at,
    ?_⟩
  intro i l hi hr
  obtain ⟨-, h0, -⟩ := h.reasonOK i l w.cref hi hr
  rw [h0]
  exact h.trailOK.trail_true l (List.getElem?_mem hi)

theorem LoopInv.keep {P : Prop} {p : Lit} {ip n0 : Nat} {w : Watcher} {rest kept : List Watcher}
    {s : SATModule E} (h : LoopInv P p ip n0 (w :: rest) kept s)
    (htrue : ∃ l ∈ (s.ca w.cref).lits, s.value l = .l_True) :
    LoopInv P p ip n0 rest (kept ++ [w]) s := by
  have hl : kept ++ [w] ++ rest = kept ++ w :: rest := by simp
  refine ⟨h.trailOK, ?_, h.reasonOK, h.levelOK, h.p_at, h.queue_level, h.reasons_new, ?_, ?_⟩
  · rw [hl]; exact h.watchOK
  · rw [hl]; exact h.pi_before
  · intro hP w' hw'
    rcases List.mem_append.mp hw' with hw' | hw'
    · exact h.pi_kept hP w' hw'
    · rw [List.mem_singleton] at hw'
      subst hw'
      obtain ⟨l, hl1, hl2⟩ := htrue
      refine ⟨l, hl1, hl2, ?_⟩
      rw [h.current.2.2.2.2.2.1]
      exact level_le_decisionLevel s h.trailOK h.levelOK l hl2

theorem LoopInv.swap {P : Prop} {p : Lit} {ip n0 : Nat} {w : Watcher} {rest kept : List Watcher}
    {s : SATModule E} (h : LoopInv P p ip n0 (w :: rest) kept s) (b : Lit)
    (hb : b ∈ ((s.ca w.cref).swapFalseLit p.neg).lits) :
    LoopInv P p ip n0 (⟨w.cref, b⟩ :: rest) kept
      (s.storeClause w.cref ((s.ca w.cref).swapFalseLit p.neg)) := by
  obtain ⟨hp, hpn, hsz, hlit, hbm, hlev, hreason⟩ := h.current
  obtain ⟨sperm, smark, -, -, sset, s1, sid⟩ :=
    Clause.swapFalseLit_facts (s.ca w.cref) p.neg hsz
  have hmemT : ∀ cr' (l : Lit), l ∈ (s.ca cr').lits →
      l ∈ ((s.storeClause w.cref ((s.ca w.cref).swapFalseLit p.neg)).ca cr').lits := by
    intro cr' l hl
    simp only [storeClause]
    by_cases hc : cr' = w.cref
    · subst hc; rw [Function.update_same]; exact sperm.mem_iff.mpr hl
    · rw [Function.update_noteq hc]; exact hl
  have hWmap : ∀ q, ((((s.storeClause w.cref ((s.ca w.cref).swapFalseLit p.neg)).setWatches p
      (kept ++ ⟨w.cref, b⟩ :: rest)).watches q).map Watcher.cref)
      = ((s.setWatches p (kept ++ w :: rest)).watches q).map Watcher.cref := by
    intro q
    simp only [setWatches, storeClause]
    by_cases hq : q = p
    · subst hq; simp
    · rw [Function.update_noteq hq, Function.update_noteq hq]
  have hold : ∀ q, ∀ w' ∈ ((s.storeClause w.cref ((s.ca w.cref).swapFalseLit p.neg)).setWatches p
      (kept ++ ⟨w.cref, b⟩ :: rest)).watches q,
      ∃ w0 ∈ (s.setWatches p (kept ++ w :: rest)).watches q, w0.cref = w'.cref := by
    intro q w' hw'
    apply mem_map_cref
    rw [← hWmap]
    exact List.mem_map_of_mem _ hw'
  have hsame : ∀ (i : Nat) (l : Lit), s.trail[i]? = some l →
      (s.vardata l.var).reason = some w.cref → (s.ca w.cref).swapFalseLit p.neg = s.ca w.cref := by
    intro i l hi hr
    apply sid
    intro he
    have := hreason i l hi hr
    rw [he, hpn] at this
    exact lbool.noConfusion this
  have hnew : ∀ (i : Nat) (l : Lit), n0 ≤ i → s.trail[i]? = some l →
      ∃ cr, (s.vardata l.var).reason = some cr ∧
        ∀ l' ∈ ((s.storeClause w.cref ((s.ca w.cref).swapFalseLit p.neg)).ca cr).lits.tail,
          s.value l' = .l_False := by
    intro i l hi hl
    obtain ⟨cr, hcr, htail⟩ := h.reasons_new i l hi hl
    refine ⟨cr, hcr, ?_⟩
    simp only [storeClause]
    by_cases hc : cr = w.cref
    · subst hc
      rw [Function.update_same, hsame i l hl hcr]
      exact htail
    · rw [Function.update_noteq hc]
      exact htail
  refine ⟨⟨h.trailOK.1, h.trailOK.2, h.trailOK.3⟩, ?_, ?_,
    ⟨h.levelOK.1, h.levelOK.2, h.levelOK.3⟩, h.p_at, h.queue_level, hnew, ?_, ?_⟩
  · refine WatchOK_store (s.setWatches p (kept ++ w :: rest)) _ w.cref
      ((s.ca w.cref).swapFalseLit p.neg) h.watchOK rfl rfl rfl sperm smark sset hWmap ?_
    intro q w' hw'
    simp only [setWatches, storeClause] at hw' ⊢
    by_cases hq : q = p
    · subst hq
      rw [Function.update_same] at hw' ⊢
      rcases List.mem_append.mp hw' with hk | hr
      · exact Or.inl (List.mem_append_left _ hk)
      · rcases List.mem_cons.mp hr with rfl | hr
        · exact Or.inr ⟨rfl, hb⟩
        · exact Or.inl (List.mem_append_right _ (List.mem_cons_of_mem _ hr))
    · rw [Function.update_noteq hq] at hw' ⊢
      exact Or.inl hw'
  · apply ReasonOK_storeClause s w.cref _ h.reasonOK
    intro i l hi hr
    apply sid
    intro he
    have := hreason i l hi hr
    rw [he, hpn] at this
    exact lbool.noConfusion this
  · intro hP i q hi hq w' hw'
    obtain ⟨w0, hw0, hc⟩ := hold q w' hw'
    obtain ⟨l, hl1, hl2, hl3⟩ := h.pi_before hP i q hi hq w0 hw0
    rw [hc] at hl1
    exact ⟨l, hmemT _ l hl1, hl2, hl3⟩
  · intro hP w' hw'
    obtain ⟨l, hl1, hl2, hl3⟩ := h.pi_kept hP w' hw'
    exact ⟨l, hmemT _ l hl1, hl2, hl3⟩

theorem LoopInv.enqueue {P : Prop} {p : Lit} {ip n0 : Nat} {w : Watcher} {rest kept : List Watcher}
    {s : SATModule E} (h : LoopInv P p ip n0 (w :: rest) kept s)
    (hu : s.value ((s.ca w.cref).get 0) = .l_Undef) (h1 : (s.ca w.cref).get 1 = p.neg)
    (hrest : ∀ l ∈ (s.ca w.cref).lits.drop 2, s.value l = .l_False) :
    LoopInv P p ip n0 (w :: rest) kept
      (s.uncheckedEnqueue ((s.ca w.cref).get 0) (some w.cref)) := by
  obtain ⟨hp, hpn, hsz, hlit, hbm, hlev, hreason⟩ := h.current
  have hip : ip < s.trail.length := (List.getElem?_eq_some.mp h.p_at).1
  have hold : ∀ (i : Nat) (l : Lit),
      (s.uncheckedEnqueue ((s.ca w.cref).get 0) (some w.cref)).trail[i]? = some l →
      (i < s.trail.length ∧ s.trail[i]? = some l ∧
        (s.uncheckedEnqueue ((s.ca w.cref).get 0) (some w.cref)).vardata l.var
          = s.vardata l.var) ∨
      (i = s.trail.length ∧ l = (s.ca w.cref).get 0) := by
    intro i l hi
    simp only [uncheckedEnqueue] at hi ⊢
    by_cases hlt : i < s.trail.length
    · rw [List.getElem?_append_left hlt] at hi
      refine Or.inl ⟨hlt, hi, ?_⟩
      have hne : l.var ≠ ((s.ca w.cref).get 0).var := by
        intro he
        have := h.trailOK.trail_true l (List.getElem?_mem hi)
        rw [value, he, (value_undef s _).mp hu] at this
        simp [lbool.xor] at this
      rw [Function.update_noteq hne]
    · have hi2 : i = s.trail.length := by
        by_contra hne
        rw [List.getElem?_eq_none (by simp only [List.length_append, List.length_singleton]; omega)]
          at hi
        exact Option.noConfusion hi
      subst hi2
      simp only [List.getElem?_concat_length, Option.some.injEq] at hi
      exact Or.inr ⟨rfl, hi.symm⟩
  have hkeep : ∀ l : Lit, s.value l = .l_True →
      (s.uncheckedEnqueue ((s.ca w.cref).get 0) (some w.cref)).value l = .l_True ∧
      (s.uncheckedEnqueue ((s.ca w.cref).get 0) (some w.cref)).vardata l.var
        = s.vardata l.var := by
    intro l hl
    have := value_uncheckedEnqueue s _ (some w.cref) l hu
      (by rw [hl]; exact fun hx => lbool.noConfusion hx)
    exact ⟨by rw [this.1]; exact hl, this.2⟩
  refine ⟨TrailOK_uncheckedEnqueue s _ _ h.trailOK hu,
    ⟨h.watchOK.1, h.watchOK.2, h.watchOK.3, h.watchOK.4, h.watchOK.5⟩, ?_,
    LevelOK_uncheckedEnqueue s _ _ h.trailOK h.levelOK hu, ?_, ?_, ?_, ?_, ?_⟩
  · apply ReasonOK_uncheckedEnqueue s _ _ h.trailOK h.reasonOK hu
    intro cr hcr
    simp only [Option.some.injEq] at hcr
    subst hcr
    refine ⟨by omega, rfl, ?_⟩
    intro l hl
    rw [Clause.lits_eq _ hsz, List.tail_cons] at hl
    rcases List.mem_cons.mp hl with rfl | hl
    · rw [h1]
      exact List.mem_map.mpr ⟨p, List.getElem?_mem h.p_at, rfl⟩
    · exact List.mem_map.mpr ⟨l.neg, neg_mem_trail_of_false s h.trailOK l (hrest l hl), rfl⟩
  · simp only [uncheckedEnqueue]
    rw [List.getElem?_append_left hip]
    exact h.p_at
  · intro i l hi hl
    rcases hold i l hl with ⟨-, hl', hv⟩ | ⟨-, rfl⟩
    · rw [hv]
      exact h.queue_level i l hi hl'
    · simp only [uncheckedEnqueue, Function.update_same]
      rfl
  · intro i l hi hl
    have hfalse : ∀ l' : Lit, s.value l' = .l_False →
        (s.uncheckedEnqueue ((s.ca w.cref).get 0) (some w.cref)).value l' = .l_False := by
      intro l' hl'
      rw [(value_uncheckedEnqueue s _ (some w.cref) l' hu
        (by rw [hl']; exact fun hx => lbool.noConfusion hx)).1]
      exact hl'
    rcases hold i l hl with ⟨-, hl', hv⟩ | ⟨-, rfl⟩
    · obtain ⟨cr, hcr, htail⟩ := h.reasons_new i l hi hl'
      refine ⟨cr, by rw [hv]; exact hcr, ?_⟩
      intro l' hl''
      exact hfalse l' (htail l' hl'')
    · refine ⟨w.cref, by simp only [uncheckedEnqueue, Function.update_same], ?_⟩
      intro l' hl'
      apply hfalse
      have hl2 : l' ∈ (s.ca w.cref).lits.tail := hl'
      rw [Clause.lits_eq _ hsz, List.tail_cons] at hl2
      rcases List.mem_cons.mp hl2 with rfl | hl2
      · rw [h1]; exact hpn
      · exact hrest l' hl2
  · intro hP i q hi hq w' hw'
    rcases hold i q hq with ⟨-, hq', hv⟩ | ⟨hi2, -⟩
    · obtain ⟨l, hl1, hl2, hl3⟩ := h.pi_before hP i q hi hq' w' hw'
      refine ⟨l, hl1, (hkeep l hl2).1, ?_⟩
      have e1 := (hkeep l hl2).2
      simp only [setWatches] at hl3 ⊢
      rw [e1, hv]
      exact hl3
    · omega
  · intro hP w' hw'
    obtain ⟨l, hl1, hl2, hl3⟩ := h.pi_kept hP w' hw'
    refine ⟨l, hl1, (hkeep l hl2).1, ?_⟩
    rw [(hkeep l hl2).2, (hkeep p hp).2]
    exact hl3

theorem LoopInv.move {P : Prop} {p : Lit} {ip n0 : Nat} {w : Watcher} {rest kept : List Watcher}
    {s : SATModule E} (h : LoopInv P p ip n0 (w :: rest) kept s) (k : Nat) (q' b : Lit)
    (h1 : (s.ca w.cref).get 1 = p.neg) (h2 : 2 ≤ k) (hk : k < (s.ca w.cref).lits.length)
    (hq' : q' = ((s.ca w.cref).get k).neg)
    (hvk : s.value ((s.ca w.cref).get k) ≠ .l_False)
    (hv0 : s.value ((s.ca w.cref).get 0) ≠ .l_True) (hb : b ∈ (s.ca w.cref).lits) :
    LoopInv P p ip n0 rest kept
      ((s.storeClause w.cref ((s.ca w.cref).newWatch k p.neg)).pushWatcher q' ⟨w.cref, b⟩) := by
  obtain ⟨hp, hpn, hsz, hlit, hbm, hlev, hreason⟩ := h.current
  obtain ⟨nperm, nmark, -, n0', n1⟩ := Clause.newWatch_facts (s.ca w.cref) k p.neg h2 hk h1
  have hqp : q' ≠ p := by
    intro he
    apply hvk
    rw [← Lit.neg_neg ((s.ca w.cref).get k), ← hq', he]
    exact hpn
  have hq'nt : s.value q' ≠ .l_True := by
    intro hx
    apply hvk
    rw [hq'] at hx
    exact (value_neg_true s _).mp hx
  have hmemT : ∀ cr' (l : Lit), l ∈ (s.ca cr').lits →
      l ∈ (((s.storeClause w.cref ((s.ca w.cref).newWatch k p.neg)).pushWatcher q'
        ⟨w.cref, b⟩).ca cr').lits := by
    intro cr' l hl
    simp only [storeClause, pushWatcher]
    by_cases hc : cr' = w.cref
    · subst hc; rw [Function.update_same]; exact nperm.mem_iff.mpr hl
    · rw [Function.update_noteq hc]; exact hl
  have hnew : ∀ (i : Nat) (l : Lit), n0 ≤ i → s.trail[i]? = some l →
      ∃ cr, (s.vardata l.var).reason = some cr ∧
        ∀ l' ∈ (((s.storeClause w.cref ((s.ca w.cref).newWatch k p.neg)).pushWatcher q'
          ⟨w.cref, b⟩).ca cr).lits.tail, s.value l' = .l_False := by
    intro i l hi hl
    obtain ⟨cr, hcr, htail⟩ := h.reasons_new i l hi hl
    refine ⟨cr, hcr, ?_⟩
    simp only [storeClause, pushWatcher]
    by_cases hc : cr = w.cref
    · subst hc
      exact absurd (hreason i l hl hcr) hv0
    · rw [Function.update_noteq hc]
      exact htail
  refine ⟨⟨h.trailOK.1, h.trailOK.2, h.trailOK.3⟩, ?_, ?_,
    ⟨h.levelOK.1, h.levelOK.2, h.levelOK.3⟩, h.p_at, h.queue_level, hnew, ?_, ?_⟩
  · refine WatchOK_move (s.setWatches p (kept ++ w :: rest)) _ p w kept rest k b h.watchOK
      (by simp [setWatches]) h1 h2 hk hb rfl rfl rfl ?_
    funext q
    simp only [setWatches, storeClause, pushWatcher]
    rw [← hq']
    by_cases hq1 : q = p
    · subst hq1
      rw [Function.update_same, Function.update_same]
    · rw [Function.update_noteq hq1, Function.update_noteq hq1]
      by_cases hq2 : q = q'
      · subst hq2
        rw [Function.update_same, Function.update_same, Function.update_noteq hq1]
      · rw [Function.update_noteq hq2, Function.update_noteq hq2, Function.update_noteq hq1]
  · have : ReasonOK (s.storeClause w.cref ((s.ca w.cref).newWatch k p.neg)) := by
      apply ReasonOK_storeClause s w.cref _ h.reasonOK
      intro i l hi hr
      exact absurd (hreason i l hi hr) hv0
    exact this
  · intro hP i q hi hq w' hw'
    have hqt : s.value q = .l_True := h.trailOK.trail_true q (List.getElem?_mem hq)
    have hqq : q ≠ q' := fun he => hq'nt (he ▸ hqt)
    have hw0 : w' ∈ (s.setWatches p (kept ++ w :: rest)).watches q := by
      simp only [setWatches, storeClause, pushWatcher] at hw' ⊢
      by_cases hq1 : q = p
      · subst hq1
        rw [Function.update_same] at hw' ⊢
        rcases List.mem_append.mp hw' with hk' | hr
        · exact List.mem_append_left _ hk'
        · exact List.mem_append_right _ (List.mem_cons_of_mem _ hr)
      · rw [Function.update_noteq hq1] at hw' ⊢
        rw [Function.update_noteq hqq] at hw'
        exact hw'
    obtain ⟨l, hl1, hl2, hl3⟩ := h.pi_before hP i q hi hq w' hw0
    exact ⟨l, hmemT _ l hl1, hl2, hl3⟩
  · intro hP w' hw'
    obtain ⟨l, hl1, hl2, hl3⟩ := h.pi_kept hP w' hw'
    exact ⟨l, hmemT _ l hl1, hl2, hl3⟩

theorem LoopInv.abort {P : Prop} {p : Lit} {ip n0 : Nat} {rest kept : List Watcher}
    {s : SATModule E} (h : LoopInv P p ip n0 rest kept s) (qh : Nat) :
    LoopInv P p ip n0 (kept ++ rest) [] { s with qhead := qh } :=
  ⟨⟨h.trailOK.1, h.trailOK.2, h.trailOK.3⟩,
    ⟨h.watchOK.1, h.watchOK.2, h.watchOK.3, h.watchOK.4, h.watchOK.5⟩, h.reasonOK,
    ⟨h.levelOK.1, h.levelOK.2, h.levelOK.3⟩, h.p_at, h.queue_level, h.reasons_new, h.pi_before,
    fun _ _ hw => absurd hw (List.not_mem_nil _)⟩

theorem LoopInv.finish {P : Prop} {p : Lit} {ip n0 : Nat} {kept : List Watcher}
    {s : SATModule E} (h : LoopInv P p ip n0 [] kept s) :
    LoopInv P p ip n0 kept [] s ∧ (P → Propagated (s.setWatches p kept) (ip + 1)) := by
  have h' := h.abort s.qhead
  rw [List.append_nil] at h'
  refine ⟨h', ?_⟩
  intro hP i q hi hq w' hw'
  by_cases hlt : i < ip
  · have := h.pi_before hP i q hlt hq w'
    rw [List.append_nil] at this
    exact this hw'
  · have hi2 : i = ip := by omega
    subst hi2
    have hqp : q = p := by
      have := h.p_at
      simp only [setWatches] at hq
      rw [this] at hq
      exact (Option.some.inj hq).symm
    subst hqp
    simp only [setWatches, Function.update_same] at hw'
    exact h.pi_kept hP w' hw'

/-- The loop of `propagate` over one watch list keeps the invariants; it either visits the whole
list, after which (under `P`) the two watched literals are propagated for `p` as well, or it
stops at a clause all of whose literals are false. -/
theorem propagateWatches_inv (P : Prop) (p : Lit) (ip n0 : Nat) (rest : List Watcher) :
    ∀ (kept : List Watcher) (confl : Option CRef) (s : SATModule E),
      LoopInv P p ip n0 rest kept s →
      LoopInv P p ip n0 (propagateWatches p rest kept confl s).1 []
        (propagateWatches p rest kept confl s).2.2 ∧
      (((propagateWatches p rest kept confl s).2.1 = confl ∧
        (propagateWatches p rest kept confl s).2.2.qhead = s.qhead ∧
        (P → Propagated ((propagateWatches p rest kept confl s).2.2.setWatches p
          (propagateWatches p rest kept confl s).1) (ip + 1))) ∨
       (∃ cr, (propagateWatches p rest kept confl s).2.1 = some cr ∧
        (propagateWatches p rest kept confl s).2.2.qhead
          = (propagateWatches p rest kept confl s).2.2.trail.length ∧
        ((∀ l ∈ ((propagateWatches p rest kept confl s).2.2.ca cr).lits,
          (propagateWatches p rest kept confl s).2.2.value l = .l_False) ∧
          ∃ l ∈ ((propagateWatches p rest kept confl s).2.2.ca cr).lits,
            ((propagateWatches p rest kept confl s).2.2.vardata l.var).level
              = (propagateWatches p rest kept confl s).2.2.decisionLevel))) ∧
      ∀ cr, ((propagateWatches p rest kept confl s).2.2.ca cr).lits.Perm (s.ca cr).lits := by
  induction rest with
  | nil =>
    intro kept confl s h
    have e : propagateWatches p [] kept confl s = (kept, confl, s) := by
      rw [propagateWatches]
    rw [e]
    exact ⟨h.finish.1, Or.inl ⟨rfl, rfl, h.finish.2⟩, fun _ => List.Perm.refl _⟩
  | cons w rest ih =>
    intro kept confl s h
    obtain ⟨hp, hpn, hsz, hlit, hbm, hlev, hreason⟩ := h.current
    obtain ⟨sperm, smark, -, sdrop, sset, s1, sid⟩ :=
      Clause.swapFalseLit_facts (s.ca w.cref) p.neg hsz
    have hsz' : 2 ≤ ((s.ca w.cref).swapFalseLit p.neg).lits.length := by
      rw [sperm.length_eq]; exact hsz
    have hfirst : ((s.ca w.cref).swapFalseLit p.neg).get 0
        ∈ ((s.ca w.cref).swapFalseLit p.neg).lits := Clause.get_mem _ 0 (by omega)
    have hswap := h.swap _ hfirst
    have hself : (s.storeClause w.cref ((s.ca w.cref).swapFalseLit p.neg)).ca w.cref
        = (s.ca w.cref).swapFalseLit p.neg := by
      simp only [storeClause, Function.update_same]
    have hperm1 : ∀ cr, ((s.storeClause w.cref ((s.ca w.cref).swapFalseLit p.neg)).ca cr).lits.Perm
        (s.ca cr).lits := by
      intro cr
      simp only [storeClause]
      by_cases hc : cr = w.cref
      · subst hc; rw [Function.update_same]; exact sperm
      · rw [Function.update_noteq hc]
    rcases propagateWatches_cases p w rest kept confl s with
      ⟨hb, he⟩ | ⟨hv, he⟩ | ⟨k, hv, hf, he⟩ | ⟨hv, hf, he⟩ | ⟨hv, hf, he⟩
    · rw [he]
      exact ih _ _ _ (h.keep ⟨w.blocker, hbm, hb⟩)
    · rw [he]
      obtain ⟨a1, a2, a3⟩ := ih (kept ++ [⟨w.cref, ((s.ca w.cref).swapFalseLit p.neg).get 0⟩])
        confl _ (hswap.keep ⟨_, by rw [hself]; exact hfirst, hv⟩)
      exact ⟨a1, a2, fun cr => (a3 cr).trans (hperm1 cr)⟩
    · rw [he]
      obtain ⟨f1, f2, f3⟩ := findNewWatch_some s _ 2 k hf
      rw [Clause.getD_drop_two _ k f1] at f3
      have hk : k < ((s.ca w.cref).swapFalseLit p.neg).lits.length := by
        rw [List.length_drop] at f2; omega
      obtain ⟨nperm, -, -, -, n1⟩ := Clause.newWatch_facts ((s.ca w.cref).swapFalseLit p.neg) k
        p.neg f1 hk (s1 hlit)
      have hmove := hswap.move k ((((s.ca w.cref).swapFalseLit p.neg).newWatch k p.neg).get 1).neg
        (((s.ca w.cref).swapFalseLit p.neg).get 0)
        (by rw [hself]; exact s1 hlit) f1 (by rw [hself]; exact hk)
        (by rw [hself, n1]) (by rw [hself]; exact f3) (by rw [hself]; exact hv)
        (by rw [hself]; exact hfirst)
      rw [hself] at hmove
      obtain ⟨a1, a2, a3⟩ := ih _ confl _ hmove
      refine ⟨a1, a2, fun cr => (a3 cr).trans ?_⟩
      simp only [storeClause, pushWatcher]
      by_cases hc : cr = w.cref
      · subst hc
        rw [Function.update_same]
        exact nperm.trans sperm
      · rw [Function.update_noteq hc, Function.update_noteq hc]
    · rw [he]
      have hl : kept ++ [(⟨w.cref, ((s.ca w.cref).swapFalseLit p.neg).get 0⟩ : Watcher)] ++ rest
          = kept ++ ⟨w.cref, ((s.ca w.cref).swapFalseLit p.neg).get 0⟩ :: rest := by simp
      rw [hl]
      refine ⟨hswap.abort _, Or.inr ⟨w.cref, rfl, rfl, ?_, ?_⟩, hperm1⟩
      · intro l hl
        have hl' : l ∈ ((s.ca w.cref).swapFalseLit p.neg).lits := by
          simp only [storeClause, Function.update_same] at hl
          exact hl
        rw [Clause.lits_eq _ hsz'] at hl'
        show s.value l = .l_False
        rcases List.mem_cons.mp hl' with rfl | hl'
        · exact hv
        · rcases List.mem_cons.mp hl' with rfl | hl'
          · rw [s1 hlit]; exact hpn
          · exact findNewWatch_none s _ 2 hf l hl'
      · refine ⟨p.neg, ?_, hlev⟩
        show p.neg ∈ ((s.storeClause w.cref ((s.ca w.cref).swapFalseLit p.neg)).ca w.cref).lits
        have hm := Clause.get_mem ((s.ca w.cref).swapFalseLit p.neg) 1 (by omega)
        rw [s1 hlit] at hm
        rw [hself]
        exact hm
    · rw [he]
      have henq := hswap.enqueue (by rw [hself]; exact hv) (by rw [hself]; exact s1 hlit)
        (by rw [hself]; exact findNewWatch_none s _ 2 hf)
      rw [hself] at henq
      have htrue : ((s.storeClause w.cref ((s.ca w.cref).swapFalseLit p.neg)).uncheckedEnqueue
          (((s.ca w.cref).swapFalseLit p.neg).get 0) (some w.cref)).value
            (((s.ca w.cref).swapFalseLit p.neg).get 0) = .l_True :=
        henq.trailOK.trail_true _ (by simp [uncheckedEnqueue])
      obtain ⟨a1, a2, a3⟩ := ih _ confl _ (henq.keep ⟨_, by
        show ((s.ca w.cref).swapFalseLit p.neg).get 0
          ∈ ((s.storeClause w.cref ((s.ca w.cref).swapFalseLit p.neg)).ca w.cref).lits
        rw [hself]; exact hfirst, htrue⟩)
      exact ⟨a1, a2, fun cr => (a3 cr).trans (hperm1 cr)⟩

theorem setWatches_self (s : SATModule E) (p : Lit) : s.setWatches p (s.watches p) = s := by
  simp [setWatches]

theorem propagateLoop_inv (P : Prop) (n0 q0 : Nat) (fuel : Nat) :
    ∀ (confl : Option CRef) (num : Nat) (s : SATModule E)
      (r : Option CRef × Nat × SATModule E),
      Coherent s → s.qhead ≤ s.trail.length →
      (∀ (i : Nat) (l : Lit), n0 ≤ i → s.trail[i]? = some l →
        ∃ cr, (s.vardata l.var).reason = some cr ∧
          ∀ l' ∈ (s.ca cr).lits.tail, s.value l' = .l_False) →
      ((confl = none ∧ q0 ≤ s.qhead ∧ (P → Propagated s s.qhead)) ∨
        (∃ cr, confl = some cr ∧ s.qhead = s.trail.length ∧
          ((∀ l ∈ (s.ca cr).lits, s.value l = .l_False) ∧
            ∃ l ∈ (s.ca cr).lits, (s.vardata l.var).level = s.decisionLevel) ∧
          ∃ n, q0 ≤ n ∧ (P → Propagated s n))) →
      propagateLoop fuel confl num s = some r →
      Coherent r.2.2 ∧
      (∀ (i : Nat) (l : Lit), n0 ≤ i → r.2.2.trail[i]? = some l →
        ∃ cr, (r.2.2.vardata l.var).reason = some cr ∧
          ∀ l' ∈ (r.2.2.ca cr).lits.tail, r.2.2.value l' = .l_False) ∧
      ((r.1 = none ∧ (P → Propagated r.2.2 r.2.2.trail.length)) ∨
        (∃ cr, r.1 = some cr ∧
          ((∀ l ∈ (r.2.2.ca cr).lits, r.2.2.value l = .l_False) ∧
            ∃ l ∈ (r.2.2.ca cr).lits, (r.2.2.vardata l.var).level = r.2.2.decisionLevel) ∧
          ∃ n, q0 ≤ n ∧ (P → Propagated r.2.2 n))) ∧
      ∀ cr, (r.2.2.ca cr).lits.Perm (s.ca cr).lits := by
  have stop : ∀ (confl : Option CRef) (s : SATModule E), ¬ s.qhead < s.trail.length →
      s.qhead ≤ s.trail.length →
      ((confl = none ∧ q0 ≤ s.qhead ∧ (P → Propagated s s.qhead)) ∨
        (∃ cr, confl = some cr ∧ s.qhead = s.trail.length ∧
          ((∀ l ∈ (s.ca cr).lits, s.value l = .l_False) ∧
            ∃ l ∈ (s.ca cr).lits, (s.vardata l.var).level = s.decisionLevel) ∧
          ∃ n, q0 ≤ n ∧ (P → Propagated s n))) →
      ((confl = none ∧ (P → Propagated s s.trail.length)) ∨
        (∃ cr, confl = some cr ∧
          ((∀ l ∈ (s.ca cr).lits, s.value l = .l_False) ∧
            ∃ l ∈ (s.ca cr).lits, (s.vardata l.var).level = s.decisionLevel) ∧
          ∃ n, q0 ≤ n ∧ (P → Propagated s n))) := by
    intro confl s hlt hq hpre
    rcases hpre with ⟨hc, -, hP⟩ | ⟨cr, hc, -, hall, hn⟩
    · have : s.qhead = s.trail.length := by omega
      rw [this] at hP
      exact Or.inl ⟨hc, hP⟩
    · exact Or.inr ⟨cr, hc, hall, hn⟩
  induction fuel with
  | zero =>
    intro confl num s r hC hq hR hpre h
    unfold propagateLoop at h
    split at h
    · cases h
    · rename_i hlt
      cases h
      exact ⟨hC, hR, stop confl s hlt hq hpre, fun _ => List.Perm.refl _⟩
  | succ fuel ih =>
    intro confl num s r hC hq hR hpre h
    unfold propagateLoop at h
    by_cases hlt : s.qhead < s.trail.length
    · rw [if_pos hlt] at h
      simp only [] at h
      rcases hpre with ⟨hc, hq0, hP⟩ | ⟨cr, -, hq', -, -⟩
      swap
      · omega
      have hpat : s.trail[s.qhead]? = some (s.trail.getD s.qhead ⟨0, false⟩) := by
        rw [List.getD_eq_getElem _ _ hlt]
        exact List.getElem?_eq_getElem hlt
      have hLoop : LoopInv P (s.trail.getD s.qhead ⟨0, false⟩) s.qhead n0
          (s.watches (s.trail.getD s.qhead ⟨0, false⟩)) []
          ({ s with qhead := s.qhead + 1 } : SATModule E) := by
        have hw : ({ s with qhead := s.qhead + 1 } : SATModule E).setWatches
            (s.trail.getD s.qhead ⟨0, false⟩)
            ([] ++ s.watches (s.trail.getD s.qhead ⟨0, false⟩))
            = ({ s with qhead := s.qhead + 1 } : SATModule E) := by
          rw [List.nil_append]
          exact setWatches_self ({ s with qhead := s.qhead + 1 } : SATModule E) _
        refine ⟨⟨hC.trailOK.1, hC.trailOK.2, hC.trailOK.3⟩, ?_, hC.reasonOK,
          ⟨hC.levelOK.1, hC.levelOK.2, hC.levelOK.3⟩, hpat, hC.queueLevel, hR, ?_,
          fun _ _ hw => absurd hw (List.not_mem_nil _)⟩
        · rw [hw]
          exact ⟨hC.watchOK.1, hC.watchOK.2, hC.watchOK.3, hC.watchOK.4, hC.watchOK.5⟩
        · rw [hw]
          exact hP
      obtain ⟨hinv, hcase, hperm⟩ := propagateWatches_inv P _ _ _ _ [] confl _ hLoop
      have hlen := (propagateWatches_queue (s.trail.getD s.qhead ⟨0, false⟩)
        (s.watches (s.trail.getD s.qhead ⟨0, false⟩)) [] confl
        ({ s with qhead := s.qhead + 1 } : SATModule E)).2
      generalize hres : propagateWatches (s.trail.getD s.qhead ⟨0, false⟩)
        (s.watches (s.trail.getD s.qhead ⟨0, false⟩)) [] confl
        ({ s with qhead := s.qhead + 1 } : SATModule E) = res at h hinv hcase hlen hperm
      obtain ⟨ws, cf, t⟩ := res
      simp only at h hinv hcase hlen hperm
      have hC2 : Coherent (t.setWatches (s.trail.getD s.qhead ⟨0, false⟩) ws) := by
        refine ⟨⟨hinv.trailOK.1, hinv.trailOK.2, hinv.trailOK.3⟩,
          ⟨hinv.watchOK.1, hinv.watchOK.2, hinv.watchOK.3, hinv.watchOK.4, hinv.watchOK.5⟩,
          hinv.reasonOK, ⟨hinv.levelOK.1, hinv.levelOK.2, hinv.levelOK.3⟩, ?_⟩
        intro i l hi hl
        have hi : t.qhead ≤ i := hi
        have hl : t.trail[i]? = some l := hl
        rcases hcase with ⟨-, hqh, -⟩ | ⟨cr, -, hqh, -⟩
        · rw [hqh] at hi
          exact hinv.queue_level i l (by omega) hl
        · rw [hqh] at hi
          have := (List.getElem?_eq_some.mp hl).1
          omega
      have hfin : ∀ (X Y Z : Prop), (X ∧ Y ∧ Z ∧
          ∀ cr, (r.2.2.ca cr).lits.Perm ((t.setWatches (s.trail.getD s.qhead ⟨0, false⟩) ws).ca
            cr).lits) → (X ∧ Y ∧ Z ∧ ∀ cr, (r.2.2.ca cr).lits.Perm (s.ca cr).lits) :=
        fun X Y Z hx => ⟨hx.1, hx.2.1, hx.2.2.1, fun cr => (hx.2.2.2 cr).trans (hperm cr)⟩
      apply hfin
      refine ih _ _ _ r hC2 ?_ hinv.reasons_new ?_ h
      · show t.qhead ≤ t.trail.length
        rcases hcase with ⟨-, hqh, -⟩ | ⟨cr, -, hqh, -⟩
        · rw [hqh]
          omega
        · rw [hqh]
      · rcases hcase with ⟨hcf, hqh, hPP⟩ | ⟨cr, hcf, hqh, hall⟩
        · left
          refine ⟨by rw [hcf]; exact hc, ?_, ?_⟩
          · show q0 ≤ t.qhead
            rw [hqh]
            omega
          · show P → Propagated (t.setWatches (s.trail.getD s.qhead ⟨0, false⟩) ws) t.qhead
            rw [hqh]
            exact hPP
        · right
          exact ⟨cr, hcf, hqh, hall, s.qhead, hq0, hinv.pi_before⟩
    · rw [if_neg hlt] at h
      cases h
      exact ⟨hC, hR, stop confl s hlt hq hpre, fun _ => List.Perm.refl _⟩

theorem cleanAll_sublist (s : SATModule E) :
    s.cleanAll.trail_lim = s.trail_lim ∧ ∀ q, (s.cleanAll.watches q).Sublist (s.watches q) := by
  unfold cleanAll
  simp only
  apply cleanAll_fold _ (fun t => t.trail_lim = s.trail_lim ∧
    ∀ q, (t.watches q).Sublist (s.watches q))
  · intro t idx ht
    obtain ⟨h1, h2⟩ := ht
    split
    · refine ⟨h1, ?_⟩
      intro q
      simp only
      by_cases hq : q = idx
      · subst hq
        rw [Function.update_same]
        exact (List.filter_sublist _).trans (h2 _)
      · rw [Function.update_noteq hq]
        exact h2 q
    · exact ⟨h1, h2⟩
  · exact ⟨rfl, fun _ => List.Sublist.refl _⟩

theorem value_congr (s t : SATModule E) (ha : t.assigns = s.assigns) (l : Lit) :
    t.value l = s.value l := by
  simp only [value, ha]

theorem TrailOK_congr (s t : SATModule E) (ha : t.assigns = s.assigns) (ht : t.trail = s.trail)
    (h : TrailOK s) : TrailOK t := by
  refine ⟨?_, ?_, ?_⟩
  · intro l hl
    rw [value_congr s t ha]
    rw [ht] at hl
    exact h.trail_true l hl
  · intro v hv
    rw [ha] at hv
    rw [ht]
    exact h.assigned v hv
  · rw [ht]; exact h.nodup

theorem ReasonOK_congr (s t : SATModule E) (ht : t.trail = s.trail) (hv : t.vardata = s.vardata)
    (hc : t.ca = s.ca) (h : ReasonOK s) : ReasonOK t := by
  intro i l cr hi hr
  rw [ht] at hi ⊢
  rw [hv] at hr
  rw [hc]
  exact h i l cr hi hr

theorem LevelOK_congr (s t : SATModule E) (ht : t.trail = s.trail) (hv : t.vardata = s.vardata)
    (hl : t.trail_lim = s.trail_lim) (h : LevelOK s) : LevelOK t := by
  refine ⟨?_, ?_, ?_⟩
  · rw [hl]; exact h.lim_sorted
  · rw [hl, ht]; exact h.lim_le
  · rw [hl, ht, hv]; exact h.level_eq

theorem QueueLevel_congr (s t : SATModule E) (ht : t.trail = s.trail)
    (hv : t.vardata = s.vardata) (hl : t.trail_lim = s.trail_lim) (hq : t.qhead = s.qhead)
    (h : QueueLevel s) : QueueLevel t := by
  intro i l hi hl'
  rw [hq] at hi
  rw [ht] at hl'
  rw [hv]
  simp only [decisionLevel, hl]
  exact h i l hi hl'

theorem Propagated_subset (s t : SATModule E) (n : Nat) (ht : t.trail = s.trail)
    (ha : t.assigns = s.assigns) (hv : t.vardata = s.vardata) (hc : t.ca = s.ca)
    (hw : ∀ q, ∀ w ∈ t.watches q, w ∈ s.watches q) (h : Propagated s n) : Propagated t n := by
  intro i q hi hq w hw'
  rw [ht] at hq
  obtain ⟨l, h1, h2, h3⟩ := h i q hi hq w (hw q w hw')
  refine ⟨l, by rw [hc]; exact h1, by rw [value_congr s t ha]; exact h2, by rw [hv]; exact h3⟩

theorem WatchOK_cleanAll (s : SATModule E) (h : WatchOK s) : WatchOK s.cleanAll := by
  obtain ⟨-, -, -, -, hca, hsub⟩ := cleanAll_frame s
  obtain ⟨hlearnts, hclauses, -, hkeep⟩ := cleanAll_keeps s
  obtain ⟨-, hsl⟩ := cleanAll_sublist s
  refine ⟨?_, ?_, ?_, ?_, ?_⟩
  · rw [hca]; exact h.lits_nodup
  · intro q w hw; rw [hca]; exact h.watch_lit q w (hsub q w hw)
  · intro q w hw; rw [hca]; exact h.blocker_mem q w (hsub q w hw)
  · intro q
    exact List.Nodup.sublist ((hsl q).map _) (h.watch_nodup q)
  · intro cr hcr
    rw [hclauses, hlearnts] at hcr
    rw [hca]
    refine ⟨(h.attached cr hcr).1, fun hm => ?_⟩
    obtain ⟨⟨w0, hw0, hc0⟩, ⟨w1, hw1, hc1⟩⟩ := (h.attached cr hcr).2 hm
    exact ⟨⟨w0, hkeep _ w0 hw0 (by rw [hc0]; exact hm), hc0⟩,
      ⟨w1, hkeep _ w1 hw1 (by rw [hc1]; exact hm), hc1⟩⟩

theorem Coherent_cleanAll (s : SATModule E) (h : Coherent s) : Coherent s.cleanAll := by
  obtain ⟨hq, ht, ha, -, hca, hsub⟩ := cleanAll_frame s
  obtain ⟨-, -, hv, -⟩ := cleanAll_keeps s
  obtain ⟨hl, -⟩ := cleanAll_sublist s
  exact ⟨TrailOK_congr s _ ha ht h.trailOK, WatchOK_cleanAll s h.watchOK,
    ReasonOK_congr s _ ht hv hca h.reasonOK, LevelOK_congr s _ ht hv hl h.levelOK,
    QueueLevel_congr s _ ht hv hl hq h.queueLevel⟩

/-- The method `propagate` keeps the invariants of the state.  Every literal it enqueues has a
reason.  When it returns a conflict, every literal of the conflicting clause is false; under the
condition `P`, for which the two watched literals are propagated up to `qhead` at the call, they
are propagated for the whole trail when no conflict is returned, and up to a position that is not
before the `qhead` of the call otherwise. -/
theorem propagate_inv (P : Prop) (fuel : Nat) (s s' : SATModule E) (confl : Option CRef)
    (hC : Coherent s) (hq : s.qhead ≤ s.trail.length) (hP : P → Propagated s s.qhead)
    (h : propagate fuel s = some (confl, s')) :
    Coherent s' ∧
    (∀ (i : Nat) (l : Lit), s.trail.length ≤ i → s'.trail[i]? = some l →
      ∃ cr, (s'.vardata l.var).reason = some cr ∧
        ∀ l' ∈ (s'.ca cr).lits.tail, s'.value l' = .l_False) ∧
    ((confl = none ∧ (P → Propagated s' s'.trail.length)) ∨
      (∃ cr, confl = some cr ∧
        ((∀ l ∈ (s'.ca cr).lits, s'.value l = .l_False) ∧
          ∃ l ∈ (s'.ca cr).lits, (s'.vardata l.var).level = s'.decisionLevel) ∧
        ∃ n, s.qhead ≤ n ∧ (P → Propagated s' n))) ∧
    ∀ cr, (s'.ca cr).lits.Perm (s.ca cr).lits := by
  obtain ⟨hq', ht, ha, -, hca, hsub⟩ := cleanAll_frame s
  obtain ⟨-, -, hv, -⟩ := cleanAll_keeps s
  unfold propagate at h
  cases hl : propagateLoop fuel none 0 s.cleanAll with
  | none => simp [hl] at h
  | some r =>
    obtain ⟨c, n, t⟩ := r
    have := propagateLoop_inv P s.trail.length s.qhead fuel none 0 s.cleanAll _
      (Coherent_cleanAll s hC) (by rw [hq', ht]; exact hq)
      (by
        intro i l hi hl'
        rw [ht] at hl'
        have := (List.getElem?_eq_some.mp hl').1
        omega)
      (Or.inl ⟨rfl, by rw [hq'], fun hp => by
        rw [hq']
        exact Propagated_subset s _ _ ht ha hv hca hsub (hP hp)⟩) hl
    simp only [hl, Option.some.injEq, Prod.mk.injEq] at h
    obtain ⟨rfl, rfl⟩ := h
    obtain ⟨hC', hR', hcase, hperm⟩ := this
    rw [hca] at hperm
    exact ⟨⟨⟨hC'.trailOK.1, hC'.trailOK.2, hC'.trailOK.3⟩,
      ⟨hC'.watchOK.1, hC'.watchOK.2, hC'.watchOK.3, hC'.watchOK.4, hC'.watchOK.5⟩,
      hC'.reasonOK, ⟨hC'.levelOK.1, hC'.levelOK.2, hC'.levelOK.3⟩, hC'.queueLevel⟩, hR', hcase,
      hperm⟩

theorem PropagateFrame.pf_refl (s : SATModule E) : PropagateFrame s s :=
  ⟨rfl, rfl, rfl, rfl, rfl, rfl, rfl, rfl, rfl, rfl, rfl, rfl, rfl, rfl, rfl, rfl, rfl, rfl, rfl,
    ⟨[], (List.append_nil _).symm⟩, fun _ => rfl, fun _ _ => rfl, fun _ _ => rfl, rfl, rfl, rfl,
    rfl, rfl, rfl, rfl, rfl, rfl, rfl, rfl⟩

theorem PropagateFrame.pf_trans {s t u : SATModule E} (h1 : PropagateFrame s t)
    (h2 : PropagateFrame t u) : PropagateFrame s u := by
  refine ⟨h2.ok_eq.trans h1.ok_eq, h2.caSize_eq.trans h1.caSize_eq,
    h2.clauses_eq.trans h1.clauses_eq, h2.learnts_eq.trans h1.learnts_eq,
    h2.nVars_eq.trans h1.nVars_eq, h2.seen_eq.trans h1.seen_eq,
    h2.polarity_eq.trans h1.polarity_eq, h2.decision_eq.trans h1.decision_eq,
    h2.dec_vars_eq.trans h1.dec_vars_eq, h2.trail_lim_eq.trans h1.trail_lim_eq,
    h2.mConstraintLiteralMap_eq.trans h1.mConstraintLiteralMap_eq,
    h2.mLitConstraintMap_eq.trans h1.mLitConstraintMap_eq,
    h2.mBooleanVarMap_eq.trans h1.mBooleanVarMap_eq,
    h2.order_heap_eq.trans h1.order_heap_eq, h2.decisions_eq.trans h1.decisions_eq,
    h2.conflicts_eq.trans h1.conflicts_eq, h2.phase_saving_eq.trans h1.phase_saving_eq,
    h2.ccmin_mode_eq.trans h1.ccmin_mode_eq, h2.analyze_toclear_eq.trans h1.analyze_toclear_eq,
    ?_, fun cr => (h2.length_eq cr).trans (h1.length_eq cr), ?_, ?_,
    h2.mPassedFormula_eq.trans h1.mPassedFormula_eq, h2.assumptions_eq.trans h1.assumptions_eq,
    h2.conflict_eq.trans h1.conflict_eq, h2.model_eq.trans h1.model_eq,
    h2.solves_eq.trans h1.solves_eq, h2.starts_eq.trans h1.starts_eq,
    h2.simpDB_assigns_eq.trans h1.simpDB_assigns_eq,
    h2.remove_satisfied_eq.trans h1.remove_satisfied_eq,
    h2.conflict_budget_eq.trans h1.conflict_budget_eq,
    h2.propagation_budget_eq.trans h1.propagation_budget_eq,
    h2.asynch_interrupt_eq.trans h1.asynch_interrupt_eq⟩
  · obtain ⟨n1, e1⟩ := h1.trail_ext
    obtain ⟨n2, e2⟩ := h2.trail_ext
    exact ⟨n1 ++ n2, by rw [e2, e1, List.append_assoc]⟩
  · intro v hv
    have e1 := h1.assigns_kept v hv
    rw [h2.assigns_kept v (by rw [e1]; exact hv), e1]
  · intro v hv
    have e1 := h1.assigns_kept v hv
    rw [h2.vardata_kept v (by rw [e1]; exact hv), h1.vardata_kept v hv]

theorem PropagateFrame.of_eq {s t : SATModule E} (hok : t.ok = s.ok)
    (hcaSize : t.caSize = s.caSize) (hclauses : t.clauses = s.clauses)
    (hlearnts : t.learnts = s.learnts) (hnVars : t.nVars = s.nVars) (hseen : t.seen = s.seen)
    (hpolarity : t.polarity = s.polarity) (hdecision : t.decision = s.decision)
    (hdec_vars : t.dec_vars = s.dec_vars) (htrail_lim : t.trail_lim = s.trail_lim)
    (h1 : t.mConstraintLiteralMap = s.mConstraintLiteralMap)
    (h2 : t.mLitConstraintMap = s.mLitConstraintMap) (h3 : t.mBooleanVarMap = s.mBooleanVarMap)
    (h4 : t.order_heap = s.order_heap) (h5 : t.decisions = s.decisions)
    (h6 : t.conflicts = s.conflicts) (h7 : t.phase_saving = s.phase_saving)
    (h8 : t.ccmin_mode = s.ccmin_mode) (h9 : t.analyze_toclear = s.analyze_toclear)
    (htrail : t.trail = s.trail) (hassigns : t.assigns = s.assigns)
    (hvardata : t.vardata = s.vardata)
    (hlen : ∀ cr, (t.ca cr).lits.length = (s.ca cr).lits.length)
    (k1 : t.mPassedFormula = s.mPassedFormula) (k2 : t.assumptions = s.assumptions)
    (k3 : t.conflict = s.conflict) (k4 : t.model = s.model) (k5 : t.solves = s.solves)
    (k6 : t.starts = s.starts) (k7 : t.simpDB_assigns = s.simpDB_assigns)
    (k8 : t.remove_satisfied = s.remove_satisfied) (k9 : t.conflict_budget = s.conflict_budget)
    (k10 : t.propagation_budget = s.propagation_budget)
    (k11 : t.asynch_interrupt = s.asynch_interrupt) : PropagateFrame s t :=
  ⟨hok, hcaSize, hclauses, hlearnts, hnVars, hseen, hpolarity, hdecision, hdec_vars, htrail_lim,
    h1, h2, h3, h4, h5, h6, h7, h8, h9, ⟨[], by rw [htrail, List.append_nil]⟩, hlen,
    fun v _ => by rw [hassigns], fun v _ => by rw [hvardata], k1, k2, k3, k4, k5, k6, k7, k8,
    k9, k10, k11⟩

theorem storeClause_frame (s : SATModule E) (cr : CRef) (c : Clause)
    (h : c.lits.length = (s.ca cr).lits.length) : PropagateFrame s (s.storeClause cr c) := by
  apply PropagateFrame.of_eq <;> try rfl
  intro cr'
  simp only [storeClause]
  by_cases hc : cr' = cr
  · subst hc; rw [Function.update_same]; exact h
  · rw [Function.update_noteq hc]

theorem uncheckedEnqueue_frame (s : SATModule E) (l : Lit) (src : Option CRef)
    (h : s.value l = .l_Undef) : PropagateFrame s (s.uncheckedEnqueue l src) := by
  have hne : ∀ v : Nat, s.assigns v ≠ .l_Undef → v ≠ l.var := by
    intro v hv he
    apply hv
    rw [he]
    exact (value_undef s l).mp h
  refine ⟨rfl, rfl, rfl, rfl, rfl, rfl, rfl, rfl, rfl, rfl, rfl, rfl, rfl, rfl, rfl, rfl, rfl,
    rfl, rfl, ⟨[l], rfl⟩, fun _ => rfl, ?_, ?_, rfl, rfl, rfl, rfl, rfl, rfl, rfl, rfl, rfl, rfl,
    rfl⟩
  · intro v hv
    simp only [uncheckedEnqueue, Function.update_noteq (hne v hv)]
  · intro v hv
    simp only [uncheckedEnqueue, Function.update_noteq (hne v hv)]

theorem propagateWatches_frame (p : Lit) (rest : List Watcher) :
    ∀ (kept : List Watcher) (confl : Option CRef) (s : SATModule E),
      PropagateFrame s (propagateWatches p rest kept confl s).2.2 := by
  induction rest with
  | nil =>
    intro kept confl s
    rw [propagateWatches]
    exact PropagateFrame.pf_refl s
  | cons w rest ih =>
    intro kept confl s
    have hs1 : PropagateFrame s (s.storeClause w.cref ((s.ca w.cref).swapFalseLit p.neg)) :=
      storeClause_frame s _ _ (Clause.swapFalseLit_length _ _)
    rcases propagateWatches_cases p w rest kept confl s with
      ⟨hb, he⟩ | ⟨hv, he⟩ | ⟨k, hv, hf, he⟩ | ⟨hv, hf, he⟩ | ⟨hv, hf, he⟩
    · rw [he]; exact ih _ _ _
    · rw [he]; exact hs1.pf_trans (ih _ _ _)
    · rw [he]
      refine PropagateFrame.pf_trans ?_ (ih _ _ _)
      refine hs1.pf_trans ?_
      have : PropagateFrame (s.storeClause w.cref ((s.ca w.cref).swapFalseLit p.neg))
          ((s.storeClause w.cref ((s.ca w.cref).swapFalseLit p.neg)).storeClause w.cref
            (((s.ca w.cref).swapFalseLit p.neg).newWatch k p.neg)) := by
        apply storeClause_frame
        rw [Clause.newWatch_length]
        simp only [storeClause, Function.update_same]
      refine this.pf_trans ?_
      apply PropagateFrame.of_eq <;> first | rfl | exact fun _ => rfl
    · rw [he]
      refine hs1.pf_trans ?_
      apply PropagateFrame.of_eq <;> first | rfl | exact fun _ => rfl
    · rw [he]
      exact (hs1.pf_trans (uncheckedEnqueue_frame _ _ _ hv)).pf_trans (ih _ _ _)

theorem propagateLoop_frame (fuel : Nat) :
    ∀ (confl : Option CRef) (n : Nat) (s : SATModule E) (r : Option CRef × Nat × SATModule E),
      propagateLoop fuel confl n s = some r → PropagateFrame s r.2.2 := by
  induction fuel with
  | zero =>
    intro confl n s r h
    unfold propagateLoop at h
    split at h
    · cases h
    · cases h; exact PropagateFrame.pf_refl s
  | succ fuel ih =>
    intro confl n s r h
    unfold propagateLoop at h
    split at h
    · have h1 : PropagateFrame s ({ s with qhead := s.qhead + 1 } : SATModule E) := by
        apply PropagateFrame.of_eq <;> first | rfl | exact fun _ => rfl
      have h2 := propagateWatches_frame (s.trail.getD s.qhead ⟨0, false⟩)
        (s.watches (s.trail.getD s.qhead ⟨0, false⟩)) [] confl
        ({ s with qhead := s.qhead + 1 } : SATModule E)
      have h3 := ih _ _ _ r h
      refine (h1.pf_trans h2).pf_trans (PropagateFrame.pf_trans ?_ h3)
      apply PropagateFrame.of_eq <;> first | rfl | exact fun _ => rfl
    · cases h; exact PropagateFrame.pf_refl s

theorem cleanAll_propagateFrame (s : SATModule E) : PropagateFrame s s.cleanAll := by
  unfold cleanAll
  simp only
  have key := cleanAll_fold (fun (t : SATModule E) idx =>
      if t.dirty idx then
        { t with
          watches := Function.update t.watches idx
            ((t.watches idx).filter (fun w => (t.ca w.cref).mark ≠ 1))
          dirty := Function.update t.dirty idx false }
      else t) (fun t => PropagateFrame s t)
    (by
      intro t idx ht
      simp only
      split
      · refine ht.pf_trans ?_
        apply PropagateFrame.of_eq <;> first | rfl | exact fun _ => rfl
      · exact ht) s.dirties s (PropagateFrame.pf_refl s)
  refine key.pf_trans ?_
  apply PropagateFrame.of_eq <;> first | rfl | exact fun _ => rfl

theorem propagate_frame (fuel : Nat) (s s' : SATModule E) (confl : Option CRef)
    (h : propagate fuel s = some (confl, s')) : PropagateFrame s s' := by
  unfold propagate at h
  cases hl : propagateLoop fuel none 0 s.cleanAll with
  | none => simp [hl] at h
  | some r =>
    obtain ⟨c, n, t⟩ := r
    have h1 := propagateLoop_frame fuel none 0 s.cleanAll _ hl
    simp only [hl, Option.some.injEq, Prod.mk.injEq] at h
    obtain ⟨-, rfl⟩ := h
    refine ((cleanAll_propagateFrame s).pf_trans h1).pf_trans ?_
    apply PropagateFrame.of_eq <;> first | rfl | exact fun _ => rfl

theorem propagate_allocOK (fuel : Nat) (s s' : SATModule E) (confl : Option CRef)
    (hA : AllocOK s) (h : propagate fuel s = some (confl, s')) : AllocOK s' := by
  have hf := propagate_frame fuel s s' confl h
  intro cr hcr
  rw [hf.caSize_eq] at hcr
  have := hf.length_eq cr
  rw [hA cr hcr] at this
  exact List.length_eq_zero.mp this

theorem Clause.swapFalseLit_mark (c : Clause) (fl : Lit) :
    (c.swapFalseLit fl).mark = c.mark := by
  unfold Clause.swapFalseLit
  split <;> rfl

theorem storeClause_mark (s : SATModule E) (cr : CRef) (c : Clause)
    (h : c.mark = (s.ca cr).mark) (x : CRef) :
    ((s.storeClause cr c).ca x).mark = (s.ca x).mark := by
  simp only [storeClause]
  by_cases hc : x = cr
  · subst hc; rw [Function.update_same]; exact h
  · rw [Function.update_noteq hc]

theorem propagateWatches_mark (p : Lit) (rest : List Watcher) :
    ∀ (kept : List Watcher) (confl : Option CRef) (s : SATModule E) (x : CRef),
      ((propagateWatches p rest kept confl s).2.2.ca x).mark = (s.ca x).mark := by
  induction rest with
  | nil =>
    intro kept confl s x
    rw [propagateWatches]
  | cons w rest ih =>
    intro kept confl s x
    have hs1 := storeClause_mark s w.cref _ (Clause.swapFalseLit_mark (s.ca w.cref) p.neg) x
    rcases propagateWatches_cases p w rest kept confl s with
      ⟨hb, he⟩ | ⟨hv, he⟩ | ⟨k, hv, hf, he⟩ | ⟨hv, hf, he⟩ | ⟨hv, hf, he⟩
    · rw [he]; exact ih _ _ _ x
    · rw [he, ih]; exact hs1
    · rw [he, ih]
      have h2 := storeClause_mark (s.storeClause w.cref ((s.ca w.cref).swapFalseLit p.neg))
        w.cref (((s.ca w.cref).swapFalseLit p.neg).newWatch k p.neg)
        (by simp only [storeClause, Function.update_same]; rfl) x
      exact h2.trans hs1
    · rw [he]; exact hs1
    · rw [he, ih]; exact hs1

theorem propagateLoop_mark (fuel : Nat) :
    ∀ (confl : Option CRef) (n : Nat) (s : SATModule E) (r : Option CRef × Nat × SATModule E),
      propagateLoop fuel confl n s = some r → ∀ x, (r.2.2.ca x).mark = (s.ca x).mark := by
  induction fuel with
  | zero =>
    intro confl n s r h x
    unfold propagateLoop at h
    split at h
    · cases h
    · cases h; rfl
  | succ fuel ih =>
    intro confl n s r h x
    unfold propagateLoop at h
    split at h
    · rw [ih _ _ _ r h x]
      exact propagateWatches_mark (s.trail.getD s.qhead ⟨0, false⟩)
        (s.watches (s.trail.getD s.qhead ⟨0, false⟩)) [] confl
        ({ s with qhead := s.qhead + 1 } : SATModule E) x
    · cases h; rfl

/-- The method `propagate` leaves the marks of the clauses as they are. -/
theorem propagate_mark (fuel : Nat) (s s' : SATModule E) (confl : Option CRef)
    (h : propagate fuel s = some (confl, s')) (x : CRef) :
    (s'.ca x).mark = (s.ca x).mark := by
  unfold propagate at h
  cases hl : propagateLoop fuel none 0 s.cleanAll with
  | none => simp [hl] at h
  | some r =>
    obtain ⟨c, n, t⟩ := r
    have h1 := propagateLoop_mark fuel none 0 s.cleanAll _ hl x
    simp only [hl, Option.some.injEq, Prod.mk.injEq] at h
    obtain ⟨-, rfl⟩ := h
    obtain ⟨-, -, -, -, hca, -⟩ := cleanAll_frame s
    rw [hca] at h1
    exact h1

/-! ## The invariants in the states the interface produces -/

theorem Coherent_init (E : Type) : Coherent (init E) := by
  refine ⟨⟨?_, ?_, ?_⟩, ⟨?_, ?_, ?_, ?_, ?_⟩, ?_, ⟨?_, ?_, ?_⟩, ?_⟩
  · intro l hl; simp [init] at hl
  · intro v hv; simp [init] at hv
  · simp [init]
  · intro cr; simp [init]
  · intro q w hw; simp [init] at hw
  · intro q w hw; simp [init] at hw
  · intro q; simp [init]
  · intro cr hcr; simp [init] at hcr
  · intro i l cr hi; simp [init] at hi
  · simp [init]
  · intro d hd; simp [init] at hd
  · intro i l hi; simp [init] at hi
  · intro i l _ hi; simp [init] at hi

theorem AllocOK_init (E : Type) : AllocOK (init E) := fun _ _ => rfl

theorem AllocOK_newVar (s : SATModule E) (sign dvar : Bool) (h : AllocOK s) :
    AllocOK (s.newVar sign dvar).2 := h

theorem newVar_watches_mem (s : SATModule E) (sign dvar : Bool) (q : Lit) (w : Watcher)
    (hw : w ∈ (s.newVar sign dvar).2.watches q) : w ∈ s.watches q := by
  simp only [newVar] at hw
  by_cases h1 : q = mkLit s.nVars true
  · subst h1; simp at hw
  · rw [Function.update_noteq h1] at hw
    by_cases h2 : q = mkLit s.nVars false
    · subst h2; simp at hw
    · rw [Function.update_noteq h2] at hw
      exact hw

theorem newVar_watches_eq (s : SATModule E) (sign dvar : Bool) (q : Lit)
    (hq : q.var < s.nVars) : (s.newVar sign dvar).2.watches q = s.watches q := by
  have h1 : q ≠ mkLit s.nVars true := by
    intro he; rw [he] at hq; simp [mkLit] at hq
  have h2 : q ≠ mkLit s.nVars false := by
    intro he; rw [he] at hq; simp [mkLit] at hq
  simp only [newVar]
  rw [Function.update_noteq h1, Function.update_noteq h2]

theorem newVar_watches_sublist (s : SATModule E) (sign dvar : Bool) (q : Lit) :
    ((s.newVar sign dvar).2.watches q).Sublist (s.watches q) := by
  simp only [newVar]
  by_cases h1 : q = mkLit s.nVars true
  · subst h1; simp
  · rw [Function.update_noteq h1]
    by_cases h2 : q = mkLit s.nVars false
    · subst h2; simp
    · rw [Function.update_noteq h2]

theorem Coherent_newVar (s : SATModule E) (sign dvar : Bool) (hW : WellFormed s)
    (h : Coherent s) : Coherent (s.newVar sign dvar).2 := by
  have hvar : ∀ l ∈ s.trail, l.var ≠ s.nVars := fun l hl =>
    Nat.ne_of_lt (hW.inRange.trail_range l hl)
  have hval : ∀ l ∈ s.trail, (s.newVar sign dvar).2.value l = s.value l := by
    intro l hl
    simp only [newVar, value, Function.update_noteq (hvar l hl)]
  have hvd : ∀ l ∈ s.trail, (s.newVar sign dvar).2.vardata l.var = s.vardata l.var := by
    intro l hl
    simp only [newVar, Function.update_noteq (hvar l hl)]
  refine ⟨⟨?_, ?_, h.trailOK.nodup⟩, ⟨h.watchOK.lits_nodup, ?_, ?_, ?_, ?_⟩, ?_,
    ⟨h.levelOK.lim_sorted, h.levelOK.lim_le, ?_⟩, ?_⟩
  · intro l hl
    rw [hval l hl]
    exact h.trailOK.trail_true l hl
  · intro v hv
    simp only [newVar] at hv
    by_cases he : v = s.nVars
    · subst he; rw [Function.update_same] at hv; exact absurd rfl hv
    · rw [Function.update_noteq he] at hv
      exact h.trailOK.assigned v hv
  · intro q w hw
    exact h.watchOK.watch_lit q w (newVar_watches_mem s sign dvar q w hw)
  · intro q w hw
    exact h.watchOK.blocker_mem q w (newVar_watches_mem s sign dvar q w hw)
  · intro q
    exact List.Nodup.sublist ((newVar_watches_sublist s sign dvar q).map _)
      (h.watchOK.watch_nodup q)
  · intro cr hcr
    have hsz := (h.watchOK.attached cr hcr).1
    refine ⟨hsz, fun hm => ?_⟩
    obtain ⟨⟨w0, hw0, hc0⟩, ⟨w1, hw1, hc1⟩⟩ := (h.watchOK.attached cr hcr).2 hm
    have r0 : (((s.ca cr).get 0).neg).var < s.nVars :=
      hW.inRange.clause_range cr ((s.ca cr).get 0) (Clause.get_mem _ 0 (by omega))
    have r1 : (((s.ca cr).get 1).neg).var < s.nVars :=
      hW.inRange.clause_range cr ((s.ca cr).get 1) (Clause.get_mem _ 1 (by omega))
    refine ⟨⟨w0, ?_, hc0⟩, ⟨w1, ?_, hc1⟩⟩
    · show w0 ∈ (s.newVar sign dvar).2.watches ((s.ca cr).get 0).neg
      rw [newVar_watches_eq s sign dvar _ r0]; exact hw0
    · show w1 ∈ (s.newVar sign dvar).2.watches ((s.ca cr).get 1).neg
      rw [newVar_watches_eq s sign dvar _ r1]; exact hw1
  · intro i l cr hi hr
    have hl : l ∈ s.trail := List.getElem?_mem hi
    rw [hvd l hl] at hr
    exact h.reasonOK i l cr hi hr
  · intro i l hi
    have hl : l ∈ s.trail := List.getElem?_mem hi
    rw [hvd l hl]
    exact h.levelOK.level_eq i l hi
  · intro i l hi hl
    have hl' : l ∈ s.trail := List.getElem?_mem hl
    rw [hvd l hl']
    exact h.queueLevel i l hi hl

theorem Propagated_newVar (s : SATModule E) (sign dvar : Bool) (hW : WellFormed s) (n : Nat)
    (h : Propagated s n) : Propagated (s.newVar sign dvar).2 n := by
  intro i q hi hq w hw
  have hvar : ∀ l ∈ s.trail, l.var ≠ s.nVars := fun l hl =>
    Nat.ne_of_lt (hW.inRange.trail_range l hl)
  obtain ⟨l, h1, h2, h3⟩ := h i q hi hq w (newVar_watches_mem s sign dvar q w hw)
  have hw0 := newVar_watches_mem s sign dvar q w hw
  have hl : l.var ≠ s.nVars := Nat.ne_of_lt (hW.inRange.clause_range _ l h1)
  refine ⟨l, h1, ?_, ?_⟩
  · simp only [newVar, value, Function.update_noteq hl]
    exact h2
  · simp only [newVar, Function.update_noteq hl,
      Function.update_noteq (hvar q (List.getElem?_mem hq))]
    exact h3

theorem Coherent_uncheckedEnqueue (s : SATModule E) (l : Lit) (src : Option CRef)
    (h : Coherent s) (hl : s.value l = .l_Undef)
    (hsrc : ∀ cr, src = some cr → 1 ≤ (s.ca cr).lits.length ∧ (s.ca cr).get 0 = l ∧
      ∀ l' ∈ (s.ca cr).lits.tail, l'.var ∈ s.trail.map Lit.var) :
    Coherent (s.uncheckedEnqueue l src) := by
  refine ⟨TrailOK_uncheckedEnqueue s l src h.trailOK hl,
    ⟨h.watchOK.1, h.watchOK.2, h.watchOK.3, h.watchOK.4, h.watchOK.5⟩,
    ReasonOK_uncheckedEnqueue s l src h.trailOK h.reasonOK hl hsrc,
    LevelOK_uncheckedEnqueue s l src h.trailOK h.levelOK hl, ?_⟩
  intro i l' hi hl'
  simp only [uncheckedEnqueue] at hi hl' ⊢
  by_cases hlt : i < s.trail.length
  · rw [List.getElem?_append_left hlt] at hl'
    have hne : l'.var ≠ l.var := by
      intro he
      have := h.trailOK.trail_true l' (List.getElem?_mem hl')
      rw [value, he, (value_undef s l).mp hl] at this
      simp [lbool.xor] at this
    rw [Function.update_noteq hne]
    exact h.queueLevel i l' hi hl'
  · have hi2 : i = s.trail.length := by
      by_contra hne
      rw [List.getElem?_eq_none (by simp only [List.length_append, List.length_singleton]; omega)]
        at hl'
      exact Option.noConfusion hl'
    subst hi2
    simp only [List.getElem?_concat_length, Option.some.injEq] at hl'
    subst hl'
    rw [Function.update_same]
    rfl

theorem Propagated_uncheckedEnqueue (s : SATModule E) (l : Lit) (src : Option CRef)
    (hT : TrailOK s) (hl : s.value l = .l_Undef) (n : Nat) (hn : n ≤ s.trail.length)
    (h : Propagated s n) : Propagated (s.uncheckedEnqueue l src) n := by
  intro i q hi hq w hw
  have hq' : s.trail[i]? = some q := by
    simp only [uncheckedEnqueue] at hq
    rw [List.getElem?_append_left (by omega)] at hq
    exact hq
  obtain ⟨l', h1, h2, h3⟩ := h i q hi hq' w hw
  have e1 := value_uncheckedEnqueue s l src l' hl (by rw [h2]; exact fun hx => lbool.noConfusion hx)
  have e2 := value_uncheckedEnqueue s l src q hl
    (by rw [hT.trail_true q (List.getElem?_mem hq')]; exact fun hx => lbool.noConfusion hx)
  refine ⟨l', h1, by rw [e1.1]; exact h2, by rw [e1.2, e2.2]; exact h3⟩

theorem Clause.get_ne (c : Clause) (hnd : c.lits.Nodup) (i j : Nat) (hi : i < c.lits.length)
    (hj : j < c.lits.length) (hij : i ≠ j) : c.get i ≠ c.get j := by
  intro he
  unfold Clause.get at he
  rw [List.getD_eq_getElem _ _ hi, List.getD_eq_getElem _ _ hj] at he
  exact hij ((List.Nodup.getElem_inj_iff hnd).mp he)

/-- A new clause is allocated and attached (`ca.alloc`, `attachClause`): the invariants are
kept. -/
theorem Coherent_attach (s t : SATModule E) (c : Clause) (h : Coherent s) (hA : AllocOK s)
    (hnd : c.lits.Nodup) (hsz : 2 ≤ c.lits.length)
    (hca : t.ca = Function.update s.ca s.caSize c)
    (hw : t.watches = Function.update
      (Function.update s.watches (c.get 0).neg (s.watches (c.get 0).neg ++ [⟨s.caSize, c.get 1⟩]))
      (c.get 1).neg (s.watches (c.get 1).neg ++ [⟨s.caSize, c.get 0⟩]))
    (hcl : ∀ x, (x ∈ t.clauses ∨ x ∈ t.learnts) →
      (x ∈ s.clauses ∨ x ∈ s.learnts) ∨ x = s.caSize)
    (htrail : t.trail = s.trail) (hassigns : t.assigns = s.assigns)
    (hvardata : t.vardata = s.vardata) (hlim : t.trail_lim = s.trail_lim)
    (hqhead : t.qhead = s.qhead) : Coherent t := by
  have hab : (c.get 0).neg ≠ (c.get 1).neg := fun he =>
    Clause.get_ne c hnd 0 1 (by omega) (by omega) (by omega) (Lit.neg_injective he)
  have hfresh : ∀ q, ∀ w ∈ s.watches q, w.cref ≠ s.caSize := by
    intro q w hw' he
    have := (h.watchOK.watch_lit q w hw').1
    rw [he, hA _ (Nat.le_refl _)] at this
    simp at this
  have hold : ∀ cr, cr ≠ s.caSize → t.ca cr = s.ca cr := by
    intro cr hne; rw [hca, Function.update_noteq hne]
  have hself : t.ca s.caSize = c := by rw [hca, Function.update_same]
  have hWb : t.watches (c.get 1).neg = s.watches (c.get 1).neg ++ [⟨s.caSize, c.get 0⟩] := by
    rw [hw, Function.update_same]
  have hWa : t.watches (c.get 0).neg = s.watches (c.get 0).neg ++ [⟨s.caSize, c.get 1⟩] := by
    rw [hw, Function.update_noteq hab, Function.update_same]
  have hWo : ∀ q, q ≠ (c.get 0).neg → q ≠ (c.get 1).neg → t.watches q = s.watches q := by
    intro q h0 h1
    rw [hw, Function.update_noteq h1, Function.update_noteq h0]
  have hmem : ∀ q, ∀ w ∈ t.watches q, w ∈ s.watches q ∨
      (q = (c.get 0).neg ∧ w = ⟨s.caSize, c.get 1⟩) ∨
      (q = (c.get 1).neg ∧ w = ⟨s.caSize, c.get 0⟩) := by
    intro q w hw'
    by_cases h1 : q = (c.get 1).neg
    · subst h1
      rw [hWb] at hw'
      rcases List.mem_append.mp hw' with hw' | hw'
      · exact Or.inl hw'
      · exact Or.inr (Or.inr ⟨rfl, List.mem_singleton.mp hw'⟩)
    · by_cases h0 : q = (c.get 0).neg
      · subst h0
        rw [hWa] at hw'
        rcases List.mem_append.mp hw' with hw' | hw'
        · exact Or.inl hw'
        · exact Or.inr (Or.inl ⟨rfl, List.mem_singleton.mp hw'⟩)
      · rw [hWo q h0 h1] at hw'
        exact Or.inl hw'
  have hsub : ∀ q, ∀ w ∈ s.watches q, w ∈ t.watches q := by
    intro q w hw'
    by_cases h1 : q = (c.get 1).neg
    · subst h1; rw [hWb]; exact List.mem_append_left _ hw'
    · by_cases h0 : q = (c.get 0).neg
      · subst h0; rw [hWa]; exact List.mem_append_left _ hw'
      · rw [hWo q h0 h1]; exact hw'
  refine ⟨TrailOK_congr s t hassigns htrail h.trailOK, ⟨?_, ?_, ?_, ?_, ?_⟩, ?_,
    LevelOK_congr s t htrail hvardata hlim h.levelOK,
    QueueLevel_congr s t htrail hvardata hlim hqhead h.queueLevel⟩
  · intro cr
    by_cases hc : cr = s.caSize
    · subst hc; rw [hself]; exact hnd
    · rw [hold cr hc]; exact h.watchOK.lits_nodup cr
  · intro q w hw'
    rcases hmem q w hw' with h0 | ⟨rfl, rfl⟩ | ⟨rfl, rfl⟩
    · rw [hold _ (hfresh q w h0)]
      exact h.watchOK.watch_lit q w h0
    · simp only
      rw [hself, Lit.neg_neg]
      exact ⟨hsz, Or.inl rfl⟩
    · simp only
      rw [hself, Lit.neg_neg]
      exact ⟨hsz, Or.inr rfl⟩
  · intro q w hw'
    rcases hmem q w hw' with h0 | ⟨rfl, rfl⟩ | ⟨rfl, rfl⟩
    · rw [hold _ (hfresh q w h0)]
      exact h.watchOK.blocker_mem q w h0
    · simp only
      rw [hself]
      exact Clause.get_mem c 1 (by omega)
    · simp only
      rw [hself]
      exact Clause.get_mem c 0 (by omega)
  · intro q
    have hnew : ∀ (w : Watcher), w.cref = s.caSize →
        ((s.watches q ++ [w]).map Watcher.cref).Nodup := by
      intro w hwc
      rw [List.map_append]
      refine List.nodup_append.mpr ⟨h.watchOK.watch_nodup q, by simp, ?_⟩
      intro a ha hb
      simp only [List.map_cons, List.map_nil, List.mem_singleton] at hb
      obtain ⟨w0, hw0, hc⟩ := mem_map_cref ha
      exact hfresh q w0 hw0 (by rw [hc, hb, hwc])
    by_cases h1 : q = (c.get 1).neg
    · subst h1; rw [hWb]; exact hnew _ rfl
    · by_cases h0 : q = (c.get 0).neg
      · subst h0; rw [hWa]; exact hnew _ rfl
      · rw [hWo q h0 h1]; exact h.watchOK.watch_nodup q
  · intro cr hcr
    rcases hcl cr hcr with hcr | rfl
    · obtain ⟨hsz', hatt⟩ := h.watchOK.attached cr hcr
      have hne : cr ≠ s.caSize := by
        intro he
        rw [he, hA _ (Nat.le_refl _)] at hsz'
        simp at hsz'
      rw [hold cr hne]
      refine ⟨hsz', fun hm' => ?_⟩
      obtain ⟨⟨w0, hw0, hc0⟩, ⟨w1, hw1, hc1⟩⟩ := hatt hm'
      exact ⟨⟨w0, hsub _ w0 hw0, hc0⟩, ⟨w1, hsub _ w1 hw1, hc1⟩⟩
    · rw [hself]
      refine ⟨hsz, fun _ => ⟨⟨⟨s.caSize, c.get 1⟩, ?_, rfl⟩, ⟨⟨s.caSize, c.get 0⟩, ?_, rfl⟩⟩⟩
      · rw [hWa]; exact List.mem_append_right _ (List.mem_singleton_self _)
      · rw [hWb]; exact List.mem_append_right _ (List.mem_singleton_self _)
  · intro i l cr hi hr
    rw [htrail] at hi ⊢
    rw [hvardata] at hr
    have := h.reasonOK i l cr hi hr
    have hne : cr ≠ s.caSize := by
      intro he
      have h1 := this.1
      rw [he, hA _ (Nat.le_refl _)] at h1
      simp at h1
    rw [hold cr hne]
    exact this

theorem Propagated_attach (s t : SATModule E) (c : Clause) (n : Nat) (hC : Coherent s)
    (hA : AllocOK s) (hP : Propagated s n)
    (hca : t.ca = Function.update s.ca s.caSize c)
    (hw : t.watches = Function.update
      (Function.update s.watches (c.get 0).neg (s.watches (c.get 0).neg ++ [⟨s.caSize, c.get 1⟩]))
      (c.get 1).neg (s.watches (c.get 1).neg ++ [⟨s.caSize, c.get 0⟩]))
    (htrail : t.trail = s.trail) (hassigns : t.assigns = s.assigns)
    (hvardata : t.vardata = s.vardata)
    (hnew : ∀ (i : Nat) (q : Lit), i < n → s.trail[i]? = some q →
      (q = (c.get 0).neg ∨ q = (c.get 1).neg) →
      ∃ l ∈ c.lits, s.value l = .l_True ∧ (s.vardata l.var).level ≤ (s.vardata q.var).level) :
    Propagated t n := by
  intro i q hi hq w hw'
  rw [htrail] at hq
  rw [hvardata]
  have hfresh : ∀ q, ∀ w ∈ s.watches q, w.cref ≠ s.caSize := by
    intro q w hw' he
    have := (hC.watchOK.watch_lit q w hw').1
    rw [he, hA _ (Nat.le_refl _)] at this
    simp at this
  have hmem : w ∈ s.watches q ∨ ((q = (c.get 0).neg ∨ q = (c.get 1).neg) ∧ w.cref = s.caSize) := by
    rw [hw] at hw'
    by_cases h1 : q = (c.get 1).neg
    · subst h1
      rw [Function.update_same] at hw'
      rcases List.mem_append.mp hw' with hw' | hw'
      · exact Or.inl hw'
      · rw [List.mem_singleton.mp hw']
        exact Or.inr ⟨Or.inr rfl, rfl⟩
    · rw [Function.update_noteq h1] at hw'
      by_cases h0 : q = (c.get 0).neg
      · subst h0
        rw [Function.update_same] at hw'
        rcases List.mem_append.mp hw' with hw' | hw'
        · exact Or.inl hw'
        · rw [List.mem_singleton.mp hw']
          exact Or.inr ⟨Or.inl rfl, rfl⟩
      · rw [Function.update_noteq h0] at hw'
        exact Or.inl hw'
  rcases hmem with h0 | ⟨hq', hc⟩
  · obtain ⟨l, h1, h2, h3⟩ := hP i q hi hq w h0
    refine ⟨l, ?_, by rw [value_congr s t hassigns]; exact h2, h3⟩
    rw [hca, Function.update_noteq (hfresh q w h0)]
    exact h1
  · obtain ⟨l, h1, h2, h3⟩ := hnew i q hi hq hq'
    refine ⟨l, ?_, by rw [value_congr s t hassigns]; exact h2, h3⟩
    rw [hc, hca, Function.update_same]
    exact h1

theorem addClauseLoop_some (s : SATModule E) (L : List Lit) :
    ∀ (p : Option Lit) (K : List Lit), addClauseLoop s p L = some K →
      L.Sorted (fun a b => a.toInt ≤ b.toInt) →
      (∀ q, p = some q → ∀ l ∈ L, q.toInt ≤ l.toInt) →
      (∀ l ∈ K, l ∈ L ∧ s.value l = .l_Undef) ∧
      K.Pairwise (fun a b => a.toInt < b.toInt) ∧
      (∀ q, p = some q → ∀ l ∈ K, q.toInt < l.toInt) ∧
      (∀ l ∈ L, l ∈ K ∨ s.value l = .l_False ∨ some l = p) := by
  induction L with
  | nil =>
    intro p K h _ _
    simp only [addClauseLoop, Option.some.injEq] at h
    subst h
    simp
  | cons q rest ih =>
    intro p K h hs hp
    have hs' : rest.Sorted (fun a b => a.toInt ≤ b.toInt) := (List.sorted_cons.mp hs).2
    have hq : ∀ l ∈ rest, q.toInt ≤ l.toInt := (List.sorted_cons.mp hs).1
    unfold addClauseLoop at h
    split at h
    · cases h
    · rename_i h1
      split at h
      · rename_i h2
        cases hr : addClauseLoop s (some q) rest with
        | none => rw [hr] at h; cases h
        | some K' =>
          rw [hr] at h
          simp only [Option.map_some', Option.some.injEq] at h
          subst h
          obtain ⟨i1, i2, i3, i4⟩ := ih (some q) K' hr hs'
            (by intro q' hq' l hl; cases hq'; exact hq l hl)
          have hu : s.value q = .l_Undef := by
            cases hv : s.value q with
            | l_Undef => rfl
            | l_True => exact absurd (Or.inl hv) h1
            | l_False => exact absurd hv h2.1
          refine ⟨?_, ?_, ?_, ?_⟩
          · intro l hl
            rcases List.mem_cons.mp hl with rfl | hl
            · exact ⟨List.mem_cons_self _ _, hu⟩
            · exact ⟨List.mem_cons_of_mem _ (i1 l hl).1, (i1 l hl).2⟩
          · exact List.pairwise_cons.mpr ⟨fun l hl => i3 q rfl l hl, i2⟩
          · intro q' hq' l hl
            have hle := hp q' hq' q (List.mem_cons_self _ _)
            have hne : q'.toInt ≠ q.toInt := by
              intro he
              apply h2.2
              rw [hq', Lit.toInt_injective he]
            rcases List.mem_cons.mp hl with rfl | hl
            · omega
            · have := i3 q rfl l hl
              omega
          · intro l hl
            rcases List.mem_cons.mp hl with rfl | hl
            · exact Or.inl (List.mem_cons_self _ _)
            · rcases i4 l hl with h' | h' | h'
              · exact Or.inl (List.mem_cons_of_mem _ h')
              · exact Or.inr (Or.inl h')
              · simp only [Option.some.injEq] at h'
                subst h'
                exact Or.inl (List.mem_cons_self _ _)
      · rename_i h2
        obtain ⟨i1, i2, i3, i4⟩ := ih p K h hs'
          (by intro q' hq' l hl; exact hp q' hq' l (List.mem_cons_of_mem _ hl))
        refine ⟨fun l hl => ⟨List.mem_cons_of_mem _ (i1 l hl).1, (i1 l hl).2⟩, i2, i3, ?_⟩
        intro l hl
        rcases List.mem_cons.mp hl with rfl | hl
        · by_cases hf : s.value l = .l_False
          · exact Or.inr (Or.inl hf)
          · right; right
            by_contra hne
            exact h2 ⟨hf, hne⟩
        · exact i4 l hl

theorem addClauseLoop_none (s : SATModule E) (L : List Lit) :
    ∀ (p : Option Lit), addClauseLoop s p L = none →
      (∃ l ∈ L, s.value l = .l_True) ∨ (∃ l ∈ L, l.neg ∈ L) ∨
        (∃ l ∈ L, some l = p.map Lit.neg) := by
  induction L with
  | nil => intro p h; simp [addClauseLoop] at h
  | cons q rest ih =>
    intro p h
    unfold addClauseLoop at h
    split at h
    · rename_i h1
      rcases h1 with h1 | h1
      · exact Or.inl ⟨q, List.mem_cons_self _ _, h1⟩
      · exact Or.inr (Or.inr ⟨q, List.mem_cons_self _ _, h1⟩)
    · split at h
      · cases hr : addClauseLoop s (some q) rest with
        | some K' => rw [hr] at h; simp at h
        | none =>
          rcases ih (some q) hr with ⟨l, hl, hv⟩ | ⟨l, hl, hn⟩ | ⟨l, hl, hn⟩
          · exact Or.inl ⟨l, List.mem_cons_of_mem _ hl, hv⟩
          · exact Or.inr (Or.inl ⟨l, List.mem_cons_of_mem _ hl, List.mem_cons_of_mem _ hn⟩)
          · simp only [Option.map_some', Option.some.injEq] at hn
            refine Or.inr (Or.inl ⟨q, List.mem_cons_self _ _, ?_⟩)
            rw [← hn]
            exact List.mem_cons_of_mem _ hl
      · rcases ih p h with ⟨l, hl, hv⟩ | ⟨l, hl, hn⟩ | ⟨l, hl, hn⟩
        · exact Or.inl ⟨l, List.mem_cons_of_mem _ hl, hv⟩
        · exact Or.inr (Or.inl ⟨l, List.mem_cons_of_mem _ hl, List.mem_cons_of_mem _ hn⟩)
        · exact Or.inr (Or.inr ⟨l, List.mem_cons_of_mem _ hl, hn⟩)

theorem pairwise_lt_nodup (K : List Lit) (h : K.Pairwise (fun a b => a.toInt < b.toInt)) :
    K.Nodup := by
  refine List.Pairwise.imp ?_ h
  intro a b hab he
  rw [he] at hab
  exact Nat.lt_irrefl _ hab

theorem propagate_terminates (fuel : Nat) (s : SATModule E) (hwf : WellFormed s)
    (hfuel : s.nVars + s.trail.length ≤ fuel + s.qhead) :
    ∃ confl s', propagate fuel s = some (confl, s') := by
  obtain ⟨h1, h2, h3, h4, h5, h6⟩ := cleanAll_frame s
  have hm : numUndef s.cleanAll.assigns s.cleanAll.nVars + s.cleanAll.trail.length
      ≤ fuel + s.cleanAll.qhead := by
    rw [h1, h2, h3, h4]
    have := numUndef_le s.assigns s.nVars
    omega
  obtain ⟨r, hr⟩ := propagateLoop_terminates fuel none 0 s.cleanAll (cleanAll_wellFormed s hwf) hm
  obtain ⟨c, n, t⟩ := r
  exact ⟨c, _, by unfold propagate; rw [hr]⟩

theorem propagate_qhead (fuel : Nat) (s s' : SATModule E) (confl : Option CRef)
    (hq : s.qhead ≤ s.trail.length) (h : propagate fuel s = some (confl, s')) :
    s'.qhead = s'.trail.length := by
  obtain ⟨h1, h2, -, -, -, -⟩ := cleanAll_frame s
  unfold propagate at h
  cases hl : propagateLoop fuel none 0 s.cleanAll with
  | none => simp [hl] at h
  | some r =>
    obtain ⟨c, n, t⟩ := r
    have := propagateLoop_queue fuel none 0 s.cleanAll _ (by rw [h1, h2]; exact hq) hl
    simp only [hl, Option.some.injEq, Prod.mk.injEq] at h
    obtain ⟨-, rfl⟩ := h
    exact this

theorem AddFrame.af_refl (s : SATModule E) : AddFrame s s :=
  ⟨rfl, rfl, rfl, fun h => h, fun _ _ => rfl, fun _ h => ⟨h, List.Perm.refl _⟩⟩

theorem AddFrame.af_trans {s t u : SATModule E} (h1 : AddFrame s t) (h2 : AddFrame t u) :
    AddFrame s u := by
  refine ⟨h2.trail_lim_eq.trans h1.trail_lim_eq, h2.decisions_eq.trans h1.decisions_eq,
    h2.nVars_eq.trans h1.nVars_eq, fun h => h1.ok_mono (h2.ok_mono h), ?_, ?_⟩
  · intro v hv
    have e1 := h1.assigns_kept v hv
    rw [h2.assigns_kept v (by rw [e1]; exact hv), e1]
  · intro cr hcr
    obtain ⟨a1, a2⟩ := h1.clauses_kept cr hcr
    obtain ⟨b1, b2⟩ := h2.clauses_kept cr a1
    exact ⟨b1, b2.trans a2⟩

theorem value_kept (s s' : SATModule E)
    (h : ∀ v : Nat, s.assigns v ≠ .l_Undef → s'.assigns v = s.assigns v) (l : Lit)
    (hl : s.value l ≠ .l_Undef) : s'.value l = s.value l := by
  have : s.assigns l.var ≠ .l_Undef := fun hu => hl ((value_undef s l).mpr hu)
  simp only [value, h l.var this]

theorem Tracked_mono (s s' : SATModule E) (C : List Lit) (hf : AddFrame s s')
    (h : Tracked s C) : Tracked s' C := by
  rcases h with ⟨l, hl, hv⟩ | h | ⟨cr, hcr, hsub⟩
  · left
    refine ⟨l, hl, ?_⟩
    rw [value_kept s s' hf.assigns_kept l (by rw [hv]; exact fun hx => lbool.noConfusion hx)]
    exact hv
  · exact Or.inr (Or.inl h)
  · right; right
    obtain ⟨a1, a2⟩ := hf.clauses_kept cr hcr
    exact ⟨cr, a1, fun l hl => hsub l (a2.mem_iff.mp hl)⟩

theorem attach_fields (s : SATModule E) (K : List Lit) (lr : Bool) (t : SATModule E)
    (ht : t.ca = (s.alloc K lr).2.ca ∧ t.watches = (s.alloc K lr).2.watches)
    (hnd : K.Nodup) (hsz : 2 ≤ K.length) :
    (t.attachClause s.caSize).ca = Function.update s.ca s.caSize ⟨K, lr, 0⟩ ∧
    (t.attachClause s.caSize).watches = Function.update
      (Function.update s.watches ((Clause.mk K lr 0).get 0).neg
        (s.watches ((Clause.mk K lr 0).get 0).neg ++ [⟨s.caSize, (Clause.mk K lr 0).get 1⟩]))
      ((Clause.mk K lr 0).get 1).neg
      (s.watches ((Clause.mk K lr 0).get 1).neg ++ [⟨s.caSize, (Clause.mk K lr 0).get 0⟩]) := by
  obtain ⟨h1, h2⟩ := ht
  have hab : ((Clause.mk K lr 0).get 1).neg ≠ ((Clause.mk K lr 0).get 0).neg := fun he =>
    Clause.get_ne (Clause.mk K lr 0) hnd 1 0 (by simpa using hsz) (by simp only; omega) (by omega)
      (Lit.neg_injective he)
  have hc : t.ca s.caSize = ⟨K, lr, 0⟩ := by
    rw [h1]
    simp only [alloc, Function.update_same]
  constructor
  · simp only [attachClause, h1, alloc]
  · simp only [attachClause, hc, h2, alloc]
    rw [hc, Function.update_noteq hab]

theorem addClause_ready (fuel : Nat) (s s' : SATModule E) (ps : List Lit) (b : Bool)
    (hR : Ready s) (hps : ∀ l ∈ ps, l.var < s.nVars)
    (h : addClause_ fuel s ps = some (b, s')) :
    Ready s' ∧ AddFrame s s' ∧ (s'.ok = true → Tracked s' ps) := by
  have hW' := addClause_wellFormed fuel s s' ps b hR.wellFormed hps h
  unfold addClause_ at h
  split at h
  · rename_i hok
    cases h
    refine ⟨hR, AddFrame.af_refl s, ?_⟩
    intro hok'
    simp [hok'] at hok
  · rename_i hok
    have hok' : s.ok = true := by simpa using hok
    obtain ⟨hq, hP⟩ := hR.propagated hok'
    cases hK : addClauseLoop s none (sort ps) with
    | none =>
      simp only [hK, Option.some.injEq, Prod.mk.injEq] at h
      obtain ⟨-, rfl⟩ := h
      refine ⟨hR, AddFrame.af_refl s, fun _ => ?_⟩
      rcases addClauseLoop_none s _ none hK with ⟨l, hl, hv⟩ | ⟨l, hl, hn⟩ | ⟨l, hl, hn⟩
      · exact Or.inl ⟨l, (mem_sort ps l).mp hl, hv⟩
      · exact Or.inr (Or.inl ⟨l, (mem_sort ps l).mp hl, (mem_sort ps _).mp hn⟩)
      · simp at hn
    | some K =>
      obtain ⟨k1, k2, -, k4⟩ := addClauseLoop_some s _ none K hK (sort_sorted ps)
        (by intro q hq; cases hq)
      have knd := pairwise_lt_nodup K k2
      match K, hK, k1, knd with
      | [], hK, _, _ =>
        simp only [hK, Option.some.injEq, Prod.mk.injEq] at h
        obtain ⟨-, rfl⟩ := h
        refine ⟨⟨hW', ⟨⟨hR.coherent.trailOK.1, hR.coherent.trailOK.2, hR.coherent.trailOK.3⟩,
          ⟨hR.coherent.watchOK.1, hR.coherent.watchOK.2, hR.coherent.watchOK.3,
            hR.coherent.watchOK.4, hR.coherent.watchOK.5⟩, hR.coherent.reasonOK,
          ⟨hR.coherent.levelOK.1, hR.coherent.levelOK.2, hR.coherent.levelOK.3⟩,
          hR.coherent.queueLevel⟩, hR.allocOK, ?_, hR.unmarked⟩,
          ⟨rfl, rfl, rfl, ?_, fun _ _ => rfl, fun _ hc => ⟨hc, List.Perm.refl _⟩⟩, ?_⟩
        · intro hx; exact absurd hx (by simp)
        · intro hx; exact absurd hx (by simp)
        · intro hx; exact absurd hx (by simp)
      | [l], hK, k1, _ =>
        have hu : s.value l = .l_Undef := (k1 l (List.mem_singleton.mpr rfl)).2
        have hlps : l ∈ ps := (mem_sort ps l).mp (k1 l (List.mem_singleton.mpr rfl)).1
        simp only [hK] at h
        cases hp : (s.uncheckedEnqueue l none).propagate fuel with
        | none => simp [hp] at h
        | some r =>
          obtain ⟨confl, s1⟩ := r
          simp only [hp, Option.some.injEq, Prod.mk.injEq] at h
          obtain ⟨-, rfl⟩ := h
          have hCe := Coherent_uncheckedEnqueue s l none hR.coherent hu
            (by intro cr hcr; cases hcr)
          have hPe : Propagated (s.uncheckedEnqueue l none) (s.uncheckedEnqueue l none).qhead := by
            show Propagated (s.uncheckedEnqueue l none) s.qhead
            rw [hq]
            exact Propagated_uncheckedEnqueue s l none hR.coherent.trailOK hu _ (Nat.le_refl _) hP
          have hqe : (s.uncheckedEnqueue l none).qhead
              ≤ (s.uncheckedEnqueue l none).trail.length := by
            show s.qhead ≤ (s.trail ++ [l]).length
            rw [hq]; simp
          obtain ⟨hC1, -, hcase, hperm⟩ := propagate_inv True fuel _ s1 confl hCe hqe
            (fun _ => hPe) hp
          have hfr := propagate_frame fuel _ s1 confl hp
          have hAe : AllocOK (s.uncheckedEnqueue l none) := hR.allocOK
          have hA1 : AllocOK s1 := propagate_allocOK fuel _ s1 confl hAe hp
          have hq1 := propagate_qhead fuel _ s1 confl hqe hp
          have hkept : ∀ v : Nat, s.assigns v ≠ .l_Undef → s1.assigns v = s.assigns v := by
            intro v hv
            have hne : v ≠ l.var := by
              intro he
              apply hv
              rw [he]
              exact (value_undef s l).mp hu
            have e1 : (s.uncheckedEnqueue l none).assigns v = s.assigns v := by
              simp only [uncheckedEnqueue, Function.update_noteq hne]
            rw [hfr.assigns_kept v (by rw [e1]; exact hv), e1]
          refine ⟨⟨hW', ⟨⟨hC1.trailOK.1, hC1.trailOK.2, hC1.trailOK.3⟩,
            ⟨hC1.watchOK.1, hC1.watchOK.2, hC1.watchOK.3, hC1.watchOK.4, hC1.watchOK.5⟩,
            hC1.reasonOK, ⟨hC1.levelOK.1, hC1.levelOK.2, hC1.levelOK.3⟩, hC1.queueLevel⟩,
            hA1, ?_, ?_⟩, ⟨hfr.trail_lim_eq, hfr.decisions_eq, hfr.nVars_eq, fun _ => hok', hkept,
              ?_⟩, ?_⟩
          · intro hx
            have hcn : confl = none := by
              cases confl with
              | none => rfl
              | some c => simp at hx
            rcases hcase with ⟨-, hPP⟩ | ⟨cr, hc, -⟩
            · exact ⟨hq1, hPP trivial⟩
            · rw [hcn] at hc; cases hc
          · intro cr hcr
            rw [hfr.clauses_eq, hfr.learnts_eq] at hcr
            rw [propagate_mark fuel _ s1 confl hp cr]
            exact hR.unmarked cr hcr
          · intro cr hcr
            refine ⟨?_, hperm cr⟩
            show cr ∈ s1.clauses
            rw [hfr.clauses_eq]
            exact hcr
          · intro _
            left
            refine ⟨l, hlps, ?_⟩
            have hle : (s.uncheckedEnqueue l none).value l = .l_True :=
              hCe.trailOK.trail_true l (by simp [uncheckedEnqueue])
            have := value_kept (s.uncheckedEnqueue l none) s1 hfr.assigns_kept l
              (by rw [hle]; exact fun hx => lbool.noConfusion hx)
            show s1.value l = .l_True
            rw [this]
            exact hle
      | c0 :: c1 :: cs, hK, k1, knd =>
        simp only [hK, Option.some.injEq, Prod.mk.injEq] at h
        obtain ⟨-, hs'⟩ := h
        have hf := attach_fields s (c0 :: c1 :: cs) false
          ({ (s.alloc (c0 :: c1 :: cs) false).2 with
            clauses := (s.alloc (c0 :: c1 :: cs) false).2.clauses
              ++ [(s.alloc (c0 :: c1 :: cs) false).1] }) ⟨rfl, rfl⟩ knd (by simp)
        have hca : s'.ca = Function.update s.ca s.caSize ⟨c0 :: c1 :: cs, false, 0⟩ := by
          rw [← hs']; exact hf.1
        have hw : s'.watches = Function.update
            (Function.update s.watches ((Clause.mk (c0 :: c1 :: cs) false 0).get 0).neg
              (s.watches ((Clause.mk (c0 :: c1 :: cs) false 0).get 0).neg
                ++ [⟨s.caSize, (Clause.mk (c0 :: c1 :: cs) false 0).get 1⟩]))
            ((Clause.mk (c0 :: c1 :: cs) false 0).get 1).neg
            (s.watches ((Clause.mk (c0 :: c1 :: cs) false 0).get 1).neg
              ++ [⟨s.caSize, (Clause.mk (c0 :: c1 :: cs) false 0).get 0⟩]) := by
          rw [← hs']; exact hf.2
        have hclauses : s'.clauses = s.clauses ++ [s.caSize] := by rw [← hs']; rfl
        have hlearnts : s'.learnts = s.learnts := by rw [← hs']; rfl
        have htrail : s'.trail = s.trail := by rw [← hs']; rfl
        have hassigns : s'.assigns = s.assigns := by rw [← hs']; rfl
        have hvardata : s'.vardata = s.vardata := by rw [← hs']; rfl
        have hlim : s'.trail_lim = s.trail_lim := by rw [← hs']; rfl
        have hqhead : s'.qhead = s.qhead := by rw [← hs']; rfl
        have hcaSize : s'.caSize = s.caSize + 1 := by rw [← hs']; rfl
        have hdec : s'.decisions = s.decisions := by rw [← hs']; rfl
        have hnv : s'.nVars = s.nVars := by rw [← hs']; rfl
        have hfresh : ∀ cr ∈ s.clauses, cr ≠ s.caSize := by
          intro cr hcr he
          have := (hR.coherent.watchOK.attached cr (Or.inl hcr)).1
          rw [he, hR.allocOK _ (Nat.le_refl _)] at this
          simp at this
        have hu0 : s.value c0 = .l_Undef := (k1 c0 (by simp)).2
        have hu1 : s.value c1 = .l_Undef := (k1 c1 (by simp)).2
        have hC' := Coherent_attach s s' ⟨c0 :: c1 :: cs, false, 0⟩ hR.coherent hR.allocOK knd
          (by simp) hca hw
          (by
            intro x hx
            rw [hclauses, hlearnts] at hx
            rcases hx with hx | hx
            · rcases List.mem_append.mp hx with hx | hx
              · exact Or.inl (Or.inl hx)
              · exact Or.inr (List.mem_singleton.mp hx)
            · exact Or.inl (Or.inr hx)) htrail hassigns hvardata hlim hqhead
        have hP' := Propagated_attach s s' ⟨c0 :: c1 :: cs, false, 0⟩ s.trail.length hR.coherent
          hR.allocOK hP hca hw htrail hassigns hvardata
          (by
            intro i q _ hqi hqq
            exfalso
            have hqt := hR.coherent.trailOK.trail_true q (List.getElem?_mem hqi)
            rcases hqq with rfl | rfl
            · rw [value_neg_true] at hqt
              have : s.value c0 = .l_False := hqt
              rw [hu0] at this
              exact lbool.noConfusion this
            · rw [value_neg_true] at hqt
              have : s.value c1 = .l_False := hqt
              rw [hu1] at this
              exact lbool.noConfusion this)
        refine ⟨⟨hW', hC', ?_, fun _ => ⟨by rw [hqhead, htrail]; exact hq, by
            rw [htrail]; exact hP'⟩, ?_⟩,
          ⟨hlim, hdec, hnv, fun _ => hok', fun v _ => by rw [hassigns], ?_⟩,
          fun _ => Or.inr (Or.inr ?_)⟩
        · intro cr hcr
          rw [hcaSize] at hcr
          have hlt : s.caSize < cr := hcr
          rw [hca, Function.update_noteq (Nat.ne_of_gt hlt)]
          exact hR.allocOK cr (Nat.le_of_lt hlt)
        · intro cr hcr
          rw [hclauses, hlearnts] at hcr
          rw [hca]
          by_cases hce : cr = s.caSize
          · rw [hce, Function.update_same]
            exact Nat.zero_ne_one
          · rw [Function.update_noteq hce]
            rcases hcr with hcr | hcr
            · rcases List.mem_append.mp hcr with hcr | hcr
              · exact hR.unmarked cr (Or.inl hcr)
              · exact absurd (List.mem_singleton.mp hcr) hce
            · exact hR.unmarked cr (Or.inr hcr)
        · intro cr hcr
          refine ⟨by rw [hclauses]; exact List.mem_append_left _ hcr, ?_⟩
          rw [hca, Function.update_noteq (hfresh cr hcr)]
        · refine ⟨s.caSize, by
            rw [hclauses]; exact List.mem_append_right _ (List.mem_singleton_self _), ?_⟩
          intro l hl
          rw [hca, Function.update_same] at hl
          exact (mem_sort ps l).mp (k1 l hl).1

theorem afterAddClause_ready (s : SATModule E) (ps : List Lit) (hR : Ready s)
    (hps : ∀ l ∈ ps, l.var < s.nVars) :
    Ready (afterAddClause s ps) ∧ AddFrame s (afterAddClause s ps) ∧
      ((afterAddClause s ps).ok = true → Tracked (afterAddClause s ps) ps) := by
  have hex : ∃ r, addClause_ (s.nVars + s.trail.length + 1) s ps = some r := by
    unfold addClause_
    split
    · exact ⟨_, rfl⟩
    · cases hK : addClauseLoop s none (sort ps) with
      | none => exact ⟨_, rfl⟩
      | some K =>
        match K, hK with
        | [], _ => exact ⟨_, rfl⟩
        | [l], hK =>
          have hl : l.var < s.nVars :=
            hps l ((mem_sort ps l).mp (addClauseLoop_subset s _ _ _ hK l (by simp)))
          obtain ⟨confl, s1, hp⟩ := propagate_terminates (s.nVars + s.trail.length + 1)
            (s.uncheckedEnqueue l none)
            (WellFormed_uncheckedEnqueue s l none hl hR.wellFormed)
            (by
              show s.nVars + (s.trail ++ [l]).length ≤ s.nVars + s.trail.length + 1 + s.qhead
              simp only [List.length_append, List.length_singleton]
              omega)
          simp only [hp]
          exact ⟨_, rfl⟩
        | c0 :: c1 :: cs, _ => exact ⟨_, rfl⟩
  obtain ⟨r, hr⟩ := hex
  have := addClause_ready _ s r.2 ps r.1 hR hps hr
  unfold afterAddClause
  rw [hr]
  exact this

/-- Completeness of the two watched literals: when they are propagated for the whole trail, a
clause that has its two watchers is not false, and when all its literals but one are false this
one is true. -/
theorem watched_complete (s : SATModule E) (hC : Coherent s)
    (hP : Propagated s s.trail.length) (cr : CRef)
    (h0 : ∃ w ∈ s.watches ((s.ca cr).get 0).neg, w.cref = cr)
    (h1 : ∃ w ∈ s.watches ((s.ca cr).get 1).neg, w.cref = cr) :
    (¬ ∀ l ∈ (s.ca cr).lits, s.value l = .l_False) ∧
    (∀ l ∈ (s.ca cr).lits, (∀ l' ∈ (s.ca cr).lits, l' ≠ l → s.value l' = .l_False) →
      s.value l = .l_True) := by
  obtain ⟨w0, hw0, hc0⟩ := h0
  obtain ⟨w1, hw1, hc1⟩ := h1
  have hsz : 2 ≤ (s.ca cr).lits.length := by
    have := (hC.watchOK.watch_lit _ w0 hw0).1
    rw [hc0] at this
    exact this
  have hm0 : (s.ca cr).get 0 ∈ (s.ca cr).lits := Clause.get_mem _ 0 (by omega)
  have hm1 : (s.ca cr).get 1 ∈ (s.ca cr).lits := Clause.get_mem _ 1 (by omega)
  have hne : (s.ca cr).get 0 ≠ (s.ca cr).get 1 :=
    Clause.get_ne _ (hC.watchOK.lits_nodup cr) 0 1 (by omega) (by omega) (by omega)
  have htrue : ∀ (x : Lit) (w : Watcher), w ∈ s.watches x.neg → w.cref = cr →
      s.value x = .l_False → ∃ l ∈ (s.ca cr).lits, s.value l = .l_True := by
    intro x w hw hc hx
    obtain ⟨i, hi⟩ := List.getElem?_of_mem (neg_mem_trail_of_false s hC.trailOK x hx)
    have hlt := (List.getElem?_eq_some.mp hi).1
    obtain ⟨l, hl1, hl2, -⟩ := hP i x.neg hlt hi w hw
    rw [hc] at hl1
    exact ⟨l, hl1, hl2⟩
  constructor
  · intro hall
    obtain ⟨l, hl1, hl2⟩ := htrue _ w0 hw0 hc0 (hall _ hm0)
    rw [hall l hl1] at hl2
    exact lbool.noConfusion hl2
  · intro l hl hothers
    have key : ∃ t ∈ (s.ca cr).lits, s.value t = .l_True := by
      by_cases he : (s.ca cr).get 0 = l
      · have : (s.ca cr).get 1 ≠ l := fun h' => hne (he.trans h'.symm)
        exact htrue _ w1 hw1 hc1 (hothers _ hm1 this)
      · exact htrue _ w0 hw0 hc0 (hothers _ hm0 he)
    obtain ⟨t, ht1, ht2⟩ := key
    by_cases he : t = l
    · rw [← he]; exact ht2
    · rw [hothers t ht1 he] at ht2
      exact lbool.noConfusion ht2

theorem Ready_init (E : Type) : Ready (init E) :=
  ⟨WellFormed_init E, Coherent_init E, AllocOK_init E, fun _ => ⟨rfl, by
    intro i q hi
    simp [init] at hi⟩, by
    intro cr hcr
    simp [init] at hcr⟩

theorem Ready_newVar (s : SATModule E) (sign dvar : Bool) (h : Ready s) :
    Ready (s.newVar sign dvar).2 :=
  ⟨WellFormed_newVar s sign dvar h.wellFormed, Coherent_newVar s sign dvar h.wellFormed h.coherent,
    AllocOK_newVar s sign dvar h.allocOK, fun hok =>
      ⟨(h.propagated hok).1, Propagated_newVar s sign dvar h.wellFormed _ (h.propagated hok).2⟩,
    h.unmarked⟩

theorem freshSolver_facts (E : Type) (n : Nat) :
    Ready (freshSolver E n) ∧ (freshSolver E n).nVars = n ∧ (freshSolver E n).trail_lim = [] ∧
      (freshSolver E n).decisions = 0 := by
  induction n with
  | zero => exact ⟨Ready_init E, rfl, rfl, rfl⟩
  | succ n ih =>
    obtain ⟨h1, h2, h3, h4⟩ := ih
    refine ⟨Ready_newVar _ true true h1, ?_, h3, h4⟩
    show (freshSolver E n).nVars + 1 = n + 1
    rw [h2]

theorem addClauses_ready (cls : List (List Lit)) :
    ∀ (s : SATModule E), Ready s → (∀ C ∈ cls, ∀ l ∈ C, l.var < s.nVars) →
      Ready (addClauses s cls) ∧ AddFrame s (addClauses s cls) ∧
        ((addClauses s cls).ok = true → ∀ C ∈ cls, Tracked (addClauses s cls) C) := by
  induction cls with
  | nil =>
    intro s hR _
    exact ⟨hR, AddFrame.af_refl s, fun _ C hC => absurd hC (List.not_mem_nil _)⟩
  | cons ps rest ih =>
    intro s hR hr
    obtain ⟨a1, a2, a3⟩ := afterAddClause_ready s ps hR (hr ps (List.mem_cons_self _ _))
    obtain ⟨b1, b2, b3⟩ := ih (afterAddClause s ps) a1
      (by
        intro C hC l hl
        rw [a2.nVars_eq]
        exact hr C (List.mem_cons_of_mem _ hC) l hl)
    refine ⟨b1, a2.af_trans b2, ?_⟩
    intro hok C hC
    rcases List.mem_cons.mp hC with rfl | hC
    · exact Tracked_mono _ _ _ b2 (a3 (b2.ok_mono hok))
    · exact b3 hok C hC

theorem unitForced_true (s : SATModule E) (hR : Ready s) (hok : s.ok = true)
    (cls : List (List Lit)) (hT : ∀ C ∈ cls, Tracked s C) (l : Lit) (h : UnitForced cls l) :
    s.value l = .l_True := by
  obtain ⟨hq, hP⟩ := hR.propagated hok
  induction h with
  | unit C l hC hl _ ih =>
    have hfalse : ∀ l' ∈ C, l' ≠ l → s.value l' = .l_False :=
      fun l' hl' hne => (value_neg_true s l').mp (ih l' hl' hne)
    rcases hT C hC with ⟨t, ht, hv⟩ | ⟨x, hx, hxn⟩ | ⟨cr, hcr, hsub⟩
    · by_cases he : t = l
      · rw [← he]; exact hv
      · rw [hfalse t ht he] at hv
        exact lbool.noConfusion hv
    · by_cases he : x = l
      · rw [← he]
        have : x.neg ≠ l := by rw [← he]; exact Lit.neg_ne x
        have := hfalse x.neg hxn this
        exact (value_neg_false s x).mp this
      · have h1 := hfalse x hx he
        by_cases he' : x.neg = l
        · rw [← he']
          exact (value_neg_true s x).mpr h1
        · have h2 := hfalse x.neg hxn he'
          rw [(value_neg_true s x).mpr h1] at h2
          exact lbool.noConfusion h2
    · obtain ⟨a0, a1⟩ := (hR.coherent.watchOK.attached cr (Or.inl hcr)).2
        (hR.unmarked cr (Or.inl hcr))
      obtain ⟨c1, c2⟩ := watched_complete s hR.coherent hP cr a0 a1
      by_cases hin : l ∈ (s.ca cr).lits
      · exact c2 l hin (fun l' hl' hne => hfalse l' (hsub l' hl') hne)
      · exfalso
        apply c1
        intro l' hl'
        exact hfalse l' (hsub l' hl') (fun he => hin (he ▸ hl'))

theorem Ready_twoVars : Ready twoVars :=
  Ready_newVar _ true true (Ready_newVar _ true true (Ready_init LinExpr))

theorem Ready_twoBinaryClauses : Ready twoBinaryClauses :=
  (afterAddClause_ready _ _
    (afterAddClause_ready twoVars _ Ready_twoVars (by decide)).1 (by decide)).1

/-- The conflict and the reasons of `propagate`, in a state that is well-formed and has the
invariants of the trail, the watch lists, the reasons and the levels: `propagate` returns (with
every amount of fuel from `nVars + trail.size() - qhead` on), and at its return: when the result
is a clause reference other than `CRef_Undef`, every literal of that clause is false; and every
literal that `propagate` enqueued has a reason, a clause in which it is the literal `0` and in
which all other literals are false. -/
theorem propagate_reasons (s : SATModule E) (hW : WellFormed s) (hC : Coherent s)
    (fuel : Nat) (hfuel : s.nVars + s.trail.length ≤ fuel + s.qhead) :
    ∃ confl s' new, propagate fuel s = some (confl, s') ∧ s'.trail = s.trail ++ new ∧
      (∀ cr, confl = some cr → ∀ l ∈ (s'.ca cr).lits, s'.value l = .l_False) ∧
      (∀ l ∈ new, ∃ cr, (s'.vardata l.var).reason = some cr ∧ (s'.ca cr).get 0 = l ∧
        ∀ l' ∈ (s'.ca cr).lits.tail, s'.value l' = .l_False) := by
  obtain ⟨confl, s', hp⟩ := propagate_terminates fuel s hW hfuel
  obtain ⟨hC', hR, hcase, -⟩ := propagate_inv False fuel s s' confl hC hW.qhead_le
    (fun hf => absurd hf id) hp
  obtain ⟨new, hnew⟩ := (propagate_frame fuel s s' confl hp).trail_ext
  refine ⟨confl, s', new, hp, hnew, ?_, ?_⟩
  · intro cr hcr
    rcases hcase with ⟨hn, -⟩ | ⟨cr', hc', ⟨hall, -⟩, -⟩
    · rw [hn] at hcr; cases hcr
    · rw [hc'] at hcr
      cases hcr
      exact hall
  · intro l hl
    obtain ⟨j, hj⟩ := List.getElem?_of_mem hl
    have hjlt := (List.getElem?_eq_some.mp hj).1
    have hi : s'.trail[s.trail.length + j]? = some l := by
      rw [hnew, List.getElem?_append_right (by omega)]
      simpa using hj
    obtain ⟨cr, hr, htail⟩ := hR (s.trail.length + j) l (by omega) hi
    obtain ⟨-, h0, -⟩ := hC'.reasonOK _ l cr hi hr
    exact ⟨cr, hr, h0, htail⟩

/-- The completeness of the watch lists, in a state that is well-formed, has the invariants of
the trail, the watch lists, the reasons and the levels, and in which the two watched literals are
propagated up to `qhead`: `propagate` returns, and when it returns `CRef_Undef` the invariants
hold again, the two watched literals are propagated for the whole trail, no clause in `clauses`
or `learnts` that is not marked as deleted has all of its literals false, and none has an
unassigned literal with all its other literals false. -/
theorem propagate_watched (s : SATModule E) (hW : WellFormed s) (hC : Coherent s)
    (hP : Propagated s s.qhead) (fuel : Nat)
    (hfuel : s.nVars + s.trail.length ≤ fuel + s.qhead) :
    ∃ confl s', propagate fuel s = some (confl, s') ∧
      (confl = none → Coherent s' ∧ Propagated s' s'.trail.length ∧
        ∀ cr, cr ∈ s'.clauses ∨ cr ∈ s'.learnts → (s'.ca cr).mark ≠ 1 →
          (∃ l ∈ (s'.ca cr).lits, s'.value l ≠ .l_False) ∧
          (∀ l ∈ (s'.ca cr).lits, s'.value l = .l_Undef →
            ∃ l' ∈ (s'.ca cr).lits, l' ≠ l ∧ s'.value l' ≠ .l_False)) := by
  obtain ⟨confl, s', hp⟩ := propagate_terminates fuel s hW hfuel
  obtain ⟨hC', -, hcase, -⟩ := propagate_inv True fuel s s' confl hC hW.qhead_le
    (fun _ => hP) hp
  refine ⟨confl, s', hp, ?_⟩
  intro hn
  rcases hcase with ⟨-, hPP⟩ | ⟨cr, hc, -⟩
  swap
  · rw [hn] at hc; cases hc
  refine ⟨hC', hPP trivial, ?_⟩
  intro cr hcr hm
  obtain ⟨a0, a1⟩ := (hC'.watchOK.attached cr hcr).2 hm
  obtain ⟨c1, c2⟩ := watched_complete s' hC' (hPP trivial) cr a0 a1
  constructor
  · by_contra hno
    apply c1
    intro l hl
    by_contra hf
    exact hno ⟨l, hl, hf⟩
  · intro l hl hu
    by_contra hno
    have := c2 l hl (by
      intro l' hl' hne
      by_contra hf
      exact hno ⟨l', hl', hne, hf⟩)
    rw [hu] at this
    exact lbool.noConfusion this

/-- Claim C13: Scenario A.  After the unit clause `[x]` and the clause `[~x, y]` were added to
the fresh solver with the variables `x` and `y`, in either order, `x` and `y` are true, both at
decision level `0`, the decision level is `0`, the counter of decisions is `0` and `ok` is set.
In general, after any clauses over the variables of a fresh solver were added, the decision level
and the counter of decisions are `0`, and as long as `ok` is set (no conflict was found) every
literal forced by unit propagation from the clauses is true. -/
theorem addClause_unit_propagation :
    (unitThenBinary.value (mkLit 0 false) = .l_True ∧
      unitThenBinary.value (mkLit 1 false) = .l_True ∧
      (unitThenBinary.vardata 0).level = 0 ∧ (unitThenBinary.vardata 1).level = 0 ∧
      unitThenBinary.decisionLevel = 0 ∧ unitThenBinary.decisions = 0 ∧
      unitThenBinary.ok = true) ∧
    (binaryThenUnit.value (mkLit 0 false) = .l_True ∧
      binaryThenUnit.value (mkLit 1 false) = .l_True ∧
      (binaryThenUnit.vardata 0).level = 0 ∧ (binaryThenUnit.vardata 1).level = 0 ∧
      binaryThenUnit.decisionLevel = 0 ∧ binaryThenUnit.decisions = 0 ∧
      binaryThenUnit.ok = true) ∧
    (∀ (n : Nat) (cls : List (List Lit)), (∀ C ∈ cls, ∀ l ∈ C, l.var < n) →
      (addClauses (freshSolver E n) cls).decisionLevel = 0 ∧
      (addClauses (freshSolver E n) cls).decisions = 0 ∧
      ((addClauses (freshSolver E n) cls).ok = true →
        ∀ l, UnitForced cls l → (addClauses (freshSolver E n) cls).value l = .l_True)) := by
  refine ⟨by decide, by decide, ?_⟩
  intro n cls hr
  obtain ⟨f1, f2, f3, f4⟩ := freshSolver_facts E n
  obtain ⟨a1, a2, a3⟩ := addClauses_ready cls (freshSolver E n) f1 (by rw [f2]; exact hr)
  refine ⟨?_, ?_, ?_⟩
  · simp only [decisionLevel, a2.trail_lim_eq, f3, List.length_nil]
  · rw [a2.decisions_eq, f4]
  · intro hok l hl
    exact unitForced_true _ a1 hok cls (a3 hok) l hl

/-- Claim C13, witness: the general part for the two clauses of Scenario A. -/
theorem addClause_unit_propagation_witness :
    (addClauses (freshSolver LinExpr 2)
      [[mkLit 0 false], [mkLit 0 true, mkLit 1 false]]).decisionLevel = 0 ∧
    (addClauses (freshSolver LinExpr 2)
      [[mkLit 0 false], [mkLit 0 true, mkLit 1 false]]).decisions = 0 ∧
    ((addClauses (freshSolver LinExpr 2)
      [[mkLit 0 false], [mkLit 0 true, mkLit 1 false]]).ok = true →
      ∀ l, UnitForced [[mkLit 0 false], [mkLit 0 true, mkLit 1 false]] l →
        (addClauses (freshSolver LinExpr 2)
          [[mkLit 0 false], [mkLit 0 true, mkLit 1 false]]).value l = .l_True) :=
  (@addClause_unit_propagation LinExpr).2.2 2 [[mkLit 0 false], [mkLit 0 true, mkLit 1 false]]
    (by decide)

theorem analyze_example :
    conflictAtLevelOne.1 = some 1 ∧
    conflictAtLevelOne.2.trail = [mkLit 0 false, mkLit 1 false, mkLit 2 false] ∧
    (analyze conflictAtLevelOne.2 1).map (fun r => (r.1, r.2.1)) = some ([mkLit 1 true], 0) := by
  decide

/-! ## Conflict analysis -/

theorem levelAt_mono (lim : List Nat) {i j : Nat} (h : i ≤ j) : levelAt lim i ≤ levelAt lim j := by
  unfold levelAt
  induction lim with
  | nil => simp
  | cons d lim ih =>
    simp only [List.filter_cons]
    by_cases h1 : d ≤ i
    · have h2 : d ≤ j := Nat.le_trans h1 h
      simp only [h1, h2, decide_True, ↓reduceIte, List.length_cons]
      omega
    · by_cases h2 : d ≤ j
      · simp only [h1, h2, decide_True, decide_False, Bool.false_eq_true, ↓reduceIte, List.length_cons]
        omega
      · simp only [h1, h2, decide_False, Bool.false_eq_true, ↓reduceIte]
        exact ih

theorem levelAt_lt_of_mem (lim : List Nat) {i j : Nat} (hj : j ∈ lim) (h : i < j) :
    levelAt lim i < levelAt lim j := by
  unfold levelAt
  induction lim with
  | nil => simp at hj
  | cons d lim ih =>
    simp only [List.filter_cons]
    rcases List.mem_cons.mp hj with rfl | hj
    · have h1 : ¬ j ≤ i := by omega
      simp only [h1, decide_False, Nat.le_refl, decide_True, Bool.false_eq_true, ↓reduceIte,
        List.length_cons]
      have := levelAt_mono lim (Nat.le_of_lt h)
      unfold levelAt at this
      omega
    · have := ih hj
      by_cases h1 : d ≤ i
      · have h2 : d ≤ j := by omega
        simp only [h1, h2, decide_True, ↓reduceIte, List.length_cons]
        omega
      · by_cases h2 : d ≤ j
        · simp only [h1, h2, decide_True, decide_False, Bool.false_eq_true, ↓reduceIte, List.length_cons]
          omega
        · simp only [h1, h2, decide_False, Bool.false_eq_true, ↓reduceIte]
          exact this

theorem getD_of_getElem? (L : List Lit) (i : Nat) (l : Lit) (h : L[i]? = some l) :
    L.getD i ⟨0, false⟩ = l := by
  obtain ⟨hi, he⟩ := List.getElem?_eq_some.mp h
  rw [List.getD_eq_getElem _ _ hi, he]

theorem getElem?_of_getD (L : List Lit) (i : Nat) (hi : i < L.length) :
    L[i]? = some (L.getD i ⟨0, false⟩) := by
  rw [List.getD_eq_getElem _ _ hi]
  exact List.getElem?_eq_getElem hi

/-- The positions of a variable on the trail agree: no variable is on the trail twice. -/
theorem trail_pos_unique (s : SATModule E) (hT : TrailOK s) (i j : Nat) (l l' : Lit)
    (hi : s.trail[i]? = some l) (hj : s.trail[j]? = some l') (hv : l.var = l'.var) : i = j := by
  obtain ⟨hi1, hi2⟩ := List.getElem?_eq_some.mp hi
  obtain ⟨hj1, hj2⟩ := List.getElem?_eq_some.mp hj
  have hnd := hT.nodup
  have e1 : (s.trail.map Lit.var)[i]? = some l.var := by
    rw [List.getElem?_map, hi]; rfl
  have e2 : (s.trail.map Lit.var)[j]? = some l.var := by
    rw [List.getElem?_map, hj, hv]; rfl
  obtain ⟨a1, a2⟩ := List.getElem?_eq_some.mp e1
  obtain ⟨b1, b2⟩ := List.getElem?_eq_some.mp e2
  exact (List.Nodup.getElem_inj_iff hnd).mp (a2.trans b2.symm)

theorem countSeen_congr (s : SATModule E) (seen seen' : Var → Bool) (n : Nat)
    (h : ∀ i, i < n → seen' (s.trail.getD i ⟨0, false⟩).var = seen (s.trail.getD i ⟨0, false⟩).var) :
    countSeen s seen' n = countSeen s seen n := by
  induction n with
  | zero => rfl
  | succ n ih =>
    simp only [countSeen]
    rw [ih (fun i hi => h i (by omega)), h n (by omega)]

theorem countSeen_le (s : SATModule E) (seen : Var → Bool) (n : Nat) : countSeen s seen n ≤ n := by
  induction n with
  | zero => simp [countSeen]
  | succ n ih =>
    simp only [countSeen]
    split <;> omega

theorem countSeen_pos (s : SATModule E) (seen : Var → Bool) (n i : Nat) (hi : i < n)
    (h1 : seen (s.trail.getD i ⟨0, false⟩).var = true)
    (h2 : (s.vardata (s.trail.getD i ⟨0, false⟩).var).level = s.decisionLevel) :
    0 < countSeen s seen n := by
  induction n with
  | zero => omega
  | succ n ih =>
    simp only [countSeen]
    by_cases he : i = n
    · subst he
      rw [if_pos ⟨h1, h2⟩]
      omega
    · have := ih (by omega)
      omega

theorem countSeen_exists (s : SATModule E) (seen : Var → Bool) (n : Nat)
    (h : 0 < countSeen s seen n) :
    ∃ i, i < n ∧ seen (s.trail.getD i ⟨0, false⟩).var = true ∧
      (s.vardata (s.trail.getD i ⟨0, false⟩).var).level = s.decisionLevel := by
  induction n with
  | zero => simp [countSeen] at h
  | succ n ih =>
    simp only [countSeen] at h
    by_cases hc : seen (s.trail.getD n ⟨0, false⟩).var = true ∧
        (s.vardata (s.trail.getD n ⟨0, false⟩).var).level = s.decisionLevel
    · exact ⟨n, by omega, hc.1, hc.2⟩
    · rw [if_neg hc] at h
      obtain ⟨i, h1, h2, h3⟩ := ih (by omega)
      exact ⟨i, by omega, h2, h3⟩

/-- Marking or unmarking the variable at position `j` of the trail changes the count of the seen
variables of the current level below `n` only at this position. -/
theorem countSeen_update (s : SATModule E) (hT : TrailOK s) (seen : Var → Bool) (b : Bool)
    (j : Nat) (hj : j < s.trail.length) (n : Nat) (hn : n ≤ s.trail.length) :
    countSeen s (Function.update seen (s.trail.getD j ⟨0, false⟩).var b) n
      + (if j < n ∧ seen (s.trail.getD j ⟨0, false⟩).var = true ∧
          (s.vardata (s.trail.getD j ⟨0, false⟩).var).level = s.decisionLevel then 1 else 0)
      = countSeen s seen n
        + (if j < n ∧ b = true ∧
          (s.vardata (s.trail.getD j ⟨0, false⟩).var).level = s.decisionLevel then 1 else 0) := by
  induction n with
  | zero => simp [countSeen]
  | succ n ih =>
    have ih' := ih (by omega)
    simp only [countSeen]
    by_cases he : j = n
    · subst he
      rw [Function.update_same]
      have hc := countSeen_congr s (Function.update seen (s.trail.getD j ⟨0, false⟩).var b) seen j
        (by
          intro i hi
          have hne : (s.trail.getD i ⟨0, false⟩).var ≠ (s.trail.getD j ⟨0, false⟩).var := by
            intro hv
            have := trail_pos_unique s hT i j _ _ (getElem?_of_getD _ i (by omega))
              (getElem?_of_getD _ j hj) hv
            omega
          rw [Function.update_noteq hne])
      rw [hc]
      have h1 : ¬ j < j := Nat.lt_irrefl j
      have h2 : j < j + 1 := Nat.lt_succ_self j
      simp only [h2, true_and]
      by_cases hb : b = true <;>
        by_cases hs : seen (s.trail.getD j ⟨0, false⟩).var = true <;>
        by_cases hl : (s.vardata (s.trail.getD j ⟨0, false⟩).var).level = s.decisionLevel <;>
        simp [hb, hs, hl] <;> omega
    · have hne : (s.trail.getD n ⟨0, false⟩).var ≠ (s.trail.getD j ⟨0, false⟩).var := by
        intro hv
        have := trail_pos_unique s hT n j _ _ (getElem?_of_getD _ n (by omega))
          (getElem?_of_getD _ j hj) hv
        omega
      rw [Function.update_noteq hne]
      have e1 : j < n + 1 ↔ j < n := by
        constructor
        · intro h; omega
        · intro h; omega
      simp only [e1]
      omega

theorem analyzeClause_mono (s : SATModule E) (L : List Lit) :
    ∀ (seen : Var → Bool) (pathC : Int) (out : List Lit),
      (∀ v : Nat, seen v = true → (analyzeClause s L (seen, pathC, out)).1 v = true) ∧
      (∀ q ∈ L, 0 < (s.vardata q.var).level →
        (analyzeClause s L (seen, pathC, out)).1 q.var = true) ∧
      (∀ v : Nat, (analyzeClause s L (seen, pathC, out)).1 v = true →
        seen v = true ∨ ∃ q ∈ L, q.var = v ∧ 0 < (s.vardata q.var).level) ∧
      pathC ≤ (analyzeClause s L (seen, pathC, out)).2.1 := by
  induction L with
  | nil =>
    intro seen pathC out
    simp only [analyzeClause]
    exact ⟨fun _ h => h, fun _ h => absurd h (List.not_mem_nil _), fun _ h => Or.inl h,
      Int.le_refl _⟩
  | cons q L ih =>
    intro seen pathC out
    have hup : ∀ v : Nat, seen v = true → Function.update seen q.var true v = true := by
      intro v hv
      by_cases he : v = q.var
      · rw [he, Function.update_same]
      · rw [Function.update_noteq he]; exact hv
    have hback : ∀ v : Nat, Function.update seen q.var true v = true →
        seen v = true ∨ v = q.var := by
      intro v hv
      by_cases he : v = q.var
      · exact Or.inr he
      · rw [Function.update_noteq he] at hv; exact Or.inl hv
    unfold analyzeClause
    split
    · rename_i hmark
      have key : ∀ (pc : Int) (o : List Lit), pathC ≤ pc →
          (∀ v : Nat, seen v = true →
            (analyzeClause s L (Function.update seen q.var true, pc, o)).1 v = true) ∧
          (∀ q' ∈ q :: L, 0 < (s.vardata q'.var).level →
            (analyzeClause s L (Function.update seen q.var true, pc, o)).1 q'.var = true) ∧
          (∀ v : Nat, (analyzeClause s L (Function.update seen q.var true, pc, o)).1 v = true →
            seen v = true ∨ ∃ q' ∈ q :: L, q'.var = v ∧ 0 < (s.vardata q'.var).level) ∧
          pathC ≤ (analyzeClause s L (Function.update seen q.var true, pc, o)).2.1 := by
        intro pc o hpc
        obtain ⟨i1, i2, i3, i4⟩ := ih (Function.update seen q.var true) pc o
        refine ⟨fun v hv => i1 v (hup v hv), ?_, ?_, Int.le_trans hpc i4⟩
        · intro q' hq' hl
          rcases List.mem_cons.mp hq' with rfl | hq'
          · exact i1 _ (by rw [Function.update_same])
          · exact i2 q' hq' hl
        · intro v hv
          rcases i3 v hv with h | ⟨q', hq', h1, h2⟩
          · rcases hback v h with h | h
            · exact Or.inl h
            · exact Or.inr ⟨q, List.mem_cons_self _ _, h.symm, hmark.2⟩
          · exact Or.inr ⟨q', List.mem_cons_of_mem _ hq', h1, h2⟩
      split
      · exact key _ _ (by omega)
      · exact key _ _ (Int.le_refl _)
    · rename_i hmark
      obtain ⟨i1, i2, i3, i4⟩ := ih seen pathC out
      refine ⟨i1, ?_, ?_, i4⟩
      · intro q' hq' hl
        rcases List.mem_cons.mp hq' with rfl | hq'
        · apply i1
          by_contra hs
          apply hmark
          exact ⟨by simpa using hs, hl⟩
        · exact i2 q' hq' hl
      · intro v hv
        rcases i3 v hv with h | ⟨q', hq', h1, h2⟩
        · exact Or.inl h
        · exact Or.inr ⟨q', List.mem_cons_of_mem _ hq', h1, h2⟩

theorem level_le_of_mem_trail (s : SATModule E) (hL : LevelOK s) (l : Lit) (h : l ∈ s.trail) :
    (s.vardata l.var).level ≤ s.decisionLevel := by
  obtain ⟨i, hi⟩ := List.getElem?_of_mem h
  rw [hL.level_eq i l hi]
  exact levelAt_le _ _

theorem mem_take_getElem? (L : List Lit) (n : Nat) (l : Lit) (h : l ∈ L.take n) :
    ∃ j, j < n ∧ L[j]? = some l := by
  obtain ⟨j, hj⟩ := List.getElem?_of_mem h
  have hlt := (List.getElem?_eq_some.mp hj).1
  rw [List.length_take] at hlt
  refine ⟨j, by omega, ?_⟩
  rw [List.getElem?_take] at hj
  split at hj
  · exact hj
  · cases hj

theorem analyzeClause_inv (s : SATModule E) (hT : TrailOK s) (hL : LevelOK s) (n : Nat)
    (hn : n ≤ s.trail.length) (L : List Lit) :
    ∀ (seen : Var → Bool) (pathC : Int) (out : List Lit),
      AnalyzeInv s n seen pathC out → (∀ q ∈ L, q.var ∈ (s.trail.take n).map Lit.var) →
      AnalyzeInv s n (analyzeClause s L (seen, pathC, out)).1
        (analyzeClause s L (seen, pathC, out)).2.1 (analyzeClause s L (seen, pathC, out)).2.2 := by
  induction L with
  | nil => intro seen pathC out h _; exact h
  | cons q L ih =>
    intro seen pathC out h hL'
    have hrest : ∀ q' ∈ L, q'.var ∈ (s.trail.take n).map Lit.var :=
      fun q' hq' => hL' q' (List.mem_cons_of_mem _ hq')
    obtain ⟨t, htm, htv⟩ := List.mem_map.mp (hL' q (List.mem_cons_self _ _))
    obtain ⟨j, hjn, hj⟩ := mem_take_getElem? _ _ _ htm
    have hjlen : j < s.trail.length := (List.getElem?_eq_some.mp hj).1
    have hjD : s.trail.getD j ⟨0, false⟩ = t := getD_of_getElem? _ _ _ hj
    have hqmem : t ∈ s.trail := List.getElem?_mem hj
    have hqv : q.var ∈ s.trail.map Lit.var := List.mem_map.mpr ⟨t, hqmem, htv⟩
    have hle : (s.vardata q.var).level ≤ s.decisionLevel := by
      rw [← htv]
      exact level_le_of_mem_trail s hL t hqmem
    have hupd := countSeen_update s hT seen true j hjlen n hn
    rw [hjD, htv] at hupd
    unfold analyzeClause
    split
    · rename_i hmark
      have hseenq : seen q.var = false := hmark.1
      have hmono : ∀ v : Nat, seen v = true → Function.update seen q.var true v = true := by
        intro v hv
        by_cases he : v = q.var
        · rw [he, Function.update_same]
        · rw [Function.update_noteq he]; exact hv
      split
      · rename_i hcur
        have hcur' : (s.vardata q.var).level = s.decisionLevel := by omega
        apply ih _ _ _ _ hrest
        refine ⟨?_, ?_, h.out_nodup, ?_⟩
        · intro v hv
          by_cases he : v = q.var
          · subst he
            exact ⟨hmark.2, j, t, hj, htv, fun _ => hjn, fun hne => absurd hcur' hne⟩
          · rw [Function.update_noteq he] at hv
            exact h.seen_trail v hv
        · intro q' hq'
          obtain ⟨a, b, c, d⟩ := h.out_spec q' hq'
          exact ⟨a, b, c, hmono _ d⟩
        · rw [h.count]
          simp only [hseenq, hjn, hcur', Bool.false_eq_true, and_true, and_false, false_and,
            ↓reduceIte, true_and] at hupd
          omega
      · rename_i hcur
        have hcur' : (s.vardata q.var).level ≠ s.decisionLevel := by omega
        apply ih _ _ _ _ hrest
        refine ⟨?_, ?_, ?_, ?_⟩
        · intro v hv
          by_cases he : v = q.var
          · subst he
            refine ⟨hmark.2, j, t, hj, htv, fun hx => absurd hx hcur', fun _ => ?_⟩
            exact ⟨q, List.mem_append_right _ (List.mem_singleton_self _), rfl⟩
          · rw [Function.update_noteq he] at hv
            obtain ⟨a, i, l, b, c, d, e⟩ := h.seen_trail v hv
            refine ⟨a, i, l, b, c, d, fun hx => ?_⟩
            obtain ⟨q', hq', hqv'⟩ := e hx
            exact ⟨q', List.mem_append_left _ hq', hqv'⟩
        · intro q' hq'
          rcases List.mem_append.mp hq' with hq' | hq'
          · obtain ⟨a, b, c, d⟩ := h.out_spec q' hq'
            exact ⟨a, b, c, hmono _ d⟩
          · rw [List.mem_singleton] at hq'
            subst hq'
            exact ⟨hqv, hmark.2, by omega, by rw [Function.update_same]⟩
        · rw [List.map_append, List.map_cons, List.map_nil]
          refine List.nodup_append.mpr ⟨h.out_nodup, List.nodup_singleton _, ?_⟩
          intro x hx hx'
          rw [List.mem_singleton] at hx'
          subst hx'
          obtain ⟨q', hq', hqv'⟩ := List.mem_map.mp hx
          have := (h.out_spec q' hq').2.2.2
          rw [hqv', hseenq] at this
          exact Bool.noConfusion this
        · rw [h.count]
          simp only [hseenq, hcur', Bool.false_eq_true, and_false, false_and,
            ↓reduceIte] at hupd
          omega
    · exact ih _ _ _ h hrest

theorem findSeen_spec (trail : List Lit) (seen : Var → Bool) :
    ∀ n, (∃ i, i < n ∧ seen (trail.getD i ⟨0, false⟩).var = true) →
      ∃ i, findSeen trail seen n = some i ∧ i < n ∧ seen (trail.getD i ⟨0, false⟩).var = true ∧
        ∀ j, i < j → j < n → seen (trail.getD j ⟨0, false⟩).var = false := by
  intro n
  induction n with
  | zero => intro ⟨i, hi, _⟩; omega
  | succ n ih =>
    intro ⟨i, hi, hs⟩
    unfold findSeen
    by_cases hn : seen (trail.getD n ⟨0, false⟩).var = true
    · rw [if_pos hn]
      exact ⟨n, rfl, by omega, hn, fun j h1 h2 => by omega⟩
    · rw [if_neg hn]
      have hin : i < n := by
        by_contra hc
        have : i = n := by omega
        subst this
        exact hn hs
      obtain ⟨i', h1, h2, h3, h4⟩ := ih ⟨i, hin, hs⟩
      refine ⟨i', h1, by omega, h3, ?_⟩
      intro j hj1 hj2
      by_cases hjn : j = n
      · subst hjn; simpa using hn
      · exact h4 j hj1 (by omega)

theorem countSeen_trunc (s : SATModule E) (seen : Var → Bool) (i : Nat) :
    ∀ n, i ≤ n → (∀ j, i ≤ j → j < n → seen (s.trail.getD j ⟨0, false⟩).var = false) →
      countSeen s seen n = countSeen s seen i := by
  intro n
  induction n with
  | zero => intro hi _; have : i = 0 := by omega
            subst this; rfl
  | succ n ih =>
    intro hi h
    by_cases he : i = n + 1
    · rw [he]
    · have hs := h n (by omega) (by omega)
      simp only [countSeen]
      rw [ih (by omega) (fun j h1 h2 => h j h1 (by omega)),
        if_neg (fun hx => by rw [hs] at hx; exact Bool.noConfusion hx.1)]
      rfl

/-- The loop of `analyze` returns: it ends at a literal `p` of the current decision level, with
the literals of lower levels that were seen in `out_learnt`, all of them literals of assigned
variables and no two of the same variable, and with no other variable marked. -/
theorem analyzeLoop_spec (s : SATModule E) (hT : TrailOK s) (hL : LevelOK s) (hR : ReasonOK s)
    (hD : DecisionOK s) (fuel : Nat) :
    ∀ (confl : Option CRef) (first : Bool) (n : Nat) (seen : Var → Bool) (pathC : Int)
      (out : List Lit),
      n < fuel → n ≤ s.trail.length → AnalyzeInv s n seen pathC out →
      (∃ cr, confl = some cr ∧
        (∀ q ∈ (if first then (s.ca cr).lits else (s.ca cr).lits.drop 1),
          q.var ∈ (s.trail.take n).map Lit.var) ∧
        (0 < pathC ∨ ∃ q ∈ (if first then (s.ca cr).lits else (s.ca cr).lits.drop 1),
          (s.vardata q.var).level = s.decisionLevel ∧ 0 < s.decisionLevel)) →
      ∃ p seen' out', analyzeLoop s fuel confl first n (seen, pathC, out) = some (p, seen', out') ∧
        p ∈ s.trail ∧ (s.vardata p.var).level = s.decisionLevel ∧ seen' p.var = false ∧
        (∀ q ∈ out', q.var ∈ s.trail.map Lit.var ∧ 0 < (s.vardata q.var).level ∧
          (s.vardata q.var).level < s.decisionLevel ∧ seen' q.var = true) ∧
        (out'.map Lit.var).Nodup ∧
        (∀ v : Nat, seen' v = true → ∃ q ∈ out', q.var = v) := by
  induction fuel with
  | zero => intro confl first n seen pathC out hf; omega
  | succ fuel ih =>
    intro confl first n seen pathC out hf hn hInv hpre
    obtain ⟨cr, hcr, hlits, hpos⟩ := hpre
    subst hcr
    have hInv' := analyzeClause_inv s hT hL n hn _ seen pathC out hInv hlits
    obtain ⟨m1, m2, -, m4⟩ := analyzeClause_mono s
      (if first then (s.ca cr).lits else (s.ca cr).lits.drop 1) seen pathC out
    generalize hr : analyzeClause s (if first then (s.ca cr).lits else (s.ca cr).lits.drop 1)
      (seen, pathC, out) = r at hInv' m1 m2 m4
    obtain ⟨seen1, pathC1, out1⟩ := r
    simp only at hInv' m1 m2 m4
    -- a seen variable of the current level is left
    have hcount : 0 < countSeen s seen1 n := by
      rcases hpos with hp | ⟨q, hq, hql, hdl⟩
      · have := hInv'.count
        omega
      · have hs := m2 q hq (by omega)
        obtain ⟨-, i, l, hi, hv, hin, -⟩ := hInv'.seen_trail q.var hs
        have hD' := getD_of_getElem? _ _ _ hi
        exact countSeen_pos s seen1 n i (hin hql) (by rw [hD', hv]; exact hs)
          (by rw [hD', hv]; exact hql)
    obtain ⟨i0, hi0, hs0, hl0⟩ := countSeen_exists s seen1 n hcount
    obtain ⟨i, hfind, hin, hsi, hafter⟩ := findSeen_spec s.trail seen1 n ⟨i0, hi0, hs0⟩
    have hilen : i < s.trail.length := by omega
    have hi0i : i0 ≤ i := by
      by_contra hc
      have := hafter i0 (by omega) hi0
      rw [this] at hs0
      exact Bool.noConfusion hs0
    have hpi : s.trail[i]? = some (s.trail.getD i ⟨0, false⟩) := getElem?_of_getD _ i hilen
    have hpmem : s.trail.getD i ⟨0, false⟩ ∈ s.trail := List.getElem?_mem hpi
    have hplev : (s.vardata (s.trail.getD i ⟨0, false⟩).var).level = s.decisionLevel := by
      have h1 := hL.level_eq i _ hpi
      have h2 := hL.level_eq i0 _ (getElem?_of_getD _ i0 (by omega))
      have h3 := levelAt_mono s.trail_lim hi0i
      have h4 := levelAt_le s.trail_lim i
      simp only [decisionLevel] at hl0 ⊢
      omega
    -- the marks after `seen[var( p )] = 0`
    have hupd := countSeen_update s hT seen1 false i hilen n hn
    simp only [hin, hsi, hplev, Bool.false_eq_true, and_self, and_true, false_and, and_false,
      ↓reduceIte, true_and] at hupd
    have hunseen : ∀ j, i ≤ j → j < n →
        Function.update seen1 (s.trail.getD i ⟨0, false⟩).var false
          (s.trail.getD j ⟨0, false⟩).var = false := by
      intro j h1 h2
      by_cases he : (s.trail.getD j ⟨0, false⟩).var = (s.trail.getD i ⟨0, false⟩).var
      · rw [he, Function.update_same]
      · rw [Function.update_noteq he]
        have hji : j ≠ i := fun h => he (by rw [h])
        exact hafter j (by omega) h2
    have htr := countSeen_trunc s (Function.update seen1 (s.trail.getD i ⟨0, false⟩).var false)
      i n (by omega) hunseen
    have hInv2 : AnalyzeInv s i (Function.update seen1 (s.trail.getD i ⟨0, false⟩).var false)
        (pathC1 - 1) out1 := by
      refine ⟨?_, ?_, hInv'.out_nodup, ?_⟩
      · intro v hv
        have hne : v ≠ (s.trail.getD i ⟨0, false⟩).var := by
          intro he
          rw [he, Function.update_same] at hv
          exact Bool.noConfusion hv
        rw [Function.update_noteq hne] at hv
        obtain ⟨a, i', l, b, c, d, e⟩ := hInv'.seen_trail v hv
        refine ⟨a, i', l, b, c, ?_, e⟩
        intro hx
        have hlt := d hx
        by_contra hge
        have hD' := getD_of_getElem? _ _ _ b
        by_cases hii : i' = i
        · apply hne
          rw [← c, ← hD', hii]
        · have := hafter i' (by omega) hlt
          rw [hD', c, hv] at this
          exact Bool.noConfusion this
      · intro q hq
        obtain ⟨a, b, c, d⟩ := hInv'.out_spec q hq
        refine ⟨a, b, c, ?_⟩
        have hne : q.var ≠ (s.trail.getD i ⟨0, false⟩).var := by
          intro he
          rw [he, hplev] at c
          omega
        rw [Function.update_noteq hne]
        exact d
      · have := hInv'.count
        rw [htr] at hupd
        omega
    unfold analyzeLoop
    simp only [hr, hfind]
    by_cases hgo : pathC1 - 1 > 0
    · rw [if_pos hgo]
      apply ih _ false i _ _ _ (by omega) (by omega) hInv2
      -- the literal `p` is not the decision of its level
      have hcnt2 : 0 < countSeen s
          (Function.update seen1 (s.trail.getD i ⟨0, false⟩).var false) i := by
        have := hInv2.count
        omega
      obtain ⟨i1, hi1, hs1, hl1⟩ := countSeen_exists s _ i hcnt2
      cases hreason : (s.vardata (s.trail.getD i ⟨0, false⟩).var).reason with
      | none =>
        exfalso
        have hmem := hD i hilen hreason (hInv'.seen_trail _ hsi).1
        have h1 := levelAt_lt_of_mem s.trail_lim hmem hi1
        have h2 := hL.level_eq i1 _ (getElem?_of_getD _ i1 (by omega))
        have h3 := hL.level_eq i _ hpi
        simp only [decisionLevel] at hl1 hplev
        omega
      | some cr' =>
        obtain ⟨-, -, htail⟩ := hR i _ cr' hpi hreason
        refine ⟨cr', rfl, ?_, Or.inl hgo⟩
        intro q hq
        simp only [Bool.false_eq_true, ↓reduceIte, List.drop_one] at hq
        exact htail q hq
    · rw [if_neg hgo]
      refine ⟨_, _, _, rfl, hpmem, hplev, by rw [Function.update_same], hInv2.out_spec,
        hInv2.out_nodup, ?_⟩
      intro v hv
      obtain ⟨-, i', l, b, c, d, e⟩ := hInv2.seen_trail v hv
      by_cases hx : (s.vardata v).level = s.decisionLevel
      · exfalso
        have hD' := getD_of_getElem? _ _ _ b
        have := countSeen_pos s (Function.update seen1 (s.trail.getD i ⟨0, false⟩).var false) i i'
          (d hx) (by rw [hD', c]; exact hv) (by rw [hD', c]; exact hx)
        have hc := hInv2.count
        omega
      · exact e hx

theorem numUnseen_mark (seen : Var → Bool) (v : Nat) (n : Nat) :
    numUnseen (Function.update seen v true) n
      + (if v < n ∧ seen v = false then 1 else 0) = numUnseen seen n := by
  induction n with
  | zero => simp [numUnseen]
  | succ n ih =>
    simp only [numUnseen]
    by_cases he : n = v
    · subst he
      rw [Function.update_same]
      have h1 : ¬ n < n := Nat.lt_irrefl n
      have h2 : n < n + 1 := Nat.lt_succ_self n
      simp only [h1, false_and, ↓reduceIte, Nat.add_zero] at ih
      simp only [h2, true_and, Bool.true_eq_false, ↓reduceIte, Nat.add_zero]
      omega
    · rw [Function.update_noteq he]
      have e1 : v < n + 1 ↔ v < n := by
        constructor
        · intro h; omega
        · intro h; omega
      simp only [e1]
      omega

theorem Justified_mono (s : SATModule E) (seen seen' : Var → Bool) (v : Nat)
    (h : ∀ x : Nat, seen x = true → seen' x = true) (hj : Justified s seen v) :
    Justified s seen' v := by
  obtain ⟨cr, h1, h2⟩ := hj
  refine ⟨cr, h1, fun ck hck => ?_⟩
  rcases h2 ck hck with h3 | h3
  · exact Or.inl (h _ h3)
  · exact Or.inr h3

/-- The loop of `litRedundant` over the literals of a reason. -/
theorem litRedundantClause_spec (s : SATModule E) (al nV : Nat) (L : List Lit) :
    ∀ (stack : List Lit) (seen : Var → Bool) (toclear : List Lit),
      (∀ l ∈ L, l.var < nV) →
      ∃ new, (litRedundantClause s al L (stack, seen, toclear)).2.1 = stack ++ new ∧
        (litRedundantClause s al L (stack, seen, toclear)).2.2.2 = toclear ++ new ∧
        (∀ l ∈ new, (s.vardata l.var).reason ≠ none ∧ seen l.var = false ∧ l.var < nV) ∧
        (∀ v : Nat, (litRedundantClause s al L (stack, seen, toclear)).2.2.1 v = true ↔
          (seen v = true ∨ ∃ l ∈ new, l.var = v)) ∧
        2 * numUnseen (litRedundantClause s al L (stack, seen, toclear)).2.2.1 nV + new.length
          ≤ 2 * numUnseen seen nV ∧
        ((litRedundantClause s al L (stack, seen, toclear)).1 = true →
          ∀ l ∈ L, (litRedundantClause s al L (stack, seen, toclear)).2.2.1 l.var = true ∨
            (s.vardata l.var).level = 0) := by
  induction L with
  | nil =>
    intro stack seen toclear _
    refine ⟨[], by simp [litRedundantClause], by simp [litRedundantClause], ?_, ?_, ?_, ?_⟩
    · intro l hl; simp at hl
    · intro v; simp [litRedundantClause]
    · simp [litRedundantClause]
    · intro _ l hl; simp at hl
  | cons p L ih =>
    intro stack seen toclear hr
    have hr' : ∀ l ∈ L, l.var < nV := fun l hl => hr l (List.mem_cons_of_mem _ hl)
    unfold litRedundantClause
    split
    · rename_i hmark
      split
      · rename_i hpush
        obtain ⟨new, h1, h2, h3, h4, h5, h6⟩ := ih (stack ++ [p])
          (Function.update seen p.var true) (toclear ++ [p]) hr'
        have hmk := numUnseen_mark seen p.var nV
        rw [if_pos ⟨hr p (List.mem_cons_self _ _), hmark.1⟩] at hmk
        refine ⟨p :: new, by rw [h1]; simp, by rw [h2]; simp, ?_, ?_, ?_, ?_⟩
        · intro l hl
          rcases List.mem_cons.mp hl with rfl | hl
          · exact ⟨hpush.1, hmark.1, hr _ (List.mem_cons_self _ _)⟩
          · obtain ⟨a, b, c⟩ := h3 l hl
            refine ⟨a, ?_, c⟩
            by_cases he : l.var = p.var
            · rw [he, Function.update_same] at b
              exact Bool.noConfusion b
            · rw [Function.update_noteq he] at b
              exact b
        · intro v
          rw [h4 v]
          constructor
          · rintro (h | ⟨l, hl, hv⟩)
            · by_cases he : v = p.var
              · exact Or.inr ⟨p, List.mem_cons_self _ _, he.symm⟩
              · rw [Function.update_noteq he] at h
                exact Or.inl h
            · exact Or.inr ⟨l, List.mem_cons_of_mem _ hl, hv⟩
          · rintro (h | ⟨l, hl, hv⟩)
            · by_cases he : v = p.var
              · left; rw [he, Function.update_same]
              · left; rw [Function.update_noteq he]; exact h
            · rcases List.mem_cons.mp hl with rfl | hl
              · left; rw [← hv, Function.update_same]
              · exact Or.inr ⟨l, hl, hv⟩
        · simp only [List.length_cons]
          omega
        · intro hb l hl
          rcases List.mem_cons.mp hl with rfl | hl
          · left
            rw [h4]
            left
            rw [Function.update_same]
          · exact h6 hb l hl
      · refine ⟨[], by simp, by simp, ?_, ?_, by simp, ?_⟩
        · intro l hl; simp at hl
        · intro v; simp
        · intro hb; simp at hb
    · rename_i hmark
      obtain ⟨new, h1, h2, h3, h4, h5, h6⟩ := ih stack seen toclear hr'
      refine ⟨new, h1, h2, h3, h4, h5, ?_⟩
      intro hb l hl
      rcases List.mem_cons.mp hl with rfl | hl
      · by_cases hs : seen l.var = true
        · left; rw [h4]; exact Or.inl hs
        · right
          by_contra hl0
          apply hmark
          exact ⟨by simpa using hs, by omega⟩
      · exact h6 hb l hl

theorem numUnseen_le (seen : Var → Bool) (n : Nat) : numUnseen seen n ≤ n := by
  induction n with
  | zero => simp [numUnseen]
  | succ n ih => simp only [numUnseen]; split <;> omega

theorem foldl_clear (L : List Lit) :
    ∀ (seen : Var → Bool) (v : Nat),
      (L.foldl (fun sn l => Function.update sn l.var false) seen) v
        = if v ∈ L.map Lit.var then false else seen v := by
  induction L with
  | nil => intro seen v; simp
  | cons l L ih =>
    intro seen v
    simp only [List.foldl_cons, List.map_cons, List.mem_cons]
    rw [ih]
    by_cases h1 : v ∈ L.map Lit.var
    · simp [h1]
    · by_cases h2 : v = l.var
      · rw [if_neg h1, if_pos (Or.inl h2), h2, Function.update_same]
      · simp only [h1, h2, false_or, ↓reduceIte]
        rw [Function.update_noteq h2]

/-- The loop of `litRedundant` returns.  When the result is `false` the marks and
`analyze_toclear` are as at the call; when it is `true` the marks have only grown, every new mark
is justified and so is the variable of the literal `q` that was tested. -/
theorem litRedundantLoop_spec (s : SATModule E) (hW : WellFormed s) (al : Nat) (q : Lit)
    (seen0 : Var → Bool) (toclear0 : List Lit) (fuel : Nat) :
    ∀ (stack : List Lit) (seen : Var → Bool) (toclear : List Lit),
      2 * numUnseen seen s.nVars + stack.length < fuel →
      (∀ l ∈ stack, (s.vardata l.var).reason ≠ none) →
      (∀ v : Nat, seen v = true → seen0 v = true ∨ Justified s seen v ∨ ∃ l ∈ stack, l.var = v) →
      (Justified s seen q.var ∨ ∃ l ∈ stack, l.var = q.var) →
      (∀ v : Nat, seen0 v = true → seen v = true) →
      (∃ new, toclear = toclear0 ++ new ∧ (∀ l ∈ new, seen0 l.var = false) ∧
        ∀ v : Nat, seen v = true → seen0 v = true ∨ ∃ l ∈ new, l.var = v) →
      ∃ b seen' toclear',
        litRedundantLoop s al toclear0.length fuel stack (seen, toclear)
          = some (b, seen', toclear') ∧
        (b = false → (∀ v : Nat, seen' v = seen0 v) ∧ toclear' = toclear0) ∧
        (b = true → (∀ v : Nat, seen0 v = true → seen' v = true) ∧
          (∀ v : Nat, seen' v = true → seen0 v = true ∨ Justified s seen' v) ∧
          Justified s seen' q.var ∧ ∃ new, toclear' = toclear0 ++ new) := by
  induction fuel with
  | zero => intro stack seen toclear hf; omega
  | succ fuel ih =>
    intro stack seen toclear hf hreason hseen hq hmono hnew
    unfold litRedundantLoop
    cases hlast : stack.getLast? with
    | none =>
      have hnil : stack = [] := List.getLast?_eq_none_iff.mp hlast
      subst hnil
      simp only
      refine ⟨true, seen, toclear, rfl, fun h => Bool.noConfusion h, fun _ => ⟨hmono, ?_, ?_, ?_⟩⟩
      · intro v hv
        rcases hseen v hv with h | h | ⟨l, hl, -⟩
        · exact Or.inl h
        · exact Or.inr h
        · simp at hl
      · rcases hq with h | ⟨l, hl, -⟩
        · exact h
        · simp at hl
      · obtain ⟨new, h1, -, -⟩ := hnew
        exact ⟨new, h1⟩
    | some last =>
      have hstack : stack.dropLast ++ [last] = stack :=
        List.dropLast_append_getLast? last hlast
      have hlmem : last ∈ stack := by rw [← hstack]; simp
      simp only
      cases hr : (s.vardata last.var).reason with
      | none => exact absurd hr (hreason last hlmem)
      | some cr =>
        simp only
        obtain ⟨new, h1, h2, h3, h4, h5, h6⟩ := litRedundantClause_spec s al s.nVars
          ((s.ca cr).lits.drop 1) stack.dropLast seen toclear
          (fun l hl => hW.inRange.clause_range cr l (List.mem_of_mem_drop hl))
        generalize hres : litRedundantClause s al ((s.ca cr).lits.drop 1)
          (stack.dropLast, seen, toclear) = res at h1 h2 h4 h5 h6
        obtain ⟨b, stack1, seen1, toclear1⟩ := res
        simp only at h1 h2 h4 h5 h6
        obtain ⟨new0, n1, n2, n3⟩ := hnew
        have hmono1 : ∀ v : Nat, seen v = true → seen1 v = true :=
          fun v hv => (h4 v).mpr (Or.inl hv)
        cases b with
        | true =>
          simp only [↓reduceIte]
          have hjlast : Justified s seen1 last.var := ⟨cr, hr, h6 rfl⟩
          have hlen : stack.length = stack.dropLast.length + 1 := by
            rw [← hstack]; simp
          apply ih stack1 seen1 toclear1
          · rw [h1, List.length_append]
            omega
          · intro l hl
            rw [h1] at hl
            rcases List.mem_append.mp hl with hl | hl
            · exact hreason l (List.mem_of_mem_dropLast hl)
            · exact (h3 l hl).1
          · intro v hv
            rcases (h4 v).mp hv with hv' | ⟨l, hl, hlv⟩
            · rcases hseen v hv' with h | h | ⟨l, hl, hlv⟩
              · exact Or.inl h
              · exact Or.inr (Or.inl (Justified_mono s seen seen1 v hmono1 h))
              · rw [← hstack] at hl
                rcases List.mem_append.mp hl with hl | hl
                · exact Or.inr (Or.inr ⟨l, by rw [h1]; exact List.mem_append_left _ hl, hlv⟩)
                · rw [List.mem_singleton] at hl
                  rw [← hlv, hl]
                  exact Or.inr (Or.inl hjlast)
            · exact Or.inr (Or.inr ⟨l, by rw [h1]; exact List.mem_append_right _ hl, hlv⟩)
          · rcases hq with h | ⟨l, hl, hlv⟩
            · exact Or.inl (Justified_mono s seen seen1 _ hmono1 h)
            · rw [← hstack] at hl
              rcases List.mem_append.mp hl with hl | hl
              · exact Or.inr ⟨l, by rw [h1]; exact List.mem_append_left _ hl, hlv⟩
              · rw [List.mem_singleton] at hl
                rw [← hlv, hl]
                exact Or.inl hjlast
          · exact fun v hv => hmono1 v (hmono v hv)
          · refine ⟨new0 ++ new, by rw [h2, n1, List.append_assoc], ?_, ?_⟩
            · intro l hl
              rcases List.mem_append.mp hl with hl | hl
              · exact n2 l hl
              · have := (h3 l hl).2.1
                cases h0 : seen0 l.var with
                | false => rfl
                | true => rw [hmono _ h0] at this; exact Bool.noConfusion this
            · intro v hv
              rcases (h4 v).mp hv with hv' | ⟨l, hl, hlv⟩
              · rcases n3 v hv' with h | ⟨l, hl, hlv⟩
                · exact Or.inl h
                · exact Or.inr ⟨l, List.mem_append_left _ hl, hlv⟩
              · exact Or.inr ⟨l, List.mem_append_right _ hl, hlv⟩
        | false =>
          simp only [Bool.false_eq_true, ↓reduceIte]
          refine ⟨false, _, _, rfl, fun _ => ⟨?_, ?_⟩, fun h => Bool.noConfusion h⟩
          · intro v
            show ((toclear1.drop toclear0.length).foldl
              (fun sn l => Function.update sn l.var false) seen1) v = seen0 v
            rw [foldl_clear, h2, n1, List.append_assoc, List.drop_left]
            by_cases hin : v ∈ (new0 ++ new).map Lit.var
            · rw [if_pos hin]
              obtain ⟨l, hl, hlv⟩ := List.mem_map.mp hin
              rw [← hlv]
              rcases List.mem_append.mp hl with hl | hl
              · exact (n2 l hl).symm
              · have := (h3 l hl).2.1
                cases h0 : seen0 l.var with
                | false => rfl
                | true => rw [hmono _ h0] at this; exact Bool.noConfusion this
            · rw [if_neg hin]
              cases hs1 : seen1 v with
              | false =>
                cases h0 : seen0 v with
                | false => rfl
                | true => rw [hmono1 v (hmono v h0)] at hs1; exact Bool.noConfusion hs1
              | true =>
                rcases (h4 v).mp hs1 with hv' | ⟨l, hl, hlv⟩
                · rcases n3 v hv' with h | ⟨l, hl, hlv⟩
                  · exact h.symm
                  · exfalso
                    apply hin
                    rw [← hlv]
                    exact List.mem_map_of_mem _ (List.mem_append_left _ hl)
                · exfalso
                  apply hin
                  rw [← hlv]
                  exact List.mem_map_of_mem _ (List.mem_append_right _ hl)
          · show toclear1.take toclear0.length = toclear0
            rw [h2, n1, List.append_assoc, List.take_left]

/-- The loop of `analyze` for `ccmin_mode == 2` returns; the literals it keeps are among those it
was given, and every literal it drops, as every variable it marks, is justified by the marks. -/
theorem minimizeDeep_spec (s : SATModule E) (hW : WellFormed s) (al : Nat) (K : List Lit) :
    ∀ (seen : Var → Bool) (toclear : List Lit),
      ∃ kept seen' toclear', minimizeDeep s al K (seen, toclear) = some (kept, seen', toclear') ∧
        kept.Sublist K ∧ (∀ v : Nat, seen v = true → seen' v = true) ∧
        (∀ v : Nat, seen' v = true → seen v = true ∨ Justified s seen' v) ∧
        (∀ q ∈ K, q ∈ kept ∨ Justified s seen' q.var) := by
  induction K with
  | nil =>
    intro seen toclear
    exact ⟨[], seen, toclear, rfl, List.Sublist.refl _, fun _ h => h, fun _ h => Or.inl h,
      fun _ h => absurd h (List.not_mem_nil _)⟩
  | cons q K ih =>
    intro seen toclear
    unfold minimizeDeep
    cases hr : (s.vardata q.var).reason with
    | none =>
      obtain ⟨kept, seen', toclear', h1, h2, h3, h4, h5⟩ := ih seen toclear
      simp only [h1, Option.map_some']
      refine ⟨q :: kept, seen', toclear', rfl, h2.cons₂ q, h3, h4, ?_⟩
      intro q' hq'
      rcases List.mem_cons.mp hq' with rfl | hq'
      · exact Or.inl (List.mem_cons_self _ _)
      · rcases h5 q' hq' with h | h
        · exact Or.inl (List.mem_cons_of_mem _ h)
        · exact Or.inr h
    | some cr =>
      simp only
      obtain ⟨b, seen1, toclear1, l1, l2, l3⟩ := litRedundantLoop_spec s hW al q seen toclear
        (2 * s.nVars + 2) [q] seen toclear
        (by
          have := numUnseen_le seen s.nVars
          simp only [List.length_singleton]
          omega)
        (by
          intro l hl
          rw [List.mem_singleton] at hl
          rw [hl, hr]
          exact fun h => Option.noConfusion h)
        (fun v hv => Or.inl hv) (Or.inr ⟨q, List.mem_singleton_self _, rfl⟩) (fun _ h => h)
        ⟨[], (List.append_nil _).symm, fun _ h => absurd h (List.not_mem_nil _),
          fun _ h => Or.inl h⟩
      have hl : s.litRedundant q al (seen, toclear) = some (b, seen1, toclear1) := l1
      rw [hl]
      obtain ⟨kept, seen', toclear', h1, h2, h3, h4, h5⟩ := ih seen1 toclear1
      cases b with
      | true =>
        simp only
        obtain ⟨m1, m2, m3, -⟩ := l3 rfl
        refine ⟨kept, seen', toclear', h1, h2.cons q, fun v hv => h3 v (m1 v hv), ?_, ?_⟩
        · intro v hv
          rcases h4 v hv with h | h
          · rcases m2 v h with h' | h'
            · exact Or.inl h'
            · exact Or.inr (Justified_mono s seen1 seen' v h3 h')
          · exact Or.inr h
        · intro q' hq'
          rcases List.mem_cons.mp hq' with rfl | hq'
          · exact Or.inr (Justified_mono s seen1 seen' _ h3 m3)
          · exact h5 q' hq'
      | false =>
        simp only [h1, Option.map_some']
        obtain ⟨m1, -⟩ := l2 rfl
        refine ⟨q :: kept, seen', toclear', rfl, h2.cons₂ q,
          fun v hv => h3 v (by rw [m1]; exact hv), ?_, ?_⟩
        · intro v hv
          rcases h4 v hv with h | h
          · rw [m1] at h; exact Or.inl h
          · exact Or.inr h
        · intro q' hq'
          rcases List.mem_cons.mp hq' with rfl | hq'
          · exact Or.inl (List.mem_cons_self _ _)
          · rcases h5 q' hq' with h | h
            · exact Or.inl (List.mem_cons_of_mem _ h)
            · exact Or.inr h

/-- The part "simplify conflict clause" of `analyze` returns for every `ccmin_mode`. -/
theorem minimizeLearnt_spec (s : SATModule E) (hW : WellFormed s) (seen : Var → Bool)
    (rest toclear : List Lit) :
    ∃ kept seen' toclear', minimizeLearnt s seen rest toclear = some (kept, seen', toclear') ∧
      kept.Sublist rest ∧ (∀ v : Nat, seen v = true → seen' v = true) ∧
      (∀ v : Nat, seen' v = true → seen v = true ∨ Justified s seen' v) ∧
      (∀ q ∈ rest, q ∈ kept ∨ Justified s seen' q.var) := by
  unfold minimizeLearnt
  split
  · exact minimizeDeep_spec s hW _ rest seen toclear
  · split
    · refine ⟨_, seen, toclear, rfl, List.filter_sublist _, fun _ h => h, fun _ h => Or.inl h, ?_⟩
      intro q hq
      by_cases hk : keptLocal s seen q = true
      · exact Or.inl (List.mem_filter.mpr ⟨hq, hk⟩)
      · right
        unfold keptLocal at hk
        cases hr : (s.vardata q.var).reason with
        | none => rw [hr] at hk; exact absurd rfl hk
        | some cr =>
          rw [hr] at hk
          simp only [List.any_eq_true, decide_eq_true_eq, not_exists, not_and] at hk
          refine ⟨cr, hr, ?_⟩
          intro ck hck
          by_cases hs : seen ck.var = true
          · exact Or.inl hs
          · right
            have := hk ck hck (by simpa using hs)
            omega
    · exact ⟨rest, seen, toclear, rfl, List.Sublist.refl _, fun _ h => h, fun _ h => Or.inl h,
        fun q hq => Or.inl hq⟩

theorem maxLevelIndex_spec (s : SATModule E) (out : List Lit) (is : List Nat) :
    ∀ m, (maxLevelIndex s out is m = m ∨ maxLevelIndex s out is m ∈ is) ∧
      (s.vardata (out.getD m ⟨0, false⟩).var).level
        ≤ (s.vardata (out.getD (maxLevelIndex s out is m) ⟨0, false⟩).var).level ∧
      ∀ i ∈ is, (s.vardata (out.getD i ⟨0, false⟩).var).level
        ≤ (s.vardata (out.getD (maxLevelIndex s out is m) ⟨0, false⟩).var).level := by
  induction is with
  | nil => intro m; exact ⟨Or.inl rfl, Nat.le_refl _, fun _ h => absurd h (List.not_mem_nil _)⟩
  | cons i is ih =>
    intro m
    unfold maxLevelIndex
    split
    · rename_i hgt
      obtain ⟨a, b, c⟩ := ih i
      refine ⟨Or.inr ?_, by omega, ?_⟩
      · rcases a with a | a
        · rw [a]; exact List.mem_cons_self _ _
        · exact List.mem_cons_of_mem _ a
      · intro j hj
        rcases List.mem_cons.mp hj with rfl | hj
        · exact b
        · exact c j hj
    · rename_i hgt
      obtain ⟨a, b, c⟩ := ih m
      refine ⟨?_, b, ?_⟩
      · rcases a with a | a
        · exact Or.inl a
        · exact Or.inr (List.mem_cons_of_mem _ a)
      · intro j hj
        rcases List.mem_cons.mp hj with rfl | hj
        · omega
        · exact c j hj

/-- The part "find correct backtrack level" of `analyze`: the first literal stays, the other
literals are permuted, and `out_btlevel` is `0` for a unit clause and otherwise the level of the
literal at index `1`, the highest level among the literals from index `1` on. -/
theorem backtrackLevel_spec (s : SATModule E) (x : Lit) (K : List Lit) :
    ∃ K', (backtrackLevel s (x :: K)).1 = x :: K' ∧ K'.Perm K ∧
      (K = [] → (backtrackLevel s (x :: K)).2 = 0) ∧
      (K ≠ [] → (backtrackLevel s (x :: K)).2
          = (s.vardata ((backtrackLevel s (x :: K)).1.getD 1 ⟨0, false⟩).var).level ∧
        ∀ l ∈ K, (s.vardata l.var).level ≤ (backtrackLevel s (x :: K)).2) := by
  unfold backtrackLevel
  cases K with
  | nil =>
    rw [if_pos (by simp)]
    exact ⟨[], rfl, List.Perm.refl _, fun _ => rfl, fun h => absurd rfl h⟩
  | cons y r =>
    have hlen : ¬ (x :: y :: r).length = 1 := by simp
    rw [if_neg hlen]
    simp only
    obtain ⟨a, b, c⟩ := maxLevelIndex_spec s (x :: y :: r)
      (List.range' 2 ((x :: y :: r).length - 2)) 1
    generalize hm : maxLevelIndex s (x :: y :: r)
      (List.range' 2 ((x :: y :: r).length - 2)) 1 = m at a b c
    have hall : ∀ l ∈ y :: r, (s.vardata l.var).level
        ≤ (s.vardata ((x :: y :: r).getD m ⟨0, false⟩).var).level := by
      intro l hl
      rcases List.mem_cons.mp hl with rfl | hl
      · exact b
      · obtain ⟨j, hj⟩ := List.getElem?_of_mem hl
        have hjlt := (List.getElem?_eq_some.mp hj).1
        have := c (j + 2) (by
          rw [List.mem_range']
          refine ⟨j, ?_, by omega⟩
          simp only [List.length_cons]
          omega)
        simp only [List.getD_cons_succ] at this
        rw [getD_of_getElem? r j l hj] at this
        exact this
    rcases a with a | a
    · -- the literal at index `1` has the highest level
      subst a
      refine ⟨y :: r, ?_, List.Perm.refl _, (fun h => by cases h), fun _ => ⟨?_, hall⟩⟩
      · simp
      · simp
    · rw [List.mem_range'] at a
      obtain ⟨j, hj, rfl⟩ := a
      simp only [List.length_cons] at hj
      have hjr : j < r.length := by omega
      have e : 2 + 1 * j = j + 2 := by omega
      rw [e] at hall ⊢
      refine ⟨r.getD j ⟨0, false⟩ :: r.set j y, ?_, ?_, (fun h => by cases h), fun _ => ⟨?_, hall⟩⟩
      · simp
      · exact List.set_perm_of_getD r j hjr y _
      · simp

theorem cancelUntil_assigns (s : SATModule E) (L : Nat) (hL : L < s.decisionLevel) (v : Nat) :
    (s.cancelUntil L).assigns v
      = if v ∈ (s.trail.drop (s.trail_lim.getD L 0)).map Lit.var then .l_Undef
        else s.assigns v := by
  have hdl : s.decisionLevel > L := hL
  simp only [cancelUntil, if_pos hdl]
  exact cancelLoop_assigns s _ _ v

/-- The method `analyze` returns in a state with the invariants, unmarked variables and a
decision level above `0`, for a clause whose literals are assigned with one of the current level:
the clause it makes starts with the complement of a literal `p` of the trail of the current
level; its other literals are among the literals `rest` pushed by the loop, which are literals of
assigned variables of a level above `0` and below the current one, no two of the same variable;
the backtrack level is as `backtrackLevel` finds it. -/
theorem analyze_spec (s : SATModule E) (hW : WellFormed s) (hC : Coherent s) (hD : DecisionOK s)
    (hseen : ∀ v : Nat, s.seen v = false) (confl : CRef)
    (hassigned : ∀ l ∈ (s.ca confl).lits, s.value l ≠ .l_Undef)
    (hcur : ∃ l ∈ (s.ca confl).lits, (s.vardata l.var).level = s.decisionLevel)
    (hdl : 0 < s.decisionLevel) :
    ∃ p seen rest kept seen1 toclear1 K' s',
      analyzeLoop s (s.trail.length + 1) (some confl) true s.trail.length (s.seen, 0, [])
        = some (p, seen, rest) ∧
      minimizeLearnt s seen rest (p.neg :: rest) = some (kept, seen1, toclear1) ∧
      analyze s confl = some (p.neg :: K', (backtrackLevel s (p.neg :: kept)).2, s') ∧
      (backtrackLevel s (p.neg :: kept)).1 = p.neg :: K' ∧
      (s'.assigns = s.assigns ∧ s'.trail = s.trail ∧ s'.trail_lim = s.trail_lim ∧
        s'.vardata = s.vardata ∧ s'.ca = s.ca) ∧
      K'.Perm kept ∧ kept.Sublist rest ∧
      p ∈ s.trail ∧ (s.vardata p.var).level = s.decisionLevel ∧ seen p.var = false ∧
      (∀ q ∈ rest, q.var ∈ s.trail.map Lit.var ∧ 0 < (s.vardata q.var).level ∧
        (s.vardata q.var).level < s.decisionLevel ∧ seen q.var = true) ∧
      (rest.map Lit.var).Nodup ∧
      (∀ v : Nat, seen v = true → ∃ q ∈ rest, q.var = v) ∧
      (∀ v : Nat, seen v = true → seen1 v = true) ∧
      (∀ v : Nat, seen1 v = true → seen v = true ∨ Justified s seen1 v) ∧
      (∀ q ∈ rest, q ∈ kept ∨ Justified s seen1 q.var) := by
  have hcount0 : countSeen s s.seen s.trail.length = 0 := by
    apply Nat.eq_zero_of_not_pos
    intro hpos
    obtain ⟨i, -, h, -⟩ := countSeen_exists s s.seen _ hpos
    rw [hseen] at h
    exact Bool.noConfusion h
  have hInv : AnalyzeInv s s.trail.length s.seen 0 [] := by
    refine ⟨?_, ?_, List.nodup_nil, ?_⟩
    · intro v hv; rw [hseen] at hv; exact Bool.noConfusion hv
    · intro q hq; simp at hq
    · rw [hcount0]; rfl
  obtain ⟨p, seen, rest, hloop, hp1, hp2, hp3, hp4, hp4', hp5⟩ := analyzeLoop_spec s hC.trailOK
    hC.levelOK hC.reasonOK hD (s.trail.length + 1) (some confl) true s.trail.length s.seen 0 []
    (Nat.lt_succ_self _) (Nat.le_refl _) hInv
    ⟨confl, rfl, by
      intro q hq
      simp only [↓reduceIte] at hq
      rw [List.take_length]
      exact hC.trailOK.assigned q.var (fun hu => hassigned q hq ((value_undef s q).mpr hu)), Or.inr (by
      obtain ⟨l, hl, hlev⟩ := hcur
      exact ⟨l, by simpa using hl, hlev, hdl⟩)⟩
  obtain ⟨kept, seen1, toclear1, hmin, m1, m2, m3, m4⟩ :=
    minimizeLearnt_spec s hW seen rest (p.neg :: rest)
  obtain ⟨K', b1, b2, -, -⟩ := backtrackLevel_spec s p.neg kept
  refine ⟨p, seen, rest, kept, seen1, toclear1, K', s.clearSeen seen1 toclear1, hloop, hmin, ?_, b1,
    ⟨rfl, rfl, rfl, rfl, rfl⟩, b2, m1, hp1, hp2, hp3, hp4, hp4', hp5, m2, m3, m4⟩
  unfold analyze
  simp only [hloop, hmin]
  rw [b1]

theorem levelAt_eq_length (lim : List Nat) (i : Nat) (h : levelAt lim i = lim.length) :
    ∀ d ∈ lim, d ≤ i := by
  unfold levelAt at h
  intro d hd
  have := List.filter_eq_self.mp ((List.Sublist.length_eq (List.filter_sublist lim)).mp h) d hd
  simpa using this

theorem levelAt_lt_lim (lim : List Nat) (hs : lim.Pairwise (fun a b => a ≤ b)) (bt j : Nat)
    (hbt : bt < lim.length) (h : levelAt lim j ≤ bt) : j < lim.getD bt 0 := by
  by_contra hge
  have hge' : lim.getD bt 0 ≤ j := by omega
  rw [List.getD_eq_getElem _ _ hbt] at hge'
  have hall : ∀ x ∈ lim.take (bt + 1), x ≤ j := by
    intro x hx
    obtain ⟨a, ha⟩ := List.getElem?_of_mem hx
    have halt := (List.getElem?_eq_some.mp ha).1
    rw [List.length_take] at halt
    rw [List.getElem?_take] at ha
    split at ha
    swap
    · cases ha
    obtain ⟨ha1, ha2⟩ := List.getElem?_eq_some.mp ha
    by_cases hab : a = bt
    · subst hab
      rw [← ha2]
      exact hge'
    · have := List.pairwise_iff_getElem.mp hs a bt ha1 hbt (by omega)
      rw [← ha2]
      omega
  have hsub : (lim.take (bt + 1)).Sublist (lim.filter (fun d => d ≤ j)) := by
    have h1 : (lim.take (bt + 1)).filter (fun d => decide (d ≤ j)) = lim.take (bt + 1) :=
      List.filter_eq_self.mpr (fun x hx => by simpa using hall x hx)
    rw [← h1]
    exact (List.take_sublist _ _).filter _
  have hlen := hsub.length_le
  rw [List.length_take] at hlen
  unfold levelAt at h
  omega

/-- The backtrack level that `analyze` finds, in a state with the invariants for a clause whose
literals are assigned, one of them of the current decision level, which is at least `1`:
`analyze` returns, `out_btlevel` is `0` when `out_learnt` has one literal and otherwise the level
of `out_learnt[1]`, the maximum of the levels of the literals `out_learnt[1..]`, and it is below
the current decision level. -/
theorem analyze_level (s : SATModule E) (hW : WellFormed s) (hC : Coherent s)
    (hD : DecisionOK s) (hseen : ∀ v : Nat, s.seen v = false) (confl : CRef)
    (hassigned : ∀ l ∈ (s.ca confl).lits, s.value l ≠ .l_Undef)
    (hcur : ∃ l ∈ (s.ca confl).lits, (s.vardata l.var).level = s.decisionLevel)
    (hdl : 1 ≤ s.decisionLevel) :
    ∃ out_learnt out_btlevel s', analyze s confl = some (out_learnt, out_btlevel, s') ∧
      1 ≤ out_learnt.length ∧
      (out_learnt.length = 1 → out_btlevel = 0) ∧
      (out_learnt.length ≠ 1 →
        out_btlevel = (s.vardata (out_learnt.getD 1 ⟨0, false⟩).var).level ∧
        ∀ l ∈ out_learnt.drop 1, (s.vardata l.var).level ≤ out_btlevel) ∧
      out_btlevel < s.decisionLevel := by
  obtain ⟨p, seen, rest, kept, seen1, toclear1, K', s', -, -, han, hbk, -, hperm, hsub, -, -, -,
    hrest, -, -, -, -, -⟩ := analyze_spec s hW hC hD hseen confl hassigned hcur hdl
  obtain ⟨K2, b1, -, b3, b4⟩ := backtrackLevel_spec s p.neg kept
  refine ⟨_, _, s', han, by simp, ?_, ?_, ?_⟩
  · intro hlen
    have hK : K' = [] := by
      simp only [List.length_cons] at hlen
      exact List.length_eq_zero.mp (by omega)
    rw [hK] at hperm
    exact b3 hperm.symm.eq_nil
  · intro hlen
    have hK : kept ≠ [] := by
      intro he
      rw [he] at hperm
      rw [hperm.eq_nil] at hlen
      exact hlen rfl
    obtain ⟨c1, c2⟩ := b4 hK
    rw [hbk] at c1
    refine ⟨c1, ?_⟩
    intro l hl
    simp only [List.drop_succ_cons, List.drop_zero] at hl
    exact c2 l (hperm.mem_iff.mp hl)
  · by_cases hK : kept = []
    · rw [b3 hK]; omega
    · obtain ⟨c1, c2⟩ := b4 hK
      rw [c1, hbk]
      have hmem : (p.neg :: K').getD 1 ⟨0, false⟩ ∈ K' := by
        cases K' with
        | nil => exact absurd hperm.symm.eq_nil hK
        | cons y r => simp
      exact (hrest _ (hsub.subset (hperm.mem_iff.mp hmem))).2.2.1

theorem levelAt_append_of_lt (lim : List Nat) (d i : Nat) (h : i < d) :
    levelAt (lim ++ [d]) i = levelAt lim i := by
  unfold levelAt
  rw [List.filter_append]
  have : ¬ d ≤ i := by omega
  simp [this]

theorem Coherent_newDecisionLevel (s : SATModule E) (h : Coherent s)
    (hq : s.qhead = s.trail.length) : Coherent s.newDecisionLevel := by
  refine ⟨⟨h.trailOK.1, h.trailOK.2, h.trailOK.3⟩,
    ⟨h.watchOK.1, h.watchOK.2, h.watchOK.3, h.watchOK.4, h.watchOK.5⟩, h.reasonOK,
    ⟨?_, ?_, ?_⟩, ?_⟩
  · show (s.trail_lim ++ [s.trail.length]).Pairwise (fun a b => a ≤ b)
    rw [List.pairwise_append]
    refine ⟨h.levelOK.lim_sorted, by simp, ?_⟩
    intro a ha b hb
    rw [List.mem_singleton] at hb
    rw [hb]
    exact h.levelOK.lim_le a ha
  · intro d hd
    have hd' : d ∈ s.trail_lim ++ [s.trail.length] := hd
    rcases List.mem_append.mp hd' with hd' | hd'
    · exact h.levelOK.lim_le d hd'
    · rw [List.mem_singleton] at hd'
      rw [hd']
      exact Nat.le_refl _
  · intro i l hi
    have hlt := (List.getElem?_eq_some.mp hi).1
    show (s.vardata l.var).level = levelAt (s.trail_lim ++ [s.trail.length]) i
    rw [levelAt_append_of_lt _ _ _ (show i < s.trail.length from hlt)]
    exact h.levelOK.level_eq i l hi
  · intro i l hi hl
    have hlt := (List.getElem?_eq_some.mp hl).1
    have hi' : s.qhead ≤ i := hi
    have hlt' : i < s.trail.length := hlt
    omega

theorem WellFormed_newDecisionLevel (s : SATModule E) (h : WellFormed s) :
    WellFormed s.newDecisionLevel :=
  ⟨h.qhead_le, ⟨h.inRange.trail_range, h.inRange.clause_range⟩, h.watched_size⟩

theorem Propagated_newDecisionLevel (s : SATModule E) (n : Nat) (h : Propagated s n) :
    Propagated s.newDecisionLevel n := h

/-- The state `afterPropagate s` is the result of `propagate` in a well-formed state. -/
theorem afterPropagate_eq (s : SATModule E) (hW : WellFormed s) :
    propagate (s.nVars + s.trail.length) s = some (afterPropagate s) := by
  obtain ⟨confl, s', h⟩ := propagate_terminates (s.nVars + s.trail.length) s hW (by omega)
  unfold afterPropagate
  rw [h]

theorem addClause_seen (fuel : Nat) (s s' : SATModule E) (ps : List Lit) (b : Bool)
    (h : addClause_ fuel s ps = some (b, s')) : s'.seen = s.seen := by
  unfold addClause_ at h
  split at h
  · cases h; rfl
  · cases hK : addClauseLoop s none (sort ps) with
    | none =>
      simp only [hK, Option.some.injEq, Prod.mk.injEq] at h
      obtain ⟨-, rfl⟩ := h
      rfl
    | some K =>
      match K, hK with
      | [], hK =>
        simp only [hK, Option.some.injEq, Prod.mk.injEq] at h
        obtain ⟨-, rfl⟩ := h
        rfl
      | [l], hK =>
        simp only [hK] at h
        cases hp : (s.uncheckedEnqueue l none).propagate fuel with
        | none => simp [hp] at h
        | some r =>
          obtain ⟨confl, s1⟩ := r
          simp only [hp, Option.some.injEq, Prod.mk.injEq] at h
          obtain ⟨-, rfl⟩ := h
          exact (propagate_frame fuel _ s1 confl hp).seen_eq
      | c0 :: c1 :: cs, hK =>
        simp only [hK, Option.some.injEq, Prod.mk.injEq] at h
        obtain ⟨-, rfl⟩ := h
        rfl

theorem addClauses_seen (cls : List (List Lit)) :
    ∀ (s : SATModule E), (addClauses s cls).seen = s.seen := by
  induction cls with
  | nil => intro s; rfl
  | cons ps rest ih =>
    intro s
    show (addClauses (afterAddClause s ps) rest).seen = s.seen
    rw [ih]
    unfold afterAddClause
    split
    · rename_i r hr
      exact addClause_seen _ s r.2 ps r.1 hr
    · rfl

theorem freshSolver_seen (E : Type) (n : Nat) : ∀ v : Nat, (freshSolver E n).seen v = false := by
  induction n with
  | zero => intro v; rfl
  | succ n ih =>
    intro v
    show Function.update (freshSolver E n).seen (freshSolver E n).nVars false v = false
    by_cases he : v = (freshSolver E n).nVars
    · rw [he, Function.update_same]
    · rw [Function.update_noteq he]; exact ih v

/-- The state `conflictAtLevelOne` has the invariants that `analyze` needs. -/
theorem conflictAtLevelOne_facts :
    WellFormed conflictAtLevelOne.2 ∧ Coherent conflictAtLevelOne.2 ∧
      ∀ v : Nat, conflictAtLevelOne.2.seen v = false := by
  obtain ⟨f1, f2, -, -⟩ := freshSolver_facts LinExpr 3
  obtain ⟨a1, -, -⟩ := addClauses_ready
    [[mkLit 0 true, mkLit 1 true, mkLit 2 false], [mkLit 0 true, mkLit 1 true, mkLit 2 true],
      [mkLit 0 false]] (freshSolver LinExpr 3) f1 (by rw [f2]; decide)
  have hR : Ready unitNotStored := a1
  have hq := (hR.propagated (by decide)).1
  have hW : WellFormed ((unitNotStored.newDecisionLevel).uncheckedEnqueue (mkLit 1 false) none) :=
    WellFormed_uncheckedEnqueue _ _ _ (by decide) (WellFormed_newDecisionLevel _ hR.wellFormed)
  have hC : Coherent ((unitNotStored.newDecisionLevel).uncheckedEnqueue (mkLit 1 false) none) :=
    Coherent_uncheckedEnqueue _ _ _ (Coherent_newDecisionLevel _ hR.coherent hq) (by decide)
      (by intro cr hcr; cases hcr)
  have he : propagate _ ((unitNotStored.newDecisionLevel).uncheckedEnqueue (mkLit 1 false) none)
      = some (conflictAtLevelOne.1, conflictAtLevelOne.2) := afterPropagate_eq _ hW
  refine ⟨propagate_wellFormed _ _ conflictAtLevelOne.2 conflictAtLevelOne.1 hW he,
    (propagate_inv False _ _ conflictAtLevelOne.2 conflictAtLevelOne.1 hC hW.qhead_le
      (fun hf => absurd hf id) he).1, ?_⟩
  intro v
  rw [(propagate_frame _ _ conflictAtLevelOne.2 conflictAtLevelOne.1 he).seen_eq]
  show unitNotStored.seen v = false
  unfold unitNotStored
  rw [addClauses_seen]
  exact freshSolver_seen LinExpr 3 v

theorem litHolds_neg (M : Var → Bool) (l : Lit) : litHolds M l.neg = !litHolds M l := by
  unfold litHolds Lit.neg
  cases M l.var <;> cases l.sign <;> rfl

theorem findSeen_some (trail : List Lit) (seen : Var → Bool) :
    ∀ n i, findSeen trail seen n = some i →
      i < n ∧ seen (trail.getD i ⟨0, false⟩).var = true := by
  intro n
  induction n with
  | zero => intro i h; simp [findSeen] at h
  | succ n ih =>
    intro i h
    unfold findSeen at h
    split at h
    · rename_i hs
      simp only [Option.some.injEq] at h
      subst h
      exact ⟨Nat.lt_succ_self _, hs⟩
    · obtain ⟨h1, h2⟩ := ih i h
      exact ⟨by omega, h2⟩

/-- Unit clauses are not stored in the database: with the clauses `[~x, ~a, b]`, `[~x, ~a, ~b]`
and the unit clause `[x]`, whose literal is enqueued at level `0`, `analyze` makes the clause
`[~a]` from the conflict after the decision of `a` (literals of level `0` are left out); the
assignment in which only `a` is true satisfies both clauses of the database and not the clause
`[~a]`. -/
theorem analyze_clause_not_implied_by_database :
    conflictAtLevelOne.1 = some 1 ∧
    conflictAtLevelOne.2.clauses = [0, 1] ∧ conflictAtLevelOne.2.learnts = [] ∧
    (conflictAtLevelOne.2.clauses.map (fun cr => (conflictAtLevelOne.2.ca cr).lits))
      = [[mkLit 2 false, mkLit 1 true, mkLit 0 true], [mkLit 2 true, mkLit 1 true, mkLit 0 true]] ∧
    (analyze conflictAtLevelOne.2 1).map (fun r => r.1) = some [mkLit 1 true] ∧
    (∀ cr ∈ conflictAtLevelOne.2.clauses ++ conflictAtLevelOne.2.learnts,
      satisfies onlyVarOne (conflictAtLevelOne.2.ca cr).lits = true) ∧
    satisfies onlyVarOne [mkLit 1 true] = false := by
  decide

theorem pickBranchLit_first (h : Environment E) (s : SATModule E) (hne : s.order_heap ≠ [])
    (hu : s.assigns (h.removeMin s) = .l_Undef) (hd : s.decision (h.removeMin s) = true) :
    pickBranchLit h s = some (some (mkLit (h.removeMin s) (s.polarity (h.removeMin s))),
      { s with order_heap := s.order_heap.erase (h.removeMin s) }) := by
  unfold pickBranchLit
  obtain ⟨n, hn⟩ : ∃ n, s.order_heap.length = n + 1 := by
    cases hl : s.order_heap with
    | nil => exact absurd hl hne
    | cons a r => exact ⟨r.length, rfl⟩
  rw [hn]
  simp only [pickBranchLoop, hne, ↓reduceIte, hu, hd, ne_eq, not_true_eq_false, decide_False,
    Bool.not_true, Bool.or_self, Bool.false_eq_true]

theorem reduceDB_nil (order : List CRef → List CRef) (low : CRef → Bool) (gc : Bool)
    (s : SATModule E) (h : order s.learnts = []) :
    reduceDB order low gc s = checkGarbage gc { s with learnts := [] } := by
  unfold reduceDB
  rw [h]
  rfl

theorem scenarioBReduced_facts (g1 : Bool) (g2 : Option Bool) :
    assumeLoop ((scenarioBReduced g1 g2).assumptions.length - (scenarioBReduced g1 g2).decisionLevel)
        (scenarioBReduced g1 g2) = .inr (none, scenarioBReduced g1 g2) ∧
      (scenarioBReduced g1 g2).order_heap = [0, 1] ∧
      (∀ x ∈ [0, 1], (scenarioBReduced g1 g2).assigns x = .l_Undef ∧
        (scenarioBReduced g1 g2).decision x = true) := by
  cases g1 <;> rcases g2 with _ | g
  · exact ⟨rfl, by decide, by decide⟩
  · cases g <;> exact ⟨rfl, by decide, by decide⟩
  · exact ⟨rfl, by decide, by decide⟩
  · cases g <;> exact ⟨rfl, by decide, by decide⟩

theorem scenarioB_firstPass (h : Environment LinExpr)
    (hB : ∀ F, h.runBackends F = .True)
    (hheap : ∀ s, s.order_heap ≠ [] → h.removeMin s ∈ s.order_heap)
    (hsort : ∀ s cs, (h.order s cs).Perm cs) (nof : Int) (hn : 0 < nof) :
    ∃ g1 g2 x, x ∈ [0, 1] ∧
      searchPass h nof 0 scenarioBSearch = some (.goesOn 0 (scenarioBDecision g1 g2 x)) := by
  have hp : scenarioBSearch.propagate (scenarioBSearch.nVars + scenarioBSearch.trail.length)
      = some (none, (afterPropagate scenarioBSearch).2) := rfl
  have hr : simplifyRemove (afterPropagate scenarioBSearch).2.adaptPassedFormula
      = some (.inr scenarioBSimplify) := rfl
  obtain ⟨r, hres⟩ : ∃ r, searchPass h nof 0 scenarioBSearch = r := ⟨_, rfl⟩
  rw [hres]
  unfold searchPass at hres
  rw [hp] at hres
  simp only [hB] at hres
  unfold searchNoConflict at hres
  rw [if_neg (by
    intro hc
    rcases hc.2 with h1 | h1
    · omega
    · revert h1; decide)] at hres
  rw [if_pos (by decide)] at hres
  unfold simplify at hres
  rw [hr] at hres
  simp only [] at hres
  generalize h.gcSimplify scenarioBSimplify = g1 at hres
  have hl : ∀ g, ((checkGarbage g scenarioBSimplify).simplifyRebuild).learnts = [] := by decide
  obtain ⟨g2, hg2⟩ : ∃ g2 : Option Bool,
      (if h.reduce (checkGarbage g1 scenarioBSimplify).simplifyRebuild = true then
        reduceDB (h.order (checkGarbage g1 scenarioBSimplify).simplifyRebuild)
          (h.low (checkGarbage g1 scenarioBSimplify).simplifyRebuild)
          (h.gcReduce (checkGarbage g1 scenarioBSimplify).simplifyRebuild)
          (checkGarbage g1 scenarioBSimplify).simplifyRebuild
      else (checkGarbage g1 scenarioBSimplify).simplifyRebuild) = scenarioBReduced g1 g2 := by
    by_cases hred : h.reduce (checkGarbage g1 scenarioBSimplify).simplifyRebuild = true
    · refine ⟨some (h.gcReduce (checkGarbage g1 scenarioBSimplify).simplifyRebuild), ?_⟩
      rw [if_pos hred, reduceDB_nil _ _ _ _ (by rw [hl]; exact List.Perm.eq_nil (hsort _ _))]
      rfl
    · exact ⟨none, by rw [if_neg hred]; rfl⟩
  rw [hg2] at hres
  obtain ⟨f1, f2, f3⟩ := scenarioBReduced_facts g1 g2
  rw [f1] at hres
  simp only [] at hres
  have hmem := hheap { scenarioBReduced g1 g2 with
    decisions := (scenarioBReduced g1 g2).decisions + 1 } (by
      show (scenarioBReduced g1 g2).order_heap ≠ []
      rw [f2]; decide)
  have hmem' : h.removeMin { scenarioBReduced g1 g2 with
    decisions := (scenarioBReduced g1 g2).decisions + 1 } ∈ [0, 1] := by
    rw [← f2]; exact hmem
  rw [pickBranchLit_first h _ (by
      show (scenarioBReduced g1 g2).order_heap ≠ []
      rw [f2]; decide) (f3 _ hmem').1 (f3 _ hmem').2] at hres
  simp only [] at hres
  exact ⟨g1, g2, _, hmem', hres.symm⟩
theorem cancelStep_counters (s : SATModule E) (c : Nat) (l : Lit) :
    (s.cancelStep c l).conflicts = s.conflicts ∧ (s.cancelStep c l).decisions = s.decisions ∧
      (s.cancelStep c l).ok = s.ok := by
  unfold cancelStep insertVarOrder
  dsimp only
  split <;> exact ⟨rfl, rfl, rfl⟩

theorem cancelLoop_counters (s : SATModule E) (c : Nat) (ls : List Lit) :
    (cancelLoop s c ls).conflicts = s.conflicts ∧ (cancelLoop s c ls).decisions = s.decisions ∧
      (cancelLoop s c ls).ok = s.ok := by
  induction ls generalizing c with
  | nil => exact ⟨rfl, rfl, rfl⟩
  | cons l ls ih =>
    obtain ⟨h1, h2, h3⟩ := ih (c + 1)
    obtain ⟨k1, k2, k3⟩ := cancelStep_counters (cancelLoop s (c + 1) ls) c l
    exact ⟨k1.trans h1, k2.trans h2, k3.trans h3⟩

theorem cancelUntil_counters (s : SATModule E) (level : Nat) :
    (s.cancelUntil level).conflicts = s.conflicts ∧
      (s.cancelUntil level).decisions = s.decisions ∧ (s.cancelUntil level).ok = s.ok := by
  unfold cancelUntil
  split
  · exact cancelLoop_counters s _ _
  · exact ⟨rfl, rfl, rfl⟩

set_option maxHeartbeats 4000000 in
theorem scenarioB_afterDecision (h : Environment LinExpr) (nof : Int) (n : Nat) (g1 : Bool)
    (g2 : Option Bool) (x : Var) (hx : x ∈ [0, 1]) :
    (searchLoop h nof (n + 2) 0 (scenarioBDecision g1 g2 x)).map
      (fun r => (r.1, r.2.conflicts, r.2.decisions, r.2.conflict, r.2.withinBudget))
      = some (.l_False, 2, 1, [], true) := by
  have hx' : x = 0 ∨ x = 1 := by simpa using hx
  rcases hx' with rfl | rfl <;> cases g1 <;> rcases g2 with _ | g
  · rfl
  · cases g <;> rfl
  · rfl
  · cases g <;> rfl
  · rfl
  · cases g <;> rfl
  · rfl
  · cases g <;> rfl

/-- Claim C14, counterexample: in scenario B, with backends that answer `True`, `solve_` returns
`l_False` with the conflicts counter at `2`, not `1`: the first conflict is found at decision
level `1` after the only decision; it yields a unit clause, and the second conflict, found at
decision level `0`, is counted before `search` tests the level. -/
theorem solve_scenarioB_conflicts_not_one :
    (solve_ plainEnvironment 3 scenarioB).map (fun r => (r.1, r.2.conflicts, r.2.decisions))
        = some (.l_False, 2, 1) ∧
      ¬ ∃ s', solve_ plainEnvironment 3 scenarioB = some (.l_False, s') ∧ s'.conflicts = 1 := by
  have h1 : (solve_ plainEnvironment 3 scenarioB).map (fun r => (r.1, r.2.conflicts, r.2.decisions))
      = some (.l_False, 2, 1) := by decide
  refine ⟨h1, ?_⟩
  rintro ⟨s', hs, hc⟩
  rw [hs] at h1
  simp only [Option.map_some', Option.some.injEq, Prod.mk.injEq, true_and] at h1
  rw [hc] at h1
  exact absurd h1.1 (by decide)

theorem solveExit_counters (status : lbool) (s : SATModule E) :
    (solveExit status s).conflicts = s.conflicts ∧ (solveExit status s).decisions = s.decisions := by
  unfold solveExit
  dsimp only
  split
  · exact ⟨(cancelUntil_counters _ 0).1, (cancelUntil_counters _ 0).2.1⟩
  · split
    · exact ⟨(cancelUntil_counters _ 0).1, (cancelUntil_counters _ 0).2.1⟩
    · exact ⟨(cancelUntil_counters _ 0).1, (cancelUntil_counters _ 0).2.1⟩

theorem solveExit_false (s : SATModule E) (hcf : s.conflict = []) :
    (solveExit .l_False s).ok = false := by
  unfold solveExit
  simp only [reduceCtorEq, ↓reduceIte, hcf, List.length_nil, and_self]
  exact (cancelUntil_counters _ 0).2.2

theorem solve__of_search (h : Environment LinExpr) (k : Nat) (s X : SATModule LinExpr)
    (status : lbool) (hok : s.ok = true)
    (hs : search h (k + 1) (h.nof_conflicts 0) s.solveEntry = some (status, X))
    (hwb : X.withinBudget = true) (hst : status ≠ .l_Undef) :
    solve_ h (k + 1) s = some (status, solveExit status X) := by
  unfold solve_
  simp only [hok, Bool.not_true, Bool.false_eq_true, ↓reduceIte]
  rw [solveLoop, hs]
  simp only [hwb, Bool.true_eq_false, ↓reduceIte, hst]

/-- Claim C14, amended: in scenario B, the four clauses `[x, y]`, `[~x, y]`, `[x, ~y]`,
`[~x, ~y]` over two fresh Boolean variables, `solve_` returns `l_False` after one decision with
the conflicts counter at exactly `2`, whenever the backends answer `True`, whichever variable
the order heap yields, whether or not the learnt clauses are reduced and garbage is collected,
and for every positive bound on the conflicts of the first restart. -/
theorem solve_scenarioB (h : Environment LinExpr)
    (hB : ∀ F, h.runBackends F = .True)
    (hheap : ∀ s, s.order_heap ≠ [] → h.removeMin s ∈ s.order_heap)
    (hsort : ∀ s cs, (h.order s cs).Perm cs) (hn : 0 < h.nof_conflicts 0) (n : Nat) :
    ∃ s', solve_ h (n + 3) scenarioB = some (.l_False, s') ∧ s'.conflicts = 2 ∧
      s'.decisions = 1 ∧ s'.ok = false := by
  obtain ⟨g1, g2, x, hx, hpass⟩ := scenarioB_firstPass h hB hheap hsort (h.nof_conflicts 0) hn
  have hleaf := scenarioB_afterDecision h (h.nof_conflicts 0) n g1 g2 x hx
  obtain ⟨r, hr, hobs⟩ := Option.map_eq_some'.mp hleaf
  obtain ⟨status, X⟩ := r
  simp only [Prod.mk.injEq] at hobs
  obtain ⟨rfl, hc, hd, hcf, hwb⟩ := hobs
  have hsearch : searchLoop h (h.nof_conflicts 0) (n + 2 + 1) 0 scenarioBSearch
      = some (.l_False, X) := by
    rw [searchLoop, hpass]
    exact hr
  obtain ⟨c1, c2⟩ := solveExit_counters .l_False X
  exact ⟨_, solve__of_search h (n + 2) scenarioB X .l_False (by decide) hsearch hwb (by decide),
    c1.trans hc, c2.trans hd, solveExit_false X hcf⟩

/-- Claim C14, witness: the environment in which the order heap yields its first member. -/
theorem solve_scenarioB_witness :
    ∃ s', solve_ plainEnvironment (0 + 3) scenarioB = some (.l_False, s') ∧ s'.conflicts = 2 ∧
      s'.decisions = 1 ∧ s'.ok = false :=
  solve_scenarioB plainEnvironment (fun _ => rfl)
    (fun s hs => by
      show s.order_heap.headD 0 ∈ s.order_heap
      cases hl : s.order_heap with
      | nil => exact absurd hl hs
      | cons a r => exact List.mem_cons_self a r)
    (fun _ cs => List.Perm.refl cs) (by decide) 0

/-- Claim C15: in scenario C the atoms `x <= 0` and `x > 0` get the literals `mkLit 0 true` and
`mkLit 1 false`, both true after the assertion; the passed formula makes the backends answer
`False`, and `search` returns `l_False` after one conflict.  The clause that `search` synthesises
and stores in `learnts` is `[mkLit 0 true, mkLit 1 false]`, the two literals themselves, both
true, and not the clause `[mkLit 0 false, mkLit 1 true]` of their negations, which are false. -/
theorem search_theory_lemma_not_negated :
    (getLiteral xLeq (init LinExpr)).1 = mkLit 0 true ∧
    (getLiteral xGreater (afterAddClause (getLiteral xLeq (init LinExpr)).2 [mkLit 0 true])).1
      = mkLit 1 false ∧
    scenarioC.ok = true ∧
    scenarioC.value (mkLit 0 true) = .l_True ∧ scenarioC.value (mkLit 1 false) = .l_True ∧
    (afterPropagate scenarioC).1 = none ∧
    (afterPropagate scenarioC).2.adaptPassedFormula.mPassedFormula
      = [⟨(1, 0), .CR_GREATER⟩, ⟨(1, 0), .CR_LEQ⟩] ∧
    (afterPropagate scenarioC).2.adaptPassedFormula.theoryLemma = [mkLit 0 true, mkLit 1 false] ∧
    (afterPropagate scenarioC).2.adaptPassedFormula.theoryLemma
      ≠ [(mkLit 0 true).neg, (mkLit 1 false).neg] ∧
    (∀ l ∈ (afterPropagate scenarioC).2.adaptPassedFormula.theoryLemma,
      scenarioC.value l = .l_True ∧ scenarioC.value l.neg = .l_False) ∧
    (solve_ theoryEnvironment 1 scenarioC).map
      (fun r => (r.1, r.2.learnts.map (fun cr => (r.2.ca cr).lits), r.2.conflicts, r.2.decisions))
      = some (.l_False, [[mkLit 0 true, mkLit 1 false]], 1, 0) := by
  decide

/-- Claim C26: the clause that `search` synthesises after the answer `False` of the backends is
made from the assignment alone: it holds a literal of every assigned variable, whatever the
explanation of the backends is.  In scenario C with the third atom `2*x + 1 <= 0` the clause is
`[mkLit 0 true, mkLit 1 false, mkLit 2 true]`; it holds the literal of the third atom (variable
`2`), which is not part of the inconsistency of `x <= 0` and `x > 0`, and its literals are the
true literals, not their negations. -/
theorem search_theory_lemma_of_all_assigned :
    (∀ (s : SATModule LinExpr) (v : Var), v < s.nVars → s.assigns v ≠ .l_Undef →
      ∃ l ∈ s.theoryLemma, l.var = v) ∧
    (∀ s : SATModule LinExpr,
      (s.learnTheoryLemma.2.ca s.learnTheoryLemma.1).lits = s.theoryLemma) ∧
    (getLiteral (.REALCONSTRAINT ⟨(2, 1), .CR_LEQ⟩) scenarioC).1 = mkLit 2 true ∧
    scenarioCThird.ok = true ∧
    (afterPropagate scenarioCThird).1 = none ∧
    (afterPropagate scenarioCThird).2.adaptPassedFormula.theoryLemma
      = [mkLit 0 true, mkLit 1 false, mkLit 2 true] ∧
    (∀ l ∈ (afterPropagate scenarioCThird).2.adaptPassedFormula.theoryLemma,
      scenarioCThird.value l = .l_True) ∧
    (solve_ theoryEnvironment 1 scenarioCThird).map
      (fun r => (r.1, r.2.learnts.map (fun cr => (r.2.ca cr).lits)))
      = some (.l_False, [[mkLit 0 true, mkLit 1 false, mkLit 2 true]]) := by
  refine ⟨?_, ?_, by decide, by decide, by decide, by decide, by decide, by decide⟩
  · intro s v hv ha
    unfold theoryLemma
    by_cases h1 : s.assigns v = .l_True
    · exact ⟨mkLit v false, List.mem_filterMap.mpr ⟨v, List.mem_range.mpr hv, by simp [h1]⟩, rfl⟩
    · have h2 : s.assigns v = .l_False := by
        cases h : s.assigns v with
        | l_True => exact absurd h h1
        | l_False => rfl
        | l_Undef => exact absurd h ha
      exact ⟨mkLit v true, List.mem_filterMap.mpr ⟨v, List.mem_range.mpr hv, by simp [h2]⟩, rfl⟩
  · intro s
    unfold learnTheoryLemma
    dsimp only
    split
    · simp [alloc]
    · simp [addLearnt, attachClause, alloc]

/-- Claim C27: after the atom `x <= 0` was asserted its literal `mkLit 0 true` is true, and
`adaptPassedFormula` puts `x > 0`, the constraint of the false literal `mkLit 0 false`, into the
passed formula and not `x <= 0`.  After two atoms were passed and the solver went back to level
`0`, where no variable is assigned, `adaptPassedFormula` removes the first of the two stale
atoms only: the second one remains in the passed formula. -/
theorem adaptPassedFormula_passes_false_literals :
    assertedLeq.value (mkLit 0 true) = .l_True ∧
    assertedLeq.value (mkLit 0 false) = .l_False ∧
    (assertedLeq.mLitConstraintMap (mkLit 0 true)).map (fun r => r.1)
      = some ⟨(1, 0), .CR_LEQ⟩ ∧
    (assertedLeq.mLitConstraintMap (mkLit 0 false)).map (fun r => r.1)
      = some ⟨(1, 0), .CR_GREATER⟩ ∧
    assertedLeq.adaptPassedFormula.mPassedFormula = [⟨(1, 0), .CR_GREATER⟩] ∧
    twoAtomsPassed.mPassedFormula = [⟨(1, 0), .CR_GREATER⟩, ⟨(2, 1), .CR_GREATER⟩] ∧
    (∀ v, v < (twoAtomsPassed.cancelUntil 0).nVars →
      (twoAtomsPassed.cancelUntil 0).assigns v = .l_Undef) ∧
    (twoAtomsPassed.cancelUntil 0).adaptPassedFormula.mPassedFormula
      = [⟨(2, 1), .CR_GREATER⟩] := by
  decide

theorem cancelStep_keeps (s : SATModule E) (c : Nat) (l : Lit) :
    (s.cancelStep c l).learnts = s.learnts ∧ (s.cancelStep c l).clauses = s.clauses ∧
      (s.cancelStep c l).assumptions = s.assumptions ∧ (s.cancelStep c l).conflict = s.conflict ∧
      (s.cancelStep c l).mPassedFormula = s.mPassedFormula ∧ (s.cancelStep c l).ca = s.ca ∧
      (s.cancelStep c l).nVars = s.nVars ∧ (s.cancelStep c l).decision = s.decision := by
  unfold cancelStep insertVarOrder
  dsimp only
  split <;> exact ⟨rfl, rfl, rfl, rfl, rfl, rfl, rfl, rfl⟩

theorem cancelLoop_keeps (s : SATModule E) (c : Nat) (ls : List Lit) :
    (cancelLoop s c ls).learnts = s.learnts ∧ (cancelLoop s c ls).clauses = s.clauses ∧
      (cancelLoop s c ls).assumptions = s.assumptions ∧ (cancelLoop s c ls).conflict = s.conflict ∧
      (cancelLoop s c ls).mPassedFormula = s.mPassedFormula ∧ (cancelLoop s c ls).ca = s.ca ∧
      (cancelLoop s c ls).nVars = s.nVars ∧ (cancelLoop s c ls).decision = s.decision := by
  induction ls generalizing c with
  | nil => exact ⟨rfl, rfl, rfl, rfl, rfl, rfl, rfl, rfl⟩
  | cons l ls ih =>
    obtain ⟨h1, h2, h3, h4, h5, h6, h7, h8⟩ := ih (c + 1)
    obtain ⟨k1, k2, k3, k4, k5, k6, k7, k8⟩ := cancelStep_keeps (cancelLoop s (c + 1) ls) c l
    exact ⟨k1.trans h1, k2.trans h2, k3.trans h3, k4.trans h4, k5.trans h5, k6.trans h6,
      k7.trans h7, k8.trans h8⟩

theorem cancelUntil_keeps (s : SATModule E) (level : Nat) :
    (s.cancelUntil level).learnts = s.learnts ∧ (s.cancelUntil level).clauses = s.clauses ∧
      (s.cancelUntil level).assumptions = s.assumptions ∧
      (s.cancelUntil level).conflict = s.conflict ∧
      (s.cancelUntil level).mPassedFormula = s.mPassedFormula ∧
      (s.cancelUntil level).ca = s.ca ∧ (s.cancelUntil level).nVars = s.nVars ∧
      (s.cancelUntil level).decision = s.decision := by
  unfold cancelUntil
  split
  · exact cancelLoop_keeps s _ _
  · exact ⟨rfl, rfl, rfl, rfl, rfl, rfl, rfl, rfl⟩

theorem cancelUntil_decisionLevel (s : SATModule E) (level : Nat) :
    (s.cancelUntil level).decisionLevel ≤ level := by
  unfold cancelUntil
  split
  · show (s.trail_lim.take level).length ≤ level
    rw [List.length_take]
    exact Nat.min_le_left _ _
  · rename_i h
    exact Nat.le_of_not_lt h

theorem searchConflict_not_undef (s s' : SATModule E) (conflictC : Int) (confl : CRef)
    (st : lbool) (h : searchConflict s conflictC confl = some (.returns st s')) :
    st = .l_False := by
  unfold searchConflict at h
  dsimp only at h
  split at h
  · simp only [Option.some.injEq, Pass.returns.injEq] at h
    exact h.1.symm
  · split at h
    · cases h
    · split at h <;> simp at h

theorem searchNoConflict_undef (h : Environment E) (nof conflictC : Int) (s s' : SATModule E)
    (hr : searchNoConflict h nof conflictC s = some (.returns .l_Undef s')) :
    s' = s.cancelUntil 0 := by
  unfold searchNoConflict at hr
  split at hr
  · simp only [Option.some.injEq, Pass.returns.injEq, true_and] at hr
    exact hr.symm
  · split at hr
    · cases hr
    · simp at hr
    · dsimp only at hr
      split at hr
      · simp at hr
      · simp at hr
      · split at hr
        · cases hr
        · simp at hr
        · simp at hr

theorem searchPass_undef [DecidableEq E] (h : Environment E) (nof conflictC : Int)
    (s s' : SATModule E) (hr : searchPass h nof conflictC s = some (.returns .l_Undef s')) :
    s'.decisionLevel = 0 ∨ h.runBackends s'.mPassedFormula = .Unknown := by
  unfold searchPass at hr
  split at hr
  · cases hr
  · exact absurd (searchConflict_not_undef _ _ _ _ _ hr) (by decide)
  · dsimp only at hr
    split at hr
    · left
      rw [searchNoConflict_undef h _ _ _ _ hr]
      exact Nat.le_zero.mp (cancelUntil_decisionLevel _ 0)
    · exact absurd (searchConflict_not_undef _ _ _ _ _ hr) (by decide)
    · right
      rename_i hU
      simp only [Option.some.injEq, Pass.returns.injEq, true_and] at hr
      rw [← hr]
      exact hU

theorem searchLoop_undef [DecidableEq E] (h : Environment E) (nof : Int) (fuel : Nat) :
    ∀ (conflictC : Int) (s s' : SATModule E),
      searchLoop h nof fuel conflictC s = some (.l_Undef, s') →
        s'.decisionLevel = 0 ∨ h.runBackends s'.mPassedFormula = .Unknown := by
  induction fuel with
  | zero => intro c s s' hr; rw [searchLoop] at hr; cases hr
  | succ fuel ih =>
    intro c s s' hr
    rw [searchLoop] at hr
    split at hr
    · cases hr
    · rename_i st s1 hp
      simp only [Option.some.injEq, Prod.mk.injEq] at hr
      obtain ⟨rfl, rfl⟩ := hr
      exact searchPass_undef h nof c s _ hp
    · exact ih _ _ _ hr

/-- Claim C23, counterexample: with backends that answer `Unknown` for the passed formula
`[x > 0]`, `search` decides the literal of the atom `x <= 0`, runs the backends and returns
`l_Undef` at decision level `1`, with the decided literal still on the trail. -/
theorem search_undef_above_level_zero :
    (search unknownEnvironment 2 100 oneAtom).map (fun r => (r.1, r.2.decisionLevel))
      = some (.l_Undef, 1) ∧
    (search unknownEnvironment 2 100 oneAtom).map (fun r => r.2.trail) = some [mkLit 0 true] ∧
    (search unknownEnvironment 2 100 oneAtom).map (fun r => r.2.mPassedFormula)
      = some [⟨(1, 0), .CR_GREATER⟩] := by
  decide

/-- Claim C23, amended: when `search( nof_conflicts )` with `nof_conflicts >= 0` is at a
conflict-free point with `conflictC >= nof_conflicts`, it returns `l_Undef` in the state after
`cancelUntil( 0 )`, at decision level `0` and with the lists of the learnt and the original
clauses as they were before the restart.  Every return of `l_Undef` from `search` leaves the
solver at decision level `0`, unless it is the return after the answer `Unknown` of the backends
for the passed formula of the state, which does not backtrack. -/
theorem search_restart_level_zero [DecidableEq E] (h : Environment E)
    (nof_conflicts conflictC : Int) (s : SATModule E) (hnof : 0 ≤ nof_conflicts)
    (hc : nof_conflicts ≤ conflictC) :
    searchNoConflict h nof_conflicts conflictC s = some (.returns .l_Undef (s.cancelUntil 0)) ∧
      (s.cancelUntil 0).decisionLevel = 0 ∧ (s.cancelUntil 0).learnts = s.learnts ∧
      (s.cancelUntil 0).clauses = s.clauses ∧
      (∀ (fuel : Nat) (c0 : Int) (s0 s' : SATModule E),
        searchLoop h nof_conflicts fuel c0 s0 = some (.l_Undef, s') →
          s'.decisionLevel = 0 ∨ h.runBackends s'.mPassedFormula = .Unknown) := by
  refine ⟨?_, Nat.le_zero.mp (cancelUntil_decisionLevel s 0), (cancelUntil_keeps s 0).1,
    (cancelUntil_keeps s 0).2.1, fun fuel => searchLoop_undef h nof_conflicts fuel⟩
  unfold searchNoConflict
  rw [if_pos ⟨hnof, Or.inl hc⟩]

/-- Claim C23, witness: the restart after the decision of the literal `0`, with the bound `0`. -/
theorem search_restart_level_zero_witness :
    searchNoConflict plainEnvironment 0 0 decidedOnce
        = some (.returns .l_Undef (decidedOnce.cancelUntil 0)) ∧
      (decidedOnce.cancelUntil 0).decisionLevel = 0 ∧
      (decidedOnce.cancelUntil 0).learnts = decidedOnce.learnts ∧
      (decidedOnce.cancelUntil 0).clauses = decidedOnce.clauses ∧
      (∀ (fuel : Nat) (c0 : Int) (s0 s' : SATModule LinExpr),
        searchLoop plainEnvironment 0 fuel c0 s0 = some (.l_Undef, s') →
          s'.decisionLevel = 0 ∨ plainEnvironment.runBackends s'.mPassedFormula = .Unknown) :=
  search_restart_level_zero plainEnvironment 0 0 decidedOnce (by decide) (by decide)

theorem Maintained.mt_refl (s : SATModule E) : Maintained s s :=
  ⟨rfl, rfl, rfl, rfl, fun _ => rfl, rfl, rfl, rfl, rfl, rfl, fun _ h => h⟩

theorem Maintained.mt_trans {s t u : SATModule E} (h1 : Maintained s t) (h2 : Maintained t u) :
    Maintained s u :=
  ⟨h2.assigns_eq.trans h1.assigns_eq, h2.trail_eq.trans h1.trail_eq,
    h2.nVars_eq.trans h1.nVars_eq, h2.decision_eq.trans h1.decision_eq,
    fun cr => (h2.lits_eq cr).trans (h1.lits_eq cr), h2.ok_eq.trans h1.ok_eq,
    h2.assumptions_eq.trans h1.assumptions_eq, h2.conflict_eq.trans h1.conflict_eq,
    h2.mPassedFormula_eq.trans h1.mPassedFormula_eq,
    h2.remove_satisfied_eq.trans h1.remove_satisfied_eq,
    fun cr h => h1.mark_mono cr (h2.mark_mono cr h)⟩

theorem smudge_maintained (s : SATModule E) (idx : Lit) :
    Maintained s (s.smudge idx) ∧ (s.smudge idx).clauses = s.clauses ∧
      (s.smudge idx).learnts = s.learnts ∧ (s.smudge idx).order_heap = s.order_heap ∧
      (s.smudge idx).ca = s.ca ∧ (s.smudge idx).trail_lim = s.trail_lim := by
  unfold smudge
  split
  · exact ⟨⟨rfl, rfl, rfl, rfl, fun _ => rfl, rfl, rfl, rfl, rfl, rfl, fun _ h => h⟩, rfl, rfl, rfl, rfl, rfl⟩
  · exact ⟨Maintained.mt_refl s, rfl, rfl, rfl, rfl, rfl⟩

theorem removeClause_maintained (s : SATModule E) (cr : CRef) :
    Maintained s (s.removeClause cr) ∧ (s.removeClause cr).clauses = s.clauses ∧
      (s.removeClause cr).learnts = s.learnts ∧
      (s.removeClause cr).order_heap = s.order_heap ∧
      (s.removeClause cr).trail_lim = s.trail_lim := by
  obtain ⟨m1, c1, l1, o1, a1, t1⟩ := smudge_maintained s ((s.ca cr).get 0).neg
  obtain ⟨m2, c2, l2, o2, a2, t2⟩ :=
    smudge_maintained (s.smudge ((s.ca cr).get 0).neg) ((s.ca cr).get 1).neg
  have hd : Maintained s (s.detachClause cr) ∧ (s.detachClause cr).clauses = s.clauses ∧
      (s.detachClause cr).learnts = s.learnts ∧ (s.detachClause cr).order_heap = s.order_heap ∧
      (s.detachClause cr).ca = s.ca ∧ (s.detachClause cr).trail_lim = s.trail_lim := by
    unfold detachClause
    dsimp only
    have m := m1.mt_trans m2
    exact ⟨⟨m.assigns_eq, m.trail_eq, m.nVars_eq, m.decision_eq, m.lits_eq, m.ok_eq,
      m.assumptions_eq, m.conflict_eq, m.mPassedFormula_eq, m.remove_satisfied_eq,
      m.mark_mono⟩, c2.trans c1, l2.trans l1, o2.trans o1, a2.trans a1, t2.trans t1⟩
  obtain ⟨m, c, l, o, a, t⟩ := hd
  unfold removeClause
  dsimp only
  have hl : ∀ cr', ((Function.update (s.detachClause cr).ca cr
      { (s.detachClause cr).ca cr with mark := 1 }) cr').lits = (s.ca cr').lits := by
    intro cr'
    by_cases he : cr' = cr
    · subst he; rw [Function.update_same]; exact m.lits_eq cr'
    · rw [Function.update_noteq he]; exact m.lits_eq cr'
  have hk : ∀ cr', ((Function.update (s.detachClause cr).ca cr
      { (s.detachClause cr).ca cr with mark := 1 }) cr').mark ≠ 1 → (s.ca cr').mark ≠ 1 := by
    intro cr' hne
    by_cases he : cr' = cr
    · subst he
      rw [Function.update_same] at hne
      exact absurd rfl hne
    · rw [Function.update_noteq he] at hne
      exact m.mark_mono cr' hne
  split
  · exact ⟨⟨m.assigns_eq, m.trail_eq, m.nVars_eq, m.decision_eq, hl, m.ok_eq, m.assumptions_eq,
      m.conflict_eq, m.mPassedFormula_eq, m.remove_satisfied_eq, hk⟩, c, l, o, t⟩
  · exact ⟨⟨m.assigns_eq, m.trail_eq, m.nVars_eq, m.decision_eq, hl, m.ok_eq, m.assumptions_eq,
      m.conflict_eq, m.mPassedFormula_eq, m.remove_satisfied_eq, hk⟩, c, l, o, t⟩
theorem removeSatisfied_maintained (cs : List CRef) :
    ∀ s : SATModule E, Maintained s (removeSatisfied s cs).2 ∧
      (removeSatisfied s cs).2.clauses = s.clauses ∧
      (removeSatisfied s cs).2.learnts = s.learnts ∧
      (removeSatisfied s cs).2.order_heap = s.order_heap ∧
      (removeSatisfied s cs).2.trail_lim = s.trail_lim ∧
      (removeSatisfied s cs).1.Sublist cs := by
  induction cs with
  | nil => intro s; exact ⟨Maintained.mt_refl s, rfl, rfl, rfl, rfl, List.Sublist.refl _⟩
  | cons cr rest ih =>
    intro s
    rw [removeSatisfied]
    split
    · obtain ⟨m1, c1, l1, o1, t1⟩ := removeClause_maintained s cr
      obtain ⟨m2, c2, l2, o2, t2, sub⟩ := ih (s.removeClause cr)
      exact ⟨m1.mt_trans m2, c2.trans c1, l2.trans l1, o2.trans o1, t2.trans t1,
        sub.trans (List.sublist_cons_self _ _)⟩
    · obtain ⟨m2, c2, l2, o2, t2, sub⟩ := ih s
      exact ⟨m2, c2, l2, o2, t2, sub.cons₂ cr⟩

theorem cleanAll_maintained (s : SATModule E) :
    Maintained s s.cleanAll ∧ s.cleanAll.clauses = s.clauses ∧
      s.cleanAll.learnts = s.learnts ∧ s.cleanAll.order_heap = s.order_heap ∧
      s.cleanAll.trail_lim = s.trail_lim := by
  have f := cleanAll_propagateFrame s
  obtain ⟨-, h2, h3, -, h5, -⟩ := cleanAll_frame s
  exact ⟨⟨h3, h2, f.nVars_eq, f.decision_eq, fun cr => by rw [h5], f.ok_eq, f.assumptions_eq,
    f.conflict_eq, f.mPassedFormula_eq, f.remove_satisfied_eq,
    fun cr h => by rw [h5] at h; exact h⟩, f.clauses_eq, f.learnts_eq,
    f.order_heap_eq, f.trail_lim_eq⟩

theorem checkGarbage_maintained (gc : Bool) (s : SATModule E) :
    Maintained s (checkGarbage gc s) ∧ (checkGarbage gc s).clauses = s.clauses ∧
      (checkGarbage gc s).learnts = s.learnts ∧
      (checkGarbage gc s).order_heap = s.order_heap ∧
      (checkGarbage gc s).trail_lim = s.trail_lim := by
  unfold checkGarbage garbageCollect
  split
  · exact cleanAll_maintained s
  · exact ⟨Maintained.mt_refl s, rfl, rfl, rfl, rfl⟩

theorem reduceLoop_maintained (low : CRef → Bool) (half : Nat) (cs : List CRef) :
    ∀ (i : Nat) (s : SATModule E), Maintained s (reduceLoop low half i cs s).2 ∧
      (reduceLoop low half i cs s).2.clauses = s.clauses ∧
      (reduceLoop low half i cs s).2.order_heap = s.order_heap ∧
      (reduceLoop low half i cs s).2.trail_lim = s.trail_lim := by
  induction cs with
  | nil => intro i s; exact ⟨Maintained.mt_refl s, rfl, rfl, rfl⟩
  | cons cr rest ih =>
    intro i s
    rw [reduceLoop]
    split
    · obtain ⟨m1, c1, -, o1, t1⟩ := removeClause_maintained s cr
      obtain ⟨m2, c2, o2, t2⟩ := ih (i + 1) (s.removeClause cr)
      exact ⟨m1.mt_trans m2, c2.trans c1, o2.trans o1, t2.trans t1⟩
    · exact ih (i + 1) s

theorem reduceDB_maintained (order : List CRef → List CRef) (low : CRef → Bool) (gc : Bool)
    (s : SATModule E) :
    Maintained s (reduceDB order low gc s) ∧ (reduceDB order low gc s).clauses = s.clauses ∧
      (reduceDB order low gc s).order_heap = s.order_heap ∧
      (reduceDB order low gc s).trail_lim = s.trail_lim := by
  unfold reduceDB
  dsimp only
  obtain ⟨m1, c1, o1, t1⟩ := reduceLoop_maintained low ((order s.learnts).length / 2)
    (order s.learnts) 0 ({ s with learnts := order s.learnts } : SATModule E)
  obtain ⟨m2, c2, -, o2, t2⟩ := checkGarbage_maintained gc
    ({ (reduceLoop low ((order s.learnts).length / 2) 0 (order s.learnts)
        ({ s with learnts := order s.learnts } : SATModule E)).2 with
      learnts := (reduceLoop low ((order s.learnts).length / 2) 0 (order s.learnts)
        ({ s with learnts := order s.learnts } : SATModule E)).1 } : SATModule E)
  have m0 : Maintained s ({ s with learnts := order s.learnts } : SATModule E) :=
    ⟨rfl, rfl, rfl, rfl, fun _ => rfl, rfl, rfl, rfl, rfl, rfl, fun _ h => h⟩
  have m3 : Maintained (reduceLoop low ((order s.learnts).length / 2) 0 (order s.learnts)
        ({ s with learnts := order s.learnts } : SATModule E)).2
      ({ (reduceLoop low ((order s.learnts).length / 2) 0 (order s.learnts)
        ({ s with learnts := order s.learnts } : SATModule E)).2 with
      learnts := (reduceLoop low ((order s.learnts).length / 2) 0 (order s.learnts)
        ({ s with learnts := order s.learnts } : SATModule E)).1 } : SATModule E) :=
    ⟨rfl, rfl, rfl, rfl, fun _ => rfl, rfl, rfl, rfl, rfl, rfl, fun _ h => h⟩
  exact ⟨((m0.mt_trans m1).mt_trans m3).mt_trans m2, c2.trans c1, o2.trans o1, t2.trans t1⟩

theorem assumeLoop_maintained (fuel : Nat) :
    ∀ (s s' : SATModule E) (next : Option Lit), assumeLoop fuel s = .inr (next, s') →
      Maintained s s' ∧ s'.clauses = s.clauses ∧ s'.order_heap = s.order_heap := by
  induction fuel with
  | zero =>
    intro s s' next h
    rw [assumeLoop] at h
    simp only [Sum.inr.injEq, Prod.mk.injEq] at h
    obtain ⟨-, rfl⟩ := h
    exact ⟨Maintained.mt_refl s, rfl, rfl⟩
  | succ fuel ih =>
    intro s s' next h
    rw [assumeLoop] at h
    split at h
    · dsimp only at h
      split at h
      · obtain ⟨m, c, o⟩ := ih _ _ _ h
        have m0 : Maintained s s.newDecisionLevel :=
          ⟨rfl, rfl, rfl, rfl, fun _ => rfl, rfl, rfl, rfl, rfl, rfl, fun _ h => h⟩
        exact ⟨m0.mt_trans m, c, o⟩
      · split at h
        · cases h
        · simp only [Sum.inr.injEq, Prod.mk.injEq] at h
          obtain ⟨-, rfl⟩ := h
          exact ⟨Maintained.mt_refl s, rfl, rfl⟩
    · simp only [Sum.inr.injEq, Prod.mk.injEq] at h
      obtain ⟨-, rfl⟩ := h
      exact ⟨Maintained.mt_refl s, rfl, rfl⟩

theorem assumeLoop_nil (fuel : Nat) (s : SATModule E) (h : s.assumptions = []) :
    assumeLoop fuel s = .inr (none, s) := by
  cases fuel with
  | zero => rw [assumeLoop]
  | succ fuel =>
    rw [assumeLoop, if_neg (by rw [h]; exact Nat.not_lt_zero _)]

theorem pickBranchLoop_maintained (h : Environment E) (fuel : Nat) :
    ∀ (next : Option Var) (s s' : SATModule E) (r : Option Var),
      pickBranchLoop h fuel next s = some (r, s') →
        Maintained s s' ∧ s'.clauses = s.clauses ∧ s'.trail_lim = s.trail_lim := by
  induction fuel with
  | zero => intro next s s' r hp; rw [pickBranchLoop] at hp; cases hp
  | succ fuel ih =>
    intro next s s' r hp
    unfold pickBranchLoop at hp
    dsimp only at hp
    split at hp
    · split at hp
      · simp only [Option.some.injEq, Prod.mk.injEq] at hp
        obtain ⟨-, rfl⟩ := hp
        exact ⟨Maintained.mt_refl s, rfl, rfl⟩
      · obtain ⟨m, c, t⟩ := ih _ _ _ _ hp
        have m0 : Maintained s ({ s with
            order_heap := s.order_heap.erase (h.removeMin s) } : SATModule E) :=
          ⟨rfl, rfl, rfl, rfl, fun _ => rfl, rfl, rfl, rfl, rfl, rfl, fun _ h => h⟩
        exact ⟨m0.mt_trans m, c, t⟩
    · simp only [Option.some.injEq, Prod.mk.injEq] at hp
      obtain ⟨-, rfl⟩ := hp
      exact ⟨Maintained.mt_refl s, rfl, rfl⟩

theorem pickBranchLit_maintained (h : Environment E) (s s' : SATModule E) (r : Option Lit)
    (hp : pickBranchLit h s = some (r, s')) :
    Maintained s s' ∧ s'.clauses = s.clauses ∧ s'.trail_lim = s.trail_lim := by
  unfold pickBranchLit at hp
  split at hp
  · cases hp
  · rename_i s1 hl
    simp only [Option.some.injEq, Prod.mk.injEq] at hp
    obtain ⟨-, rfl⟩ := hp
    exact pickBranchLoop_maintained h _ _ _ _ _ hl
  · rename_i x s1 hl
    simp only [Option.some.injEq, Prod.mk.injEq] at hp
    obtain ⟨-, rfl⟩ := hp
    exact pickBranchLoop_maintained h _ _ _ _ _ hl
theorem SameConflict.sc_trans {s t u : SATModule E} (h1 : SameConflict s t)
    (h2 : SameConflict t u) : SameConflict s u :=
  ⟨h2.1.trans h1.1, h2.2.trans h1.2⟩

theorem Maintained.sameConflict {s t : SATModule E} (h : Maintained s t) : SameConflict s t :=
  ⟨h.assumptions_eq, h.conflict_eq⟩

theorem PropagateFrame.pf_sameConflict {s t : SATModule E} (h : PropagateFrame s t) :
    SameConflict s t :=
  ⟨h.assumptions_eq, h.conflict_eq⟩

theorem simplifyRemove_sameConflict (s : SATModule E) :
    (∀ b s', simplifyRemove s = some (.inl (b, s')) → SameConflict s s') ∧
    (∀ s', simplifyRemove s = some (.inr s') → SameConflict s s') := by
  unfold simplifyRemove
  split
  · constructor
    · intro b s' h
      simp only [Option.some.injEq, Sum.inl.injEq, Prod.mk.injEq] at h
      obtain ⟨-, rfl⟩ := h
      exact ⟨rfl, rfl⟩
    · intro s' h; simp at h
  · split
    · constructor
      · intro b s' h; cases h
      · intro s' h; cases h
    · rename_i cr s1 hp
      have f := (propagate_frame _ _ _ _ hp).pf_sameConflict
      constructor
      · intro b s' h
        simp only [Option.some.injEq, Sum.inl.injEq, Prod.mk.injEq] at h
        obtain ⟨-, rfl⟩ := h
        exact f.sc_trans ⟨rfl, rfl⟩
      · intro s' h; simp at h
    · rename_i s1 hp
      have f := (propagate_frame _ _ _ _ hp).pf_sameConflict
      split
      · constructor
        · intro b s' h
          simp only [Option.some.injEq, Sum.inl.injEq, Prod.mk.injEq] at h
          obtain ⟨-, rfl⟩ := h
          exact f
        · intro s' h; simp at h
      · constructor
        · intro b s' h; simp at h
        · intro s' h
          dsimp only at h
          simp only [Option.some.injEq, Sum.inr.injEq] at h
          obtain ⟨m1, -⟩ := removeSatisfied_maintained s1.learnts s1
          obtain ⟨m2, -⟩ := removeSatisfied_maintained
            ({ (s1.removeSatisfied s1.learnts).2 with
              learnts := (s1.removeSatisfied s1.learnts).1 } : SATModule E).clauses
            ({ (s1.removeSatisfied s1.learnts).2 with
              learnts := (s1.removeSatisfied s1.learnts).1 } : SATModule E)
          rw [← h]
          split
          · exact (f.sc_trans m1.sameConflict).sc_trans
              (SameConflict.sc_trans ⟨rfl, rfl⟩ (m2.sameConflict.sc_trans ⟨rfl, rfl⟩))
          · exact (f.sc_trans m1.sameConflict).sc_trans ⟨rfl, rfl⟩

theorem simplify_sameConflict (h : Environment E) (s s' : SATModule E) (b : Bool)
    (hs : simplify h s = some (b, s')) : SameConflict s s' := by
  obtain ⟨k1, k2⟩ := simplifyRemove_sameConflict s
  unfold simplify at hs
  split at hs
  · cases hs
  · rename_i r hr
    simp only [Option.some.injEq] at hs
    subst hs
    exact k1 _ _ hr
  · rename_i s1 hr
    simp only [Option.some.injEq, Prod.mk.injEq] at hs
    obtain ⟨-, rfl⟩ := hs
    exact (k2 _ hr).sc_trans
      ((checkGarbage_maintained _ s1).1.sameConflict.sc_trans ⟨rfl, rfl⟩)

theorem analyze_sameConflict (s s' : SATModule E) (confl : CRef) (l : List Lit) (b : Nat)
    (h : analyze s confl = some (l, b, s')) : SameConflict s s' := by
  unfold analyze at h
  split at h
  · cases h
  · split at h
    · cases h
    · simp only [Option.some.injEq, Prod.mk.injEq] at h
      obtain ⟨-, -, rfl⟩ := h
      exact ⟨rfl, rfl⟩

theorem searchConflict_sameConflict (s : SATModule E) (conflictC : Int) (confl : CRef)
    (r : Pass E) (h : searchConflict s conflictC confl = some r) : SameConflict s r.state := by
  unfold searchConflict at h
  dsimp only at h
  split at h
  · simp only [Option.some.injEq] at h
    subst h
    exact ⟨rfl, rfl⟩
  · split at h
    · cases h
    · rename_i l b s2 ha
      have f0 := analyze_sameConflict _ _ _ _ _ ha
      have f1 : SameConflict s s2 := ⟨f0.1, f0.2⟩
      have f2 : SameConflict s (s2.cancelUntil b) :=
        f1.sc_trans ⟨(cancelUntil_keeps s2 b).2.2.1, (cancelUntil_keeps s2 b).2.2.2.1⟩
      split at h
      · simp only [Option.some.injEq] at h
        subst h
        exact f2.sc_trans ⟨rfl, rfl⟩
      · simp only [Option.some.injEq] at h
        subst h
        exact f2.sc_trans ⟨rfl, rfl⟩

theorem searchNoConflict_sameConflict (h : Environment E) (nof conflictC : Int)
    (s : SATModule E) (r : Pass E) (ha : s.assumptions = [])
    (hr : searchNoConflict h nof conflictC s = some r) : SameConflict s r.state := by
  unfold searchNoConflict at hr
  split at hr
  · simp only [Option.some.injEq] at hr
    subst hr
    exact ⟨(cancelUntil_keeps s 0).2.2.1, (cancelUntil_keeps s 0).2.2.2.1⟩
  · split at hr
    · cases hr
    · rename_i s1 hs
      simp only [Option.some.injEq] at hr
      subst hr
      split at hs
      · exact simplify_sameConflict h _ _ _ hs
      · simp only [Option.some.injEq, Prod.mk.injEq] at hs; exact absurd hs.1 (by decide)
    · rename_i s1 hs
      have f1 : SameConflict s s1 := by
        split at hs
        · exact simplify_sameConflict h _ _ _ hs
        · simp only [Option.some.injEq, Prod.mk.injEq] at hs
          obtain ⟨-, rfl⟩ := hs
          exact ⟨rfl, rfl⟩
      dsimp only at hr
      have f2 : SameConflict s1 (if h.reduce s1 = true then
          reduceDB (h.order s1) (h.low s1) (h.gcReduce s1) s1 else s1) := by
        split
        · exact (reduceDB_maintained _ _ _ s1).1.sameConflict
        · exact ⟨rfl, rfl⟩
      have f3 := f1.sc_trans f2
      rw [assumeLoop_nil _ _ (f3.1.trans ha)] at hr
      dsimp only at hr
      split at hr
      · cases hr
      · rename_i s4 hp
        simp only [Option.some.injEq] at hr
        subst hr
        exact f3.sc_trans
          (SameConflict.sc_trans ⟨rfl, rfl⟩ (pickBranchLit_maintained h _ _ _ hp).1.sameConflict)
      · rename_i next s4 hp
        simp only [Option.some.injEq] at hr
        subst hr
        exact f3.sc_trans ((SameConflict.sc_trans ⟨rfl, rfl⟩
          (pickBranchLit_maintained h _ _ _ hp).1.sameConflict).sc_trans ⟨rfl, rfl⟩)
theorem learnTheoryLemma_sameConflict (s : SATModule E) :
    SameConflict s s.learnTheoryLemma.2 := by
  unfold learnTheoryLemma
  dsimp only
  split
  · exact ⟨rfl, rfl⟩
  · exact ⟨rfl, rfl⟩

theorem searchPass_sameConflict [DecidableEq E] (h : Environment E) (nof conflictC : Int)
    (s : SATModule E) (r : Pass E) (ha : s.assumptions = [])
    (hr : searchPass h nof conflictC s = some r) : SameConflict s r.state := by
  unfold searchPass at hr
  split at hr
  · cases hr
  · rename_i confl s1 hp
    exact (propagate_frame _ _ _ _ hp).pf_sameConflict.sc_trans
      (searchConflict_sameConflict _ _ _ _ hr)
  · rename_i s1 hp
    have f1 : SameConflict s s1.adaptPassedFormula :=
      (propagate_frame _ _ _ _ hp).pf_sameConflict.sc_trans ⟨rfl, rfl⟩
    dsimp only at hr
    split at hr
    · exact f1.sc_trans (searchNoConflict_sameConflict h _ _ _ _ (f1.1.trans ha) hr)
    · exact (f1.sc_trans (learnTheoryLemma_sameConflict _)).sc_trans
        (searchConflict_sameConflict _ _ _ _ hr)
    · simp only [Option.some.injEq] at hr
      subst hr
      exact f1

theorem searchLoop_sameConflict [DecidableEq E] (h : Environment E) (nof : Int) (fuel : Nat) :
    ∀ (conflictC : Int) (s s' : SATModule E) (st : lbool), s.assumptions = [] →
      searchLoop h nof fuel conflictC s = some (st, s') → SameConflict s s' := by
  induction fuel with
  | zero => intro c s s' st ha hr; rw [searchLoop] at hr; cases hr
  | succ fuel ih =>
    intro c s s' st ha hr
    rw [searchLoop] at hr
    split at hr
    · cases hr
    · rename_i st1 s1 hp
      simp only [Option.some.injEq, Prod.mk.injEq] at hr
      obtain ⟨-, rfl⟩ := hr
      exact searchPass_sameConflict h nof c s _ ha hp
    · rename_i c1 s1 hp
      have f := searchPass_sameConflict h nof c s _ ha hp
      exact f.sc_trans (ih _ _ _ _ (f.1.trans ha) hr)

theorem solveLoop_sameConflict [DecidableEq E] (h : Environment E) (fuel n : Nat) :
    ∀ (curr_restarts : Nat) (s s' : SATModule E) (st : lbool), s.assumptions = [] →
      solveLoop h fuel n curr_restarts s = some (st, s') → SameConflict s s' := by
  induction n with
  | zero => intro c s s' st ha hr; rw [solveLoop] at hr; cases hr
  | succ n ih =>
    intro c s s' st ha hr
    rw [solveLoop] at hr
    split at hr
    · cases hr
    · rename_i st1 s1 hs
      unfold search at hs
      have f0 := searchLoop_sameConflict h _ fuel 0 _ _ _ (by exact ha) hs
      have f : SameConflict s s1 := ⟨f0.1, f0.2⟩
      split at hr
      · simp only [Option.some.injEq, Prod.mk.injEq] at hr
        obtain ⟨-, rfl⟩ := hr
        exact f
      · split at hr
        · exact f.sc_trans (ih _ _ _ _ (f.1.trans ha) hr)
        · simp only [Option.some.injEq, Prod.mk.injEq] at hr
          obtain ⟨-, rfl⟩ := hr
          exact f

theorem solve__not_ok [DecidableEq E] (h : Environment E) (fuel : Nat) (s : SATModule E)
    (hok : s.ok = false) :
    solve_ h fuel s = some (.l_False, { s with model := [], conflict := [] }) := by
  unfold solve_
  rw [if_pos (by rw [hok]; rfl)]

theorem addClause__not_ok (fuel : Nat) (s : SATModule E) (ps : List Lit)
    (hok : s.ok = false) : addClause_ fuel s ps = some (false, s) := by
  unfold addClause_
  rw [if_pos (by rw [hok]; rfl)]

/-- Claim C24: a conflict found while the decision level is `0` makes `search` return `l_False`
(the conflicting clause of `propagate` or of the theory lemma);  when `solve_`, called without
assumptions, returns `l_False`, it leaves `ok = false`;  and in every state with `ok = false`
`solve_` returns `l_False`, keeping `ok = false`, and `addClause_` returns `false`, both
without changing the clauses, the trail or the assignment (`addClause_` changes nothing), so
that this holds from then on. -/
theorem level_zero_conflict_is_final [DecidableEq E] (h : Environment E) (fuel : Nat)
    (s s' : SATModule E) (ha : s.assumptions = [])
    (hs : solve_ h fuel s = some (.l_False, s')) :
    (∀ (t : SATModule E) (conflictC : Int) (confl : CRef), t.decisionLevel = 0 →
      searchConflict t conflictC confl
        = some (.returns .l_False { t with conflicts := t.conflicts + 1 })) ∧
    (∀ (nof conflictC : Int) (n : Nat) (t t1 : SATModule E) (confl : CRef),
      t.decisionLevel = 0 →
      t.propagate (t.nVars + t.trail.length) = some (some confl, t1) →
        searchLoop h nof (n + 1) conflictC t
          = some (.l_False, { t1 with conflicts := t1.conflicts + 1 })) ∧
    s'.ok = false ∧
    (∀ (t : SATModule E), t.ok = false →
      (∀ (h' : Environment E) (fuel' : Nat), ∃ t', solve_ h' fuel' t = some (.l_False, t') ∧
        t'.ok = false ∧ t'.clauses = t.clauses ∧ t'.learnts = t.learnts ∧
        t'.trail = t.trail ∧ t'.assigns = t.assigns) ∧
      (∀ (k : Nat) (ps : List Lit), addClause_ k t ps = some (false, t))) := by
  have hconf : ∀ (t : SATModule E) (conflictC : Int) (confl : CRef), t.decisionLevel = 0 →
      searchConflict t conflictC confl
        = some (.returns .l_False { t with conflicts := t.conflicts + 1 }) := by
    intro t c confl hl
    unfold searchConflict
    dsimp only
    split
    · rfl
    · rename_i hne
      exact absurd hl hne
  refine ⟨hconf, ?_, ?_, ?_⟩
  · intro nof c n t t1 confl hl hp
    rw [searchLoop]
    unfold searchPass
    rw [hp]
    dsimp only
    rw [hconf t1 c confl (by
      show t1.trail_lim.length = 0
      rw [(propagate_frame _ _ _ _ hp).trail_lim_eq]; exact hl)]
  · unfold solve_ at hs
    split at hs
    · rename_i hok
      simp only [Option.some.injEq, Prod.mk.injEq, true_and] at hs
      rw [← hs]
      show s.ok = false
      cases hk : s.ok with
      | false => rfl
      | true => rw [hk] at hok; exact absurd hok (by decide)
    · split at hs
      · cases hs
      · rename_i st s1 hl
        simp only [Option.some.injEq, Prod.mk.injEq] at hs
        obtain ⟨rfl, rfl⟩ := hs
        have f := solveLoop_sameConflict h fuel fuel 0 _ _ _ (by exact ha) hl
        exact solveExit_false s1 (f.2.trans rfl)
  · intro t hok
    refine ⟨fun h' fuel' => ⟨_, solve__not_ok h' fuel' t hok, hok, rfl, rfl, rfl, rfl⟩,
      fun k ps => addClause__not_ok k t ps hok⟩

/-- Claim C24, witness: scenario B, in which `solve_` finds a conflict at decision level `0` and
returns `l_False`. -/
theorem level_zero_conflict_is_final_witness :
    (∀ (t : SATModule LinExpr) (conflictC : Int) (confl : CRef), t.decisionLevel = 0 →
      searchConflict t conflictC confl
        = some (.returns .l_False { t with conflicts := t.conflicts + 1 })) ∧
    (∀ (nof conflictC : Int) (n : Nat) (t t1 : SATModule LinExpr) (confl : CRef),
      t.decisionLevel = 0 →
      t.propagate (t.nVars + t.trail.length) = some (some confl, t1) →
        searchLoop plainEnvironment nof (n + 1) conflictC t
          = some (.l_False, { t1 with conflicts := t1.conflicts + 1 })) ∧
    scenarioBSolved.ok = false ∧
    (∀ (t : SATModule LinExpr), t.ok = false →
      (∀ (h' : Environment LinExpr) (fuel' : Nat), ∃ t',
        solve_ h' fuel' t = some (.l_False, t') ∧
        t'.ok = false ∧ t'.clauses = t.clauses ∧ t'.learnts = t.learnts ∧
        t'.trail = t.trail ∧ t'.assigns = t.assigns) ∧
      (∀ (k : Nat) (ps : List Lit), addClause_ k t ps = some (false, t))) :=
  level_zero_conflict_is_final plainEnvironment 3 scenarioB scenarioBSolved (by decide) (by
    have e : (solve_ plainEnvironment 3 scenarioB).map Prod.fst = some .l_False := by decide
    unfold scenarioBSolved
    cases hq : solve_ plainEnvironment 3 scenarioB with
    | none => rw [hq] at e; cases e
    | some r =>
      obtain ⟨st, X⟩ := r
      rw [hq] at e
      simp only [Option.map_some', Option.some.injEq] at e
      subst e
      rfl)

theorem propagate_idle (fuel : Nat) (s : SATModule E) (hq : s.qhead = s.trail.length) :
    ∃ s', propagate fuel s = some (none, s') := by
  obtain ⟨h1, h2, -, -, -, -⟩ := cleanAll_frame s
  have hn : ¬ s.cleanAll.qhead < s.cleanAll.trail.length := by
    rw [h1, h2, hq]; exact Nat.lt_irrefl _
  unfold propagate
  cases fuel with
  | zero => rw [propagateLoop, if_neg hn]; exact ⟨_, rfl⟩
  | succ fuel => rw [propagateLoop, if_neg hn]; exact ⟨_, rfl⟩

/-- The states in which an endless sequence of restarts starts: nothing is to be propagated, and
no budget or interrupt ends the search. -/
theorem searchLoop_unknown [DecidableEq E] (h : Environment E)
    (hU : ∀ F, h.runBackends F = .Unknown) (nof : Int) (fuel : Nat) (conflictC : Int)
    (s : SATModule E) (hq : s.qhead = s.trail.length) :
    ∃ s', searchLoop h nof (fuel + 1) conflictC s = some (.l_Undef, s') ∧
      s'.qhead = s'.trail.length ∧ s'.asynch_interrupt = s.asynch_interrupt ∧
      s'.conflict_budget = s.conflict_budget ∧ s'.propagation_budget = s.propagation_budget := by
  obtain ⟨s1, hp⟩ := propagate_idle (s.nVars + s.trail.length) s hq
  have f := propagate_frame _ _ _ _ hp
  have hq1 := propagate_qhead _ _ _ _ (Nat.le_of_eq hq) hp
  refine ⟨s1.adaptPassedFormula, ?_, hq1, f.asynch_interrupt_eq, f.conflict_budget_eq,
    f.propagation_budget_eq⟩
  rw [searchLoop]
  unfold searchPass
  rw [hp]
  dsimp only
  rw [hU]

theorem solveLoop_unknown [DecidableEq E] (h : Environment E)
    (hU : ∀ F, h.runBackends F = .Unknown) (fuel n : Nat) :
    ∀ (curr_restarts : Nat) (s : SATModule E), s.qhead = s.trail.length →
      s.asynch_interrupt = false → s.conflict_budget < 0 → s.propagation_budget < 0 →
        solveLoop h fuel n curr_restarts s = none := by
  induction n with
  | zero => intro c s _ _ _ _; rw [solveLoop]
  | succ n ih =>
    intro c s hq hi hc hp
    rw [solveLoop]
    cases fuel with
    | zero =>
      unfold search
      rw [searchLoop]
    | succ fuel =>
      obtain ⟨s', hs, hq', hi', hc', hp'⟩ := searchLoop_unknown h hU (h.nof_conflicts c) fuel 0
        ({ s with starts := s.starts + 1 } : SATModule E) hq
      unfold search
      rw [hs]
      have hwb : s'.withinBudget = true := by
        unfold withinBudget
        rw [hi', hc', hp']
        simp [hi, hc, hp]
      simp only [hwb, Bool.true_eq_false, ↓reduceIte]
      exact ih _ _ hq' (hi'.trans hi) (by rw [hc']; exact hc) (by rw [hp']; exact hp)

theorem solve__unknown [DecidableEq E] (h : Environment E)
    (hU : ∀ F, h.runBackends F = .Unknown) (fuel : Nat) (s : SATModule E) (hok : s.ok = true)
    (hq : s.qhead = s.trail.length) (hi : s.asynch_interrupt = false)
    (hc : s.conflict_budget < 0) (hp : s.propagation_budget < 0) :
    solve_ h fuel s = none := by
  unfold solve_
  rw [if_neg (by rw [hok]; decide)]
  rw [solveLoop_unknown h hU fuel fuel 0 s.solveEntry hq hi hc hp]

theorem isConsistent_unknown_diverges [DecidableEq E] (h : Environment E)
    (hU : ∀ F, h.runBackends F = .Unknown) (fuel : Nat) (s : SATModule E) (hok : s.ok = true)
    (hq : s.qhead = s.trail.length) (hi : s.asynch_interrupt = false) :
    isConsistent h fuel s = none := by
  unfold isConsistent solve
  dsimp only
  rw [solve__unknown h hU fuel]
  · exact hok
  · exact hq
  · exact hi
  · show (-1 : Int) < 0
    decide
  · show (-1 : Int) < 0
    decide

theorem isConsistent_not_unknown [DecidableEq E] (h : Environment E) (fuel : Nat)
    (s : SATModule E) (r : Answer × SATModule E) (hr : isConsistent h fuel s = some r) :
    r.1 ≠ .Unknown := by
  unfold isConsistent at hr
  split at hr
  · cases hr
  · simp only [Option.some.injEq] at hr; subst hr; intro hh; cases hh
  · simp only [Option.some.injEq] at hr; subst hr; intro hh; cases hh

/-- Claim C22: `isConsistent` never returns `Unknown`.  When the backends answer `Unknown`,
`search` returns `l_Undef` and `solve_` calls it again without end: in a solver that is `ok`, has
nothing to propagate and is not interrupted, `isConsistent` has no result for any amount of
fuel.  When an interrupt was requested, `search` returns `l_Undef`, `solve_` returns `l_Undef`,
and `isConsistent` returns `False` for the solver without any clause, although nothing was shown
to be unsatisfiable. -/
theorem isConsistent_never_unknown :
    (∀ (h : Environment LinExpr) (fuel : Nat) (s : SATModule LinExpr)
      (r : Answer × SATModule LinExpr), isConsistent h fuel s = some r → r.1 ≠ .Unknown) ∧
    (search alwaysUnknown 1 100 (init LinExpr)).map Prod.fst = some .l_Undef ∧
    (∀ (h : Environment LinExpr), (∀ F, h.runBackends F = .Unknown) →
      ∀ (fuel : Nat) (s : SATModule LinExpr), s.ok = true → s.qhead = s.trail.length →
        s.asynch_interrupt = false → isConsistent h fuel s = none) ∧
    (∀ fuel, isConsistent alwaysUnknown fuel (init LinExpr) = none) ∧
    interrupted.clauses = [] ∧ interrupted.ok = true ∧
    (search plainEnvironment 1 100 interrupted).map Prod.fst = some .l_Undef ∧
    (solve_ plainEnvironment 1 interrupted).map Prod.fst = some .l_Undef ∧
    (isConsistent plainEnvironment 1 interrupted).map Prod.fst = some .False := by
  refine ⟨isConsistent_not_unknown, by decide, isConsistent_unknown_diverges, ?_, by decide,
    by decide, by decide, by decide, by decide⟩
  intro fuel
  exact isConsistent_unknown_diverges alwaysUnknown (fun _ => rfl) fuel (init LinExpr) rfl rfl rfl

theorem propagate_idle_maintained (fuel : Nat) (s s' : SATModule E) (confl : Option CRef)
    (hq : s.qhead = s.trail.length) (hp : propagate fuel s = some (confl, s')) :
    confl = none ∧ Maintained s s' ∧ s'.clauses = s.clauses ∧
      s'.order_heap = s.order_heap ∧ s'.trail_lim = s.trail_lim := by
  obtain ⟨h1, h2, -, -, -, -⟩ := cleanAll_frame s
  have hn : ¬ s.cleanAll.qhead < s.cleanAll.trail.length := by
    rw [h1, h2, hq]; exact Nat.lt_irrefl _
  obtain ⟨m, c, -, o, t⟩ := cleanAll_maintained s
  have key : propagate fuel s = some (none, { s.cleanAll with
      propagations := s.cleanAll.propagations + 0
      simpDB_props := s.cleanAll.simpDB_props - (0 : Nat) }) := by
    unfold propagate
    cases fuel with
    | zero => rw [propagateLoop, if_neg hn]
    | succ fuel => rw [propagateLoop, if_neg hn]
  rw [key] at hp
  simp only [Option.some.injEq, Prod.mk.injEq] at hp
  obtain ⟨rfl, rfl⟩ := hp
  exact ⟨rfl, ⟨m.assigns_eq, m.trail_eq, m.nVars_eq, m.decision_eq, m.lits_eq, m.ok_eq,
    m.assumptions_eq, m.conflict_eq, m.mPassedFormula_eq, m.remove_satisfied_eq,
    m.mark_mono⟩, c, o, t⟩

theorem HeapOK_maintained {s t : SATModule E} (m : Maintained s t)
    (ho : t.order_heap = s.order_heap) (h : HeapOK s) : HeapOK t := by
  intro v hv hd ha
  rw [ho]
  rw [m.nVars_eq] at hv
  rw [m.decision_eq] at hd
  rw [m.assigns_eq] at ha
  exact h v hv hd ha

theorem HeapOK_rebuild (s : SATModule E) : HeapOK s.rebuildOrderHeap := by
  intro v hv hd ha
  show v ∈ (List.range s.nVars).filter (fun v => s.decision v && decide (s.assigns v = .l_Undef))
  have hd' : s.decision v = true := hd
  have ha' : s.assigns v = .l_Undef := ha
  exact List.mem_filter.mpr ⟨List.mem_range.mpr hv, by simp [hd', ha']⟩

theorem simplify_maintained (h : Environment E) (s s' : SATModule E)
    (hq : s.qhead = s.trail.length) (hH : HeapOK s)
    (hs : simplify h s = some (true, s')) :
    Maintained s s' ∧ s'.clauses.Sublist s.clauses ∧ s'.trail_lim = s.trail_lim ∧
      HeapOK s' := by
  unfold simplify at hs
  split at hs
  · cases hs
  · rename_i r hr
    simp only [Option.some.injEq] at hs
    subst hs
    unfold simplifyRemove at hr
    split at hr
    · simp at hr
    · split at hr
      · cases hr
      · simp at hr
      · rename_i s1 hp
        obtain ⟨-, m, c, o, t⟩ := propagate_idle_maintained _ _ _ _ hq hp
        split at hr
        · simp only [Option.some.injEq, Sum.inl.injEq, Prod.mk.injEq, true_and] at hr
          subst hr
          exact ⟨m, by rw [c], t, HeapOK_maintained m o hH⟩
        · simp at hr
  · rename_i s3 hr
    simp only [Option.some.injEq, Prod.mk.injEq, true_and] at hs
    subst hs
    unfold simplifyRemove at hr
    split at hr
    · simp at hr
    · split at hr
      · cases hr
      · simp at hr
      · rename_i s1 hp
        obtain ⟨-, m, c, o, t⟩ := propagate_idle_maintained _ _ _ _ hq hp
        split at hr
        · simp at hr
        · dsimp only at hr
          simp only [Option.some.injEq, Sum.inr.injEq] at hr
          obtain ⟨m1, c1, -, -, t1, -⟩ := removeSatisfied_maintained s1.learnts s1
          obtain ⟨m2, -, -, -, t2, sub2⟩ := removeSatisfied_maintained
            ({ (s1.removeSatisfied s1.learnts).2 with
              learnts := (s1.removeSatisfied s1.learnts).1 } : SATModule E).clauses
            ({ (s1.removeSatisfied s1.learnts).2 with
              learnts := (s1.removeSatisfied s1.learnts).1 } : SATModule E)
          have hm3 : Maintained s s3 ∧ s3.clauses.Sublist s.clauses ∧
              s3.trail_lim = s.trail_lim := by
            rw [← hr]
            split
            · refine ⟨(m.mt_trans m1).mt_trans ?_, ?_, ?_⟩
              · exact ⟨m2.assigns_eq, m2.trail_eq, m2.nVars_eq, m2.decision_eq, m2.lits_eq,
                  m2.ok_eq, m2.assumptions_eq, m2.conflict_eq, m2.mPassedFormula_eq,
                  m2.remove_satisfied_eq, m2.mark_mono⟩
              · show (removeSatisfied _ _).1.Sublist s.clauses
                have e : ({ (s1.removeSatisfied s1.learnts).2 with
                  learnts := (s1.removeSatisfied s1.learnts).1 } : SATModule E).clauses
                    = s.clauses := c1.trans c
                exact sub2.trans (e ▸ List.Sublist.refl _)
              · exact t2.trans (t1.trans t)
            · refine ⟨(m.mt_trans m1).mt_trans ?_, ?_, ?_⟩
              · exact ⟨rfl, rfl, rfl, rfl, fun _ => rfl, rfl, rfl, rfl, rfl, rfl, fun _ h => h⟩
              · show (s1.removeSatisfied s1.learnts).2.clauses.Sublist s.clauses
                rw [c1, c]
              · exact t1.trans t
          obtain ⟨m3, sub3, t3⟩ := hm3
          obtain ⟨m4, c4, -, -, t4⟩ := checkGarbage_maintained (h.gcSimplify s3) s3
          have m5 : Maintained (checkGarbage (h.gcSimplify s3) s3)
              (simplifyRebuild (checkGarbage (h.gcSimplify s3) s3)) :=
            ⟨rfl, rfl, rfl, rfl, fun _ => rfl, rfl, rfl, rfl, rfl, rfl, fun _ h => h⟩
          refine ⟨(m3.mt_trans m4).mt_trans m5, ?_, ?_, ?_⟩
          · show (checkGarbage (h.gcSimplify s3) s3).clauses.Sublist s.clauses
            rw [c4]; exact sub3
          · show (checkGarbage (h.gcSimplify s3) s3).trail_lim = s.trail_lim
            rw [t4]; exact t3
          · exact HeapOK_rebuild (checkGarbage (h.gcSimplify s3) s3)
theorem pickBranchLoop_none (h : Environment E) (fuel : Nat) :
    ∀ (next : Option Var) (s s' : SATModule E),
      pickBranchLoop h fuel next s = some (none, s') →
        (∀ x, next = some x → s.assigns x ≠ .l_Undef ∨ s.decision x = false) ∧
        ∀ v ∈ s.order_heap, s.assigns v ≠ .l_Undef ∨ s.decision v = false := by
  induction fuel with
  | zero => intro next s s' hp; rw [pickBranchLoop] at hp; cases hp
  | succ fuel ih =>
    intro next s s' hp
    unfold pickBranchLoop at hp
    dsimp only at hp
    split at hp
    · rename_i hagain
      have hfirst : ∀ x, next = some x → s.assigns x ≠ .l_Undef ∨ s.decision x = false := by
        intro x hx
        subst hx
        simp only [Bool.or_eq_true, decide_eq_true_eq, Bool.not_eq_true', ne_eq] at hagain
        exact hagain
      split at hp
      · rename_i hnil
        refine ⟨hfirst, ?_⟩
        intro v hv
        rw [hnil] at hv
        cases hv
      · obtain ⟨k1, k2⟩ := ih _ _ _ hp
        refine ⟨hfirst, ?_⟩
        intro v hv
        by_cases hx : v = h.removeMin s
        · rw [hx]; exact k1 _ rfl
        · exact k2 v ((List.mem_erase_of_ne hx).mpr hv)
    · simp only [Option.some.injEq, Prod.mk.injEq] at hp
      obtain ⟨rfl, -⟩ := hp
      rename_i hagain
      exact absurd rfl hagain

theorem cancelStep_model (s : SATModule E) (c : Nat) (l : Lit) :
    (s.cancelStep c l).model = s.model := by
  unfold cancelStep insertVarOrder
  dsimp only
  split <;> rfl

theorem cancelLoop_model (s : SATModule E) (c : Nat) (ls : List Lit) :
    (cancelLoop s c ls).model = s.model := by
  induction ls generalizing c with
  | nil => rfl
  | cons l ls ih => exact (cancelStep_model (cancelLoop s (c + 1) ls) c l).trans (ih (c + 1))

theorem cancelUntil_model (s : SATModule E) (level : Nat) :
    (s.cancelUntil level).model = s.model := by
  unfold cancelUntil
  split
  · exact cancelLoop_model s _ _
  · rfl

theorem pickBranchLit_none (h : Environment E) (s s' : SATModule E)
    (hp : pickBranchLit h s = some (none, s')) :
    ∀ v ∈ s.order_heap, s.assigns v ≠ .l_Undef ∨ s.decision v = false := by
  unfold pickBranchLit at hp
  split at hp
  · cases hp
  · rename_i s1 hl
    exact (pickBranchLoop_none h _ _ _ _ hl).2
  · simp at hp

theorem searchNoConflict_true (h : Environment E) (nof conflictC : Int) (s s' : SATModule E)
    (hq : s.qhead = s.trail.length) (hH : HeapOK s)
    (hr : searchNoConflict h nof conflictC s = some (.returns .l_True s')) :
    Maintained s s' ∧ s'.clauses.Sublist s.clauses ∧
      ∀ v, v < s'.nVars → s'.decision v = true → s'.assigns v ≠ .l_Undef := by
  unfold searchNoConflict at hr
  split at hr
  · simp at hr
  · split at hr
    · cases hr
    · simp at hr
    · rename_i s1 hs
      have f1 : Maintained s s1 ∧ s1.clauses.Sublist s.clauses ∧ HeapOK s1 := by
        split at hs
        · obtain ⟨m, sub, -, hh⟩ := simplify_maintained h s s1 hq hH hs
          exact ⟨m, sub, hh⟩
        · simp only [Option.some.injEq, Prod.mk.injEq, true_and] at hs
          subst hs
          exact ⟨Maintained.mt_refl s, List.Sublist.refl _, hH⟩
      obtain ⟨m1, sub1, hh1⟩ := f1
      dsimp only at hr
      have f2 : Maintained s1 (if h.reduce s1 = true then
          reduceDB (h.order s1) (h.low s1) (h.gcReduce s1) s1 else s1) ∧
          (if h.reduce s1 = true then
            reduceDB (h.order s1) (h.low s1) (h.gcReduce s1) s1 else s1).clauses = s1.clauses ∧
          (if h.reduce s1 = true then
            reduceDB (h.order s1) (h.low s1) (h.gcReduce s1) s1 else s1).order_heap
              = s1.order_heap := by
        split
        · obtain ⟨m, c, o, -⟩ := reduceDB_maintained (h.order s1) (h.low s1) (h.gcReduce s1) s1
          exact ⟨m, c, o⟩
        · exact ⟨Maintained.mt_refl s1, rfl, rfl⟩
      obtain ⟨m2, c2, o2⟩ := f2
      split at hr
      · simp at hr
      · simp at hr
      · rename_i s3 ha
        obtain ⟨m3, c3, o3⟩ := assumeLoop_maintained _ _ _ _ ha
        split at hr
        · cases hr
        · rename_i s4 hp
          simp only [Option.some.injEq, Pass.returns.injEq, true_and] at hr
          subst hr
          obtain ⟨m4, c4, -⟩ := pickBranchLit_maintained h _ _ _ hp
          have hbad := pickBranchLit_none h _ _ hp
          have m13 : Maintained s s3 := (m1.mt_trans m2).mt_trans m3
          have m34 : Maintained s3 s4 :=
            ⟨m4.assigns_eq, m4.trail_eq, m4.nVars_eq, m4.decision_eq, m4.lits_eq, m4.ok_eq,
              m4.assumptions_eq, m4.conflict_eq, m4.mPassedFormula_eq, m4.remove_satisfied_eq,
              m4.mark_mono⟩
          have hh3 : HeapOK s3 :=
            HeapOK_maintained (m2.mt_trans m3) (o3.trans o2) hh1
          refine ⟨m13.mt_trans m34, ?_, ?_⟩
          · have e : s4.clauses = s1.clauses := by
              have e4 : s4.clauses = s3.clauses := c4
              rw [e4, c3, c2]
            rw [e]; exact sub1
          · intro v hv hd hu
            rw [m34.nVars_eq] at hv
            rw [m34.decision_eq] at hd
            rw [m34.assigns_eq] at hu
            have hmem := hh3 v hv hd hu
            rcases hbad v hmem with hb | hb
            · exact hb hu
            · have hd' : s3.decision v = false := hb
              rw [hd] at hd'
              exact Bool.noConfusion hd'
        · simp at hr

/-- Claim C25, counterexample: with two variables that are not decision variables and the clause
of their positive literals, `search` returns `l_True` at once (the order heap is empty) while
both literals of the clause are unassigned, and the model that `solve_` copies holds `l_Undef`
for both variables. -/
theorem search_model_with_unsatisfied_clause :
    nonDecision.ok = true ∧ nonDecision.clauses = [0] ∧
    (nonDecision.ca 0).lits = [mkLit 0 false, mkLit 1 false] ∧
    (search plainEnvironment 1 100 nonDecision).map
      (fun r => (r.1, r.2.clauses, (r.2.ca 0).lits.map r.2.value, r.2.decisionLevel))
      = some (.l_True, [0], [.l_Undef, .l_Undef], 0) ∧
    (solve_ plainEnvironment 1 nonDecision).map (fun r => (r.1, r.2.model))
      = some (.l_True, [.l_Undef, .l_Undef]) := by
  decide

/-- The model of a pass of `search`: when a pass that starts in a state with the invariants (the
trail, the watch lists, the reasons and the levels agree, the two watched literals are propagated
up to `qhead`, and the order heap holds every unassigned decision variable) returns `l_True`, no
decision variable is unassigned; if every variable is a decision variable, every clause in the
list `clauses` that is not marked as deleted has a literal that is true under the current
assignment; and the model that `solve_` copies has one entry per variable, the value of the
variable in this assignment. -/
theorem searchPass_model [DecidableEq E] (h : Environment E) (nof conflictC : Int)
    (s s' : SATModule E) (hW : WellFormed s) (hC : Coherent s) (hP : Propagated s s.qhead)
    (hH : HeapOK s) (hr : searchPass h nof conflictC s = some (.returns .l_True s')) :
    (∀ v, v < s'.nVars → s'.decision v = true → s'.assigns v ≠ .l_Undef) ∧
    ((∀ v, v < s'.nVars → s'.decision v = true) →
      ∀ cr ∈ s'.clauses, (s'.ca cr).mark ≠ 1 → ∃ l ∈ (s'.ca cr).lits, s'.value l = .l_True) ∧
    (solveExit .l_True s').model = (List.range s'.nVars).map s'.assigns ∧
    (solveExit .l_True s').model.length = s'.nVars := by
  unfold searchPass at hr
  split at hr
  · cases hr
  · rename_i confl s1 hp
    exact absurd (searchConflict_not_undef _ _ _ _ _ hr) (by decide)
  · rename_i s1 hp
    dsimp only at hr
    obtain ⟨hC1, -, hcase, -⟩ := propagate_inv True _ s s1 none hC hW.qhead_le (fun _ => hP) hp
    have hP1 : Propagated s1 s1.trail.length := by
      rcases hcase with ⟨-, hPP⟩ | ⟨cr, hc, -⟩
      · exact hPP trivial
      · cases hc
    have hW1 := propagate_wellFormed _ _ _ _ hW hp
    have f := propagate_frame _ _ _ _ hp
    have hq1 := propagate_qhead _ _ _ _ hW.qhead_le hp
    have hH1 : HeapOK s1 := by
      intro v hv hd hu
      rw [f.order_heap_eq]
      rw [f.nVars_eq] at hv
      rw [f.decision_eq] at hd
      refine hH v hv hd ?_
      by_contra hne
      rw [f.assigns_kept v hne] at hu
      exact hne hu
    split at hr
    · obtain ⟨m, sub, hall⟩ := searchNoConflict_true h nof conflictC s1.adaptPassedFormula s'
        hq1 hH1 hr
      have ma : s'.assigns = s1.assigns := m.assigns_eq
      have mn : s'.nVars = s1.nVars := m.nVars_eq
      refine ⟨hall, ?_, ?_, ?_⟩
      · intro hdec cr hcr hmk
        have hcr1 : cr ∈ s1.clauses := sub.subset hcr
        obtain ⟨a0, a1⟩ := (hC1.watchOK.attached cr (Or.inl hcr1)).2 (m.mark_mono cr hmk)
        obtain ⟨c1, -⟩ := watched_complete s1 hC1 hP1 cr a0 a1
        have hl : (s'.ca cr).lits = (s1.ca cr).lits := m.lits_eq cr
        by_contra hno
        apply c1
        intro l hl1
        have hv : l.var < s'.nVars := by
          rw [mn]; exact hW1.inRange.clause_range cr l hl1
        have hdef : s'.value l ≠ .l_Undef := by
          intro hu
          exact hall l.var hv (hdec l.var hv) ((value_undef s' l).mp hu)
        have hnt : s'.value l ≠ .l_True := by
          intro ht
          exact hno ⟨l, by rw [hl]; exact hl1, ht⟩
        rw [← value_congr s1 s' ma l]
        cases hval : s'.value l with
        | l_True => exact absurd hval hnt
        | l_False => rfl
        | l_Undef => exact absurd hval hdef
      · unfold solveExit
        simp only [↓reduceIte]
        exact (cancelUntil_model _ 0)
      · unfold solveExit
        simp only [↓reduceIte]
        rw [cancelUntil_model]
        simp
    · exact absurd (searchConflict_not_undef _ _ _ _ _ hr) (by decide)
    · simp at hr

theorem wrapInt_id (n : Int) (h1 : -2147483648 ≤ n) (h2 : n < 2147483648) : wrapInt n = n := by
  unfold wrapInt; omega

theorem two_pow_le_of_le {a b : Nat} (h : a ≤ b) : (2 : Int) ^ a ≤ 2 ^ b :=
  pow_le_pow_right₀ (by norm_num) h

theorem two_pow_le_bound {a : Nat} (b : Nat) (h : a ≤ b) (hb : b ≤ 31) :
    (2 : Int) ^ a ≤ 2 ^ b ∧ (2 : Int) ^ b ≤ 2147483648 := by
  refine ⟨two_pow_le_of_le h, ?_⟩
  have : (2 : Int) ^ b ≤ 2 ^ 31 := two_pow_le_of_le hb
  norm_num at this
  exact this

theorem two_pow_pos (a : Nat) : (0 : Int) < 2 ^ a := by positivity

theorem lubyFind_spec (x : Int) (d : Nat) :
    ∀ (k fuel : Nat), d < fuel → k + d ≤ 30 → x + 1 ≤ 2 ^ (k + d + 1) - 1 →
      (0 < d → (2 : Int) ^ (k + d) - 1 < x + 1) → -1 ≤ x →
      lubyFind fuel (2 ^ (k + 1) - 1) k x = some (2 ^ (k + d + 1) - 1, ((k + d : Nat) : Int)) := by
  induction d with
  | zero =>
    intro k fuel hf hk hx _ hx0
    obtain ⟨f, rfl⟩ : ∃ f, fuel = f + 1 := ⟨fuel - 1, by omega⟩
    have hb := (two_pow_le_bound 31 (show k + 0 + 1 ≤ 31 by omega) (le_refl _)).1
    norm_num only at hb
    rw [lubyFind, wrapInt_id (x + 1) (by omega) (by omega)]
    rw [if_neg (by simpa using hx)]
    simp
  | succ d ih =>
    intro k fuel hf hk hx hlow hx0
    obtain ⟨f, rfl⟩ : ∃ f, fuel = f + 1 := ⟨fuel - 1, by omega⟩
    have hb : (2 : Int) ^ (k + (d + 1) + 1) ≤ 2 ^ 31 := two_pow_le_of_le (by omega)
    have hb2 : (2 : Int) ^ (k + 1) ≤ 2 ^ (k + (d + 1)) := two_pow_le_of_le (by omega)
    have hb3 : (2 : Int) ^ (k + (d + 1)) ≤ 2 ^ 30 := two_pow_le_of_le (by omega)
    have hp := two_pow_pos (k + 1)
    have hl := hlow (Nat.succ_pos d)
    rw [lubyFind, wrapInt_id (x + 1) (by omega) (by norm_num at hb; omega)]
    rw [if_pos (by omega)]
    rw [wrapInt_id (2 * (2 ^ (k + 1) - 1) + 1) (by omega) (by norm_num at hb3; omega)]
    rw [wrapInt_id ((k : Int) + 1) (by omega) (by omega)]
    have e : 2 * ((2 : Int) ^ (k + 1) - 1) + 1 = 2 ^ (k + 1 + 1) - 1 := by ring
    rw [e]
    have := ih (k + 1) f (by omega) (by omega) (by
      have : k + 1 + d + 1 = k + (d + 1) + 1 := by omega
      rw [this]; exact hx) (by
      intro _
      have : k + 1 + d = k + (d + 1) := by omega
      rw [this]; exact hl) hx0
    rw [show ((k : Int) + 1) = ((k + 1 : Nat) : Int) by push_cast; rfl]
    rw [this]
    have e1 : k + 1 + d + 1 = k + (d + 1) + 1 := by omega
    have e2 : k + 1 + d = k + (d + 1) := by omega
    rw [e1, e2]

theorem shiftRight_one (m : Int) : m >>> (1 : Nat) = m / 2 := by
  rw [Int.shiftRight_eq_div_pow]; rfl

theorem lubyDescend_spec (j : Nat) :
    ∀ (fuel : Nat) (x : Int), j < fuel → j ≤ 30 → 0 ≤ x → x ≤ 2 ^ (j + 1) - 2 →
      lubyDescend fuel (2 ^ (j + 1) - 1) j x = some (some ((lubyExponent j x : Nat) : Int)) := by
  induction j with
  | zero =>
    intro fuel x hf _ h0 hx
    obtain ⟨f, rfl⟩ : ∃ f, fuel = f + 1 := ⟨fuel - 1, by omega⟩
    have hx0 : x = 0 := by norm_num at hx; omega
    subst hx0
    rfl
  | succ j ih =>
    intro fuel x hf hj h0 hx
    obtain ⟨f, rfl⟩ : ∃ f, fuel = f + 1 := ⟨fuel - 1, by omega⟩
    have hb := (two_pow_le_bound 31 (show j + 1 + 1 ≤ 31 by omega) (le_refl _)).1
    norm_num only at hb
    have hp := two_pow_pos (j + 1)
    have hs : (2 : Int) ^ (j + 1 + 1) = 2 * 2 ^ (j + 1) := by ring
    have hj1 : (2 : Int) ≤ 2 ^ (j + 1) := by
      have := @two_pow_le_of_le 1 (j + 1) (by omega)
      simpa using this
    rw [lubyDescend, wrapInt_id (2 ^ (j + 1 + 1) - 1 - 1) (by omega) (by omega)]
    by_cases he : (2 : Int) ^ (j + 1 + 1) - 1 - 1 = x
    · rw [if_neg (by simpa using he)]
      have he2 : (2 : Int) ^ (j + 2) - 2 = x := by rw [← he]; ring
      rw [lubyExponent, if_pos he2]
    · rw [if_pos he]
      have he2 : ¬ (2 : Int) ^ (j + 2) - 2 = x := by
        intro hh; apply he; rw [← hh]; ring
      have hsz : ((2 : Int) ^ (j + 1 + 1) - 1 - 1) >>> (1 : Nat) = 2 ^ (j + 1) - 1 := by
        rw [shiftRight_one, hs]; omega
      dsimp only
      rw [hsz, if_neg (by omega), wrapInt_id (((j + 1 : Nat) : Int) - 1) (by omega) (by omega)]
      rw [lubyExponent, if_neg he2]
      have hm1 : 0 ≤ Int.tmod x (2 ^ (j + 1) - 1) := Int.tmod_nonneg _ h0
      have hm2 : Int.tmod x (2 ^ (j + 1) - 1) < 2 ^ (j + 1) - 1 :=
        Int.tmod_lt_of_pos _ (by omega)
      have := ih f (Int.tmod x (2 ^ (j + 1) - 1)) (by omega) (by omega) hm1 (by omega)
      rw [show (((j + 1 : Nat) : Int) - 1) = (j : Int) by push_cast; ring]
      exact this

theorem lubyExponent_stable (j : Nat) (x : Int) (h0 : 0 ≤ x) (hx : x + 1 ≤ 2 ^ (j + 1) - 1) :
    lubyExponent (j + 1) x = lubyExponent j x := by
  have hs : (2 : Int) ^ (j + 2) = 2 * 2 ^ (j + 1) := by ring
  rw [lubyExponent, if_neg (by omega), Int.tmod_eq_of_lt h0 (by omega)]

theorem lubyExponent_stable_add (j : Nat) (x : Int) (h0 : 0 ≤ x)
    (hx : x + 1 ≤ 2 ^ (j + 1) - 1) (d : Nat) : lubyExponent (j + d) x = lubyExponent j x := by
  induction d with
  | zero => rfl
  | succ d ih =>
    have hle : (2 : Int) ^ (j + 1) ≤ 2 ^ (j + d + 1) := two_pow_le_of_le (by omega)
    rw [← ih]
    exact lubyExponent_stable (j + d) x h0 (by omega)

theorem lubyExponent_le (j : Nat) : ∀ x : Int, lubyExponent j x ≤ j := by
  induction j with
  | zero => intro x; exact Nat.le_refl _
  | succ j ih =>
    intro x
    rw [lubyExponent]
    split
    · exact Nat.le_refl _
    · exact Nat.le_succ_of_le (ih _)

theorem lubySeq_eq (fuel : Nat) (hf : 32 ≤ fuel) (x : Int) (h0 : 0 ≤ x)
    (hx : x < 2147483647) :
    lubySeq fuel x = some (some ((lubyExponent 30 x : Nat) : Int)) := by
  have hex : ∃ j : Nat, x + 1 ≤ 2 ^ (j + 1) - 1 := ⟨30, by norm_num; omega⟩
  have hj := Nat.find_spec hex
  have hmin := fun m => @Nat.find_min _ _ hex m
  generalize Nat.find hex = j at hj hmin
  have hj30 : j ≤ 30 := by
    by_contra hc
    exact hmin 30 (by omega) (by norm_num; omega)
  have hlow : 0 < j → (2 : Int) ^ (0 + j) - 1 < x + 1 := by
    intro hpos
    have := hmin (j - 1) (by omega)
    rw [show j - 1 + 1 = j by omega] at this
    rw [Nat.zero_add]
    omega
  have h1 := lubyFind_spec x j 0 fuel (by omega) (by omega)
    (by rw [Nat.zero_add]; exact hj) hlow (by omega)
  have h2 := lubyDescend_spec j fuel x (by omega) hj30 h0 (by omega)
  unfold lubySeq
  have e1 : (1 : Int) = 2 ^ (0 + 1) - 1 := by norm_num
  have e0 : (0 : Int) = ((0 : Nat) : Int) := rfl
  rw [e1, e0, h1]
  dsimp only
  rw [Nat.zero_add, h2]
  have := lubyExponent_stable_add j x h0 hj (30 - j)
  rw [show j + (30 - j) = 30 by omega] at this
  rw [this]

/-- Claim C21, counterexample: for the index `x = 2147483647`, the greatest value of type `int`,
`luby` returns no value, whatever the fuel: `x + 1` is `-2147483648` in two's complement, the
first loop ends at once with `size = 1`, and the second loop takes `x % 0`. -/
theorem luby_greatest_index_undefined :
    luby 32 2 2147483647 = some none ∧
    ∀ (fuel : Nat) (y v : ℚ), luby fuel y 2147483647 ≠ some (some v) := by
  constructor
  · rfl
  · intro fuel y v
    cases fuel with
    | zero => intro hc; cases hc
    | succ f => intro hc; cases hc

/-- Claim C21, amended: for every index `x` with `0 <= x < 2147483647`, `luby( y, x )` returns
(with every amount of fuel from `32` on) the power `y ^ k` with an exponent `k >= 0`, the value
of `seq`; this exponent is `n - 1` if `x + 1 = 2 ^ n - 1`, and it is the exponent at index
`x - (2 ^ (n - 1) - 1)` if `2 ^ (n - 1) <= x + 1 < 2 ^ n - 1`; for `y = 2` and `x = 0..14` the
values are `1, 1, 2, 1, 1, 2, 4, 1, 1, 2, 1, 1, 2, 4, 8`. -/
theorem luby_sequence (fuel : Nat) (hf : 32 ≤ fuel) (y : ℚ) :
    (∀ x : Int, 0 ≤ x → x < 2147483647 →
      ∃ k : Nat, lubySeq fuel x = some (some (k : Int)) ∧ luby fuel y x = some (some (y ^ k))) ∧
    (∀ (n : Nat) (x : Int), 0 ≤ x → x < 2147483647 → x + 1 = 2 ^ n - 1 →
      lubySeq fuel x = some (some ((n : Int) - 1))) ∧
    (∀ (n : Nat) (x : Int), 0 ≤ x → x < 2147483647 → 2 ^ (n - 1) ≤ x + 1 → x + 1 < 2 ^ n - 1 →
      lubySeq fuel x = lubySeq fuel (x - (2 ^ (n - 1) - 1))) ∧
    (List.range 15).map (fun x : Nat => luby fuel 2 (x : Int))
      = [1, 1, 2, 1, 1, 2, 4, 1, 1, 2, 1, 1, 2, 4, 8].map (fun v : ℚ => some (some v)) := by
  have hval : ∀ (x : Int) (z : ℚ), 0 ≤ x → x < 2147483647 →
      luby fuel z x = some (some (z ^ lubyExponent 30 x)) := by
    intro x z h0 hx
    unfold luby
    rw [lubySeq_eq fuel hf x h0 hx]
    simp only [Option.map_some', zpow_natCast]
  refine ⟨?_, ?_, ?_, ?_⟩
  · intro x h0 hx
    exact ⟨lubyExponent 30 x, lubySeq_eq fuel hf x h0 hx, hval x y h0 hx⟩
  · intro n x h0 hx hn
    rw [lubySeq_eq fuel hf x h0 hx]
    obtain ⟨m, rfl⟩ : ∃ m, n = m + 1 := by
      cases n with
      | zero => norm_num at hn; omega
      | succ m => exact ⟨m, rfl⟩
    have hm : m ≤ 30 := by
      by_contra hc
      have := @two_pow_le_of_le 32 (m + 1) (by omega)
      norm_num only at this
      omega
    have h1 := lubyExponent_stable_add m x h0 (by omega) (30 - m)
    rw [show m + (30 - m) = 30 by omega] at h1
    rw [h1]
    have h2 : lubyExponent m x = m := by
      cases m with
      | zero => rfl
      | succ j =>
        have hs : (2 : Int) ^ (j + 1 + 1) = 2 ^ (j + 2) := rfl
        rw [lubyExponent, if_pos (by omega)]
    rw [h2]
    push_cast
    ring_nf
  · intro n x h0 hx hlo hhi
    obtain ⟨j, rfl⟩ : ∃ j, n = j + 2 := by
      match n, hlo, hhi with
      | 0, hlo, hhi => norm_num at hhi; omega
      | 1, hlo, hhi => norm_num at hlo hhi; omega
      | j + 2, _, _ => exact ⟨j, rfl⟩
    rw [show j + 2 - 1 = j + 1 by omega] at hlo ⊢
    have hs : (2 : Int) ^ (j + 2) = 2 * 2 ^ (j + 1) := by ring
    have hp := two_pow_pos (j + 1)
    have hj1 : (2 : Int) ≤ 2 ^ (j + 1) := by
      have := @two_pow_le_of_le 1 (j + 1) (by omega)
      simpa using this
    have hm : j + 1 ≤ 30 := by
      by_contra hc
      have := @two_pow_le_of_le 31 (j + 1) (by omega)
      norm_num only at this
      omega
    rw [lubySeq_eq fuel hf x h0 hx, lubySeq_eq fuel hf _ (by omega) (by omega)]
    have h1 := lubyExponent_stable_add (j + 1) x h0 (by omega) (30 - (j + 1))
    rw [show j + 1 + (30 - (j + 1)) = 30 by omega] at h1
    have h2 := lubyExponent_stable_add j (x - (2 ^ (j + 1) - 1)) (by omega) (by omega) (30 - j)
    rw [show j + (30 - j) = 30 by omega] at h2
    rw [h1, h2, lubyExponent, if_neg (by omega)]
    have hmod : Int.tmod x (2 ^ (j + 1) - 1) = x - (2 ^ (j + 1) - 1) := by
      rw [Int.tmod_eq_emod h0 (by omega), Int.emod_eq_sub_self_emod,
        Int.emod_eq_of_lt (by omega) (by omega)]
    rw [hmod]
  · have e : ∀ x : Nat, x < 15 → lubyExponent 30 (x : Int)
        = [0, 0, 1, 0, 0, 1, 2, 0, 0, 1, 0, 0, 1, 2, 3].getD x 0 := by
      decide
    have hv : ∀ x : Nat, x < 15 → luby fuel 2 (x : Int)
        = some (some ((2 : ℚ) ^ [0, 0, 1, 0, 0, 1, 2, 0, 0, 1, 0, 0, 1, 2, 3].getD x 0)) := by
      intro x hx
      rw [hval (x : Int) 2 (by omega) (by omega), e x hx]
    rw [show List.range 15 = [0, 1, 2, 3, 4, 5, 6, 7, 8, 9, 10, 11, 12, 13, 14] from rfl]
    simp only [List.map]
    rw [hv 0 (by decide), hv 1 (by decide), hv 2 (by decide), hv 3 (by decide),
      hv 4 (by decide), hv 5 (by decide), hv 6 (by decide), hv 7 (by decide), hv 8 (by decide),
      hv 9 (by decide), hv 10 (by decide), hv 11 (by decide), hv 12 (by decide),
      hv 13 (by decide), hv 14 (by decide)]
    norm_num

/-- Claim C21, witness: with fuel `32` and `y = 2`. -/
theorem luby_sequence_witness :
    (∀ x : Int, 0 ≤ x → x < 2147483647 →
      ∃ k : Nat, lubySeq 32 x = some (some (k : Int)) ∧ luby 32 2 x = some (some (2 ^ k))) ∧
    (∀ (n : Nat) (x : Int), 0 ≤ x → x < 2147483647 → x + 1 = 2 ^ n - 1 →
      lubySeq 32 x = some (some ((n : Int) - 1))) ∧
    (∀ (n : Nat) (x : Int), 0 ≤ x → x < 2147483647 → 2 ^ (n - 1) ≤ x + 1 → x + 1 < 2 ^ n - 1 →
      lubySeq 32 x = lubySeq 32 (x - (2 ^ (n - 1) - 1))) ∧
    (List.range 15).map (fun x : Nat => luby 32 2 (x : Int))
      = [1, 1, 2, 1, 1, 2, 4, 1, 1, 2, 1, 1, 2, 4, 8].map (fun v : ℚ => some (some v)) :=
  luby_sequence 32 (by decide) 2

theorem cancelStep_polarity (s : SATModule E) (c : Nat) (l : Lit)
    (h : s.phase_saving = 0 ∨ ¬ c > s.trail_lim.getLastD 0) :
    (s.cancelStep c l).polarity = s.polarity ∧
      (s.cancelStep c l).phase_saving = s.phase_saving ∧
      (s.cancelStep c l).trail_lim = s.trail_lim := by
  have hc : ¬ ((s.phase_saving > 1 ∨ s.phase_saving = 1) ∧ c > s.trail_lim.getLastD 0) := by
    rcases h with h | h
    · rw [h]; intro hh; rcases hh.1 with h1 | h1
      · exact absurd h1 (by decide)
      · exact absurd h1 (by decide)
    · exact fun hh => h hh.2
  unfold cancelStep insertVarOrder
  dsimp only
  rw [if_neg hc]
  split <;> exact ⟨rfl, rfl, rfl⟩

theorem cancelLoop_polarity (s : SATModule E) (h : s.phase_saving = 0) (c : Nat)
    (ls : List Lit) :
    (cancelLoop s c ls).polarity = s.polarity ∧ (cancelLoop s c ls).phase_saving = 0 := by
  induction ls generalizing c with
  | nil => exact ⟨rfl, h⟩
  | cons l ls ih =>
    obtain ⟨h1, h2⟩ := ih (c + 1)
    obtain ⟨k1, k2, -⟩ := cancelStep_polarity (cancelLoop s (c + 1) ls) c l (Or.inl h2)
    exact ⟨k1.trans h1, k2.trans h2⟩

/-- Claim C36: `cancelUntil` tests `( phase_saving > 1 || (phase_saving == 1) ) && c >
trail_lim.last()`, so that also with `phase_saving = 2` the sign of a trail literal is stored only
for the positions behind the last decision.  In the state `twoLevels` the literal
`mkLit( 1, false )` was enqueued at level `1`, before the decision of level `2`;
`cancelUntil( 0 )` unassigns its variable and leaves `polarity[1] = true`, which is not the sign
`false` of the literal.  With `phase_saving = 0` the vector `polarity` is left unchanged. -/
theorem cancelUntil_phase_saving_behind_last_decision :
    twoLevels.phase_saving = 2 ∧
    twoLevels.trail = [mkLit 0 true, mkLit 1 false, mkLit 2 true] ∧
    twoLevels.trail_lim = [0, 2] ∧
    twoLevels.polarity 1 = true ∧
    (twoLevels.cancelUntil 0).trail = [] ∧
    (twoLevels.cancelUntil 0).assigns 1 = .l_Undef ∧
    (twoLevels.cancelUntil 0).polarity 1 = true ∧
    (twoLevels.cancelUntil 0).polarity 1 ≠ (mkLit 1 false).sign ∧
    (∀ (s : SATModule LinExpr) (c : Nat) (l : Lit), ¬ c > s.trail_lim.getLastD 0 →
      (s.cancelStep c l).polarity = s.polarity) ∧
    (∀ (s : SATModule LinExpr) (L : Nat), s.phase_saving = 0 →
      (s.cancelUntil L).polarity = s.polarity) := by
  refine ⟨by decide, by decide, by decide, by decide, by decide, by decide, by decide, by decide,
    ?_, ?_⟩
  · intro s c l h
    exact (cancelStep_polarity s c l (Or.inr h)).1
  · intro s L h
    unfold cancelUntil
    split
    · exact (cancelLoop_polarity s h _ _).1
    · rfl

/-- Claim C38: every literal of the clause that `search` builds after the answer `False` of the
backends is true under the current assignment, with `value` as `uncheckedEnqueue` defines it (the
enqueued literal is true): the clause holds `mkLit( pos, false )` for `assigns[pos] == l_True` and
`mkLit( pos, true )` for `assigns[pos] == l_False`.  In scenario C the clause is
`[mkLit( 0, true ), mkLit( 1, false )]`, the two literals that were enqueued, and none of its
literals is false. -/
theorem search_theory_lemma_literals_true :
    (∀ (s : SATModule LinExpr) (p : Lit) (src : Option CRef),
      (s.uncheckedEnqueue p src).value p = .l_True) ∧
    (∀ (s : SATModule LinExpr) (l : Lit), l ∈ s.theoryLemma → s.value l = .l_True) ∧
    scenarioC.trail = [mkLit 0 true, mkLit 1 false] ∧
    (afterPropagate scenarioC).2.adaptPassedFormula.theoryLemma = [mkLit 0 true, mkLit 1 false] ∧
    (∀ l ∈ (afterPropagate scenarioC).2.adaptPassedFormula.theoryLemma,
      (afterPropagate scenarioC).2.adaptPassedFormula.value l ≠ .l_False) := by
  refine ⟨?_, ?_, by decide, by decide, by decide⟩
  · intro s p src
    unfold uncheckedEnqueue value
    simp only [Function.update_same]
    cases p.sign <;> rfl
  · intro s l hl
    unfold theoryLemma at hl
    obtain ⟨pos, -, hpos⟩ := List.mem_filterMap.mp hl
    unfold value
    split at hpos
    · rename_i h1
      simp only [Option.some.injEq] at hpos
      subst hpos
      show (s.assigns pos).xor false = .l_True
      rw [h1]; rfl
    · split at hpos
      · rename_i h2
        simp only [Option.some.injEq] at hpos
        subst hpos
        show (s.assigns pos).xor true = .l_True
        rw [h2]; rfl
      · cases hpos

/-- Claim C39: the assertion of `adaptPassedFormula` fails for an assigned variable of a Boolean
formula.  For a formula of type `BOOL`, `getLiteral` makes a variable and writes
`mBooleanVarMap` only, never `mLitConstraintMap`.  After the Boolean formula `b` was asserted
(`addClause( getLiteral( _formula ) )`), its variable `0` is assigned at level `0`, `propagate`
finds no conflict, and in the state in which `search` calls `adaptPassedFormula` the variable `0`
has no entry in `mLitConstraintMap`. -/
theorem adaptPassedFormula_assertion_fails_for_bool :
    (∀ (s : SATModule LinExpr) (identifier : String),
      (getLiteral (.BOOL identifier) s).2.mLitConstraintMap = s.mLitConstraintMap) ∧
    (getLiteral (.BOOL "b") (init LinExpr)).1 = mkLit 0 true ∧
    assertedBool.ok = true ∧ assertedBool.nVars = 1 ∧ assertedBool.trail = [mkLit 0 true] ∧
    assertedBool.assigns 0 = .l_False ∧
    (afterPropagate assertedBool).1 = none ∧
    (afterPropagate assertedBool).2.assigns 0 = .l_False ∧
    ((afterPropagate assertedBool).2.mLitConstraintMap (mkLit 0 false)).isSome = false ∧
    adaptPassedFormulaAsserts (afterPropagate assertedBool).2 = false := by
  refine ⟨?_, by decide, by decide, by decide, by decide, by decide, by decide, by decide,
    by decide, by decide⟩
  intro s identifier
  unfold getLiteral
  dsimp only
  split <;> rfl

theorem popBacktrackLoop_zero (fuel : Nat) :
    ∀ (level passes : Nat) (bt : List CRef) (s : SATModule E) (r : PopResult E),
      popBacktrackLoop fuel level 0 passes bt s = some r → ∃ p l, r = .outOfRange p l := by
  induction fuel with
  | zero => intro level passes bt s r h; rw [popBacktrackLoop] at h; cases h
  | succ fuel ih =>
    intro level passes bt s r h
    rw [popBacktrackLoop, if_pos (Nat.zero_le level)] at h
    split at h
    · simp only [Option.some.injEq] at h
      exact ⟨_, _, h.symm⟩
    · exact ih _ _ _ _ _ h

theorem popBacktrackLoop_done (back : Nat) (hb : 1 ≤ back) (k : Nat) :
    ∀ (fuel passes : Nat) (bt : List CRef) (s : SATModule E), k < fuel →
      bt.length = back + k → bt.length < 4294967296 →
      ∃ s', popBacktrackLoop fuel (bt.length - 1) back passes bt s
        = some (.done (passes + k) (bt.take back) s') := by
  induction k with
  | zero =>
    intro fuel passes bt s hf hl _
    obtain ⟨f, rfl⟩ : ∃ f, fuel = f + 1 := ⟨fuel - 1, by omega⟩
    rw [popBacktrackLoop, if_neg (by omega)]
    refine ⟨s, ?_⟩
    rw [List.take_of_length_le (by omega)]
    rfl
  | succ k ih =>
    intro fuel passes bt s hf hl hlt
    obtain ⟨f, rfl⟩ : ∃ f, fuel = f + 1 := ⟨fuel - 1, by omega⟩
    rw [popBacktrackLoop, if_pos (by omega)]
    obtain ⟨cr, hget⟩ : ∃ cr, bt[bt.length - 1]? = some cr :=
      ⟨_, List.getElem?_eq_getElem (show bt.length - 1 < bt.length by omega)⟩
    rw [hget]
    dsimp only
    have hlev : (bt.length - 1 + 4294967296 - 1) % 4294967296 = bt.dropLast.length - 1 := by
      rw [List.length_dropLast]; omega
    rw [hlev]
    obtain ⟨s', hs'⟩ := ih f (passes + 1) bt.dropLast (s.removeClause _) (by omega)
      (by rw [List.length_dropLast]; omega) (by rw [List.length_dropLast]; omega)
    refine ⟨s', ?_⟩
    rw [hs']
    have ht : bt.dropLast.take back = bt.take back := by
      rw [List.dropLast_eq_take, List.take_take, Nat.min_eq_left (by omega)]
    rw [ht, Nat.add_assoc, Nat.add_comm 1 k]

/-- Claim C40: for a backtrack point at position `0` the loop of `popBacktrackPoint` does not
end by its condition: `level >= 0` holds for every `unsigned`, after the pass for `level = 0` the
index is `4294967295`, and `mBacktrackpointInSatSolver.at( level )` leaves the loop with
`std::out_of_range`.  With one received formula this happens after one pass.  For a backtrack
point at a position `back >= 1` the loop ends after `receivedFormulaSize() - back` passes. -/
theorem popBacktrackPoint_at_position_zero :
    (∀ (fuel level passes : Nat) (bt : List CRef) (s : SATModule LinExpr)
      (r : PopResult LinExpr),
      popBacktrackLoop fuel level 0 passes bt s = some r → ∃ p l, r = .outOfRange p l) ∧
    popBacktrackPoint 2 1 0 [0] twoBinaryClauses = some (.outOfRange 1 4294967295) ∧
    popBacktrackPoint 1 0 0 [] twoBinaryClauses = some (.outOfRange 0 4294967295) ∧
    (∀ (back size fuel : Nat) (bt : List CRef) (s : SATModule LinExpr), 1 ≤ back →
      back ≤ size → bt.length = size → size < 4294967296 → size - back < fuel →
      ∃ s', popBacktrackPoint fuel size back bt s
        = some (.done (size - back) (bt.take back) s')) := by
  refine ⟨fun fuel => popBacktrackLoop_zero fuel, rfl, rfl, ?_⟩
  intro back size fuel bt s hb hbs hl hlt hf
  obtain ⟨s', hs'⟩ := popBacktrackLoop_done back hb (size - back) fuel 0 bt s hf
    (by omega) (by omega)
  refine ⟨s', ?_⟩
  unfold popBacktrackPoint
  have : (size + 4294967296 - 1) % 4294967296 = bt.length - 1 := by omega
  rw [this, hs', Nat.zero_add]

theorem withCcminMode_invariants (s : SATModule E) (mode : Nat) (hW : WellFormed s)
    (hC : Coherent s) (hD : DecisionOK s) :
    WellFormed (s.withCcminMode mode) ∧ Coherent (s.withCcminMode mode) ∧
      DecisionOK (s.withCcminMode mode) :=
  ⟨⟨hW.qhead_le, ⟨hW.inRange.trail_range, hW.inRange.clause_range⟩, hW.watched_size⟩,
    ⟨⟨hC.trailOK.trail_true, hC.trailOK.assigned, hC.trailOK.nodup⟩,
      ⟨hC.watchOK.lits_nodup, hC.watchOK.watch_lit, hC.watchOK.blocker_mem,
        hC.watchOK.watch_nodup, hC.watchOK.attached⟩,
      hC.reasonOK,
      ⟨hC.levelOK.lim_sorted, hC.levelOK.lim_le, hC.levelOK.level_eq⟩,
      hC.queueLevel⟩,
    hD⟩

theorem analyzeClause_withCcminMode (s : SATModule E) (mode : Nat) (qs : List Lit) :
    ∀ acc, analyzeClause (s.withCcminMode mode) qs acc = analyzeClause s qs acc := by
  induction qs with
  | nil => intro acc; rfl
  | cons q qs ih =>
    intro acc
    obtain ⟨seen, pathC, out⟩ := acc
    simp only [analyzeClause]
    rw [ih, ih, ih]
    rfl

theorem analyzeLoop_withCcminMode (s : SATModule E) (mode : Nat) (fuel : Nat) :
    ∀ confl first n acc,
      analyzeLoop (s.withCcminMode mode) fuel confl first n acc
        = analyzeLoop s fuel confl first n acc := by
  induction fuel with
  | zero => intro confl first n acc; rfl
  | succ fuel ih =>
    intro confl first n acc
    cases confl with
    | none => rfl
    | some cr =>
      simp only [analyzeLoop]
      rw [analyzeClause_withCcminMode]
      have e1 : (s.withCcminMode mode).ca = s.ca := rfl
      have e2 : (s.withCcminMode mode).trail = s.trail := rfl
      have e3 : (s.withCcminMode mode).vardata = s.vardata := rfl
      rw [e1, e2, e3]
      simp only [ih]

theorem clear_covered (analyze_toclear : List Lit) :
    ∀ (seen : Var → Bool) (v : Nat),
      (analyze_toclear.foldl (fun sn l => Function.update sn l.var false) seen) v = true ↔
        seen v = true ∧ ∀ l ∈ analyze_toclear, l.var ≠ v := by
  induction analyze_toclear with
  | nil => intro seen v; simp
  | cons l ls ih =>
    intro seen v
    rw [List.foldl_cons, ih]
    by_cases hv : v = l.var
    · subst hv; simp
    · rw [Function.update_noteq hv]
      simp only [List.mem_cons, forall_eq_or_imp]
      constructor
      · rintro ⟨h1, h2⟩; exact ⟨h1, fun h => hv h.symm, h2⟩
      · rintro ⟨h1, -, h2⟩; exact ⟨h1, h2⟩

theorem litRedundantUndo_covered (top : Nat) (seen : Var → Bool) (toclear : List Lit)
    (h : Covered seen toclear) :
    Covered (litRedundantUndo top seen toclear).1 (litRedundantUndo top seen toclear).2 := by
  intro v hv
  unfold litRedundantUndo at hv ⊢
  dsimp only at hv ⊢
  obtain ⟨h1, h2⟩ := (clear_covered _ seen v).mp hv
  obtain ⟨l, hl, hlv⟩ := h v h1
  rw [← List.take_append_drop top toclear] at hl
  rcases List.mem_append.mp hl with hl | hl
  · exact ⟨l, hl, hlv⟩
  · exact absurd hlv (h2 l hl)

theorem litRedundantClause_covered (s : SATModule E) (al : Nat) (ps : List Lit) :
    ∀ (stack : List Lit) (seen : Var → Bool) (toclear : List Lit), Covered seen toclear →
      Covered (litRedundantClause s al ps (stack, seen, toclear)).2.2.1
        (litRedundantClause s al ps (stack, seen, toclear)).2.2.2 := by
  induction ps with
  | nil => intro stack seen toclear h; exact h
  | cons p ps ih =>
    intro stack seen toclear h
    rw [litRedundantClause]
    split
    · split
      · apply ih
        intro v hv
        by_cases hp : v = p.var
        · exact ⟨p, List.mem_append.mpr (Or.inr (List.mem_singleton.mpr rfl)), hp.symm⟩
        · rw [Function.update_noteq hp] at hv
          obtain ⟨l, hl, hlv⟩ := h v hv
          exact ⟨l, List.mem_append.mpr (Or.inl hl), hlv⟩
      · exact h
    · exact ih _ _ _ h

theorem litRedundantLoop_covered (s : SATModule E) (al top : Nat) (fuel : Nat) :
    ∀ (stack : List Lit) (seen : Var → Bool) (toclear : List Lit) (b : Bool)
      (seen' : Var → Bool) (toclear' : List Lit), Covered seen toclear →
      litRedundantLoop s al top fuel stack (seen, toclear) = some (b, seen', toclear') →
      Covered seen' toclear' := by
  induction fuel with
  | zero => intro stack seen toclear b seen' toclear' _ h; rw [litRedundantLoop] at h; cases h
  | succ fuel ih =>
    intro stack seen toclear b seen' toclear' hc h
    rw [litRedundantLoop] at h
    split at h
    · simp only [Option.some.injEq, Prod.mk.injEq] at h
      obtain ⟨-, rfl, rfl⟩ := h
      exact hc
    · split at h
      · cases h
      · rename_i cr hcr
        dsimp only at h
        have hcl := litRedundantClause_covered s al ((s.ca cr).lits.drop 1) stack.dropLast
          seen toclear hc
        split at h
        · exact ih _ _ _ _ _ _ hcl h
        · simp only [Option.some.injEq, Prod.mk.injEq] at h
          obtain ⟨-, h2⟩ := h
          have hu := litRedundantUndo_covered top _ _ hcl
          rw [h2] at hu
          exact hu

theorem minimizeDeep_covered (s : SATModule E) (al : Nat) (K : List Lit) :
    ∀ (seen : Var → Bool) (toclear kept : List Lit) (seen' : Var → Bool)
      (toclear' : List Lit), Covered seen toclear →
      minimizeDeep s al K (seen, toclear) = some (kept, seen', toclear') →
      Covered seen' toclear' := by
  induction K with
  | nil =>
    intro seen toclear kept seen' toclear' hc h
    rw [minimizeDeep] at h
    simp only [Option.some.injEq, Prod.mk.injEq] at h
    obtain ⟨-, rfl, rfl⟩ := h
    exact hc
  | cons q qs ih =>
    intro seen toclear kept seen' toclear' hc h
    rw [minimizeDeep] at h
    split at h
    · cases hm : minimizeDeep s al qs (seen, toclear) with
      | none => rw [hm] at h; cases h
      | some r =>
        obtain ⟨k, sn, tc⟩ := r
        rw [hm] at h
        simp only [Option.map_some', Option.some.injEq, Prod.mk.injEq] at h
        obtain ⟨-, rfl, rfl⟩ := h
        exact ih _ _ _ _ _ hc hm
    · split at h
      · cases h
      · rename_i acc1 hl
        obtain ⟨sn1, tc1⟩ := acc1
        have hc1 : Covered sn1 tc1 := by
          unfold litRedundant at hl
          exact litRedundantLoop_covered s al _ _ _ _ _ _ _ _ hc hl
        exact ih _ _ _ _ _ hc1 h
      · rename_i acc1 hl
        obtain ⟨sn1, tc1⟩ := acc1
        have hc1 : Covered sn1 tc1 := by
          unfold litRedundant at hl
          exact litRedundantLoop_covered s al _ _ _ _ _ _ _ _ hc hl
        cases hm : minimizeDeep s al qs (sn1, tc1) with
        | none => rw [hm] at h; cases h
        | some r =>
          obtain ⟨k, sn, tc⟩ := r
          rw [hm] at h
          simp only [Option.map_some', Option.some.injEq, Prod.mk.injEq] at h
          obtain ⟨-, rfl, rfl⟩ := h
          exact ih _ _ _ _ _ hc1 hm

theorem minimizeLearnt_covered (s : SATModule E) (seen : Var → Bool)
    (rest toclear kept : List Lit) (seen' : Var → Bool) (toclear' : List Lit)
    (hc : Covered seen toclear)
    (h : minimizeLearnt s seen rest toclear = some (kept, seen', toclear')) :
    Covered seen' toclear' := by
  unfold minimizeLearnt at h
  split at h
  · exact minimizeDeep_covered s _ rest _ _ _ _ _ hc h
  · split at h
    · simp only [Option.some.injEq, Prod.mk.injEq] at h
      obtain ⟨-, rfl, rfl⟩ := h
      exact hc
    · simp only [Option.some.injEq, Prod.mk.injEq] at h
      obtain ⟨-, rfl, rfl⟩ := h
      exact hc

theorem analyze_with_mode (s : SATModule E) (hW : WellFormed s) (hC : Coherent s)
    (hD : DecisionOK s) (hseen : ∀ v : Nat, s.seen v = false) (confl : CRef)
    (hassigned : ∀ l ∈ (s.ca confl).lits, s.value l ≠ .l_Undef)
    (hcur : ∃ l ∈ (s.ca confl).lits, (s.vardata l.var).level = s.decisionLevel)
    (hdl : 0 < s.decisionLevel) (mode : Nat) :
    ∃ p seen rest kept seen1 toclear1 K' bt,
      analyzeLoop s (s.trail.length + 1) (some confl) true s.trail.length (s.seen, 0, [])
        = some (p, seen, rest) ∧
      minimizeLearnt (s.withCcminMode mode) seen rest (p.neg :: rest)
        = some (kept, seen1, toclear1) ∧
      analyze (s.withCcminMode mode) confl
        = some (p.neg :: K', bt, (s.withCcminMode mode).clearSeen seen1 toclear1) ∧
      K'.Perm kept ∧ kept.Sublist rest ∧ Covered seen1 toclear1 := by
  obtain ⟨tW, tC, tD⟩ := withCcminMode_invariants s mode hW hC hD
  obtain ⟨p, seen, rest, kept, seen1, toclear1, K', s', hloop, hmin, -, hbt, -, hperm, hsub,
    -, -, -, -, -, hcov, -, -, -⟩ :=
    analyze_spec (s.withCcminMode mode) tW tC tD hseen confl hassigned hcur hdl
  have hloop' : analyzeLoop s (s.trail.length + 1) (some confl) true s.trail.length
      (s.seen, 0, []) = some (p, seen, rest) := by
    rw [← analyzeLoop_withCcminMode s mode]
    exact hloop
  have hcov1 : Covered seen1 toclear1 := by
    refine minimizeLearnt_covered _ seen rest (p.neg :: rest) kept seen1 toclear1 ?_ hmin
    intro v hv
    obtain ⟨q, hq, hqv⟩ := hcov v hv
    exact ⟨q, List.mem_cons_of_mem _ hq, hqv⟩
  refine ⟨p, seen, rest, kept, seen1, toclear1, K',
    (backtrackLevel (s.withCcminMode mode) (p.neg :: kept)).2, hloop', hmin, ?_, hperm, hsub,
    hcov1⟩
  unfold analyze
  rw [hloop]
  dsimp only
  rw [hmin]
  dsimp only
  rw [hbt]

/-- The modes of the minimisation, in a state with the invariants and no variable marked as
seen, for a clause whose literals are assigned, one of them of the current decision level above
`0`: `analyze` returns with every value of `ccmin_mode`; the literals of the clause it returns are
among those of the clause it returns with mode `0`, the two clauses have the same first literal,
and at the return no variable is marked as seen. -/
theorem analyze_modes (s : SATModule E) (hW : WellFormed s) (hC : Coherent s)
    (hD : DecisionOK s) (hseen : ∀ v : Nat, s.seen v = false) (confl : CRef)
    (hassigned : ∀ l ∈ (s.ca confl).lits, s.value l ≠ .l_Undef)
    (hcur : ∃ l ∈ (s.ca confl).lits, (s.vardata l.var).level = s.decisionLevel)
    (hdl : 0 < s.decisionLevel) (mode : Nat) :
    ∃ out0 bt0 s0 out bt s',
      analyze (s.withCcminMode 0) confl = some (out0, bt0, s0) ∧
      analyze (s.withCcminMode mode) confl = some (out, bt, s') ∧
      (∀ l ∈ out, l ∈ out0) ∧ out.head? = out0.head? ∧
      (∀ v : Nat, s0.seen v = false) ∧ (∀ v : Nat, s'.seen v = false) := by
  obtain ⟨p0, seen0, rest0, kept0, seen10, toclear10, K0, bt0, hloop0, hmin0, ha0, hperm0, -,
    hcov0⟩ := analyze_with_mode s hW hC hD hseen confl hassigned hcur hdl 0
  obtain ⟨p, seen, rest, kept, seen1, toclear1, K', bt, hloop, hmin, ha, hperm, hsub, hcov⟩ :=
    analyze_with_mode s hW hC hD hseen confl hassigned hcur hdl mode
  rw [hloop0] at hloop
  simp only [Option.some.injEq, Prod.mk.injEq] at hloop
  obtain ⟨rfl, rfl, rfl⟩ := hloop
  have hk0 : kept0 = rest0 := by
    unfold minimizeLearnt at hmin0
    have e : (s.withCcminMode 0).ccmin_mode = 0 := rfl
    rw [e, if_neg (by decide), if_neg (by decide)] at hmin0
    simp only [Option.some.injEq, Prod.mk.injEq] at hmin0
    exact hmin0.1.symm
  have hclear : ∀ (t : SATModule E) (sn : Var → Bool) (tc : List Lit), Covered sn tc →
      ∀ v : Nat, (t.clearSeen sn tc).seen v = false := by
    intro t sn tc hc v
    cases hv : (t.clearSeen sn tc).seen v with
    | false => rfl
    | true =>
      have hv' : (tc.foldl (fun sn l => Function.update sn l.var false) sn) v = true := hv
      obtain ⟨h1, h2⟩ := (clear_covered tc sn v).mp hv'
      obtain ⟨l, hl, hlv⟩ := hc v h1
      exact absurd hlv (h2 l hl)
  refine ⟨_, _, _, _, _, _, ha0, ha, ?_, rfl, hclear _ _ _ hcov0, hclear _ _ _ hcov⟩
  intro l hl
  rcases List.mem_cons.mp hl with h | h
  · exact List.mem_cons.mpr (Or.inl h)
  · refine List.mem_cons_of_mem _ ?_
    rw [hperm0.mem_iff, hk0]
    exact hsub.subset (hperm.mem_iff.mp h)


/-! ## The invariant of the reachable states -/

/-- The invariant only reads the clauses, the watch lists, the variables with their assignment,
reasons and levels, the marks, the trail with `qhead`, the order heap, the assumptions and the
final conflict. -/
theorem StableTo_congr {s t : SATModule E} {n : Nat} (h : StableTo n s)
    (hca : t.ca = s.ca) (hcaSize : t.caSize = s.caSize) (hclauses : t.clauses = s.clauses)
    (hlearnts : t.learnts = s.learnts) (hwatches : t.watches = s.watches)
    (hnVars : t.nVars = s.nVars) (hassigns : t.assigns = s.assigns)
    (hvardata : t.vardata = s.vardata) (hseen : t.seen = s.seen)
    (hdecision : t.decision = s.decision) (htrail : t.trail = s.trail)
    (htrail_lim : t.trail_lim = s.trail_lim) (hqhead : t.qhead = s.qhead)
    (hheap : t.order_heap = s.order_heap) (hass : t.assumptions = s.assumptions)
    (hconf : t.conflict = s.conflict) : StableTo n t := by
  cases s
  cases t
  simp only at hca hcaSize hclauses hlearnts hwatches hnVars hassigns hvardata
  simp only at hseen hdecision htrail htrail_lim hqhead hheap hass hconf
  subst hca hcaSize hclauses hlearnts hwatches hnVars hassigns hvardata
  subst hseen hdecision htrail htrail_lim hqhead hheap hass hconf
  exact ⟨⟨h.wellFormed.qhead_le, ⟨h.wellFormed.inRange.trail_range,
      h.wellFormed.inRange.clause_range⟩, h.wellFormed.watched_size⟩,
    ⟨⟨h.coherent.trailOK.trail_true, h.coherent.trailOK.assigned, h.coherent.trailOK.nodup⟩,
      ⟨h.coherent.watchOK.lits_nodup, h.coherent.watchOK.watch_lit,
        h.coherent.watchOK.blocker_mem, h.coherent.watchOK.watch_nodup,
        h.coherent.watchOK.attached⟩,
      h.coherent.reasonOK,
      ⟨h.coherent.levelOK.lim_sorted, h.coherent.levelOK.lim_le, h.coherent.levelOK.level_eq⟩,
      h.coherent.queueLevel⟩,
    h.allocOK, h.propagated, h.seen_clear, h.decisionOK, h.lim_strict, h.level_start, h.heapOK,
    h.decision_range, h.stored_nodup, h.no_assumptions, h.no_conflict⟩
theorem Propagated_le (s : SATModule E) {m n : Nat} (hmn : m ≤ n) (h : Propagated s n) :
    Propagated s m :=
  fun i q hi hq w hw => h i q (by omega) hq w hw

/-- At the top of the loop of `search` no decision level starts behind `qhead`. -/
theorem lim_le_qhead (s : SATModule E) (hL : LevelOK s) (hQ : QueueLevel s)
    (hst : ∀ d ∈ s.trail_lim, d < s.trail.length) : ∀ d ∈ s.trail_lim, d ≤ s.qhead := by
  intro d hd
  by_contra hlt
  have hq : s.qhead < s.trail.length := by have := hst d hd; omega
  have hi : s.trail[s.qhead]? = some (s.trail.getD s.qhead ⟨0, false⟩) :=
    getElem?_of_getD _ _ hq
  have h1 := hQ s.qhead _ (Nat.le_refl _) hi
  have h2 := hL.level_eq s.qhead _ hi
  rw [h1] at h2
  have := levelAt_eq_length s.trail_lim s.qhead h2.symm d hd
  omega

theorem propagate_stable (fuel : Nat) (s s' : SATModule E) (confl : Option CRef)
    (hS : Stable s) (hp : propagate fuel s = some (confl, s')) :
    s'.qhead = s'.trail.length ∧
    (confl = none → Stable s') ∧
    (∀ cr, confl = some cr →
      (∃ n, (∀ d ∈ s'.trail_lim, d ≤ n) ∧ StableTo n s') ∧
      (∀ l ∈ (s'.ca cr).lits, s'.value l = .l_False) ∧
      ∃ l ∈ (s'.ca cr).lits, (s'.vardata l.var).level = s'.decisionLevel) := by
  have hq := propagate_qhead fuel s s' confl hS.wellFormed.qhead_le hp
  have hW := propagate_wellFormed fuel s s' confl hS.wellFormed hp
  have hF := propagate_frame fuel s s' confl hp
  have hA := propagate_allocOK fuel s s' confl hS.allocOK hp
  obtain ⟨hC, hR, hcase, -⟩ := propagate_inv True fuel s s' confl hS.coherent
    hS.wellFormed.qhead_le (fun _ => hS.propagated) hp
  obtain ⟨new, hnew⟩ := hF.trail_ext
  have hlen : s.trail.length ≤ s'.trail.length := by rw [hnew, List.length_append]; omega
  have hrest : ∀ n, Propagated s' n → StableTo n s' := by
    intro n hP
    refine ⟨hW, hC, hA, hP, ?_, ?_, ?_, ?_, ?_, ?_, ?_, ?_, ?_⟩
    · intro v; rw [hF.seen_eq]; exact hS.seen_clear v
    · intro i hi hr hl
      rw [hF.trail_lim_eq]
      by_cases hlt : i < s.trail.length
      · have hget : s'.trail.getD i ⟨0, false⟩ = s.trail.getD i ⟨0, false⟩ := by
          rw [hnew, List.getD_append _ _ _ _ hlt]
        rw [hget] at hr hl
        have hmem : s.trail.getD i ⟨0, false⟩ ∈ s.trail :=
          List.getElem?_mem (getElem?_of_getD _ i hlt)
        have hassigned : s.assigns (s.trail.getD i ⟨0, false⟩).var ≠ .l_Undef := by
          intro hu
          have := hS.coherent.trailOK.trail_true _ hmem
          rw [(value_undef s _).mpr hu] at this
          exact lbool.noConfusion this
        rw [hF.vardata_kept _ hassigned] at hr hl
        exact hS.decisionOK i hlt hr hl
      · obtain ⟨cr, hcr, -⟩ := hR i _ (by omega) (getElem?_of_getD _ i hi)
        rw [hcr] at hr
        exact Option.noConfusion hr
    · rw [hF.trail_lim_eq]; exact hS.lim_strict
    · intro d hd
      rw [hF.trail_lim_eq] at hd
      have := hS.level_start d hd
      omega
    · intro v hv hd hu
      rw [hF.order_heap_eq]
      rw [hF.nVars_eq] at hv
      rw [hF.decision_eq] at hd
      apply hS.heapOK v hv hd
      by_contra hne
      rw [hF.assigns_kept v hne] at hu
      exact hne hu
    · intro v hv
      rw [hF.decision_eq] at hv
      rw [hF.nVars_eq]
      exact hS.decision_range v hv
    · rw [hF.clauses_eq, hF.learnts_eq]; exact hS.stored_nodup
    · rw [hF.assumptions_eq]; exact hS.no_assumptions
    · rw [hF.conflict_eq]; exact hS.no_conflict
  refine ⟨hq, ?_, ?_⟩
  · intro hn
    rcases hcase with ⟨-, hP⟩ | ⟨cr, hc, -⟩
    · unfold Stable
      rw [hq]
      exact hrest _ (hP trivial)
    · rw [hn] at hc; cases hc
  · intro cr hcr
    rcases hcase with ⟨hn, -⟩ | ⟨cr', hc, ⟨hall, hcur⟩, n, hn, hP⟩
    · rw [hn] at hcr; cases hcr
    · rw [hc] at hcr
      cases hcr
      refine ⟨⟨n, ?_, hrest n (hP trivial)⟩, hall, hcur⟩
      intro d hd
      rw [hF.trail_lim_eq] at hd
      have := lim_le_qhead s hS.coherent.levelOK hS.coherent.queueLevel hS.level_start d hd
      omega

/-! ## Backtracking keeps the invariant -/

/-- What the loop of `cancelUntil` leaves as it is. -/
theorem cancelStep_fields (s : SATModule E) (c : Nat) (l : Lit) :
    (s.cancelStep c l).ca = s.ca ∧ (s.cancelStep c l).caSize = s.caSize ∧
    (s.cancelStep c l).clauses = s.clauses ∧ (s.cancelStep c l).learnts = s.learnts ∧
    (s.cancelStep c l).watches = s.watches ∧ (s.cancelStep c l).nVars = s.nVars ∧
    (s.cancelStep c l).vardata = s.vardata ∧ (s.cancelStep c l).seen = s.seen ∧
    (s.cancelStep c l).decision = s.decision ∧
    (s.cancelStep c l).assumptions = s.assumptions ∧
    (s.cancelStep c l).conflict = s.conflict ∧ (s.cancelStep c l).ok = s.ok ∧
    (s.cancelStep c l).trail = s.trail ∧ (s.cancelStep c l).trail_lim = s.trail_lim ∧
    (∀ v ∈ s.order_heap, v ∈ (s.cancelStep c l).order_heap) ∧
    (s.decision l.var = true → l.var ∈ (s.cancelStep c l).order_heap) := by
  unfold cancelStep insertVarOrder
  dsimp only
  split
  · rename_i h
    refine ⟨rfl, rfl, rfl, rfl, rfl, rfl, rfl, rfl, rfl, rfl, rfl, rfl, rfl, rfl, ?_, ?_⟩
    · intro v hv
      exact List.mem_append_left _ hv
    · intro _
      exact List.mem_append_right _ (List.mem_singleton_self _)
  · rename_i h
    refine ⟨rfl, rfl, rfl, rfl, rfl, rfl, rfl, rfl, rfl, rfl, rfl, rfl, rfl, rfl, ?_, ?_⟩
    · intro v hv
      exact hv
    · intro hd
      by_contra hn
      exact h ⟨hn, hd⟩

theorem cancelLoop_fields (s : SATModule E) (ls : List Lit) :
    ∀ c : Nat,
    (cancelLoop s c ls).ca = s.ca ∧ (cancelLoop s c ls).caSize = s.caSize ∧
    (cancelLoop s c ls).clauses = s.clauses ∧ (cancelLoop s c ls).learnts = s.learnts ∧
    (cancelLoop s c ls).watches = s.watches ∧ (cancelLoop s c ls).nVars = s.nVars ∧
    (cancelLoop s c ls).vardata = s.vardata ∧ (cancelLoop s c ls).seen = s.seen ∧
    (cancelLoop s c ls).decision = s.decision ∧
    (cancelLoop s c ls).assumptions = s.assumptions ∧
    (cancelLoop s c ls).conflict = s.conflict ∧ (cancelLoop s c ls).ok = s.ok ∧
    (cancelLoop s c ls).trail = s.trail ∧ (cancelLoop s c ls).trail_lim = s.trail_lim ∧
    (∀ v ∈ s.order_heap, v ∈ (cancelLoop s c ls).order_heap) ∧
    (∀ l ∈ ls, s.decision l.var = true → l.var ∈ (cancelLoop s c ls).order_heap) := by
  induction ls with
  | nil =>
    intro c
    refine ⟨rfl, rfl, rfl, rfl, rfl, rfl, rfl, rfl, rfl, rfl, rfl, rfl, rfl, rfl, fun _ h => h, ?_⟩
    intro l hl; simp at hl
  | cons l ls ih =>
    intro c
    obtain ⟨a1, a2, a3, a4, a5, a6, a7, a8, a9, a10, a11, a12, a13, a14, a15, a16⟩ := ih (c + 1)
    obtain ⟨b1, b2, b3, b4, b5, b6, b7, b8, b9, b10, b11, b12, b13, b14, b15, b16⟩ :=
      cancelStep_fields (cancelLoop s (c + 1) ls) c l
    show ((cancelLoop s (c + 1) ls).cancelStep c l).ca = s.ca ∧ _
    refine ⟨b1.trans a1, b2.trans a2, b3.trans a3, b4.trans a4, b5.trans a5, b6.trans a6,
      b7.trans a7, b8.trans a8, b9.trans a9, b10.trans a10, b11.trans a11, b12.trans a12,
      b13.trans a13, b14.trans a14, fun v hv => b15 v (a15 v hv), ?_⟩
    intro l' hl' hd
    rcases List.mem_cons.mp hl' with rfl | hl'
    · exact b16 (by rw [a9]; exact hd)
    · exact b15 _ (a16 l' hl' hd)

/-- The members of the state after `cancelUntil( level )` below the current decision level. -/
theorem cancelUntil_fields (s : SATModule E) (L : Nat) (hL : L < s.decisionLevel) :
    (s.cancelUntil L).ca = s.ca ∧ (s.cancelUntil L).caSize = s.caSize ∧
    (s.cancelUntil L).clauses = s.clauses ∧ (s.cancelUntil L).learnts = s.learnts ∧
    (s.cancelUntil L).watches = s.watches ∧ (s.cancelUntil L).nVars = s.nVars ∧
    (s.cancelUntil L).vardata = s.vardata ∧ (s.cancelUntil L).seen = s.seen ∧
    (s.cancelUntil L).decision = s.decision ∧
    (s.cancelUntil L).assumptions = s.assumptions ∧
    (s.cancelUntil L).conflict = s.conflict ∧ (s.cancelUntil L).ok = s.ok ∧
    (s.cancelUntil L).trail = s.trail.take (s.trail_lim.getD L 0) ∧
    (s.cancelUntil L).trail_lim = s.trail_lim.take L ∧
    (s.cancelUntil L).qhead = s.trail_lim.getD L 0 ∧
    (∀ v ∈ s.order_heap, v ∈ (s.cancelUntil L).order_heap) ∧
    (∀ l ∈ s.trail.drop (s.trail_lim.getD L 0), s.decision l.var = true →
      l.var ∈ (s.cancelUntil L).order_heap) := by
  have hdl : s.decisionLevel > L := hL
  obtain ⟨a1, a2, a3, a4, a5, a6, a7, a8, a9, a10, a11, a12, -, -, a15, a16⟩ :=
    cancelLoop_fields s (s.trail.drop (s.trail_lim.getD L 0)) (s.trail_lim.getD L 0)
  unfold cancelUntil
  rw [if_pos hdl]
  exact ⟨a1, a2, a3, a4, a5, a6, a7, a8, a9, a10, a11, a12, rfl, rfl, rfl, a15, a16⟩
theorem lim_drop_ge (lim : List Nat) (hs : lim.Pairwise (fun a b => a ≤ b)) (L : Nat)
    (hL : L < lim.length) : ∀ x ∈ lim.drop L, lim.getD L 0 ≤ x := by
  intro x hx
  obtain ⟨k, hk⟩ := List.getElem?_of_mem hx
  rw [List.getElem?_drop] at hk
  obtain ⟨hk1, hk2⟩ := List.getElem?_eq_some.mp hk
  rw [List.getD_eq_getElem _ _ hL, ← hk2]
  by_cases h0 : k = 0
  · subst h0
    exact Nat.le_refl _
  · exact List.pairwise_iff_getElem.mp hs L (L + k) hL hk1 (by omega)

theorem levelAt_take (lim : List Nat) (hs : lim.Pairwise (fun a b => a ≤ b)) (L i : Nat)
    (hL : L < lim.length) (hi : i < lim.getD L 0) : levelAt (lim.take L) i = levelAt lim i := by
  unfold levelAt
  conv_rhs => rw [← List.take_append_drop L lim, List.filter_append]
  have : (lim.drop L).filter (fun d => decide (d ≤ i)) = [] := by
    apply List.filter_eq_nil_iff.mpr
    intro x hx
    have := lim_drop_ge lim hs L hL x hx
    simp only [decide_eq_true_eq]
    omega
  rw [this, List.append_nil]

theorem levelAt_le_of_lt (lim : List Nat) (hs : lim.Pairwise (fun a b => a ≤ b)) (L i : Nat)
    (hL : L < lim.length) (hi : i < lim.getD L 0) : levelAt lim i ≤ L := by
  rw [← levelAt_take lim hs L i hL hi]
  have := levelAt_le (lim.take L) i
  rw [List.length_take] at this
  omega

theorem mem_take_of_lt (lim : List Nat) (hs : lim.Pairwise (fun a b => a ≤ b)) (L d : Nat)
    (hL : L < lim.length) (hd : d ∈ lim) (hlt : d < lim.getD L 0) : d ∈ lim.take L := by
  rw [← List.take_append_drop L lim] at hd
  rcases List.mem_append.mp hd with h | h
  · exact h
  · have := lim_drop_ge lim hs L hL d h
    omega

theorem take_lt_of_strict (lim : List Nat) (hs : lim.Pairwise (fun a b => a < b)) (L : Nat)
    (hL : L < lim.length) : ∀ d ∈ lim.take L, d < lim.getD L 0 := by
  intro d hd
  obtain ⟨k, hk⟩ := List.getElem?_of_mem hd
  rw [List.getElem?_take] at hk
  split at hk
  swap
  · cases hk
  rename_i hkL
  obtain ⟨hk1, hk2⟩ := List.getElem?_eq_some.mp hk
  rw [List.getD_eq_getElem _ _ hL, ← hk2]
  exact List.pairwise_iff_getElem.mp hs k L hk1 hL hkL

theorem pairwise_le_of_lt (lim : List Nat) (hs : lim.Pairwise (fun a b => a < b)) :
    lim.Pairwise (fun a b => a ≤ b) :=
  hs.imp (fun h => Nat.le_of_lt h)
/-- Backtracking keeps the invariant: after `cancelUntil( level )` below the current decision
level, in a state whose two watched literals are propagated at least up to the start of the
level `level + 1`, the invariant holds with `qhead` at the end of the trail. -/
theorem cancelUntil_stable (s : SATModule E) (L n : Nat) (hS : StableTo n s)
    (hL : L < s.decisionLevel) (hn : s.trail_lim.getD L 0 ≤ n) :
    Stable (s.cancelUntil L) ∧ (s.cancelUntil L).qhead = (s.cancelUntil L).trail.length ∧
      (s.cancelUntil L).decisionLevel = L ∧
      (s.cancelUntil L).trail = s.trail.take (s.trail_lim.getD L 0) ∧
      (∀ l : Lit, l.var ∉ (s.trail.drop (s.trail_lim.getD L 0)).map Lit.var →
        (s.cancelUntil L).value l = s.value l) ∧
      (∀ l ∈ s.trail.drop (s.trail_lim.getD L 0), (s.cancelUntil L).value l = .l_Undef) := by
  obtain ⟨f1, f2, f3, f4, f5, f6, f7, f8, f9, f10, f11, f12, f13, f14, f15, f16, f17⟩ :=
    cancelUntil_fields s L hL
  have fa := cancelUntil_assigns s L hL
  generalize hlim : s.trail_lim.getD L 0 = lim at *
  generalize ht : s.cancelUntil L = t at *
  have hLlen : L < s.trail_lim.length := hL
  have hsorted := hS.coherent.levelOK.lim_sorted
  have hlimmem : lim ∈ s.trail_lim := by
    rw [← hlim, List.getD_eq_getElem _ _ hLlen]
    exact List.getElem_mem _
  have hlimle : lim ≤ s.trail.length := hS.coherent.levelOK.lim_le lim hlimmem
  have htlen : t.trail.length = lim := by
    rw [f13, List.length_take]; omega
  have hget : ∀ (i : Nat) (l : Lit), t.trail[i]? = some l → i < lim ∧ s.trail[i]? = some l := by
    intro i l hi
    rw [f13, List.getElem?_take] at hi
    split at hi
    · rename_i h; exact ⟨h, hi⟩
    · cases hi
  have hnodup := hS.coherent.trailOK.nodup
  have hdisj : ∀ l ∈ s.trail.take lim, l.var ∉ (s.trail.drop lim).map Lit.var := by
    intro l hl hin
    have hnd : ((s.trail.take lim).map Lit.var ++ (s.trail.drop lim).map Lit.var).Nodup := by
      rw [← List.map_append, List.take_append_drop]
      exact hnodup
    exact (List.nodup_append.mp hnd).2.2 (List.mem_map_of_mem _ hl) hin
  have hval : ∀ l : Lit, l.var ∉ (s.trail.drop lim).map Lit.var → t.value l = s.value l := by
    intro l hl
    simp only [value]
    rw [fa, if_neg hl]
  have hlow : ∀ l : Lit, s.value l = .l_True → (s.vardata l.var).level ≤ L →
      l ∈ s.trail.take lim := by
    intro l hl hlev
    obtain ⟨j, hj⟩ := List.getElem?_of_mem (mem_trail_of_true s hS.coherent.trailOK l hl)
    have h1 := hS.coherent.levelOK.level_eq j l hj
    have hjlt := levelAt_lt_lim s.trail_lim hsorted L j hLlen (by rw [← h1]; exact hlev)
    rw [hlim] at hjlt
    apply List.mem_iff_getElem?.mpr
    refine ⟨j, ?_⟩
    rw [List.getElem?_take, if_pos hjlt]
    exact hj
  have hstable : StableTo lim t := by
    refine ⟨⟨?_, ⟨?_, ?_⟩, ?_⟩, ⟨⟨?_, ?_, ?_⟩, ⟨?_, ?_, ?_, ?_, ?_⟩, ?_, ⟨?_, ?_, ?_⟩, ?_⟩,
      ?_, ?_, ?_, ?_, ?_, ?_, ?_, ?_, ?_, ?_, ?_⟩
    · rw [f15, htlen]
    · intro l hl
      rw [f13] at hl
      rw [f6]
      exact hS.wellFormed.inRange.trail_range l (List.mem_of_mem_take hl)
    · intro cr l hl
      rw [f1] at hl
      rw [f6]
      exact hS.wellFormed.inRange.clause_range cr l hl
    · intro p w hw
      rw [f5] at hw
      rw [f1]
      exact hS.wellFormed.watched_size p w hw
    · intro l hl
      rw [f13] at hl
      rw [hval l (hdisj l hl)]
      exact hS.coherent.trailOK.trail_true l (List.mem_of_mem_take hl)
    · intro v hv
      rw [fa] at hv
      split at hv
      · exact absurd rfl hv
      · rename_i hnot
        have := hS.coherent.trailOK.assigned v hv
        rw [← List.take_append_drop lim s.trail, List.map_append, List.mem_append] at this
        rcases this with h | h
        · rw [f13]; exact h
        · exact absurd h hnot
    · rw [f13]
      exact (List.Sublist.map _ (List.take_sublist _ _)).nodup hnodup
    · intro cr; rw [f1]; exact hS.coherent.watchOK.lits_nodup cr
    · intro q w hw
      rw [f5] at hw
      rw [f1]
      exact hS.coherent.watchOK.watch_lit q w hw
    · intro q w hw
      rw [f5] at hw
      rw [f1]
      exact hS.coherent.watchOK.blocker_mem q w hw
    · intro q; rw [f5]; exact hS.coherent.watchOK.watch_nodup q
    · intro cr hcr
      rw [f3, f4] at hcr
      rw [f1, f5]
      exact hS.coherent.watchOK.attached cr hcr
    · intro i l cr hi hr
      obtain ⟨hilt, hi'⟩ := hget i l hi
      rw [f7] at hr
      obtain ⟨a, b, c⟩ := hS.coherent.reasonOK i l cr hi' hr
      rw [f1]
      refine ⟨a, b, ?_⟩
      intro l' hl'
      rw [f13, List.take_take, Nat.min_eq_left (Nat.le_of_lt hilt)]
      exact c l' hl'
    · rw [f14]
      exact List.Pairwise.sublist (List.take_sublist _ _) hsorted
    · intro d hd
      rw [f14] at hd
      rw [htlen]
      have := take_lt_of_strict s.trail_lim hS.lim_strict L hLlen d hd
      omega
    · intro i l hi
      obtain ⟨hilt, hi'⟩ := hget i l hi
      rw [f7, f14, levelAt_take s.trail_lim hsorted L i hLlen (by rw [hlim]; exact hilt)]
      exact hS.coherent.levelOK.level_eq i l hi'
    · intro i l hi hl
      obtain ⟨hilt, -⟩ := hget i l hl
      rw [f15] at hi
      omega
    · intro cr hcr
      rw [f2] at hcr
      rw [f1]
      exact hS.allocOK cr hcr
    · intro i q hi hq w hw
      obtain ⟨-, hq'⟩ := hget i q hq
      rw [f5] at hw
      obtain ⟨l, hl1, hl2, hl3⟩ := hS.propagated i q (by omega) hq' w hw
      have hqlev : (s.vardata q.var).level ≤ L := by
        rw [hS.coherent.levelOK.level_eq i q hq']
        exact levelAt_le_of_lt s.trail_lim hsorted L i hLlen (by rw [hlim]; exact hi)
      have hmem := hlow l hl2 (by omega)
      refine ⟨l, by rw [f1]; exact hl1, ?_, by rw [f7]; exact hl3⟩
      rw [hval l (hdisj l hmem)]
      exact hl2
    · intro v; rw [f8]; exact hS.seen_clear v
    · intro i hi hr hl
      rw [htlen] at hi
      have hgd : t.trail.getD i ⟨0, false⟩ = s.trail.getD i ⟨0, false⟩ := by
        rw [f13, List.getD_eq_getElem?_getD, List.getD_eq_getElem?_getD, List.getElem?_take,
          if_pos hi]
      rw [hgd, f7] at hr hl
      have := hS.decisionOK i (by omega) hr hl
      rw [f14]
      exact mem_take_of_lt s.trail_lim hsorted L i hLlen this (by rw [hlim]; exact hi)
    · rw [f14]
      exact List.Pairwise.sublist (List.take_sublist _ _) hS.lim_strict
    · intro d hd
      rw [f14] at hd
      rw [htlen]
      have := take_lt_of_strict s.trail_lim hS.lim_strict L hLlen d hd
      omega
    · intro v hv hd hu
      rw [f6] at hv
      rw [f9] at hd
      rw [fa] at hu
      split at hu
      · rename_i hin
        obtain ⟨l, hl, hlv⟩ := List.mem_map.mp hin
        have := f17 l hl (by rw [hlv]; exact hd)
        rw [hlv] at this
        exact this
      · exact f16 v (hS.heapOK v hv hd hu)
    · intro v hv
      rw [f9] at hv
      rw [f6]
      exact hS.decision_range v hv
    · rw [f3, f4]; exact hS.stored_nodup
    · rw [f10]; exact hS.no_assumptions
    · rw [f11]; exact hS.no_conflict
  refine ⟨?_, by rw [f15, htlen], ?_, f13, hval, ?_⟩
  · unfold Stable
    rw [f15]
    exact hstable
  · simp only [decisionLevel, f14, List.length_take]
    omega
  · intro l hl
    simp only [value]
    rw [fa, if_pos (List.mem_map_of_mem _ hl)]
    rfl

/-! ## The branch for a conflict keeps the invariant -/

theorem clearSeen_covered (t : SATModule E) (sn : Var → Bool) (tc : List Lit)
    (hc : Covered sn tc) : ∀ v : Nat, (t.clearSeen sn tc).seen v = false := by
  intro v
  cases hv : (t.clearSeen sn tc).seen v with
  | false => rfl
  | true =>
    have hv' : (tc.foldl (fun sn l => Function.update sn l.var false) sn) v = true := hv
    obtain ⟨h1, h2⟩ := (clear_covered tc sn v).mp hv'
    obtain ⟨l, hl, hlv⟩ := hc v h1
    exact absurd hlv (h2 l hl)

/-- The result of `analyze` in a state with the invariant, for a clause whose literals are
assigned, one of them of the current decision level, which is above `0`: the method returns and
leaves the invariant as it is (no variable is marked as seen at the return); the first literal of
the clause it makes is the complement of a literal of the trail of the current level; the other
literals are literals of assigned variables of levels from `1` to `out_btlevel`, which is below
the current level and is the level of `out_learnt[1]`; no two literals have the same variable. -/
theorem analyze_stable (s : SATModule E) (n : Nat) (hS : StableTo n s) (confl : CRef)
    (hassigned : ∀ l ∈ (s.ca confl).lits, s.value l ≠ .l_Undef)
    (hcur : ∃ l ∈ (s.ca confl).lits, (s.vardata l.var).level = s.decisionLevel)
    (hdl : 0 < s.decisionLevel) :
    ∃ p K bt s', analyze s confl = some (p.neg :: K, bt, s') ∧ StableTo n s' ∧
      (s'.assigns = s.assigns ∧ s'.trail = s.trail ∧ s'.trail_lim = s.trail_lim ∧
        s'.vardata = s.vardata ∧ s'.ca = s.ca ∧ s'.ok = s.ok ∧ s'.nVars = s.nVars ∧
        s'.decision = s.decision ∧ s'.caSize = s.caSize) ∧
      p ∈ s.trail ∧ (s.vardata p.var).level = s.decisionLevel ∧
      (∀ q ∈ K, q.var ∈ s.trail.map Lit.var ∧ 0 < (s.vardata q.var).level ∧
        (s.vardata q.var).level ≤ bt) ∧
      ((p.neg :: K).map Lit.var).Nodup ∧ bt < s.decisionLevel ∧
      (K = [] → bt = 0) ∧ (∀ y r, K = y :: r → (s.vardata y.var).level = bt) := by
  obtain ⟨p, seen, rest, kept, seen1, toclear1, K', s', hloop, hmin, han, hbk,
    ⟨e1, e2, e3, e4, e5⟩, hperm, hsub, hp1, hp2, hp3, hrest, hnd, hcov, -, -, -⟩ :=
    analyze_spec s hS.wellFormed hS.coherent hS.decisionOK hS.seen_clear confl hassigned hcur hdl
  obtain ⟨K2, b1, -, b3, b4⟩ := backtrackLevel_spec s p.neg kept
  have hs' : s' = s.clearSeen seen1 toclear1 := by
    unfold analyze at han
    rw [hloop] at han
    dsimp only at han
    rw [hmin] at han
    simp only [Option.some.injEq, Prod.mk.injEq] at han
    exact han.2.2.symm
  have hcov1 : Covered seen1 toclear1 := by
    refine minimizeLearnt_covered s seen rest (p.neg :: rest) kept seen1 toclear1 ?_ hmin
    intro v hv
    obtain ⟨q, hq, hqv⟩ := hcov v hv
    exact ⟨q, List.mem_cons_of_mem _ hq, hqv⟩
  have hseen' : s'.seen = s.seen := by
    funext v
    rw [hs', clearSeen_covered s seen1 toclear1 hcov1 v, hS.seen_clear v]
  have hK'rest : ∀ l ∈ K', l ∈ rest := fun l hl => hsub.subset (hperm.mem_iff.mp hl)
  have hbt : (backtrackLevel s (p.neg :: kept)).2 < s.decisionLevel := by
    by_cases hK : kept = []
    · rw [b3 hK]; omega
    · obtain ⟨c1, c2⟩ := b4 hK
      rw [c1, hbk]
      have hmem : (p.neg :: K').getD 1 ⟨0, false⟩ ∈ K' := by
        cases K' with
        | nil => exact absurd hperm.symm.eq_nil hK
        | cons y r => simp
      exact (hrest _ (hK'rest _ hmem)).2.2.1
  refine ⟨p, K', _, s', han, ?_, ⟨e1, e2, e3, e4, e5, by rw [hs']; rfl, by rw [hs']; rfl,
    by rw [hs']; rfl, by rw [hs']; rfl⟩, hp1, hp2, ?_, ?_, hbt, ?_, ?_⟩
  · apply StableTo_congr hS e5 (by rw [hs']; rfl) (by rw [hs']; rfl) (by rw [hs']; rfl)
      (by rw [hs']; rfl) (by rw [hs']; rfl) e1 e4 hseen' (by rw [hs']; rfl) e2 e3
      (by rw [hs']; rfl) (by rw [hs']; rfl) (by rw [hs']; rfl) (by rw [hs']; rfl)
  · intro q hq
    obtain ⟨a, b, c, d⟩ := hrest q (hK'rest q hq)
    refine ⟨a, b, ?_⟩
    have hK : kept ≠ [] := by
      intro he
      rw [he] at hperm
      rw [hperm.eq_nil] at hq
      simp at hq
    exact (b4 hK).2 q (hperm.mem_iff.mp hq)
  · rw [List.map_cons, List.nodup_cons]
    constructor
    · intro hin
      obtain ⟨q, hq, hqv⟩ := List.mem_map.mp hin
      have := (hrest q (hK'rest q hq)).2.2.2
      rw [hqv] at this
      have hpv : p.neg.var = p.var := rfl
      rw [hpv, hp3] at this
      exact Bool.noConfusion this
    · exact (List.Perm.map _ hperm).nodup_iff.mpr ((List.Sublist.map _ hsub).nodup hnd)
  · intro hK
    rw [hK] at hperm
    exact b3 hperm.symm.eq_nil
  · intro y r hK
    have hkept : kept ≠ [] := by
      intro he
      rw [he] at hperm
      rw [hperm.eq_nil] at hK
      cases hK
    obtain ⟨c1, -⟩ := b4 hkept
    rw [c1, hbk, hK]
    simp
theorem StableTo.of_propagated {s : SATModule E} {n m : Nat} (h : StableTo n s)
    (hP : Propagated s m) : StableTo m s :=
  ⟨h.wellFormed, h.coherent, h.allocOK, hP, h.seen_clear, h.decisionOK, h.lim_strict,
    h.level_start, h.heapOK, h.decision_range, h.stored_nodup, h.no_assumptions, h.no_conflict⟩

theorem Propagated_zero (s : SATModule E) : Propagated s 0 :=
  fun i _ hi => absurd hi (Nat.not_lt_zero i)

theorem uncheckedEnqueue_getD (s : SATModule E) (l : Lit) (src : Option CRef) (hT : TrailOK s)
    (hu : s.value l = .l_Undef) (i : Nat) (hi : i < s.trail.length) :
    (s.uncheckedEnqueue l src).trail.getD i ⟨0, false⟩ = s.trail.getD i ⟨0, false⟩ ∧
    (s.uncheckedEnqueue l src).vardata (s.trail.getD i ⟨0, false⟩).var
      = s.vardata (s.trail.getD i ⟨0, false⟩).var := by
  constructor
  · simp only [uncheckedEnqueue]
    rw [List.getD_append _ _ _ _ hi]
  · have hmem : s.trail.getD i ⟨0, false⟩ ∈ s.trail := List.getElem?_mem (getElem?_of_getD _ i hi)
    have hne : (s.trail.getD i ⟨0, false⟩).var ≠ l.var := by
      intro he
      have := hT.trail_true _ hmem
      rw [value, he, (value_undef s l).mp hu] at this
      simp [lbool.xor] at this
    simp only [uncheckedEnqueue, Function.update_noteq hne]

theorem DecisionOK_uncheckedEnqueue (s : SATModule E) (l : Lit) (src : Option CRef)
    (hT : TrailOK s) (hD : DecisionOK s) (hu : s.value l = .l_Undef)
    (hdec : src = none → s.decisionLevel = 0 ∨ s.trail.length ∈ s.trail_lim) :
    DecisionOK (s.uncheckedEnqueue l src) := by
  intro i hi hr hl
  by_cases hlt : i < s.trail.length
  · obtain ⟨e1, e2⟩ := uncheckedEnqueue_getD s l src hT hu i hlt
    rw [e1, e2] at hr hl
    exact hD i hlt hr hl
  · have hi2 : i = s.trail.length := by
      simp only [uncheckedEnqueue, List.length_append, List.length_singleton] at hi
      omega
    subst hi2
    have hg : (s.uncheckedEnqueue l src).trail.getD s.trail.length ⟨0, false⟩ = l := by
      simp only [uncheckedEnqueue]
      rw [List.getD_eq_getElem?_getD, List.getElem?_concat_length]
      rfl
    rw [hg] at hr hl
    simp only [uncheckedEnqueue, Function.update_same] at hr hl
    rcases hdec hr with h0 | hm
    · omega
    · exact hm

theorem HeapOK_uncheckedEnqueue (s : SATModule E) (l : Lit) (src : Option CRef)
    (hH : HeapOK s) : HeapOK (s.uncheckedEnqueue l src) := by
  intro v hv hd hu
  apply hH v hv hd
  by_cases he : v = l.var
  · subst he
    simp only [uncheckedEnqueue, Function.update_same] at hu
    exfalso
    revert hu
    cases l.sign <;> simp [lbool.ofBool]
  · simp only [uncheckedEnqueue, Function.update_noteq he] at hu
    exact hu

/-- The invariant is kept when an unassigned literal is enqueued at the end of the trail, with a
reason whose first literal it is and whose other literals are assigned, or without reason at
decision level `0` or as the first literal of its decision level. -/
theorem enqueue_stable (s : SATModule E) (l : Lit) (src : Option CRef) (n : Nat)
    (hS : StableTo n s) (hn : n ≤ s.trail.length) (hu : s.value l = .l_Undef)
    (hl : l.var < s.nVars)
    (hsrc : ∀ cr, src = some cr → 1 ≤ (s.ca cr).lits.length ∧ (s.ca cr).get 0 = l ∧
      ∀ l' ∈ (s.ca cr).lits.tail, l'.var ∈ s.trail.map Lit.var)
    (hdec : src = none → s.decisionLevel = 0 ∨ s.trail.length ∈ s.trail_lim) :
    StableTo n (s.uncheckedEnqueue l src) := by
  refine ⟨WellFormed_uncheckedEnqueue s l src hl hS.wellFormed,
    Coherent_uncheckedEnqueue s l src hS.coherent hu hsrc, hS.allocOK,
    Propagated_uncheckedEnqueue s l src hS.coherent.trailOK hu n hn hS.propagated,
    hS.seen_clear, DecisionOK_uncheckedEnqueue s l src hS.coherent.trailOK hS.decisionOK hu hdec,
    hS.lim_strict, ?_, HeapOK_uncheckedEnqueue s l src hS.heapOK, hS.decision_range,
    hS.stored_nodup, hS.no_assumptions, hS.no_conflict⟩
  intro d hd
  have := hS.level_start d hd
  simp only [uncheckedEnqueue, List.length_append, List.length_singleton]
  omega
theorem addLearnt_fields (s : SATModule E) (K : List Lit) (hnd : K.Nodup) (hsz : 2 ≤ K.length) :
    (s.addLearnt K).ca = Function.update s.ca s.caSize ⟨K, true, 0⟩ ∧
    (s.addLearnt K).watches = Function.update
      (Function.update s.watches ((Clause.mk K true 0).get 0).neg
        (s.watches ((Clause.mk K true 0).get 0).neg ++ [⟨s.caSize, (Clause.mk K true 0).get 1⟩]))
      ((Clause.mk K true 0).get 1).neg
      (s.watches ((Clause.mk K true 0).get 1).neg ++ [⟨s.caSize, (Clause.mk K true 0).get 0⟩]) :=
  attach_fields s K true
    ({ (s.alloc K true).2 with learnts := (s.alloc K true).2.learnts ++ [(s.alloc K true).1] })
    ⟨rfl, rfl⟩ hnd hsz

/-- A clause of two or more literals over distinct variables of the solver is stored as a learnt
clause: the invariant is kept, up to the two watched literals, which the new clause may break. -/
theorem addLearnt_stable (s : SATModule E) (K : List Lit) (m : Nat) (hS : StableTo 0 s)
    (hnd : K.Nodup) (hsz : 2 ≤ K.length) (hr : ∀ l ∈ K, l.var < s.nVars)
    (hP : Propagated (s.addLearnt K) m) : StableTo m (s.addLearnt K) := by
  obtain ⟨hca, hw⟩ := addLearnt_fields s K hnd hsz
  have hfresh : ∀ cr, cr ∈ s.clauses ∨ cr ∈ s.learnts → cr ≠ s.caSize := by
    intro cr hcr he
    have := (hS.coherent.watchOK.attached cr hcr).1
    rw [he, hS.allocOK _ (Nat.le_refl _)] at this
    simp at this
  have hC := Coherent_attach s (s.addLearnt K) ⟨K, true, 0⟩ hS.coherent hS.allocOK hnd hsz
    hca hw
    (by
      intro x hx
      rcases hx with hx | hx
      · exact Or.inl (Or.inl hx)
      · have hx2 : x ∈ s.learnts ++ [s.caSize] := hx
        rcases List.mem_append.mp hx2 with hx | hx
        · exact Or.inl (Or.inr hx)
        · exact Or.inr (List.mem_singleton.mp hx)) rfl rfl rfl rfl rfl
  have hlen : ∀ cr, 2 ≤ (s.ca cr).lits.length → 2 ≤ ((s.addLearnt K).ca cr).lits.length := by
    intro cr hcr
    rw [hca]
    by_cases hc : cr = s.caSize
    · subst hc; simpa using hsz
    · rw [Function.update_noteq hc]; exact hcr
  refine ⟨⟨hS.wellFormed.qhead_le, ⟨hS.wellFormed.inRange.trail_range, ?_⟩, ?_⟩, hC, ?_, hP,
    hS.seen_clear, hS.decisionOK, hS.lim_strict, hS.level_start, hS.heapOK, hS.decision_range,
    ?_, hS.no_assumptions, hS.no_conflict⟩
  · intro cr l hl
    rw [hca] at hl
    by_cases hc : cr = s.caSize
    · subst hc
      rw [Function.update_same] at hl
      exact hr l hl
    · rw [Function.update_noteq hc] at hl
      exact hS.wellFormed.inRange.clause_range cr l hl
  · intro q w hw'
    exact (hC.watchOK.watch_lit q w hw').1
  · intro cr hcr
    have hlt : s.caSize < cr := hcr
    rw [hca, Function.update_noteq (Nat.ne_of_gt hlt)]
    exact hS.allocOK cr (Nat.le_of_lt hlt)
  · show (s.clauses ++ (s.learnts ++ [s.caSize])).Nodup
    rw [← List.append_assoc]
    refine List.Nodup.append hS.stored_nodup (List.nodup_singleton _) ?_
    intro x hx hx2
    rw [List.mem_singleton] at hx2
    exact hfresh x (List.mem_append.mp hx) hx2
/-- The two watched literals after a clause was stored: it suffices that no watcher of the state
before refers to the new clause. -/
theorem Propagated_attach_fresh (s t : SATModule E) (c : Clause) (n : Nat)
    (hfresh : ∀ q, ∀ w ∈ s.watches q, w.cref ≠ s.caSize) (hP : Propagated s n)
    (hca : t.ca = Function.update s.ca s.caSize c)
    (hw : t.watches = Function.update
      (Function.update s.watches (c.get 0).neg (s.watches (c.get 0).neg ++ [⟨s.caSize, c.get 1⟩]))
      (c.get 1).neg (s.watches (c.get 1).neg ++ [⟨s.caSize, c.get 0⟩]))
    (htrail : t.trail = s.trail) (hassigns : t.assigns = s.assigns)
    (hvardata : t.vardata = s.vardata)
    (hnew : ∀ (i : Nat) (q : Lit), i < n → s.trail[i]? = some q →
      (q = (c.get 0).neg ∨ q = (c.get 1).neg) →
      ∃ l ∈ c.lits, s.value l = .l_True ∧ (s.vardata l.var).level ≤ (s.vardata q.var).level) :
    Propagated t n := by
  intro i q hi hq w hw'
  rw [htrail] at hq
  rw [hvardata]
  have hmem : w ∈ s.watches q ∨ ((q = (c.get 0).neg ∨ q = (c.get 1).neg) ∧ w.cref = s.caSize) := by
    rw [hw] at hw'
    by_cases h1 : q = (c.get 1).neg
    · subst h1
      rw [Function.update_same] at hw'
      rcases List.mem_append.mp hw' with hw' | hw'
      · exact Or.inl hw'
      · rw [List.mem_singleton.mp hw']
        exact Or.inr ⟨Or.inr rfl, rfl⟩
    · rw [Function.update_noteq h1] at hw'
      by_cases h0 : q = (c.get 0).neg
      · subst h0
        rw [Function.update_same] at hw'
        rcases List.mem_append.mp hw' with hw' | hw'
        · exact Or.inl hw'
        · rw [List.mem_singleton.mp hw']
          exact Or.inr ⟨Or.inl rfl, rfl⟩
      · rw [Function.update_noteq h0] at hw'
        exact Or.inl hw'
  rcases hmem with h0 | ⟨hq', hc⟩
  · obtain ⟨l, h1, h2, h3⟩ := hP i q hi hq w h0
    refine ⟨l, ?_, by rw [value_congr s t hassigns]; exact h2, h3⟩
    rw [hca, Function.update_noteq (hfresh q w h0)]
    exact h1
  · obtain ⟨l, h1, h2, h3⟩ := hnew i q hi hq hq'
    refine ⟨l, ?_, by rw [value_congr s t hassigns]; exact h2, h3⟩
    rw [hc, hca, Function.update_same]
    exact h1

theorem watch_fresh (s : SATModule E) (hC : Coherent s) (hA : AllocOK s) :
    ∀ q, ∀ w ∈ s.watches q, w.cref ≠ s.caSize := by
  intro q w hw' he
  have := (hC.watchOK.watch_lit q w hw').1
  rw [he, hA _ (Nat.le_refl _)] at this
  simp at this

theorem nodup_of_var_nodup (K : List Lit) (h : (K.map Lit.var).Nodup) : K.Nodup :=
  List.Nodup.of_map _ h

/-- The end of the branch for a conflict: the learnt clause `l0 :: y :: K`, whose first literal is
unassigned after the backtracking and whose other literals are over assigned variables, the
second one of the current decision level, is stored and its first literal is enqueued with the
clause as reason. -/
theorem learn_stable (s : SATModule E) (l0 y : Lit) (K : List Lit) (hS : Stable s)
    (hq : s.qhead = s.trail.length) (hu : s.value l0 = .l_Undef)
    (hr : l0.var < s.nVars)
    (hK : ∀ q ∈ y :: K, q.var ∈ s.trail.map Lit.var)
    (hnd : ((l0 :: y :: K).map Lit.var).Nodup)
    (hy : (s.vardata y.var).level = s.decisionLevel) :
    Stable ((s.addLearnt (l0 :: y :: K)).uncheckedEnqueue l0 (some s.caSize)) ∧
    ((s.addLearnt (l0 :: y :: K)).uncheckedEnqueue l0 (some s.caSize)).qhead = s.trail.length := by
  have hnd2 : (l0 :: y :: K).Nodup := nodup_of_var_nodup _ hnd
  have hrange : ∀ l ∈ l0 :: y :: K, l.var < s.nVars := by
    intro l hl
    rcases List.mem_cons.mp hl with rfl | hl
    · exact hr
    · obtain ⟨t, ht, he⟩ := List.mem_map.mp (hK l hl)
      rw [← he]
      exact hS.wellFormed.inRange.trail_range t ht
  obtain ⟨hca, hw⟩ := addLearnt_fields s (l0 :: y :: K) hnd2 (by simp)
  have h0 : StableTo 0 s := hS.of_propagated (Propagated_zero s)
  have h4 : StableTo 0 (s.addLearnt (l0 :: y :: K)) :=
    addLearnt_stable s _ 0 h0 hnd2 (by simp) hrange (Propagated_zero _)
  have hu4 : (s.addLearnt (l0 :: y :: K)).value l0 = .l_Undef := hu
  have h5 : StableTo 0 ((s.addLearnt (l0 :: y :: K)).uncheckedEnqueue l0 (some s.caSize)) := by
    refine enqueue_stable _ l0 (some s.caSize) 0 h4 (Nat.zero_le _) hu4 hr ?_ ?_
    · intro cr hcr
      cases hcr
      rw [hca, Function.update_same]
      refine ⟨by simp, rfl, ?_⟩
      intro l' hl'
      exact hK l' hl'
    · intro hx
      cases hx
  have hP0 : Propagated (s.uncheckedEnqueue l0 (some s.caSize)) s.trail.length :=
    Propagated_uncheckedEnqueue s l0 _ hS.coherent.trailOK hu s.trail.length (Nat.le_refl _)
      (by have := hS.propagated; rw [hq] at this; exact this)
  have hP : Propagated ((s.addLearnt (l0 :: y :: K)).uncheckedEnqueue l0 (some s.caSize))
      s.trail.length := by
    refine Propagated_attach_fresh (s.uncheckedEnqueue l0 (some s.caSize)) _ ⟨l0 :: y :: K, true, 0⟩
      s.trail.length (watch_fresh s hS.coherent hS.allocOK) hP0 hca hw rfl rfl rfl ?_
    intro i q hi hqi hqq
    have hqi2 : s.trail[i]? = some q := by
      have : (s.trail ++ [l0])[i]? = some q := hqi
      rw [List.getElem?_append_left hi] at this
      exact this
    have hqm : q ∈ s.trail := List.getElem?_mem hqi2
    have hqt := hS.coherent.trailOK.trail_true q hqm
    rcases hqq with rfl | rfl
    · exfalso
      have hv : s.value l0 = .l_False := (value_neg_true s l0).mp hqt
      rw [hu] at hv
      exact lbool.noConfusion hv
    · have hne : y.var ≠ l0.var := by
        intro he
        have := (List.nodup_cons.mp hnd).1
        apply this
        rw [← he]
        simp
      refine ⟨l0, by simp, ?_, ?_⟩
      · show (s.uncheckedEnqueue l0 (some s.caSize)).value l0 = .l_True
        simp only [value, uncheckedEnqueue, Function.update_same]
        cases l0.sign <;> rfl
      · show ((s.uncheckedEnqueue l0 (some s.caSize)).vardata l0.var).level
          ≤ ((s.uncheckedEnqueue l0 (some s.caSize)).vardata y.neg.var).level
        have hyv : y.neg.var = y.var := rfl
        rw [hyv]
        simp only [uncheckedEnqueue, Function.update_same, Function.update_noteq hne]
        rw [hy]
  exact ⟨h5.of_propagated (by rw [show ((s.addLearnt (l0 :: y :: K)).uncheckedEnqueue l0
    (some s.caSize)).qhead = s.trail.length from hq]; exact hP), hq⟩
theorem mem_take_of_level (s : SATModule E) (hC : Coherent s) (bt : Nat) (hbt : bt < s.decisionLevel)
    (q : Lit) (hq : q.var ∈ s.trail.map Lit.var) (hl : (s.vardata q.var).level ≤ bt) :
    q.var ∈ (s.trail.take (s.trail_lim.getD bt 0)).map Lit.var := by
  obtain ⟨t, ht, he⟩ := List.mem_map.mp hq
  obtain ⟨i, hi⟩ := List.getElem?_of_mem ht
  have hlev := hC.levelOK.level_eq i t hi
  rw [he] at hlev
  have hlt : i < s.trail_lim.getD bt 0 :=
    levelAt_lt_lim s.trail_lim hC.levelOK.lim_sorted bt i hbt (by rw [← hlev]; exact hl)
  refine List.mem_map.mpr ⟨t, ?_, he⟩
  have : (s.trail.take (s.trail_lim.getD bt 0))[i]? = some t := by
    rw [List.getElem?_take_of_lt hlt]
    exact hi
  exact List.getElem?_mem this

theorem mem_drop_of_level (s : SATModule E) (hC : Coherent s) (bt : Nat)
    (hbt : bt < s.decisionLevel) (p : Lit) (hp : p ∈ s.trail)
    (hl : bt < (s.vardata p.var).level) : p ∈ s.trail.drop (s.trail_lim.getD bt 0) := by
  obtain ⟨i, hi⟩ := List.getElem?_of_mem hp
  have hlev := hC.levelOK.level_eq i p hi
  have hge : s.trail_lim.getD bt 0 ≤ i := by
    by_contra hlt
    have := levelAt_le_of_lt s.trail_lim hC.levelOK.lim_sorted bt i hbt (by omega)
    omega
  have : (s.trail.drop (s.trail_lim.getD bt 0))[i - s.trail_lim.getD bt 0]? = some p := by
    rw [List.getElem?_drop]
    rw [show s.trail_lim.getD bt 0 + (i - s.trail_lim.getD bt 0) = i from by omega]
    exact hi
  exact List.getElem?_mem this

/-- The branch for a conflict keeps the invariant: with a conflicting clause whose literals are
assigned, one of them at the current decision level, the branch has a result; it returns
`l_False` at decision level `0`, and otherwise the loop goes on in a state with the invariant and
an empty queue. -/
theorem searchConflict_stable (s : SATModule E) (n : Nat) (conflictC : Int) (confl : CRef)
    (hS : StableTo n s) (hn : ∀ d ∈ s.trail_lim, d ≤ n)
    (hassigned : ∀ l ∈ (s.ca confl).lits, s.value l ≠ .l_Undef)
    (hcur : 0 < s.decisionLevel →
      ∃ l ∈ (s.ca confl).lits, (s.vardata l.var).level = s.decisionLevel) :
    ∃ r, searchConflict s conflictC confl = some r ∧
      (∀ c s', r = .goesOn c s' → Stable s' ∧ s'.ok = s.ok ∧ 0 < s.decisionLevel) ∧
      (∀ st s', r = .returns st s' → st = .l_False ∧ s'.conflict = [] ∧ s.decisionLevel = 0) := by
  by_cases hd : s.decisionLevel = 0
  · refine ⟨.returns .l_False { s with conflicts := s.conflicts + 1 }, ?_, ?_, ?_⟩
    · unfold searchConflict
      have : ({ s with conflicts := s.conflicts + 1 } : SATModule E).decisionLevel = 0 := hd
      simp only [this, if_true]
    · intro c s' h
      cases h
    · intro st s' h
      cases h
      exact ⟨rfl, hS.no_conflict, hd⟩
  · have hdl : 0 < s.decisionLevel := Nat.pos_of_ne_zero hd
    have hS1 : StableTo n ({ s with conflicts := s.conflicts + 1 } : SATModule E) :=
      StableTo_congr hS rfl rfl rfl rfl rfl rfl rfl rfl rfl rfl rfl rfl rfl rfl rfl rfl
    obtain ⟨p, K, bt, s2, han, hS2, ⟨g1, g2, g3, g4, g5, g6, g7, g8, g9⟩, hp, hpl, hK, hnd, hbt,
      hK0, hKy⟩ := analyze_stable ({ s with conflicts := s.conflicts + 1 } : SATModule E) n hS1
        confl hassigned (hcur hdl) hdl
    have hbt2 : bt < s2.decisionLevel := by
      show bt < s2.trail_lim.length
      rw [g3]
      exact hbt
    have hlimn : s2.trail_lim.getD bt 0 ≤ n := by
      have hlen : bt < s2.trail_lim.length := hbt2
      have hmem : ∀ d ∈ s2.trail_lim, d ≤ n := by
        intro d hd'
        rw [g3] at hd'
        exact hn d hd'
      rw [List.getD_eq_getElem _ _ hlen]
      exact hmem _ (List.getElem_mem _)
    obtain ⟨hS3, hq3, hd3, ht3, hv3a, hv3b⟩ := cancelUntil_stable s2 bt n hS2 hbt2 hlimn
    obtain ⟨f1, f2, f3, f4, f5, f6, f7, f8, f9, f10, f11, f12, f13, f14, f15, f16, f17⟩ :=
      cancelUntil_fields s2 bt hbt2
    have hp2 : p ∈ s2.trail := by rw [g2]; exact hp
    have hpdrop : p ∈ s2.trail.drop (s2.trail_lim.getD bt 0) :=
      mem_drop_of_level s2 hS2.coherent bt hbt2 p hp2 (by
        rw [g4]
        have : (s.vardata p.var).level = s.decisionLevel := hpl
        rw [this]
        exact hbt)
    have hu : (s2.cancelUntil bt).value p.neg = .l_Undef := by
      have := hv3b p hpdrop
      rw [value_undef] at this ⊢
      exact this
    have hr : p.neg.var < (s2.cancelUntil bt).nVars := by
      rw [f6]
      exact hS2.wellFormed.inRange.trail_range p hp2
    have hKmem : ∀ q ∈ K, q.var ∈ (s2.cancelUntil bt).trail.map Lit.var := by
      intro q hq
      rw [ht3]
      obtain ⟨a, -, c⟩ := hK q hq
      exact mem_take_of_level s2 hS2.coherent bt hbt2 q (by rw [g2]; exact a) (by rw [g4]; exact c)
    cases K with
    | nil =>
      refine ⟨.goesOn (conflictC + 1) ((s2.cancelUntil bt).uncheckedEnqueue p.neg none), ?_, ?_, ?_⟩
      · unfold searchConflict
        have hne : ¬ ({ s with conflicts := s.conflicts + 1 } : SATModule E).decisionLevel = 0 := hd
        simp only [hne, if_false, han]
        simp
      · intro c s' h
        cases h
        refine ⟨?_, ?_, hdl⟩
        · refine enqueue_stable _ p.neg none (s2.cancelUntil bt).qhead hS3 (Nat.le_of_eq hq3) hu hr ?_ ?_
          · intro cr hcr
            cases hcr
          · intro _
            left
            rw [hd3]
            exact hK0 rfl
        · show (s2.cancelUntil bt).ok = s.ok
          rw [f12, g6]
      · intro st s' h
        cases h
    | cons y r =>
      have hy : ((s2.cancelUntil bt).vardata y.var).level = (s2.cancelUntil bt).decisionLevel := by
        rw [f7, g4, hd3]
        exact hKy y r rfl
      obtain ⟨hS5, hq5⟩ := learn_stable (s2.cancelUntil bt) p.neg y r hS3 hq3 hu hr hKmem hnd hy
      refine ⟨.goesOn (conflictC + 1) (((s2.cancelUntil bt).addLearnt (p.neg :: y :: r)).uncheckedEnqueue
        p.neg (some (s2.cancelUntil bt).caSize)), ?_, ?_, ?_⟩
      · unfold searchConflict
        have hne : ¬ ({ s with conflicts := s.conflicts + 1 } : SATModule E).decisionLevel = 0 := hd
        simp only [hne, if_false, han]
        simp
      · intro c s' h
        cases h
        refine ⟨hS5, ?_, hdl⟩
        show (s2.cancelUntil bt).ok = s.ok
        rw [f12, g6]
      · intro st s' h
        cases h
theorem theoryLemma_mem (s : SATModule E) (l : Lit) :
    l ∈ s.theoryLemma ↔ l.var < s.nVars ∧ s.value l = .l_True := by
  unfold theoryLemma
  rw [List.mem_filterMap]
  constructor
  · rintro ⟨pos, hpos, h⟩
    rw [List.mem_range] at hpos
    by_cases h1 : s.assigns pos = .l_True
    · rw [if_pos h1] at h
      cases h
      exact ⟨hpos, by simp [value, mkLit, h1, lbool.xor]⟩
    · rw [if_neg h1] at h
      by_cases h2 : s.assigns pos = .l_False
      · rw [if_pos h2] at h
        cases h
        exact ⟨hpos, by simp [value, mkLit, h2, lbool.xor]⟩
      · rw [if_neg h2] at h
        cases h
  · rintro ⟨hv, ht⟩
    refine ⟨l.var, List.mem_range.mpr hv, ?_⟩
    obtain ⟨v, sg⟩ := l
    simp only [value] at ht
    simp only
    cases ha : s.assigns v <;> rw [ha] at ht <;> cases sg <;> simp [lbool.xor, mkLit] at ht ⊢

theorem theoryLemma_nodup (s : SATModule E) : (s.theoryLemma.map Lit.var).Nodup := by
  unfold theoryLemma
  rw [List.map_filterMap]
  refine List.Nodup.filterMap ?_ (List.nodup_range _)
  intro a a' b hb hb'
  have key : ∀ x : Nat, b ∈ Option.map Lit.var
      (if s.assigns x = .l_True then some (mkLit x false)
        else if s.assigns x = .l_False then some (mkLit x true) else none) → b = x := by
    intro x hx
    by_cases h1 : s.assigns x = .l_True
    · rw [if_pos h1] at hx
      simp [mkLit] at hx
      exact hx.symm
    · rw [if_neg h1] at hx
      by_cases h2 : s.assigns x = .l_False
      · rw [if_pos h2] at hx
        simp [mkLit] at hx
        exact hx.symm
      · rw [if_neg h2] at hx
        simp at hx
  rw [← key a hb, ← key a' hb']

/-- A clause over variables of the solver is allocated and not attached: the invariant is kept. -/
theorem alloc_stable (s : SATModule E) (K : List Lit) (lr : Bool) (n : Nat) (hS : StableTo n s)
    (hnd : K.Nodup) (hr : ∀ l ∈ K, l.var < s.nVars) : StableTo n (s.alloc K lr).2 := by
  have hfw := watch_fresh s hS.coherent hS.allocOK
  have hca : (s.alloc K lr).2.ca = Function.update s.ca s.caSize ⟨K, lr, 0⟩ := rfl
  have hold : ∀ cr, cr ≠ s.caSize → (s.alloc K lr).2.ca cr = s.ca cr := by
    intro cr hne
    rw [hca, Function.update_noteq hne]
  have hfresh : ∀ cr, cr ∈ s.clauses ∨ cr ∈ s.learnts → cr ≠ s.caSize := by
    intro cr hcr he
    have := (hS.coherent.watchOK.attached cr hcr).1
    rw [he, hS.allocOK _ (Nat.le_refl _)] at this
    simp at this
  have hC := hS.coherent
  refine ⟨⟨hS.wellFormed.qhead_le, ⟨hS.wellFormed.inRange.trail_range, ?_⟩, ?_⟩,
    ⟨⟨hC.trailOK.trail_true, hC.trailOK.assigned, hC.trailOK.nodup⟩, ⟨?_, ?_, ?_,
      hC.watchOK.watch_nodup, ?_⟩, ?_,
      ⟨hC.levelOK.lim_sorted, hC.levelOK.lim_le, hC.levelOK.level_eq⟩, hC.queueLevel⟩, ?_, ?_,
    hS.seen_clear, hS.decisionOK, hS.lim_strict, hS.level_start, hS.heapOK, hS.decision_range,
    hS.stored_nodup, hS.no_assumptions, hS.no_conflict⟩
  · intro cr l hl
    by_cases hc : cr = s.caSize
    · subst hc
      rw [hca, Function.update_same] at hl
      exact hr l hl
    · rw [hold cr hc] at hl
      exact hS.wellFormed.inRange.clause_range cr l hl
  · intro q w hw
    rw [hold _ (hfw q w hw)]
    exact hS.wellFormed.watched_size q w hw
  · intro cr
    by_cases hc : cr = s.caSize
    · subst hc
      rw [hca, Function.update_same]
      exact hnd
    · rw [hold cr hc]
      exact hC.watchOK.lits_nodup cr
  · intro q w hw
    rw [hold _ (hfw q w hw)]
    exact hC.watchOK.watch_lit q w hw
  · intro q w hw
    rw [hold _ (hfw q w hw)]
    exact hC.watchOK.blocker_mem q w hw
  · intro cr hcr
    rw [hold _ (hfresh cr hcr)]
    exact hC.watchOK.attached cr hcr
  · intro i l cr hi hcr
    have h := hC.reasonOK i l cr hi hcr
    have hne : cr ≠ s.caSize := by
      intro he
      have h1 := h.1
      rw [he, hS.allocOK _ (Nat.le_refl _)] at h1
      simp at h1
    rw [hold cr hne]
    exact h
  · intro cr hcr
    have hlt : s.caSize < cr := hcr
    rw [hold cr (Nat.ne_of_gt hlt)]
    exact hS.allocOK cr (Nat.le_of_lt hlt)
  · intro i q hi hq w hw
    obtain ⟨l, h1, h2, h3⟩ := hS.propagated i q hi hq w hw
    refine ⟨l, ?_, h2, h3⟩
    rw [hold _ (hfw q w hw)]
    exact h1
theorem last_level (s : SATModule E) (hL : LevelOK s)
    (hst : ∀ d ∈ s.trail_lim, d < s.trail.length) (hdl : 0 < s.decisionLevel) :
    ∃ l ∈ s.trail, (s.vardata l.var).level = s.decisionLevel := by
  have hne : s.trail_lim ≠ [] := by
    intro h
    have : s.decisionLevel = 0 := by
      show s.trail_lim.length = 0
      rw [h]
      rfl
    omega
  obtain ⟨d, hd⟩ := List.exists_mem_of_ne_nil _ hne
  have hlen : s.trail.length - 1 < s.trail.length := by have := hst d hd; omega
  have hi := getElem?_of_getD s.trail (s.trail.length - 1) hlen
  refine ⟨_, List.getElem?_mem hi, ?_⟩
  rw [hL.level_eq _ _ hi]
  unfold levelAt
  show _ = s.trail_lim.length
  rw [List.filter_eq_self.mpr]
  intro a ha
  have := hst a ha
  simp only [decide_eq_true_eq]
  omega

/-- The clause that `search` makes after the answer `False` of the backends, above decision level
`0`: the invariant is kept, the clause holds the literals of the trail, which are true, and one of
them is of the current decision level. -/
theorem learnTheoryLemma_stable (s : SATModule E) (hS : Stable s)
    (hq : s.qhead = s.trail.length) (hdl : 0 < s.decisionLevel) :
    StableTo s.trail.length s.learnTheoryLemma.2 ∧
    (s.learnTheoryLemma.2.ca s.learnTheoryLemma.1).lits = s.theoryLemma ∧
    s.learnTheoryLemma.2.assigns = s.assigns ∧ s.learnTheoryLemma.2.trail = s.trail ∧
    s.learnTheoryLemma.2.trail_lim = s.trail_lim ∧ s.learnTheoryLemma.2.vardata = s.vardata ∧
    s.learnTheoryLemma.2.ok = s.ok ∧
    (∀ l ∈ s.theoryLemma, s.value l = .l_True) ∧
    (∃ l ∈ s.theoryLemma, (s.vardata l.var).level = s.decisionLevel) := by
  have hSn : StableTo s.trail.length s := by
    have h : StableTo s.qhead s := hS
    rw [hq] at h
    exact h
  have hnd : s.theoryLemma.Nodup := nodup_of_var_nodup _ (theoryLemma_nodup s)
  have hr : ∀ l ∈ s.theoryLemma, l.var < s.nVars := fun l hl => ((theoryLemma_mem s l).mp hl).1
  have htrue : ∀ l ∈ s.theoryLemma, s.value l = .l_True :=
    fun l hl => ((theoryLemma_mem s l).mp hl).2
  have hcur : ∃ l ∈ s.theoryLemma, (s.vardata l.var).level = s.decisionLevel := by
    obtain ⟨l, hl, hlev⟩ := last_level s hS.coherent.levelOK hS.level_start hdl
    exact ⟨l, (theoryLemma_mem s l).mpr ⟨hS.wellFormed.inRange.trail_range l hl,
      hS.coherent.trailOK.trail_true l hl⟩, hlev⟩
  by_cases h1 : s.theoryLemma.length = 1
  · have he : s.learnTheoryLemma = s.alloc s.theoryLemma true := by
      unfold learnTheoryLemma
      simp only [h1, if_true]
    rw [he]
    refine ⟨alloc_stable s _ true _ hSn hnd hr, ?_, rfl, rfl, rfl, rfl, rfl, htrue, hcur⟩
    simp only [alloc, Function.update_same]
  · have he : s.learnTheoryLemma = (s.caSize, s.addLearnt s.theoryLemma) := by
      unfold learnTheoryLemma
      simp only [h1, if_false]
    have hsz : 2 ≤ s.theoryLemma.length := by
      obtain ⟨l, hl, -⟩ := hcur
      have := List.length_pos_of_mem hl
      omega
    obtain ⟨hca, hw⟩ := addLearnt_fields s s.theoryLemma hnd hsz
    rw [he]
    refine ⟨?_, ?_, rfl, rfl, rfl, rfl, rfl, htrue, hcur⟩
    · refine addLearnt_stable s _ _ (hSn.of_propagated (Propagated_zero s)) hnd hsz hr ?_
      refine Propagated_attach s _ ⟨s.theoryLemma, true, 0⟩ _ hS.coherent hS.allocOK
        hSn.propagated hca hw rfl rfl rfl ?_
      intro i q _ hqi hqq
      exfalso
      have hqt := hS.coherent.trailOK.trail_true q (List.getElem?_mem hqi)
      have hmem : ∀ k, k < s.theoryLemma.length →
          s.value ((Clause.mk s.theoryLemma true 0).get k) = .l_True := by
        intro k hk
        exact htrue _ (Clause.get_mem ⟨s.theoryLemma, true, 0⟩ k hk)
      rcases hqq with rfl | rfl
      · rw [value_neg_true, hmem 0 (by omega)] at hqt
        exact lbool.noConfusion hqt
      · rw [value_neg_true, hmem 1 (by omega)] at hqt
        exact lbool.noConfusion hqt
    · show ((s.addLearnt s.theoryLemma).ca s.caSize).lits = s.theoryLemma
      rw [hca, Function.update_same]
/-! ## The branch without conflict keeps the invariant -/

theorem Pruned.pr_refl (s : SATModule E) : Pruned s s :=
  ⟨fun _ => rfl, rfl, rfl, rfl, rfl, fun _ => rfl, fun _ => Or.inl rfl, rfl, rfl, rfl, rfl, rfl,
    rfl, rfl, rfl, rfl⟩

theorem Pruned.pr_trans {s t u : SATModule E} (h1 : Pruned s t) (h2 : Pruned t u) :
    Pruned s u := by
  refine ⟨fun cr => (h2.lits_eq cr).trans (h1.lits_eq cr), h2.caSize_eq.trans h1.caSize_eq,
    h2.watches_eq.trans h1.watches_eq, h2.nVars_eq.trans h1.nVars_eq,
    h2.assigns_eq.trans h1.assigns_eq, fun v => (h2.level_eq v).trans (h1.level_eq v), ?_,
    h2.seen_eq.trans h1.seen_eq, h2.decision_eq.trans h1.decision_eq,
    h2.trail_eq.trans h1.trail_eq, h2.trail_lim_eq.trans h1.trail_lim_eq,
    h2.qhead_eq.trans h1.qhead_eq, h2.order_heap_eq.trans h1.order_heap_eq,
    h2.assumptions_eq.trans h1.assumptions_eq, h2.conflict_eq.trans h1.conflict_eq,
    h2.ok_eq.trans h1.ok_eq⟩
  intro v
  have hdl : t.decisionLevel = s.decisionLevel := by
    show t.trail_lim.length = s.trail_lim.length
    rw [h1.trail_lim_eq]
  rcases h2.reason_eq v with h | ⟨h, h0⟩
  · rcases h1.reason_eq v with h' | ⟨h', h0'⟩
    · exact Or.inl (h.trans h')
    · exact Or.inr ⟨h.trans h', h0'⟩
  · exact Or.inr ⟨h, by rw [← hdl]; exact h0⟩

theorem smudge_pruned (s : SATModule E) (idx : Lit) :
    Pruned s (s.smudge idx) ∧ (s.smudge idx).ca = s.ca ∧ (s.smudge idx).vardata = s.vardata ∧
      (s.smudge idx).clauses = s.clauses ∧ (s.smudge idx).learnts = s.learnts := by
  unfold smudge
  split
  · exact ⟨⟨fun _ => rfl, rfl, rfl, rfl, rfl, fun _ => rfl, fun _ => Or.inl rfl, rfl, rfl, rfl,
      rfl, rfl, rfl, rfl, rfl, rfl⟩, rfl, rfl, rfl, rfl⟩
  · exact ⟨Pruned.pr_refl s, rfl, rfl, rfl, rfl⟩

theorem detachClause_pruned (s : SATModule E) (cr : CRef) :
    Pruned s (s.detachClause cr) ∧ (s.detachClause cr).ca = s.ca ∧
      (s.detachClause cr).vardata = s.vardata ∧
      (s.detachClause cr).clauses = s.clauses ∧ (s.detachClause cr).learnts = s.learnts := by
  obtain ⟨m1, a1, v1, c1, l1⟩ := smudge_pruned s ((s.ca cr).get 0).neg
  obtain ⟨m2, a2, v2, c2, l2⟩ :=
    smudge_pruned (s.smudge ((s.ca cr).get 0).neg) ((s.ca cr).get 1).neg
  have m := m1.pr_trans m2
  unfold detachClause
  dsimp only
  exact ⟨⟨m.lits_eq, m.caSize_eq, m.watches_eq, m.nVars_eq, m.assigns_eq, m.level_eq,
    m.reason_eq, m.seen_eq, m.decision_eq, m.trail_eq, m.trail_lim_eq, m.qhead_eq,
    m.order_heap_eq, m.assumptions_eq, m.conflict_eq, m.ok_eq⟩, a2.trans a1, v2.trans v1,
    c2.trans c1, l2.trans l1⟩

/-- What `removeClause` leaves as it is, for a clause that is not locked or at decision level
`0`: only the mark of the removed clause changes, and the reason of its first variable when it was
locked. -/
theorem removeClause_pruned (s : SATModule E) (cr : CRef)
    (h : s.locked cr = false ∨ s.decisionLevel = 0) :
    Pruned s (s.removeClause cr) ∧
      (∀ x, x ≠ cr → ((s.removeClause cr).ca x).mark = (s.ca x).mark) ∧
      (s.removeClause cr).clauses = s.clauses ∧ (s.removeClause cr).learnts = s.learnts := by
  obtain ⟨m, a, v, c, l⟩ := detachClause_pruned s cr
  have hlits : ∀ (f : CRef → Clause), f = s.ca → ∀ x,
      ((Function.update f cr { f cr with mark := 1 }) x).lits = (s.ca x).lits := by
    intro f hf x
    subst hf
    by_cases he : x = cr
    · subst he; rw [Function.update_same]
    · rw [Function.update_noteq he]
  have hmark : ∀ (f : CRef → Clause), f = s.ca → ∀ x, x ≠ cr →
      ((Function.update f cr { f cr with mark := 1 }) x).mark = (s.ca x).mark := by
    intro f hf x hx
    subst hf
    rw [Function.update_noteq hx]
  have hlock : (s.detachClause cr).locked cr = s.locked cr :=
    locked_congr s (s.detachClause cr) cr m.assigns_eq v (by rw [a])
  unfold removeClause
  dsimp only
  by_cases hl : (s.detachClause cr).locked cr = true
  · rw [if_pos hl]
    have h0 : s.decisionLevel = 0 := by
      rcases h with h | h
      · rw [hlock, h] at hl; cases hl
      · exact h
    refine ⟨⟨hlits _ a, m.caSize_eq, m.watches_eq, m.nVars_eq, m.assigns_eq, ?_, ?_, m.seen_eq,
      m.decision_eq, m.trail_eq, m.trail_lim_eq, m.qhead_eq, m.order_heap_eq, m.assumptions_eq,
      m.conflict_eq, m.ok_eq⟩, hmark _ a, c, l⟩
    · intro x
      by_cases hx : x = ((s.ca cr).get 0).var
      · subst hx
        simp only [Function.update_same, v]
      · simp only [Function.update_noteq hx, v]
    · intro x
      by_cases hx : x = ((s.ca cr).get 0).var
      · refine Or.inr ⟨?_, h0⟩
        subst hx
        simp only [Function.update_same]
      · refine Or.inl ?_
        simp only [Function.update_noteq hx, v]
  · rw [if_neg hl]
    exact ⟨⟨hlits _ a, m.caSize_eq, m.watches_eq, m.nVars_eq, m.assigns_eq, m.level_eq,
      m.reason_eq, m.seen_eq, m.decision_eq, m.trail_eq, m.trail_lim_eq, m.qhead_eq,
      m.order_heap_eq, m.assumptions_eq, m.conflict_eq, m.ok_eq⟩, hmark _ a, c, l⟩

theorem removeSatisfied_pruned (cs : List CRef) :
    ∀ s : SATModule E, s.decisionLevel = 0 → cs.Nodup →
      Pruned s (removeSatisfied s cs).2 ∧ (removeSatisfied s cs).1.Sublist cs ∧
      (∀ x, x ∉ cs ∨ x ∈ (removeSatisfied s cs).1 →
        ((removeSatisfied s cs).2.ca x).mark = (s.ca x).mark) ∧
      (removeSatisfied s cs).2.clauses = s.clauses ∧
      (removeSatisfied s cs).2.learnts = s.learnts := by
  induction cs with
  | nil => intro s _ _; exact ⟨Pruned.pr_refl s, List.Sublist.refl _, fun _ _ => rfl, rfl, rfl⟩
  | cons cr rest ih =>
    intro s h0 hnd
    obtain ⟨hcr, hnd'⟩ := List.nodup_cons.mp hnd
    rw [removeSatisfied]
    split
    · obtain ⟨m1, k1, c1, l1⟩ := removeClause_pruned s cr (Or.inr h0)
      have h0' : (s.removeClause cr).decisionLevel = 0 := by
        show (s.removeClause cr).trail_lim.length = 0
        rw [m1.trail_lim_eq]
        exact h0
      obtain ⟨m2, sub, k2, c2, l2⟩ := ih (s.removeClause cr) h0' hnd'
      refine ⟨m1.pr_trans m2, sub.trans (List.sublist_cons_self _ _), ?_, c2.trans c1,
        l2.trans l1⟩
      intro x hx
      have hxne : x ≠ cr := by
        rcases hx with hx | hx
        · intro he; exact hx (by rw [he]; exact List.mem_cons_self _ _)
        · intro he; exact hcr (by rw [← he]; exact sub.subset hx)
      have hx2 : x ∉ rest ∨ x ∈ (removeSatisfied (s.removeClause cr) rest).1 := by
        rcases hx with hx | hx
        · exact Or.inl (fun hm => hx (List.mem_cons_of_mem _ hm))
        · exact Or.inr hx
      rw [k2 x hx2, k1 x hxne]
    · obtain ⟨m2, sub, k2, c2, l2⟩ := ih s h0 hnd'
      refine ⟨m2, sub.cons₂ cr, ?_, c2, l2⟩
      intro x hx
      dsimp only at hx ⊢
      by_cases hxe : x = cr
      · subst hxe
        exact k2 x (Or.inl hcr)
      · apply k2 x
        rcases hx with hx | hx
        · exact Or.inl (fun hm => hx (List.mem_cons_of_mem _ hm))
        · rcases List.mem_cons.mp hx with hx | hx
          · exact absurd hx hxe
          · exact Or.inr hx

theorem reduceLoop_pruned (low : CRef → Bool) (half : Nat) (cs : List CRef) :
    ∀ (i : Nat) (s : SATModule E), cs.Nodup →
      Pruned s (reduceLoop low half i cs s).2 ∧ (reduceLoop low half i cs s).1.Sublist cs ∧
      (∀ x, x ∉ cs ∨ x ∈ (reduceLoop low half i cs s).1 →
        ((reduceLoop low half i cs s).2.ca x).mark = (s.ca x).mark) ∧
      (reduceLoop low half i cs s).2.clauses = s.clauses ∧
      (reduceLoop low half i cs s).2.learnts = s.learnts := by
  induction cs with
  | nil => intro i s _; exact ⟨Pruned.pr_refl s, List.Sublist.refl _, fun _ _ => rfl, rfl, rfl⟩
  | cons cr rest ih =>
    intro i s hnd
    obtain ⟨hcr, hnd'⟩ := List.nodup_cons.mp hnd
    rw [reduceLoop]
    split
    · rename_i hc
      obtain ⟨m1, k1, c1, l1⟩ := removeClause_pruned s cr (Or.inl hc.2.1)
      obtain ⟨m2, sub, k2, c2, l2⟩ := ih (i + 1) (s.removeClause cr) hnd'
      refine ⟨m1.pr_trans m2, sub.trans (List.sublist_cons_self _ _), ?_, c2.trans c1,
        l2.trans l1⟩
      intro x hx
      have hxne : x ≠ cr := by
        rcases hx with hx | hx
        · intro he; exact hx (by rw [he]; exact List.mem_cons_self _ _)
        · intro he; exact hcr (by rw [← he]; exact sub.subset hx)
      have hx2 : x ∉ rest ∨ x ∈ (reduceLoop low half (i + 1) rest (s.removeClause cr)).1 := by
        rcases hx with hx | hx
        · exact Or.inl (fun hm => hx (List.mem_cons_of_mem _ hm))
        · exact Or.inr hx
      rw [k2 x hx2, k1 x hxne]
    · obtain ⟨m2, sub, k2, c2, l2⟩ := ih (i + 1) s hnd'
      refine ⟨m2, sub.cons₂ cr, ?_, c2, l2⟩
      intro x hx
      dsimp only at hx ⊢
      by_cases hxe : x = cr
      · subst hxe
        exact k2 x (Or.inl hcr)
      · apply k2 x
        rcases hx with hx | hx
        · exact Or.inl (fun hm => hx (List.mem_cons_of_mem _ hm))
        · rcases List.mem_cons.mp hx with hx | hx
          · exact absurd hx hxe
          · exact Or.inr hx
theorem Clause.get_congr (c d : Clause) (h : d.lits = c.lits) (i : Nat) : d.get i = c.get i := by
  unfold Clause.get
  rw [h]

/-- The invariant after clauses were removed: it is kept when the clauses that remain in the lists
are clauses of the lists before, and those of them that are not marked as deleted were not marked
before. -/
theorem Pruned.stable {s t : SATModule E} {n : Nat} (hP : Pruned s t) (hS : StableTo n s)
    (hlists : ∀ x, x ∈ t.clauses ∨ x ∈ t.learnts →
      (x ∈ s.clauses ∨ x ∈ s.learnts) ∧ ((t.ca x).mark ≠ 1 → (s.ca x).mark ≠ 1))
    (hnd : (t.clauses ++ t.learnts).Nodup) : StableTo n t := by
  have hC := hS.coherent
  have hval : ∀ l, t.value l = s.value l := value_congr s t hP.assigns_eq
  have hget : ∀ cr i, (t.ca cr).get i = (s.ca cr).get i :=
    fun cr i => Clause.get_congr _ _ (hP.lits_eq cr) i
  have hdl : t.decisionLevel = s.decisionLevel := by
    show t.trail_lim.length = s.trail_lim.length
    rw [hP.trail_lim_eq]
  refine ⟨⟨?_, ⟨?_, ?_⟩, ?_⟩, ⟨TrailOK_congr s t hP.assigns_eq hP.trail_eq hC.trailOK,
    ⟨?_, ?_, ?_, ?_, ?_⟩, ?_, ⟨?_, ?_, ?_⟩, ?_⟩, ?_, ?_, ?_, ?_, ?_, ?_, ?_, ?_, hnd, ?_, ?_⟩
  · rw [hP.qhead_eq, hP.trail_eq]; exact hS.wellFormed.qhead_le
  · rw [hP.trail_eq, hP.nVars_eq]; exact hS.wellFormed.inRange.trail_range
  · intro cr l hl
    rw [hP.lits_eq] at hl
    rw [hP.nVars_eq]
    exact hS.wellFormed.inRange.clause_range cr l hl
  · intro p w hw
    rw [hP.watches_eq] at hw
    rw [hP.lits_eq]
    exact hS.wellFormed.watched_size p w hw
  · intro cr
    rw [hP.lits_eq]
    exact hC.watchOK.lits_nodup cr
  · intro q w hw
    rw [hP.watches_eq] at hw
    rw [hP.lits_eq, hget, hget]
    exact hC.watchOK.watch_lit q w hw
  · intro q w hw
    rw [hP.watches_eq] at hw
    rw [hP.lits_eq]
    exact hC.watchOK.blocker_mem q w hw
  · intro q
    rw [hP.watches_eq]
    exact hC.watchOK.watch_nodup q
  · intro cr hcr
    obtain ⟨hin, hm⟩ := hlists cr hcr
    rw [hP.lits_eq, hget, hget, hP.watches_eq]
    exact ⟨(hC.watchOK.attached cr hin).1, fun h => (hC.watchOK.attached cr hin).2 (hm h)⟩
  · intro i l cr hi hr
    rw [hP.trail_eq] at hi ⊢
    rcases hP.reason_eq l.var with h | ⟨h, -⟩
    · rw [h] at hr
      rw [hP.lits_eq, hget]
      exact hC.reasonOK i l cr hi hr
    · rw [h] at hr
      cases hr
  · rw [hP.trail_lim_eq]; exact hC.levelOK.lim_sorted
  · rw [hP.trail_lim_eq, hP.trail_eq]; exact hC.levelOK.lim_le
  · intro i l hi
    rw [hP.trail_eq] at hi
    rw [hP.level_eq, hP.trail_lim_eq]
    exact hC.levelOK.level_eq i l hi
  · intro i l hq hi
    rw [hP.qhead_eq] at hq
    rw [hP.trail_eq] at hi
    rw [hP.level_eq, hdl]
    exact hC.queueLevel i l hq hi
  · intro cr hcr
    rw [hP.caSize_eq] at hcr
    rw [hP.lits_eq]
    exact hS.allocOK cr hcr
  · intro i q hi hq w hw
    rw [hP.trail_eq] at hq
    rw [hP.watches_eq] at hw
    obtain ⟨l, h1, h2, h3⟩ := hS.propagated i q hi hq w hw
    refine ⟨l, by rw [hP.lits_eq]; exact h1, by rw [hval]; exact h2, ?_⟩
    rw [hP.level_eq, hP.level_eq]
    exact h3
  · intro v
    rw [hP.seen_eq]
    exact hS.seen_clear v
  · intro i hi hr hl
    rw [hP.trail_eq] at hi hr hl
    rw [hP.level_eq] at hl
    rw [hP.trail_lim_eq]
    rcases hP.reason_eq (s.trail.getD i ⟨0, false⟩).var with h | ⟨-, h0⟩
    · rw [h] at hr
      exact hS.decisionOK i hi hr hl
    · exfalso
      have hlev := hC.levelOK.level_eq i _ (getElem?_of_getD s.trail i hi)
      have hle := levelAt_le s.trail_lim i
      have h0' : s.trail_lim.length = 0 := h0
      omega
  · rw [hP.trail_lim_eq]; exact hS.lim_strict
  · rw [hP.trail_lim_eq, hP.trail_eq]; exact hS.level_start
  · intro v hv hd ha
    rw [hP.nVars_eq] at hv
    rw [hP.decision_eq] at hd
    rw [hP.assigns_eq] at ha
    rw [hP.order_heap_eq]
    exact hS.heapOK v hv hd ha
  · intro v hd
    rw [hP.decision_eq] at hd
    rw [hP.nVars_eq]
    exact hS.decision_range v hd
  · rw [hP.assumptions_eq]; exact hS.no_assumptions
  · rw [hP.conflict_eq]; exact hS.no_conflict
theorem removeClause_mark (s : SATModule E) (cr : CRef) :
    ((s.removeClause cr).ca cr).mark = 1 := by
  simp only [removeClause, Function.update_same]

/-- The method `removeClause` at decision level `0`, for any clause reference, keeps the
invariant, also when the clause stays in its list (as after `popBacktrackPoint`): the clause is
marked as deleted. -/
theorem removeClause_stable (s : SATModule E) (cr : CRef) (n : Nat) (hS : StableTo n s)
    (h0 : s.decisionLevel = 0) :
    StableTo n (s.removeClause cr) ∧ Pruned s (s.removeClause cr) := by
  obtain ⟨m, k, c, l⟩ := removeClause_pruned s cr (Or.inr h0)
  refine ⟨m.stable hS ?_ ?_, m⟩
  · intro x hx
    rw [c, l] at hx
    refine ⟨hx, fun h => ?_⟩
    by_cases he : x = cr
    · subst he
      exact absurd (removeClause_mark s x) h
    · rw [← k x he]
      exact h
  · rw [c, l]
    exact hS.stored_nodup

theorem cleanAll_rest (s : SATModule E) :
    s.cleanAll.seen = s.seen ∧ s.cleanAll.caSize = s.caSize := by
  unfold cleanAll
  simp only
  apply cleanAll_fold _ (fun t => t.seen = s.seen ∧ t.caSize = s.caSize)
  · intro t idx ht
    split
    · exact ht
    · exact ht
  · exact ⟨rfl, rfl⟩

/-- The batched cleanup of the watch lists keeps the invariant. -/
theorem cleanAll_stable (s : SATModule E) (n : Nat) (hS : StableTo n s) :
    StableTo n s.cleanAll := by
  obtain ⟨f1, f2, f3, f4, f5, f6⟩ := cleanAll_frame s
  obtain ⟨k1, k2, k3, -⟩ := cleanAll_keeps s
  obtain ⟨m, -, -, o, t⟩ := cleanAll_maintained s
  obtain ⟨r1, r2⟩ := cleanAll_rest s
  refine ⟨cleanAll_wellFormed s hS.wellFormed, Coherent_cleanAll s hS.coherent, ?_,
    Propagated_subset s _ n f2 f3 k3 f5 f6 hS.propagated, ?_, ?_, ?_, ?_,
    HeapOK_maintained m o hS.heapOK, ?_, ?_, ?_, ?_⟩
  · intro cr hcr
    rw [r2] at hcr
    rw [f5]
    exact hS.allocOK cr hcr
  · intro v
    rw [r1]
    exact hS.seen_clear v
  · intro i hi hr hl
    rw [f2] at hi hr hl
    rw [k3] at hr hl
    rw [t]
    exact hS.decisionOK i hi hr hl
  · rw [t]; exact hS.lim_strict
  · rw [t, f2]; exact hS.level_start
  · intro v hd
    rw [m.decision_eq] at hd
    rw [f4]
    exact hS.decision_range v hd
  · rw [k1, k2]; exact hS.stored_nodup
  · rw [m.assumptions_eq]; exact hS.no_assumptions
  · rw [m.conflict_eq]; exact hS.no_conflict

theorem checkGarbage_stable (gc : Bool) (s : SATModule E) (n : Nat) (hS : StableTo n s) :
    StableTo n (checkGarbage gc s) ∧ (checkGarbage gc s).qhead = s.qhead ∧
      (checkGarbage gc s).trail = s.trail ∧ (checkGarbage gc s).trail_lim = s.trail_lim ∧
      (checkGarbage gc s).ok = s.ok := by
  unfold checkGarbage
  split
  · obtain ⟨f1, f2, -, -, -, -⟩ := cleanAll_frame s
    obtain ⟨m, -, -, -, t⟩ := cleanAll_maintained s
    exact ⟨cleanAll_stable s n hS, f1, f2, t, m.ok_eq⟩
  · exact ⟨hS, rfl, rfl, rfl, rfl⟩
/-- The invariant reads the order heap only in that the unassigned decision variables are among
its members. -/
theorem StableTo_heap {s t : SATModule E} {n : Nat} (h : StableTo n s)
    (hca : t.ca = s.ca) (hcaSize : t.caSize = s.caSize) (hclauses : t.clauses = s.clauses)
    (hlearnts : t.learnts = s.learnts) (hwatches : t.watches = s.watches)
    (hnVars : t.nVars = s.nVars) (hassigns : t.assigns = s.assigns)
    (hvardata : t.vardata = s.vardata) (hseen : t.seen = s.seen)
    (hdecision : t.decision = s.decision) (htrail : t.trail = s.trail)
    (htrail_lim : t.trail_lim = s.trail_lim) (hqhead : t.qhead = s.qhead)
    (hass : t.assumptions = s.assumptions)
    (hconf : t.conflict = s.conflict) (hH : HeapOK t) : StableTo n t := by
  cases s
  cases t
  simp only at hca hcaSize hclauses hlearnts hwatches hnVars hassigns hvardata
  simp only at hseen hdecision htrail htrail_lim hqhead hass hconf
  subst hca hcaSize hclauses hlearnts hwatches hnVars hassigns hvardata
  subst hseen hdecision htrail htrail_lim hqhead hass hconf
  exact ⟨⟨h.wellFormed.qhead_le, ⟨h.wellFormed.inRange.trail_range,
      h.wellFormed.inRange.clause_range⟩, h.wellFormed.watched_size⟩,
    ⟨⟨h.coherent.trailOK.trail_true, h.coherent.trailOK.assigned, h.coherent.trailOK.nodup⟩,
      ⟨h.coherent.watchOK.lits_nodup, h.coherent.watchOK.watch_lit,
        h.coherent.watchOK.blocker_mem, h.coherent.watchOK.watch_nodup,
        h.coherent.watchOK.attached⟩,
      h.coherent.reasonOK,
      ⟨h.coherent.levelOK.lim_sorted, h.coherent.levelOK.lim_le, h.coherent.levelOK.level_eq⟩,
      h.coherent.queueLevel⟩,
    h.allocOK, h.propagated, h.seen_clear, h.decisionOK, h.lim_strict, h.level_start, hH,
    h.decision_range, h.stored_nodup, h.no_assumptions, h.no_conflict⟩

theorem disjoint_of_nodup_append {α : Type} (a b : List α) (h : (a ++ b).Nodup) :
    ∀ x, x ∈ a → x ∈ b → False := by
  intro x ha hb
  exact (List.nodup_append.mp h).2.2 ha hb

/-- The method `reduceDB` keeps the invariant when the sorted list of the learnt clauses is a
permutation of the list. -/
theorem reduceDB_stable (order : List CRef → List CRef) (low : CRef → Bool) (gc : Bool)
    (s : SATModule E) (n : Nat) (hS : StableTo n s) (hperm : (order s.learnts).Perm s.learnts) :
    StableTo n (reduceDB order low gc s) ∧ (reduceDB order low gc s).qhead = s.qhead ∧
      (reduceDB order low gc s).trail = s.trail ∧
      (reduceDB order low gc s).trail_lim = s.trail_lim ∧
      (reduceDB order low gc s).ok = s.ok := by
  have hndl : s.learnts.Nodup := (List.nodup_append.mp hS.stored_nodup).2.1
  have hndc : s.clauses.Nodup := (List.nodup_append.mp hS.stored_nodup).1
  have hnds : (order s.learnts).Nodup := hperm.nodup_iff.mpr hndl
  have hdisj := disjoint_of_nodup_append _ _ hS.stored_nodup
  obtain ⟨m, sub, k, c, -⟩ := reduceLoop_pruned low ((order s.learnts).length / 2)
    (order s.learnts) 0 ({ s with learnts := order s.learnts } : SATModule E) hnds
  have m0 : Pruned s ({ s with learnts := order s.learnts } : SATModule E) :=
    ⟨fun _ => rfl, rfl, rfl, rfl, rfl, fun _ => rfl, fun _ => Or.inl rfl, rfl, rfl, rfl, rfl,
      rfl, rfl, rfl, rfl, rfl⟩
  have m1 := m0.pr_trans m
  generalize hr : reduceLoop low ((order s.learnts).length / 2) 0 (order s.learnts)
    ({ s with learnts := order s.learnts } : SATModule E) = r at m sub k c m1
  have m2 : Pruned s ({ r.2 with learnts := r.1 } : SATModule E) :=
    ⟨m1.lits_eq, m1.caSize_eq, m1.watches_eq, m1.nVars_eq, m1.assigns_eq, m1.level_eq,
      m1.reason_eq, m1.seen_eq, m1.decision_eq, m1.trail_eq, m1.trail_lim_eq, m1.qhead_eq,
      m1.order_heap_eq, m1.assumptions_eq, m1.conflict_eq, m1.ok_eq⟩
  have hc : r.2.clauses = s.clauses := c
  have hS2 : StableTo n ({ r.2 with learnts := r.1 } : SATModule E) := by
    refine m2.stable hS ?_ ?_
    · intro x hx
      rcases hx with hx | hx
      · have hx' : x ∈ s.clauses := by rw [← hc]; exact hx
        refine ⟨Or.inl hx', fun h => ?_⟩
        rw [← k x (Or.inl (fun hm => hdisj x hx' (hperm.subset hm)))]
        exact h
      · have hx' : x ∈ r.1 := hx
        exact ⟨Or.inr (hperm.subset (sub.subset hx')), fun h => by
          rw [← k x (Or.inr hx')]; exact h⟩
    · show (r.2.clauses ++ r.1).Nodup
      rw [hc]
      refine List.Nodup.append hndc (hnds.sublist sub) ?_
      intro x hx1 hx2
      exact hdisj x hx1 (hperm.subset (sub.subset hx2))
  obtain ⟨g1, g2, g3, g4, g5⟩ := checkGarbage_stable gc _ n hS2
  unfold reduceDB
  dsimp only
  rw [hr]
  exact ⟨g1, g2.trans m2.qhead_eq, g3.trans m2.trail_eq, g4.trans m2.trail_lim_eq,
    g5.trans m2.ok_eq⟩
theorem removeSatisfied_learnts_stable (s : SATModule E) (n : Nat) (hS : StableTo n s)
    (h0 : s.decisionLevel = 0) :
    StableTo n ({ (s.removeSatisfied s.learnts).2 with
      learnts := (s.removeSatisfied s.learnts).1 } : SATModule E) ∧
    Pruned s ({ (s.removeSatisfied s.learnts).2 with
      learnts := (s.removeSatisfied s.learnts).1 } : SATModule E) := by
  have hndl : s.learnts.Nodup := (List.nodup_append.mp hS.stored_nodup).2.1
  have hndc : s.clauses.Nodup := (List.nodup_append.mp hS.stored_nodup).1
  have hdisj := disjoint_of_nodup_append _ _ hS.stored_nodup
  obtain ⟨m1, sub, k, c, -⟩ := removeSatisfied_pruned s.learnts s h0 hndl
  generalize removeSatisfied s s.learnts = r at m1 sub k c
  have m2 : Pruned s ({ r.2 with learnts := r.1 } : SATModule E) :=
    ⟨m1.lits_eq, m1.caSize_eq, m1.watches_eq, m1.nVars_eq, m1.assigns_eq, m1.level_eq,
      m1.reason_eq, m1.seen_eq, m1.decision_eq, m1.trail_eq, m1.trail_lim_eq, m1.qhead_eq,
      m1.order_heap_eq, m1.assumptions_eq, m1.conflict_eq, m1.ok_eq⟩
  refine ⟨m2.stable hS ?_ ?_, m2⟩
  · intro x hx
    rcases hx with hx | hx
    · have hx' : x ∈ s.clauses := by rw [← c]; exact hx
      exact ⟨Or.inl hx', fun h => by rw [← k x (Or.inl (fun hm => hdisj x hx' hm))]; exact h⟩
    · have hx' : x ∈ r.1 := hx
      exact ⟨Or.inr (sub.subset hx'), fun h => by rw [← k x (Or.inr hx')]; exact h⟩
  · show (r.2.clauses ++ r.1).Nodup
    rw [c]
    refine List.Nodup.append hndc (hndl.sublist sub) ?_
    intro x hx1 hx2
    exact hdisj x hx1 (sub.subset hx2)

theorem removeSatisfied_clauses_stable (s : SATModule E) (n : Nat) (hS : StableTo n s)
    (h0 : s.decisionLevel = 0) :
    StableTo n ({ (s.removeSatisfied s.clauses).2 with
      clauses := (s.removeSatisfied s.clauses).1 } : SATModule E) ∧
    Pruned s ({ (s.removeSatisfied s.clauses).2 with
      clauses := (s.removeSatisfied s.clauses).1 } : SATModule E) := by
  have hndl : s.learnts.Nodup := (List.nodup_append.mp hS.stored_nodup).2.1
  have hndc : s.clauses.Nodup := (List.nodup_append.mp hS.stored_nodup).1
  have hdisj := disjoint_of_nodup_append _ _ hS.stored_nodup
  obtain ⟨m1, sub, k, -, l⟩ := removeSatisfied_pruned s.clauses s h0 hndc
  generalize removeSatisfied s s.clauses = r at m1 sub k l
  have m2 : Pruned s ({ r.2 with clauses := r.1 } : SATModule E) :=
    ⟨m1.lits_eq, m1.caSize_eq, m1.watches_eq, m1.nVars_eq, m1.assigns_eq, m1.level_eq,
      m1.reason_eq, m1.seen_eq, m1.decision_eq, m1.trail_eq, m1.trail_lim_eq, m1.qhead_eq,
      m1.order_heap_eq, m1.assumptions_eq, m1.conflict_eq, m1.ok_eq⟩
  refine ⟨m2.stable hS ?_ ?_, m2⟩
  · intro x hx
    rcases hx with hx | hx
    · have hx' : x ∈ r.1 := hx
      exact ⟨Or.inl (sub.subset hx'), fun h => by rw [← k x (Or.inr hx')]; exact h⟩
    · have hx' : x ∈ s.learnts := by rw [← l]; exact hx
      exact ⟨Or.inr hx', fun h => by rw [← k x (Or.inl (fun hm => hdisj x hm hx'))]; exact h⟩
  · show (r.1 ++ r.2.learnts).Nodup
    rw [l]
    refine List.Nodup.append (hndc.sublist sub) hndl ?_
    intro x hx1 hx2
    exact hdisj x (sub.subset hx1) hx2

/-- The method `simplify`, called at decision level `0` with an empty queue, keeps the invariant:
when it returns `true` the invariant holds with an empty queue, and when it returns `false` the
final conflict is empty. -/
theorem simplify_stable (h : Environment E) (s s' : SATModule E) (b : Bool) (hS : Stable s)
    (h0 : s.decisionLevel = 0) (hs : simplify h s = some (b, s')) :
    (b = true → Stable s' ∧ s'.qhead = s'.trail.length ∧ s'.trail_lim = s.trail_lim ∧
      s'.ok = s.ok) ∧
    (b = false → s'.conflict = []) := by
  unfold simplify at hs
  split at hs
  · cases hs
  · rename_i r hr
    simp only [Option.some.injEq] at hs
    subst hs
    unfold simplifyRemove at hr
    split at hr
    · simp only [Option.some.injEq, Sum.inl.injEq, Prod.mk.injEq] at hr
      obtain ⟨rfl, rfl⟩ := hr
      exact ⟨fun hx => (by cases hx), fun _ => hS.no_conflict⟩
    · split at hr
      · cases hr
      · rename_i cr s1 hp
        simp only [Option.some.injEq, Sum.inl.injEq, Prod.mk.injEq] at hr
        obtain ⟨rfl, rfl⟩ := hr
        have f := propagate_frame _ _ _ _ hp
        refine ⟨fun hx => (by cases hx), fun _ => ?_⟩
        show s1.conflict = []
        rw [f.conflict_eq]
        exact hS.no_conflict
      · rename_i s1 hp
        obtain ⟨hq1, hS1, -⟩ := propagate_stable _ _ _ _ hS hp
        have f := propagate_frame _ _ _ _ hp
        split at hr
        · simp only [Option.some.injEq, Sum.inl.injEq, Prod.mk.injEq] at hr
          obtain ⟨rfl, rfl⟩ := hr
          exact ⟨fun _ => ⟨hS1 rfl, hq1, f.trail_lim_eq, f.ok_eq⟩, fun hx => (by cases hx)⟩
        · simp at hr
  · rename_i s3 hr
    simp only [Option.some.injEq, Prod.mk.injEq] at hs
    obtain ⟨rfl, rfl⟩ := hs
    refine ⟨fun _ => ?_, fun hx => by cases hx⟩
    unfold simplifyRemove at hr
    split at hr
    · simp at hr
    · split at hr
      · cases hr
      · simp at hr
      · rename_i s1 hp
        obtain ⟨hq1, hS1, -⟩ := propagate_stable _ _ _ _ hS hp
        have f := propagate_frame _ _ _ _ hp
        have hS1' : StableTo s1.qhead s1 := hS1 rfl
        have h01 : s1.decisionLevel = 0 := by
          show s1.trail_lim.length = 0
          rw [f.trail_lim_eq]
          exact h0
        split at hr
        · simp at hr
        · dsimp only at hr
          simp only [Option.some.injEq, Sum.inr.injEq] at hr
          obtain ⟨hS2, m2⟩ := removeSatisfied_learnts_stable s1 s1.qhead hS1' h01
          have h02 : ({ (s1.removeSatisfied s1.learnts).2 with
              learnts := (s1.removeSatisfied s1.learnts).1 } : SATModule E).decisionLevel = 0 := by
            show ({ (s1.removeSatisfied s1.learnts).2 with
              learnts := (s1.removeSatisfied s1.learnts).1 } : SATModule E).trail_lim.length = 0
            rw [m2.trail_lim_eq]
            exact h01
          obtain ⟨hS2', m2'⟩ := removeSatisfied_clauses_stable _ s1.qhead hS2 h02
          have hm3 : StableTo s1.qhead s3 ∧ Pruned s1 s3 := by
            rw [← hr]
            split
            · exact ⟨hS2', m2.pr_trans m2'⟩
            · exact ⟨hS2, m2⟩
          obtain ⟨hS3, m3⟩ := hm3
          obtain ⟨g1, g2, g3, g4, g5⟩ := checkGarbage_stable (h.gcSimplify s3) s3 s1.qhead hS3
          have hq' : (simplifyRebuild (checkGarbage (h.gcSimplify s3) s3)).qhead = s1.qhead :=
            g2.trans m3.qhead_eq
          refine ⟨?_, ?_, ?_, ?_⟩
          · show StableTo (simplifyRebuild (checkGarbage (h.gcSimplify s3) s3)).qhead _
            rw [hq']
            exact StableTo_heap g1 rfl rfl rfl rfl rfl rfl rfl rfl rfl rfl rfl rfl rfl rfl rfl
              (HeapOK_rebuild (checkGarbage (h.gcSimplify s3) s3))
          · rw [hq']
            show _ = (checkGarbage (h.gcSimplify s3) s3).trail.length
            rw [g3, m3.trail_eq]
            exact hq1
          · show (checkGarbage (h.gcSimplify s3) s3).trail_lim = s.trail_lim
            rw [g4, m3.trail_lim_eq, f.trail_lim_eq]
          · show (checkGarbage (h.gcSimplify s3) s3).ok = s.ok
            rw [g5, m3.ok_eq, f.ok_eq]
/-- A decision keeps the invariant: in a state with an empty queue whose order heap was replaced,
a new decision level is opened and an unassigned literal of a variable of the solver is enqueued;
the unassigned decision variables but the one of this literal are members of the new heap. -/
theorem decision_stable (s : SATModule E) (oh : List Var) (next : Lit) (hS : Stable s)
    (hq : s.qhead = s.trail.length)
    (hH : ∀ v, v < s.nVars → s.decision v = true → s.assigns v = .l_Undef → v ≠ next.var →
      v ∈ oh)
    (hu : s.value next = .l_Undef) (hr : next.var < s.nVars) :
    Stable (({ s with order_heap := oh } : SATModule E).newDecisionLevel.uncheckedEnqueue
      next none) := by
  have hW : WellFormed ({ s with order_heap := oh } : SATModule E) :=
    ⟨hS.wellFormed.qhead_le, ⟨hS.wellFormed.inRange.trail_range,
      hS.wellFormed.inRange.clause_range⟩, hS.wellFormed.watched_size⟩
  have hC : Coherent ({ s with order_heap := oh } : SATModule E) :=
    ⟨⟨hS.coherent.trailOK.trail_true, hS.coherent.trailOK.assigned, hS.coherent.trailOK.nodup⟩,
      ⟨hS.coherent.watchOK.lits_nodup, hS.coherent.watchOK.watch_lit,
        hS.coherent.watchOK.blocker_mem, hS.coherent.watchOK.watch_nodup,
        hS.coherent.watchOK.attached⟩,
      hS.coherent.reasonOK,
      ⟨hS.coherent.levelOK.lim_sorted, hS.coherent.levelOK.lim_le,
        hS.coherent.levelOK.level_eq⟩,
      hS.coherent.queueLevel⟩
  have hP : Propagated ({ s with order_heap := oh } : SATModule E) s.qhead := hS.propagated
  have hC1 := Coherent_newDecisionLevel _ hC hq
  have hD1 : DecisionOK ({ s with order_heap := oh } : SATModule E).newDecisionLevel := by
    intro i hi hr' hl
    exact List.mem_append_left _ (hS.decisionOK i hi hr' hl)
  refine ⟨WellFormed_uncheckedEnqueue _ next none hr (WellFormed_newDecisionLevel _ hW),
    Coherent_uncheckedEnqueue _ next none hC1 hu (fun cr hcr => by cases hcr), hS.allocOK,
    Propagated_uncheckedEnqueue _ next none hC1.trailOK hu s.qhead hS.wellFormed.qhead_le
      (Propagated_newDecisionLevel _ _ hP),
    hS.seen_clear, DecisionOK_uncheckedEnqueue _ next none hC1.trailOK hD1 hu
      (fun _ => Or.inr (List.mem_append_right _ (List.mem_singleton_self _))),
    ?_, ?_, ?_, hS.decision_range, hS.stored_nodup, hS.no_assumptions, hS.no_conflict⟩
  · show (s.trail_lim ++ [s.trail.length]).Pairwise (fun a b => a < b)
    rw [List.pairwise_append]
    refine ⟨hS.lim_strict, by simp, ?_⟩
    intro a ha b hb
    rw [List.mem_singleton] at hb
    rw [hb]
    exact hS.level_start a ha
  · intro d hd
    have hd' : d ∈ s.trail_lim ++ [s.trail.length] := hd
    show d < (s.trail ++ [next]).length
    rw [List.length_append, List.length_singleton]
    rcases List.mem_append.mp hd' with hd' | hd'
    · have := hS.level_start d hd'
      omega
    · rw [List.mem_singleton] at hd'
      omega
  · intro v hv hd ha
    show v ∈ oh
    have hne : v ≠ next.var := by
      intro he
      subst he
      simp only [uncheckedEnqueue, Function.update_same] at ha
      revert ha
      cases next.sign <;> simp [lbool.ofBool]
    have ha' : s.assigns v = .l_Undef := by
      simp only [uncheckedEnqueue, Function.update_noteq hne] at ha
      exact ha
    exact hH v hv hd ha' hne

theorem pickBranchLoop_heap (h : Environment E) (fuel : Nat) :
    ∀ (next : Option Var) (s s' : SATModule E) (r : Option Var),
      pickBranchLoop h fuel next s = some (r, s') →
      (∀ v, v < s.nVars → s.decision v = true → s.assigns v = .l_Undef →
        v ∈ s.order_heap ∨ next = some v) →
      (∃ oh, s' = { s with order_heap := oh }) ∧
      (∀ v, v < s.nVars → s.decision v = true → s.assigns v = .l_Undef →
        v ∈ s'.order_heap ∨ r = some v) ∧
      (∀ x, r = some x → s.assigns x = .l_Undef ∧ s.decision x = true) := by
  induction fuel with
  | zero => intro next s s' r hp; rw [pickBranchLoop] at hp; cases hp
  | succ fuel ih =>
    intro next s s' r hp hH
    unfold pickBranchLoop at hp
    dsimp only at hp
    split at hp
    · rename_i hagain
      have hnext : ∀ v, next = some v → ¬ (s.assigns v = .l_Undef ∧ s.decision v = true) := by
        intro v hv hc
        subst hv
        simp [hc.1, hc.2] at hagain
      split at hp
      · rename_i hempty
        simp only [Option.some.injEq, Prod.mk.injEq] at hp
        obtain ⟨rfl, rfl⟩ := hp
        refine ⟨⟨s.order_heap, rfl⟩, ?_, fun x hx => by cases hx⟩
        intro v hv hd ha
        rcases hH v hv hd ha with hm | hn
        · exact Or.inl hm
        · exact absurd ⟨ha, hd⟩ (hnext v hn)
      · obtain ⟨⟨oh, hoh⟩, h2, h3⟩ := ih _ _ _ _ hp (by
          intro v hv hd ha
          rcases hH v hv hd ha with hm | hn
          · by_cases he : v = h.removeMin s
            · exact Or.inr (by rw [he])
            · exact Or.inl ((List.mem_erase_of_ne he).mpr hm)
          · exact absurd ⟨ha, hd⟩ (hnext v hn))
        exact ⟨⟨oh, hoh⟩, h2, h3⟩
    · rename_i hagain
      simp only [Option.some.injEq, Prod.mk.injEq] at hp
      obtain ⟨rfl, rfl⟩ := hp
      refine ⟨⟨s.order_heap, rfl⟩, hH, ?_⟩
      intro x hx
      subst hx
      simp at hagain
      exact hagain

/-- The method `pickBranchLit` and the decision keep the invariant: without a literal the state
has the invariant, and with a literal the state after the decision has it. -/
theorem pickBranchLit_stable (h : Environment E) (s s' : SATModule E) (r : Option Lit)
    (hS : Stable s) (hq : s.qhead = s.trail.length)
    (hp : pickBranchLit h s = some (r, s')) :
    s'.ok = s.ok ∧ s'.conflict = s.conflict ∧
    (r = none → Stable s' ∧ s'.qhead = s'.trail.length ∧ s'.trail_lim = s.trail_lim) ∧
    (∀ next, r = some next → Stable (s'.newDecisionLevel.uncheckedEnqueue next none)) := by
  have hH0 : ∀ v, v < s.nVars → s.decision v = true → s.assigns v = .l_Undef →
      v ∈ s.order_heap ∨ (none : Option Var) = some v :=
    fun v hv hd ha => Or.inl (hS.heapOK v hv hd ha)
  unfold pickBranchLit at hp
  split at hp
  · cases hp
  · rename_i s1 hl
    simp only [Option.some.injEq, Prod.mk.injEq] at hp
    obtain ⟨rfl, rfl⟩ := hp
    obtain ⟨⟨oh, rfl⟩, h2, -⟩ := pickBranchLoop_heap h _ _ _ _ _ hl hH0
    refine ⟨rfl, rfl, fun _ => ⟨?_, hq, rfl⟩, fun next hn => by cases hn⟩
    refine StableTo_heap hS rfl rfl rfl rfl rfl rfl rfl rfl rfl rfl rfl rfl rfl rfl rfl ?_
    intro v hv hd ha
    rcases h2 v hv hd ha with hm | hn
    · exact hm
    · cases hn
  · rename_i x s1 hl
    simp only [Option.some.injEq, Prod.mk.injEq] at hp
    obtain ⟨rfl, rfl⟩ := hp
    obtain ⟨⟨oh, rfl⟩, h2, h3⟩ := pickBranchLoop_heap h _ _ _ _ _ hl hH0
    obtain ⟨hxu, hxd⟩ := h3 x rfl
    refine ⟨rfl, rfl, fun hn => (by cases hn), ?_⟩
    intro next hn
    cases hn
    refine decision_stable s oh _ hS hq ?_ ?_ ?_
    · intro v hv hd ha hne
      rcases h2 v hv hd ha with hm | hn
      · exact hm
      · cases hn
        exact absurd rfl hne
    · exact (value_undef s _).mpr hxu
    · exact hS.decision_range x hxd
/-- Backtracking to decision level `0` keeps the invariant, with an empty queue. -/
theorem cancelUntil_zero_stable (s : SATModule E) (hS : Stable s)
    (hq : s.qhead = s.trail.length) :
    Stable (s.cancelUntil 0) ∧ (s.cancelUntil 0).qhead = (s.cancelUntil 0).trail.length ∧
      (s.cancelUntil 0).decisionLevel = 0 ∧ (s.cancelUntil 0).ok = s.ok ∧
      (s.cancelUntil 0).conflict = s.conflict := by
  by_cases hd : s.decisionLevel > 0
  · obtain ⟨a1, a2, a3, -, -, -⟩ := cancelUntil_stable s 0 s.qhead hS hd (by
      have hlen : 0 < s.trail_lim.length := hd
      rw [List.getD_eq_getElem _ _ hlen]
      exact lim_le_qhead s hS.coherent.levelOK hS.coherent.queueLevel hS.level_start _
        (List.getElem_mem _))
    obtain ⟨-, -, -, -, -, -, -, -, -, -, f11, f12, -⟩ := cancelUntil_fields s 0 hd
    exact ⟨a1, a2, a3, f12, f11⟩
  · have he : s.cancelUntil 0 = s := by
      unfold cancelUntil
      rw [if_neg hd]
    rw [he]
    exact ⟨hS, hq, by omega, rfl, rfl⟩

/-- The branch without conflict keeps the invariant: the state in which the loop goes on has the
invariant, the state returned with `l_False` has an empty final conflict, and the state returned
with another status has the invariant and an empty queue. -/
theorem searchNoConflict_stable (h : Environment E) (nof conflictC : Int) (s : SATModule E)
    (r : Pass E) (hsorts : h.Sorts) (hS : Stable s) (hq : s.qhead = s.trail.length)
    (hr : searchNoConflict h nof conflictC s = some r) :
    (∀ c s', r = .goesOn c s' → Stable s' ∧ s'.ok = s.ok) ∧
    (∀ st s', r = .returns st s' →
      (st = .l_False → s'.conflict = []) ∧
      (st ≠ .l_False → Stable s' ∧ s'.qhead = s'.trail.length ∧ s'.ok = s.ok)) := by
  unfold searchNoConflict at hr
  split at hr
  · simp only [Option.some.injEq] at hr
    subst hr
    obtain ⟨a1, a2, -, a4, -⟩ := cancelUntil_zero_stable s hS hq
    refine ⟨fun c s' hx => (by cases hx), ?_⟩
    intro st s' hx
    cases hx
    exact ⟨fun hx => (by cases hx), fun _ => ⟨a1, a2, a4⟩⟩
  · split at hr
    · cases hr
    · rename_i s1 hs
      simp only [Option.some.injEq] at hr
      subst hr
      refine ⟨fun c s' hx => (by cases hx), ?_⟩
      intro st s' hx
      cases hx
      refine ⟨fun _ => ?_, fun hx => absurd rfl hx⟩
      split at hs
      · rename_i h0
        exact (simplify_stable h s _ false hS h0 hs).2 rfl
      · simp at hs
    · rename_i s1 hs
      have f1 : Stable s1 ∧ s1.qhead = s1.trail.length ∧ s1.ok = s.ok := by
        split at hs
        · rename_i h0
          obtain ⟨a1, a2, -, a4⟩ := (simplify_stable h s _ true hS h0 hs).1 rfl
          exact ⟨a1, a2, a4⟩
        · simp only [Option.some.injEq, Prod.mk.injEq, true_and] at hs
          subst hs
          exact ⟨hS, hq, rfl⟩
      obtain ⟨hS1, hq1, hok1⟩ := f1
      dsimp only at hr
      have f2 : Stable (if h.reduce s1 = true then
          reduceDB (h.order s1) (h.low s1) (h.gcReduce s1) s1 else s1) ∧
          (if h.reduce s1 = true then
            reduceDB (h.order s1) (h.low s1) (h.gcReduce s1) s1 else s1).qhead
            = (if h.reduce s1 = true then
            reduceDB (h.order s1) (h.low s1) (h.gcReduce s1) s1 else s1).trail.length ∧
          (if h.reduce s1 = true then
            reduceDB (h.order s1) (h.low s1) (h.gcReduce s1) s1 else s1).ok = s1.ok := by
        split
        · obtain ⟨g1, g2, g3, -, g5⟩ := reduceDB_stable (h.order s1) (h.low s1) (h.gcReduce s1)
            s1 s1.qhead hS1 (hsorts s1 s1.learnts)
          refine ⟨?_, ?_, g5⟩
          · show StableTo (reduceDB (h.order s1) (h.low s1) (h.gcReduce s1) s1).qhead _
            rw [g2]
            exact g1
          · rw [g2, g3]
            exact hq1
        · exact ⟨hS1, hq1, rfl⟩
      generalize (if h.reduce s1 = true then
          reduceDB (h.order s1) (h.low s1) (h.gcReduce s1) s1 else s1) = s2 at hr f2
      obtain ⟨hS2, hq2, hok2⟩ := f2
      rw [assumeLoop_nil _ s2 hS2.no_assumptions] at hr
      dsimp only at hr
      have hS3 : Stable ({ s2 with decisions := s2.decisions + 1 } : SATModule E) :=
        StableTo_congr hS2 rfl rfl rfl rfl rfl rfl rfl rfl rfl rfl rfl rfl rfl rfl rfl rfl
      split at hr
      · cases hr
      · rename_i s4 hp
        simp only [Option.some.injEq] at hr
        subst hr
        obtain ⟨b1, -, b3, -⟩ := pickBranchLit_stable h _ _ _ hS3 hq2 hp
        obtain ⟨c1, c2, -⟩ := b3 rfl
        refine ⟨fun c s' hx => (by cases hx), ?_⟩
        intro st s' hx
        cases hx
        refine ⟨fun hx => (by cases hx), fun _ => ⟨c1, c2, ?_⟩⟩
        rw [b1]
        show s2.ok = s.ok
        rw [hok2, hok1]
      · rename_i next s4 hp
        simp only [Option.some.injEq] at hr
        subst hr
        obtain ⟨b1, -, -, b4⟩ := pickBranchLit_stable h _ _ _ hS3 hq2 hp
        refine ⟨?_, fun st s' hx => by cases hx⟩
        intro c s' hx
        cases hx
        refine ⟨b4 next rfl, ?_⟩
        show s4.ok = s.ok
        rw [b1]
        show s2.ok = s.ok
        rw [hok2, hok1]
/-! ## The passes of `search` and the calls of the interface keep the invariant -/

theorem adaptPassedFormula_stable [DecidableEq E] (s : SATModule E) (n : Nat)
    (hS : StableTo n s) : StableTo n s.adaptPassedFormula :=
  StableTo_congr hS rfl rfl rfl rfl rfl rfl rfl rfl rfl rfl rfl rfl rfl rfl rfl rfl

theorem learnTheoryLemma_conflict (s : SATModule E) :
    s.learnTheoryLemma.2.conflict = s.conflict ∧
      s.learnTheoryLemma.2.trail_lim = s.trail_lim := by
  unfold learnTheoryLemma
  dsimp only
  split
  · exact ⟨rfl, rfl⟩
  · exact ⟨rfl, rfl⟩

/-- One pass through the loop of `search` keeps the invariant: the state in which the loop goes
on has the invariant and is `ok`, the state returned with `l_False` has an empty final conflict,
and the state returned with another status has the invariant and an empty queue. -/
theorem searchPass_stable [DecidableEq E] (h : Environment E) (nof conflictC : Int)
    (s : SATModule E) (r : Pass E) (hsorts : h.Sorts) (hS : Stable s) (hok : s.ok = true)
    (hr : searchPass h nof conflictC s = some r) :
    (∀ c s', r = .goesOn c s' → Stable s' ∧ s'.ok = true) ∧
    (∀ st s', r = .returns st s' →
      (st = .l_False → s'.conflict = []) ∧
      (st ≠ .l_False → Stable s' ∧ s'.qhead = s'.trail.length ∧ s'.ok = true)) := by
  unfold searchPass at hr
  split at hr
  · cases hr
  · rename_i confl s1 hp
    obtain ⟨-, -, hc⟩ := propagate_stable _ _ _ _ hS hp
    obtain ⟨⟨n, hn, hSn⟩, hfalse, hcur⟩ := hc confl rfl
    have f := propagate_frame _ _ _ _ hp
    obtain ⟨r', hr', g1, g2⟩ := searchConflict_stable s1 n conflictC confl hSn hn
      (fun l hl => by rw [hfalse l hl]; exact fun hx => lbool.noConfusion hx) (fun _ => hcur)
    rw [hr'] at hr
    simp only [Option.some.injEq] at hr
    subst hr
    refine ⟨?_, ?_⟩
    · intro c s' hx
      obtain ⟨a1, a2, -⟩ := g1 c s' hx
      exact ⟨a1, by rw [a2, f.ok_eq]; exact hok⟩
    · intro st s' hx
      obtain ⟨a1, a2, -⟩ := g2 st s' hx
      exact ⟨fun _ => a2, fun hne => absurd a1 hne⟩
  · rename_i s1 hp
    obtain ⟨hq1, hS1, -⟩ := propagate_stable _ _ _ _ hS hp
    have f := propagate_frame _ _ _ _ hp
    have hS2 : Stable s1.adaptPassedFormula := adaptPassedFormula_stable s1 _ (hS1 rfl)
    have hq2 : s1.adaptPassedFormula.qhead = s1.adaptPassedFormula.trail.length := hq1
    have hok2 : s1.adaptPassedFormula.ok = true := by
      show s1.ok = true
      rw [f.ok_eq]
      exact hok
    dsimp only at hr
    split at hr
    · obtain ⟨g1, g2⟩ := searchNoConflict_stable h nof conflictC _ r hsorts hS2 hq2 hr
      refine ⟨?_, ?_⟩
      · intro c s' hx
        obtain ⟨a1, a2⟩ := g1 c s' hx
        exact ⟨a1, by rw [a2]; exact hok2⟩
      · intro st s' hx
        obtain ⟨a1, a2⟩ := g2 st s' hx
        refine ⟨a1, fun hne => ?_⟩
        obtain ⟨b1, b2, b3⟩ := a2 hne
        exact ⟨b1, b2, by rw [b3]; exact hok2⟩
    · by_cases hd : s1.adaptPassedFormula.decisionLevel = 0
      · obtain ⟨c1, c2⟩ := learnTheoryLemma_conflict s1.adaptPassedFormula
        have hd' : ({ s1.adaptPassedFormula.learnTheoryLemma.2 with
            conflicts := s1.adaptPassedFormula.learnTheoryLemma.2.conflicts + 1 }
              : SATModule E).decisionLevel = 0 := by
          show s1.adaptPassedFormula.learnTheoryLemma.2.trail_lim.length = 0
          rw [c2]
          exact hd
        unfold searchConflict at hr
        simp only [hd', if_true, Option.some.injEq] at hr
        subst hr
        refine ⟨fun c s' hx => (by cases hx), ?_⟩
        intro st s' hx
        cases hx
        refine ⟨fun _ => ?_, fun hne => absurd rfl hne⟩
        show s1.adaptPassedFormula.learnTheoryLemma.2.conflict = []
        rw [c1]
        exact hS2.no_conflict
      · have hdl : 0 < s1.adaptPassedFormula.decisionLevel := Nat.pos_of_ne_zero hd
        obtain ⟨k1, k2, k3, k4, k5, k6, k7, k8, k9⟩ :=
          learnTheoryLemma_stable s1.adaptPassedFormula hS2 hq2 hdl
        have hdl' : s1.adaptPassedFormula.learnTheoryLemma.2.decisionLevel
            = s1.adaptPassedFormula.decisionLevel := by
          show s1.adaptPassedFormula.learnTheoryLemma.2.trail_lim.length = _
          rw [k5]
          rfl
        obtain ⟨r', hr', g1, g2⟩ := searchConflict_stable
          s1.adaptPassedFormula.learnTheoryLemma.2 _ conflictC
          s1.adaptPassedFormula.learnTheoryLemma.1 k1
          (by
            intro d hd'
            rw [k5] at hd'
            exact Nat.le_of_lt (hS2.level_start d hd'))
          (by
            intro l hl
            rw [k2] at hl
            rw [value_congr _ _ k3, k8 l hl]
            exact fun hx => lbool.noConfusion hx)
          (by
            intro _
            obtain ⟨l, hl, hlev⟩ := k9
            refine ⟨l, by rw [k2]; exact hl, ?_⟩
            rw [k6, hdl']
            exact hlev)
        rw [hr'] at hr
        simp only [Option.some.injEq] at hr
        subst hr
        refine ⟨?_, ?_⟩
        · intro c s' hx
          obtain ⟨a1, a2, -⟩ := g1 c s' hx
          exact ⟨a1, by rw [a2, k7]; exact hok2⟩
        · intro st s' hx
          obtain ⟨a1, a2, -⟩ := g2 st s' hx
          exact ⟨fun _ => a2, fun hne => absurd a1 hne⟩
    · simp only [Option.some.injEq] at hr
      subst hr
      refine ⟨fun c s' hx => (by cases hx), ?_⟩
      intro st s' hx
      cases hx
      exact ⟨fun hx => (by cases hx), fun _ => ⟨hS2, hq2, hok2⟩⟩
theorem searchLoop_stable [DecidableEq E] (h : Environment E) (nof : Int) (hsorts : h.Sorts)
    (fuel : Nat) :
    ∀ (conflictC : Int) (s s' : SATModule E) (st : lbool), Stable s → s.ok = true →
      searchLoop h nof fuel conflictC s = some (st, s') →
      (st = .l_False → s'.conflict = []) ∧
      (st ≠ .l_False → Stable s' ∧ s'.qhead = s'.trail.length ∧ s'.ok = true) := by
  induction fuel with
  | zero => intro conflictC s s' st _ _ hr; rw [searchLoop] at hr; cases hr
  | succ fuel ih =>
    intro conflictC s s' st hS hok hr
    rw [searchLoop] at hr
    split at hr
    · cases hr
    · rename_i status s1 hp
      simp only [Option.some.injEq, Prod.mk.injEq] at hr
      obtain ⟨rfl, rfl⟩ := hr
      exact (searchPass_stable h nof conflictC s _ hsorts hS hok hp).2 _ _ rfl
    · rename_i c1 s1 hp
      obtain ⟨a1, a2⟩ := (searchPass_stable h nof conflictC s _ hsorts hS hok hp).1 _ _ rfl
      exact ih c1 s1 s' st a1 a2 hr

/-- The method `search` keeps the invariant: the state returned with `l_False` has an empty final
conflict, and the state returned with another status has the invariant, an empty queue, and is
`ok`. -/
theorem search_stable [DecidableEq E] (h : Environment E) (fuel : Nat) (nof : Int)
    (s s' : SATModule E) (st : lbool) (hsorts : h.Sorts) (hS : Stable s) (hok : s.ok = true)
    (hr : search h fuel nof s = some (st, s')) :
    (st = .l_False → s'.conflict = []) ∧
    (st ≠ .l_False → Stable s' ∧ s'.qhead = s'.trail.length ∧ s'.ok = true) := by
  unfold search at hr
  exact searchLoop_stable h nof hsorts fuel 0 ({ s with starts := s.starts + 1 }) s' st
    (StableTo_congr hS rfl rfl rfl rfl rfl rfl rfl rfl rfl rfl rfl rfl rfl rfl rfl rfl) hok hr

theorem solveLoop_stable [DecidableEq E] (h : Environment E) (fuel : Nat) (hsorts : h.Sorts)
    (n : Nat) :
    ∀ (curr : Nat) (s s' : SATModule E) (st : lbool), Stable s → s.ok = true →
      solveLoop h fuel n curr s = some (st, s') →
      (st = .l_False → s'.conflict = []) ∧
      (st ≠ .l_False → Stable s' ∧ s'.qhead = s'.trail.length ∧ s'.ok = true) := by
  induction n with
  | zero => intro curr s s' st _ _ hr; rw [solveLoop] at hr; cases hr
  | succ n ih =>
    intro curr s s' st hS hok hr
    rw [solveLoop] at hr
    split at hr
    · cases hr
    · rename_i status s1 hp
      have hs := search_stable h fuel _ s s1 status hsorts hS hok hp
      split at hr
      · simp only [Option.some.injEq, Prod.mk.injEq] at hr
        obtain ⟨rfl, rfl⟩ := hr
        exact hs
      · split at hr
        · rename_i hu
          subst hu
          obtain ⟨a1, -, a3⟩ := hs.2 (fun hx => lbool.noConfusion hx)
          exact ih _ s1 s' st a1 a3 hr
        · simp only [Option.some.injEq, Prod.mk.injEq] at hr
          obtain ⟨rfl, rfl⟩ := hr
          exact hs

theorem init_stable (E : Type) : Stable (init E) := by
  refine ⟨WellFormed_init E, Coherent_init E, AllocOK_init E, fun i _ hi => ?_, fun _ => rfl,
    fun i hi => ?_, List.Pairwise.nil, fun d hd => ?_, fun v hv => ?_, fun v hd => ?_,
    List.nodup_nil, rfl, rfl⟩
  · exact absurd hi (Nat.not_lt_zero i)
  · exact absurd hi (Nat.not_lt_zero i)
  · cases hd
  · exact absurd hv (Nat.not_lt_zero v)
  · cases hd

theorem newVar_stable (s : SATModule E) (sign dvar : Bool) (hS : Stable s) :
    Stable (s.newVar sign dvar).2 := by
  have hvar : ∀ l ∈ s.trail, l.var ≠ s.nVars := fun l hl =>
    Nat.ne_of_lt (hS.wellFormed.inRange.trail_range l hl)
  refine ⟨WellFormed_newVar s sign dvar hS.wellFormed,
    Coherent_newVar s sign dvar hS.wellFormed hS.coherent, AllocOK_newVar s sign dvar hS.allocOK,
    Propagated_newVar s sign dvar hS.wellFormed _ hS.propagated, ?_, ?_, hS.lim_strict,
    hS.level_start, ?_, ?_, hS.stored_nodup, hS.no_assumptions, hS.no_conflict⟩
  · intro v
    show (Function.update s.seen s.nVars false) v = false
    by_cases hv : v = s.nVars
    · subst hv; rw [Function.update_same]
    · rw [Function.update_noteq hv]; exact hS.seen_clear v
  · intro i hi hr hl
    have hi' : i < s.trail.length := hi
    have hmem : s.trail.getD i ⟨0, false⟩ ∈ s.trail :=
      List.getElem?_mem (getElem?_of_getD _ i hi')
    have hne := hvar _ hmem
    have e : (s.newVar sign dvar).2.vardata (s.trail.getD i ⟨0, false⟩).var
        = s.vardata (s.trail.getD i ⟨0, false⟩).var := by
      show (Function.update s.vardata s.nVars _) _ = _
      rw [Function.update_noteq hne]
    have hr' : ((s.newVar sign dvar).2.vardata (s.trail.getD i ⟨0, false⟩).var).reason = none := hr
    have hl' : 0 < ((s.newVar sign dvar).2.vardata (s.trail.getD i ⟨0, false⟩).var).level := hl
    rw [e] at hr' hl'
    exact hS.decisionOK i hi' hr' hl'
  · intro v hv hd ha
    show v ∈ (if s.nVars ∉ s.order_heap ∧ dvar = true then s.order_heap ++ [s.nVars]
      else s.order_heap)
    by_cases hvn : v = s.nVars
    · subst hvn
      have hd' : (Function.update s.decision s.nVars dvar) s.nVars = true := hd
      rw [Function.update_same] at hd'
      by_cases hm : s.nVars ∈ s.order_heap
      · rw [if_neg (fun hx => hx.1 hm)]
        exact hm
      · rw [if_pos ⟨hm, hd'⟩]
        exact List.mem_append_right _ (List.mem_singleton_self _)
    · have hv' : v < s.nVars := by
        have : v < s.nVars + 1 := hv
        omega
      have hd' : (Function.update s.decision s.nVars dvar) v = true := hd
      rw [Function.update_noteq hvn] at hd'
      have ha' : (Function.update s.assigns s.nVars lbool.l_Undef) v = .l_Undef := ha
      rw [Function.update_noteq hvn] at ha'
      have := hS.heapOK v hv' hd' ha'
      split
      · exact List.mem_append_left _ this
      · exact this
  · intro v hd
    show v < s.nVars + 1
    by_cases hvn : v = s.nVars
    · omega
    · have hd' : (Function.update s.decision s.nVars dvar) v = true := hd
      rw [Function.update_noteq hvn] at hd'
      have := hS.decision_range v hd'
      omega

theorem getLiteral_stable [DecidableEq E] [Neg E] (s : SATModule E) (f : Formula E)
    (hS : Stable s) :
    Stable (getLiteral f s).2 ∧ (getLiteral f s).2.trail_lim = s.trail_lim ∧
      (getLiteral f s).2.qhead = s.qhead ∧ (getLiteral f s).2.trail = s.trail ∧
      (getLiteral f s).2.ok = s.ok := by
  have hn := newVar_stable s true true hS
  cases f with
  | BOOL identifier =>
    cases hb : s.mBooleanVarMap identifier with
    | some v =>
      have e : getLiteral (.BOOL identifier) s = (mkLit v true, s) := by
        simp only [getLiteral, hb]
      rw [e]
      exact ⟨hS, rfl, rfl, rfl, rfl⟩
    | none =>
      have e : getLiteral (.BOOL identifier) s = (mkLit s.nVars true,
          { (s.newVar true true).2 with
            mBooleanVarMap := Function.update (s.newVar true true).2.mBooleanVarMap identifier
              (some s.nVars) }) := by
        simp only [getLiteral, hb]
        rfl
      rw [e]
      exact ⟨StableTo_congr hn rfl rfl rfl rfl rfl rfl rfl rfl rfl rfl rfl rfl rfl rfl rfl rfl,
        rfl, rfl, rfl, rfl⟩
  | REALCONSTRAINT c =>
    cases hc : s.mConstraintLiteralMap (normalizedConstraint c) with
    | some l =>
      rw [getLiteral_found s c l hc]
      exact ⟨hS, rfl, rfl, rfl, rfl⟩
    | none =>
      rw [getLiteral_fresh s c hc]
      exact ⟨StableTo_congr hn rfl rfl rfl rfl rfl rfl rfl rfl rfl rfl rfl rfl rfl rfl rfl rfl,
        rfl, rfl, rfl, rfl⟩
/-- A clause of two or more distinct literals over variables of the solver is stored as an
original clause: the invariant is kept, up to the two watched literals. -/
theorem addOriginal_stable (s : SATModule E) (K : List Lit) (m : Nat) (hS : StableTo 0 s)
    (hnd : K.Nodup) (hsz : 2 ≤ K.length) (hr : ∀ l ∈ K, l.var < s.nVars) (t : SATModule E)
    (ht : t = ({ (s.alloc K false).2 with
      clauses := (s.alloc K false).2.clauses ++ [(s.alloc K false).1] } : SATModule E).attachClause
        (s.alloc K false).1)
    (hP : Propagated t m) : StableTo m t := by
  obtain ⟨hca0, hw0⟩ := attach_fields s K false
    ({ (s.alloc K false).2 with clauses := (s.alloc K false).2.clauses ++ [(s.alloc K false).1] })
    ⟨rfl, rfl⟩ hnd hsz
  have hca : t.ca = Function.update s.ca s.caSize ⟨K, false, 0⟩ := by rw [ht]; exact hca0
  have hw : t.watches = Function.update
      (Function.update s.watches ((Clause.mk K false 0).get 0).neg
        (s.watches ((Clause.mk K false 0).get 0).neg ++ [⟨s.caSize, (Clause.mk K false 0).get 1⟩]))
      ((Clause.mk K false 0).get 1).neg
      (s.watches ((Clause.mk K false 0).get 1).neg ++ [⟨s.caSize, (Clause.mk K false 0).get 0⟩]) := by
    rw [ht]; exact hw0
  have e1 : t.clauses = s.clauses ++ [s.caSize] := by rw [ht]; rfl
  have e2 : t.learnts = s.learnts := by rw [ht]; rfl
  have e3 : t.trail = s.trail := by rw [ht]; rfl
  have e4 : t.assigns = s.assigns := by rw [ht]; rfl
  have e5 : t.vardata = s.vardata := by rw [ht]; rfl
  have e6 : t.trail_lim = s.trail_lim := by rw [ht]; rfl
  have e7 : t.qhead = s.qhead := by rw [ht]; rfl
  have e8 : t.nVars = s.nVars := by rw [ht]; rfl
  have e9 : t.caSize = s.caSize + 1 := by rw [ht]; rfl
  have e10 : t.seen = s.seen := by rw [ht]; rfl
  have e11 : t.decision = s.decision := by rw [ht]; rfl
  have e12 : t.order_heap = s.order_heap := by rw [ht]; rfl
  have e13 : t.assumptions = s.assumptions := by rw [ht]; rfl
  have e14 : t.conflict = s.conflict := by rw [ht]; rfl
  have hfresh : ∀ cr, cr ∈ s.clauses ∨ cr ∈ s.learnts → cr ≠ s.caSize := by
    intro cr hcr he
    have := (hS.coherent.watchOK.attached cr hcr).1
    rw [he, hS.allocOK _ (Nat.le_refl _)] at this
    simp at this
  have hC := Coherent_attach s t ⟨K, false, 0⟩ hS.coherent hS.allocOK hnd hsz
    hca hw
    (by
      intro x hx
      rw [e1, e2] at hx
      rcases hx with hx | hx
      · rcases List.mem_append.mp hx with hx | hx
        · exact Or.inl (Or.inl hx)
        · exact Or.inr (List.mem_singleton.mp hx)
      · exact Or.inl (Or.inr hx)) e3 e4 e5 e6 e7
  refine ⟨⟨?_, ⟨?_, ?_⟩, ?_⟩, hC, ?_, hP, ?_, ?_, ?_, ?_, ?_, ?_, ?_, ?_, ?_⟩
  · rw [e7, e3]; exact hS.wellFormed.qhead_le
  · rw [e3, e8]; exact hS.wellFormed.inRange.trail_range
  · intro cr l hl
    rw [hca] at hl
    rw [e8]
    by_cases hc : cr = s.caSize
    · subst hc
      rw [Function.update_same] at hl
      exact hr l hl
    · rw [Function.update_noteq hc] at hl
      exact hS.wellFormed.inRange.clause_range cr l hl
  · intro q w hw'
    exact (hC.watchOK.watch_lit q w hw').1
  · intro cr hcr
    rw [e9] at hcr
    have hlt : s.caSize < cr := hcr
    rw [hca, Function.update_noteq (Nat.ne_of_gt hlt)]
    exact hS.allocOK cr (Nat.le_of_lt hlt)
  · intro v
    rw [e10]
    exact hS.seen_clear v
  · intro i hi hr' hl
    rw [e3] at hi hr' hl
    rw [e5] at hr' hl
    rw [e6]
    exact hS.decisionOK i hi hr' hl
  · rw [e6]; exact hS.lim_strict
  · rw [e6, e3]; exact hS.level_start
  · intro v hv hd ha
    rw [e8] at hv
    rw [e11] at hd
    rw [e4] at ha
    rw [e12]
    exact hS.heapOK v hv hd ha
  · intro v hd
    rw [e11] at hd
    rw [e8]
    exact hS.decision_range v hd
  · rw [e1, e2]
    have hperm : ((s.clauses ++ [s.caSize]) ++ s.learnts).Perm
        ((s.clauses ++ s.learnts) ++ [s.caSize]) := by
      rw [List.append_assoc, List.append_assoc]
      exact List.Perm.append_left _ List.perm_append_comm
    rw [hperm.nodup_iff]
    refine List.Nodup.append hS.stored_nodup (List.nodup_singleton _) ?_
    intro x hx hx2
    rw [List.mem_singleton] at hx2
    exact hfresh x (List.mem_append.mp hx) hx2
  · rw [e13]; exact hS.no_assumptions
  · rw [e14]; exact hS.no_conflict

/-- The method `addClause_` keeps the invariant: called at decision level `0` with an empty queue
in a solver that is `ok`, it leaves the solver, when still `ok`, with the invariant at decision
level `0` and with an empty queue. -/
theorem addClause_stable (fuel : Nat) (s : SATModule E) (ps : List Lit) (r : Bool × SATModule E)
    (hS : Stable s) (hq : s.qhead = s.trail.length) (h0 : s.decisionLevel = 0)
    (hok : s.ok = true) (hps : ∀ l ∈ ps, l.var < s.nVars)
    (h : addClause_ fuel s ps = some r) :
    r.2.ok = true → Stable r.2 ∧ r.2.decisionLevel = 0 ∧ r.2.qhead = r.2.trail.length := by
  unfold addClause_ at h
  rw [if_neg (by simp [hok])] at h
  cases hK : addClauseLoop s none (sort ps) with
  | none =>
    simp only [hK, Option.some.injEq] at h
    subst h
    exact fun _ => ⟨hS, h0, hq⟩
  | some K =>
    obtain ⟨k1, k2, -, -⟩ := addClauseLoop_some s _ none K hK (sort_sorted ps)
      (by intro q hq'; cases hq')
    have knd := pairwise_lt_nodup K k2
    match K, hK, k1, knd with
    | [], hK, _, _ =>
      simp only [hK, Option.some.injEq] at h
      subst h
      intro hx
      cases hx
    | [l], hK, k1, _ =>
      have hu : s.value l = .l_Undef := (k1 l (List.mem_singleton.mpr rfl)).2
      have hlps : l ∈ ps := (mem_sort ps l).mp (k1 l (List.mem_singleton.mpr rfl)).1
      simp only [hK] at h
      cases hp : (s.uncheckedEnqueue l none).propagate fuel with
      | none => simp [hp] at h
      | some r1 =>
        obtain ⟨confl, s1⟩ := r1
        simp only [hp, Option.some.injEq] at h
        subst h
        intro hok1
        have hcn : confl = none := by
          have hx : (confl == none) = true := hok1
          cases confl with
          | none => rfl
          | some c => simp at hx
        subst hcn
        have hSe : Stable (s.uncheckedEnqueue l none) :=
          enqueue_stable s l none s.qhead hS (Nat.le_of_eq hq) hu (hps l hlps)
            (fun cr hcr => by cases hcr) (fun _ => Or.inl h0)
        obtain ⟨hq1, hS1, -⟩ := propagate_stable fuel _ s1 none hSe hp
        have f := propagate_frame fuel _ s1 none hp
        refine ⟨StableTo_congr (hS1 rfl) rfl rfl rfl rfl rfl rfl rfl rfl rfl rfl rfl rfl rfl rfl
          rfl rfl, ?_, hq1⟩
        show s1.trail_lim.length = 0
        rw [f.trail_lim_eq]
        exact h0
    | c0 :: c1 :: cs, hK, k1, knd =>
      simp only [hK, Option.some.injEq] at h
      subst h
      intro _
      have hrange : ∀ l ∈ c0 :: c1 :: cs, l.var < s.nVars :=
        fun l hl => hps l ((mem_sort ps l).mp (k1 l hl).1)
      obtain ⟨hca, hw⟩ := attach_fields s (c0 :: c1 :: cs) false
        ({ (s.alloc (c0 :: c1 :: cs) false).2 with
          clauses := (s.alloc (c0 :: c1 :: cs) false).2.clauses
            ++ [(s.alloc (c0 :: c1 :: cs) false).1] }) ⟨rfl, rfl⟩ knd (by simp)
      have hu0 : s.value c0 = .l_Undef := (k1 c0 (by simp)).2
      have hu1 : s.value c1 = .l_Undef := (k1 c1 (by simp)).2
      have hP' := Propagated_attach s _ ⟨c0 :: c1 :: cs, false, 0⟩ s.qhead hS.coherent
        hS.allocOK hS.propagated hca hw rfl rfl rfl
        (by
          intro i q _ hqi hqq
          exfalso
          have hqt := hS.coherent.trailOK.trail_true q (List.getElem?_mem hqi)
          rcases hqq with rfl | rfl
          · rw [value_neg_true] at hqt
            have : s.value c0 = .l_False := hqt
            rw [hu0] at this
            exact lbool.noConfusion this
          · rw [value_neg_true] at hqt
            have : s.value c1 = .l_False := hqt
            rw [hu1] at this
            exact lbool.noConfusion this)
      exact ⟨addOriginal_stable s _ s.qhead (hS.of_propagated (Propagated_zero s)) knd (by simp)
        hrange _ rfl hP', h0, hq⟩
theorem cancelUntil_ok (s : SATModule E) (L : Nat) : (s.cancelUntil L).ok = s.ok := by
  by_cases hd : s.decisionLevel > L
  · obtain ⟨-, -, -, -, -, -, -, -, -, -, -, f12, -⟩ := cancelUntil_fields s L hd
    exact f12
  · unfold cancelUntil
    rw [if_neg hd]

theorem getLiteral_ok [DecidableEq E] [Neg E] (s : SATModule E) (f : Formula E) :
    (getLiteral f s).2.ok = s.ok := by
  cases f with
  | BOOL identifier =>
    cases hb : s.mBooleanVarMap identifier with
    | some v => simp only [getLiteral, hb]
    | none => simp only [getLiteral, hb]; rfl
  | REALCONSTRAINT c =>
    cases hc : s.mConstraintLiteralMap (normalizedConstraint c) with
    | some l => rw [getLiteral_found s c l hc]
    | none => rw [getLiteral_fresh s c hc]; rfl

/-- The method `solve_` keeps the invariant: called in a solver that is `ok`, with the invariant,
it leaves the solver, when still `ok`, with the invariant at decision level `0` and with an empty
queue. -/
theorem solve_stable [DecidableEq E] (h : Environment E) (fuel : Nat) (s : SATModule E)
    (r : lbool × SATModule E) (hsorts : h.Sorts) (hS : Stable s) (hok : s.ok = true)
    (hr : solve_ h fuel s = some r) :
    r.2.ok = true → Stable r.2 ∧ r.2.decisionLevel = 0 ∧ r.2.qhead = r.2.trail.length := by
  unfold solve_ at hr
  rw [if_neg (by simp [hok])] at hr
  have hSe : Stable s.solveEntry :=
    StableTo_congr hS rfl rfl rfl rfl rfl rfl rfl rfl rfl rfl rfl rfl rfl rfl rfl
      hS.no_conflict.symm
  split at hr
  · cases hr
  · rename_i status s1 hl
    simp only [Option.some.injEq] at hr
    subst hr
    obtain ⟨a1, a2⟩ := solveLoop_stable h fuel hsorts fuel 0 _ s1 status hSe hok hl
    intro hok'
    by_cases hf : status = .l_False
    · exfalso
      have hc := a1 hf
      have he : solveExit status s1 = ({ s1 with ok := false } : SATModule E).cancelUntil 0 := by
        unfold solveExit
        subst hf
        simp [hc]
      have hok2 : (solveExit status s1).ok = true := hok'
      rw [he, cancelUntil_ok] at hok2
      cases hok2
    · obtain ⟨b1, b2, b3⟩ := a2 hf
      by_cases ht : status = .l_True
      · have he : solveExit status s1 = ({ s1 with
            model := (List.range s1.nVars).map s1.assigns } : SATModule E).cancelUntil 0 := by
          unfold solveExit
          simp [ht]
        show Stable (solveExit status s1) ∧ (solveExit status s1).decisionLevel = 0 ∧
          (solveExit status s1).qhead = (solveExit status s1).trail.length
        rw [he]
        obtain ⟨c1, c2, c3, -, -⟩ := cancelUntil_zero_stable
          ({ s1 with model := (List.range s1.nVars).map s1.assigns } : SATModule E)
          (StableTo_congr b1 rfl rfl rfl rfl rfl rfl rfl rfl rfl rfl rfl rfl rfl rfl rfl rfl) b2
        exact ⟨c1, c3, c2⟩
      · have he : solveExit status s1 = s1.cancelUntil 0 := by
          unfold solveExit
          simp [ht, hf]
        show Stable (solveExit status s1) ∧ (solveExit status s1).decisionLevel = 0 ∧
          (solveExit status s1).qhead = (solveExit status s1).trail.length
        rw [he]
        obtain ⟨c1, c2, c3, -, -⟩ := cancelUntil_zero_stable s1 b1 b2
        exact ⟨c1, c3, c2⟩

/-- The states between the calls of the interface have the invariant, as long as the solver is
`ok`: they are at decision level `0` and their queue is empty. -/
theorem AtRest_stable [DecidableEq E] [Neg E] (s : SATModule E) (hs : AtRest s) :
    s.ok = true → Stable s ∧ s.decisionLevel = 0 ∧ s.qhead = s.trail.length := by
  induction hs with
  | init ccmin_mode phase_saving =>
    intro _
    exact ⟨StableTo_congr (init_stable E) rfl rfl rfl rfl rfl rfl rfl rfl rfl rfl rfl rfl rfl
      rfl rfl rfl, rfl, rfl⟩
  | newVar s sign dvar _ ih =>
    intro hok
    obtain ⟨a1, a2, a3⟩ := ih hok
    exact ⟨newVar_stable s sign dvar a1, a2, a3⟩
  | getLiteral s f _ ih =>
    intro hok
    have hoks : s.ok = true := by rw [← getLiteral_ok s f]; exact hok
    obtain ⟨a1, a2, a3⟩ := ih hoks
    obtain ⟨g1, g2, g3, g4, g5⟩ := getLiteral_stable s f a1
    refine ⟨g1, ?_, ?_⟩
    · have e : (SATModule.getLiteral f s).2.decisionLevel = s.decisionLevel := by
        unfold decisionLevel
        rw [g2]
      rw [e]
      exact a2
    · rw [g3, g4]
      exact a3
  | addClause s ps fuel r _ hps hr ih =>
    intro hok
    have hoks : s.ok = true := by
      by_contra hne
      have hf : s.ok = false := by simpa using hne
      unfold addClause_ at hr
      rw [if_pos (by simp [hf])] at hr
      simp only [Option.some.injEq] at hr
      subst hr
      rw [hf] at hok
      cases hok
    obtain ⟨a1, a2, a3⟩ := ih hoks
    exact addClause_stable fuel s ps r a1 a3 a2 hoks hps hr hok
  | budgetOff s _ ih =>
    intro hok
    obtain ⟨a1, a2, a3⟩ := ih hok
    exact ⟨StableTo_congr a1 rfl rfl rfl rfl rfl rfl rfl rfl rfl rfl rfl rfl rfl rfl
      a1.no_assumptions.symm rfl, a2, a3⟩
  | solve s h fuel r _ hsorts hr ih =>
    intro hok
    have hoks : s.ok = true := by
      by_contra hne
      have hf : s.ok = false := by simpa using hne
      unfold solve_ at hr
      rw [if_pos (by simp [hf])] at hr
      simp only [Option.some.injEq] at hr
      subst hr
      rw [hf] at hok
      cases hok
    exact solve_stable h fuel s r hsorts (ih hoks).1 hoks hr hok
  | removeClause s cr _ ih =>
    intro hok
    have hoks : s.ok = true := by
      rw [← (removeClause_maintained s cr).1.ok_eq]
      exact hok
    obtain ⟨a1, a2, a3⟩ := ih hoks
    obtain ⟨b1, m⟩ := removeClause_stable s cr s.qhead a1 a2
    refine ⟨?_, ?_, ?_⟩
    · show StableTo (s.removeClause cr).qhead (s.removeClause cr)
      rw [m.qhead_eq]
      exact b1
    · show (s.removeClause cr).trail_lim.length = 0
      rw [m.trail_lim_eq]
      exact a2
    · rw [m.qhead_eq, m.trail_eq]
      exact a3
/-- The states in which `solve_` calls `search` have the invariant and are `ok`. -/
theorem SearchCall_stable [DecidableEq E] [Neg E] (h : Environment E) (s : SATModule E)
    (hs : SearchCall h s) : Stable s ∧ s.ok = true ∧ h.Sorts := by
  induction hs with
  | first s hr hok hsorts =>
    obtain ⟨a1, -, -⟩ := AtRest_stable s hr hok
    exact ⟨StableTo_congr a1 rfl rfl rfl rfl rfl rfl rfl rfl rfl rfl rfl rfl rfl rfl rfl
      a1.no_conflict.symm, hok, hsorts⟩
  | restart s fuel nof s' _ hr _ ih =>
    obtain ⟨a1, a2, a3⟩ := ih
    obtain ⟨b1, -, b3⟩ := (search_stable h fuel nof s s' .l_Undef a3 a1 a2 hr).2
      (fun hx => lbool.noConfusion hx)
    exact ⟨b1, b3, a3⟩

/-- The states at the top of the loop of `search` have the invariant and are `ok`. -/
theorem InSearch_stable [DecidableEq E] [Neg E] (h : Environment E) (s : SATModule E)
    (hs : InSearch h s) : Stable s ∧ s.ok = true ∧ h.Sorts := by
  induction hs with
  | start s hc =>
    obtain ⟨a1, a2, a3⟩ := SearchCall_stable h s hc
    exact ⟨StableTo_congr a1 rfl rfl rfl rfl rfl rfl rfl rfl rfl rfl rfl rfl rfl rfl rfl rfl,
      a2, a3⟩
  | pass s nof conflictC conflictC1 s' _ hp ih =>
    obtain ⟨a1, a2, a3⟩ := ih
    obtain ⟨b1, b2⟩ := (searchPass_stable h nof conflictC s _ a3 a1 a2 hp).1 _ _ rfl
    exact ⟨b1, b2, a3⟩

/-- The states in which `propagate` is called have the invariant: the trail, the watch lists, the
reasons and the levels agree, and the two watched literals are propagated up to `qhead`. -/
theorem PropagateCall_stable [DecidableEq E] [Neg E] (s : SATModule E)
    (hs : PropagateCall s) : Stable s := by
  cases hs with
  | addClause s ps l hr hok hps hK =>
    obtain ⟨a1, a2, a3⟩ := AtRest_stable s hr hok
    obtain ⟨k1, -, -, -⟩ := addClauseLoop_some s _ none [l] hK (sort_sorted ps)
      (by intro q hq'; cases hq')
    have hu : s.value l = .l_Undef := (k1 l (List.mem_singleton.mpr rfl)).2
    have hlps : l ∈ ps := (mem_sort ps l).mp (k1 l (List.mem_singleton.mpr rfl)).1
    exact enqueue_stable s l none s.qhead a1 (Nat.le_of_eq a3) hu (hps l hlps)
      (fun cr hcr => by cases hcr) (fun _ => Or.inl a2)
  | search h s hi => exact (InSearch_stable h s hi).1
  | simplify h s s1 hi hp =>
    obtain ⟨a1, -, -⟩ := InSearch_stable h s hi
    obtain ⟨-, b2, -⟩ := propagate_stable _ _ _ _ a1 hp
    exact adaptPassedFormula_stable s1 _ (b2 rfl)

/-- The states in which `analyze` is called: the invariant holds with the two watched literals
propagated at least up to the start of every decision level, the literals of the conflicting
clause are assigned, one of them at the current decision level, which is above `0`. -/
theorem AnalyzeCall_stable [DecidableEq E] [Neg E] (s : SATModule E) (confl : CRef)
    (hs : AnalyzeCall s confl) :
    (∃ n, StableTo n s ∧ ∀ d ∈ s.trail_lim, d ≤ n) ∧
    (∀ l ∈ (s.ca confl).lits, s.value l ≠ .l_Undef) ∧
    (∃ l ∈ (s.ca confl).lits, (s.vardata l.var).level = s.decisionLevel) ∧
    0 < s.decisionLevel := by
  cases hs with
  | propagation h s0 s1 confl hi hp hdl =>
    obtain ⟨a1, -, -⟩ := InSearch_stable h s0 hi
    obtain ⟨-, -, hc⟩ := propagate_stable _ _ _ _ a1 hp
    obtain ⟨⟨n, hn, hSn⟩, hfalse, hcur⟩ := hc confl rfl
    refine ⟨⟨n, StableTo_congr hSn rfl rfl rfl rfl rfl rfl rfl rfl rfl rfl rfl rfl rfl rfl rfl
      rfl, hn⟩, ?_, hcur, hdl⟩
    intro l hl
    have : s1.value l = .l_False := hfalse l hl
    show s1.value l ≠ .l_Undef
    rw [this]
    exact fun hx => lbool.noConfusion hx
  | theory h s0 s1 hi hp hb hdl =>
    obtain ⟨a1, -, -⟩ := InSearch_stable h s0 hi
    obtain ⟨hq1, hS1, -⟩ := propagate_stable _ _ _ _ a1 hp
    have hS2 : Stable s1.adaptPassedFormula := adaptPassedFormula_stable s1 _ (hS1 rfl)
    have hq2 : s1.adaptPassedFormula.qhead = s1.adaptPassedFormula.trail.length := hq1
    obtain ⟨k1, k2, k3, k4, k5, k6, k7, k8, k9⟩ :=
      learnTheoryLemma_stable s1.adaptPassedFormula hS2 hq2 hdl
    have hdl' : s1.adaptPassedFormula.learnTheoryLemma.2.decisionLevel
        = s1.adaptPassedFormula.decisionLevel := by
      unfold decisionLevel
      rw [k5]
    refine ⟨⟨_, StableTo_congr k1 rfl rfl rfl rfl rfl rfl rfl rfl rfl rfl rfl rfl rfl rfl rfl
      rfl, ?_⟩, ?_, ?_, ?_⟩
    · intro d hd'
      have hd2 : d ∈ s1.adaptPassedFormula.learnTheoryLemma.2.trail_lim := hd'
      rw [k5] at hd2
      exact Nat.le_of_lt (hS2.level_start d hd2)
    · intro l hl
      have hl2 : l ∈ (s1.adaptPassedFormula.learnTheoryLemma.2.ca
        s1.adaptPassedFormula.learnTheoryLemma.1).lits := hl
      rw [k2] at hl2
      show s1.adaptPassedFormula.learnTheoryLemma.2.value l ≠ .l_Undef
      rw [value_congr _ _ k3, k8 l hl2]
      exact fun hx => lbool.noConfusion hx
    · obtain ⟨l, hl, hlev⟩ := k9
      refine ⟨l, ?_, ?_⟩
      · show l ∈ (s1.adaptPassedFormula.learnTheoryLemma.2.ca
          s1.adaptPassedFormula.learnTheoryLemma.1).lits
        rw [k2]
        exact hl
      · show (s1.adaptPassedFormula.learnTheoryLemma.2.vardata l.var).level
          = s1.adaptPassedFormula.learnTheoryLemma.2.decisionLevel
        rw [k6, hdl']
        exact hlev
    · show 0 < s1.adaptPassedFormula.learnTheoryLemma.2.decisionLevel
      rw [hdl']
      exact hdl
/-! ## What `analyze` reads of the state -/

theorem analyzeClause_congr (s t : SATModule E) (hv : t.vardata = s.vardata)
    (hd : t.decisionLevel = s.decisionLevel) (L : List Lit) :
    ∀ acc, analyzeClause t L acc = analyzeClause s L acc := by
  induction L with
  | nil => intro acc; rfl
  | cons q qs ih =>
    intro acc
    obtain ⟨seen, pathC, out⟩ := acc
    simp only [analyzeClause, hv, hd, ih]

theorem analyzeLoop_congr (s t : SATModule E) (hv : t.vardata = s.vardata)
    (hd : t.decisionLevel = s.decisionLevel) (hl : ∀ cr, (t.ca cr).lits = (s.ca cr).lits)
    (ht : t.trail = s.trail) (fuel : Nat) :
    ∀ confl first n acc, analyzeLoop t fuel confl first n acc
      = analyzeLoop s fuel confl first n acc := by
  induction fuel with
  | zero => intro confl first n acc; rfl
  | succ fuel ih =>
    intro confl first n acc
    cases confl with
    | none => rfl
    | some cr =>
      simp only [analyzeLoop, hl, ht, hv, analyzeClause_congr s t hv hd, ih]

theorem litRedundantClause_congr (s t : SATModule E) (hv : t.vardata = s.vardata)
    (a : Nat) (L : List Lit) :
    ∀ acc, litRedundantClause t a L acc = litRedundantClause s a L acc := by
  induction L with
  | nil => intro acc; rfl
  | cons q qs ih =>
    intro acc
    obtain ⟨st, seen, tc⟩ := acc
    simp only [litRedundantClause, abstractLevel, hv, ih]

theorem litRedundantLoop_congr (s t : SATModule E) (hv : t.vardata = s.vardata)
    (hl : ∀ cr, (t.ca cr).lits = (s.ca cr).lits) (a top : Nat) (fuel : Nat) :
    ∀ st acc, litRedundantLoop t a top fuel st acc = litRedundantLoop s a top fuel st acc := by
  induction fuel with
  | zero => intro st acc; rfl
  | succ fuel ih =>
    intro st acc
    obtain ⟨seen, tc⟩ := acc
    simp only [litRedundantLoop, hl, hv, litRedundantClause_congr s t hv, ih]

theorem minimizeDeep_congr (s t : SATModule E) (hv : t.vardata = s.vardata)
    (hl : ∀ cr, (t.ca cr).lits = (s.ca cr).lits) (hn : t.nVars = s.nVars) (a : Nat)
    (L : List Lit) :
    ∀ acc, minimizeDeep t a L acc = minimizeDeep s a L acc := by
  induction L with
  | nil => intro acc; rfl
  | cons q qs ih =>
    intro acc
    simp only [minimizeDeep, litRedundant, hv, hn, litRedundantLoop_congr s t hv hl, ih]

theorem maxLevelIndex_congr (s t : SATModule E) (hv : t.vardata = s.vardata)
    (out : List Lit) (L : List Nat) :
    ∀ m, maxLevelIndex t out L m = maxLevelIndex s out L m := by
  induction L with
  | nil => intro m; rfl
  | cons i is ih =>
    intro m
    simp only [maxLevelIndex, hv, ih]

/-- The clause and the level that `analyze` returns depend on the state only through the trail,
the number of decision levels, the reasons and levels of the variables, the literals of the
clauses, the marks, `ccmin_mode` and the number of variables. -/
theorem analyze_congr (s t : SATModule E) (hv : t.vardata = s.vardata)
    (hd : t.decisionLevel = s.decisionLevel) (hl : ∀ cr, (t.ca cr).lits = (s.ca cr).lits)
    (ht : t.trail = s.trail) (hs : t.seen = s.seen) (hm : t.ccmin_mode = s.ccmin_mode)
    (hn : t.nVars = s.nVars) (confl : CRef) :
    (analyze t confl).map (fun r => (r.1, r.2.1))
      = (analyze s confl).map (fun r => (r.1, r.2.1)) := by
  have hmin : ∀ seen rest tc, minimizeLearnt t seen rest tc = minimizeLearnt s seen rest tc := by
    intro seen rest tc
    have hk : keptLocal t seen = keptLocal s seen := by
      funext q
      simp only [keptLocal, hv, hl]
    simp only [minimizeLearnt, hm, abstractLevel, hv, minimizeDeep_congr s t hv hl hn, hk]
  have hbt : ∀ out, backtrackLevel t out = backtrackLevel s out := by
    intro out
    simp only [backtrackLevel, maxLevelIndex_congr s t hv, hv]
  unfold analyze
  rw [analyzeLoop_congr s t hv hd hl ht, ht, hs]
  cases analyzeLoop s (s.trail.length + 1) (some confl) true s.trail.length (s.seen, 0, []) with
  | none => rfl
  | some r =>
    obtain ⟨p, seen, rest⟩ := r
    simp only [hmin]
    cases minimizeLearnt s seen rest (p.neg :: rest) with
    | none => rfl
    | some r2 =>
      obtain ⟨kept, seen1, tc1⟩ := r2
      simp only [hbt, Option.map_some']

/-! ## The claims on the states that the solver reaches -/

theorem AtRest_afterAddClause [DecidableEq E] [Neg E] (s : SATModule E) (ps : List Lit)
    (hs : AtRest s) (hps : ∀ l ∈ ps, l.var < s.nVars) : AtRest (afterAddClause s ps) := by
  unfold afterAddClause
  cases hq : addClause_ (s.nVars + s.trail.length + 1) s ps with
  | none => exact hs
  | some r => exact AtRest.addClause s ps _ r hs hps hq

theorem AtRest_popBacktrackLoop [DecidableEq E] [Neg E] (back fuel : Nat) :
    ∀ (level passes : Nat) (bt : List CRef) (s : SATModule E) (p : Nat) (bt' : List CRef)
      (s' : SATModule E), AtRest s →
      popBacktrackLoop fuel level back passes bt s = some (.done p bt' s') → AtRest s' := by
  induction fuel with
  | zero =>
    intro level passes bt s p bt' s' _ h
    rw [popBacktrackLoop] at h
    cases h
  | succ fuel ih =>
    intro level passes bt s p bt' s' hs h
    rw [popBacktrackLoop] at h
    split at h
    · split at h
      · cases h
      · rename_i cr hcr
        exact ih _ _ _ _ _ _ _ (AtRest.removeClause s cr hs) h
    · simp only [Option.some.injEq, PopResult.done.injEq] at h
      obtain ⟨-, -, rfl⟩ := h
      exact hs

/-- The method `popBacktrackPoint`, when its loop ends, leaves the solver in a state between two
calls of the interface. -/
theorem AtRest_popBacktrackPoint [DecidableEq E] [Neg E] (fuel size back : Nat)
    (bt : List CRef) (s : SATModule E) (p : Nat) (bt' : List CRef) (s' : SATModule E)
    (hs : AtRest s) (h : popBacktrackPoint fuel size back bt s = some (.done p bt' s')) :
    AtRest s' :=
  AtRest_popBacktrackLoop back fuel _ 0 bt s p bt' s' hs h

theorem InSearch_passes [DecidableEq E] [Neg E] (h : Environment E) (nof : Int) (n : Nat) :
    ∀ (conflictC : Int) (s : SATModule E), InSearch h s →
      InSearch h (passes h nof n conflictC s).2 := by
  induction n with
  | zero => intro conflictC s hs; exact hs
  | succ n ih =>
    intro conflictC s hs
    rw [passes]
    split
    · rename_i c1 s1 hp
      exact ih c1 s1 (InSearch.pass s nof conflictC c1 s1 hs hp)
    · exact hs

theorem plainEnvironment_sorts : plainEnvironment.Sorts := fun _ _ => List.Perm.refl _

theorem intervalEnvironment_sorts : intervalEnvironment.Sorts := fun _ _ => List.Perm.refl _

theorem fourAtoms_atRest : AtRest fourAtoms := by
  have h0 : AtRest (init LinExpr) := AtRest.init 2 2
  have h1 := AtRest.getLiteral _ (.REALCONSTRAINT ⟨(1, 0), .CR_LEQ⟩) h0
  have h2 := AtRest.getLiteral _ (.REALCONSTRAINT ⟨(-1, 1), .CR_LEQ⟩) h1
  have h3 := AtRest.getLiteral _ (.REALCONSTRAINT ⟨(1, -2), .CR_LEQ⟩) h2
  have h4 := AtRest.getLiteral _ (.REALCONSTRAINT ⟨(1, -3), .CR_LEQ⟩) h3
  have h5 := AtRest_afterAddClause _ [mkLit 2 true, mkLit 3 false] h4 (by decide)
  exact AtRest_afterAddClause _ [mkLit 3 true, mkLit 1 false, mkLit 2 true] h5 (by decide)

theorem fourAtoms_inSearch :
    InSearch intervalEnvironment
      { fourAtoms.solveEntry with starts := fourAtoms.solveEntry.starts + 1 } :=
  InSearch.start _ (SearchCall.first fourAtoms fourAtoms_atRest (by decide)
    intervalEnvironment_sorts)

theorem fourAtomsConflict_inSearch : InSearch intervalEnvironment fourAtomsConflict :=
  InSearch_passes intervalEnvironment 100 4 0 _ fourAtoms_inSearch

set_option maxRecDepth 100000 in
theorem fourAtomsAnalyze_call : AnalyzeCall fourAtomsAnalyze 1 := by
  have hW := (InSearch_stable _ _ fourAtomsConflict_inSearch).1.wellFormed
  have hp := afterPropagate_eq fourAtomsConflict hW
  have h1 : (afterPropagate fourAtomsConflict).1 = some 1 := by decide
  have hp' : propagate (fourAtomsConflict.nVars + fourAtomsConflict.trail.length)
      fourAtomsConflict = some (some 1, (afterPropagate fourAtomsConflict).2) := by
    rw [hp, ← h1]
  exact AnalyzeCall.propagation intervalEnvironment fourAtomsConflict _ 1
    fourAtomsConflict_inSearch hp' (by decide)

theorem searchLoop_true [DecidableEq E] (h : Environment E) (nof : Int) (hsorts : h.Sorts)
    (fuel : Nat) :
    ∀ (conflictC : Int) (s s' : SATModule E), Stable s → s.ok = true →
      searchLoop h nof fuel conflictC s = some (.l_True, s') →
      ∃ c0 s0, Stable s0 ∧ searchPass h nof c0 s0 = some (.returns .l_True s') := by
  induction fuel with
  | zero => intro conflictC s s' _ _ hr; rw [searchLoop] at hr; cases hr
  | succ fuel ih =>
    intro conflictC s s' hS hok hr
    rw [searchLoop] at hr
    split at hr
    · cases hr
    · rename_i status s1 hp
      simp only [Option.some.injEq, Prod.mk.injEq] at hr
      obtain ⟨rfl, rfl⟩ := hr
      exact ⟨conflictC, s, hS, hp⟩
    · rename_i c1 s1 hp
      obtain ⟨a1, a2⟩ := (searchPass_stable h nof conflictC s _ hsorts hS hok hp).1 _ _ rfl
      exact ih c1 s1 s' a1 a2 hr

/-- Claim C11: in every state in which the solver calls `propagate` (in `addClause_` after the
literal of a unit clause was enqueued, at the top of the loop of `search`, and in `simplify`),
`propagate` returns (with every amount of fuel from `nVars + trail.size() - qhead` on), and at its
return: when the result is a clause reference other than `CRef_Undef`, every literal of that
clause is false; and every literal that `propagate` enqueued has a reason, a clause in which it
is the literal `0` and in which all other literals are false. -/
theorem propagate_conflict_and_reasons [DecidableEq E] [Neg E] (s : SATModule E)
    (hs : PropagateCall s) (fuel : Nat) (hfuel : s.nVars + s.trail.length ≤ fuel + s.qhead) :
    ∃ confl s' new, propagate fuel s = some (confl, s') ∧ s'.trail = s.trail ++ new ∧
      (∀ cr, confl = some cr → ∀ l ∈ (s'.ca cr).lits, s'.value l = .l_False) ∧
      (∀ l ∈ new, ∃ cr, (s'.vardata l.var).reason = some cr ∧ (s'.ca cr).get 0 = l ∧
        ∀ l' ∈ (s'.ca cr).lits.tail, s'.value l' = .l_False) :=
  propagate_reasons s (PropagateCall_stable s hs).wellFormed (PropagateCall_stable s hs).coherent
    fuel hfuel

/-- Claim C11, witness: the scenario with four atoms at the top of the loop of `search` after the
theory lemma was learnt and the solver went back to level `2`; `propagate` finds a conflict
there. -/
theorem propagate_conflict_and_reasons_witness :
    PropagateCall fourAtomsConflict ∧
    ∃ confl s' new, propagate 5 fourAtomsConflict = some (confl, s') ∧
      s'.trail = fourAtomsConflict.trail ++ new ∧
      (∀ cr, confl = some cr → ∀ l ∈ (s'.ca cr).lits, s'.value l = .l_False) ∧
      (∀ l ∈ new, ∃ cr, (s'.vardata l.var).reason = some cr ∧ (s'.ca cr).get 0 = l ∧
        ∀ l' ∈ (s'.ca cr).lits.tail, s'.value l' = .l_False) :=
  ⟨PropagateCall.search _ _ fourAtomsConflict_inSearch,
    propagate_conflict_and_reasons fourAtomsConflict
      (PropagateCall.search _ _ fourAtomsConflict_inSearch) 5 (by decide)⟩

/-- Claim C12: watch-list completeness.  In every state in which the solver calls `propagate`
(in `addClause_`, at the top of the loop of `search`, also after theory lemmas were attached and
after the solver went back to a lower level, and in `simplify`), `propagate` returns, and when it
returns `CRef_Undef` the invariants hold again, the two watched literals are propagated for the
whole trail, no attached clause (a clause in `clauses` or `learnts` that is not marked as
deleted) has all of its literals false, and none has an unassigned literal with all its other
literals false. -/
theorem propagate_complete [DecidableEq E] [Neg E] (s : SATModule E) (hs : PropagateCall s)
    (fuel : Nat) (hfuel : s.nVars + s.trail.length ≤ fuel + s.qhead) :
    ∃ confl s', propagate fuel s = some (confl, s') ∧
      (confl = none → Coherent s' ∧ Propagated s' s'.trail.length ∧
        ∀ cr, cr ∈ s'.clauses ∨ cr ∈ s'.learnts → (s'.ca cr).mark ≠ 1 →
          (∃ l ∈ (s'.ca cr).lits, s'.value l ≠ .l_False) ∧
          (∀ l ∈ (s'.ca cr).lits, s'.value l = .l_Undef →
            ∃ l' ∈ (s'.ca cr).lits, l' ≠ l ∧ s'.value l' ≠ .l_False)) :=
  propagate_watched s (PropagateCall_stable s hs).wellFormed (PropagateCall_stable s hs).coherent
    (PropagateCall_stable s hs).propagated fuel hfuel

/-- Claim C12, witness: the scenario with four atoms at the top of the loop of `search` in the
first pass. -/
theorem propagate_complete_witness :
    PropagateCall
      ({ fourAtoms.solveEntry with starts := fourAtoms.solveEntry.starts + 1 }
        : SATModule LinExpr) ∧
    ∃ confl s', propagate 4 ({ fourAtoms.solveEntry with
        starts := fourAtoms.solveEntry.starts + 1 } : SATModule LinExpr) = some (confl, s') ∧
      (confl = none → Coherent s' ∧ Propagated s' s'.trail.length ∧
        ∀ cr, cr ∈ s'.clauses ∨ cr ∈ s'.learnts → (s'.ca cr).mark ≠ 1 →
          (∃ l ∈ (s'.ca cr).lits, s'.value l ≠ .l_False) ∧
          (∀ l ∈ (s'.ca cr).lits, s'.value l = .l_Undef →
            ∃ l' ∈ (s'.ca cr).lits, l' ≠ l ∧ s'.value l' ≠ .l_False)) :=
  ⟨PropagateCall.search _ _ fourAtoms_inSearch,
    propagate_complete _ (PropagateCall.search _ _ fourAtoms_inSearch) 4 (by decide)⟩

/-- Claim C16: in every state in which `search` calls `analyze` (after a conflict of `propagate`
or of the backends at a decision level of at least `1`), `analyze` returns, `out_btlevel` is `0`
when `out_learnt` has one literal and otherwise the level of `out_learnt[1]`, which is the
maximum of the levels of the literals `out_learnt[1..]`, and `out_btlevel` is below the current
decision level. -/
theorem analyze_backtrack_level [DecidableEq E] [Neg E] (s : SATModule E) (confl : CRef)
    (hs : AnalyzeCall s confl) :
    ∃ out_learnt out_btlevel s', analyze s confl = some (out_learnt, out_btlevel, s') ∧
      1 ≤ out_learnt.length ∧
      (out_learnt.length = 1 → out_btlevel = 0) ∧
      (out_learnt.length ≠ 1 →
        out_btlevel = (s.vardata (out_learnt.getD 1 ⟨0, false⟩).var).level ∧
        ∀ l ∈ out_learnt.drop 1, (s.vardata l.var).level ≤ out_btlevel) ∧
      out_btlevel < s.decisionLevel := by
  obtain ⟨⟨n, hS, -⟩, hassigned, hcur, hdl⟩ := AnalyzeCall_stable s confl hs
  exact analyze_level s hS.wellFormed hS.coherent hS.decisionOK hS.seen_clear confl hassigned
    hcur hdl

/-- Claim C16, witness: the call of `analyze` in the scenario with four atoms. -/
theorem analyze_backtrack_level_witness :
    AnalyzeCall fourAtomsAnalyze 1 ∧
    ∃ out_learnt out_btlevel s',
      analyze fourAtomsAnalyze 1 = some (out_learnt, out_btlevel, s') ∧
      1 ≤ out_learnt.length ∧
      (out_learnt.length = 1 → out_btlevel = 0) ∧
      (out_learnt.length ≠ 1 →
        out_btlevel = (fourAtomsAnalyze.vardata (out_learnt.getD 1 ⟨0, false⟩).var).level ∧
        ∀ l ∈ out_learnt.drop 1, (fourAtomsAnalyze.vardata l.var).level ≤ out_btlevel) ∧
      out_btlevel < fourAtomsAnalyze.decisionLevel :=
  ⟨fourAtomsAnalyze_call, analyze_backtrack_level fourAtomsAnalyze 1 fourAtomsAnalyze_call⟩

set_option maxRecDepth 100000 in
/-- The scenario with four atoms: the clause and the level that `analyze` returns in the state
`fourAtomsAnalyze`, with every value of `ccmin_mode`, are those it returns in the state with the
members written out. -/
theorem fourAtomsTable_analyze (mode : Nat) :
    (analyze (fourAtomsAnalyze.withCcminMode mode) 1).map (fun r => (r.1, r.2.1))
      = (analyze (fourAtomsTable.withCcminMode mode) 1).map (fun r => (r.1, r.2.1)) := by
  obtain ⟨⟨n, hS, -⟩, -, -, -⟩ := AnalyzeCall_stable _ _ fourAtomsAnalyze_call
  have hseen : fourAtomsAnalyze.seen = fun _ => false := by
    funext v
    exact hS.seen_clear v
  have hv : fourAtomsAnalyze.vardata = fourAtomsTable.vardata := by
    funext v
    by_cases h : v < 4
    · interval_cases v <;> decide
    · show fourAtomsAnalyze.vardata v = (if v < 4 then _ else fourAtomsAnalyze.vardata v)
      rw [if_neg h]
  have hl : ∀ cr, (fourAtomsAnalyze.ca cr).lits = (fourAtomsTable.ca cr).lits := by
    intro cr
    by_cases h : cr < 4
    · interval_cases cr <;> decide
    · show _ = ((if cr < 4 then _ else fourAtomsAnalyze.ca cr) : Clause).lits
      rw [if_neg h]
  have hd : fourAtomsAnalyze.decisionLevel = fourAtomsTable.decisionLevel := by decide
  have ht : fourAtomsAnalyze.trail = fourAtomsTable.trail := by decide
  have hn : fourAtomsAnalyze.nVars = fourAtomsTable.nVars := by decide
  exact analyze_congr (fourAtomsTable.withCcminMode mode) (fourAtomsAnalyze.withCcminMode mode)
    hv hd hl ht hseen rfl hn 1

set_option maxRecDepth 100000 in
theorem fourAtomsTable_result (mode : Nat) (hm : mode ∈ [0, 1, 2]) :
    (analyze (fourAtomsTable.withCcminMode mode) 1).map (fun r => (r.1, r.2.1))
      = some ([mkLit 1 false, mkLit 0 true], 1) := by
  revert mode
  decide

set_option maxRecDepth 100000 in
/-- Claim C17: the scenario with four atoms, in which `search` calls `analyze` with a clause that
`propagate` returned: its literals are all false and of the current decision level `2`.  The
clause that `analyze` returns, `[mkLit 1 false, mkLit 0 true]` with `out_btlevel = 1`, has a true
literal at position `1`, and after `cancelUntil( out_btlevel )` this literal is still true.  The
reason of the variable `2` in this state is the clause that `search` made from the clause of the
theory conflict: its other literals are true, as the clause of the theory conflict holds the
true literals. -/
theorem analyze_returns_true_literal :
    AnalyzeCall fourAtomsAnalyze 1 ∧ fourAtomsAnalyze.decisionLevel = 2 ∧
    (fourAtomsAnalyze.ca 1).lits = [mkLit 3 true, mkLit 2 true, mkLit 1 false] ∧
    (fourAtomsAnalyze.ca 1).lits.map fourAtomsAnalyze.value = [.l_False, .l_False, .l_False] ∧
    (fourAtomsAnalyze.ca 1).lits.map (fun l => (fourAtomsAnalyze.vardata l.var).level)
      = [2, 2, 2] ∧
    (analyze fourAtomsAnalyze 1).map (fun r => (r.1, r.2.1))
      = some ([mkLit 1 false, mkLit 0 true], 1) ∧
    [mkLit 1 false, mkLit 0 true].map fourAtomsAnalyze.value = [.l_False, .l_True] ∧
    (analyze fourAtomsAnalyze 1).map (fun r => r.1.map (r.2.2.cancelUntil r.2.1).value)
      = some [.l_Undef, .l_True] ∧
    (fourAtomsAnalyze.vardata 2).reason = some 3 ∧
    (fourAtomsAnalyze.ca 3).lits = [mkLit 2 false, mkLit 1 true, mkLit 0 true] ∧
    (fourAtomsAnalyze.ca 3).lits.map fourAtomsAnalyze.value = [.l_True, .l_True, .l_True] := by
  have h2 : (analyze fourAtomsAnalyze 1).map (fun r => (r.1, r.2.1))
      = (analyze (fourAtomsAnalyze.withCcminMode 2) 1).map (fun r => (r.1, r.2.1)) :=
    analyze_congr (fourAtomsAnalyze.withCcminMode 2) fourAtomsAnalyze rfl rfl (fun _ => rfl) rfl
      rfl (by decide) rfl 1
  have ha := h2.trans (fourAtomsTable_analyze 2)
  rw [fourAtomsTable_result 2 (by decide)] at ha
  have hc : (analyze fourAtomsAnalyze 1).map (fun r => r.1.map (r.2.2.cancelUntil r.2.1).value)
      = some [.l_Undef, .l_True] := by
    obtain ⟨⟨n, hS, -⟩, hassigned, hcur, hdl⟩ := AnalyzeCall_stable _ _ fourAtomsAnalyze_call
    obtain ⟨p, K, bt, s', han, -, ⟨g1, g2, g3, -⟩, -⟩ :=
      analyze_stable fourAtomsAnalyze n hS 1 hassigned hcur hdl
    rw [han] at ha ⊢
    simp only [Option.map_some', Option.some.injEq, Prod.mk.injEq] at ha
    obtain ⟨hK, hbt⟩ := ha
    have hL : 1 < s'.decisionLevel := by
      show 1 < s'.trail_lim.length
      rw [g3]
      decide
    have hval : ∀ l : Lit, (s'.cancelUntil 1).value l
        = (if l.var ∈ (fourAtomsAnalyze.trail.drop (fourAtomsAnalyze.trail_lim.getD 1 0)).map
            Lit.var then lbool.l_Undef else fourAtomsAnalyze.assigns l.var).xor l.sign := by
      intro l
      unfold value
      rw [cancelUntil_assigns s' 1 hL, g1, g2, g3]
    simp only [Option.map_some', hK, hbt, List.map_cons, List.map_nil, hval]
    decide
  exact ⟨fourAtomsAnalyze_call, by decide, by decide, by decide, by decide, ha, by decide,
    hc, by decide, by decide, by decide⟩

set_option maxRecDepth 100000 in
/-- Claim C18: the scenario with four atoms, in which `search` calls `analyze` with a clause of
`clauses` that `propagate` returned.  No literal of the trail is of level `0`.  With every value
of `ccmin_mode` the clause that `analyze` returns is `[mkLit 1 false, mkLit 0 true]`; the total
assignment in which only the variable `0` is true satisfies every clause of `clauses` and
`learnts` and does not satisfy this clause. -/
theorem learnt_clause_not_implied :
    AnalyzeCall fourAtomsAnalyze 1 ∧
    fourAtomsAnalyze.clauses = [0, 1] ∧ fourAtomsAnalyze.learnts = [2, 3] ∧
    (fourAtomsAnalyze.clauses ++ fourAtomsAnalyze.learnts).map
        (fun cr => (fourAtomsAnalyze.ca cr).lits)
      = [[mkLit 3 false, mkLit 2 true], [mkLit 3 true, mkLit 2 true, mkLit 1 false],
        [mkLit 0 true, mkLit 1 true, mkLit 2 true], [mkLit 2 false, mkLit 1 true, mkLit 0 true]] ∧
    fourAtomsAnalyze.trail.map (fun l => (fourAtomsAnalyze.vardata l.var).level)
      = [1, 2, 2, 2] ∧
    (∀ mode ∈ [0, 1, 2], (analyze (fourAtomsAnalyze.withCcminMode mode) 1).map (fun r => r.1)
      = some [mkLit 1 false, mkLit 0 true]) ∧
    (∀ cr ∈ fourAtomsAnalyze.clauses ++ fourAtomsAnalyze.learnts,
      satisfies onlyVarZero (fourAtomsAnalyze.ca cr).lits = true) ∧
    satisfies onlyVarZero [mkLit 1 false, mkLit 0 true] = false := by
  refine ⟨fourAtomsAnalyze_call, by decide, by decide, by decide, by decide, ?_, by decide,
    by decide⟩
  intro mode hm
  have ha := fourAtomsTable_analyze mode
  rw [fourAtomsTable_result mode hm] at ha
  have := congrArg (Option.map Prod.fst) ha
  simpa [Option.map_map, Function.comp] using this

set_option maxRecDepth 100000 in
/-- A clause that `popBacktrackPoint` removed stays in the list `clauses`.  For the solver with
the variables `0`, `1` and the clauses `[0, 1]` and `[0, ~1]`, `popBacktrackPoint` behind the
second assertion calls `removeClause` for the clause `1`; the state is one between two calls of
the interface; and the next call of `search` in `solve_` returns `l_True` with both literals of
the clause `1`, which is marked as deleted and is still in `clauses`, false. -/
theorem search_model_with_removed_clause :
    popBacktrackPoint 2 2 1 [0, 1] twoAssertions = some (.done 1 [0] secondRemoved) ∧
    AtRest secondRemoved ∧
    SearchCall plainEnvironment secondRemoved.solveEntry ∧
    (search plainEnvironment 6 100 secondRemoved.solveEntry).map
      (fun r => (r.1, r.2.clauses, (r.2.ca 1).mark, [0, 1].map r.2.decision))
      = some (.l_True, [0, 1], 1, [true, true]) ∧
    (search plainEnvironment 6 100 secondRemoved.solveEntry).map
      (fun r => ((r.2.ca 1).lits, (r.2.ca 1).lits.map r.2.value))
      = some ([mkLit 0 false, mkLit 1 true], [.l_False, .l_False]) := by
  have h1 : AtRest twoAssertions :=
    AtRest_afterAddClause _ _ (AtRest_afterAddClause twoVars _
      (AtRest.newVar _ true true (AtRest.newVar _ true true (AtRest.init 2 2))) (by decide))
      (by decide)
  have h2 : AtRest secondRemoved := AtRest.removeClause _ 1 h1
  exact ⟨rfl, h2, SearchCall.first _ h2 (by decide) plainEnvironment_sorts, by decide,
    by decide⟩

/-- Claim C25, amended: whenever `search`, called by `solve_`, returns `l_True`, no decision
variable is unassigned; if every variable is a decision variable, every clause in the list
`clauses` that is not marked as deleted has a literal that is true under the current assignment
(`popBacktrackPoint` marks a clause as deleted and leaves it in the list); and the model that
`solve_` copies has one entry per variable, the value of the variable in this assignment. -/
theorem search_model_found [DecidableEq E] [Neg E] (h : Environment E) (fuel : Nat) (nof : Int)
    (s s' : SATModule E) (hs : SearchCall h s)
    (hr : search h fuel nof s = some (.l_True, s')) :
    (∀ v, v < s'.nVars → s'.decision v = true → s'.assigns v ≠ .l_Undef) ∧
    ((∀ v, v < s'.nVars → s'.decision v = true) →
      ∀ cr ∈ s'.clauses, (s'.ca cr).mark ≠ 1 →
        ∃ l ∈ (s'.ca cr).lits, s'.value l = .l_True) ∧
    (solveExit .l_True s').model = (List.range s'.nVars).map s'.assigns ∧
    (solveExit .l_True s').model.length = s'.nVars := by
  obtain ⟨hS, hok, hsorts⟩ := SearchCall_stable h s hs
  unfold search at hr
  obtain ⟨c0, s0, hS0, hp⟩ := searchLoop_true h nof hsorts fuel 0
    ({ s with starts := s.starts + 1 }) s'
    (StableTo_congr hS rfl rfl rfl rfl rfl rfl rfl rfl rfl rfl rfl rfl rfl rfl rfl rfl) hok hr
  exact searchPass_model h nof c0 s0 s' hS0.wellFormed hS0.coherent hS0.propagated hS0.heapOK hp

set_option maxRecDepth 100000 in
/-- Claim C25, witness: the first call of `search` in `solve_` for the solver with the variables
`0`, `1` and the clause `[~0, 1]`, which returns `l_True`. -/
theorem search_model_found_witness :
    SearchCall plainEnvironment (afterAddClause twoVars [mkLit 0 true, mkLit 1 false]).solveEntry ∧
    ∃ s', search plainEnvironment 4 100
        (afterAddClause twoVars [mkLit 0 true, mkLit 1 false]).solveEntry = some (.l_True, s') ∧
      (∀ v, v < s'.nVars → s'.decision v = true → s'.assigns v ≠ .l_Undef) ∧
      ((∀ v, v < s'.nVars → s'.decision v = true) →
        ∀ cr ∈ s'.clauses, (s'.ca cr).mark ≠ 1 →
          ∃ l ∈ (s'.ca cr).lits, s'.value l = .l_True) ∧
      (solveExit .l_True s').model = (List.range s'.nVars).map s'.assigns ∧
      (solveExit .l_True s').model.length = s'.nVars := by
  have hcall : SearchCall plainEnvironment
      (afterAddClause twoVars [mkLit 0 true, mkLit 1 false]).solveEntry :=
    SearchCall.first _ (AtRest_afterAddClause twoVars _
      (AtRest.newVar _ true true (AtRest.newVar _ true true (AtRest.init 2 2))) (by decide))
      (by decide) plainEnvironment_sorts
  have e1 : (search plainEnvironment 4 100
      (afterAddClause twoVars [mkLit 0 true, mkLit 1 false]).solveEntry).map Prod.fst
        = some .l_True := by decide
  refine ⟨hcall, ?_⟩
  cases hq : search plainEnvironment 4 100
      (afterAddClause twoVars [mkLit 0 true, mkLit 1 false]).solveEntry with
  | none => rw [hq] at e1; cases e1
  | some r =>
    obtain ⟨st, s'⟩ := r
    rw [hq] at e1
    simp only [Option.map_some', Option.some.injEq] at e1
    subst e1
    exact ⟨s', rfl, search_model_found plainEnvironment 4 100 _ s' hcall hq⟩

/-- Claim C37: in every state in which `search` calls `analyze`, with every value of
`ccmin_mode`: `analyze` returns; the literals of the clause it returns are among those of the
clause it returns with mode `0`, the two clauses have the same first literal, and at the return
no variable is marked as seen. -/
theorem analyze_ccmin_modes [DecidableEq E] [Neg E] (s : SATModule E) (confl : CRef)
    (hs : AnalyzeCall s confl) (mode : Nat) :
    ∃ out0 bt0 s0 out bt s',
      analyze (s.withCcminMode 0) confl = some (out0, bt0, s0) ∧
      analyze (s.withCcminMode mode) confl = some (out, bt, s') ∧
      (∀ l ∈ out, l ∈ out0) ∧ out.head? = out0.head? ∧
      (∀ v : Nat, s0.seen v = false) ∧ (∀ v : Nat, s'.seen v = false) := by
  obtain ⟨⟨n, hS, -⟩, hassigned, hcur, hdl⟩ := AnalyzeCall_stable s confl hs
  exact analyze_modes s hS.wellFormed hS.coherent hS.decisionOK hS.seen_clear confl hassigned
    hcur hdl mode

/-- Claim C37, witness: the call of `analyze` in the scenario with four atoms, with the modes `0`
and `2`. -/
theorem analyze_ccmin_modes_witness :
    AnalyzeCall fourAtomsAnalyze 1 ∧
    ∃ out0 bt0 s0 out bt s',
      analyze (fourAtomsAnalyze.withCcminMode 0) 1 = some (out0, bt0, s0) ∧
      analyze (fourAtomsAnalyze.withCcminMode 2) 1 = some (out, bt, s') ∧
      (∀ l ∈ out, l ∈ out0) ∧ out.head? = out0.head? ∧
      (∀ v : Nat, s0.seen v = false) ∧ (∀ v : Nat, s'.seen v = false) :=
  ⟨fourAtomsAnalyze_call, analyze_ccmin_modes fourAtomsAnalyze 1 fourAtomsAnalyze_call 2⟩
end SATModule

/-! ## The functions of `Constraint.cpp` -/

/-- Claim C28: `Constraint::isConsistent` returns `2` if and only if the constraint has at least
one variable; for a constraint without variables whose left-hand side has the numeric value `v`
it returns `1` or `0`, and it returns `1` if and only if `v = 0` for `CR_EQ`, `v != 0` for
`CR_NEQ`, `v < 0` for `CR_LESS`, `v > 0` for `CR_GREATER`, `v <= 0` for `CR_LEQ` and `v >= 0` for
`CR_GEQ`. -/
theorem Constraint.isConsistent_spec {E : Type} [Expression E] (c : Constraint E) :
    (c.isConsistent = 2 ↔ 1 ≤ c.variables.length) ∧
    (c.variables.length = 0 →
      (c.isConsistent = 1 ∨ c.isConsistent = 0) ∧
      (c.isConsistent = 1 ↔
        match c.relation with
        | .CR_EQ => Expression.numeric c.lhs = 0
        | .CR_NEQ => Expression.numeric c.lhs ≠ 0
        | .CR_LESS => Expression.numeric c.lhs < 0
        | .CR_GREATER => Expression.numeric c.lhs > 0
        | .CR_LEQ => Expression.numeric c.lhs ≤ 0
        | .CR_GEQ => Expression.numeric c.lhs ≥ 0)) := by
  constructor
  · unfold Constraint.isConsistent
    split
    · rename_i h
      rw [h]
      split <;> simp
    · rename_i h
      simp only [true_iff]
      omega
  · intro h
    unfold Constraint.isConsistent
    rw [if_pos h]
    constructor
    · split
      · exact Or.inl rfl
      · exact Or.inr rfl
    · cases hr : c.relation <;> simp [evaluate]

/-- Claim C29: `Constraint::compare` is not sound for the result `1` when the second constraint
is a disequation.  For `A: x < 0` and `B: -x - 1 != 0` both leading coefficients are rational,
`lhsA` stays `x` and `lhsB` stays `-x - 1`, `result1 = 2*x + 1` has no flag, and
`result2 = -1 * (lhsA + lhsB) = 1` is nonnegative, so that the result is `1`; but `x = -1`
satisfies `A` and not `B`.  The same holds in the three other cases of `CR_NEQ` for
`_constraintB`: `x > 0` with `-x + 1 != 0` at `x = 1`, `x <= 0` with `-x - 1 != 0` at `x = -1`,
and `x >= 0` with `-x + 1 != 0` at `x = 1`. -/
theorem Constraint.compare_unsound_for_disequation :
    (xNegative.variables = ["x"] ∧ xNotMinusOne.variables = ["x"] ∧
      Constraint.compare xNegative xNotMinusOne = 1 ∧
      xNegative.holdsAt (-1) = true ∧ xNotMinusOne.holdsAt (-1) = false) ∧
    (Constraint.compare xPositive xNotOne = 1 ∧
      xPositive.holdsAt 1 = true ∧ xNotOne.holdsAt 1 = false) ∧
    (Constraint.compare xNonpositive xNotMinusOne = 1 ∧
      xNonpositive.holdsAt (-1) = true ∧ xNotMinusOne.holdsAt (-1) = false) ∧
    (Constraint.compare xNonnegative xNotOne = 1 ∧
      xNonnegative.holdsAt 1 = true ∧ xNotOne.holdsAt 1 = false) := by
  have e1 : Poly.eval [0, 1] (-1) = -1 := by decide
  have e2 : Poly.eval [-1, -1] (-1) = 0 := by decide
  have e3 : Poly.eval [0, 1] 1 = 1 := by decide
  have e4 : Poly.eval [1, -1] 1 = 0 := by decide
  refine ⟨⟨by decide, by decide, by decide, ?_, ?_⟩, ⟨by decide, ?_, ?_⟩, ⟨by decide, ?_, ?_⟩,
    ⟨by decide, ?_, ?_⟩⟩ <;>
  simp [Constraint.holdsAt, xNegative, xNotMinusOne, xPositive, xNotOne, xNonpositive,
    xNonnegative, evaluate, e1, e2, e3, e4]

/-- Claim C30: `Constraint::combineConstraints` returns `true` for `A: x > 0`,
`B: 2*x + 1 <= 0` and the condition `C: x + 1 >= 0`, because in the case of `CR_GREATER`,
`CR_LEQ` and `CR_GEQ` it tests `A.lhs - B.lhs + C.lhs == 0`; but at `x = 0` the condition `C`
holds and neither `A` nor `B` holds. -/
theorem Constraint.combineConstraints_unsound :
    xPositive.variables = ["x"] ∧ twoXPlusOneNonpositive.variables = ["x"] ∧
    xPlusOneNonnegative.variables = ["x"] ∧
    Expression.normalize (Expression.add (Expression.sub xPositive.lhs
      twoXPlusOneNonpositive.lhs) xPlusOneNonnegative.lhs) = ([] : Poly) ∧
    Constraint.combineConstraints xPositive twoXPlusOneNonpositive xPlusOneNonnegative = true ∧
    xPlusOneNonnegative.holdsAt 0 = true ∧ xPositive.holdsAt 0 = false ∧
    twoXPlusOneNonpositive.holdsAt 0 = false := by
  have e1 : Poly.eval [0, 1] 0 = 0 := by decide
  have e2 : Poly.eval [1, 2] 0 = 1 := by decide
  have e3 : Poly.eval [1, 1] 0 = 1 := by decide
  refine ⟨by decide, by decide, by decide, by decide, by decide, ?_, ?_, ?_⟩ <;>
  simp [Constraint.holdsAt, xPositive, twoXPlusOneNonpositive, xPlusOneNonnegative, evaluate,
    e1, e2, e3]

namespace ConstraintPool

theorem find_none (e : List Char) (c : Char) (h : ∀ a ∈ e, a ≠ c) : find e c = none := by
  induction e with
  | nil => rfl
  | cons a e ih =>
    rw [find, if_neg (h a (List.mem_cons_self _ _)),
      ih (fun b hb => h b (List.mem_cons_of_mem _ hb))]
    rfl

theorem find_append (l r : List Char) (c : Char) (h : ∀ a ∈ l, a ≠ c) :
    find (l ++ r) c = (find r c).map (fun i => i + l.length) := by
  induction l with
  | nil => simp
  | cons a l ih =>
    rw [List.cons_append, find, if_neg (h a (List.mem_cons_self _ _)),
      ih (fun b hb => h b (List.mem_cons_of_mem _ hb))]
    cases find r c <;> simp [Nat.add_assoc]

theorem substr_left (l r : List Char) : substr (l ++ r) 0 l.length = l := by
  simp [substr]

theorem substr_right (l op r : List Char) (k : Nat) (hk : (l ++ op ++ r).length ≤ k)
    (hlt : l.length + op.length < k + 1) :
    substr (l ++ op ++ r) ((l.length + op.length) % (k + 1)) k = r := by
  rw [Nat.mod_eq_of_lt hlt]
  unfold substr
  have : (l ++ op ++ r).drop (l.length + op.length) = r := by
    rw [← List.length_append, List.drop_left]
  rw [this, List.take_of_length_le]
  simp only [List.length_append] at hk
  omega

theorem findOperator_eq (rel : Constraint_Relation) (l r : List Char)
    (hl : OperatorFree l) (hr : OperatorFree r) (_polarity : Bool) :
    findOperator (l ++ operatorOf rel ++ r) _polarity
      = (some l.length,
          (if _polarity then rel else
            match rel with
            | .CR_EQ => .CR_NEQ
            | .CR_NEQ => .CR_EQ
            | .CR_LESS => .CR_GEQ
            | .CR_GREATER => .CR_LEQ
            | .CR_LEQ => .CR_GREATER
            | .CR_GEQ => .CR_LESS),
          (operatorOf rel).length) := by
  have fl : ∀ c, c = '=' ∨ c = '<' ∨ c = '>' ∨ c = '!' → ∀ a ∈ l, a ≠ c := by
    intro c hc a ha
    obtain ⟨h1, h2, h3, h4⟩ := hl a ha
    rcases hc with rfl | rfl | rfl | rfl <;> assumption
  have fr : ∀ c, c = '=' ∨ c = '<' ∨ c = '>' ∨ c = '!' → find r c = none := by
    intro c hc
    apply find_none
    intro a ha
    obtain ⟨h1, h2, h3, h4⟩ := hr a ha
    rcases hc with rfl | rfl | rfl | rfl <;> assumption
  have key : ∀ c, c = '=' ∨ c = '<' ∨ c = '>' ∨ c = '!' →
      find (l ++ operatorOf rel ++ r) c
        = (find (operatorOf rel ++ r) c).map (fun i => i + l.length) := by
    intro c hc
    rw [List.append_assoc]
    exact find_append l _ c (fl c hc)
  have e1 := key '=' (Or.inl rfl)
  have e2 := key '<' (Or.inr (Or.inl rfl))
  have e3 := key '>' (Or.inr (Or.inr (Or.inl rfl)))
  have e4 := key '!' (Or.inr (Or.inr (Or.inr rfl)))
  have r1 := fr '=' (Or.inl rfl)
  have r2 := fr '<' (Or.inr (Or.inl rfl))
  have r3 := fr '>' (Or.inr (Or.inr (Or.inl rfl)))
  have r4 := fr '!' (Or.inr (Or.inr (Or.inr rfl)))
  unfold findOperator
  rw [e1, e2, e3, e4]
  cases rel <;> cases _polarity <;>
  simp [operatorOf, find, r1, r2, r3, r4]

/-- Claim C31: for a constraint string `l op r` in infix notation whose sides `l` and `r` hold
none of the characters `=`, `<`, `>`, `!` and whose operator `op` is one of `=`, `!=`, `<`, `>`,
`<=`, `>=`, the relation that `ConstraintPool::newConstraint` selects with `_polarity = true` is
the relation written in the string, and the relation it selects with `_polarity = false` is its
negation: for every value `v`, `evaluate` is true for the one exactly if it is false for the
other.  With both polarities the strings handed to the parser are `l` and `r`. -/
theorem newConstraint_relation (rel : Constraint_Relation) (l r : List Char)
    (hl : OperatorFree l) (hr : OperatorFree r)
    (hlen : (l ++ operatorOf rel ++ r).length ≤ npos) :
    (newConstraint (l ++ operatorOf rel ++ r) true).relation = rel ∧
    (∀ v : ℚ, evaluate v (newConstraint (l ++ operatorOf rel ++ r) false).relation
      = !evaluate v (newConstraint (l ++ operatorOf rel ++ r) true).relation) ∧
    (∀ _polarity : Bool,
      (newConstraint (l ++ operatorOf rel ++ r) _polarity).lhsString = l ∧
      (newConstraint (l ++ operatorOf rel ++ r) _polarity).rhsString = r) := by
  have hsl := substr_left l (operatorOf rel ++ r)
  rw [← List.append_assoc] at hsl
  have hsr := substr_right l (operatorOf rel) r npos hlen
    (by simp only [List.length_append] at hlen; omega)
  refine ⟨?_, ?_, ?_⟩
  · unfold newConstraint
    rw [findOperator_eq rel l r hl hr]
    rfl
  · intro v
    unfold newConstraint
    rw [findOperator_eq rel l r hl hr, findOperator_eq rel l r hl hr]
    cases rel <;> simp [evaluate, SATModule.decide_le_eq_not_decide_lt]
  · intro p
    unfold newConstraint
    rw [findOperator_eq rel l r hl hr]
    exact ⟨hsl, hsr⟩

/-- Claim C31, witness: the constraint string `x<=1`. -/
theorem newConstraint_relation_witness :
    (newConstraint (['x'] ++ operatorOf .CR_LEQ ++ ['1']) true).relation = .CR_LEQ ∧
    (∀ v : ℚ, evaluate v (newConstraint (['x'] ++ operatorOf .CR_LEQ ++ ['1']) false).relation
      = !evaluate v (newConstraint (['x'] ++ operatorOf .CR_LEQ ++ ['1']) true).relation) ∧
    (∀ _polarity : Bool,
      (newConstraint (['x'] ++ operatorOf .CR_LEQ ++ ['1']) _polarity).lhsString = ['x'] ∧
      (newConstraint (['x'] ++ operatorOf .CR_LEQ ++ ['1']) _polarity).rhsString = ['1']) :=
  newConstraint_relation .CR_LEQ ['x'] ['1'] (by unfold OperatorFree; decide)
    (by unfold OperatorFree; decide) (by unfold npos; decide)

end ConstraintPool

namespace vs

variable {P : Type}

theorem sk_value {K : Type} [Field K] [CommRing P] (ev : P →+* K) (_subTerm : SqrtEx P)
    (i : Nat) : ev (sk _subTerm i) = ev _subTerm.mDenominator ^ i := by
  induction i with
  | zero => simp [sk]
  | succ i ih => rw [sk, map_mul, ih, pow_succ]

theorem qrk_value {K : Type} [Field K] [CommRing P] (ev : P →+* K) (_subTerm : SqrtEx P)
    (x : K) (hx : x * x = ev _subTerm.mRadicand) (i : Nat) :
    ev (qrk _subTerm i).1 + ev (qrk _subTerm i).2 * x
      = (ev _subTerm.mConstantPart + ev _subTerm.mFactor * x) ^ (i + 1) := by
  induction i with
  | zero => simp [qrk]
  | succ i ih =>
    rw [pow_succ, ← ih]
    simp only [qrk, map_add, map_mul]
    rw [← hx]
    ring

theorem resLoop_value {K : Type} [Field K] [CommRing P] (ev : P →+* K)
    (varInfo : VariableInformation P) (_subTerm : SqrtEx P) (x : K)
    (hx : x * x = ev _subTerm.mRadicand) (n m : Nat) :
    ev (resLoop varInfo _subTerm n m).1 + ev (resLoop varInfo _subTerm n m).2 * x
      = ∑ k in Finset.range (m + 1), ev (varInfo.coeffs k)
          * (ev _subTerm.mConstantPart + ev _subTerm.mFactor * x) ^ k
          * ev _subTerm.mDenominator ^ (n - k) := by
  induction m with
  | zero =>
    simp only [resLoop, map_mul, map_zero, zero_mul, add_zero, zero_add, Finset.range_one,
      Finset.sum_singleton, pow_zero, mul_one, Nat.sub_zero, sk_value]
    ring
  | succ m ih =>
    rw [Finset.sum_range_succ, ← ih, ← qrk_value ev _subTerm x hx m]
    simp only [resLoop, map_add, map_mul, sk_value]
    ring

/-- Claim C32: `operator+`, `operator-` and `operator*` hand the radicand of the first operand to
the constructor, which sets the factor to `0` for the radicand `0`.  For `a = 1`, which has no
square root, and `b = (0 + 1 * sqrt(4)) / 1` the asserted precondition holds, the values are `1`
and `2`, and the results `a + b`, `a - b` and `a * b` have no square root and the values `1`, `1`
and `0`, not `3`, `-1` and `2`; in the other order `b + a` has the value `3`.  Every sum,
difference and product whose first operand has the radicand `0` has the factor `0`. -/
theorem SqrtEx.operators_drop_square_root_of_second :
    sqrtExOne = ⟨1, 0, 1, 0⟩ ∧ sqrtExRootFour = ⟨0, 1, 1, 4⟩ ∧
    sqrtExOne.hasSqrt = false ∧ SqrtEx.compatible sqrtExOne sqrtExRootFour = true ∧
    SqrtEx.value (fun z : Int => (z : ℚ)) sqrtOfFour sqrtExOne = 1 ∧
    SqrtEx.value (fun z : Int => (z : ℚ)) sqrtOfFour sqrtExRootFour = 2 ∧
    SqrtEx.add sqrtExOne sqrtExRootFour = ⟨1, 0, 1, 0⟩ ∧
    SqrtEx.value (fun z : Int => (z : ℚ)) sqrtOfFour (SqrtEx.add sqrtExOne sqrtExRootFour) = 1 ∧
    SqrtEx.value (fun z : Int => (z : ℚ)) sqrtOfFour (SqrtEx.sub sqrtExOne sqrtExRootFour) = 1 ∧
    SqrtEx.value (fun z : Int => (z : ℚ)) sqrtOfFour (SqrtEx.mul sqrtExOne sqrtExRootFour) = 0 ∧
    SqrtEx.value (fun z : Int => (z : ℚ)) sqrtOfFour (SqrtEx.add sqrtExRootFour sqrtExOne) = 3 ∧
    (∀ a b : SqrtEx Int, a.mRadicand = 0 →
      (SqrtEx.add a b).mFactor = 0 ∧ (SqrtEx.sub a b).mFactor = 0 ∧
      (SqrtEx.mul a b).mFactor = 0) := by
  have e1 : SqrtEx.add sqrtExOne sqrtExRootFour = ⟨1, 0, 1, 0⟩ := by decide
  have e2 : SqrtEx.sub sqrtExOne sqrtExRootFour = ⟨1, 0, 1, 0⟩ := by decide
  have e3 : SqrtEx.mul sqrtExOne sqrtExRootFour = ⟨0, 0, 1, 0⟩ := by decide
  have e4 : SqrtEx.add sqrtExRootFour sqrtExOne = ⟨1, 1, 1, 4⟩ := by decide
  have e5 : sqrtExOne = ⟨1, 0, 1, 0⟩ := by decide
  have e6 : sqrtExRootFour = ⟨0, 1, 1, 4⟩ := by decide
  refine ⟨e5, e6, by decide, by decide, ?_, ?_, e1, ?_, ?_, ?_, ?_, ?_⟩
  · rw [e5]; norm_num [SqrtEx.value, sqrtOfFour]
  · rw [e6]; norm_num [SqrtEx.value, sqrtOfFour]
  · rw [e1]; norm_num [SqrtEx.value, sqrtOfFour]
  · rw [e2]; norm_num [SqrtEx.value, sqrtOfFour]
  · rw [e3]; norm_num [SqrtEx.value, sqrtOfFour]
  · rw [e4]; norm_num [SqrtEx.value, sqrtOfFour]
  · intro a b h
    simp [SqrtEx.add, SqrtEx.sub, SqrtEx.mul, SqrtEx.new, h]

/-- Claim C33: `operator/` hands `_sqrtEx1.denominator() * _sqrtEx2.factor()` to the constructor
as denominator.  For every divisor without a square root (the factor is `0`, as the operator
asserts) this denominator is `0`, against the precondition `_denominator != 0` of the
constructor.  For `a = 1` and `b = 2`, both without a square root and `b` with the value `2`, the
result of `a / b` has the denominator `0`. -/
theorem SqrtEx.division_by_factor_of_divisor :
    (∀ a b : SqrtEx Int, b.hasSqrt = false → SqrtEx.divDenominator a b = 0) ∧
    sqrtExOne = ⟨1, 0, 1, 0⟩ ∧ sqrtExTwo = ⟨2, 0, 1, 0⟩ ∧ sqrtExTwo.hasSqrt = false ∧
    SqrtEx.value (fun z : Int => (z : ℚ)) sqrtOfFour sqrtExTwo = 2 ∧
    SqrtEx.divDenominator sqrtExOne sqrtExTwo = 0 ∧
    SqrtEx.div sqrtExOne sqrtExTwo = ⟨1, 0, 0, 0⟩ ∧
    (SqrtEx.div sqrtExOne sqrtExTwo).mDenominator = 0 := by
  have e : sqrtExTwo = ⟨2, 0, 1, 0⟩ := by decide
  refine ⟨?_, by decide, e, by decide, ?_, by decide, by decide, by decide⟩
  · intro a b h
    have hf : b.mFactor = 0 := by
      unfold SqrtEx.hasSqrt at h
      simpa using h
    unfold SqrtEx.divDenominator
    rw [hf, mul_zero]
  · rw [e]; norm_num [SqrtEx.value, sqrtOfFour]

/-- Claim C34: for the polynomial with the coefficients `coeffs( 0 ), ..., coeffs( n )` in the
variable, `n = maxDegree()`, and the square root expression `(q + r * sqrt(t)) / s`,
`SqrtEx::subBySqrtEx` returns for `n = 0` the polynomial unchanged, as the square root expression
with the polynomial as constant part, and for `n > 0` an expression whose value is the sum of
`coeffs( k ) * (q + r * sqrt(t))^k * s^(n - k)` for `k = 0, ..., n`, divided by `s^n`.  The values
are taken in a field by a ring homomorphism `ev` and a function `sqrt` whose value at the radicand
`t` is a square root of `t`. -/
theorem SqrtEx.subBySqrtEx_value {K : Type} [Field K] [CommRing P] [DecidableEq P]
    (ev : P →+* K) (sqrt : K → K) (_poly : P) (varInfo : VariableInformation P)
    (_subTerm : SqrtEx P)
    (hsqrt : sqrt (ev _subTerm.mRadicand) * sqrt (ev _subTerm.mRadicand)
      = ev _subTerm.mRadicand) :
    (varInfo.maxDegree = 0 →
      SqrtEx.subBySqrtEx _poly varInfo _subTerm = SqrtEx.ofPolynomial _poly ∧
      SqrtEx.value ev sqrt (SqrtEx.subBySqrtEx _poly varInfo _subTerm) = ev _poly) ∧
    (0 < varInfo.maxDegree →
      SqrtEx.value ev sqrt (SqrtEx.subBySqrtEx _poly varInfo _subTerm)
        = (∑ k in Finset.range (varInfo.maxDegree + 1), ev (varInfo.coeffs k)
            * (ev _subTerm.mConstantPart
                + ev _subTerm.mFactor * sqrt (ev _subTerm.mRadicand)) ^ k
            * ev _subTerm.mDenominator ^ (varInfo.maxDegree - k))
          / ev _subTerm.mDenominator ^ varInfo.maxDegree) := by
  constructor
  · intro h0
    have e : SqrtEx.subBySqrtEx _poly varInfo _subTerm = SqrtEx.ofPolynomial _poly := by
      unfold SqrtEx.subBySqrtEx
      simp [h0]
    refine ⟨e, ?_⟩
    rw [e]
    simp [SqrtEx.value, SqrtEx.ofPolynomial]
  · intro hn
    have hne : ¬ varInfo.maxDegree = 0 := Nat.ne_of_gt hn
    rw [← resLoop_value ev varInfo _subTerm _ hsqrt varInfo.maxDegree varInfo.maxDegree]
    unfold SqrtEx.subBySqrtEx
    simp only [if_neg hne]
    generalize resLoop varInfo _subTerm varInfo.maxDegree varInfo.maxDegree = res
    unfold SqrtEx.value SqrtEx.new
    dsimp only
    by_cases ht : _subTerm.mRadicand = 0
    · have hs0 : sqrt (ev _subTerm.mRadicand) = 0 := by
        have := hsqrt
        rw [ht, map_zero] at this
        rw [ht, map_zero]
        exact mul_self_eq_zero.mp this
      rw [hs0]
      simp only [if_pos ht, map_zero, zero_mul, mul_zero, add_zero, true_and]
      by_cases hc : res.1 = 0
      · simp [hc]
      · rw [if_neg hc, sk_value]
    · rw [if_neg ht]
      by_cases hf : res.2 = 0
      · simp only [hf, map_zero, zero_mul, add_zero, if_true, true_and]
        by_cases hc : res.1 = 0
        · simp [hc]
        · rw [if_neg hc, sk_value]
      · rw [if_neg hf, if_neg (fun h => hf h.1), sk_value]

/-- Claim C34, witness: the polynomial `x^2 + 1` and the square root expression
`(1 + 1 * sqrt(4)) / 2`, with the value `3 / 2`. -/
theorem SqrtEx.subBySqrtEx_value_witness :
    SqrtEx.subBySqrtEx 0 xSquarePlusOne onePlusRootFourHalf = ⟨9, 2, 4, 4⟩ ∧
    (xSquarePlusOne.maxDegree = 0 →
      SqrtEx.subBySqrtEx 0 xSquarePlusOne onePlusRootFourHalf = SqrtEx.ofPolynomial 0 ∧
      SqrtEx.value (Int.castRingHom ℚ) sqrtOfFour
        (SqrtEx.subBySqrtEx 0 xSquarePlusOne onePlusRootFourHalf) = Int.castRingHom ℚ 0) ∧
    (0 < xSquarePlusOne.maxDegree →
      SqrtEx.value (Int.castRingHom ℚ) sqrtOfFour
          (SqrtEx.subBySqrtEx 0 xSquarePlusOne onePlusRootFourHalf)
        = (∑ k in Finset.range (xSquarePlusOne.maxDegree + 1),
            Int.castRingHom ℚ (xSquarePlusOne.coeffs k)
            * (Int.castRingHom ℚ onePlusRootFourHalf.mConstantPart
                + Int.castRingHom ℚ onePlusRootFourHalf.mFactor
                  * sqrtOfFour (Int.castRingHom ℚ onePlusRootFourHalf.mRadicand)) ^ k
            * Int.castRingHom ℚ onePlusRootFourHalf.mDenominator
                ^ (xSquarePlusOne.maxDegree - k))
          / Int.castRingHom ℚ onePlusRootFourHalf.mDenominator ^ xSquarePlusOne.maxDegree) :=
  ⟨by decide,
    SqrtEx.subBySqrtEx_value (Int.castRingHom ℚ) sqrtOfFour 0 xSquarePlusOne onePlusRootFourHalf
      (by
        have e : onePlusRootFourHalf.mRadicand = 4 := by decide
        rw [e]
        norm_num [sqrtOfFour])⟩

end vs

namespace PreprocessingModule

/-- Claim C35: for a constraint `c` with the relation `CR_EQ`, `CR_LEQ`, `CR_LESS` or `CR_NEQ`,
`rewritePotentialInequalities` with `invert = false` replaces `NOT(c)` by a formula that holds
exactly if `c` does not hold, for every value of the left-hand side: `NOT(p = 0)` becomes
`(p < 0 or -p < 0)`, `NOT(p <= 0)` becomes `-p < 0`, `NOT(p < 0)` becomes `-p <= 0` and
`NOT(p != 0)` becomes `p = 0`.  The value of `-p` is the negative of the value of `p`. -/
theorem rewritePotentialInequalities_negated_constraint {E : Type} [Neg E]
    (c : Constraint E) (ev : E → ℚ) (b : String → Bool) (hev : ∀ e, ev (-e) = -ev e)
    (hrel : c.relation = .CR_EQ ∨ c.relation = .CR_LEQ ∨ c.relation = .CR_LESS ∨
      c.relation = .CR_NEQ) :
    ∃ f : Formula E, rewritePotentialInequalities (.NOT [.REALCONSTRAINT c]) false = some f ∧
      f.holds ev b = !evaluate (ev c.lhs) c.relation ∧
      f.holds ev b = (Formula.NOT [.REALCONSTRAINT c]).holds ev b ∧
      (c.relation = .CR_EQ → f = .OR [.REALCONSTRAINT ⟨c.lhs, .CR_LESS⟩,
        .REALCONSTRAINT ⟨-c.lhs, .CR_LESS⟩]) ∧
      (c.relation = .CR_LEQ → f = .REALCONSTRAINT ⟨-c.lhs, .CR_LESS⟩) ∧
      (c.relation = .CR_LESS → f = .REALCONSTRAINT ⟨-c.lhs, .CR_LEQ⟩) ∧
      (c.relation = .CR_NEQ → f = .REALCONSTRAINT ⟨c.lhs, .CR_EQ⟩) := by
  have hnot : (Formula.NOT [.REALCONSTRAINT c]).holds ev b
      = !evaluate (ev c.lhs) c.relation := by
    simp [Formula.holds, Formula.holdsAll]
  rw [hnot]
  have hrw : rewritePotentialInequalities (.NOT [.REALCONSTRAINT c]) false
      = rewriteNegatedConstraint c := by
    rw [rewritePotentialInequalities]
    rfl
  rw [hrw]
  unfold rewriteNegatedConstraint newConstraint
  rcases hrel with h | h | h | h <;> rw [h] <;>
  refine ⟨_, rfl, ?_, ?_, ?_, ?_, ?_, ?_⟩ <;>
  first
    | (intro hh; first | rfl | cases hh)
    | skip
  all_goals
    simp only [Formula.holds, Formula.holdsSome, Formula.holdsAll, evaluate, hev,
      Bool.or_false]
  all_goals
    by_cases h1 : ev c.lhs < 0 <;> by_cases h2 : 0 < ev c.lhs <;>
    by_cases h3 : ev c.lhs = 0 <;> simp [h1, h2, h3] <;>
    first
      | linarith
      | exact h3 (le_antisymm (not_lt.mp h2) (not_lt.mp h1))

/-- Claim C35, witness: the constraint `5 = 0` under `NOT`, with integers as left-hand
sides. -/
theorem rewritePotentialInequalities_negated_constraint_witness :
    ∃ f : Formula Int,
      rewritePotentialInequalities (.NOT [.REALCONSTRAINT fiveEqualsZero]) false = some f ∧
      f.holds intValue (fun _ => false)
        = !evaluate (intValue fiveEqualsZero.lhs) fiveEqualsZero.relation ∧
      f.holds intValue (fun _ => false)
        = (Formula.NOT [.REALCONSTRAINT fiveEqualsZero]).holds intValue (fun _ => false) ∧
      (fiveEqualsZero.relation = .CR_EQ →
        f = .OR [.REALCONSTRAINT ⟨fiveEqualsZero.lhs, .CR_LESS⟩,
          .REALCONSTRAINT ⟨-fiveEqualsZero.lhs, .CR_LESS⟩]) ∧
      (fiveEqualsZero.relation = .CR_LEQ →
        f = .REALCONSTRAINT ⟨-fiveEqualsZero.lhs, .CR_LESS⟩) ∧
      (fiveEqualsZero.relation = .CR_LESS →
        f = .REALCONSTRAINT ⟨-fiveEqualsZero.lhs, .CR_LEQ⟩) ∧
      (fiveEqualsZero.relation = .CR_NEQ →
        f = .REALCONSTRAINT ⟨fiveEqualsZero.lhs, .CR_EQ⟩) :=
  rewritePotentialInequalities_negated_constraint fiveEqualsZero intValue (fun _ => false)
    (fun e => by unfold intValue; push_cast; rfl) (Or.inl rfl)

end PreprocessingModule

end smtrat

